import Mathlib

/-!
# QuickFOIL: a shallow embedding of the rule learner and its query engine

The definitions below follow the C++ sources of the repository
(`schema/`, `learner/`, `operations/`, `storage/`); each definition names the
function it embeds.  Machine integers are `Int`/`Nat`; vectors are lists;
pointers to predicates are the predicate records themselves.
-/

namespace QuickFoil

/-! ## schema/FoilVariable.hpp, FoilPredicate.hpp, FoilLiteral.hpp, FoilClause.hpp -/

/-- A variable: `variable_id = -1` when not bound (schema/FoilVariable.hpp). -/
structure FoilVariable where
  variable_id : Int
  variable_type_id : Int
deriving DecidableEq, Repr

namespace FoilVariable

/-- The constructor `FoilVariable(int variable_type_id)`: an unbound variable. -/
def unbound (variable_type_id : Int) : FoilVariable := ⟨-1, variable_type_id⟩

/-- Two variables are equal when their ids match (`FoilVariable::Equals`). -/
def Equals (a b : FoilVariable) : Bool := a.variable_id == b.variable_id

/-- A variable is bound when its id is non-negative (`FoilVariable::IsBound`). -/
def IsBound (v : FoilVariable) : Bool := decide (0 ≤ v.variable_id)

end FoilVariable

/-- A predicate without its fact table: id, key position (`-1` if none) and
argument types (schema/FoilPredicate.hpp). -/
structure FoilPredicate where
  id : Int
  key : Int
  argument_types : List Int
deriving DecidableEq, Repr

namespace FoilPredicate

/-- The arity (`FoilPredicate::num_arguments`). -/
def num_arguments (p : FoilPredicate) : Nat := p.argument_types.length

end FoilPredicate

/-- A literal: a predicate and one variable per argument (schema/FoilLiteral.hpp).
The member `join_key_` is a function of the variables, see `FoilLiteral.join_key`. -/
structure FoilLiteral where
  predicate : FoilPredicate
  vars : List FoilVariable
deriving DecidableEq, Repr

namespace FoilLiteral

/-- The literal with no variable yet (`FoilLiteral(const FoilPredicate*)`). -/
def empty (p : FoilPredicate) : FoilLiteral := ⟨p, []⟩

/-- Appends a variable (`FoilLiteral::AddVariable`). -/
def AddVariable (l : FoilLiteral) (v : FoilVariable) : FoilLiteral :=
  { l with vars := l.vars ++ [v] }

/-- Same predicate and pairwise equal variable ids (`FoilLiteral::Equals`). -/
def Equals (a b : FoilLiteral) : Bool :=
  decide (a.predicate = b.predicate) &&
    decide (a.vars.map FoilVariable.variable_id = b.vars.map FoilVariable.variable_id)

/-- All arguments bound (`FoilLiteral::IsBound`). -/
def IsBound (l : FoilLiteral) : Bool := l.vars.all FoilVariable.IsBound

/-- No argument bound (`FoilLiteral::AreAllVariablesUnBound`). -/
def AreAllVariablesUnBound (l : FoilLiteral) : Bool :=
  l.vars.all (fun v => !v.IsBound)

/-- One step of `FoilLiteral::UpdateJoinKey` at position `pos` holding `v`:
`jk` is the current join key (`none` for `-1`). -/
def UpdateJoinKey (vars : List FoilVariable) (jk : Option Nat) (pos : Nat) : Option Nat :=
  match vars.get? pos with
  | none => jk
  | some v =>
    if v.IsBound then
      match jk with
      | none => some pos
      | some k =>
        match vars.get? k with
        | some w => if w.variable_type_id < v.variable_type_id then some pos else jk
        | none => jk
    else jk

/-- The join key position after all variables were added (`FoilLiteral::join_key`). -/
def join_key (l : FoilLiteral) : Option Nat :=
  (List.range l.vars.length).foldl (UpdateJoinKey l.vars) none

/-- The member `join_key_` after the calls `AddVariable(v)` for the variables of the
first list, one after the other, on a literal that holds the variables `vars` and the
join key `jk`: each call appends the variable and runs `UpdateJoinKey` at the last
position. -/
def joinKeyAfterAdds : List FoilVariable → List FoilVariable → Option Nat → Option Nat
  | [], _, jk => jk
  | v :: rest, vars, jk =>
    joinKeyAfterAdds rest (vars ++ [v]) (UpdateJoinKey (vars ++ [v]) jk vars.length)

/-- The position `k` is a bound position among the first `n` whose type id is the largest
of the bound positions among the first `n`, and the first such position. -/
def IsJoinKeyAmong (vars : List FoilVariable) (n k : Nat) : Prop :=
  k < n ∧ ∃ v, vars.get? k = some v ∧ v.IsBound = true ∧
    (∀ j w, j < n → vars.get? j = some w → w.IsBound = true →
      w.variable_type_id ≤ v.variable_type_id) ∧
    (∀ j w, j < k → vars.get? j = some w → w.IsBound = true →
      w.variable_type_id < v.variable_type_id)

end FoilLiteral

/-- The logical part of a clause (schema/FoilClause.hpp): head, body, variables,
the variable count before the last body literal, and the random flags. -/
structure FoilClause where
  head_literal : FoilLiteral
  body_literals : List FoilLiteral
  vars : List FoilVariable
  num_variables_without_last_body_literal : Int
  random_flags : List Bool
deriving DecidableEq, Repr

namespace FoilClause

/-- The constructor `FoilClause(const FoilLiteral& head_literal)`: a head variable
is recorded when its id is the number of variables recorded so far. -/
def ofHead (head : FoilLiteral) : FoilClause :=
  { head_literal := head
    body_literals := []
    vars := head.vars.foldl
      (fun vs v => if v.variable_id = (vs.length : Int) then vs ++ [v] else vs) []
    num_variables_without_last_body_literal := head.vars.length
    random_flags := [] }

/-- The number of clause variables (`FoilClause::num_variables`). -/
def num_variables (c : FoilClause) : Nat := c.vars.length

/-- The loop of `FoilClause::AddUnBoundBodyLiteral`: unbound arguments get fresh
variable ids, appended to the clause variables. -/
def bindFresh : List FoilVariable → List FoilVariable → List FoilVariable →
    List FoilVariable × List FoilVariable
  | [], vars, acc => (vars, acc)
  | v :: rest, vars, acc =>
    if v.IsBound then bindFresh rest vars (acc ++ [v])
    else
      let nv : FoilVariable := ⟨(vars.length : Int), v.variable_type_id⟩
      bindFresh rest (vars ++ [nv]) (acc ++ [nv])

/-- Adds a body literal (`FoilClause::AddUnBoundBodyLiteral`). -/
def AddUnBoundBodyLiteral (c : FoilClause) (body_literal : FoilLiteral) (is_random : Bool) :
    FoilClause :=
  let r := bindFresh body_literal.vars c.vars []
  { head_literal := c.head_literal
    body_literals := c.body_literals ++ [⟨body_literal.predicate, r.2⟩]
    vars := r.1
    num_variables_without_last_body_literal := c.vars.length
    random_flags := c.random_flags ++ [is_random] }

/-- The loop of `FoilClause::AddBoundBodyLiteral` over the variables of the literal:
`resize` fills the gap with default variables; `none` for an index below zero. -/
def bindGiven : List FoilVariable → List FoilVariable → Option (List FoilVariable)
  | [], vars => some vars
  | v :: rest, vars =>
    if v.variable_id ≥ (vars.length : Int) then
      bindGiven rest
        (vars ++ List.replicate (v.variable_id.toNat - vars.length) ⟨-1, -1⟩ ++ [v])
    else if v.variable_id < 0 then none
    else
      match vars.get? v.variable_id.toNat with
      | none => none
      | some w =>
        if w.IsBound then bindGiven rest vars
        else bindGiven rest (vars.set v.variable_id.toNat v)

/-- Adds a bound body literal (`FoilClause::AddBoundBodyLiteral`, used by `FoilParser`). -/
def AddBoundBodyLiteral (c : FoilClause) (body_literal : FoilLiteral) (is_random : Bool) :
    Option FoilClause :=
  (bindGiven body_literal.vars c.vars).map (fun vs =>
    { head_literal := c.head_literal
      body_literals := c.body_literals ++ [body_literal]
      vars := vs
      num_variables_without_last_body_literal := c.vars.length
      random_flags := c.random_flags ++ [is_random] })

/-- The clause `FoilParser::CreateClauseFromString` builds from the parsed head and body
literals. -/
def CreateClause (head : FoilLiteral) (body : List FoilLiteral) : Option FoilClause :=
  body.foldlM (fun c l => c.AddBoundBodyLiteral l false) (ofHead head)

/-- The literal `FoilParser::CreateLiteralFromString` builds from a predicate and the
variable ids read from the string: argument `i` gets the type of argument `i`. -/
def CreateLiteral (p : FoilPredicate) (ids : List Int) : FoilLiteral :=
  ⟨p, ids.enum.map (fun e => ⟨e.2, p.argument_types.getD e.1 (-1)⟩)⟩

end FoilClause

/-! ## learner/CandidateLiteralEnumerator.cpp -/

/-- A map from predicates to vectors (`std::unordered_map<const FoilPredicate*, Vector<...>>`)
as an association list in insertion order. -/
abbrev PredMap (α : Type) := List (FoilPredicate × List α)

namespace PredMap

/-- The vector stored for a predicate, empty when the predicate has no entry. -/
def lookup {α : Type} (m : PredMap α) (p : FoilPredicate) : List α :=
  match m.find? (fun e => decide (e.1 = p)) with
  | some e => e.2
  | none => []

/-- Whether the predicate has an entry (`find(p) != end()`). -/
def contains {α : Type} (m : PredMap α) (p : FoilPredicate) : Bool :=
  m.any (fun e => decide (e.1 = p))

/-- The call `emplace(p, v)`: inserts only when the predicate has no entry yet. -/
def emplace {α : Type} (m : PredMap α) (p : FoilPredicate) (v : List α) : PredMap α :=
  if m.contains p then m else m ++ [(p, v)]

/-- The call `(*m)[p]` followed by appending `xs` to the vector found or created. -/
def append {α : Type} (m : PredMap α) (p : FoilPredicate) (xs : List α) : PredMap α :=
  if m.contains p then m.map (fun e => if e.1 = p then (e.1, e.2 ++ xs) else e)
  else m ++ [(p, xs)]

end PredMap

/-- The results of the previous literal search (learner/LiteralSearchStats.hpp): the
generated literals, if any, and the literals pruned by their covered results; a
pointer to a generated literal is its predicate and its index in the vector. -/
structure LiteralSearchStats where
  generated_candidate_literals : Option (PredMap FoilLiteral)
  pruned_literals_by_covered_results : List (FoilPredicate × Nat)
deriving Repr

/-- The stats of the default constructor `LiteralSearchStats()`. -/
def LiteralSearchStats.none : LiteralSearchStats := ⟨Option.none, []⟩

/-- The map built in the enumerator by appending every variable to the vector of its
type: looking a type up gives the variables of that type in their order (and no
entry, read as the empty vector, when there is none). -/
def variable_type_to_variable_map (vs : List FoilVariable) (t : Int) : List FoilVariable :=
  vs.filter (fun v => decide (v.variable_type_id = t))

/-- The candidate variables of every argument followed by the unbound marker
(`GenerateVariableVectorForPredicate<has_key>`). -/
def GenerateVariableVectorForPredicate (has_key : Bool) (type_map : Int → List FoilVariable)
    (predicate : FoilPredicate) (key_variables : List FoilVariable) :
    List (List FoilVariable) :=
  predicate.argument_types.map (fun t =>
    (if has_key then
      (type_map t).filter (fun v => !(key_variables.any (fun k => k.Equals v)))
     else type_map t) ++ [FoilVariable.unbound t])

/-- The body of the loop shared by `GenerateCandidateLiterals` and
`GenerateCandidateLiteralsFromAnother`: every literal is extended in place with the
first candidate variable, and its copies extended with the other candidate variables
are appended after all of them.  Reading `candidate_variables[0]` of an empty vector
is an error. -/
def extendCandidates (candidate_variables : List FoilVariable)
    (candidate_literals : List FoilLiteral) : Option (List FoilLiteral) :=
  match candidate_variables with
  | [] => if candidate_literals.isEmpty then some [] else none
  | v0 :: rest =>
    some (candidate_literals.map (fun l => l.AddVariable v0) ++
      candidate_literals.flatMap (fun l => rest.map (fun v => l.AddVariable v)))

/-- The recursion `CandidateLiteralEnumerator::GenerateCandidateLiterals`, from argument
`num_arguments_filled` on; `none` when `variables_per_argument[num_arguments_filled]`
is out of range. -/
def GenerateCandidateLiterals (num_arguments_filled : Nat)
    (variables_per_argument : List (List FoilVariable))
    (candidate_literals : List FoilLiteral) : Option (List FoilLiteral) :=
  match variables_per_argument.drop num_arguments_filled with
  | [] => none
  | cvs => cvs.foldlM (fun c cv => extendCandidates cv c) candidate_literals

/-- One argument of `GenerateCandidateLiteralsFromAnother`: a bound argument of the base
literal is copied, an unbound one ranges over the candidate variables. -/
def fromAnotherStep (base_literal : FoilLiteral)
    (variables_per_argument : List (List FoilVariable))
    (candidate_literals : List FoilLiteral) (i : Nat) : Option (List FoilLiteral) :=
  match base_literal.vars.get? i with
  | none => none
  | some bv =>
    if bv.IsBound then some (candidate_literals.map (fun l => l.AddVariable bv))
    else
      match variables_per_argument.get? i with
      | none => none
      | some cv => extendCandidates cv candidate_literals

/-- The recursion `CandidateLiteralEnumerator::GenerateCandidateLiteralsFromAnother`. -/
def GenerateCandidateLiteralsFromAnother (base_literal : FoilLiteral)
    (num_arguments_filled : Nat) (variables_per_argument : List (List FoilVariable))
    (candidate_literals : List FoilLiteral) : Option (List FoilLiteral) :=
  if num_arguments_filled < variables_per_argument.length then
    (List.range' num_arguments_filled
        (variables_per_argument.length - num_arguments_filled)).foldlM
      (fromAnotherStep base_literal variables_per_argument) candidate_literals
  else none

/-- The body of the loop over the background predicates in
`EnumerateForMostGeneralClauseFromScratch`, on the two output maps. -/
def fromScratchStep (building_clause : FoilClause)
    (acc : PredMap FoilLiteral × PredMap FoilLiteral) (background_predicate : FoilPredicate) :
    Option (PredMap FoilLiteral × PredMap FoilLiteral) :=
  let variables_per_argument := GenerateVariableVectorForPredicate false
    (variable_type_to_variable_map building_clause.vars) background_predicate []
  match GenerateCandidateLiterals 0 variables_per_argument
      [FoilLiteral.empty background_predicate] with
  | none => none
  | some generated =>
    let literals_with_new_vars_only := generated.dropLast
    if literals_with_new_vars_only.isEmpty then some acc
    else
      let entire :=
        if background_predicate ≠ building_clause.head_literal.predicate then
          acc.1.emplace background_predicate literals_with_new_vars_only
        else
          acc.1.append background_predicate
            (literals_with_new_vars_only.filter
              (fun l => !(l.Equals building_clause.head_literal)))
      some (entire, acc.2.append background_predicate (entire.lookup background_predicate))

/-- The function `EnumerateForMostGeneralClauseFromScratch`: the entire and the pruned
generated literals. -/
def EnumerateForMostGeneralClauseFromScratch (background_predicates : List FoilPredicate)
    (building_clause : FoilClause) : Option (PredMap FoilLiteral × PredMap FoilLiteral) :=
  background_predicates.foldlM (fromScratchStep building_clause) ([], [])

/-- The old literals of a vector that are not recorded as pruned by coverage, with
their index. -/
def keptLiterals (stats : LiteralSearchStats) (p : FoilPredicate) (olds : List FoilLiteral) :
    List FoilLiteral :=
  (olds.enum.filter (fun e => !(stats.pruned_literals_by_covered_results.contains (p, e.1)))).map
    Prod.snd

/-- The function `EnumerateForMostGeneralClause`. -/
def EnumerateForMostGeneralClause (background_predicates : List FoilPredicate)
    (building_clause : FoilClause) (last_run_stats : LiteralSearchStats) :
    Option (PredMap FoilLiteral × PredMap FoilLiteral) :=
  match last_run_stats.generated_candidate_literals with
  | none => EnumerateForMostGeneralClauseFromScratch background_predicates building_clause
  | some generated =>
    some (generated.foldl (fun acc group =>
      let entire := acc.1.append group.1 (keptLiterals last_run_stats group.1 group.2)
      (entire, acc.2.append group.1 (entire.lookup group.1))) ([], []))

/-- The body of the loop over the groups of the previous search in
`EnumerateForMostGeneralClause`, on the two output maps. -/
def reuseStep (last_run_stats : LiteralSearchStats)
    (acc : PredMap FoilLiteral × PredMap FoilLiteral)
    (group : FoilPredicate × List FoilLiteral) : PredMap FoilLiteral × PredMap FoilLiteral :=
  let entire := acc.1.append group.1 (keptLiterals last_run_stats group.1 group.2)
  (entire, acc.2.append group.1 (entire.lookup group.1))

/-! ### The canonical database and the replaceable-duplicate check -/

/-- The map from predicate ids to the body literals of the predicate
(`predicate_to_body_literals_map`), in the order of first occurrence.  The iteration
order of the `std::unordered_map` is not specified by the language. -/
def predicate_to_body_literals_map (body : List FoilLiteral) : List (Int × List FoilLiteral) :=
  body.foldl (fun m l =>
    if m.any (fun e => decide (e.1 = l.predicate.id)) then
      m.map (fun e => if e.1 = l.predicate.id then (e.1, e.2 ++ [l]) else e)
    else m ++ [(l.predicate.id, [l])]) []

/-- Reads `row[id]`; `none` when the index is negative or past the end. -/
def rowGet (row : List Int) (id : Int) : Option Int :=
  if id < 0 then none else row.get? id.toNat

/-- Writes `row[id] = x`; `none` when the index is negative or past the end. -/
def rowSet (row : List Int) (id : Int) (x : Int) : Option (List Int) :=
  if id < 0 then none
  else if id.toNat < row.length then some (row.set id.toNat x) else none

/-- The row of variable ids of a literal (`AddRowToCanonicalRelationForExistingLiteral`). -/
def existingLiteralRow (literal : FoilLiteral) : List Int :=
  literal.vars.map FoilVariable.variable_id

/-- The row of a new literal, unbound arguments numbered from `new_variable_start_id`
(`AddRowToCanonicalRelationForNewLiteral`). -/
def newLiteralRow : List FoilVariable → Int → List Int
  | [], _ => []
  | v :: rest, start =>
    if v.IsBound then v.variable_id :: newLiteralRow rest start
    else start :: newLiteralRow rest (start + 1)

/-- The inner comparison loop of `NestedLoopsJoin`, over the positions of the predicate
row: `some true` when the loop reaches the end, `some false` on `break`. -/
def rowMatches (check_bound_variable : Bool) (literal : FoilLiteral) (joined_row : List Int) :
    List (Nat × Int) → Option Bool
  | [] => some true
  | (i, x) :: rest =>
    match literal.vars.get? i with
    | none => none
    | some v =>
      if check_bound_variable && !v.IsBound then
        rowMatches check_bound_variable literal joined_row rest
      else
        match rowGet joined_row v.variable_id with
        | none => none
        | some y =>
          if y ≠ -1 ∧ y ≠ x then some false
          else rowMatches check_bound_variable literal joined_row rest

/-- The loop of `NestedLoopsJoin` that fills the unassigned positions of the new row. -/
def extendRow (literal : FoilLiteral) (new_row : List Int) : List (Nat × Int) → Option (List Int)
  | [] => some new_row
  | (i, x) :: rest =>
    match literal.vars.get? i with
    | none => none
    | some v =>
      match rowGet new_row v.variable_id with
      | none => none
      | some y =>
        if y = -1 then
          match rowSet new_row v.variable_id x with
          | none => none
          | some r => extendRow literal r rest
        else extendRow literal new_row rest

/-- The two nested loops of `NestedLoopsJoin` over the pairs (predicate row, joined row);
`acc` is `new_canonical_joined_rel`. -/
def nestedLoops (check_bound_variable return_if_any : Bool) (literal : FoilLiteral)
    (joined : List (List Int)) (acc : List (List Int)) :
    List (List Int × List Int) → Option (Bool × List (List Int))
  | [] => some (!acc.isEmpty, acc)
  | (predicate_row, joined_row) :: rest =>
    match rowMatches check_bound_variable literal joined_row predicate_row.enum with
    | none => none
    | some false => nestedLoops check_bound_variable return_if_any literal joined acc rest
    | some true =>
      if return_if_any then some (true, joined)
      else
        match extendRow literal joined_row predicate_row.enum with
        | none => none
        | some r =>
          nestedLoops check_bound_variable return_if_any literal joined (acc ++ [r]) rest

/-- The template `NestedLoopsJoin<check_bound_variable, return_if_any>`: the returned flag
and the value of `*canonical_joined_rel` on return. -/
def NestedLoopsJoin (check_bound_variable return_if_any : Bool) (literal : FoilLiteral)
    (canonical_predicate_rel : List (List Int)) (canonical_joined_rel : List (List Int)) :
    Option (Bool × List (List Int)) :=
  nestedLoops check_bound_variable return_if_any literal canonical_joined_rel []
    (canonical_predicate_rel.flatMap (fun p => canonical_joined_rel.map (fun j => (p, j))))

/-- Joins the literals one after the other with `NestedLoopsJoin<false, false>`. -/
def joinAll (literals : List FoilLiteral) (rel : List (List Int)) (joined : List (List Int)) :
    Option (List (List Int)) :=
  literals.foldlM (fun j l => (NestedLoopsJoin false false l rel j).map Prod.snd) joined

/-- The first rows of the joined relation in `CreateCanonicalDatabase`: each row of the
relation is written at the variable ids of the first literal. -/
def seedRows (num_variables : Nat) (first_literal : FoilLiteral) (rel : List (List Int)) :
    Option (List (List Int)) :=
  rel.mapM (fun row =>
    row.enum.foldlM (fun (r : List Int) (e : Nat × Int) =>
      match first_literal.vars.get? e.1 with
      | none => none
      | some v => rowSet r v.variable_id e.2) (List.replicate num_variables (-1)))

/-- The body of the loop over `predicate_to_body_literals_map` in
`CreateCanonicalDatabase`; the state is the joined relation and `has_joined_head_literal`. -/
def canonicalDbStep (clause : FoilClause) (predicate : FoilPredicate)
    (st : List (List Int) × Bool) (map_pair : Int × List FoilLiteral) :
    Option (List (List Int) × Bool) :=
  if map_pair.1 = predicate.id then some st
  else
    let body_rows := map_pair.2.map existingLiteralRow
    let add_head := !st.2 && decide (clause.head_literal.predicate.id = map_pair.1)
    let rel := if add_head then body_rows ++ [existingLiteralRow clause.head_literal]
               else body_rows
    let has_joined := st.2 || add_head
    if st.1.isEmpty then
      match map_pair.2 with
      | [] => none
      | first_literal :: others =>
        match seedRows clause.num_variables first_literal rel with
        | none => none
        | some seeded => (joinAll others rel seeded).map (fun j => (j, has_joined))
    else (joinAll map_pair.2 rel st.1).map (fun j => (j, has_joined))

/-- The function `CreateCanonicalDatabase`: the join of the literals of all predicates but
`predicate`, and of the head literal. -/
def CreateCanonicalDatabase (clause : FoilClause) (predicate : FoilPredicate)
    (p2b : List (Int × List FoilLiteral)) : Option (List (List Int)) :=
  match p2b.foldlM (canonicalDbStep clause predicate) ([], false) with
  | none => none
  | some (joined, has_joined_head_literal) =>
    if has_joined_head_literal then some joined
    else if joined.isEmpty then
      clause.head_literal.vars.foldlM
        (fun (r : List Int) v => rowSet r v.variable_id v.variable_id)
        (List.replicate clause.num_variables (-1)) |>.map (fun r => [r])
    else
      (NestedLoopsJoin false false clause.head_literal
        [existingLiteralRow clause.head_literal] joined).map Prod.snd

/-- One iteration of the loop over `literal_index` in `CheckReplaceableDuplicate`. -/
def checkReplaces (clause : FoilClause) (literal : FoilLiteral) (db : List (List Int))
    (existing : List FoilLiteral) (literal_index : Nat) : Option Bool :=
  let rel_without := existing.map existingLiteralRow
  match joinAll (existing.eraseIdx literal_index) rel_without db with
  | none => none
  | some joined =>
    match NestedLoopsJoin true true literal rel_without joined with
    | none => none
    | some (false, _) => some false
    | some (true, _) =>
      let rel_with := rel_without.eraseIdx literal_index ++
        [newLiteralRow literal.vars clause.num_variables]
      match joinAll existing.dropLast rel_with db with
      | none => none
      | some joined2 =>
        match existing.getLast? with
        | none => none
        | some last => (NestedLoopsJoin false true last rel_with joined2).map Prod.fst

/-- The loop over `literal_index`: stops with `true` at the first replaceable literal. -/
def checkReplacesAny (clause : FoilClause) (literal : FoilLiteral) (db : List (List Int))
    (existing : List FoilLiteral) : List Nat → Option Bool
  | [] => some false
  | k :: rest =>
    match checkReplaces clause literal db existing k with
    | none => none
    | some true => some true
    | some false => checkReplacesAny clause literal db existing rest

/-- The function `CheckReplaceableDuplicate`; the canonical database is computed on each
call (the cache `canonical_databases_` holds the same value for one clause). -/
def CheckReplaceableDuplicate (clause : FoilClause) (literal : FoilLiteral)
    (p2b : List (Int × List FoilLiteral)) : Option Bool :=
  match p2b.find? (fun e => decide (e.1 = literal.predicate.id)) with
  | none => none
  | some (_, existing) =>
    if existing.isEmpty then some false
    else
      match CreateCanonicalDatabase clause literal.predicate p2b with
      | none => none
      | some db => checkReplacesAny clause literal db existing (List.range existing.length)

/-- The check as the test fixture runs it (`IsReplaceableDuplicateLiteralToClause`), on
the map built from the body of the clause. -/
def IsReplaceableDuplicateLiteralToClause (clause : FoilClause) (literal : FoilLiteral) :
    Option Bool :=
  CheckReplaceableDuplicate clause literal (predicate_to_body_literals_map clause.body_literals)

/-! ### Enumeration for a clause with a body -/

/-- The variables of the last body literal that the literal introduced: those with an id
not below `num_variables_without_last_body_literal`
(the loop over `new_literal.variables()` in `EnumerateForNonMostGeneralClause`). -/
def newVariables (building_clause : FoilClause) (new_literal : FoilLiteral) : List FoilVariable :=
  new_literal.vars.filter
    (fun v => decide (v.variable_id ≥ building_clause.num_variables_without_last_body_literal))

/-- The set `key_variables` of `GenerateAndPruneCandidateLiteralForPredicate<has_key>`: the
variables of the body literals of the predicate at its key position; `none` when
`variable_at` reads past the arguments. -/
def keyVariables (has_key : Bool) (background_predicate : FoilPredicate)
    (body_literals_with_predicate : Option (List FoilLiteral)) : Option (List FoilVariable) :=
  if has_key then
    match body_literals_with_predicate with
    | none => some []
    | some ls =>
      ls.mapM (fun l =>
        if background_predicate.key < 0 then none
        else l.vars.get? background_predicate.key.toNat)
  else some []

/-- The loop over the old literals of the predicate that were not pruned by coverage: the
extensions of the old literal without the last one, then the old literal itself unless it
equals the last body literal. -/
def extendOldLiterals (last_body_literal : FoilLiteral) (background_predicate : FoilPredicate)
    (variables_per_argument : List (List FoilVariable)) (kept : List FoilLiteral) :
    Option (List FoilLiteral) :=
  kept.foldlM (fun (vec : List FoilLiteral) old_literal =>
    match GenerateCandidateLiteralsFromAnother old_literal 0 variables_per_argument
        [FoilLiteral.empty background_predicate] with
    | none => none
    | some new_extended =>
      some (vec ++ new_extended.dropLast ++
        (if last_body_literal.Equals old_literal then [] else [old_literal]))) []

/-- The literals kept by the replaceable-duplicate check, in order; `none` when a check
is undefined. -/
def pruneDuplicates (building_clause : FoilClause) (p2b : List (Int × List FoilLiteral)) :
    List FoilLiteral → Option (List FoilLiteral)
  | [] => some []
  | l :: rest =>
    match CheckReplaceableDuplicate building_clause l p2b with
    | none => none
    | some d =>
      match pruneDuplicates building_clause p2b rest with
      | none => none
      | some r => some (if d then r else l :: r)

/-- The function `GenerateAndPruneCandidateLiteralForPredicate<has_key>` on the two output
maps. -/
def GenerateAndPruneCandidateLiteralForPredicate (has_key : Bool) (building_clause : FoilClause)
    (last_run_stats : LiteralSearchStats) (background_predicate : FoilPredicate)
    (type_map : Int → List FoilVariable) (p2b : List (Int × List FoilLiteral))
    (acc : PredMap FoilLiteral × PredMap FoilLiteral) :
    Option (PredMap FoilLiteral × PredMap FoilLiteral) :=
  let body_literals_with_predicate :=
    (p2b.find? (fun e => decide (e.1 = background_predicate.id))).map Prod.snd
  match keyVariables has_key background_predicate body_literals_with_predicate with
  | none => none
  | some key_variables =>
    let variables_per_argument := GenerateVariableVectorForPredicate
      (has_key && !key_variables.isEmpty) type_map background_predicate key_variables
    match GenerateCandidateLiterals 0 variables_per_argument
        [FoilLiteral.empty background_predicate] with
    | none => none
    | some generated =>
      let entire1 := acc.1.emplace background_predicate generated.dropLast
      match last_run_stats.generated_candidate_literals, building_clause.body_literals.getLast? with
      | some old_map, some last_body_literal =>
        match extendOldLiterals last_body_literal background_predicate variables_per_argument
            (keptLiterals last_run_stats background_predicate
              (old_map.lookup background_predicate)) with
        | none => none
        | some additions =>
          let entire := entire1.append background_predicate additions
          let vec := entire.lookup background_predicate
          match body_literals_with_predicate with
          | none => some (entire, acc.2.append background_predicate vec)
          | some _ =>
            match pruneDuplicates building_clause p2b vec with
            | none => none
            | some kept => some (entire, acc.2.append background_predicate kept)
      | _, _ => none

/-- The function `EnumerateForNonMostGeneralClause`. -/
def EnumerateForNonMostGeneralClause (background_predicates : List FoilPredicate)
    (building_clause : FoilClause) (last_run_stats : LiteralSearchStats) :
    Option (PredMap FoilLiteral × PredMap FoilLiteral) :=
  match building_clause.body_literals.getLast? with
  | none => none
  | some new_literal =>
    let type_map := variable_type_to_variable_map (newVariables building_clause new_literal)
    let p2b := predicate_to_body_literals_map building_clause.body_literals
    background_predicates.foldlM (fun acc background_predicate =>
      GenerateAndPruneCandidateLiteralForPredicate (decide (background_predicate.key ≥ 0))
        building_clause last_run_stats background_predicate type_map p2b acc) ([], [])

/-- The entry point `CandidateLiteralEnumerator::EnumerateCandidateLiterals`: the entire
and the pruned generated literals. -/
def EnumerateCandidateLiterals (background_predicates : List FoilPredicate)
    (building_clause : FoilClause) (last_run_stats : LiteralSearchStats) :
    Option (PredMap FoilLiteral × PredMap FoilLiteral) :=
  if building_clause.body_literals.isEmpty then
    EnumerateForMostGeneralClause background_predicates building_clause last_run_stats
  else EnumerateForNonMostGeneralClause background_predicates building_clause last_run_stats

/-- The literal of a predicate with every argument unbound. -/
def allUnboundLiteral (p : FoilPredicate) : FoilLiteral :=
  ⟨p, p.argument_types.map FoilVariable.unbound⟩

/-- A literal of predicate `p` whose argument at each position is a variable of `vs` of
the type of the position, or the unbound marker of that type. -/
def IsCandidateOver (vs : List FoilVariable) (p : FoilPredicate) (l : FoilLiteral) : Prop :=
  l.predicate = p ∧
    List.Forall₂ (fun t v => (v ∈ vs ∧ v.variable_type_id = t) ∨ v = FoilVariable.unbound t)
      p.argument_types l.vars

/-- The number of literals of the Cartesian product: the product over the positions of
the number of candidate variables plus one. -/
def productSize (vs : List FoilVariable) (p : FoilPredicate) : Nat :=
  (p.argument_types.map (fun t => (variable_type_to_variable_map vs t).length + 1)).prod

/-! ### Runs of the enumerator along the extensions of a clause -/

/-- One extension of the clause under construction: the literal that is added to the body,
its random flag, and the literals of the search that are recorded as pruned by their
covered results (pointers into the generated literals of that search). -/
structure ExtensionStep where
  literal : FoilLiteral
  is_random : Bool
  pruned : List (FoilPredicate × Nat)
deriving Repr

/-- One iteration of the search loop as far as the enumerator is concerned: the
candidate literals of the clause are enumerated, the literal of the step is added to the
clause, and the stats of the next search are the generated literals and the recorded
pruned literals (`QuickFoil::Learn`, `RunEnumeratorWithClauseSequences`). -/
def runStep (background_predicates : List FoilPredicate)
    (st : FoilClause × LiteralSearchStats) (s : ExtensionStep) :
    Option (FoilClause × LiteralSearchStats) :=
  match EnumerateCandidateLiterals background_predicates st.1 st.2 with
  | none => none
  | some (entire, _) =>
    some (st.1.AddUnBoundBodyLiteral s.literal s.is_random, ⟨some entire, s.pruned⟩)

/-- The entire generated literals of the last search, after the given extensions of the
most general clause of `head`. -/
def enumeratorRun (background_predicates : List FoilPredicate) (head : FoilLiteral)
    (steps : List ExtensionStep) : Option (PredMap FoilLiteral) :=
  match steps.foldlM (runStep background_predicates)
      (FoilClause.ofHead head, LiteralSearchStats.none) with
  | none => none
  | some st => (EnumerateCandidateLiterals background_predicates st.1 st.2).map Prod.fst

/-- The clause after the given extensions of the most general clause of `head`. -/
def clauseAfter (head : FoilLiteral) (steps : List ExtensionStep) : FoilClause :=
  steps.foldl (fun c s => c.AddUnBoundBodyLiteral s.literal s.is_random) (FoilClause.ofHead head)

/-- The literals of the steps are literals of background predicates, with one variable
per argument, whose bound variables are variables of the clause they extend. -/
def validExtensions (background_predicates : List FoilPredicate) :
    FoilClause → List ExtensionStep → Bool
  | _, [] => true
  | c, s :: rest =>
    decide (s.literal.predicate ∈ background_predicates) &&
    decide (s.literal.vars.length = s.literal.predicate.num_arguments) &&
    s.literal.vars.all (fun v => decide (v.variable_id < (c.num_variables : Int))) &&
    validExtensions background_predicates (c.AddUnBoundBodyLiteral s.literal s.is_random) rest

/-- What holds of a clause built from the most general clause of `head` by extensions
with valid literals: the variables are numbered from zero in order, the head is `head`
and its variables are clause variables, and every body literal is a bound literal of a
background predicate over the clause variables with one variable per argument. -/
structure ClauseInvariant (background_predicates : List FoilPredicate) (head : FoilLiteral)
    (c : FoilClause) : Prop where
  ids : c.vars.map FoilVariable.variable_id = (List.range c.vars.length).map Int.ofNat
  head_eq : c.head_literal = head
  head_vars : ∀ v ∈ head.vars, 0 ≤ v.variable_id ∧ v.variable_id < (c.vars.length : Int)
  body : ∀ b ∈ c.body_literals,
    (∀ v ∈ b.vars, 0 ≤ v.variable_id ∧ v.variable_id < (c.vars.length : Int)) ∧
      b.vars.length = b.predicate.num_arguments ∧ b.predicate ∈ background_predicates

/-- The literal with every variable of id `m` or more replaced by the unbound marker. -/
def restrictTo (m : Nat) (l : FoilLiteral) : FoilLiteral :=
  ⟨l.predicate, l.vars.map (fun v =>
    if (m : Int) ≤ v.variable_id then FoilVariable.unbound v.variable_type_id else v)⟩

/-- The literal `l` is obtained from `l0` by binding unbound positions (none, some or all
of them) to variables introduced later than the first `m` variables. -/
def laterVariablesExtension (m : Nat) (l0 l : FoilLiteral) : Prop :=
  l.predicate = l0.predicate ∧
    List.Forall₂ (fun v0 v => v = v0 ∨ (v0.IsBound = false ∧ (m : Int) ≤ v.variable_id))
      l0.vars l.vars

/-- The literal `l0` of predicate `p` was recorded as pruned by coverage in iteration `j`:
a pointer recorded in step `j` points at it in the literals generated for the clause
after `j` extensions. -/
def RecordedPruned (background_predicates : List FoilPredicate) (head : FoilLiteral)
    (steps : List ExtensionStep) (j : Nat) (p : FoilPredicate) (l0 : FoilLiteral) : Prop :=
  ∃ s generated idx, steps.get? j = some s ∧
    enumeratorRun background_predicates head (steps.take j) = some generated ∧
    (p, idx) ∈ s.pruned ∧ (generated.lookup p).get? idx = some l0

/-- The from-scratch set of the clause after the steps: the type-compatible literals over
the variables of the clause and the unbound marker, without the all-unbound literal, the
literals equal to the head, and the literals equal to a fully bound literal that was
added to the body. -/
def FromScratchSet (head : FoilLiteral) (steps : List ExtensionStep) (p : FoilPredicate)
    (l : FoilLiteral) : Prop :=
  IsCandidateOver (clauseAfter head steps).vars p l ∧ l.AreAllVariablesUnBound = false ∧
    l.Equals head = false ∧
    ∀ s ∈ steps, s.literal.IsBound = true → l.Equals s.literal = false

/-- The from-scratch set minus the literals recorded as pruned by coverage in an earlier
iteration and the literals obtained from them by binding unbound positions to variables
introduced later. -/
def RefinedSet (background_predicates : List FoilPredicate) (head : FoilLiteral)
    (steps : List ExtensionStep) (p : FoilPredicate) (l : FoilLiteral) : Prop :=
  FromScratchSet head steps p l ∧
    ¬ ∃ j l0, j < steps.length ∧ RecordedPruned background_predicates head steps j p l0 ∧
      laterVariablesExtension (clauseAfter head (steps.take j)).num_variables l0 l

/-! ### A predicate with a key -/

/-- A predicate `p_0` with two arguments of one type and its key at position `0`. -/
def keyedPredicate : FoilPredicate := ⟨0, 0, [0, 0]⟩

/-- The clause `p_1(0, 1) :- p_0(0, 2)`, obtained from the most general clause of `p_1`
by adding the candidate `p_0(0, -1)`. -/
def keyedClause : FoilClause :=
  (FoilClause.ofHead ⟨⟨1, -1, [0, 0]⟩, [⟨0, 0⟩, ⟨1, 0⟩]⟩).AddUnBoundBodyLiteral
    ⟨keyedPredicate, [⟨0, 0⟩, ⟨-1, 0⟩]⟩ false

/-- The literals generated for `p_0` in the search on the most general clause of `p_1`. -/
def keyedGenerated : PredMap FoilLiteral :=
  [(keyedPredicate,
    [FoilClause.CreateLiteral keyedPredicate [0, 0], FoilClause.CreateLiteral keyedPredicate [1, 0],
     FoilClause.CreateLiteral keyedPredicate [-1, 0], FoilClause.CreateLiteral keyedPredicate [0, 1],
     FoilClause.CreateLiteral keyedPredicate [0, -1], FoilClause.CreateLiteral keyedPredicate [1, 1],
     FoilClause.CreateLiteral keyedPredicate [1, -1],
     FoilClause.CreateLiteral keyedPredicate [-1, 1]])]

/-- The variable `v` stands at the key position of a body literal of the clause whose
predicate has the id of `predicate`. -/
def IsKeyVariableOf (clause : FoilClause) (predicate : FoilPredicate) (v : FoilVariable) :
    Prop :=
  ∃ b ∈ clause.body_literals, b.predicate.id = predicate.id ∧
    ∃ w, b.vars.get? predicate.key.toNat = some w ∧ w.Equals v = true

/-- Every bound argument of the literal that stands at the key position of a body literal
of the predicate is an argument that a literal of `olds` has at the same position. -/
def KeyVariablesFrom (clause : FoilClause) (predicate : FoilPredicate)
    (olds : List FoilLiteral) (L : FoilLiteral) : Prop :=
  ∀ i v, L.vars.get? i = some v → v.IsBound = true → IsKeyVariableOf clause predicate v →
    ∃ old ∈ olds, old.vars.get? i = some v

/-! ## learner/CandidateLiteralEvaluator.cpp: GeneratePredicateEvaluationPlan -/

/-- The outcome of a loop run with a bound on the number of iterations. -/
inductive LoopResult (α : Type) where
  | finished : α → LoopResult α
  | out_of_fuel : LoopResult α
  | undefined_behaviour : LoopResult α
deriving Repr, DecidableEq

/-- Inserts into a `std::unordered_set<int>`, kept as the list of its elements in
insertion order. -/
def setInsert (s : List Nat) (x : Nat) : List Nat := if x ∈ s then s else s ++ [x]

/-- Erases from a `std::unordered_set<int>`. -/
def setErase (s : List Nat) (x : Nat) : List Nat := s.filter (fun y => decide (y ≠ x))

/-- The comparison `==` of two `std::unordered_set<int>`. -/
def setEq (a b : List Nat) : Bool := decide (a.length = b.length) && a.all (fun x => decide (x ∈ b))

/-- Replaces the element at an index (`v[i] = f(v[i])`). -/
def updateAt {α : Type} (l : List α) (i : Nat) (f : α → α) : List α :=
  match l.get? i with
  | some x => l.set i (f x)
  | none => l

/-- The local struct `PredicateInfo` of the plan builder; `literal` is the index of the
attached candidate and `plan_node` the index of the node in the plan. -/
structure PredicateInfo where
  predicate_atoms : List Nat
  literal_ids : List Nat
  mergeable_nodes : List Nat
  literal : Option Nat
  plan_node : Option Nat
  left_predicate_id : Int
  right_predicate_id : Int
  reference_count : Int
deriving Repr, DecidableEq, Inhabited

/-- A node of the plan (`PredicateTreeNode`, `ConjunctivePredicateTreeNode`): the attached
candidate, and for a conjunction the indices of its two children in `tree_nodes`. -/
structure PredicateTreeNode where
  literal : Option Nat
  children : Option (Option Nat × Option Nat)
deriving Repr, DecidableEq

/-- The plan of one candidate group (learner/PredicateEvaluationPlan.hpp). -/
structure PredicateEvaluationPlan where
  literal : Option Nat
  tree_nodes : List PredicateTreeNode
  num_atom_tree_nodes : Nat
deriving Repr, DecidableEq

/-- The variables of `GeneratePredicateEvaluationPlan`. -/
structure PlanState where
  root_literal : Option Nat
  tree_nodes : List PredicateTreeNode
  predicate_tree_nodes : List PredicateInfo
  literal_info_vec : List (List Nat)
  attr_pair_id_map : List ((Nat × Int) × Nat)
  predicates : List (Nat × Int)
  remaining_literal_ids : List Nat
deriving Repr, DecidableEq

/-- The body of the loop over the variables of a candidate: a bound argument outside the
join key position is an equality atom, numbered at its first occurrence. -/
def addAtom (join_key : Option Nat) (literal_id : Nat) (st : PlanState) (e : Nat × FoilVariable) :
    PlanState :=
  if e.2.IsBound && decide (some e.1 ≠ join_key) then
    let pair : Nat × Int := (e.1, e.2.variable_id)
    let st1 : PlanState :=
      match st.attr_pair_id_map.find? (fun m => decide (m.1 = pair)) with
      | some _ => st
      | none =>
        { st with
          tree_nodes := st.tree_nodes ++ [⟨none, none⟩]
          predicate_tree_nodes := st.predicate_tree_nodes ++
            [{ predicate_atoms := [st.attr_pair_id_map.length], literal_ids := [],
               mergeable_nodes := [], literal := none,
               plan_node := some st.tree_nodes.length,
               left_predicate_id := -1, right_predicate_id := -1, reference_count := 0 }]
          predicates := st.predicates ++ [pair]
          attr_pair_id_map := st.attr_pair_id_map ++ [(pair, st.attr_pair_id_map.length)] }
    match st1.attr_pair_id_map.find? (fun m => decide (m.1 = pair)) with
    | none => st1
    | some m =>
      { st1 with
        predicate_tree_nodes := updateAt st1.predicate_tree_nodes m.2
          (fun n => { n with literal_ids := setInsert n.literal_ids literal_id })
        literal_info_vec := updateAt st1.literal_info_vec literal_id
          (fun a => setInsert a m.2) }
  else st

/-- The body of the first loop, over the candidates: a candidate without atom becomes the
root literal, a candidate with one atom is attached to that atom node, the others are
the remaining literals. -/
def addLiteral (join_key : Option Nat) (st : PlanState) (e : Nat × FoilLiteral) : PlanState :=
  let st1 := e.2.vars.enum.foldl (addAtom join_key e.1) st
  match st1.literal_info_vec.getD e.1 [] with
  | [] => { st1 with root_literal := some e.1 }
  | [predicate_id] =>
    { st1 with
      tree_nodes := updateAt st1.tree_nodes predicate_id (fun n => { n with literal := some e.1 })
      predicate_tree_nodes := updateAt st1.predicate_tree_nodes predicate_id
        (fun n => { n with literal_ids := setErase n.literal_ids e.1 }) }
  | _ => { st1 with remaining_literal_ids := setInsert st1.remaining_literal_ids e.1 }

/-- The second loop: every node may be merged with every other node. -/
def initMergeable (nodes : List PredicateInfo) : List PredicateInfo :=
  nodes.enum.map (fun e =>
    { e.2 with mergeable_nodes :=
        (List.range nodes.length).filter (fun i => decide (i ≠ e.1)) })

/-- The number of literal ids of the second node found in the literal set of the first. -/
def intersectionSize (literal_set : List Nat) (other : List Nat) : Nat :=
  (other.filter (fun id => decide (id ∈ literal_set))).length

/-- The inner loop of the search, over the mergeable nodes of `first_node_id` in the
iteration order `order` of the set; the state is
`(max_intersection_size, best_first_node_id, best_second_node_id)`. -/
def searchSecond (order : List Nat → List Nat) (nodes : List PredicateInfo)
    (best : Nat × Int × Int) (first_node_id : Nat) : Nat × Int × Int :=
  (order (nodes.getD first_node_id default).mergeable_nodes).foldl
    (fun best second_node_id =>
      let c := intersectionSize (nodes.getD first_node_id default).literal_ids
        (nodes.getD second_node_id default).literal_ids
      if c > best.1 then (c, (first_node_id : Int), (second_node_id : Int)) else best) best

/-- The search for the pair of nodes with the largest common literal set. -/
def findBestPair (order : List Nat → List Nat) (nodes : List PredicateInfo) : Nat × Int × Int :=
  (List.range (nodes.length - 1)).foldl (searchSecond order nodes) (0, -1, -1)

/-- The helper `SetIntersection`: the elements of the smaller set found in the larger. -/
def SetIntersection (order : List Nat → List Nat) (left right : List Nat) : List Nat :=
  if left.length > right.length then (order right).filter (fun x => decide (x ∈ left))
  else (order left).filter (fun x => decide (x ∈ right))

/-- The helper `HasNoCommonPredicates`. -/
def HasNoCommonPredicates (left right : List Nat) : Bool :=
  left.all (fun x => !decide (x ∈ right))

/-- The loop over the literal ids of the new node: the first candidate whose atom set is
the atom set of the node is attached to it and erased everywhere. -/
def attachLiteral (literal_info_vec : List (List Nat)) (new_node_id : Nat)
    (acc : List PredicateInfo × PredicateInfo × List Nat) (literal_id : Nat) :
    List PredicateInfo × PredicateInfo × List Nat :=
  if acc.2.1.literal.isNone &&
      setEq (literal_info_vec.getD literal_id []) acc.2.1.predicate_atoms then
    ((acc.1.enum.map (fun e =>
        if e.1 < new_node_id then { e.2 with literal_ids := setErase e.2.literal_ids literal_id }
        else e.2)),
      { acc.2.1 with literal := some literal_id,
                     literal_ids := setErase acc.2.1.literal_ids literal_id },
      setErase acc.2.2 literal_id)
  else acc

/-- The increment `++reference_count` of a node. -/
def bumpReference (n : PredicateInfo) : PredicateInfo :=
  { n with reference_count := n.reference_count + 1 }

/-- The last loop of an iteration: a node other than the two merged ones that shares no
atom with the new node may be merged with it. -/
def addMergeable (a b new_node_id : Nat) (atoms : List Nat) (e : Nat × PredicateInfo) :
    PredicateInfo :=
  if decide (e.1 ≠ a) && decide (e.1 ≠ b) && HasNoCommonPredicates atoms e.2.predicate_atoms then
    { e.2 with mergeable_nodes := setInsert e.2.mergeable_nodes new_node_id }
  else e.2

/-- The body of the loop `while (!remaining_literal_ids.empty())` after the search: the
conjunction of the two best nodes is added, the candidate with its atom set, if any, is
attached to it, and the nodes sharing no atom with it may be merged with it.  The
pointers `left_predicate_info` and `right_predicate_info` are read as the two nodes, which
they are when `predicate_tree_nodes.emplace_back` leaves the nodes in place;
`FbVector.planStep` has the iteration whose `emplace_back` moves them. -/
def mergeNodes (order : List Nat → List Nat) (st : PlanState)
    (best_first_node_id best_second_node_id : Int) : PlanState :=
  let a := best_first_node_id.toNat
  let b := best_second_node_id.toNat
  let nodes1 := updateAt (updateAt st.predicate_tree_nodes a bumpReference) b bumpReference
  let left := nodes1.getD a default
  let right := nodes1.getD b default
  let new_node_id := nodes1.length
  let info : PredicateInfo :=
    { predicate_atoms := right.predicate_atoms.foldl setInsert left.predicate_atoms
      literal_ids := SetIntersection order left.literal_ids right.literal_ids
      mergeable_nodes := [], literal := none, plan_node := none
      left_predicate_id := best_first_node_id, right_predicate_id := best_second_node_id
      reference_count := 0 }
  let r := (order info.literal_ids).foldl (attachLiteral st.literal_info_vec new_node_id)
    (nodes1, info, st.remaining_literal_ids)
  let nodes2 := r.1.enum.map (addMergeable a b new_node_id r.2.1.predicate_atoms)
  { st with predicate_tree_nodes := nodes2 ++ [r.2.1], remaining_literal_ids := r.2.2 }

/-- One iteration of the loop `while (!remaining_literal_ids.empty())`; `none` when no
pair with a common literal exists (the indices are then `-1`). -/
def planStep (order : List Nat → List Nat) (st : PlanState) : Option PlanState :=
  let best := findBestPair order st.predicate_tree_nodes
  if best.1 = 0 then none
  else some (mergeNodes order st best.2.1 best.2.2)

/-- The loop `while (!remaining_literal_ids.empty())`, at most `fuel` iterations. -/
def planLoop (order : List Nat → List Nat) : Nat → PlanState → LoopResult PlanState
  | fuel, st =>
    if st.remaining_literal_ids.isEmpty then LoopResult.finished st
    else
      match fuel with
      | 0 => LoopResult.out_of_fuel
      | n + 1 =>
        match planStep order st with
        | none => LoopResult.undefined_behaviour
        | some st1 => planLoop order n st1

/-- The sweep from the last conjunction down: a conjunction without literal and without
consumer releases its two children. -/
def sweepReferences (num_predicate_atoms : Nat) (nodes : List PredicateInfo) : List PredicateInfo :=
  ((List.range (nodes.length - num_predicate_atoms)).reverse.map
      (fun i => i + num_predicate_atoms)).foldl
    (fun ns node_id =>
      let n := ns.getD node_id default
      if n.literal.isNone && decide (n.reference_count = 0) then
        updateAt (updateAt ns n.left_predicate_id.toNat
            (fun m => { m with reference_count := m.reference_count - 1 }))
          n.right_predicate_id.toNat
          (fun m => { m with reference_count := m.reference_count - 1 })
      else ns) nodes

/-- The last loop: a conjunction with a literal or a consumer becomes a plan node over the
plan nodes of its children. -/
def emitConjunctions (num_predicate_atoms : Nat) (st : PlanState) : PlanState :=
  ((List.range (st.predicate_tree_nodes.length - num_predicate_atoms)).map
      (fun i => i + num_predicate_atoms)).foldl
    (fun s node_id =>
      let n := s.predicate_tree_nodes.getD node_id default
      if n.literal.isSome || decide (n.reference_count ≠ 0) then
        { s with
          tree_nodes := s.tree_nodes ++
            [⟨n.literal,
              some ((s.predicate_tree_nodes.getD n.left_predicate_id.toNat default).plan_node,
                    (s.predicate_tree_nodes.getD n.right_predicate_id.toNat default).plan_node)⟩]
          predicate_tree_nodes := updateAt s.predicate_tree_nodes node_id
            (fun m => { m with plan_node := some s.tree_nodes.length }) }
      else s) st

/-- The state when the loop `while (!remaining_literal_ids.empty())` is entered. -/
def planInit (literals : List FoilLiteral) : PlanState :=
  let join_key := (literals.head?.map FoilLiteral.join_key).getD none
  let st := literals.enum.foldl (addLiteral join_key)
    { root_literal := none, tree_nodes := [], predicate_tree_nodes := [],
      literal_info_vec := List.replicate literals.length [],
      attr_pair_id_map := [], predicates := [], remaining_literal_ids := [] }
  { st with predicate_tree_nodes := initMergeable st.predicate_tree_nodes }

/-- The function `CandidateLiteralEvaluator::GeneratePredicateEvaluationPlan` on the
literals of the candidates: the filter predicates and the plan.  `order` is the iteration
order of a `std::unordered_set<int>` and `fuel` bounds the iterations of the loop. -/
def GeneratePredicateEvaluationPlan (order : List Nat → List Nat) (fuel : Nat)
    (literals : List FoilLiteral) : LoopResult (List (Nat × Int) × PredicateEvaluationPlan) :=
  if literals.isEmpty then LoopResult.undefined_behaviour
  else
    let st0 := planInit literals
    let num_predicate_atoms := st0.tree_nodes.length
    match planLoop order fuel st0 with
    | LoopResult.out_of_fuel => LoopResult.out_of_fuel
    | LoopResult.undefined_behaviour => LoopResult.undefined_behaviour
    | LoopResult.finished st1 =>
      let st2 := emitConjunctions num_predicate_atoms
        { st1 with predicate_tree_nodes :=
            sweepReferences num_predicate_atoms st1.predicate_tree_nodes }
      LoopResult.finished
        (st2.predicates, ⟨st2.root_literal, st2.tree_nodes, num_predicate_atoms⟩)

/-- The candidate `p_7(0, 1, 2, 3)` of a predicate with four arguments of one type: its
join key is argument 0 and it has three equality atoms. -/
def threeAtomLiteral : FoilLiteral :=
  ⟨⟨7, -1, [0, 0, 0, 0]⟩, [⟨0, 0⟩, ⟨1, 0⟩, ⟨2, 0⟩, ⟨3, 0⟩]⟩

/-- The states the plan builder goes through on the group of `threeAtomLiteral`: the
candidate remains, every node holds it, and the first atom node can only be merged
with the two other atom nodes. -/
structure PlanStuck (st : PlanState) : Prop where
  rem : st.remaining_literal_ids = [0]
  info : st.literal_info_vec = [[0, 1, 2]]
  len : 3 ≤ st.predicate_tree_nodes.length
  atoms0 : (st.predicate_tree_nodes.getD 0 default).predicate_atoms = [0]
  merge0 : (st.predicate_tree_nodes.getD 0 default).mergeable_nodes = [1, 2]
  atoms1 : (st.predicate_tree_nodes.getD 1 default).predicate_atoms = [1]
  atoms2 : (st.predicate_tree_nodes.getD 2 default).predicate_atoms = [2]
  lits : ∀ n ∈ st.predicate_tree_nodes, n.literal_ids = [0]

/-! ## learner/QuickFoil.cpp: accepting a clause -/

/-- A table (storage/TableView.hpp): its columns, and the address of the object, which
stands for the identity of the `std::shared_ptr` pointing to it. -/
structure TableView where
  address : Nat
  columns : List (List Int)
deriving DecidableEq, Repr

/-- The row count, read from the first column (`TableView::num_tuples`). -/
def TableView.num_tuples (t : TableView) : Nat := (t.columns.headD []).length

/-- A table with `n` columns of one length. -/
def TableView.WellFormed (t : TableView) (n : Nat) : Prop :=
  t.columns.length = n ∧ ∀ c ∈ t.columns, c.length = t.num_tuples

/-- One result of a semi-join (operations/SemiJoin.hpp): the projected columns of the
chunk, the bit vector over its rows and the number of ones. -/
structure SemiJoinChunk where
  output_columns : List (List Int)
  semi_bitvector : List Bool
  num_ones : Nat
deriving DecidableEq, Repr

/-- The constructor of `SemiJoinChunk`: `num_ones` is the count of the bit vector. -/
def SemiJoinChunk.create (output_columns : List (List Int)) (semi_bitvector : List Bool) :
    SemiJoinChunk :=
  ⟨output_columns, semi_bitvector, semi_bitvector.count true⟩

/-- The result of one call of `LeftSemiJoin::Next` at the probe offset `cur`: bit `i`
tells whether probe row `cur + i` has a match.  The walk of the hash chain in
`DoSemiJoin` is the parameter `has_match` on the key values of the probe row. -/
def leftSemiJoinChunk (chunk_size : Nat) (probe_columns : List (List Int)) (total : Nat)
    (probe_keys : List Nat) (project_column_ids : List Nat) (has_match : List Int → Bool)
    (cur : Nat) : SemiJoinChunk :=
  let num_tuples := min chunk_size (total - cur)
  SemiJoinChunk.create
    (project_column_ids.map (fun c => ((probe_columns.getD c []).drop cur).take num_tuples))
    ((List.range num_tuples).map (fun i =>
      has_match (probe_keys.map (fun c => (probe_columns.getD c []).getD (cur + i) 0))))

/-- The successive results of `LeftSemiJoin::Next` from the probe offset `cur`, at most
`fuel` of them. -/
def leftSemiJoinFrom (chunk_size : Nat) (probe_columns : List (List Int)) (total : Nat)
    (probe_keys : List Nat) (project_column_ids : List Nat) (has_match : List Int → Bool) :
    Nat → Nat → List SemiJoinChunk
  | 0, _ => []
  | fuel + 1, cur =>
    if cur < total then
      leftSemiJoinChunk chunk_size probe_columns total probe_keys project_column_ids
          has_match cur ::
        leftSemiJoinFrom chunk_size probe_columns total probe_keys project_column_ids
          has_match fuel (cur + chunk_size)
    else []

/-- All the results of a `LeftSemiJoin` until `Next` returns null.  With a positive chunk
size there are at most `total` chunks; a chunk size of `0` (the offset would not
advance) gives no chunk. -/
def LeftSemiJoin (chunk_size : Nat) (probe_columns : List (List Int)) (total : Nat)
    (probe_keys : List Nat) (project_column_ids : List Nat) (has_match : List Int → Bool) :
    List SemiJoinChunk :=
  if chunk_size = 0 then []
  else leftSemiJoinFrom chunk_size probe_columns total probe_keys project_column_ids
    has_match total 0

/-- The values of a column at the set bits of the filter, in order
(`AttributeReference::EvaluateWithFilter` with a `BitVectorIterator`). -/
def EvaluateWithFilter (input_column : List Int) (filter : List Bool) : List Int :=
  ((input_column.zip filter).filter (fun e => e.2)).map Prod.fst

/-- The double-precision operations used by the acceptance test, kept abstract. -/
structure FloatModel where
  F : Type
  ofInt : Int → F
  add : F → F → F
  mul : F → F → F
  div : F → F → F
  ge : F → F → Bool
  two : F
  minimum_true_precision : F
  minimum_f_score : F

/-- The state of a clause under construction (learner/QuickFoilState.hpp), as far as
accepting a clause reads it. -/
structure QuickFoilState where
  building_clause : FoilClause
  uncovered_positive_data : TableView
deriving DecidableEq, Repr

/-- The members of `QuickFoil` read or written when a clause is accepted; `next_address`
is the address the next allocated table gets. -/
structure QuickFoilData where
  target_predicate : FoilPredicate
  building_state : QuickFoilState
  learnt_clauses : List FoilClause
  global_uncovered_positive_data : TableView
  original_negative_data : TableView
  next_address : Nat
deriving DecidableEq, Repr

/-- The columns `0 .. num_arguments - 1` of the target predicate (`coverage_join_keys`,
`project_column_ids`). -/
def targetColumns (q : QuickFoilData) : List Nat := List.range q.target_predicate.num_arguments

/-- The two coverage semi-joins at the end of `QuickFoil::ComputeCoverageOnUncoveredData`:
the covered counts and the positive results.  The hash tables built from the bindings of
the literal are read through `positive_match` and `negative_match`. -/
def ComputeCoverageOnUncoveredData (chunk_size : Nat) (q : QuickFoilData)
    (positive_match negative_match : List Int → Bool) : Nat × Nat × List SemiJoinChunk :=
  let positive_coverage_results :=
    LeftSemiJoin chunk_size q.building_state.uncovered_positive_data.columns
      q.building_state.uncovered_positive_data.num_tuples (targetColumns q) (targetColumns q)
      positive_match
  let negative_results :=
    LeftSemiJoin chunk_size q.original_negative_data.columns
      q.original_negative_data.num_tuples (targetColumns q) (targetColumns q) negative_match
  ((positive_coverage_results.map SemiJoinChunk.num_ones).sum,
   (negative_results.map SemiJoinChunk.num_ones).sum, positive_coverage_results)

/-- The rows of column `i` that one semi-join result adds to the uncovered table: the
bit vector is flipped, and when a bit is set the values at the set bits are copied. -/
def uncoveredOfChunk (i : Nat) (r : SemiJoinChunk) : List Int :=
  if 0 < r.semi_bitvector.length - r.num_ones then
    EvaluateWithFilter (r.output_columns.getD i []) (r.semi_bitvector.map (fun b => !b))
  else []

/-- The loop over the semi-join results that copies the rows not covered into one output
buffer per argument of the target predicate. -/
def copyUncovered (num_target_arguments : Nat) (results : List SemiJoinChunk) :
    List (List Int) :=
  (List.range num_target_arguments).map (fun i => results.flatMap (uncoveredOfChunk i))

/-- The test `local_precision >= FLAGS_minimum_true_precision || local_f_score >=
FLAGS_minimum_f_score` on the counts of the re-check. -/
def acceptsClause (fm : FloatModel) (num_covered_local_positive num_covered_local_negative
    num_uncovered : Nat) : Bool :=
  let local_precision := fm.div (fm.ofInt num_covered_local_positive)
    (fm.ofInt ((num_covered_local_positive : Int) + num_covered_local_negative))
  let local_recall := fm.div (fm.ofInt num_covered_local_positive) (fm.ofInt num_uncovered)
  let local_f_score := fm.div (fm.mul (fm.mul fm.two local_precision) local_recall)
    (fm.add local_precision local_recall)
  fm.ge local_precision fm.minimum_true_precision || fm.ge local_f_score fm.minimum_f_score

/-- The function `QuickFoil::AddBuildingClauseWithNewLiteral`: whether the clause was
accepted, and the members afterwards; `none` when more rows are written than the output
buffers hold. -/
def AddBuildingClauseWithNewLiteral (fm : FloatModel) (chunk_size : Nat) (q : QuickFoilData)
    (literal : FoilLiteral) (positive_match negative_match : List Int → Bool) :
    Option (Bool × QuickFoilData) :=
  let cov := ComputeCoverageOnUncoveredData chunk_size q positive_match negative_match
  if acceptsClause fm cov.1 cov.2.1 q.building_state.uncovered_positive_data.num_tuples then
    let uncovered_num_tuples : Int :=
      (q.building_state.uncovered_positive_data.num_tuples : Int) - cov.1
    let num_target_arguments := q.target_predicate.num_arguments
    let results :=
      if q.building_state.uncovered_positive_data.address ≠
          q.global_uncovered_positive_data.address then
        LeftSemiJoin chunk_size q.global_uncovered_positive_data.columns
          q.global_uncovered_positive_data.num_tuples (targetColumns q) (targetColumns q)
          positive_match
      else cov.2.2
    let output := copyUncovered num_target_arguments results
    if ((output.headD []).length : Int) ≤ uncovered_num_tuples then
      some (true,
        { q with
          global_uncovered_positive_data := ⟨q.next_address, output⟩
          next_address := q.next_address + 1
          learnt_clauses := q.learnt_clauses ++
            [q.building_state.building_clause.AddUnBoundBodyLiteral literal false] })
    else none
  else some (false, q)

/-- The number of rows `lo .. lo + n - 1` of the columns whose key values have a match. -/
def matchCount (columns : List (List Int)) (keys : List Nat) (has_match : List Int → Bool)
    (lo n : Nat) : Nat :=
  ((List.range n).filter (fun i =>
    has_match (keys.map (fun c => (columns.getD c []).getD (lo + i) 0)))).length

/-- The number of rows of a table whose key values have a match. -/
def numMatching (t : TableView) (keys : List Nat) (has_match : List Int → Bool) : Nat :=
  matchCount t.columns keys has_match 0 t.num_tuples

/-- Exact rational arithmetic as a stand-in for the doubles, with the default flags
`minimum_true_precision = 0.8` and `minimum_f_score = 0.85`. -/
def ratModel : FloatModel :=
  { F := ℚ, ofInt := fun i => (i : ℚ), add := fun a b => a + b, mul := fun a b => a * b,
    div := fun a b => a / b, ge := fun a b => decide (b ≤ a), two := 2,
    minimum_true_precision := 4 / 5, minimum_f_score := 17 / 20 }

/-- A learner whose current state still holds the table of three uncovered positives it
was created with, while the global table has since shrunk to one row. -/
def staleData : QuickFoilData :=
  { target_predicate := ⟨0, -1, [0]⟩
    building_state :=
      { building_clause := FoilClause.ofHead ⟨⟨0, -1, [0]⟩, [⟨0, 0⟩]⟩
        uncovered_positive_data := ⟨1, [[10, 20, 30]]⟩ }
    learnt_clauses := []
    global_uncovered_positive_data := ⟨2, [[30]]⟩
    original_negative_data := ⟨3, [[40, 50]]⟩
    next_address := 4 }

/-! ## operations/RadixPartition.cpp -/

/-- A pair of a value and the id of its tuple (storage/PartitionTuple.hpp). -/
structure PartitionTuple where
  value : Int
  tuple_id : Nat
deriving DecidableEq, Repr

/-- A memory cell of the size of a `PartitionTuple`: `none` when its bytes hold no
tuple (not written yet, or overlaid by the fields of `partition_info`). -/
abbrev TupleCell := Option PartitionTuple

/-- The union `CacheLine` of a write buffer: `block_capacity` tuple cells, the last of
which shares its bytes with `partition_info.tuple_slot` and `partition_info.buffer_slot`. -/
structure CacheLine where
  tuples : List TupleCell
  tuple_slot : Nat
  buffer_slot : Nat
deriving Repr

/-- The loop that builds the histogram: `++histogram[HASH_BIT_MODULO(hash_value, mask, 0)]`
for every value, on the zeroed array of `calloc`.  The array is indexed by partition ids;
every index is `hash & mask`. -/
def buildHistogram (hash : Int → Nat) (mask : Nat) (values : List Int) : Nat → Nat :=
  values.foldl (fun histogram v =>
    Function.update histogram (hash v &&& mask) (histogram (hash v &&& mask) + 1))
    (fun _ => 0)

/-- The value of `partition_offsets` when the loop over the partitions reaches partition
`i`: the sum of the histogram below `i`. -/
def partitionOffset (histogram : Nat → Nat) : Nat → Nat
  | 0 => 0
  | i + 1 => partitionOffset histogram i + histogram i

/-- A copy of `cells` to the output cells from position `pos` on (`memcpy`,
`cacheline_memcpy`); `none` when the copy does not fit in the output buffer. -/
def memcpyCells (output : List TupleCell) (pos : Nat) (cells : List TupleCell) :
    Option (List TupleCell) :=
  if cells.isEmpty then some output
  else if pos + cells.length ≤ output.length then
    some (output.take pos ++ cells ++ output.drop (pos + cells.length))
  else none

/-- The write buffers and the output buffer during the partitioning. -/
structure PartitionerState where
  write_buffer : Nat → CacheLine
  output : List TupleCell

/-- The body of the loop over the tuples: the tuple goes to the write buffer of its
partition; a buffer whose last cell is written is copied to the output as a whole cache
line, and starts again at the next line.  Writing `tuple_slot` and `buffer_slot` after the
copy overlays the last cell. -/
def partitionTuple (block_capacity : Nat) (hash : Int → Nat) (mask : Nat)
    (st : PartitionerState) (e : Nat × Int) : Option PartitionerState :=
  let write_buffer_entry := st.write_buffer (hash e.2 &&& mask)
  let buffer_destination_idx := write_buffer_entry.buffer_slot
  if buffer_destination_idx = block_capacity - 1 then
    let tuple_slot := write_buffer_entry.tuple_slot
    let line := write_buffer_entry.tuples.set buffer_destination_idx (some ⟨e.2, e.1⟩)
    match memcpyCells st.output (tuple_slot * block_capacity) line with
    | none => none
    | some output =>
      some ⟨Function.update st.write_buffer (hash e.2 &&& mask)
        ⟨line.set (block_capacity - 1) none, tuple_slot + 1, 0⟩, output⟩
  else if buffer_destination_idx < block_capacity - 1 then
    some ⟨Function.update st.write_buffer (hash e.2 &&& mask)
      ⟨write_buffer_entry.tuples.set buffer_destination_idx (some ⟨e.2, e.1⟩),
        write_buffer_entry.tuple_slot, buffer_destination_idx + 1⟩, st.output⟩
  else none

/-- The body of the loop that writes what is left in the buffers. -/
def flushPartition (block_capacity : Nat) (histogram : Nat → Nat)
    (write_buffer : Nat → CacheLine) (output : List TupleCell) (partition_id : Nat) :
    Option (List TupleCell) :=
  let original_tuple_slot := partitionOffset histogram partition_id / block_capacity
  let original_buffer_slot := partitionOffset histogram partition_id % block_capacity
  let current_tuple_slot := (write_buffer partition_id).tuple_slot
  if original_tuple_slot ≠ current_tuple_slot then
    memcpyCells output (current_tuple_slot * block_capacity)
      ((write_buffer partition_id).tuples.take (write_buffer partition_id).buffer_slot)
  else if (write_buffer partition_id).buffer_slot < original_buffer_slot then none
  else
    memcpyCells output (current_tuple_slot * block_capacity + original_buffer_slot)
      (((write_buffer partition_id).tuples.drop original_buffer_slot).take
        ((write_buffer partition_id).buffer_slot - original_buffer_slot))

/-- The function `RadixPartitioner::Partition` on a column of values, for
`num_radix_bits` radix bits and cache lines of `block_capacity` tuples (8 for the default
type): the partitions, each a view of `histogram[i]` cells of the output buffer from the
offset of the partition on.  The arithmetic is exact, as the machine arithmetic is below
`2^31` tuples and 31 radix bits; `none` from 31 radix bits or `2^31` tuples on, where the
32-bit shift `1 << FLAGS_num_radix_bits` and the 32-bit `size_type` overflow. -/
def Partition (block_capacity : Nat) (hash : Int → Nat) (num_radix_bits : Nat)
    (values : List Int) : Option (List (List TupleCell)) :=
  if 31 ≤ num_radix_bits ∨ 2 ^ 31 ≤ values.length then none else
  let num_partitions := 2 ^ num_radix_bits
  let mask := num_partitions - 1
  let histogram := buildHistogram hash mask values
  let total_num_tuples := values.length
  let num_cache_lines := (total_num_tuples + block_capacity - 1) / block_capacity
  let write_buffer : Nat → CacheLine := fun i =>
    ⟨List.replicate block_capacity none, partitionOffset histogram i / block_capacity,
      partitionOffset histogram i % block_capacity⟩
  match values.enum.foldlM (partitionTuple block_capacity hash mask)
      ⟨write_buffer, List.replicate (num_cache_lines * block_capacity) none⟩ with
  | none => none
  | some st =>
    match (List.range num_partitions).foldlM
        (flushPartition block_capacity histogram st.write_buffer) st.output with
    | none => none
    | some output =>
      some ((List.range num_partitions).map (fun i =>
        (output.drop (partitionOffset histogram i)).take (histogram i)))

/-- The tuples of a column that belong to partition `p`, in the order of the column. -/
def partitionOf (hash : Int → Nat) (mask : Nat) (values : List Int) (p : Nat) :
    List PartitionTuple :=
  (values.enum.filter (fun e => decide (hash e.2 &&& mask = p))).map (fun e => ⟨e.2, e.1⟩)

/-! ## expressions/ComparisonPredicate.hpp, operations/Filter.cpp -/

/-- A bit vector (`boost::dynamic_bitset`): bit `i` of the set is bit `i % 64` of block
`i / 64`, and is element `i` of the list. -/
abbrev BitVector := List Bool

/-- The result of a hash join on one chunk of a probe partition
(operations/HashJoin.hpp). -/
structure HashJoinChunk where
  table_id : Nat
  join_group_id : Nat
  partition_id : Nat
  binding_partition_size : Nat
  probe_columns : List (List Int)
  build_columns : List (List Int)
  probe_tids : List Nat
  build_tids : List Nat
  build_relative_tids : List Nat
deriving DecidableEq, Repr

/-- An equality predicate between a probe attribute and a build attribute
(`FoilFilterPredicate`), by the column ids of the two attribute references. -/
structure FoilFilterPredicate where
  probe_attribute : Nat
  build_attribute : Nat
deriving DecidableEq, Repr

/-- The statement `*raw_bit_vector_iterator |= (value << bit)` with the iterator on
block `block_id`. -/
def orBit (bits : BitVector) (block_id bit : Nat) (value : Bool) : Option BitVector :=
  match bits.get? (64 * block_id + bit) with
  | none => none
  | some old => some (bits.set (64 * block_id + bit) (old || value))

/-- The comparison `operator_(probe_values[*probe_tids_it], build_values[*build_tids_it])`
with both iterators at position `t`. -/
def compareAt (probe_values build_values : List Int) (probe_tids build_tids : List Nat)
    (t : Nat) : Option Bool :=
  match probe_tids.get? t, build_tids.get? t with
  | some p, some b =>
    match probe_values.get? p, build_values.get? b with
    | some x, some y => some (x == y)
    | _, _ => none
  | _, _ => none

/-- The loop over the bits `0 .. num_bits - 1` of block `block_id` in
`ComparisonPredicate::EvaluateForJoin`. -/
def fillBlock (probe_values build_values : List Int) (probe_tids build_tids : List Nat)
    (block_id num_bits : Nat) (bits : BitVector) : Option BitVector :=
  (List.range num_bits).foldlM (fun (out : BitVector) (bit : Nat) =>
    match compareAt probe_values build_values probe_tids build_tids (64 * block_id + bit) with
    | none => none
    | some r => orBit out block_id bit r) bits

/-- The function `ComparisonPredicate::EvaluateForJoin`: the output is cleared and
resized to the number of joined tuples, the full blocks are filled 64 bits at a time and
then the bits of the last block. -/
def FoilFilterPredicate.EvaluateForJoin (predicate : FoilFilterPredicate)
    (probe_columns build_columns : List (List Int)) (probe_tids build_tids : List Nat) :
    Option BitVector :=
  match probe_columns.get? predicate.probe_attribute,
      build_columns.get? predicate.build_attribute with
  | some probe_values, some build_values =>
    let output : BitVector := List.replicate probe_tids.length false
    let num_blocks := probe_tids.length / 64
    let bits_in_last_block := probe_tids.length % 64
    match (List.range num_blocks).foldlM (fun (out : BitVector) (block_id : Nat) =>
        fillBlock probe_values build_values probe_tids build_tids block_id 64 out) output with
    | none => none
    | some full =>
      fillBlock probe_values build_values probe_tids build_tids num_blocks bits_in_last_block
        full
  | _, _ => none

/-- The result of `Filter::Next` (operations/Filter.hpp). -/
structure FilterChunk where
  hash_join_chunk : HashJoinChunk
  bit_vectors : List BitVector
deriving DecidableEq, Repr

/-- The function `Filter::Next` on the result of `hash_join_->Next()`: a null chunk gives
null; otherwise one bit vector per predicate of the group of the chunk. -/
def Filter.Next (predicate_groups : List (List (List FoilFilterPredicate)))
    (hash_join_chunk : Option HashJoinChunk) : Option (Option FilterChunk) :=
  match hash_join_chunk with
  | none => some none
  | some chunk =>
    match (predicate_groups.get? chunk.table_id).bind (fun g => g.get? chunk.join_group_id) with
    | none => none
    | some predicate_group =>
      match predicate_group.mapM (fun p =>
          p.EvaluateForJoin chunk.probe_columns chunk.build_columns chunk.probe_tids
            chunk.build_tids) with
      | none => none
      | some bit_vectors => some (some ⟨chunk, bit_vectors⟩)

/-- A join chunk of 70 tuples (more than one block): probe row `t` is joined with build
row `69 - t`. -/
def filterTestChunk : HashJoinChunk :=
  { table_id := 0, join_group_id := 0, partition_id := 0, binding_partition_size := 70
    probe_columns := [(List.range 70).map (fun i => (i : Int) % 3)]
    build_columns := [List.replicate 70 0, (List.range 70).map (fun i => (i : Int) % 2)]
    probe_tids := List.range 70
    build_tids := (List.range 70).map (fun i => 69 - i)
    build_relative_tids := List.range 70 }

/-! ## operations/PartitionAssigner.hpp -/

/-- A table with the partitions of its columns (`TableView::columns_` and
`TableView::partitions_`): `partitions[column_id]` is the list of the partition arrays
of that column. -/
structure PartitionedTable where
  columns : List (List Int)
  partitions : List (List (List PartitionTuple))
deriving DecidableEq, Repr

/-- A chunk of a partition array handed out by the assigner (`PartitionChunk`). -/
structure PartitionChunk where
  table_id : Nat
  join_group_id : Nat
  partition_id : Nat
  partition : List PartitionTuple
  columns : List (List Int)
deriving DecidableEq, Repr

/-- The members of `PartitionAssigner`. -/
structure PartitionAssigner where
  tables : List PartitionedTable
  partition_column_ids : List (List Nat)
  num_partitions : Nat
  cur_table_id : Nat
  cur_join_group_id : Nat
  cur_partition_id : Nat
  cur_partition_offset : Nat
  cur_partitions : List (List PartitionTuple)
deriving DecidableEq, Repr

/-- The expression `tables_[table_id]->partitions_at(partition_column_ids_[table_id]
[join_group_id])`. -/
def partitionsAt (tables : List PartitionedTable) (partition_column_ids : List (List Nat))
    (table_id join_group_id : Nat) : Option (List (List PartitionTuple)) :=
  match tables.get? table_id, partition_column_ids.get? table_id with
  | some table, some column_ids =>
    match column_ids.get? join_group_id with
    | some column_id => table.partitions.get? column_id
    | none => none
  | _, _ => none

namespace PartitionAssigner

/-- The constructor of `PartitionAssigner`. -/
def create (tables : List PartitionedTable) (partition_column_ids : List (List Nat)) :
    Option PartitionAssigner :=
  match partitionsAt tables partition_column_ids 0 0 with
  | none => none
  | some cur_partitions =>
    some
      { tables := tables
        partition_column_ids := partition_column_ids
        num_partitions := cur_partitions.length
        cur_table_id := 0
        cur_join_group_id := 0
        cur_partition_id := 0
        cur_partition_offset := 0
        cur_partitions := cur_partitions }

/-- The function `PartitionAssigner::MoveToNextPartition`. -/
def MoveToNextPartition (a : PartitionAssigner) : Bool × PartitionAssigner :=
  let a1 := { a with cur_partition_id := a.cur_partition_id + 1
                     cur_table_id := 0
                     cur_join_group_id := 0 }
  (decide (a1.cur_partition_id = a1.num_partitions), a1)

/-- The function `PartitionAssigner::MoveToNextJoinTable`. -/
def MoveToNextJoinTable (a : PartitionAssigner) : Bool × PartitionAssigner :=
  let a1 := { a with cur_table_id := a.cur_table_id + 1, cur_join_group_id := 0 }
  if a1.cur_table_id = a1.tables.length then
    let r := a1.MoveToNextPartition
    if r.1 then (true, r.2) else (false, r.2)
  else (false, a1)

/-- The function `PartitionAssigner::MoveToNextJoinGroup`; `none` when a vector is read
outside its bounds. -/
def MoveToNextJoinGroup (a : PartitionAssigner) : Option (Bool × PartitionAssigner) :=
  let a1 := { a with cur_join_group_id := a.cur_join_group_id + 1 }
  match a1.partition_column_ids.get? a1.cur_table_id with
  | none => none
  | some column_ids =>
    let r : Bool × PartitionAssigner :=
      if a1.cur_join_group_id = column_ids.length then a1.MoveToNextJoinTable else (false, a1)
    if r.1 then some (true, r.2)
    else
      match partitionsAt r.2.tables r.2.partition_column_ids r.2.cur_table_id
          r.2.cur_join_group_id with
      | none => none
      | some cur_partitions =>
        some (false, { r.2 with cur_partitions := cur_partitions, cur_partition_offset := 0 })

/-- The function `PartitionAssigner::Next` with the flag `partition_chunck_size`: the
chunk (`none` for the null pointer) and the assigner afterwards.  The `while` loop runs
at most `fuel` times; the result is `none` when the fuel runs out or a vector is read
outside its bounds. -/
def Next (partition_chunck_size : Nat) :
    Nat → PartitionAssigner → Option (Option PartitionChunk × PartitionAssigner)
  | 0, _ => none
  | fuel + 1, a =>
    match a.cur_partitions.get? a.cur_partition_id with
    | none => none
    | some cur_partition =>
      if a.cur_partition_offset = cur_partition.length then
        match a.MoveToNextJoinGroup with
        | none => none
        | some (true, a1) => some (none, a1)
        | some (false, a1) => Next partition_chunck_size fuel a1
      else
        let num_partition_tuples :=
          min partition_chunck_size (cur_partition.length - a.cur_partition_offset)
        match a.tables.get? a.cur_table_id with
        | none => none
        | some table =>
          some (some
              { table_id := a.cur_table_id
                join_group_id := a.cur_join_group_id
                partition_id := a.cur_partition_id
                partition :=
                  (cur_partition.drop a.cur_partition_offset).take num_partition_tuples
                columns := table.columns },
            { a with cur_partition_offset := a.cur_partition_offset + num_partition_tuples })

/-- The chunks returned by the successive calls of `Next` until it returns null, with
at most `fuel` calls, each with `fuel` iterations of its loop. -/
def drain (partition_chunck_size : Nat) : Nat → PartitionAssigner → Option (List PartitionChunk)
  | 0, _ => none
  | fuel + 1, a =>
    match Next partition_chunck_size (fuel + 1) a with
    | none => none
    | some (none, _) => some []
    | some (some chunk, a1) =>
      match drain partition_chunck_size fuel a1 with
      | none => none
      | some chunks => some (chunk :: chunks)

end PartitionAssigner

/-- The chunks of one partition array at the offsets `0, c, 2c, ...` below its length. -/
def chunksOfPartition (c : Nat) (table_id join_group_id partition_id : Nat)
    (partition : List PartitionTuple) (columns : List (List Int)) : List PartitionChunk :=
  (List.range ((partition.length + c - 1) / c)).map (fun k =>
    ⟨table_id, join_group_id, partition_id, (partition.drop (k * c)).take c, columns⟩)

/-- The partition array `partition_id` of join group `join_group_id` of table
`table_id` (empty when there is none). -/
def partitionArray (tables : List PartitionedTable) (partition_column_ids : List (List Nat))
    (table_id join_group_id partition_id : Nat) : List PartitionTuple :=
  ((partitionsAt tables partition_column_ids table_id join_group_id).getD []).getD
    partition_id []

/-- The chunks of the partition array `p` of join group `g` of table `t`, by offset. -/
def groupChunks (c : Nat) (tables : List PartitionedTable)
    (partition_column_ids : List (List Nat)) (p t g : Nat) : List PartitionChunk :=
  chunksOfPartition c t g p (partitionArray tables partition_column_ids t g p)
    ((tables.getD t ⟨[], []⟩).columns)

/-- The chunks of partition `p` of table `t`: join group after join group. -/
def tableChunks (c : Nat) (tables : List PartitionedTable)
    (partition_column_ids : List (List Nat)) (p t : Nat) : List PartitionChunk :=
  (List.range (partition_column_ids.getD t []).length).flatMap
    (groupChunks c tables partition_column_ids p t)

/-- The chunks of partition `p`: table after table. -/
def partitionChunks (c : Nat) (tables : List PartitionedTable)
    (partition_column_ids : List (List Nat)) (p : Nat) : List PartitionChunk :=
  (List.range tables.length).flatMap (tableChunks c tables partition_column_ids p)

/-- The chunks of all the partition arrays, ordered by partition, then table, then join
group, then offset. -/
def chunksInAssignerOrder (c : Nat) (tables : List PartitionedTable)
    (partition_column_ids : List (List Nat)) (num_partitions : Nat) : List PartitionChunk :=
  (List.range num_partitions).flatMap (partitionChunks c tables partition_column_ids)

/-- Two tables partitioned in two: the first with two join groups (columns 0 and 1),
the second with one; some partitions are empty. -/
def assignerTestTables : List PartitionedTable :=
  [ { columns := [[4, 1, 2, 6, 8], [0, 0, 0, 0, 0]]
      partitions := [[[⟨4, 0⟩, ⟨2, 2⟩, ⟨6, 3⟩, ⟨8, 4⟩], [⟨1, 1⟩]],
                     [[⟨0, 0⟩, ⟨0, 1⟩, ⟨0, 2⟩, ⟨0, 3⟩, ⟨0, 4⟩], []]] },
    { columns := [[3, 5]]
      partitions := [[[], [⟨3, 0⟩, ⟨5, 1⟩]]] } ]

/-- The input of the assigner is well formed: at least one table, one non-empty list of
join-group columns per table, every such column partitioned into `num_partitions`
arrays, and at least one partition. -/
structure WellPartitioned (tables : List PartitionedTable)
    (partition_column_ids : List (List Nat)) (num_partitions : Nat) : Prop where
  tables_pos : 0 < tables.length
  ids_length : partition_column_ids.length = tables.length
  groups_pos : ∀ t, t < tables.length → 0 < (partition_column_ids.getD t []).length
  partitioned : ∀ t g, t < tables.length → g < (partition_column_ids.getD t []).length →
    ∃ parts, partitionsAt tables partition_column_ids t g = some parts ∧
      parts.length = num_partitions
  partitions_pos : 0 < num_partitions

/-- The assigner positioned at partition `p`, table `t`, join group `g` and offset
`offset`. -/
def assignerAt (tables : List PartitionedTable) (partition_column_ids : List (List Nat))
    (num_partitions p t g offset : Nat) : PartitionAssigner :=
  { tables := tables
    partition_column_ids := partition_column_ids
    num_partitions := num_partitions
    cur_table_id := t
    cur_join_group_id := g
    cur_partition_id := p
    cur_partition_offset := offset
    cur_partitions := (partitionsAt tables partition_column_ids t g).getD [] }

/-! ## utility/Hash.hpp, storage/FoilHashTable.cpp, operations/BuildHashTable.cpp -/

/-- The function `HashCombine` on 32-bit hash values; `hash` is `Hash` on one value
(`std::hash` cast to 32 bits). -/
def HashCombine (hash : Int → Nat) (seed : Nat) (value : Int) : Nat :=
  (seed ^^^ ((hash value + 0x9e3779b9 + (seed <<< 6) + (seed >>> 2)) % 2 ^ 32)) % 2 ^ 32

/-- The template argument `num_keys` chosen by the `switch` on the number of keys. -/
def templateKeys (size : Nat) : Nat := if 1 ≤ size ∧ size ≤ 5 then size else 6

/-- The number of columns read by `Hash<num_values>` and `VectorEqualAt<num_values>`: the
template argument below 6, and the size of the (first) vector otherwise. -/
def numValuesRead (num_values : Nat) (values : List (List Int)) : Nat :=
  if num_values < 6 then num_values else values.length

/-- The value `values[i][tid]`. -/
def valueAt (values : List (List Int)) (i tid : Nat) : Option Int :=
  match values.get? i with
  | none => none
  | some column => column.get? tid

/-- The function `Hash<num_values>(values, tid)` on the key columns. -/
def HashAt (hash : Int → Nat) (num_values : Nat) (values : List (List Int)) (tid : Nat) :
    Option Nat :=
  match valueAt values 0 tid with
  | none => none
  | some x =>
    (List.range' 1 (numValuesRead num_values values - 1)).foldlM (fun (seed : Nat) (i : Nat) =>
      match valueAt values i tid with
      | none => none
      | some y => some (HashCombine hash seed y)) (hash x)

/-- The loop of `VectorEqualAt` over the column indices. -/
def vectorEqualLoop (left_values right_values : List (List Int)) (left_tid right_tid : Nat) :
    List Nat → Option Bool
  | [] => some true
  | i :: rest =>
    match valueAt left_values i left_tid, valueAt right_values i right_tid with
    | some x, some y =>
      if x ≠ y then some false
      else vectorEqualLoop left_values right_values left_tid right_tid rest
    | _, _ => none

/-- The function `VectorEqualAt<num_values>(left_values, right_values, left_tid,
right_tid)`. -/
def VectorEqualAt (num_values : Nat) (left_values right_values : List (List Int))
    (left_tid right_tid : Nat) : Option Bool :=
  vectorEqualLoop left_values right_values left_tid right_tid
    (List.range (numValuesRead num_values left_values))

/-- The macro `NEXT_POW_2` on an `int` that is not negative: for `0` the decrement gives
`-1`, all bits stay set, and the increment gives `0`. -/
def NEXT_POW_2 (V : Nat) : Nat :=
  if V = 0 then 0
  else
    let v := V - 1
    let v := v ||| (v >>> 1)
    let v := v ||| (v >>> 2)
    let v := v ||| (v >>> 4)
    let v := v ||| (v >>> 8)
    let v := v ||| (v >>> 16)
    v + 1

/-- A chained hash table (storage/FoilHashTable.hpp): `buckets[b]` is `0` or the position
of the first tuple of the chain plus one, and `next[p]` is the same for the tuple after
position `p`; a cell of `next` not written yet is `none`.  The stored `int`s are never
negative. -/
structure FoilHashTable where
  mask : Nat
  buckets : List Nat
  next : List (Option Nat)
deriving DecidableEq, Repr

/-- The constructor `FoilHashTable(size, radix_bits)`: the buckets are zeroed, `next` is
not initialised, and `mask_ = (num_buckets - 1) << radix_bits` in 32 bits. -/
def FoilHashTable.create (size radix_bits : Nat) : FoilHashTable :=
  let num_buckets := NEXT_POW_2 size
  { mask := (((num_buckets + 2 ^ 32 - 1) % 2 ^ 32) <<< radix_bits) % 2 ^ 32
    buckets := List.replicate num_buckets 0
    next := List.replicate size none }

/-- The constructor `FoilHashTable(int size, uint32_t radix_bits)` on the machine
integers: there is no result (`none`) when `size` is not a positive `int`
(`DCHECK_GT(size, 0)`), when the last increment of `NEXT_POW_2` leaves the range of `int`,
or when the shift `(num_buckets - 1) << radix_bits` of an `int` is not defined (a shift
by 32 or more, or a result that does not fit in 32 bits); otherwise it is
`FoilHashTable.create`. -/
def FoilHashTable.construct (size : Int) (radix_bits : Nat) : Option FoilHashTable :=
  if size ≤ 0 ∨ 2 ^ 31 ≤ size then none
  else if 2 ^ 31 ≤ NEXT_POW_2 size.toNat then none
  else if 32 ≤ radix_bits ∨ 2 ^ 32 ≤ (NEXT_POW_2 size.toNat - 1) <<< radix_bits then none
  else some (FoilHashTable.create size.toNat radix_bits)

/-- The statements `*next = buckets[bucket_id]; buckets[bucket_id] = index + 1` for the
tuple at `index` with the hash value `hash_value` (`radix_bits` is `0` for a table built
on a whole table). -/
def linkTuple (radix_bits : Nat) (hash_table : FoilHashTable) (index hash_value : Nat) :
    Option FoilHashTable :=
  let bucket_id := (hash_value &&& hash_table.mask) >>> radix_bits
  match hash_table.buckets.get? bucket_id with
  | none => none
  | some first =>
    if index < hash_table.next.length then
      some { hash_table with next := hash_table.next.set index (some first)
                             buckets := hash_table.buckets.set bucket_id (index + 1) }
    else none

/-- The key columns `build_key.Evaluate(table.columns(), ...)` of a list of attribute
references. -/
def keyColumns (keys : List Nat) (columns : List (List Int)) : Option (List (List Int)) :=
  keys.mapM (fun k => columns.get? k)

/-- The function `BuildHashTableOnTable` (with `BuildHashTableOnTableImpl<num_keys>`). -/
def BuildHashTableOnTable (hash : Int → Nat) (build_keys : List Nat) (table : TableView) :
    Option FoilHashTable :=
  match keyColumns build_keys table.columns with
  | none => none
  | some build_keys_values =>
    (List.range table.num_tuples).foldlM (fun (hash_table : FoilHashTable) (index : Nat) =>
      match HashAt hash (templateKeys build_keys.length) build_keys_values index with
      | none => none
      | some hash_value => linkTuple 0 hash_table index hash_value)
      (FoilHashTable.create table.num_tuples 0)

/-- The loop `for (position = first - 1; position >= 0; position = next[position] - 1)`
over a chain, started with the stored value `first`: the positions on which `is_match`
holds, in the order of the walk.  The loop runs at most `fuel` times; the result is
`none` when the fuel runs out or memory is read that was not written. -/
def probeChain (next : List (Option Nat)) (is_match : Nat → Option Bool) :
    Nat → Nat → Option (List Nat)
  | _, 0 => some []
  | 0, _ + 1 => none
  | fuel + 1, position + 1 =>
    match is_match position with
    | none => none
    | some m =>
      match next.get? position with
      | some (some following) =>
        match probeChain next is_match fuel following with
        | none => none
        | some rest => some (if m then position :: rest else rest)
      | _ => none

/-- The same loop with a `break` at the first position on which `is_match` holds:
whether there is one. -/
def probeChainAny (next : List (Option Nat)) (is_match : Nat → Option Bool) :
    Nat → Nat → Option Bool
  | _, 0 => some false
  | 0, _ + 1 => none
  | fuel + 1, position + 1 =>
    match is_match position with
    | none => none
    | some true => some true
    | some false =>
      match next.get? position with
      | some (some following) => probeChainAny next is_match fuel following
      | _ => none

/-- The positions visited by the walk of a chain. -/
def chainWalk (next : List (Option Nat)) (fuel first : Nat) : Option (List Nat) :=
  probeChain next (fun _ => some true) fuel first

/-- The key values of row `tid`: one value per key column. -/
def keyRow (values : List (List Int)) (tid : Nat) : List Int :=
  values.map (fun column => column.getD tid 0)

/-- A table with the key column `[5, 7, 5, 9, 7, 5]` and a second column. -/
def hashTestTable : TableView :=
  ⟨0, [[5, 7, 5, 9, 7, 5], [1, 2, 1, 4, 5, 1]]⟩

/-- The hash value of a row of key values: `Hash` of the first, combined with the others
in order. -/
def hashRow (hash : Int → Nat) : List Int → Nat
  | [] => 0
  | x :: rest => rest.foldl (HashCombine hash) (hash x)

/-- The list `l` is the chain that starts with the stored value `first`: every position
is linked to the following one and the last to `0`. -/
def IsChain (next : List (Option Nat)) : Nat → List Nat → Prop
  | first, [] => first = 0
  | first, position :: rest =>
    first = position + 1 ∧ ∃ following, next.get? position = some (some following) ∧
      IsChain next following rest

/-- The rows below `n` whose key hashes to bucket `b`, the last one first. -/
def bucketRows (hash : Int → Nat) (values : List (List Int)) (mask n b : Nat) : List Nat :=
  ((List.range n).filter (fun j =>
    decide (hashRow hash (keyRow values j) &&& mask = b))).reverse

/-! ## operations/SemiJoin.hpp, LeftSemiJoin.hpp, RightSemiJoin.hpp -/

/-- The members of `SemiJoin`; `num_keys` is the template argument of the subclass and
`build_hash_table` the hash table on the build keys. -/
structure SemiJoin where
  probe_table : TableView
  build_table : TableView
  build_hash_table : FoilHashTable
  probe_key_values : List (List Int)
  build_key_values : List (List Int)
  project_column_ids : List Nat
  num_keys : Nat
deriving DecidableEq, Repr

/-- The function `CreateSemiJoin` with the constructor of `SemiJoin`: the key columns
are evaluated on the two tables, and the template argument is chosen by the number of
probe keys. -/
def CreateSemiJoin (probe_table build_table : TableView) (build_hash_table : FoilHashTable)
    (probe_keys build_keys : List Nat) (project_column_ids : List Nat) : Option SemiJoin :=
  match keyColumns probe_keys probe_table.columns, keyColumns build_keys build_table.columns with
  | some probe_key_values, some build_key_values =>
    some
      { probe_table := probe_table
        build_table := build_table
        build_hash_table := build_hash_table
        probe_key_values := probe_key_values
        build_key_values := build_key_values
        project_column_ids := project_column_ids
        num_keys := templateKeys probe_keys.length }
  | _, _ => none

/-- The member `test_set(position)` of a bit vector: the bit before, and the vector with
the bit set. -/
def testSet (bits : BitVector) (position : Nat) : Option (Bool × BitVector) :=
  match bits.get? position with
  | none => none
  | some old => some (old, bits.set position true)

/-- The walk of the chain of the bucket of the probe row `probe_tid`, as written in the
joins: the build positions whose key values equal those of the probe row, in the order
of the walk. -/
def matchingPositions (hash : Int → Nat) (fuel num_keys : Nat) (hash_table : FoilHashTable)
    (probe_values build_values : List (List Int)) (probe_tid : Nat) : Option (List Nat) :=
  match HashAt hash num_keys probe_values probe_tid with
  | none => none
  | some hash_value =>
    match hash_table.buckets.get? (hash_value &&& hash_table.mask) with
    | none => none
    | some first =>
      probeChain hash_table.next
        (fun build_position =>
          VectorEqualAt num_keys probe_values build_values probe_tid build_position)
        fuel first

/-- The same walk with the `break` of the left semi-join: whether the probe row has a
match. -/
def hasMatch (hash : Int → Nat) (fuel num_keys : Nat) (hash_table : FoilHashTable)
    (probe_values build_values : List (List Int)) (probe_tid : Nat) : Option Bool :=
  match HashAt hash num_keys probe_values probe_tid with
  | none => none
  | some hash_value =>
    match hash_table.buckets.get? (hash_value &&& hash_table.mask) with
    | none => none
    | some first =>
      probeChainAny hash_table.next
        (fun build_position =>
          VectorEqualAt num_keys probe_values build_values probe_tid build_position)
        fuel first

/-- The function `RightSemiJoin::Next` with the member `finished_`: the chunk (`none` for
the null pointer) and the member afterwards. -/
def RightSemiJoin.Next (hash : Int → Nat) (fuel : Nat) (semi_join : SemiJoin)
    (finished : Bool) : Option (Option SemiJoinChunk × Bool) :=
  if finished then some (none, true)
  else
    match (List.range semi_join.probe_table.num_tuples).foldlM
        (fun (bit_vector : BitVector) (probe_tid : Nat) =>
          match matchingPositions hash fuel semi_join.num_keys semi_join.build_hash_table
              semi_join.probe_key_values semi_join.build_key_values probe_tid with
          | none => none
          | some positions =>
            positions.foldlM (fun (bits : BitVector) (build_position : Nat) =>
              match testSet bits build_position with
              | none => none
              | some r => some r.2) bit_vector)
        (List.replicate semi_join.build_table.num_tuples false) with
    | none => none
    | some bit_vector =>
      match semi_join.project_column_ids.mapM
          (fun column_id => semi_join.build_table.columns.get? column_id) with
      | none => none
      | some output_columns => some (some (SemiJoinChunk.create output_columns bit_vector), true)

/-- The loop over the bits `0 .. num_bits - 1` of block `block_id` of a bit vector under
construction: bit `bit` is set to `value (64 * block_id + bit)`. -/
def packBlock (value : Nat → Option Bool) (block_id num_bits : Nat) (bits : BitVector) :
    Option BitVector :=
  (List.range num_bits).foldlM (fun (out : BitVector) (bit : Nat) =>
    match value (64 * block_id + bit) with
    | none => none
    | some r => orBit out block_id bit r) bits

/-- The two loops that fill a bit vector through a `BitVectorBuilder`: the full blocks,
then the bits of the last block. -/
def packBits (value : Nat → Option Bool) (bits : BitVector) : Option BitVector :=
  match (List.range (bits.length / 64)).foldlM (fun (out : BitVector) (block_id : Nat) =>
      packBlock value block_id 64 out) bits with
  | none => none
  | some full => packBlock value (bits.length / 64) (bits.length % 64) full

/-- The function `LeftSemiJoin::DoSemiJoin` on the block of probe key columns. -/
def LeftSemiJoin.DoSemiJoin (hash : Int → Nat) (fuel : Nat) (semi_join : SemiJoin)
    (probe_key_values : List (List Int)) (semi_bitvector : BitVector) : Option BitVector :=
  packBits (fun probe_tid =>
    hasMatch hash fuel semi_join.num_keys semi_join.build_hash_table probe_key_values
      semi_join.build_key_values probe_tid) semi_bitvector

/-- The function `LeftSemiJoin::Next` with the flag `semijoin_chunck_size` and the member
`cur_probe_offset_`: the chunk (`none` for the null pointer) and the member afterwards.
A pointer into a column at the offset is the column from that offset on. -/
def LeftSemiJoin.Next (hash : Int → Nat) (fuel semijoin_chunck_size : Nat)
    (semi_join : SemiJoin) (cur_probe_offset : Nat) : Option (Option SemiJoinChunk × Nat) :=
  if cur_probe_offset ≥ semi_join.probe_table.num_tuples then some (none, cur_probe_offset)
  else
    let num_tuples :=
      min semijoin_chunck_size (semi_join.probe_table.num_tuples - cur_probe_offset)
    match LeftSemiJoin.DoSemiJoin hash fuel semi_join
        (semi_join.probe_key_values.map (fun column => column.drop cur_probe_offset))
        (List.replicate num_tuples false) with
    | none => none
    | some bit_vector =>
      match semi_join.project_column_ids.mapM (fun column_id =>
          match semi_join.probe_table.columns.get? column_id with
          | none => none
          | some column => some (column.drop cur_probe_offset)) with
      | none => none
      | some result_columns =>
        some (some (SemiJoinChunk.create result_columns bit_vector),
          cur_probe_offset + semijoin_chunck_size)

/-- The chunks returned by the successive calls of `LeftSemiJoin::Next` until it returns
null, with at most `fuel` calls. -/
def LeftSemiJoin.drain (hash : Int → Nat) (semijoin_chunck_size : Nat) (semi_join : SemiJoin) :
    Nat → Nat → Option (List SemiJoinChunk)
  | 0, _ => none
  | fuel + 1, cur_probe_offset =>
    match LeftSemiJoin.Next hash (fuel + 1) semijoin_chunck_size semi_join cur_probe_offset with
    | none => none
    | some (none, _) => some []
    | some (some chunk, offset) =>
      match LeftSemiJoin.drain hash semijoin_chunck_size semi_join fuel offset with
      | none => none
      | some chunks => some (chunk :: chunks)

/-- Whether some row below `right_rows` of the right key columns has the key values of
row `left_tid` of the left key columns. -/
def hasEqualKey (left_values right_values : List (List Int)) (right_rows left_tid : Nat) :
    Bool :=
  (List.range right_rows).any (fun b =>
    decide (keyRow left_values left_tid = keyRow right_values b))

/-- A probe table of five rows for the table `hashTestTable`. -/
def probeTestTable : TableView :=
  ⟨1, [[7, 5, 8, 9, 7], [2, 1, 1, 0, 5], [10, 11, 12, 13, 14]]⟩

/-- The input of a join or semi-join on a hash table is well formed: the build table is
not empty and has at most `2^30` rows, there is at least one key and as many probe
keys as build keys, the keys are column ids of their tables with one value per row, and
the hash table was built on the build keys by `BuildHashTableOnTable`. -/
structure JoinInput (hash : Int → Nat) (probe_table build_table : TableView)
    (probe_keys build_keys : List Nat) (probe_values build_values : List (List Int))
    (hash_table : FoilHashTable) : Prop where
  build_rows : 0 < build_table.num_tuples
  build_size : build_table.num_tuples ≤ 2 ^ 30
  keys_ne : build_keys ≠ []
  keys_length : probe_keys.length = build_keys.length
  probe_columns : keyColumns probe_keys probe_table.columns = some probe_values
  build_columns : keyColumns build_keys build_table.columns = some build_values
  probe_rect : ∀ column ∈ probe_values, column.length = probe_table.num_tuples
  build_rect : ∀ column ∈ build_values, column.length = build_table.num_tuples
  built : BuildHashTableOnTable hash build_keys build_table = some hash_table

/-- The chunk of a left semi-join at the probe offset `offset`: the projected probe
columns from the offset on, and one bit per probe row of the chunk telling whether a
build row has its key values. -/
def leftChunkAt (chunk_size : Nat) (probe_table : TableView) (project_column_ids : List Nat)
    (probe_values build_values : List (List Int)) (build_rows offset : Nat) : SemiJoinChunk :=
  SemiJoinChunk.create
    (project_column_ids.map (fun c => (probe_table.columns.getD c []).drop offset))
    ((List.range (min chunk_size (probe_table.num_tuples - offset))).map (fun i =>
      hasEqualKey probe_values build_values build_rows (offset + i)))

/-! ## operations/BuildHashTable.cpp: BuildHashTableAfterSemiJoin -/

/-- The positions of the set bits of a bit vector in increasing order, as a
`BitVectorIterator` returns them (`GetFirst`, then `FindNext`). -/
def setBits (bits : BitVector) : List Nat :=
  (List.range bits.length).filter (fun i => bits.getD i false)

/-- The function `InsertIfNotPresent<num_keys>`: the chain of the bucket of row `tid` is
walked until a position with equal key values is found; if there is none the row is
linked at the head of the chain. -/
def InsertIfNotPresent (hash : Int → Nat) (fuel num_keys : Nat)
    (build_keys_values : List (List Int)) (hash_table : FoilHashTable) (tid : Nat) :
    Option FoilHashTable :=
  match HashAt hash num_keys build_keys_values tid with
  | none => none
  | some hash_value =>
    let bucket_id := hash_value &&& hash_table.mask
    match hash_table.buckets.get? bucket_id with
    | none => none
    | some first =>
      match probeChainAny hash_table.next
          (fun build_position =>
            VectorEqualAt num_keys build_keys_values build_keys_values tid build_position)
          fuel first with
      | none => none
      | some true => some hash_table
      | some false =>
        if tid < hash_table.next.length then
          some { hash_table with next := hash_table.next.set tid (some first)
                                 buckets := hash_table.buckets.set bucket_id (tid + 1) }
        else none

/-- The function `BuildHashTableAfterSemiJoin` (with
`BuildHashTableAfterSemiJoinImpl<num_keys>`) on the results of the successive calls of
`semi_join->Next()`: for every result with a set bit, the rows at the set bits are
inserted with the output columns of the result as key columns. -/
def BuildHashTableAfterSemiJoin (hash : Int → Nat) (fuel : Nat) (num_build_tuples : Nat)
    (num_build_keys : Nat) (semi_join_results : List SemiJoinChunk) : Option FoilHashTable :=
  semi_join_results.foldlM (fun (hash_table : FoilHashTable) (semi_join_result : SemiJoinChunk) =>
    if semi_join_result.num_ones > 0 then
      if semi_join_result.num_ones ≤ (setBits semi_join_result.semi_bitvector).length then
        ((setBits semi_join_result.semi_bitvector).take semi_join_result.num_ones).foldlM
          (fun (hash_table : FoilHashTable) (tid : Nat) =>
            InsertIfNotPresent hash fuel (templateKeys num_build_keys)
              semi_join_result.output_columns hash_table tid) hash_table
      else none
    else some hash_table) (FoilHashTable.create num_build_tuples 0)

/-- A table of four rows with the keys `1, 2, 3, 0`. -/
def fourRowTable : TableView := ⟨0, [[1, 2, 3, 0]]⟩

/-- A fact table with the same four keys, and its hash table on column 0 (the identity
as `std::hash`): every row of `fourRowTable` has a match. -/
def fourFactTable : TableView := ⟨1, [[1, 2, 3, 0]]⟩

/-! ## operations/MultiColumnHashJoin.cpp: Join -/

/-- A buffer of values (memory/Buffer.hpp): the list of its cells, `none` for a cell not
written yet; its length is `num_tuples()`. -/
abbrev OutputBuffer := List (Option Int)

/-- The member `Buffer::Realloc` to `new_num_tuples` cells: the cells kept are unchanged
and the new ones are not initialised. -/
def OutputBuffer.Realloc (buffer : OutputBuffer) (new_num_tuples : Nat) : OutputBuffer :=
  buffer.take new_num_tuples ++ List.replicate (new_num_tuples - buffer.length) none

/-- The function `AttributeReference::WriteToBuffer` at the position `start`: value
`input_values[tid]` for every tuple id, in order. -/
def WriteToBuffer (tids : List Nat) (input_values : List Int) (start : Nat)
    (output : OutputBuffer) : Option OutputBuffer :=
  match tids.mapM (fun tid => input_values.get? tid) with
  | none => none
  | some values =>
    if start + values.length ≤ output.length then
      some (output.take start ++ values.map some ++ output.drop (start + values.length))
    else if values.isEmpty then some output
    else none

/-- The function `AttributeReference::EvaluateForJoin` of the reference to column
`column_id`: a column of the probe side is read at the probe tuple ids, a column of the
build side at the build tuple ids. -/
def AttributeReference.EvaluateForJoin (column_id : Nat)
    (probe_column build_column : List (List Int)) (probe_tids build_tids : List Nat)
    (start_output_pos : Nat) (output : OutputBuffer) : Option OutputBuffer :=
  if column_id < probe_column.length then
    match probe_column.get? column_id with
    | none => none
    | some input_values => WriteToBuffer probe_tids input_values start_output_pos output
  else
    match build_column.get? (column_id - probe_column.length) with
    | none => none
    | some input_values => WriteToBuffer build_tids input_values start_output_pos output

/-- The members of `MultiColumnHashJoin`. -/
structure MultiColumnHashJoin where
  probe_table : TableView
  probe_key_values : List (List Int)
  project_expressions : List Nat
deriving DecidableEq, Repr

/-- The constructor of `MultiColumnHashJoin`. -/
def MultiColumnHashJoin.create (probe_table : TableView) (probe_keys : List Nat)
    (project_expressions : List Nat) : Option MultiColumnHashJoin :=
  match keyColumns probe_keys probe_table.columns with
  | none => none
  | some probe_key_values => some ⟨probe_table, probe_key_values, project_expressions⟩

/-- The function `MultiColumnHashJoin::DoBlockJoin`: the probe tuple ids and the build
positions of the matches of the probe rows `0 .. num_probe_values - 1` of the block, each
list filled only when its template flag is set. -/
def DoBlockJoin (hash : Int → Nat) (fuel num_keys : Nat)
    (populate_probe_tids populate_build_tids : Bool) (num_probe_values : Nat)
    (probe_values build_values : List (List Int)) (hash_table : FoilHashTable) :
    Option (List Nat × List Nat) :=
  (List.range num_probe_values).foldlM
    (fun (tids : List Nat × List Nat) (probe_tid : Nat) =>
      match matchingPositions hash fuel num_keys hash_table probe_values build_values
          probe_tid with
      | none => none
      | some positions =>
        some (if populate_probe_tids then tids.1 ++ positions.map (fun _ => probe_tid)
              else tids.1,
              if populate_build_tids then tids.2 ++ positions else tids.2))
    ([], [])

/-- One iteration of the loop over the projections in `JoinImpl`: projection `e.2` is
evaluated into output buffer `e.1`. -/
def writeProjection (probe_column build_column : List (List Int))
    (probe_tids build_tids : List Nat) (output_offset : Nat) (buffers : List OutputBuffer)
    (e : Nat × Nat) : Option (List OutputBuffer) :=
  match buffers.get? e.1 with
  | none => none
  | some buffer =>
    match AttributeReference.EvaluateForJoin e.2 probe_column build_column probe_tids
        build_tids output_offset buffer with
    | none => none
    | some written => some (buffers.set e.1 written)

/-- One iteration of the `while` loop of `MultiColumnHashJoin::JoinImpl` at the probe
offset `probe_tuple_offset`: the output buffers and the output offset afterwards. -/
def joinBlock (hash : Int → Nat) (fuel join_chunck_size : Nat)
    (resizeable populate_probe_tids populate_build_tids : Bool) (num_keys : Nat)
    (join : MultiColumnHashJoin) (build_table : TableView) (hash_table : FoilHashTable)
    (build_key_values : List (List Int)) (probe_tuple_offset : Nat)
    (state : List OutputBuffer × Nat) : Option (List OutputBuffer × Nat) :=
  let output_offset := state.2
  match DoBlockJoin hash fuel num_keys populate_probe_tids populate_build_tids
      (min join_chunck_size (join.probe_table.num_tuples - probe_tuple_offset))
      (join.probe_key_values.map (fun column => column.drop probe_tuple_offset))
      build_key_values hash_table with
  | none => none
  | some (probe_tids, build_tids) =>
    let num_join_result := if populate_build_tids then build_tids.length else probe_tids.length
    let resized : Option (List OutputBuffer) :=
      if resizeable then
        match state.1.get? 0 with
        | none => none
        | some first =>
          if first.length < output_offset + num_join_result then
            let new_capacity := max (output_offset + num_join_result) (first.length * 3 / 2)
            some (state.1.map (fun buffer => buffer.Realloc new_capacity))
          else some state.1
      else some state.1
    match resized with
    | none => none
    | some output_buffers =>
      match join.project_expressions.enum.foldlM
          (writeProjection
            (join.probe_table.columns.map (fun column => column.drop probe_tuple_offset))
            build_table.columns probe_tids build_tids output_offset)
          output_buffers with
      | none => none
      | some written => some (written, output_offset + num_join_result)

/-- The `while` loop of `JoinImpl` from the probe offset `probe_tuple_offset`, at most
`loop_fuel` iterations. -/
def joinLoop (hash : Int → Nat) (fuel join_chunck_size : Nat)
    (resizeable populate_probe_tids populate_build_tids : Bool) (num_keys : Nat)
    (join : MultiColumnHashJoin) (build_table : TableView) (hash_table : FoilHashTable)
    (build_key_values : List (List Int)) :
    Nat → Nat → List OutputBuffer × Nat → Option (List OutputBuffer × Nat)
  | 0, _, _ => none
  | loop_fuel + 1, probe_tuple_offset, state =>
    if probe_tuple_offset < join.probe_table.num_tuples then
      match joinBlock hash fuel join_chunck_size resizeable populate_probe_tids
          populate_build_tids num_keys join build_table hash_table build_key_values
          probe_tuple_offset state with
      | none => none
      | some state1 =>
        joinLoop hash fuel join_chunck_size resizeable populate_probe_tids populate_build_tids
          num_keys join build_table hash_table build_key_values loop_fuel
          (probe_tuple_offset + join_chunck_size) state1
    else some state

/-- The function `MultiColumnHashJoin::Join<resizeable, populate_probe_tids,
populate_build_tids>` (with `JoinImpl`) with the flag `join_chunck_size`: the output
buffers afterwards.  The chain walks and the `while` loop run at most `fuel` times. -/
def MultiColumnHashJoin.Join (hash : Int → Nat) (fuel join_chunck_size : Nat)
    (resizeable populate_probe_tids populate_build_tids : Bool)
    (join : MultiColumnHashJoin) (build_table : TableView) (hash_table : FoilHashTable)
    (build_keys : List Nat) (output_buffers : List OutputBuffer) :
    Option (List OutputBuffer) :=
  match keyColumns build_keys build_table.columns with
  | none => none
  | some build_keys_values =>
    match joinLoop hash fuel join_chunck_size resizeable populate_probe_tids
        populate_build_tids (templateKeys build_keys_values.length) join build_table
        hash_table build_keys_values fuel 0 (output_buffers, 0) with
    | none => none
    | some (buffers, output_offset) =>
      if resizeable then some (buffers.map (fun buffer => buffer.Realloc output_offset))
      else some buffers

/-- The build rows with the key values of probe row `p`, from the last to the first. -/
def matchingRows (probe_values build_values : List (List Int)) (build_rows p : Nat) :
    List Nat :=
  ((List.range build_rows).filter (fun b =>
    decide (keyRow probe_values p = keyRow build_values b))).reverse

/-- The pairs (probe row, build row) with equal key values, for the probe rows
`first .. first + count - 1` in order, and for each the build rows from the last to the
first. -/
def joinPairsFrom (probe_values build_values : List (List Int)) (build_rows first count : Nat) :
    List (Nat × Nat) :=
  (List.range' first count).flatMap (fun p =>
    (matchingRows probe_values build_values build_rows p).map (fun b => (p, b)))

/-- The pairs (probe row, build row) with equal key values of the whole join. -/
def joinPairs (probe_values build_values : List (List Int)) (probe_rows build_rows : Nat) :
    List (Nat × Nat) :=
  joinPairsFrom probe_values build_values build_rows 0 probe_rows

/-- The value of the projection `column_id` on a pair of rows: a column of the probe
table, or a column of the build table for the ids from the number of probe columns on. -/
def projectPair (probe_table build_table : TableView) (column_id : Nat) (pair : Nat × Nat) :
    Int :=
  if column_id < probe_table.columns.length then
    (probe_table.columns.getD column_id []).getD pair.1 0
  else (build_table.columns.getD (column_id - probe_table.columns.length) []).getD pair.2 0

/-- The state of the loop of `JoinImpl` after the pairs `pairs` have been written: one
buffer per projection, the output offset is the number of pairs, the cells below it hold
the projected values, and the capacities are those the loop relies on (equal for all
buffers when they are resized through the first one, and at least `total` otherwise). -/
structure JoinProgress (resizeable : Bool) (project_expressions : List Nat)
    (probe_table build_table : TableView) (pairs : List (Nat × Nat)) (total : Nat)
    (state : List OutputBuffer × Nat) : Prop where
  buffers_length : state.1.length = project_expressions.length
  offset_eq : state.2 = pairs.length
  written : ∀ i cid, project_expressions.get? i = some cid →
    (state.1.getD i []).take state.2 =
      pairs.map (fun pr => some (projectPair probe_table build_table cid pr))
  resizeable_capacity : resizeable = true →
    state.1 ≠ [] ∧ ∃ L, state.2 ≤ L ∧ ∀ b ∈ state.1, b.length = L
  fixed_capacity : resizeable = false → ∀ b ∈ state.1, total ≤ b.length

/-! ## operations/BuildHashTable.cpp: BuildHashTableOnPartitions; operations/HashJoin.cpp -/

/-- The hash table of one partition in `BuildHashTableOnPartitions`: the default
`FoilHashTable()` for an empty partition, and otherwise the tuples linked by the bucket
`(hash(value) & mask) >> num_radix_bits`. -/
def buildPartitionTable (hash : Int → Nat) (num_radix_bits : Nat)
    (partition : List PartitionTuple) : Option FoilHashTable :=
  if partition.length = 0 then some ⟨0, [], []⟩
  else
    (List.range partition.length).foldlM (fun (hash_table : FoilHashTable) (index : Nat) =>
      match partition.get? index with
      | none => none
      | some tuple => linkTuple num_radix_bits hash_table index (hash tuple.value))
      (FoilHashTable.create partition.length num_radix_bits)

/-- The function `BuildHashTableOnPartitions` on the partitions of a column: one hash
table per partition. -/
def BuildHashTableOnPartitions (hash : Int → Nat) (num_radix_bits : Nat)
    (partitions : List (List PartitionTuple)) : Option (List FoilHashTable) :=
  partitions.mapM (buildPartitionTable hash num_radix_bits)

/-- The members of `HashJoin`: the assigner of the probe chunks, and the columns, hash
tables and partitions of the build column. -/
structure HashJoin where
  assigner : PartitionAssigner
  build_columns : List (List Int)
  build_hash_tables : List FoilHashTable
  build_partitions : List (List PartitionTuple)
deriving DecidableEq, Repr

/-- The test of the chain walk in `HashJoin::Next`: the build tuple at the position has
the value of the probe tuple. -/
def sameValueAt (build_partition : List PartitionTuple) (probe_value : Int)
    (build_partition_position : Nat) : Option Bool :=
  match build_partition.get? build_partition_position with
  | none => none
  | some tuple => some (tuple.value == probe_value)

/-- One iteration of the loop over the probe tuples in `HashJoin::Next`: the triples
(probe tuple id, build tuple id, build position) of the matches of the probe tuple are
appended. -/
def probePartitionTuple (hash : Int → Nat) (fuel num_radix_bits : Nat)
    (build_partition : List PartitionTuple) (hash_table : FoilHashTable)
    (triples : List (Nat × Nat × Nat)) (probe : PartitionTuple) :
    Option (List (Nat × Nat × Nat)) :=
  match hash_table.buckets.get? ((hash probe.value &&& hash_table.mask) >>> num_radix_bits) with
  | none => none
  | some first =>
    match probeChain hash_table.next (sameValueAt build_partition probe.value) fuel first with
    | none => none
    | some positions =>
      some (triples ++ positions.map (fun position =>
        (probe.tuple_id, (build_partition.getD position ⟨0, 0⟩).tuple_id, position)))

/-- The body of the `do` loop of `HashJoin::Next` on one chunk of the assigner: no chunk
(`some none`) when the build partition is empty or no tuple matches, and the join chunk
otherwise. -/
def joinPartitionChunk (hash : Int → Nat) (fuel num_radix_bits : Nat) (hash_join : HashJoin)
    (partition_chunk : PartitionChunk) : Option (Option HashJoinChunk) :=
  match hash_join.build_partitions.get? partition_chunk.partition_id with
  | none => none
  | some build_partition =>
    if build_partition.length = 0 then some none
    else
      match hash_join.build_hash_tables.get? partition_chunk.partition_id with
      | none => none
      | some hash_table =>
        match partition_chunk.partition.foldlM
            (probePartitionTuple hash fuel num_radix_bits build_partition hash_table) [] with
        | none => none
        | some triples =>
          if triples.isEmpty then some none
          else
            some (some
              { table_id := partition_chunk.table_id
                join_group_id := partition_chunk.join_group_id
                partition_id := partition_chunk.partition_id
                binding_partition_size := build_partition.length
                probe_columns := partition_chunk.columns
                build_columns := hash_join.build_columns
                probe_tids := triples.map (fun t => t.1)
                build_tids := triples.map (fun t => t.2.1)
                build_relative_tids := triples.map (fun t => t.2.2) })

/-- The function `HashJoin::Next` with the flags `partition_chunck_size` and
`num_radix_bits`: the join chunk (`none` for the null pointer) and the join afterwards.
The `do` loop runs at most `loop_fuel` times; the loops inside at most `fuel` times. -/
def HashJoin.Next (hash : Int → Nat) (fuel partition_chunck_size num_radix_bits : Nat) :
    Nat → HashJoin → Option (Option HashJoinChunk × HashJoin)
  | 0, _ => none
  | loop_fuel + 1, hash_join =>
    match PartitionAssigner.Next partition_chunck_size fuel hash_join.assigner with
    | none => none
    | some (none, assigner) => some (none, { hash_join with assigner := assigner })
    | some (some partition_chunk, assigner) =>
      match joinPartitionChunk hash fuel num_radix_bits hash_join partition_chunk with
      | none => none
      | some none =>
        HashJoin.Next hash fuel partition_chunck_size num_radix_bits loop_fuel
          { hash_join with assigner := assigner }
      | some (some chunk) => some (some chunk, { hash_join with assigner := assigner })

/-- The chunks returned by the successive calls of `HashJoin::Next` until it returns
null, with at most `calls` calls. -/
def HashJoin.drain (hash : Int → Nat) (fuel partition_chunck_size num_radix_bits : Nat) :
    Nat → HashJoin → Option (List HashJoinChunk)
  | 0, _ => none
  | calls + 1, hash_join =>
    match HashJoin.Next hash fuel partition_chunck_size num_radix_bits (calls + 1)
        hash_join with
    | none => none
    | some (none, _) => some []
    | some (some chunk, hash_join1) =>
      match HashJoin.drain hash fuel partition_chunck_size num_radix_bits calls hash_join1 with
      | none => none
      | some chunks => some (chunk :: chunks)

/-- The triples (probe tuple id, build tuple id, build position) of the pairs of a probe
tuple of the chunk and a build tuple of the partition with equal values: probe tuples in
order, and for each the build positions from the last to the first. -/
def joinTriples (probe build_partition : List PartitionTuple) : List (Nat × Nat × Nat) :=
  probe.flatMap (fun probe_tuple =>
    (((List.range build_partition.length).filter (fun position =>
      decide ((build_partition.getD position ⟨0, 0⟩).value = probe_tuple.value))).reverse).map
      (fun position =>
        (probe_tuple.tuple_id, (build_partition.getD position ⟨0, 0⟩).tuple_id, position)))

/-- The join chunk of a chunk of the assigner, if it has a match. -/
def joinChunkOf (build_columns : List (List Int)) (build_partitions : List (List PartitionTuple))
    (partition_chunk : PartitionChunk) : Option HashJoinChunk :=
  let build_partition := build_partitions.getD partition_chunk.partition_id []
  let triples := joinTriples partition_chunk.partition build_partition
  if triples.isEmpty then none
  else
    some
      { table_id := partition_chunk.table_id
        join_group_id := partition_chunk.join_group_id
        partition_id := partition_chunk.partition_id
        binding_partition_size := build_partition.length
        probe_columns := partition_chunk.columns
        build_columns := build_columns
        probe_tids := triples.map (fun t => t.1)
        build_tids := triples.map (fun t => t.2.1)
        build_relative_tids := triples.map (fun t => t.2.2) }

/-- The partitions of a build column `[4, 6, 2, 1, 4]` in two: the second partition is
empty for the test of the skipped chunks below. -/
def buildTestPartitions : List (List PartitionTuple) :=
  [[⟨4, 0⟩, ⟨6, 1⟩, ⟨2, 2⟩, ⟨4, 4⟩], []]

/-! ## operations/SemiJoinFactory.cpp: SelectAndCreateSemiJoin -/

/-- The statement `if (*hash_table == nullptr) hash_table->reset(BuildHashTableOnTable(keys,
table))` of `SelectAndCreateSemiJoin`: the hash table behind the pointer afterwards. -/
def resetIfNull (hash : Int → Nat) (hash_table : Option FoilHashTable) (keys : List Nat)
    (table : TableView) : Option FoilHashTable :=
  match hash_table with
  | none => BuildHashTableOnTable hash keys table
  | some built => some built

/-- The function `SelectAndCreateSemiJoin`: the flag `left_semijoin` passed to
`CreateSemiJoin`, the semi-join, and the two hash-table pointers afterwards (`none` is the
null pointer). -/
def SelectAndCreateSemiJoin (hash : Int → Nat) (output_table other_table : TableView)
    (output_hash_table other_hash_table : Option FoilHashTable)
    (output_join_keys other_join_keys : List Nat) (project_column_ids : List Nat) :
    Option ((Bool × SemiJoin) × Option FoilHashTable × Option FoilHashTable) :=
  if output_table.num_tuples < other_table.num_tuples then
    match resetIfNull hash output_hash_table output_join_keys output_table with
    | none => none
    | some hash_table =>
      match CreateSemiJoin other_table output_table hash_table other_join_keys
          output_join_keys project_column_ids with
      | none => none
      | some semi_join => some ((false, semi_join), some hash_table, other_hash_table)
  else
    match resetIfNull hash other_hash_table other_join_keys other_table with
    | none => none
    | some hash_table =>
      match CreateSemiJoin output_table other_table hash_table output_join_keys
          other_join_keys project_column_ids with
      | none => none
      | some semi_join => some ((true, semi_join), output_hash_table, some hash_table)

/-- A table on which a hash table can be built on the given keys: it is not empty and has
at most `2^30` rows, there is at least one key, and the keys are column ids of the table
with one value per row. -/
structure HashableTable (table : TableView) (keys : List Nat)
    (key_values : List (List Int)) : Prop where
  rows : 0 < table.num_tuples
  size : table.num_tuples ≤ 2 ^ 30
  keys_ne : keys ≠ []
  columns : keyColumns keys table.columns = some key_values
  rect : ∀ column ∈ key_values, column.length = table.num_tuples

/-! ## learner/LiteralSelector.hpp: NeedRegrow -/

/-- The counters of an evaluated literal (`EvaluatedLiteralInfo`). -/
structure EvaluatedLiteralInfo where
  literal : FoilLiteral
  num_covered_positive : Int
  num_covered_negative : Int
  num_binding_positive : Int
  num_binding_negative : Int
deriving DecidableEq, Repr

/-- The private `LiteralSelector::NeedRegrow(clause, num_covered_negative, literal)`.
`random_flags().back()` is read with the default `false`; the flags have the
length of the body, which is not empty at that point. -/
def NeedRegrowImpl (clause : FoilClause) (num_covered_negative : Int) (literal : FoilLiteral) :
    Bool :=
  if clause.body_literals.isEmpty || num_covered_negative == 0 then false
  else if !(clause.random_flags.getLastD false) then false
  else
    !(literal.vars.enum.any (fun iv =>
        decide (iv.2.variable_id ≥ clause.num_variables_without_last_body_literal) &&
        decide ((iv.1 : Int) ≠ literal.predicate.key)))

/-- The public `LiteralSelector::NeedRegrow(clause, best_literal_info)`. -/
def NeedRegrow (clause : FoilClause) (best_literal_info : EvaluatedLiteralInfo) : Bool :=
  NeedRegrowImpl clause best_literal_info.num_covered_negative best_literal_info.literal

/-- The clause has a last body literal and it was added as a random literal. -/
def LastBodyLiteralWasRandom (clause : FoilClause) : Prop :=
  clause.body_literals ≠ [] ∧ clause.random_flags.getLast? = some true

/-- No argument of the literal outside the key position of its predicate is a
variable introduced by the last body literal of the clause. -/
def NoNewVariableOutsideKey (clause : FoilClause) (literal : FoilLiteral) : Prop :=
  ∀ (i : Nat) (v : FoilVariable), literal.vars.get? i = some v →
    v.variable_id ≥ clause.num_variables_without_last_body_literal →
    (i : Int) = literal.predicate.key

/-- A clause whose only body literal `p_1(0, -1)` was added as a random literal. -/
def regrowClause : FoilClause :=
  (FoilClause.ofHead ⟨⟨0, -1, [0]⟩, [⟨0, 0⟩]⟩).AddUnBoundBodyLiteral
    ⟨⟨1, -1, [0, 0]⟩, [⟨0, 0⟩, ⟨-1, 0⟩]⟩ true

/-- The literal `p_0(0)` evaluated with no covered negative binding. -/
def regrowInfo : EvaluatedLiteralInfo :=
  { literal := ⟨⟨0, -1, [0]⟩, [⟨0, 0⟩]⟩
    num_covered_positive := 2
    num_covered_negative := 0
    num_binding_positive := 2
    num_binding_negative := 0 }

/-! ## learner/LiteralSelector.hpp, LiteralSelector.cpp: the scores and the random candidates -/

/-- The double-precision operations used by the scores of the literal selector, kept
abstract: `eq` and `lt` are `==` and `<`, and `random_margin` is the flag of that
name. -/
structure DoubleModel where
  F : Type
  ofInt : Int → F
  add : F → F → F
  sub : F → F → F
  mul : F → F → F
  div : F → F → F
  neg : F → F
  sqrt : F → F
  log2 : F → F
  log : F → F
  eq : F → F → Bool
  lt : F → F → Bool
  random_margin : F

/-- A candidate literal with its four counters (learner/CandidateLiteralInfo.hpp). -/
structure CandidateLiteralInfo where
  literal : FoilLiteral
  num_covered_positive : Int
  num_covered_negative : Int
  num_binding_positive : Int
  num_binding_negative : Int
deriving DecidableEq, Repr

/-- The function `LiteralSelector::ComputeMccScore`; `num_positive_bindings` and
`num_negative_bindings` are the counts `clause_->GetNumPositiveBindings()` and
`clause_->GetNumNegativeBindings()` of the clause of the selector.  The 32-bit counts
are integers here (the sums stay below `2^31`). -/
def ComputeMccScore (fm : DoubleModel) (num_positive_bindings num_negative_bindings : Int)
    (num_covered_positive num_covered_negative : Int) : fm.F :=
  if num_covered_positive = 0 then fm.ofInt (-1)
  else if num_covered_positive = num_positive_bindings ∧
      num_covered_negative = num_negative_bindings then fm.ofInt 0
  else
    let true_negatives := fm.ofInt (num_negative_bindings - num_covered_negative)
    let false_negatives := fm.ofInt (num_positive_bindings - num_covered_positive)
    let num_total_covered := fm.ofInt (num_covered_positive + num_covered_negative)
    fm.div
      (fm.sub (fm.mul (fm.ofInt num_covered_positive) true_negatives)
        (fm.mul (fm.ofInt num_covered_negative) false_negatives))
      (fm.sqrt
        (fm.mul
          (fm.mul
            (fm.mul num_total_covered
              (fm.sub (fm.ofInt (num_positive_bindings + num_negative_bindings))
                num_total_covered))
            (fm.ofInt num_negative_bindings))
          (fm.ofInt num_positive_bindings)))

/-- The function `LiteralSelector::ComputeAreaUnderEntropyCurve`. -/
def ComputeAreaUnderEntropyCurve (fm : DoubleModel)
    (num_positive_bindings num_negative_bindings : Int) : fm.F :=
  if num_positive_bindings = 0 then fm.ofInt 0
  else if num_negative_bindings = 0 then fm.ofInt 1
  else
    let precision :=
      fm.div (fm.ofInt num_positive_bindings)
        (fm.ofInt (num_positive_bindings + num_negative_bindings))
    let one_minus := fm.sub (fm.ofInt 1) precision
    fm.add
      (fm.mul
        (fm.sub (fm.mul (fm.mul one_minus one_minus) (fm.log2 one_minus))
          (fm.mul (fm.mul precision precision) (fm.log2 precision)))
        (fm.log (fm.ofInt 2)))
      precision

/-- The members of `LiteralSelector`.  The clause is held with its two binding counts;
the heap is the list of its entries (a candidate and its score), and
`num_saved_literals` is the flag of that name. -/
structure LiteralSelector (fm : DoubleModel) where
  total_uncovered_positive : Int
  clause : FoilClause
  num_positive_bindings : Int
  num_negative_bindings : Int
  clause_entropy_area : fm.F
  black_random_literals : List FoilLiteral
  maximum_random_f_score : fm.F
  best_random_literal : Option (CandidateLiteralInfo × fm.F)
  top_literal_heap : List (CandidateLiteralInfo × fm.F)
  num_saved_literals : Int

/-- The constructor of `LiteralSelector`. -/
def LiteralSelector.create (fm : DoubleModel) (total_uncovered_positive : Int)
    (clause : FoilClause) (num_positive_bindings num_negative_bindings : Int)
    (black_random_literals : List FoilLiteral) (num_saved_literals : Int) :
    LiteralSelector fm :=
  { total_uncovered_positive := total_uncovered_positive
    clause := clause
    num_positive_bindings := num_positive_bindings
    num_negative_bindings := num_negative_bindings
    clause_entropy_area :=
      ComputeAreaUnderEntropyCurve fm num_positive_bindings num_negative_bindings
    black_random_literals := black_random_literals
    maximum_random_f_score := fm.ofInt (-1)
    best_random_literal := none
    top_literal_heap := []
    num_saved_literals := num_saved_literals }

/-- The function `LiteralSelector::ComputeEntropyScore`. -/
def ComputeEntropyScore (fm : DoubleModel) (sel : LiteralSelector fm)
    (num_positive_bindings num_negative_bindings : Int) : fm.F :=
  fm.sub (ComputeAreaUnderEntropyCurve fm num_positive_bindings num_negative_bindings)
    sel.clause_entropy_area

/-- The value `raw_mcc` of `LiteralSelector::Insert`. -/
def insertRawMcc (fm : DoubleModel) (sel : LiteralSelector fm)
    (literal_info : CandidateLiteralInfo) : fm.F :=
  ComputeMccScore fm sel.num_positive_bindings sel.num_negative_bindings
    literal_info.num_covered_positive literal_info.num_covered_negative

/-- The test `mcc == 0 || auec == 0` of `LiteralSelector::Insert`, after which the
candidate is dropped. -/
def insertDiscards (fm : DoubleModel) (sel : LiteralSelector fm)
    (literal_info : CandidateLiteralInfo) : Bool :=
  let mcc := fm.add (fm.ofInt 1) (insertRawMcc fm sel literal_info)
  let auec := fm.add (fm.ofInt 1)
    (ComputeEntropyScore fm sel literal_info.num_binding_positive
      literal_info.num_binding_negative)
  fm.eq mcc (fm.ofInt 0) || fm.eq auec (fm.ofInt 0)

/-- The condition under which `LiteralSelector::Insert<true>` enters the block of the
random candidates.  The lookup in the unordered set of black literals compares with
`FoilLiteral::Equals`. -/
def IsRandomCandidate (fm : DoubleModel) (sel : LiteralSelector fm)
    (literal_info : CandidateLiteralInfo) : Bool :=
  let raw_mcc := insertRawMcc fm sel literal_info
  !literal_info.literal.IsBound &&
  !(fm.eq raw_mcc (fm.ofInt 0) &&
      decide (literal_info.num_binding_positive = literal_info.num_covered_positive) &&
      decide (literal_info.num_binding_negative = literal_info.num_covered_negative)) &&
  fm.lt raw_mcc fm.random_margin &&
  fm.lt (fm.neg fm.random_margin) raw_mcc &&
  !(sel.black_random_literals.any (fun l => l.Equals literal_info.literal)) &&
  !(NeedRegrowImpl sel.clause literal_info.num_covered_negative literal_info.literal)

/-- The block of the random candidates in `LiteralSelector::Insert`: the best random
literal and its F-score afterwards.  The quotient of the two counts is the integer
division of C++. -/
def updateBestRandom (fm : DoubleModel) (sel : LiteralSelector fm)
    (literal_info : CandidateLiteralInfo) (score : fm.F) : LiteralSelector fm :=
  let precision := fm.div (fm.ofInt literal_info.num_covered_positive)
    (fm.ofInt (literal_info.num_covered_positive + literal_info.num_covered_negative))
  let recall_value := fm.div (fm.ofInt literal_info.num_covered_positive)
    (fm.ofInt sel.num_positive_bindings)
  let f_score := fm.div (fm.mul (fm.mul (fm.ofInt 2) precision) recall_value)
    (fm.add precision recall_value)
  let replaces : Bool :=
    match sel.best_random_literal with
    | none => true
    | some best =>
      fm.lt sel.maximum_random_f_score f_score ||
        (fm.eq f_score sel.maximum_random_f_score &&
          decide (literal_info.num_covered_positive < sel.total_uncovered_positive) &&
          decide (Int.tdiv literal_info.num_binding_positive
            literal_info.num_covered_positive ≤ 2) &&
          decide (literal_info.num_binding_positive > best.1.num_binding_positive))
  if replaces then
    { sel with maximum_random_f_score := f_score
               best_random_literal := some (literal_info, score) }
  else sel

/-- The smallest score of a non-empty heap (`top_literal_heap_.front()->score`). -/
def heapMinScore (fm : DoubleModel) (first : fm.F) (rest : List fm.F) : fm.F :=
  rest.foldl (fun m s => if fm.lt s m then s else m) first

/-- The end of `LiteralSelector::Insert`: the candidate enters the heap while it has
fewer than `num_saved_literals` entries; otherwise a candidate below the smallest score
is ignored, and any other replaces all the entries with the smallest score.  With an
empty heap and `num_saved_literals ≤ 0` the code reads the front of an empty vector; the
statements about the heap assume `num_saved_literals ≥ 1`, so that this case is never
reached. -/
def pushTopLiteral (fm : DoubleModel) (sel : LiteralSelector fm)
    (literal_info : CandidateLiteralInfo) (score : fm.F) : LiteralSelector fm :=
  if (sel.top_literal_heap.length : Int) < sel.num_saved_literals then
    { sel with top_literal_heap := sel.top_literal_heap ++ [(literal_info, score)] }
  else
    match sel.top_literal_heap with
    | [] => { sel with top_literal_heap := [(literal_info, score)] }
    | first :: rest =>
      let min_score := heapMinScore fm first.2 (rest.map Prod.snd)
      if fm.lt score min_score then sel
      else
        { sel with top_literal_heap :=
            (sel.top_literal_heap.filter (fun e => !fm.eq e.2 min_score)) ++
              [(literal_info, score)] }

/-- The function `LiteralSelector::Insert<consider_random_literal>`. -/
def LiteralSelector.Insert (fm : DoubleModel) (consider_random_literal : Bool)
    (sel : LiteralSelector fm) (literal_info : CandidateLiteralInfo) : LiteralSelector fm :=
  let raw_mcc := insertRawMcc fm sel literal_info
  let mcc := fm.add (fm.ofInt 1) raw_mcc
  let auec := fm.add (fm.ofInt 1)
    (ComputeEntropyScore fm sel literal_info.num_binding_positive
      literal_info.num_binding_negative)
  if insertDiscards fm sel literal_info then sel
  else
    let score := fm.div (fm.mul (fm.mul (fm.ofInt 5) auec) mcc)
      (fm.add mcc (fm.mul (fm.ofInt 4) auec))
    let sel1 :=
      if consider_random_literal && IsRandomCandidate fm sel literal_info then
        updateBestRandom fm sel literal_info score
      else sel
    pushTopLiteral fm sel1 literal_info score

/-- Exact rational arithmetic as a stand-in for the doubles, with the default flag
`random_margin = 0.03`; the square root and the logarithms are parameters. -/
def ratDouble (sqrt log2 log : ℚ → ℚ) : DoubleModel :=
  { F := ℚ, ofInt := fun i => (i : ℚ), add := fun a b => a + b, sub := fun a b => a - b,
    mul := fun a b => a * b, div := fun a b => a / b, neg := fun a => -a,
    sqrt := sqrt, log2 := log2, log := log,
    eq := fun a b => decide (a = b), lt := fun a b => decide (a < b),
    random_margin := 3 / 100 }

/-- A candidate `p_1(0, -1)` with one unbound variable whose counters equal the binding
counts of the clause: two positive bindings, all covered, and no negative one. -/
def fullCoverInfo : CandidateLiteralInfo :=
  { literal := ⟨⟨1, -1, [0, 0]⟩, [⟨0, 0⟩, ⟨-1, 0⟩]⟩
    num_covered_positive := 2
    num_covered_negative := 0
    num_binding_positive := 2
    num_binding_negative := 0 }

/-- A selector for the clause `p_0(0)` with two positive bindings, no negative binding
and an empty black list. -/
def fullCoverSelector (fm : DoubleModel) : LiteralSelector fm :=
  LiteralSelector.create fm 2 (FoilClause.ofHead ⟨⟨0, -1, [0]⟩, [⟨0, 0⟩]⟩) 2 0 [] 5

/-- The value `score` of `LiteralSelector::Insert` for a candidate that is not dropped. -/
def insertScore (fm : DoubleModel) (sel : LiteralSelector fm)
    (literal_info : CandidateLiteralInfo) : fm.F :=
  let mcc := fm.add (fm.ofInt 1) (insertRawMcc fm sel literal_info)
  let auec := fm.add (fm.ofInt 1)
    (ComputeEntropyScore fm sel literal_info.num_binding_positive
      literal_info.num_binding_negative)
  fm.div (fm.mul (fm.mul (fm.ofInt 5) auec) mcc) (fm.add mcc (fm.mul (fm.ofInt 4) auec))

/-- The heap after the end of `LiteralSelector::Insert` (see `pushTopLiteral`), as a
function of the heap before, the flag `num_saved_literals` and the new entry. -/
def pushHeap (fm : DoubleModel) (num_saved_literals : Int)
    (heap : List (CandidateLiteralInfo × fm.F)) (entry : CandidateLiteralInfo × fm.F) :
    List (CandidateLiteralInfo × fm.F) :=
  if (heap.length : Int) < num_saved_literals then heap ++ [entry]
  else
    match heap with
    | [] => [entry]
    | first :: rest =>
      if fm.lt entry.2 (heapMinScore fm first.2 (rest.map Prod.snd)) then heap
      else
        heap.filter (fun e => !fm.eq e.2 (heapMinScore fm first.2 (rest.map Prod.snd))) ++
          [entry]

/-- The selector after a sequence of calls of `Insert`, each with its template argument
`consider_random_literal`. -/
def insertAll (fm : DoubleModel) (sel : LiteralSelector fm)
    (calls : List (Bool × CandidateLiteralInfo)) : LiteralSelector fm :=
  calls.foldl (fun s call => LiteralSelector.Insert fm call.1 s call.2) sel

/-- A candidate `p_1(1, -1)` with the same counters as `fullCoverInfo`, and so the same
score. -/
def fullCoverInfo2 : CandidateLiteralInfo :=
  { fullCoverInfo with literal := ⟨⟨1, -1, [0, 0]⟩, [⟨1, 0⟩, ⟨-1, 0⟩]⟩ }

/-- A third candidate `p_1(-1, 0)` with the same counters. -/
def fullCoverInfo3 : CandidateLiteralInfo :=
  { fullCoverInfo with literal := ⟨⟨1, -1, [0, 0]⟩, [⟨-1, 0⟩, ⟨0, 0⟩]⟩ }

/-- The selector `fullCoverSelector` with the flag `num_saved_literals = 2`. -/
def twoSlotSelector (fm : DoubleModel) : LiteralSelector fm :=
  LiteralSelector.create fm 2 (FoilClause.ofHead ⟨⟨0, -1, [0]⟩, [⟨0, 0⟩]⟩) 2 0 [] 2

/-! ## Replaceable duplicates: what the check is meant to decide -/

/-- The image of a literal under an assignment of the variable ids. -/
def applyAssignment (θ : Int → Int) (l : FoilLiteral) : Int × List Int :=
  (l.predicate.id, l.vars.map (fun v => θ v.variable_id))

/-- The literals (head included) of the clause obtained by putting `literal`, its unbound
arguments given fresh variable ids, in place of the body literal at index `k`. -/
def replacedClauseRows (clause : FoilClause) (literal : FoilLiteral) (k : Nat) :
    List (Int × List Int) :=
  (clause.head_literal.predicate.id, existingLiteralRow clause.head_literal) ::
    ((clause.body_literals.eraseIdx k).map (fun l => (l.predicate.id, existingLiteralRow l)) ++
      [(literal.predicate.id, newLiteralRow literal.vars clause.num_variables)])

/-- The literal is a replaceable duplicate of the body literal at index `k`: that body
literal is on the same predicate, and some assignment of the clause variables fixes the
head variables and maps every body literal onto a literal of the replaced clause. -/
def IsReplaceableDuplicateOf (clause : FoilClause) (literal : FoilLiteral) (k : Nat) : Prop :=
  ∃ old : FoilLiteral, clause.body_literals.get? k = some old ∧
    old.predicate = literal.predicate ∧
    ∃ θ : Int → Int,
      (∀ v ∈ clause.head_literal.vars, θ v.variable_id = v.variable_id) ∧
      ∀ l ∈ clause.body_literals, applyAssignment θ l ∈ replacedClauseRows clause literal k

/-- The target predicate `p_0` on types `0, 0`, also a background predicate. -/
def dupPredicate0 : FoilPredicate := ⟨0, -1, [0, 0]⟩
/-- The background predicate `p_1` on types `0, 0`. -/
def dupPredicate1 : FoilPredicate := ⟨1, -1, [0, 0]⟩

/-- The clause `p_0(0, 1) :- p_0(1, 0), p_1(0, 2)`, grown from the most general clause by
adding the candidates `p_0(1, 0)` and `p_1(0, -1)`. -/
def dupClause : FoilClause :=
  ((FoilClause.ofHead ⟨dupPredicate0, [⟨0, 0⟩, ⟨1, 0⟩]⟩).AddUnBoundBodyLiteral
      ⟨dupPredicate0, [⟨1, 0⟩, ⟨0, 0⟩]⟩ false).AddUnBoundBodyLiteral
    ⟨dupPredicate1, [⟨0, 0⟩, ⟨-1, 0⟩]⟩ false

/-- The candidate literal `p_1(1, -1)`. -/
def dupLiteral : FoilLiteral := ⟨dupPredicate1, [⟨1, 0⟩, ⟨-1, 0⟩]⟩

/-! ## Replaceable duplicates: the clauses of the enumerator test -/

/-- The predicates `p_0`, `p_1`, `p_2`, `p_5` of the enumerator test (no key). -/
def testPredicate0 : FoilPredicate := ⟨0, -1, [0]⟩
/-- The predicate `p_1` on types `0, 1`. -/
def testPredicate1 : FoilPredicate := ⟨1, -1, [0, 1]⟩
/-- The predicate `p_2` on types `1, 0, 2`. -/
def testPredicate2 : FoilPredicate := ⟨2, -1, [1, 0, 2]⟩
/-- The predicate `p_5` on types `0, 0`. -/
def testPredicate5 : FoilPredicate := ⟨5, -1, [0, 0]⟩

/-- The predicate `p_3` of the enumerator test. -/
def testPredicate3 : FoilPredicate := ⟨3, -1, [0, 0, 1]⟩
/-- The predicate `p_4` of the enumerator test. -/
def testPredicate4 : FoilPredicate := ⟨4, -1, [1, 0, 1]⟩

/-- The background predicates of the enumerator test, in the order of the fixture. -/
def testBackground : List FoilPredicate :=
  [testPredicate0, testPredicate1, testPredicate5, testPredicate2, testPredicate3,
    testPredicate4]

/-- The head `p_5(0, 1)` of the clauses of the enumerator tests. -/
def testHead5 : FoilLiteral := ⟨testPredicate5, [⟨0, 0⟩, ⟨1, 0⟩]⟩

/-- The pointers to the literals of a map that equal one of the queries
(`CandidateLiteralEnumeratorTest::SearchInMap`). -/
def SearchInMap (literal_map : PredMap FoilLiteral) (literal_queries : List FoilLiteral) :
    List (FoilPredicate × Nat) :=
  literal_map.flatMap (fun e =>
    (e.2.enum.filter (fun il => literal_queries.any (fun q => il.2.Equals q))).map
      (fun il => (e.1, il.1)))

/-- The extensions of the test `EnumeratorTestWithDynamicPruning`: the clause
`p_5(0, 1) :-` is extended with `p_5(0, -1)`, `p_5(2, 1)` and `p_5(0, -1)`; the first
search records `p_1(0, -1)`, `p_3(-1, 0, -1)` and `p_3(0, -1, -1)` as pruned, the second
`p_3(2, -1, -1)` and `p_5(2, -1)` (the pointers are the positions of these literals in
the generated vectors). -/
def testSteps : List ExtensionStep :=
  [⟨⟨testPredicate5, [⟨0, 0⟩, ⟨-1, 0⟩]⟩, false,
      [(testPredicate1, 0), (testPredicate3, 2), (testPredicate3, 4)]⟩,
    ⟨⟨testPredicate5, [⟨2, 0⟩, ⟨1, 0⟩]⟩, false, [(testPredicate5, 2), (testPredicate3, 2)]⟩,
    ⟨⟨testPredicate5, [⟨0, 0⟩, ⟨-1, 0⟩]⟩, false, []⟩]

/-- The fixture step `SetupClauseFromString` followed by `EXPECT_DUPLICATE` or
`EXPECT_NOT_DUPLICATE`: parses the clause and runs the check on the literal. -/
def checkOnClause (head : FoilLiteral) (body : List FoilLiteral) (literal : FoilLiteral) :
    Option Bool :=
  (FoilClause.CreateClause head body).bind
    (fun c => IsReplaceableDuplicateLiteralToClause c literal)

/-- The body `p_5(0, 2), p_5(2, 1), p_5(0, 3)`. -/
def testBody5 : List FoilLiteral :=
  [FoilClause.CreateLiteral testPredicate5 [0, 2], FoilClause.CreateLiteral testPredicate5 [2, 1],
   FoilClause.CreateLiteral testPredicate5 [0, 3]]

/-- The body `p_1(0, 1), p_2(1, 0, 2)`. -/
def testBody12 : List FoilLiteral :=
  [FoilClause.CreateLiteral testPredicate1 [0, 1],
   FoilClause.CreateLiteral testPredicate2 [1, 0, 2]]

/-! ## utility/StringUtil.cpp, schema/FoilParser.hpp, FoilLiteral::ToString, FoilClause::ToString

A `std::string` is the list of its characters. -/

/-- The function `::isspace` in the "C" locale: space, `\t`, `\n`, `\v`, `\f`, `\r`. -/
def isspace (c : Char) : Bool :=
  decide (c.toNat = 32) || decide (9 ≤ c.toNat ∧ c.toNat ≤ 13)

/-- The function `RemoveWhiteSpace`. -/
def RemoveWhiteSpace (str : List Char) : List Char := str.filter (fun c => !isspace c)

/-- The position of the first `c` in a string, if any. -/
def findIn (c : Char) : List Char → Option Nat
  | [] => none
  | x :: xs => if x = c then some 0 else (findIn c xs).map (fun i => i + 1)

/-- The member `std::string::find(c, pos)`; `none` is `npos`. -/
def find (str : List Char) (c : Char) (pos : Nat) : Option Nat :=
  (findIn c (str.drop pos)).map (fun i => i + pos)

/-- The member `std::string::substr(pos, len)`, with `none` as length for `npos` (up to the
end); it throws (`none`) when `pos` is past the end. -/
def substr (str : List Char) (pos : Nat) (len : Option Nat) : Option (List Char) :=
  if pos ≤ str.length then
    match len with
    | none => some (str.drop pos)
    | some n => some ((str.drop pos).take n)
  else none

/-- The value of a character as a digit of `strtol`: `0`-`9`, then the letters from 10. -/
def digitOf (c : Char) : Option Nat :=
  if 48 ≤ c.toNat ∧ c.toNat ≤ 57 then some (c.toNat - 48)
  else if 97 ≤ c.toNat ∧ c.toNat ≤ 122 then some (c.toNat - 87)
  else if 65 ≤ c.toNat ∧ c.toNat ≤ 90 then some (c.toNat - 55)
  else none

/-- The digits of `strtol` in the given base: the value read from the front of the string,
starting from `acc`, and the number of characters read on top of `count`. -/
def readDigits (base : Nat) : List Char → Nat → Nat → Nat × Nat
  | [], acc, count => (acc, count)
  | c :: cs, acc, count =>
    match digitOf c with
    | none => (acc, count)
    | some d => if d < base then readDigits base cs (acc * base + d) (count + 1) else (acc, count)

/-- The call `std::strtol(str, &end, 0)`: white space is skipped, then an optional sign,
then the base is read off the prefix (`0x` hexadecimal, `0` octal, decimal otherwise); the
result is the value and the number of characters of the number (`0` when no conversion is
done, so that `end == str`); a value outside of `long` sets `ERANGE` (`none`). -/
def strtol (str : List Char) : Option (Int × Nat) :=
  let s1 := str.dropWhile isspace
  let signed : Bool × List Char :=
    match s1 with
    | [] => (false, [])
    | c :: r => if c = '-' then (true, r) else if c = '+' then (false, r) else (false, c :: r)
  let read : Nat × Nat :=
    match signed.2 with
    | [] => (0, 0)
    | c :: r =>
      if c = '0' then
        match r with
        | [] => (0, 1)
        | x :: r2 =>
          if (x = 'x' ∨ x = 'X') ∧ (readDigits 16 r2 0 0).2 ≠ 0 then
            ((readDigits 16 r2 0 0).1, (readDigits 16 r2 0 0).2 + 2)
          else ((readDigits 8 r 0 0).1, (readDigits 8 r 0 0).2 + 1)
      else readDigits 10 (c :: r) 0 0
  let value : Int := if signed.1 then -(read.1 : Int) else (read.1 : Int)
  if value < -(2 ^ 63) ∨ 2 ^ 63 ≤ value then none else some (value, read.2)

/-- The function `FoilParser::ReadInt`: the `long` is converted to `int`; `none` when the
`DCHECK` fails (range error, or nothing read). -/
def ReadInt (str : List Char) : Option Int :=
  match strtol str with
  | none => none
  | some (value, count) =>
    if count = 0 then none else some ((value + 2 ^ 31) % 2 ^ 32 - 2 ^ 31)

/-- The decimal digits of a natural number by repeated division, with fuel for the number
of digits. -/
def decimalDigits : Nat → Nat → List Char → List Char
  | 0, _, acc => acc
  | fuel + 1, n, acc =>
    if n < 10 then Char.ofNat (48 + n) :: acc
    else decimalDigits fuel (n / 10) (Char.ofNat (48 + n % 10) :: acc)

/-- The function `std::to_string(int)`. -/
def to_string (value : Int) : List Char :=
  if value < 0 then '-' :: decimalDigits (value.natAbs + 1) value.natAbs []
  else decimalDigits (value.toNat + 1) value.toNat []

/-- The function `FoilLiteral::ToString`, given the names of the predicates; `none` when
the literal has no variable (`DCHECK`, then `variables_[0]`). -/
def FoilLiteral.ToString (name : FoilPredicate → List Char) (literal : FoilLiteral) :
    Option (List Char) :=
  match literal.vars with
  | [] => none
  | first :: rest =>
    some (name literal.predicate ++ ['('] ++ to_string first.variable_id ++
      rest.flatMap (fun v => [',', ' '] ++ to_string v.variable_id) ++ [')'])

/-- The function `FoilClause::ToString`: the last two characters are erased. -/
def FoilClause.ToString (name : FoilPredicate → List Char) (clause : FoilClause) :
    Option (List Char) :=
  match clause.head_literal.ToString name, clause.body_literals.mapM (FoilLiteral.ToString name) with
  | some head, some body =>
    let ret := head ++ [' ', ':', '-', ' ', ' '] ++ body.flatMap (fun b => b ++ [',', ' '])
    some (ret.take (ret.length - 2))
  | _, _ => none

/-- The loop of `FoilParser::CreateLiteralFromString` over the commas, from the position
`next_search_pos`: the position after the last comma and the literal with the variables
read so far. -/
def readVariables (processed_str : List Char) (predicate : FoilPredicate) :
    Nat → Nat → FoilLiteral → Option (Nat × FoilLiteral)
  | 0, _, _ => none
  | fuel + 1, next_search_pos, literal =>
    match find processed_str ',' next_search_pos with
    | none => some (next_search_pos, literal)
    | some comma_position =>
      match substr processed_str next_search_pos (some (comma_position - next_search_pos)) with
      | none => none
      | some variable_id_str =>
        match ReadInt variable_id_str, predicate.argument_types.get? literal.vars.length with
        | some id, some type_id =>
          readVariables processed_str predicate fuel (comma_position + 1)
            (literal.AddVariable ⟨id, type_id⟩)
        | _, _ => none

/-- The end of `FoilParser::CreateLiteralFromString`: the last variable id stands between
`next_search_pos` and the closing parenthesis. -/
def readLastVariable (processed_str : List Char) (predicate : FoilPredicate)
    (next_search_pos : Nat) (literal : FoilLiteral) : Option FoilLiteral :=
  let literal_end_pos := find processed_str ')' next_search_pos
  match substr processed_str next_search_pos
      (literal_end_pos.map (fun e => e - next_search_pos)) with
  | none => none
  | some variable_id_str =>
    match ReadInt variable_id_str, predicate.argument_types.get? literal.vars.length with
    | some id, some type_id => some (literal.AddVariable ⟨id, type_id⟩)
    | _, _ => none

/-- The function `FoilParser::CreateLiteralFromString` on the map from names to
predicates; `none` when a `DCHECK` fails or a vector is read outside its bounds.  Without
an opening parenthesis the name is the whole string and `npos + 1` wraps to `0`. -/
def CreateLiteralFromString (name_to_predicate_map : List (List Char × FoilPredicate))
    (fuel : Nat) (str : List Char) : Option FoilLiteral :=
  let processed_str := RemoveWhiteSpace str
  if processed_str.isEmpty then none
  else
    let name_end_pos := find processed_str '(' 0
    if name_end_pos = some 0 then none
    else
      match substr processed_str 0 name_end_pos with
      | none => none
      | some name =>
        match name_to_predicate_map.find? (fun e => decide (e.1 = name)) with
        | none => none
        | some entry =>
          match readVariables processed_str entry.2 fuel (name_end_pos.elim 0 (fun p => p + 1))
              (FoilLiteral.empty entry.2) with
          | none => none
          | some (next_search_pos, literal) =>
            readLastVariable processed_str entry.2 next_search_pos literal

/-- The loop of `FoilParser::CreateClauseFromString` over the body literals, from the
position `literal_start_pos` with the closing parenthesis at `next_end_pos`. -/
def readBody (name_to_predicate_map : List (List Char × FoilPredicate)) (fuel : Nat)
    (str : List Char) : Nat → Nat → Option Nat → FoilClause → Option FoilClause
  | 0, _, _, _ => none
  | loop_fuel + 1, literal_start_pos, next_end_pos, clause =>
    match next_end_pos with
    | none => some clause
    | some end_pos =>
      match substr str literal_start_pos (some (end_pos - literal_start_pos + 1)) with
      | none => none
      | some literal_str =>
        match CreateLiteralFromString name_to_predicate_map fuel literal_str with
        | none => none
        | some literal =>
          match clause.AddBoundBodyLiteral literal false with
          | none => none
          | some clause1 =>
            match find str ',' (end_pos + 1) with
            | none => some clause1
            | some comma =>
              readBody name_to_predicate_map fuel str loop_fuel (comma + 1)
                (find str ')' (comma + 1)) clause1

/-- The `DCHECK`s of the constructor `FoilClause(const FoilLiteral&)` on the head variables,
with `num_recorded` variables recorded so far: each one is bound and its id is at most the
number of variables recorded before it. -/
def headAsserts : List FoilVariable → Nat → Bool
  | [], _ => true
  | v :: rest, num_recorded =>
    v.IsBound && decide (v.variable_id ≤ (num_recorded : Int)) &&
      headAsserts rest (if v.variable_id = (num_recorded : Int) then num_recorded + 1
        else num_recorded)

/-- The function `FoilParser::CreateClauseFromString`; `none` when a `DCHECK` fails or a
vector is read outside its bounds. -/
def CreateClauseFromString (name_to_predicate_map : List (List Char × FoilPredicate))
    (fuel : Nat) (str : List Char) : Option FoilClause :=
  match find str ':' 0 with
  | none => none
  | some head_end_pos =>
    if head_end_pos = 0 ∨ ¬ head_end_pos + 1 < str.length ∨
        str.get? (head_end_pos + 1) ≠ some '-' then none
    else
      match substr str 0 (some head_end_pos) with
      | none => none
      | some head_literal_str =>
        match CreateLiteralFromString name_to_predicate_map fuel head_literal_str with
        | none => none
        | some head_literal =>
          if headAsserts head_literal.vars 0 then
            readBody name_to_predicate_map fuel str fuel (head_end_pos + 2)
              (find str ')' (head_end_pos + 2)) (FoilClause.ofHead head_literal)
          else none

/-- The names `p_0`, ..., `p_5` of the predicates of the enumerator test. -/
def testName (predicate : FoilPredicate) : List Char :=
  ['p', '_'] ++ to_string predicate.id

/-- The catalog of the enumerator test. -/
def testCatalog : List (List Char × FoilPredicate) :=
  testBackground.map (fun p => (testName p, p))

/-- The strings joined with a comma between them. -/
def commaSeparated : List (List Char) → List Char
  | [] => []
  | [x] => x
  | x :: y :: rest => x ++ ',' :: commaSeparated (y :: rest)

/-- The text `name(v_1,...,v_k)` of a literal without white space, with the variable ids
in decimal. -/
def literalText (name : List Char) (ids : List Int) : List Char :=
  name ++ '(' :: commaSeparated (ids.map to_string) ++ [')']

/-- A predicate name in a clause string: not empty, without white space and without the
characters `(`, `)`, `,` and `:`. -/
def plainName (name : List Char) : Bool :=
  !name.isEmpty &&
    name.all (fun c => !isspace c && decide (c ≠ '(') && decide (c ≠ ')') &&
      decide (c ≠ ',') && decide (c ≠ ':'))

/-- The text `name(v_1, ..., v_k)` of a literal, with the variable ids in decimal. -/
def printedLiteral (name : List Char) (ids : List Int) : List Char :=
  name ++ '(' :: List.intercalate [',', ' '] (ids.map to_string) ++ [')']

/-- The text `head :-  body_1, ..., body_n` of a clause, and `head :-` without body. -/
def printedClause (head : List Char) (body : List (List Char)) : List Char :=
  head ++ [' ', ':', '-'] ++
    (if body.isEmpty then [] else ' ' :: ' ' :: List.intercalate [',', ' '] body)

/-! ## operations/MultiColumnHashJoin.cpp: CollaborateJoin, CreateLabelAwareBindingTables -/

/-- A write of the projection `e.2` into the output buffer `e.1` through a `Buffer` that is
a view of it from the cell `view_offset` on (`Buffer(parent, data + view_offset, ...)`):
position `p` of the view is the cell `view_offset + p` of the buffer. -/
def writeProjectionInView (view_offset : Nat) (probe_column build_column : List (List Int))
    (probe_tids build_tids : List Nat) (output_offset : Nat) (buffers : List OutputBuffer)
    (e : Nat × Nat) : Option (List OutputBuffer) :=
  match buffers.get? e.1 with
  | none => none
  | some buffer =>
    match AttributeReference.EvaluateForJoin e.2 probe_column build_column probe_tids
        build_tids output_offset (buffer.drop view_offset) with
    | none => none
    | some written => some (buffers.set e.1 (buffer.take view_offset ++ written))

/-- One iteration of the loop over the projections in `CollaborateJoinImpl`, when the right
output buffers are views of the left ones from the cell `view_offset` on: the projection
is evaluated on the left matches into the left buffer and then on the right matches into
the right buffer. -/
def writeCollaborate (view_offset : Nat)
    (probe_column left_build_column right_build_column : List (List Int))
    (left_probe_tids left_build_tids right_probe_tids right_build_tids : List Nat)
    (left_output_offset right_output_offset : Nat) (buffers : List OutputBuffer)
    (e : Nat × Nat) : Option (List OutputBuffer) :=
  match writeProjection probe_column left_build_column left_probe_tids left_build_tids
      left_output_offset buffers e with
  | none => none
  | some buffers1 =>
    writeProjectionInView view_offset probe_column right_build_column right_probe_tids
      right_build_tids right_output_offset buffers1 e

/-- One iteration of the `while` loop of `MultiColumnHashJoin::CollaborateJoinImpl` at the
probe offset `probe_tuple_offset`: the output buffers and the two output offsets
afterwards. -/
def collaborateBlock (hash : Int → Nat) (fuel join_chunck_size : Nat)
    (populate_probe_tids populate_build_tids : Bool) (num_keys : Nat)
    (join : MultiColumnHashJoin) (left_build_table right_build_table : TableView)
    (left_hash_table right_hash_table : FoilHashTable)
    (left_build_key_values right_build_key_values : List (List Int)) (view_offset : Nat)
    (probe_tuple_offset : Nat) (state : List OutputBuffer × Nat × Nat) :
    Option (List OutputBuffer × Nat × Nat) :=
  let block_size := min join_chunck_size (join.probe_table.num_tuples - probe_tuple_offset)
  match DoBlockJoin hash fuel num_keys populate_probe_tids populate_build_tids block_size
      (join.probe_key_values.map (fun column => column.drop probe_tuple_offset))
      left_build_key_values left_hash_table with
  | none => none
  | some (left_probe_tids, left_build_tids) =>
    match DoBlockJoin hash fuel num_keys populate_probe_tids populate_build_tids block_size
        (join.probe_key_values.map (fun column => column.drop probe_tuple_offset))
        right_build_key_values right_hash_table with
    | none => none
    | some (right_probe_tids, right_build_tids) =>
      match join.project_expressions.enum.foldlM
          (writeCollaborate view_offset
            (join.probe_table.columns.map (fun column => column.drop probe_tuple_offset))
            left_build_table.columns right_build_table.columns left_probe_tids left_build_tids
            right_probe_tids right_build_tids state.2.1 state.2.2)
          state.1 with
      | none => none
      | some written =>
        some (written,
          state.2.1 + (if populate_build_tids then left_build_tids.length
            else left_probe_tids.length),
          state.2.2 + (if populate_build_tids then right_build_tids.length
            else right_probe_tids.length))

/-- The `while` loop of `CollaborateJoinImpl` from the probe offset `probe_tuple_offset`,
at most `loop_fuel` iterations. -/
def collaborateLoop (hash : Int → Nat) (fuel join_chunck_size : Nat)
    (populate_probe_tids populate_build_tids : Bool) (num_keys : Nat)
    (join : MultiColumnHashJoin) (left_build_table right_build_table : TableView)
    (left_hash_table right_hash_table : FoilHashTable)
    (left_build_key_values right_build_key_values : List (List Int)) (view_offset : Nat) :
    Nat → Nat → List OutputBuffer × Nat × Nat → Option (List OutputBuffer × Nat × Nat)
  | 0, _, _ => none
  | loop_fuel + 1, probe_tuple_offset, state =>
    if probe_tuple_offset < join.probe_table.num_tuples then
      match collaborateBlock hash fuel join_chunck_size populate_probe_tids populate_build_tids
          num_keys join left_build_table right_build_table left_hash_table right_hash_table
          left_build_key_values right_build_key_values view_offset probe_tuple_offset
          state with
      | none => none
      | some state1 =>
        collaborateLoop hash fuel join_chunck_size populate_probe_tids populate_build_tids
          num_keys join left_build_table right_build_table left_hash_table right_hash_table
          left_build_key_values right_build_key_values view_offset loop_fuel
          (probe_tuple_offset + join_chunck_size) state1
    else some state

/-- The function `MultiColumnHashJoin::CollaborateJoin<populate_probe_tids,
populate_build_tids>` (with `CollaborateJoinImpl`) as `CreateLabelAwareBindingTables`
calls it: the right output buffers are views of the left ones from the cell
`view_offset` on; the result is the left output buffers afterwards. -/
def MultiColumnHashJoin.CollaborateJoin (hash : Int → Nat) (fuel join_chunck_size : Nat)
    (populate_probe_tids populate_build_tids : Bool) (join : MultiColumnHashJoin)
    (left_build_table right_build_table : TableView)
    (left_hash_table right_hash_table : FoilHashTable) (build_keys : List Nat)
    (view_offset : Nat) (left_output_buffers : List OutputBuffer) :
    Option (List OutputBuffer) :=
  match keyColumns build_keys left_build_table.columns,
      keyColumns build_keys right_build_table.columns with
  | some left_build_keys_values, some right_build_keys_values =>
    match collaborateLoop hash fuel join_chunck_size populate_probe_tids populate_build_tids
        (templateKeys left_build_keys_values.length) join left_build_table right_build_table
        left_hash_table right_hash_table left_build_keys_values right_build_keys_values
        view_offset fuel 0 (left_output_buffers, 0, 0) with
    | none => none
    | some state => some state.1
  | _, _ => none

/-- The positions of the bound arguments of a literal (`background_keys`). -/
def boundPositions (vars : List FoilVariable) : List Nat :=
  (List.range vars.length).filter (fun i =>
    (vars.getD i ⟨-1, -1⟩).IsBound)

/-- The positions of the unbound arguments of a literal (`unbounded_vids`). -/
def unboundPositions (vars : List FoilVariable) : List Nat :=
  (List.range vars.length).filter (fun i =>
    !(vars.getD i ⟨-1, -1⟩).IsBound)

/-- The clause variables at the bound arguments of a literal (`clause_keys`). -/
def boundVariables (vars : List FoilVariable) : List Nat :=
  (boundPositions vars).map (fun i => (vars.getD i ⟨-1, -1⟩).variable_id.toNat)

/-- The function `CreateLabelAwareBindingTables` for a clause with `num_clause_variables`
variables whose positive and negative binding rows are the two tables, and a literal with
the fact table `background_table`; `positive_binding_size` and `negative_binding_size` are
`GetNumPositiveBindings()` and `GetNumNegativeBindings()`.  The output buffers have
`num_binding_positives + num_binding_negatives` cells and the negative output buffers are
views of them from the cell `num_binding_positives` on. -/
def CreateLabelAwareBindingTables (hash : Int → Nat) (fuel join_chunck_size : Nat)
    (num_clause_variables positive_binding_size negative_binding_size : Nat)
    (positive_table negative_table : TableView) (new_literal : FoilLiteral)
    (background_table : TableView) (num_binding_positives num_binding_negatives : Nat) :
    Option (List OutputBuffer) :=
  let clause_keys := boundVariables new_literal.vars
  let background_keys := boundPositions new_literal.vars
  let unbounded_vids := unboundPositions new_literal.vars
  let num_background_columns := new_literal.vars.length
  let output_buffers : List OutputBuffer :=
    List.replicate (num_clause_variables + unbounded_vids.length)
      (List.replicate (num_binding_positives + num_binding_negatives) none)
  if positive_binding_size < background_table.num_tuples ∧
      negative_binding_size < background_table.num_tuples then
    match BuildHashTableOnTable hash clause_keys positive_table,
        BuildHashTableOnTable hash clause_keys negative_table with
    | some positive_hash_table, some negative_hash_table =>
      match MultiColumnHashJoin.create background_table background_keys
          ((List.range num_clause_variables).map (fun i => i + num_background_columns) ++
            unbounded_vids) with
      | none => none
      | some hash_join =>
        hash_join.CollaborateJoin hash fuel join_chunck_size (!unbounded_vids.isEmpty) true
          positive_table negative_table positive_hash_table negative_hash_table clause_keys
          num_binding_positives output_buffers
    | _, _ => none
  else
    match BuildHashTableOnTable hash background_keys background_table with
    | none => none
    | some hash_table =>
      let project_expressions := List.range num_clause_variables ++
        unbounded_vids.map (fun unbounded_vid => unbounded_vid + num_clause_variables)
      match MultiColumnHashJoin.create positive_table clause_keys project_expressions,
          MultiColumnHashJoin.create negative_table clause_keys project_expressions with
      | some positive_join, some negative_join =>
        match positive_join.Join hash fuel join_chunck_size false true
            (!unbounded_vids.isEmpty) background_table hash_table background_keys
            output_buffers with
        | none => none
        | some buffers1 =>
          match negative_join.Join hash fuel join_chunck_size false true
              (!unbounded_vids.isEmpty) background_table hash_table background_keys
              (buffers1.map (fun buffer => buffer.drop num_binding_positives)) with
          | none => none
          | some views =>
            some (List.zipWith (fun buffer view => buffer.take num_binding_positives ++ view)
              buffers1 views)
      | _, _ => none

/-- The rows of a list of columns with `n` rows. -/
def rowsOf (n : Nat) (columns : List OutputBuffer) : List (List (Option Int)) :=
  (List.range n).map (fun r => columns.map (fun column => column.getD r none))

/-- A fact row matches a binding row on a literal: at each bound argument the fact row
holds the value of the variable of that argument in the binding row. -/
def bindingsMatch (binding_table background_table : TableView) (vars : List FoilVariable)
    (b f : Nat) : Bool :=
  (boundPositions vars).all (fun i =>
    decide ((background_table.columns.getD i []).getD f 0 =
      (binding_table.columns.getD (vars.getD i ⟨-1, -1⟩).variable_id.toNat []).getD b 0))

/-- The pairs (binding row, fact row) of the equi-join of binding rows with a fact table on
the bound arguments of a literal, each pair once. -/
def bindingJoinPairs (binding_table background_table : TableView) (vars : List FoilVariable) :
    List (Nat × Nat) :=
  (List.range binding_table.num_tuples).flatMap (fun b =>
    ((List.range background_table.num_tuples).filter (fun f =>
      bindingsMatch binding_table background_table vars b f)).map (fun f => (b, f)))

/-- The row of the new binding table for a pair (binding row, fact row): the binding row
followed by the values of the fact row at the unbound arguments, in argument order. -/
def bindingJoinRow (binding_table background_table : TableView) (vars : List FoilVariable)
    (pair : Nat × Nat) : List (Option Int) :=
  binding_table.columns.map (fun column => some (column.getD pair.1 0)) ++
    (unboundPositions vars).map (fun i =>
      some ((background_table.columns.getD i []).getD pair.2 0))

/-- The equi-join of binding rows with a fact table on the bound arguments of a literal,
as rows of the new binding table. -/
def bindingJoinRows (binding_table background_table : TableView) (vars : List FoilVariable) :
    List (List (Option Int)) :=
  (bindingJoinPairs binding_table background_table vars).map
    (bindingJoinRow binding_table background_table vars)

/-- The cells of a buffer after the values `left` were written at the position `lo` and
the values `right` at the position `ro` of its view from the cell `vo` on. -/
def collaborateCells (vo lo ro : Nat) (left right : List (Option Int)) (b : OutputBuffer) :
    OutputBuffer :=
  (b.take lo ++ left ++ b.drop (lo + left.length)).take vo ++
    (((b.take lo ++ left ++ b.drop (lo + left.length)).drop vo).take ro ++ right ++
      ((b.take lo ++ left ++ b.drop (lo + left.length)).drop vo).drop (ro + right.length))

/-- The state of the loop of `CollaborateJoinImpl` after the pairs `left_pairs` and
`right_pairs` have been written: one buffer of `size` cells per projection, the output
offsets are the numbers of pairs, the cells below the left offset hold the projected
values of the left pairs and the cells from `view_offset` on those of the right pairs. -/
structure CollaborateProgress (project_expressions : List Nat)
    (probe_table left_build_table right_build_table : TableView)
    (left_pairs right_pairs : List (Nat × Nat)) (view_offset size : Nat)
    (state : List OutputBuffer × Nat × Nat) : Prop where
  buffers_length : state.1.length = project_expressions.length
  left_offset : state.2.1 = left_pairs.length
  right_offset : state.2.2 = right_pairs.length
  capacity : ∀ b ∈ state.1, b.length = size
  written_left : ∀ i cid, project_expressions.get? i = some cid →
    (state.1.getD i []).take state.2.1 =
      left_pairs.map (fun pr => some (projectPair probe_table left_build_table cid pr))
  written_right : ∀ i cid, project_expressions.get? i = some cid →
    ((state.1.getD i []).drop view_offset).take state.2.2 =
      right_pairs.map (fun pr => some (projectPair probe_table right_build_table cid pr))

/-- Three positive binding rows of a clause with two variables. -/
def labelPositiveTable : TableView := ⟨2, [[1, 2, 3], [4, 5, 6]]⟩

/-- Two negative binding rows of a clause with two variables. -/
def labelNegativeTable : TableView := ⟨3, [[2, 7], [5, 8]]⟩

/-- A fact table with two arguments and four facts. -/
def labelFactTable : TableView := ⟨4, [[2, 2, 1, 9], [20, 21, 22, 23]]⟩

/-- The literal `q(V0, _)` on the fact table `labelFactTable`. -/
def labelLiteral : FoilLiteral := ⟨⟨7, -1, [0, 1]⟩, [⟨0, 0⟩, ⟨-1, 1⟩]⟩

/-! ## schema/FoilLiteral.hpp: CreateUnBoundLiteral, FoilLiteralHash, FoilLiteralSet;
schema/FoilClause.cpp: Equals, CreateUnboundLastLiteral -/

/-- The member `FoilLiteral::AddVariable` with its two `DCHECK`s: there is an argument
left, and the type of the variable is the type of that argument. -/
def FoilLiteral.AddVariableChecked (l : FoilLiteral) (v : FoilVariable) : Option FoilLiteral :=
  if l.predicate.argument_types.get? l.vars.length = some v.variable_type_id then
    some (l.AddVariable v)
  else none

/-- The member `FoilLiteral::CreateUnBoundLiteral`: a variable whose id is below
`start_unbound_var_id` is added as it is, any other as an unbound variable of its
type. -/
def FoilLiteral.CreateUnBoundLiteral (l : FoilLiteral) (start_unbound_var_id : Int) :
    Option FoilLiteral :=
  l.vars.foldlM
    (fun literal v =>
      literal.AddVariableChecked
        (if v.variable_id < start_unbound_var_id then v
         else FoilVariable.unbound v.variable_type_id))
    (FoilLiteral.empty l.predicate)

/-- The functor `FoilLiteralHash`: the hash of the predicate id combined with the
variable ids in order. -/
def FoilLiteralHash (hash : Int → Nat) (literal : FoilLiteral) : Nat :=
  literal.vars.foldl (fun seed var => HashCombine hash seed var.variable_id)
    (hash literal.predicate.id)

/-- A `FoilLiteralSet` (`std::unordered_set` with `FoilLiteralHash` and
`FoilLiteralEqual`): the number of buckets and the elements. -/
structure FoilLiteralSet where
  bucket_count : Nat
  elements : List FoilLiteral
deriving Repr

/-- The member `find` of the set: an element of the bucket of the hash value of the
literal that `FoilLiteralEqual` finds equal to it (`none` for `end()`). -/
def FoilLiteralSet.find (hash : Int → Nat) (set : FoilLiteralSet) (literal : FoilLiteral) :
    Option FoilLiteral :=
  set.elements.find? (fun element =>
    decide (FoilLiteralHash hash element % set.bucket_count =
      FoilLiteralHash hash literal % set.bucket_count) && element.Equals literal)

/-- The member `FoilClause::Equals`. -/
def FoilClause.Equals (c other : FoilClause) : Bool :=
  if c.body_literals.length ≠ other.body_literals.length then false
  else if c.head_literal.Equals other.head_literal then false
  else
    !(List.zipWith FoilLiteral.Equals c.body_literals other.body_literals).any
      (fun equal => equal)

/-- The member `FoilClause::CreateUnboundLastLiteral`; `none` without body literal
(`back()` of an empty vector) or when a `DCHECK` fails. -/
def FoilClause.CreateUnboundLastLiteral (c : FoilClause) : Option FoilLiteral :=
  match c.body_literals.getLast? with
  | none => none
  | some last => last.CreateUnBoundLiteral c.num_variables_without_last_body_literal

/-- The literals `p1(0, 0, 1)`, `p1(0, 0, -1)` and `p1(-1, 0, -1)` of the test of the
literal set, on the predicate `p1` with the argument types `0, 0, 1`. -/
def literalSetOfTest : FoilLiteralSet :=
  ⟨7, [⟨⟨1, 0, [0, 0, 1]⟩, [⟨0, 0⟩, ⟨0, 0⟩, ⟨1, 1⟩]⟩,
    ⟨⟨1, 0, [0, 0, 1]⟩, [⟨0, 0⟩, ⟨0, 0⟩, ⟨-1, 1⟩]⟩,
    ⟨⟨1, 0, [0, 0, 1]⟩, [⟨-1, 0⟩, ⟨0, 0⟩, ⟨-1, 1⟩]⟩]⟩

/-- The candidate literals of the most general clause with the head `p_5(0, 1)` over the
background predicates of the enumerator test, by predicate, as lists of variable ids. -/
def testCandidateIds : List (FoilPredicate × List (List Int)) :=
  [(testPredicate0, [[0], [1]]),
   (testPredicate1, [[0, -1], [1, -1]]),
   (testPredicate5, [[0, 0], [1, 0], [-1, 0], [0, -1], [1, 1], [1, -1], [-1, 1]]),
   (testPredicate2, [[-1, 0, -1], [-1, 1, -1]]),
   (testPredicate3, [[0, 0, -1], [1, 0, -1], [-1, 0, -1], [0, 1, -1], [0, -1, -1],
     [1, 1, -1], [1, -1, -1], [-1, 1, -1]]),
   (testPredicate4, [[-1, 0, -1], [-1, 1, -1]])]

/-- The literals of a map from predicates to literals, as one list. -/
def allLiterals (map : PredMap FoilLiteral) : List FoilLiteral :=
  map.flatMap (fun e => e.2)

/-! ## memory/Arena.hpp, memory/Arena.cpp -/

/-- An `ArenaBlock`: the bytes of its buffer (`none` for a byte not written yet), whose
number is `buffer_size_`, and `offset_`. -/
structure ArenaBlock where
  buffer : List (Option Char)
  offset : Nat
deriving Repr, DecidableEq

/-- The constructor `ArenaBlock(buffer_size)`. -/
def ArenaBlock.create (buffer_size : Nat) : ArenaBlock :=
  ⟨List.replicate buffer_size none, 0⟩

/-- The member `ArenaBlock::size`. -/
def ArenaBlock.size (b : ArenaBlock) : Nat := b.buffer.length

/-- The member `ArenaBlock::Allocate`: the block afterwards and the offset of the returned
address in the buffer, `none` for `nullptr`. -/
def ArenaBlock.Allocate (b : ArenaBlock) (size : Nat) : ArenaBlock × Option Nat :=
  if b.offset + size < b.buffer.length then (⟨b.buffer, b.offset + size⟩, some b.offset)
  else (b, none)

/-- An `Arena`: its blocks; `current_block_` is the last one. -/
structure Arena where
  blocks : List ArenaBlock
deriving Repr, DecidableEq

/-- The constant `MAX_ARENA_BUFFER_INCREMENT_SIZE`. -/
def MAX_ARENA_BUFFER_INCREMENT_SIZE : Nat := 32 * 1024 * 1024

/-- The constructor `Arena(inital_buffer_size)`. -/
def Arena.create (inital_buffer_size : Nat) : Arena :=
  ⟨[ArenaBlock.create inital_buffer_size]⟩

/-- The member `Arena::Allocate`: the arena afterwards and the returned address as the
index of a block and an offset in its buffer, `none` for `nullptr`; the arena has a current
block by its constructor. -/
def Arena.Allocate (a : Arena) (size : Nat) : Arena × Option (Nat × Nat) :=
  match a.blocks.getLast? with
  | none => (a, none)
  | some current_block =>
    match current_block.Allocate size with
    | (block, some offset) =>
      (⟨a.blocks.dropLast ++ [block]⟩, some (a.blocks.length - 1, offset))
    | (_, none) =>
      let new_block_size :=
        if current_block.size * 2 > MAX_ARENA_BUFFER_INCREMENT_SIZE then
          MAX_ARENA_BUFFER_INCREMENT_SIZE
        else current_block.size * 2
      match (ArenaBlock.create (max size new_block_size)).Allocate size with
      | (block, some offset) => (⟨a.blocks ++ [block]⟩, some (a.blocks.length, offset))
      | (block, none) => (⟨a.blocks ++ [block]⟩, none)

/-- The bytes of a block after `memcpy` of `bytes` to the offset `offset`. -/
def ArenaBlock.write (b : ArenaBlock) (offset : Nat) (bytes : List Char) : ArenaBlock :=
  ⟨b.buffer.take offset ++ bytes.map some ++ b.buffer.drop (offset + bytes.length), b.offset⟩

/-- The member `Arena::AddStringPiece`: the string and its terminating NUL are copied to
the allocated address, which is returned; `none` when `Allocate` returns `nullptr`, as
`memcpy` then writes through the null pointer. -/
def Arena.AddStringPiece (a : Arena) (str : List Char) : Option (Arena × (Nat × Nat)) :=
  match a.Allocate (str.length + 1) with
  | (_, none) => none
  | (a1, some destination) =>
    match a1.blocks.get? destination.1 with
    | none => none
    | some block =>
      some (⟨a1.blocks.set destination.1
        (block.write destination.2 (str ++ [Char.ofNat 0]))⟩, destination)

/-- The NUL-terminated string at an address of the arena: the bytes up to the first NUL. -/
def Arena.stringAt (a : Arena) (address : Nat × Nat) : Option (List Char) :=
  match a.blocks.get? address.1 with
  | none => none
  | some block =>
    let bytes := block.buffer.drop address.2
    if bytes.any (fun byte => decide (byte = some (Char.ofNat 0))) then
      (bytes.takeWhile (fun byte => decide (byte ≠ some (Char.ofNat 0)))).mapM
        (fun byte => byte)
    else none

/-! ## Invariants of the plan builder -/

/-- The node of the plan builder with a given id. -/
def nodeAt (nodes : List PredicateInfo) (i : Nat) : PredicateInfo := nodes.getD i default

/-- The node of the plan at a given index. -/
def treeAt (tree_nodes : List PredicateTreeNode) (i : Nat) : PredicateTreeNode :=
  tree_nodes.getD i ⟨none, none⟩

/-- The fields of a node of the plan builder that the literal sets do not touch. -/
def PredicateInfo.shape (n : PredicateInfo) :
    List Nat × Option Nat × Option Nat × Int × Int × Int :=
  (n.predicate_atoms, n.literal, n.plan_node, n.left_predicate_id, n.right_predicate_id,
    n.reference_count)

/-- The state of the first loop of the plan builder: one node of the builder, one node of
the plan, one filter predicate and one entry of the map for every atom. -/
structure AtomInv (st : PlanState) : Prop where
  len_nodes : st.predicate_tree_nodes.length = st.tree_nodes.length
  len_map : st.attr_pair_id_map.length = st.tree_nodes.length
  len_predicates : st.predicates.length = st.tree_nodes.length
  map_lt : ∀ m ∈ st.attr_pair_id_map, m.2 < st.tree_nodes.length
  node : ∀ i, i < st.tree_nodes.length →
    (nodeAt st.predicate_tree_nodes i).shape = ([i], none, some i, -1, -1, 0)
  tree : ∀ i, i < st.tree_nodes.length → (treeAt st.tree_nodes i).children = none

/-- Every atom node has a candidate attached, or is an atom of a remaining candidate, or
is in the set `extra`. -/
def Covered (st : PlanState) (extra : List Nat) : Prop :=
  ∀ x, x < st.tree_nodes.length →
    (treeAt st.tree_nodes x).literal.isSome = true ∨
    (∃ l ∈ st.remaining_literal_ids, x ∈ st.literal_info_vec.getD l []) ∨ x ∈ extra

/-- The number of times the node `n` is a child of the node `p` of the builder. -/
def childCount (nodes : List PredicateInfo) (p n : Nat) : Int :=
  (if (nodeAt nodes p).left_predicate_id = (n : Int) then 1 else 0) +
  (if (nodeAt nodes p).right_predicate_id = (n : Int) then 1 else 0)

/-- The number of times the node `n` is a child of a node satisfying `keep`. -/
def referenceSum (nodes : List PredicateInfo) (keep : Nat → Bool) (n : Nat) : Int :=
  Finset.sum (Finset.range nodes.length) (fun p => if keep p then childCount nodes p n else 0)

/-- The state of the loop over the remaining candidates: the first `A` nodes of the builder
are the atom nodes, a later node is the conjunction of two earlier ones and its atoms are
atoms of its children, the reference count of a node is the number of times it is a
child, and every atom node has a candidate attached, or is an atom of a remaining
candidate, or is an atom of a conjunction with a candidate attached. -/
structure PlanInv (A : Nat) (st : PlanState) : Prop where
  len : A ≤ st.predicate_tree_nodes.length
  trees : st.tree_nodes.length = A
  preds : st.predicates.length = A
  tree : ∀ i, i < A → (treeAt st.tree_nodes i).children = none
  atom : ∀ i, i < A →
    (nodeAt st.predicate_tree_nodes i).predicate_atoms = [i] ∧
    (nodeAt st.predicate_tree_nodes i).plan_node = some i ∧
    (nodeAt st.predicate_tree_nodes i).left_predicate_id = -1 ∧
    (nodeAt st.predicate_tree_nodes i).right_predicate_id = -1
  conj : ∀ i, A ≤ i → i < st.predicate_tree_nodes.length →
    0 ≤ (nodeAt st.predicate_tree_nodes i).left_predicate_id ∧
    (nodeAt st.predicate_tree_nodes i).left_predicate_id.toNat < i ∧
    0 ≤ (nodeAt st.predicate_tree_nodes i).right_predicate_id ∧
    (nodeAt st.predicate_tree_nodes i).right_predicate_id.toNat < i ∧
    ∀ x, x ∈ (nodeAt st.predicate_tree_nodes i).predicate_atoms →
      x ∈ (nodeAt st.predicate_tree_nodes
        (nodeAt st.predicate_tree_nodes i).left_predicate_id.toNat).predicate_atoms ∨
      x ∈ (nodeAt st.predicate_tree_nodes
        (nodeAt st.predicate_tree_nodes i).right_predicate_id.toNat).predicate_atoms
  refs : ∀ i, i < st.predicate_tree_nodes.length →
    (nodeAt st.predicate_tree_nodes i).reference_count =
      referenceSum st.predicate_tree_nodes (fun _ => true) i
  cover : ∀ x, x < A →
    (treeAt st.tree_nodes x).literal.isSome = true ∨
    (∃ l ∈ st.remaining_literal_ids, x ∈ st.literal_info_vec.getD l []) ∨
    (∃ c, A ≤ c ∧ c < st.predicate_tree_nodes.length ∧
      (nodeAt st.predicate_tree_nodes c).literal.isSome = true ∧
      x ∈ (nodeAt st.predicate_tree_nodes c).predicate_atoms)

/-- The test of the last two loops of the plan builder: the node has a candidate attached
or its reference count is not 0. -/
def keptNode (nodes : List PredicateInfo) (p : Nat) : Bool :=
  (nodeAt nodes p).literal.isSome || decide ((nodeAt nodes p).reference_count ≠ 0)

/-- The state of the sweep when the nodes with the ids from `k` on have been visited: only
the reference counts have changed, and the reference count of a node is the number of
times it is a child of a node not visited yet or of a visited node that is kept. -/
structure SweepInv (nodes : List PredicateInfo) (k : Nat) (ns : List PredicateInfo) : Prop where
  len : ns.length = nodes.length
  same : ∀ j, (nodeAt ns j).predicate_atoms = (nodeAt nodes j).predicate_atoms ∧
    (nodeAt ns j).literal = (nodeAt nodes j).literal ∧
    (nodeAt ns j).plan_node = (nodeAt nodes j).plan_node ∧
    (nodeAt ns j).left_predicate_id = (nodeAt nodes j).left_predicate_id ∧
    (nodeAt ns j).right_predicate_id = (nodeAt nodes j).right_predicate_id
  count : ∀ i, i < nodes.length →
    (nodeAt ns i).reference_count =
      referenceSum ns (fun p => decide (p < k) || keptNode ns p) i

/-- The state of the last loop of the plan builder when the conjunctions with the ids
below `k` have been visited: every kept conjunction visited is a node of the plan over the
plan nodes of its children, which come earlier in the plan, and every node of the plan
after the atom nodes is such a conjunction. -/
structure EmitInv (A : Nat) (orig : List PredicateTreeNode) (ns : List PredicateInfo) (k : Nat)
    (s : PlanState) : Prop where
  len : s.predicate_tree_nodes.length = ns.length
  preds : s.predicates.length = A
  same : ∀ j, (nodeAt s.predicate_tree_nodes j).literal = (nodeAt ns j).literal ∧
    (nodeAt s.predicate_tree_nodes j).left_predicate_id = (nodeAt ns j).left_predicate_id ∧
    (nodeAt s.predicate_tree_nodes j).right_predicate_id = (nodeAt ns j).right_predicate_id ∧
    (nodeAt s.predicate_tree_nodes j).reference_count = (nodeAt ns j).reference_count
  atom_plan : ∀ j, j < A → (nodeAt s.predicate_tree_nodes j).plan_node = some j
  tree_len : A ≤ s.tree_nodes.length
  tree_atoms : ∀ i, i < A → treeAt s.tree_nodes i = treeAt orig i
  emitted : ∀ p, A ≤ p → p < k → keptNode ns p = true →
    ∃ j jl jr, (nodeAt s.predicate_tree_nodes p).plan_node = some j ∧ A ≤ j ∧
      j < s.tree_nodes.length ∧
      treeAt s.tree_nodes j = ⟨(nodeAt ns p).literal, some (some jl, some jr)⟩ ∧
      (nodeAt s.predicate_tree_nodes (nodeAt ns p).left_predicate_id.toNat).plan_node =
        some jl ∧
      (nodeAt s.predicate_tree_nodes (nodeAt ns p).right_predicate_id.toNat).plan_node =
        some jr ∧
      jl < j ∧ jr < j
  onto : ∀ j, A ≤ j → j < s.tree_nodes.length →
    ∃ p, A ≤ p ∧ p < k ∧ keptNode ns p = true ∧
      (nodeAt s.predicate_tree_nodes p).plan_node = some j

/-- The equality atoms of a candidate: the pairs of a position other than the join key
and the id of the bound variable at that position. -/
def atomsOfVars (join_key : Option Nat) (vars : List (Nat × FoilVariable)) : List (Nat × Int) :=
  (vars.filter (fun e => e.2.IsBound && decide (some e.1 ≠ join_key))).map
    (fun e => (e.1, e.2.variable_id))

/-- The equality atoms of a candidate literal. -/
def candidateAtoms (join_key : Option Nat) (literal : FoilLiteral) : List (Nat × Int) :=
  atomsOfVars join_key literal.vars.enum

/-- The state of the first loop of the plan builder: an entry of the map gives the index
of its pair among the filter predicates, and a candidate attached to an atom node has the
filter predicate of that index as its only atom. -/
structure AtomSem (join_key : Option Nat) (literals : List FoilLiteral) (st : PlanState) :
    Prop where
  map_pred : ∀ m, m ∈ st.attr_pair_id_map → st.predicates[m.2]? = some m.1
  attached : ∀ i l, i < st.tree_nodes.length → (treeAt st.tree_nodes i).literal = some l →
    ∃ L, literals[l]? = some L ∧ candidateAtoms join_key L ≠ [] ∧
      ∀ a, a ∈ candidateAtoms join_key L → st.predicates[i]? = some a

/-- The atom set of the candidate `l` holds the indices of the atoms in `atoms`. -/
def AtomProgress (st : PlanState) (l : Nat) (atoms : List (Nat × Int)) : Prop :=
  (∀ m, m ∈ st.literal_info_vec.getD l [] → ∃ a, a ∈ atoms ∧ st.predicates[m]? = some a) ∧
  (∀ a, a ∈ atoms → ∃ m, m ∈ st.literal_info_vec.getD l [] ∧ st.predicates[m]? = some a)

/-- A group of five candidates of the predicate `p_7` with three arguments of one type,
joined on argument 0: `p_7(0, 1, -1)`, `p_7(0, 1, 2)`, `p_7(0, -1, 2)`, `p_7(0, -1, -1)`
and `p_7(0, 2, 1)`. -/
def planTestGroup : List FoilLiteral :=
  [⟨⟨7, -1, [0, 0, 0]⟩, [⟨0, 0⟩, ⟨1, 0⟩, ⟨-1, 0⟩]⟩,
   ⟨⟨7, -1, [0, 0, 0]⟩, [⟨0, 0⟩, ⟨1, 0⟩, ⟨2, 0⟩]⟩,
   ⟨⟨7, -1, [0, 0, 0]⟩, [⟨0, 0⟩, ⟨-1, 0⟩, ⟨2, 0⟩]⟩,
   ⟨⟨7, -1, [0, 0, 0]⟩, [⟨0, 0⟩, ⟨-1, 0⟩, ⟨-1, 0⟩]⟩,
   ⟨⟨7, -1, [0, 0, 0]⟩, [⟨0, 0⟩, ⟨2, 0⟩, ⟨1, 0⟩]⟩]

/-- The filter predicates of the group `planTestGroup`. -/
def planTestPredicates : List (Nat × Int) := [(1, 1), (2, 2), (1, 2), (2, 1)]

/-- The plan of the group `planTestGroup` when `predicate_tree_nodes` keeps its nodes in
place: four atom nodes and two conjunctions. -/
def planTestPlan : PredicateEvaluationPlan :=
  { literal := some 3,
    tree_nodes := [⟨some 0, none⟩, ⟨some 2, none⟩, ⟨none, none⟩, ⟨none, none⟩,
      ⟨some 1, some (some 0, some 1)⟩, ⟨some 4, some (some 2, some 3)⟩],
    num_atom_tree_nodes := 4 }


/-! ## learner/PredicateEvaluationPlan.hpp: Clone -/

/-- The members `PredicateTreeNode::Clone` and `ConjunctivePredicateTreeNode::Clone`, given
the nodes cloned so far: the substitution map holds the nodes at the indices below
`clone.length`, each mapped to the clone at the same index; `none` when a child is not
found in the map (the `DCHECK`s). -/
def PredicateTreeNode.Clone (clone : List PredicateTreeNode) (node : PredicateTreeNode) :
    Option PredicateTreeNode :=
  match node.children with
  | none => some ⟨node.literal, none⟩
  | some (some left, some right) =>
    if left < clone.length ∧ right < clone.length then
      some ⟨node.literal, some (some left, some right)⟩
    else none
  | some _ => none

/-- The member `PredicateEvaluationPlan::Clone`: the nodes are cloned in the order of
`tree_nodes`. -/
def PredicateEvaluationPlan.Clone (plan : PredicateEvaluationPlan) :
    Option PredicateEvaluationPlan :=
  (plan.tree_nodes.foldlM
    (fun clone node => (PredicateTreeNode.Clone clone node).map (fun n => clone ++ [n]))
    []).map (fun nodes => ⟨plan.literal, nodes, plan.num_atom_tree_nodes⟩)

/-! ## operations/CountAggregator.cpp -/

/-- The members of a plan and of its nodes that the aggregator writes: `saved_partition_id`
(`none` for `-1`), the two semi bit vectors of the plan, and the two semi bit vectors of
every node of `tree_nodes`, by the index of the node. -/
structure PlanBuffers where
  saved_partition_id : Option Nat
  positive_semi_bitvector : BitVector
  negative_semi_bitvector : BitVector
  node_positive_semi_bitvectors : List BitVector
  node_negative_semi_bitvectors : List BitVector
deriving DecidableEq, Repr

/-- The buffers of a plan that has not been run: no partition saved and empty bit
vectors. -/
def PlanBuffers.create (plan : PredicateEvaluationPlan) : PlanBuffers :=
  { saved_partition_id := none
    positive_semi_bitvector := []
    negative_semi_bitvector := []
    node_positive_semi_bitvectors := List.replicate plan.tree_nodes.length []
    node_negative_semi_bitvectors := List.replicate plan.tree_nodes.length [] }

/-- The member `count` of a bit vector. -/
def countBits (bits : BitVector) : Nat := bits.count true

/-- The operator `&` of two bit vectors, which must have the same size. -/
def bitAnd (a b : BitVector) : Option BitVector :=
  if a.length = b.length then some (List.zipWith (fun x y => x && y) a b) else none

/-- The function `ResetSemiVectors<positive, negative>`: the semi bit vectors of the plan
and of the nodes with a candidate are resized to the size of the binding partition and
cleared. -/
def ResetSemiVectors (positive negative : Bool) (num_binding_tuples : Nat)
    (plan : PredicateEvaluationPlan) (buffers : PlanBuffers) : PlanBuffers :=
  { buffers with
    positive_semi_bitvector :=
      if plan.literal.isSome && positive then List.replicate num_binding_tuples false
      else buffers.positive_semi_bitvector
    negative_semi_bitvector :=
      if plan.literal.isSome && negative then List.replicate num_binding_tuples false
      else buffers.negative_semi_bitvector
    node_positive_semi_bitvectors :=
      List.zipWith (fun (node : PredicateTreeNode) (bits : BitVector) =>
        if node.literal.isSome && positive then List.replicate num_binding_tuples false
        else bits) plan.tree_nodes buffers.node_positive_semi_bitvectors
    node_negative_semi_bitvectors :=
      List.zipWith (fun (node : PredicateTreeNode) (bits : BitVector) =>
        if node.literal.isSome && negative then List.replicate num_binding_tuples false
        else bits) plan.tree_nodes buffers.node_negative_semi_bitvectors }

/-- The function `CountAggregator::LabelBitVector` on a cleared bit vector of the size of
`build_tids`: bit `t` is `build_tids[t] < num_positive`. -/
def LabelBitVector (num_positive : Nat) (build_tids : List Nat) : BitVector :=
  build_tids.map (fun tid => decide (tid < num_positive))

/-- The statement `if (!semi_bitvector->test_set(tid)) ++*count`. -/
def testSetCount (acc : Int × BitVector) (tid : Nat) : Option (Int × BitVector) :=
  match testSet acc.2 tid with
  | none => none
  | some (old, semi_bitvector) => some (if old then acc.1 else acc.1 + 1, semi_bitvector)

/-- The function `CountAggregator::UpdateSemiBitVector`: the iterator visits the first
`num_ones` set bits of the join bit vector, in increasing order; `none` when the sizes
differ (the `DCHECK`), when the vector has fewer set bits, or when a position is outside a
vector. -/
def UpdateSemiBitVector (build_relative_tids : List Nat) (join_bitvector : BitVector)
    (num_ones : Nat) (count : Int) (semi_bitvector : BitVector) : Option (Int × BitVector) :=
  if num_ones = 0 then some (count, semi_bitvector)
  else if build_relative_tids.length ≠ join_bitvector.length then none
  else
    let ones := (List.range join_bitvector.length).filter (fun i => join_bitvector.getD i false)
    if ones.length < num_ones then none
    else
      (ones.take num_ones).foldlM (fun (acc : Int × BitVector) (position : Nat) =>
        match build_relative_tids.get? position with
        | none => none
        | some tid => testSetCount acc tid) (count, semi_bitvector)

/-- The function `CountAggregator::UpdateSemiBitVectorWithNoFilter`. -/
def UpdateSemiBitVectorWithNoFilter (build_relative_tids : List Nat) (count : Int)
    (semi_bitvector : BitVector) : Option (Int × BitVector) :=
  build_relative_tids.foldlM testSetCount (count, semi_bitvector)

/-- The counting of a node with a candidate in `CountAggregator::Execute`: the bit vector
of the node is split by the labels of the build tuples, the numbers of its positive and
negative bits are added to the binding counters, and the semi bit vectors and the covered
counters are updated. -/
def countLabelled (build_relative_tids : List Nat)
    (unfiltered_positive_bit_vector unfiltered_negative_bit_vector : BitVector)
    (bit_vector : BitVector) (info : CandidateLiteralInfo)
    (positive_semi_bitvector negative_semi_bitvector : BitVector) :
    Option (CandidateLiteralInfo × BitVector × BitVector) :=
  match bitAnd bit_vector unfiltered_positive_bit_vector,
      bitAnd bit_vector unfiltered_negative_bit_vector with
  | some positive_bitvector, some negative_bitvector =>
    let num_positives := countBits positive_bitvector
    let num_negative := countBits negative_bitvector
    match UpdateSemiBitVector build_relative_tids positive_bitvector num_positives
        info.num_covered_positive positive_semi_bitvector with
    | none => none
    | some (covered_positive, positive_semi) =>
      match UpdateSemiBitVector build_relative_tids negative_bitvector num_negative
          info.num_covered_negative negative_semi_bitvector with
      | none => none
      | some (covered_negative, negative_semi) =>
        some ({ info with
                num_covered_positive := covered_positive
                num_covered_negative := covered_negative
                num_binding_positive := info.num_binding_positive + (num_positives : Int)
                num_binding_negative := info.num_binding_negative + (num_negative : Int) },
              positive_semi, negative_semi)
  | _, _ => none

/-- The counting of a node with a candidate in `CountAggregator::ExecuteOnOneLabel`: the
number of the bits of the node is added to the binding counter of the label, and the semi
bit vector and the covered counter of the label are updated. -/
def countOneLabel (positive : Bool) (build_relative_tids : List Nat) (bit_vector : BitVector)
    (info : CandidateLiteralInfo) (positive_semi_bitvector negative_semi_bitvector : BitVector) :
    Option (CandidateLiteralInfo × BitVector × BitVector) :=
  if positive then
    match UpdateSemiBitVector build_relative_tids bit_vector (countBits bit_vector)
        info.num_covered_positive positive_semi_bitvector with
    | none => none
    | some (covered_positive, positive_semi) =>
      some ({ info with num_covered_positive := covered_positive
                        num_binding_positive := info.num_binding_positive +
                          (countBits bit_vector : Int) },
            positive_semi, negative_semi_bitvector)
  else
    match UpdateSemiBitVector build_relative_tids bit_vector (countBits bit_vector)
        info.num_covered_negative negative_semi_bitvector with
    | none => none
    | some (covered_negative, negative_semi) =>
      some ({ info with num_covered_negative := covered_negative
                        num_binding_negative := info.num_binding_negative +
                          (countBits bit_vector : Int) },
            positive_semi_bitvector, negative_semi)

/-- The state of the aggregator while it counts one chunk: the counters of the candidates
of the group, the semi bit vectors of the nodes of the plan, and the bit vectors that the
members `bit_vector` of the nodes visited so far point to. -/
structure ChunkState where
  infos : List CandidateLiteralInfo
  node_positive_semi_bitvectors : List BitVector
  node_negative_semi_bitvectors : List BitVector
  bit_vectors : List BitVector
deriving DecidableEq, Repr

/-- The body of the two loops over the nodes of a plan, for the node `i` whose bit vector
for the chunk is `bit_vector`: the member `bit_vector` of the node is set, and a node with
a candidate is counted by `count`. -/
def countNode
    (count : BitVector → CandidateLiteralInfo → BitVector → BitVector →
      Option (CandidateLiteralInfo × BitVector × BitVector))
    (st : ChunkState) (i : Nat) (node : PredicateTreeNode) (bit_vector : BitVector) :
    Option ChunkState :=
  match node.literal with
  | none => some { st with bit_vectors := st.bit_vectors ++ [bit_vector] }
  | some literal =>
    match st.infos.get? literal, st.node_positive_semi_bitvectors.get? i,
        st.node_negative_semi_bitvectors.get? i with
    | some info, some positive_semi_bitvector, some negative_semi_bitvector =>
      match count bit_vector info positive_semi_bitvector negative_semi_bitvector with
      | none => none
      | some r =>
        some { infos := st.infos.set literal r.1
               node_positive_semi_bitvectors := st.node_positive_semi_bitvectors.set i r.2.1
               node_negative_semi_bitvectors := st.node_negative_semi_bitvectors.set i r.2.2
               bit_vectors := st.bit_vectors ++ [bit_vector] }
    | _, _, _ => none

/-- The body of the loop over the atom nodes: the bit vector of the atom node `i` is the
bit vector `i` of the filter chunk. -/
def countAtom
    (count : BitVector → CandidateLiteralInfo → BitVector → BitVector →
      Option (CandidateLiteralInfo × BitVector × BitVector))
    (plan : PredicateEvaluationPlan) (filter_bit_vectors : List BitVector)
    (st : ChunkState) (i : Nat) : Option ChunkState :=
  match plan.tree_nodes.get? i, filter_bit_vectors.get? i with
  | some node, some bit_vector => countNode count st i node bit_vector
  | _, _ => none

/-- The body of the loop over the conjunction nodes: the bit vector of the node is the
`&` of the bit vectors its children point to; `none` when a child is null or has not been
visited for this chunk (its member `bit_vector` is null or dangling). -/
def countConjunction
    (count : BitVector → CandidateLiteralInfo → BitVector → BitVector →
      Option (CandidateLiteralInfo × BitVector × BitVector))
    (plan : PredicateEvaluationPlan) (st : ChunkState) (i : Nat) : Option ChunkState :=
  match plan.tree_nodes.get? i with
  | some node =>
    match node.children with
    | some (some left, some right) =>
      match st.bit_vectors.get? left, st.bit_vectors.get? right with
      | some left_bits, some right_bits =>
        match bitAnd left_bits right_bits with
        | some bit_vector => countNode count st i node bit_vector
        | none => none
      | _, _ => none
    | _ => none
  | none => none

/-- The two loops over the nodes of a plan: the atom nodes, then the conjunction nodes in
the order of `tree_nodes`. -/
def countNodes
    (count : BitVector → CandidateLiteralInfo → BitVector → BitVector →
      Option (CandidateLiteralInfo × BitVector × BitVector))
    (plan : PredicateEvaluationPlan) (filter_bit_vectors : List BitVector)
    (st : ChunkState) : Option ChunkState :=
  if plan.num_atom_tree_nodes ≠ filter_bit_vectors.length then none
  else
    match (List.range plan.num_atom_tree_nodes).foldlM
        (countAtom count plan filter_bit_vectors) st with
    | none => none
    | some st1 =>
      ((List.range (plan.tree_nodes.length - plan.num_atom_tree_nodes)).map
        (fun i => i + plan.num_atom_tree_nodes)).foldlM (countConjunction count plan) st1

/-- The body of the loop of the fast path of `CountAggregator::Execute`, for the joined
tuple with the build id `build_tid` at the position `relative_tid` of its partition. -/
def countRootTuple (num_positive : Nat)
    (acc : CandidateLiteralInfo × BitVector × BitVector) (e : Nat × Nat) :
    Option (CandidateLiteralInfo × BitVector × BitVector) :=
  if e.1 < num_positive then
    match testSet acc.2.1 e.2 with
    | none => none
    | some (old, positive_semi) =>
      some ({ acc.1 with num_binding_positive := acc.1.num_binding_positive + 1
                         num_covered_positive :=
                           if old then acc.1.num_covered_positive
                           else acc.1.num_covered_positive + 1 },
            positive_semi, acc.2.2)
  else
    match testSet acc.2.2 e.2 with
    | none => none
    | some (old, negative_semi) =>
      some ({ acc.1 with num_binding_negative := acc.1.num_binding_negative + 1
                         num_covered_negative :=
                           if old then acc.1.num_covered_negative
                           else acc.1.num_covered_negative + 1 },
            acc.2.1, negative_semi)

/-- The counting of the candidate of the plan itself (the candidate without atom) on a
chunk in `CountAggregator::Execute`: the fast path when the plan has no atom node, and the
labelled bit vectors otherwise. -/
def countRoot (num_positive : Nat) (plan : PredicateEvaluationPlan) (chunk : HashJoinChunk)
    (info : CandidateLiteralInfo) (positive_semi_bitvector negative_semi_bitvector : BitVector) :
    Option (CandidateLiteralInfo × BitVector × BitVector) :=
  if plan.num_atom_tree_nodes = 0 then
    if chunk.build_relative_tids.length < chunk.build_tids.length then none
    else
      (chunk.build_tids.zip chunk.build_relative_tids).foldlM (countRootTuple num_positive)
        (info, positive_semi_bitvector, negative_semi_bitvector)
  else
    let unfiltered_positive_bit_vector := LabelBitVector num_positive chunk.build_tids
    let unfiltered_negative_bit_vector := unfiltered_positive_bit_vector.map (fun b => !b)
    let num_positives := countBits unfiltered_positive_bit_vector
    let num_negative := chunk.build_tids.length - num_positives
    match UpdateSemiBitVector chunk.build_relative_tids unfiltered_positive_bit_vector
        num_positives info.num_covered_positive positive_semi_bitvector with
    | none => none
    | some (covered_positive, positive_semi) =>
      match UpdateSemiBitVector chunk.build_relative_tids unfiltered_negative_bit_vector
          num_negative info.num_covered_negative negative_semi_bitvector with
      | none => none
      | some (covered_negative, negative_semi) =>
        some ({ info with
                num_covered_positive := covered_positive
                num_covered_negative := covered_negative
                num_binding_positive := info.num_binding_positive + (num_positives : Int)
                num_binding_negative := info.num_binding_negative + (num_negative : Int) },
              positive_semi, negative_semi)

/-- The counting of the candidate of the plan itself on a chunk in
`CountAggregator::ExecuteOnOneLabel`: every joined tuple has the label. -/
def countRootOneLabel (positive : Bool) (chunk : HashJoinChunk)
    (info : CandidateLiteralInfo) (positive_semi_bitvector negative_semi_bitvector : BitVector) :
    Option (CandidateLiteralInfo × BitVector × BitVector) :=
  if positive then
    match UpdateSemiBitVectorWithNoFilter chunk.build_relative_tids info.num_covered_positive
        positive_semi_bitvector with
    | none => none
    | some (covered_positive, positive_semi) =>
      some ({ info with num_covered_positive := covered_positive
                        num_binding_positive := info.num_binding_positive +
                          (chunk.build_tids.length : Int) },
            positive_semi, negative_semi_bitvector)
  else
    match UpdateSemiBitVectorWithNoFilter chunk.build_relative_tids info.num_covered_negative
        negative_semi_bitvector with
    | none => none
    | some (covered_negative, negative_semi) =>
      some ({ info with num_covered_negative := covered_negative
                        num_binding_negative := info.num_binding_negative +
                          (chunk.build_tids.length : Int) },
            positive_semi_bitvector, negative_semi)

/-- The body of the `do` loop of `CountAggregator::Execute` and of `ExecuteOnOneLabel` on
the plan, the buffers and the counters of the group of the chunk: the semi bit vectors are
reset when the partition changes; the candidate of the plan is counted by `root` (a plan
without atom node must have one, the `DCHECK` of the fast path), and the nodes by `count`. -/
def countPlan (reset_positive reset_negative : Bool)
    (root : PredicateEvaluationPlan → HashJoinChunk → CandidateLiteralInfo → BitVector →
      BitVector → Option (CandidateLiteralInfo × BitVector × BitVector))
    (count : HashJoinChunk → BitVector → CandidateLiteralInfo → BitVector → BitVector →
      Option (CandidateLiteralInfo × BitVector × BitVector))
    (plan : PredicateEvaluationPlan) (filter_chunk : FilterChunk)
    (buffers : PlanBuffers) (infos : List CandidateLiteralInfo) :
    Option (PlanBuffers × List CandidateLiteralInfo) :=
  let chunk := filter_chunk.hash_join_chunk
  let buffers1 :=
    if buffers.saved_partition_id ≠ some chunk.partition_id then
      { ResetSemiVectors reset_positive reset_negative chunk.binding_partition_size plan buffers
        with saved_partition_id := some chunk.partition_id }
    else buffers
  let counted : Option (PlanBuffers × List CandidateLiteralInfo) :=
    match plan.literal with
    | none => if plan.num_atom_tree_nodes = 0 then none else some (buffers1, infos)
    | some literal =>
      match infos.get? literal with
      | none => none
      | some info =>
        match root plan chunk info buffers1.positive_semi_bitvector
            buffers1.negative_semi_bitvector with
        | none => none
        | some r =>
          some ({ buffers1 with positive_semi_bitvector := r.2.1
                                negative_semi_bitvector := r.2.2 },
                infos.set literal r.1)
  match counted with
  | none => none
  | some (buffers2, infos2) =>
    if plan.num_atom_tree_nodes = 0 then some (buffers2, infos2)
    else
      match countNodes (count chunk) plan filter_chunk.bit_vectors
          ⟨infos2, buffers2.node_positive_semi_bitvectors,
            buffers2.node_negative_semi_bitvectors, []⟩ with
      | none => none
      | some st =>
        some ({ buffers2 with
                node_positive_semi_bitvectors := st.node_positive_semi_bitvectors
                node_negative_semi_bitvectors := st.node_negative_semi_bitvectors },
              st.infos)

/-- The members of `CountAggregator` with the filter and the hash join it pulls from, and
the counters of the candidates that the plans point to: `score_plans`, the buffers and
the counters are indexed by table and join group, the counters then by the candidate. -/
structure CountAggregator where
  hash_join : HashJoin
  predicate_groups : List (List (List FoilFilterPredicate))
  score_plans : List (List PredicateEvaluationPlan)
  buffers : List (List PlanBuffers)
  infos : List (List (List CandidateLiteralInfo))
deriving DecidableEq, Repr

/-- The body of the `do` loop on a filter chunk: the plan of the table and the join group
of the chunk is looked up in `score_plans` and counted. -/
def CountAggregator.countChunk (reset_positive reset_negative : Bool)
    (root : PredicateEvaluationPlan → HashJoinChunk → CandidateLiteralInfo → BitVector →
      BitVector → Option (CandidateLiteralInfo × BitVector × BitVector))
    (count : HashJoinChunk → BitVector → CandidateLiteralInfo → BitVector → BitVector →
      Option (CandidateLiteralInfo × BitVector × BitVector))
    (aggregator : CountAggregator) (filter_chunk : FilterChunk) : Option CountAggregator :=
  let t := filter_chunk.hash_join_chunk.table_id
  let g := filter_chunk.hash_join_chunk.join_group_id
  match (aggregator.score_plans.get? t).bind (fun plans => plans.get? g),
      (aggregator.buffers.get? t).bind (fun row => row.get? g),
      (aggregator.infos.get? t).bind (fun row => row.get? g) with
  | some plan, some buffers, some infos =>
    match countPlan reset_positive reset_negative root count plan filter_chunk buffers infos with
    | none => none
    | some r =>
      some { aggregator with
             buffers := updateAt aggregator.buffers t (fun row => row.set g r.1)
             infos := updateAt aggregator.infos t (fun row => row.set g r.2) }
  | _, _, _ => none

/-- The outcome of a run of the aggregator: it returned, or the first chunk of the filter
was the null pointer (the `DCHECK` fails and the null chunk is dereferenced), or the run
failed (the bound on the iterations was reached, or a vector was read outside its
bounds). -/
inductive RunResult (α : Type) where
  | returned : α → RunResult α
  | null_chunk : RunResult α
  | failed : RunResult α
deriving DecidableEq, Repr

/-- The call `filter_->Next()` of the aggregator, with the flags `partition_chunck_size`
and `num_radix_bits` and the bound `fuel` on the loops of the hash join. -/
def CountAggregator.nextChunk (hash : Int → Nat) (fuel partition_chunck_size num_radix_bits : Nat)
    (aggregator : CountAggregator) : Option (Option FilterChunk × CountAggregator) :=
  match HashJoin.Next hash fuel partition_chunck_size num_radix_bits fuel
      aggregator.hash_join with
  | none => none
  | some (hash_join_chunk, hash_join) =>
    match Filter.Next aggregator.predicate_groups hash_join_chunk with
    | none => none
    | some filter_chunk => some (filter_chunk, { aggregator with hash_join := hash_join })

/-- The `do` loop of `CountAggregator::Execute` and `ExecuteOnOneLabel` from a chunk on:
the chunk is counted and the next one is pulled, until the filter returns null; at most
`calls` chunks. -/
def CountAggregator.loop (hash : Int → Nat) (fuel partition_chunck_size num_radix_bits : Nat)
    (step : CountAggregator → FilterChunk → Option CountAggregator) :
    Nat → CountAggregator → FilterChunk → RunResult CountAggregator
  | 0, _, _ => RunResult.failed
  | calls + 1, aggregator, filter_chunk =>
    match step aggregator filter_chunk with
    | none => RunResult.failed
    | some aggregator1 =>
      match aggregator1.nextChunk hash fuel partition_chunck_size num_radix_bits with
      | none => RunResult.failed
      | some (none, aggregator2) => RunResult.returned aggregator2
      | some (some next_chunk, aggregator2) =>
        CountAggregator.loop hash fuel partition_chunck_size num_radix_bits step calls
          aggregator2 next_chunk

/-- The common shape of `CountAggregator::Execute` and `ExecuteOnOneLabel`: the first chunk
is pulled and must not be null. -/
def CountAggregator.run (hash : Int → Nat) (fuel partition_chunck_size num_radix_bits : Nat)
    (step : CountAggregator → FilterChunk → Option CountAggregator)
    (aggregator : CountAggregator) : RunResult CountAggregator :=
  match aggregator.nextChunk hash fuel partition_chunck_size num_radix_bits with
  | none => RunResult.failed
  | some (none, _) => RunResult.null_chunk
  | some (some filter_chunk, aggregator1) =>
    CountAggregator.loop hash fuel partition_chunck_size num_radix_bits step fuel aggregator1
      filter_chunk

/-- The function `CountAggregator::Execute`. -/
def CountAggregator.Execute (hash : Int → Nat) (fuel partition_chunck_size num_radix_bits : Nat)
    (num_positive : Nat) (aggregator : CountAggregator) : RunResult CountAggregator :=
  CountAggregator.run hash fuel partition_chunck_size num_radix_bits
    (CountAggregator.countChunk true true (countRoot num_positive)
      (fun chunk => countLabelled chunk.build_relative_tids
        (LabelBitVector num_positive chunk.build_tids)
        ((LabelBitVector num_positive chunk.build_tids).map (fun b => !b))))
    aggregator

/-- The function `CountAggregator::ExecuteOnOneLabel<positive>`. -/
def CountAggregator.ExecuteOnOneLabel (positive : Bool) (hash : Int → Nat)
    (fuel partition_chunck_size num_radix_bits : Nat) (aggregator : CountAggregator) :
    RunResult CountAggregator :=
  CountAggregator.run hash fuel partition_chunck_size num_radix_bits
    (CountAggregator.countChunk positive (!positive) (fun _ => countRootOneLabel positive)
      (fun chunk => countOneLabel positive chunk.build_relative_tids))
    aggregator

/-- The function `CountAggregator::ExecuteOnPositives`. -/
def CountAggregator.ExecuteOnPositives (hash : Int → Nat)
    (fuel partition_chunck_size num_radix_bits : Nat) (aggregator : CountAggregator) :
    RunResult CountAggregator :=
  aggregator.ExecuteOnOneLabel true hash fuel partition_chunck_size num_radix_bits

/-- The function `CountAggregator::ExecuteOnNegatives`. -/
def CountAggregator.ExecuteOnNegatives (hash : Int → Nat)
    (fuel partition_chunck_size num_radix_bits : Nat) (aggregator : CountAggregator) :
    RunResult CountAggregator :=
  aggregator.ExecuteOnOneLabel false hash fuel partition_chunck_size num_radix_bits

/-! ## learner/CandidateLiteralEvaluator.cpp: Evaluate -/

/-- The function `RadixPartition` on the column `column_id` of a table, with the flag
`num_radix_bits`: the partitions of the column; `none` when the flag is 0 (the `DCHECK`),
when there is no such column, or when a cell of a partition was never written. -/
def RadixPartition (block_capacity : Nat) (hash : Int → Nat) (num_radix_bits : Nat)
    (column_id : Nat) (columns : List (List Int)) : Option (List (List PartitionTuple)) :=
  if num_radix_bits = 0 then none
  else
    match columns.get? column_id with
    | none => none
    | some values =>
      match Partition block_capacity hash num_radix_bits values with
      | none => none
      | some partitions => partitions.mapM (fun cells => cells.mapM (fun cell => cell))

/-- A group of the map `literal_groups`: the columns of the fact table of a predicate and
the candidate literals on the predicate. -/
structure LiteralGroup where
  fact_table : List (List Int)
  literals : List FoilLiteral
deriving DecidableEq, Repr

/-- The statement `join_key_to_literals[literal->join_key()].emplace_back(...)`: the groups
of the map are kept in the order of their first candidate. -/
def insertByJoinKey (groups : List (Option Nat × List FoilLiteral)) (literal : FoilLiteral) :
    List (Option Nat × List FoilLiteral) :=
  if groups.any (fun group => decide (group.1 = literal.join_key)) then
    groups.map (fun group =>
      if group.1 = literal.join_key then (group.1, group.2 ++ [literal]) else group)
  else groups ++ [(literal.join_key, [literal])]

/-- The map `join_key_to_literals` of a group of `literal_groups`. -/
def joinKeyGroups (literals : List FoilLiteral) : List (Option Nat × List FoilLiteral) :=
  literals.foldl insertByJoinKey []

/-- What the first loop of `Evaluate` builds for one predicate: the fact table with the
partitions of its join key columns, the join keys, the filter predicates, the plans and
the counters of the candidates, by join group. -/
structure PredicatePlans where
  background_table : PartitionedTable
  literal_join_keys : List Nat
  predicate_groups : List (List FoilFilterPredicate)
  predicate_plans : List PredicateEvaluationPlan
  infos : List (List CandidateLiteralInfo)
deriving DecidableEq, Repr

/-- The body of the loop over the join groups of a predicate: the fact table is
partitioned on the join key when it is not yet, and the plan of the group is generated. -/
def addJoinGroup (block_capacity : Nat) (hash : Int → Nat) (num_radix_bits : Nat)
    (order : List Nat → List Nat) (fuel : Nat)
    (acc : LoopResult (Option PredicatePlans)) (group : Option Nat × List FoilLiteral) :
    LoopResult (Option PredicatePlans) :=
  match acc with
  | LoopResult.finished (some plans) =>
    match group.1 with
    | none => LoopResult.finished none
    | some join_key =>
      let partitions : Option (List (List PartitionTuple)) :=
        match plans.background_table.partitions.get? join_key with
        | none => none
        | some [] =>
          RadixPartition block_capacity hash num_radix_bits join_key
            plans.background_table.columns
        | some partitions => some partitions
      match partitions with
      | none => LoopResult.finished none
      | some partitions =>
        match GeneratePredicateEvaluationPlan order fuel group.2 with
        | LoopResult.out_of_fuel => LoopResult.out_of_fuel
        | LoopResult.undefined_behaviour => LoopResult.undefined_behaviour
        | LoopResult.finished (predicates, plan) =>
          LoopResult.finished (some
            { background_table :=
                { plans.background_table with
                  partitions := plans.background_table.partitions.set join_key partitions }
              literal_join_keys := plans.literal_join_keys ++ [join_key]
              predicate_groups := plans.predicate_groups ++
                [predicates.map (fun pair => ⟨pair.1, pair.2.toNat⟩)]
              predicate_plans := plans.predicate_plans ++ [plan]
              infos := plans.infos ++ [group.2.map (fun literal => ⟨literal, 0, 0, 0, 0⟩)] })
  | other => other

/-- The body of the first loop of `Evaluate`, for one predicate; the result is
`finished none` when a vector is read outside its bounds or a partitioning fails. -/
def planLiteralGroup (block_capacity : Nat) (hash : Int → Nat) (num_radix_bits : Nat)
    (order : List Nat → List Nat) (fuel : Nat) (group : LiteralGroup) :
    LoopResult (Option PredicatePlans) :=
  (joinKeyGroups group.literals).foldl
    (addJoinGroup block_capacity hash num_radix_bits order fuel)
    (LoopResult.finished (some
      { background_table :=
          ⟨group.fact_table, List.replicate group.fact_table.length []⟩
        literal_join_keys := []
        predicate_groups := []
        predicate_plans := []
        infos := [] }))

/-- The first loop of `Evaluate`, over the predicates of `literal_groups`. -/
def planLiteralGroups (block_capacity : Nat) (hash : Int → Nat) (num_radix_bits : Nat)
    (order : List Nat → List Nat) (fuel : Nat) (literal_groups : List LiteralGroup) :
    LoopResult (Option (List PredicatePlans)) :=
  literal_groups.foldl (fun acc group =>
    match acc with
    | LoopResult.finished (some done) =>
      match planLiteralGroup block_capacity hash num_radix_bits order fuel group with
      | LoopResult.finished (some plans) => LoopResult.finished (some (done ++ [plans]))
      | LoopResult.finished none => LoopResult.finished none
      | LoopResult.out_of_fuel => LoopResult.out_of_fuel
      | LoopResult.undefined_behaviour => LoopResult.undefined_behaviour
    | other => other) (LoopResult.finished (some []))

/-- The aggregator that `Evaluate` builds on a binding table: the binding table is
partitioned on the join key of the clause and hashed, and the assigner, the hash join,
the filter and the aggregator are stacked on it. -/
def createAggregator (block_capacity : Nat) (hash : Int → Nat) (num_radix_bits : Nat)
    (clause_join_key_id : Nat) (binding_table : List (List Int))
    (plans : List PredicatePlans) (infos : List (List (List CandidateLiteralInfo))) :
    Option CountAggregator :=
  match RadixPartition block_capacity hash num_radix_bits clause_join_key_id binding_table with
  | none => none
  | some build_partitions =>
    match BuildHashTableOnPartitions hash num_radix_bits build_partitions with
    | none => none
    | some build_hash_tables =>
      match PartitionAssigner.create (plans.map (fun p => p.background_table))
          (plans.map (fun p => p.literal_join_keys)) with
      | none => none
      | some assigner =>
        some
          { hash_join := ⟨assigner, binding_table, build_hash_tables, build_partitions⟩
            predicate_groups := plans.map (fun p => p.predicate_groups)
            score_plans := plans.map (fun p => p.predicate_plans)
            buffers := plans.map (fun p => p.predicate_plans.map PlanBuffers.create)
            infos := infos }

/-- The binding data of the clause that is built: one table of the positive rows followed
by the negative rows (`integral_blocks`, with the number of the positive rows), or a
positive table and a negative table. -/
inductive BindingData where
  | integral : List (List Int) → Nat → BindingData
  | split : List (List Int) → List (List Int) → BindingData
deriving DecidableEq, Repr

/-- The plans of `predicate_plan_groups_clone`; `none` when a `Clone` fails. -/
def clonePlans (plans : List PredicatePlans) : Option (List PredicatePlans) :=
  plans.mapM (fun p =>
    (p.predicate_plans.mapM PredicateEvaluationPlan.Clone).map
      (fun clones => { p with predicate_plans := clones }))

/-- The part of `Evaluate` after the first loop: on the integral representation one run
of `Execute`; on the split representation `ExecuteOnPositives` with cloned plans on the
positive table and then `ExecuteOnNegatives` on the negative table.  The result is the
counters of the candidates, by predicate, join group and candidate. -/
def evaluatePlans (block_capacity : Nat) (hash : Int → Nat)
    (fuel partition_chunck_size num_radix_bits : Nat) (clause_join_key_id : Nat)
    (bindings : BindingData) (plans : List PredicatePlans) :
    RunResult (List (List (List CandidateLiteralInfo))) :=
  match bindings with
  | BindingData.integral integral_blocks num_positive =>
    match createAggregator block_capacity hash num_radix_bits clause_join_key_id
        integral_blocks plans (plans.map (fun p => p.infos)) with
    | none => RunResult.failed
    | some aggregator =>
      match aggregator.Execute hash fuel partition_chunck_size num_radix_bits num_positive with
      | RunResult.returned done => RunResult.returned done.infos
      | RunResult.null_chunk => RunResult.null_chunk
      | RunResult.failed => RunResult.failed
  | BindingData.split positive_blocks negative_blocks =>
    match clonePlans plans with
    | none => RunResult.failed
    | some clones =>
      match createAggregator block_capacity hash num_radix_bits clause_join_key_id
          positive_blocks clones (plans.map (fun p => p.infos)) with
      | none => RunResult.failed
      | some aggregator =>
        match aggregator.ExecuteOnPositives hash fuel partition_chunck_size num_radix_bits with
        | RunResult.null_chunk => RunResult.null_chunk
        | RunResult.failed => RunResult.failed
        | RunResult.returned done =>
          match createAggregator block_capacity hash num_radix_bits clause_join_key_id
              negative_blocks plans done.infos with
          | none => RunResult.failed
          | some aggregator2 =>
            match aggregator2.ExecuteOnNegatives hash fuel partition_chunck_size
                num_radix_bits with
            | RunResult.returned done2 => RunResult.returned done2.infos
            | RunResult.null_chunk => RunResult.null_chunk
            | RunResult.failed => RunResult.failed

/-- The function `CandidateLiteralEvaluator::Evaluate`, with the flags
`partition_chunck_size` and `num_radix_bits`, cache lines of `block_capacity` tuples, the
iteration order `order` of the sets of the plan builder, and the bound `fuel` on the
loops: the outcome of the plan builder and, when it returns, of the aggregator. -/
def Evaluate (block_capacity : Nat) (hash : Int → Nat) (order : List Nat → List Nat)
    (fuel partition_chunck_size num_radix_bits : Nat) (clause_join_key_id : Nat)
    (bindings : BindingData) (literal_groups : List LiteralGroup) :
    LoopResult (RunResult (List (List (List CandidateLiteralInfo)))) :=
  match planLiteralGroups block_capacity hash num_radix_bits order fuel literal_groups with
  | LoopResult.out_of_fuel => LoopResult.out_of_fuel
  | LoopResult.undefined_behaviour => LoopResult.undefined_behaviour
  | LoopResult.finished none => LoopResult.finished RunResult.failed
  | LoopResult.finished (some plans) =>
    LoopResult.finished (evaluatePlans block_capacity hash fuel partition_chunck_size
      num_radix_bits clause_join_key_id bindings plans)

/-- The binding table of a clause with the variables 0 and 1: three positive rows followed
by three negative rows. -/
def evalTestBindings : List (List Int) := [[1, 2, 3, 4, 5, 6], [7, 8, 0, 10, 0, 12]]

/-- The candidates `p_1(0, -1)` and `p_1(0, 1)` of a binary predicate whose fact table has
six rows; every row of `evalTestBindings` joins with one fact row on the variable 0. -/
def evalTestGroup : LiteralGroup :=
  ⟨[[1, 2, 3, 4, 5, 6], [7, 8, 9, 10, 11, 12]],
    [⟨⟨1, -1, [0, 0]⟩, [⟨0, 0⟩, ⟨-1, 0⟩]⟩, ⟨⟨1, -1, [0, 0]⟩, [⟨0, 0⟩, ⟨1, 0⟩]⟩]⟩

/-- A binding table none of whose rows joins with a fact row of `evalTestGroup`. -/
def evalTestNoMatch : List (List Int) := [[21, 22, 23, 24, 25, 26], [7, 8, 0, 10, 0, 12]]

/-- A binding table whose negative rows only (the last three) join with fact rows of
`evalTestGroup`. -/
def evalTestNegativeOnly : List (List Int) := [[21, 22, 23, 4, 5, 6], [7, 8, 0, 10, 0, 12]]

/-- The partitions of a build column `[40, 60, 20, 31]` in two. -/
def noMatchPartitions : List (List PartitionTuple) :=
  [[⟨40, 0⟩, ⟨60, 1⟩, ⟨20, 2⟩], [⟨31, 3⟩]]

/-- The fact table of the predicate of `threeAtomLiteral`, also used as the binding table
of a clause with the variables 0 to 3: two rows, which join with each other. -/
def threeAtomTable : List (List Int) := [[1, 2], [1, 2], [1, 2], [1, 2]]


/-! ## The counters of the aggregator and the rows of the binding table -/

/-- The body of the `do` loop of `CountAggregator::Execute` on a filter chunk. -/
def CountAggregator.executeChunk (num_positive : Nat) (aggregator : CountAggregator)
    (filter_chunk : FilterChunk) : Option CountAggregator :=
  CountAggregator.countChunk true true (countRoot num_positive)
    (fun chunk => countLabelled chunk.build_relative_tids
      (LabelBitVector num_positive chunk.build_tids)
      ((LabelBitVector num_positive chunk.build_tids).map (fun b => !b)))
    aggregator filter_chunk

/-- The covered counter of a label. -/
def sideCovered (positive : Bool) (info : CandidateLiteralInfo) : Int :=
  if positive then info.num_covered_positive else info.num_covered_negative

/-- The binding counter of a label. -/
def sideBinding (positive : Bool) (info : CandidateLiteralInfo) : Int :=
  if positive then info.num_binding_positive else info.num_binding_negative

/-- The semi bit vector of a label. -/
def sideSemi (positive : Bool) (positive_semi negative_semi : BitVector) : BitVector :=
  if positive then positive_semi else negative_semi

/-- The binding row with the id `tid` has the label: the positive rows are the rows with
an id below `num_positive`. -/
def sideLabel (positive : Bool) (num_positive tid : Nat) : Bool :=
  if positive then decide (tid < num_positive) else !decide (tid < num_positive)

/-- The number of the tuples with a label in the build partitions before partition `q`. -/
def labelledBefore (label : Nat → Bool) (build_partitions : List (List PartitionTuple))
    (q : Nat) : Nat :=
  (((build_partitions.take q).flatten).filter (fun tuple => label tuple.tuple_id)).length

/-- A join chunk agrees with the partitions of the build column: its partition size is
the size of its build partition, and every joined tuple carries the position of a build
tuple in the partition and the id of that tuple. -/
structure ChunkOfPartitions (build_partitions : List (List PartitionTuple))
    (chunk : HashJoinChunk) : Prop where
  size_eq : chunk.binding_partition_size =
    (build_partitions.getD chunk.partition_id []).length
  length_eq : chunk.build_relative_tids.length = chunk.build_tids.length
  position : ∀ t, t < chunk.build_tids.length →
    chunk.build_relative_tids.getD t 0 < (build_partitions.getD chunk.partition_id []).length ∧
    ((build_partitions.getD chunk.partition_id []).getD
      (chunk.build_relative_tids.getD t 0) ⟨0, 0⟩).tuple_id = chunk.build_tids.getD t 0

/-- The candidates attached to a plan: the candidate of the plan and those of its nodes. -/
def attachedLiterals (plan : PredicateEvaluationPlan) : List Nat :=
  plan.literal.toList ++ plan.tree_nodes.filterMap (fun node => node.literal)

/-- What one counting does to a covered counter, a binding counter and a semi bit vector
of a label on a chunk: the covered counter grows by the number of the bits newly set, at
most as much as the binding counter, and a bit newly set is the position of a joined tuple
whose build row has the label. -/
structure SideStep (label : Nat → Bool) (chunk : HashJoinChunk)
    (before after : Int × Int × BitVector) : Prop where
  length_eq : after.2.2.length = before.2.2.length
  covered_le : before.1 ≤ after.1
  binding_le : after.1 - before.1 ≤ after.2.1 - before.2.1
  covered_eq : after.1 + (countBits before.2.2 : Int) = before.1 + (countBits after.2.2 : Int)
  bits : ∀ r, after.2.2.getD r false = true →
    before.2.2.getD r false = true ∨
    ∃ t, t < chunk.build_tids.length ∧ label (chunk.build_tids.getD t 0) = true ∧
      chunk.build_relative_tids.getD t 0 = r

/-- The bound on a covered counter given the partition saved in the plan and the semi bit
vector: the counter is 0 before the first chunk; afterwards the bits of the semi bit vector
are positions of tuples of the saved partition with the label, and the counter is at most
the number of the tuples with the label in the partitions before, plus the number of the
bits set. -/
def SlotBound (label : Nat → Bool) (build_partitions : List (List PartitionTuple))
    (saved_partition_id : Option Nat) (semi : BitVector) (covered : Int) : Prop :=
  match saved_partition_id with
  | none => covered = 0
  | some q =>
    semi.length = (build_partitions.getD q []).length ∧
    (∀ r, semi.getD r false = true →
      label ((build_partitions.getD q []).getD r ⟨0, 0⟩).tuple_id = true) ∧
    covered ≤ (labelledBefore label build_partitions q : Int) + (countBits semi : Int)

/-- The state of a plan for one label: a covered counter is at most the binding counter,
the covered counter of a candidate that is not attached to the plan is 0, and the covered
counter of an attached candidate is bounded through the semi bit vector of its node. -/
structure PlanSideInv (positive : Bool) (label : Nat → Bool)
    (build_partitions : List (List PartitionTuple)) (plan : PredicateEvaluationPlan)
    (saved_partition_id : Option Nat) (root_semi : BitVector) (node_semis : List BitVector)
    (infos : List CandidateLiteralInfo) : Prop where
  semis_length : node_semis.length = plan.tree_nodes.length
  le_binding : ∀ (l : Nat) (info : CandidateLiteralInfo), infos[l]? = some info →
    sideCovered positive info ≤ sideBinding positive info
  unattached : ∀ (l : Nat) (info : CandidateLiteralInfo), infos[l]? = some info →
    l ∉ attachedLiterals plan →
    sideCovered positive info = 0
  root : ∀ (l : Nat) (info : CandidateLiteralInfo), plan.literal = some l →
    infos[l]? = some info →
    SlotBound label build_partitions saved_partition_id root_semi (sideCovered positive info)
  node : ∀ (i : Nat) (node : PredicateTreeNode) (l : Nat) (info : CandidateLiteralInfo)
    (semi : BitVector), plan.tree_nodes[i]? = some node → node.literal = some l →
    infos[l]? = some info → node_semis[i]? = some semi →
    SlotBound label build_partitions saved_partition_id semi (sideCovered positive info)

/-- The semi bit vectors of the nodes of a label. -/
def sideSemis (positive : Bool) (positive_semis negative_semis : List BitVector) :
    List BitVector :=
  if positive then positive_semis else negative_semis

/-- The entry of the join group `g` of the table `t` in a vector indexed by table and
join group. -/
def groupEntry {α : Type} (rows : List (List α)) (t g : Nat) : Option α :=
  (rows.get? t).bind (fun row => row.get? g)

/-- The state of the aggregator for one label after the chunks of the partitions up to
`bound`: every plan with counters has buffers, with a saved partition that is not after
`bound`, in the state `PlanSideInv` for the build partitions of its join group. -/
structure AggregatorSideInv (positive : Bool) (label : Nat → Bool)
    (build_partitions : Nat → Nat → List (List PartitionTuple)) (bound : Nat)
    (aggregator : CountAggregator) : Prop where
  plans : ∀ (t g : Nat) (plan : PredicateEvaluationPlan) (infos : List CandidateLiteralInfo),
    groupEntry aggregator.score_plans t g = some plan →
    groupEntry aggregator.infos t g = some infos →
    ∃ buffers, groupEntry aggregator.buffers t g = some buffers ∧
      (∀ q0, buffers.saved_partition_id = some q0 → q0 ≤ bound) ∧
      PlanSideInv positive label (build_partitions t g) plan buffers.saved_partition_id
        (sideSemi positive buffers.positive_semi_bitvector buffers.negative_semi_bitvector)
        (sideSemis positive buffers.node_positive_semi_bitvectors
          buffers.node_negative_semi_bitvectors) infos

/-- An aggregator that has not run, on a binding table of four rows partitioned in two on
its join key, with the plan `planTestPlan` for the five candidates of `planTestGroup`. -/
def countTestAggregator : CountAggregator :=
  { hash_join :=
      { assigner := ⟨[], [], 2, 0, 0, 0, 0, []⟩
        build_columns := [[10, 11, 10, 11]]
        build_hash_tables := []
        build_partitions := [[⟨10, 0⟩, ⟨10, 2⟩], [⟨11, 1⟩, ⟨11, 3⟩]] }
    predicate_groups := [[[⟨1, 1⟩, ⟨2, 2⟩, ⟨1, 2⟩, ⟨2, 1⟩]]]
    score_plans := [[planTestPlan]]
    buffers := [[PlanBuffers.create planTestPlan]]
    infos := [[planTestGroup.map (fun literal => ⟨literal, 0, 0, 0, 0⟩)]] }

/-- Three filter chunks for `countTestAggregator`, ordered by partition: two of the
partition 0 and one of the partition 1, each with the four bit vectors of the filter
predicates. -/
def countTestChunks : List FilterChunk :=
  [ { hash_join_chunk := ⟨0, 0, 0, 2, [], [], [0, 1, 2], [0, 2, 0], [0, 1, 0]⟩
      bit_vectors := [[true, true, false], [true, false, true], [false, true, true],
        [true, true, true]] },
    { hash_join_chunk := ⟨0, 0, 0, 2, [], [], [3], [2], [1]⟩
      bit_vectors := [[true], [true], [false], [false]] },
    { hash_join_chunk := ⟨0, 0, 1, 2, [], [], [4, 5], [1, 3], [0, 1]⟩
      bit_vectors := [[true, false], [true, true], [true, true], [false, true]] } ]

/-- The aggregator `countTestAggregator` after the chunks `countTestChunks` with two
positive rows: the partition 1 is saved, and the five candidates have their counters. -/
def countTestResult : CountAggregator :=
  { countTestAggregator with
    buffers := [[{ saved_partition_id := some 1
                   positive_semi_bitvector := [true, false]
                   negative_semi_bitvector := [false, true]
                   node_positive_semi_bitvectors :=
                     [[true, false], [true, false], [], [], [true, false], [false, false]]
                   node_negative_semi_bitvectors :=
                     [[false, false], [false, true], [], [], [false, false], [false, true]] }]]
    infos := [[List.zipWith
      (fun (literal : FoilLiteral) (counters : Int × Int × Int × Int) =>
        ⟨literal, counters.1, counters.2.1, counters.2.2.1, counters.2.2.2⟩)
      planTestGroup [(2, 1, 2, 2), (2, 1, 2, 1), (2, 2, 3, 2), (2, 2, 3, 3), (1, 2, 1, 2)]]] }

/-! ## Replaceable duplicates: the joins of the check as relations

A row of a joined relation has one position per variable id of the clause and holds `-1`
where the variable is unrestricted. -/

/-- The joined row agrees with a value of a predicate row at an argument of a literal: the
variable of the argument is unrestricted in the joined row or has that value; with
`bound_only`, an unbound argument always agrees. -/
def argumentAgrees (bound_only : Bool) (joined_row : List Int) (e : FoilVariable × Int) :
    Bool :=
  (bound_only && !e.1.IsBound) ||
    (decide (joined_row.getD e.1.variable_id.toNat (-1) = -1) ||
      decide (joined_row.getD e.1.variable_id.toNat (-1) = e.2))

/-- The joined row agrees with the predicate row at every argument of the literal. -/
def rowAgrees (bound_only : Bool) (literal : FoilLiteral) (joined_row predicate_row : List Int) :
    Bool :=
  (literal.vars.zip predicate_row).all (argumentAgrees bound_only joined_row)

/-- The row with the variable of an argument, when unrestricted, set to the value of the
predicate row. -/
def fillArgument (row : List Int) (e : FoilVariable × Int) : List Int :=
  if row.getD e.1.variable_id.toNat (-1) = -1 then row.set e.1.variable_id.toNat e.2 else row

/-- The joined row with the unrestricted variables of the literal set to the values of the
predicate row, argument after argument. -/
def fillRow (literal : FoilLiteral) (joined_row predicate_row : List Int) : List Int :=
  (literal.vars.zip predicate_row).foldl fillArgument joined_row

/-- The pairs of a row of the predicate relation and a row of the joined relation, in the
order of the nested loops. -/
def rowPairs (predicate_rel joined_rel : List (List Int)) : List (List Int × List Int) :=
  predicate_rel.flatMap (fun p => joined_rel.map (fun j => (p, j)))

/-- The natural join of a joined relation with the relation of a predicate through a
literal: the filled row of every pair of rows that agree. -/
def naturalJoin (literal : FoilLiteral) (predicate_rel joined_rel : List (List Int)) :
    List (List Int) :=
  ((rowPairs predicate_rel joined_rel).filter (fun e => rowAgrees false literal e.2 e.1)).map
    (fun e => fillRow literal e.2 e.1)

/-- The natural join with the relation of a predicate through several literals of the
predicate, one after the other. -/
def naturalJoinAll (literals : List FoilLiteral) (predicate_rel joined_rel : List (List Int)) :
    List (List Int) :=
  literals.foldl (fun joined literal => naturalJoin literal predicate_rel joined) joined_rel

/-- The canonical relation of the predicate of the candidate made of the rows of the
existing literals but the one at index `k`, and of the row of the candidate, its unbound
arguments numbered from `num_variables`. -/
def replacedRelation (clause : FoilClause) (literal : FoilLiteral) (existing : List FoilLiteral)
    (k : Nat) : List (List Int) :=
  (existing.map existingLiteralRow).eraseIdx k ++
    [newLiteralRow literal.vars clause.num_variables]

/-- The join of the canonical database `db` with the relation `replacedRelation` through
the existing literals of the predicate is not empty. -/
def replacedJoinNonEmpty (clause : FoilClause) (literal : FoilLiteral) (db : List (List Int))
    (existing : List FoilLiteral) (k : Nat) : Bool :=
  !(naturalJoinAll existing (replacedRelation clause literal existing k) db).isEmpty

/-- Some row of the join of the canonical database `db` with the relation of the existing
literals, through the existing literals but the one at index `k`, agrees with some row of
that relation on the bound arguments of the candidate. -/
def candidateMatchesExisting (literal : FoilLiteral) (db : List (List Int))
    (existing : List FoilLiteral) (k : Nat) : Bool :=
  (rowPairs (existing.map existingLiteralRow)
    (naturalJoinAll (existing.eraseIdx k) (existing.map existingLiteralRow) db)).any
    (fun e => rowAgrees true literal e.2 e.1)

/-- The clause `p_5(0, 1) :- p_5(0, 2), p_5(2, 1), p_5(0, 3)` of the enumerator test, grown
from the most general clause by adding `p_5(0, -1)`, `p_5(2, 1)` and `p_5(0, -1)`. -/
def replaceTestClause : FoilClause :=
  (((FoilClause.ofHead (FoilClause.CreateLiteral testPredicate5 [0, 1])).AddUnBoundBodyLiteral
      (FoilClause.CreateLiteral testPredicate5 [0, -1]) false).AddUnBoundBodyLiteral
      (FoilClause.CreateLiteral testPredicate5 [2, 1]) false).AddUnBoundBodyLiteral
    (FoilClause.CreateLiteral testPredicate5 [0, -1]) false

/-- The candidate literal `p_5(1, 2)`. -/
def replaceTestLiteral : FoilLiteral := FoilClause.CreateLiteral testPredicate5 [1, 2]

/-! ## The invariants of the radix partitioning -/

/-- The state of the loop of `RadixPartitioner::Partition` over the tuples after the values
`processed`, for the histogram and an output buffer of `size` cells: the slots of every
write buffer point to the position of the next tuple of its partition, the cells of the
write buffer below the buffer slot hold the tuples of the partition that are not copied to
the output yet, and the output holds the tuples of the partition below the line of the
tuple slot. -/
structure PartitionProgress (block_capacity : Nat) (hash : Int → Nat) (mask : Nat)
    (histogram : Nat → Nat) (size : Nat) (processed : List Int) (st : PartitionerState) :
    Prop where
  size_eq : st.output.length = size
  slots : ∀ p, (st.write_buffer p).tuple_slot * block_capacity +
      (st.write_buffer p).buffer_slot =
    partitionOffset histogram p + (partitionOf hash mask processed p).length
  slot_lt : ∀ p, (st.write_buffer p).buffer_slot < block_capacity
  line_length : ∀ p, (st.write_buffer p).tuples.length = block_capacity
  pending : ∀ (p j : Nat), j < (st.write_buffer p).buffer_slot →
    partitionOffset histogram p ≤ (st.write_buffer p).tuple_slot * block_capacity + j →
    (st.write_buffer p).tuples[j]? =
      ((partitionOf hash mask processed p)[(st.write_buffer p).tuple_slot * block_capacity + j -
          partitionOffset histogram p]?).map some
  written : ∀ (p a : Nat), partitionOffset histogram p ≤ a →
    a < (st.write_buffer p).tuple_slot * block_capacity →
    st.output[a]? =
      ((partitionOf hash mask processed p)[a - partitionOffset histogram p]?).map some

/-- The state of the loop that writes what is left in the buffers, before the partition
`k`: the output holds all the tuples of the partitions below `k`, and the tuples of every
partition below the line of its tuple slot. -/
structure FlushProgress (block_capacity : Nat) (hash : Int → Nat) (mask : Nat)
    (histogram : Nat → Nat) (size : Nat) (values : List Int) (write_buffer : Nat → CacheLine)
    (k : Nat) (output : List TupleCell) : Prop where
  size_eq : output.length = size
  flushed : ∀ (p a : Nat), p < k → partitionOffset histogram p ≤ a →
    a < partitionOffset histogram p + histogram p →
    output[a]? = ((partitionOf hash mask values p)[a - partitionOffset histogram p]?).map some
  written : ∀ (p a : Nat), partitionOffset histogram p ≤ a →
    a < (write_buffer p).tuple_slot * block_capacity →
    output[a]? = ((partitionOf hash mask values p)[a - partitionOffset histogram p]?).map some

/-! ## GeneratePredicateEvaluationPlan with the storage of `predicate_tree_nodes`

The vector `predicate_tree_nodes` is a `folly::fbvector` that is never reserved, and the
body of the loop `while (!remaining_literal_ids.empty())` takes the pointers
`left_predicate_info` and `right_predicate_info` into it before `emplace_back` and reads
them after it.  The capacities of the vector are not part of this repository: `reallocates n`
tells whether `emplace_back` on the vector of `n` nodes moves the nodes to new storage. -/

/-- One iteration of the loop `while (!remaining_literal_ids.empty())` on a vector with
the moves `reallocates`; `none` when no pair with a common literal exists (the indices are
then `-1`), and when `predicate_tree_nodes.emplace_back` moves the nodes: the pointers
`left_predicate_info` and `right_predicate_info` then point to freed storage, and
`predicate_atoms` and `literal_ids` are read through them. -/
def FbVector.planStep (reallocates : Nat → Bool) (order : List Nat → List Nat)
    (st : PlanState) : Option PlanState :=
  let best := findBestPair order st.predicate_tree_nodes
  if best.1 = 0 then none
  else if reallocates st.predicate_tree_nodes.length then none
  else some (mergeNodes order st best.2.1 best.2.2)

/-- The loop `while (!remaining_literal_ids.empty())` on a vector with the moves
`reallocates`, at most `fuel` iterations. -/
def FbVector.planLoop (reallocates : Nat → Bool) (order : List Nat → List Nat) :
    Nat → PlanState → LoopResult PlanState
  | fuel, st =>
    if st.remaining_literal_ids.isEmpty then LoopResult.finished st
    else
      match fuel with
      | 0 => LoopResult.out_of_fuel
      | n + 1 =>
        match FbVector.planStep reallocates order st with
        | none => LoopResult.undefined_behaviour
        | some st1 => FbVector.planLoop reallocates order n st1

/-- The function `CandidateLiteralEvaluator::GeneratePredicateEvaluationPlan` on a vector
`predicate_tree_nodes` with the moves `reallocates`: undefined behaviour when an iteration
of the loop reads the two nodes through pointers to freed storage. -/
def FbVector.GeneratePredicateEvaluationPlan (reallocates : Nat → Bool)
    (order : List Nat → List Nat) (fuel : Nat) (literals : List FoilLiteral) :
    LoopResult (List (Nat × Int) × PredicateEvaluationPlan) :=
  if literals.isEmpty then LoopResult.undefined_behaviour
  else
    let st0 := planInit literals
    let num_predicate_atoms := st0.tree_nodes.length
    match FbVector.planLoop reallocates order fuel st0 with
    | LoopResult.out_of_fuel => LoopResult.out_of_fuel
    | LoopResult.undefined_behaviour => LoopResult.undefined_behaviour
    | LoopResult.finished st1 =>
      let st2 := emitConjunctions num_predicate_atoms
        { st1 with predicate_tree_nodes :=
            sweepReferences num_predicate_atoms st1.predicate_tree_nodes }
      LoopResult.finished
        (st2.predicates, ⟨st2.root_literal, st2.tree_nodes, num_predicate_atoms⟩)

/-- The capacity after `n` calls of `emplace_back` of a vector that starts empty and
doubles its capacity when it is full, from the capacity 1 on. -/
def doubledCapacity : Nat → Nat
  | 0 => 0
  | n + 1 => if doubledCapacity n ≤ n then max 1 (2 * doubledCapacity n) else doubledCapacity n

/-- The moves of a vector that doubles its capacity: `emplace_back` moves the elements
when the vector is full. -/
def doublingMoves (n : Nat) : Bool := decide (doubledCapacity n = n)

/-- A group of five candidates of the predicate `p_7` with three arguments of one type,
joined on argument 0: `p_7(0, 1, -1)`, `p_7(0, 1, 2)`, `p_7(0, 2, 1)`, `p_7(0, 3, -1)` and
`p_7(0, -1, -1)`; it has five atoms and two candidates with two atoms. -/
def planVectorGroup : List FoilLiteral :=
  [⟨⟨7, -1, [0, 0, 0]⟩, [⟨0, 0⟩, ⟨1, 0⟩, ⟨-1, 0⟩]⟩,
   ⟨⟨7, -1, [0, 0, 0]⟩, [⟨0, 0⟩, ⟨1, 0⟩, ⟨2, 0⟩]⟩,
   ⟨⟨7, -1, [0, 0, 0]⟩, [⟨0, 0⟩, ⟨2, 0⟩, ⟨1, 0⟩]⟩,
   ⟨⟨7, -1, [0, 0, 0]⟩, [⟨0, 0⟩, ⟨3, 0⟩, ⟨-1, 0⟩]⟩,
   ⟨⟨7, -1, [0, 0, 0]⟩, [⟨0, 0⟩, ⟨-1, 0⟩, ⟨-1, 0⟩]⟩]

/-- The filter predicates of the group `planVectorGroup`. -/
def planVectorPredicates : List (Nat × Int) := [(1, 1), (2, 2), (1, 2), (2, 1), (1, 3)]

/-- The plan of the group `planVectorGroup`: five atom nodes and two conjunctions. -/
def planVectorPlan : PredicateEvaluationPlan :=
  { literal := some 4,
    tree_nodes := [⟨some 0, none⟩, ⟨none, none⟩, ⟨none, none⟩, ⟨none, none⟩, ⟨some 3, none⟩,
      ⟨some 1, some (some 0, some 1)⟩, ⟨some 2, some (some 2, some 3)⟩],
    num_atom_tree_nodes := 5 }

end QuickFoil

/-! # Theorems -/

namespace QuickFoil

/-! ## NeedRegrow -/

theorem any_enum_false_iff {α : Type} (l : List α) (q : Nat × α → Bool) :
    (l.enum.any q = false) ↔ ∀ (i : Nat) (v : α), l.get? i = some v → q (i, v) = false := by
  rw [List.any_eq_false]
  constructor
  · intro h i v hv
    have := h (i, v) (List.mk_mem_enum_iff_getElem?.mpr (by simpa using hv))
    simpa using this
  · intro h x hx
    have := h x.1 x.2 ((by simpa using List.mem_enum_iff_getElem?.mp hx))
    simpa using this

/-- C9 (as stated, refuted): with the last body literal random and a literal without new
variables, `NeedRegrow` still returns false when the literal covers no negative binding. -/
theorem needRegrow_counterexample :
    ¬ (NeedRegrow regrowClause regrowInfo = true ↔
        (LastBodyLiteralWasRandom regrowClause ∧
          NoNewVariableOutsideKey regrowClause regrowInfo.literal)) := by
  intro h
  have hf : NeedRegrow regrowClause regrowInfo = false := by decide
  have hr : LastBodyLiteralWasRandom regrowClause ∧
      NoNewVariableOutsideKey regrowClause regrowInfo.literal := by
    refine ⟨⟨by decide, by decide⟩, ?_⟩
    intro i v hv hge
    have hl : regrowInfo.literal.vars = [⟨0, 0⟩] := rfl
    rw [hl] at hv
    cases i with
    | zero =>
      simp at hv
      subst hv
      exact absurd hge (by decide)
    | succ n => simp at hv
  rw [h.mpr hr] at hf
  exact Bool.noConfusion hf

/-- C9 (amended): `NeedRegrow` returns true exactly when the last body literal of the
clause was random, the literal covers at least one negative binding, and no argument of
the literal outside the key position of its predicate is a variable introduced by that
last body literal. -/
theorem needRegrow_iff (clause : FoilClause) (info : EvaluatedLiteralInfo) :
    NeedRegrow clause info = true ↔
      (LastBodyLiteralWasRandom clause ∧ info.num_covered_negative ≠ 0 ∧
        NoNewVariableOutsideKey clause info.literal) := by
  unfold NeedRegrow NeedRegrowImpl LastBodyLiteralWasRandom NoNewVariableOutsideKey
  by_cases hb : clause.body_literals = []
  · simp [hb]
  by_cases hn : info.num_covered_negative = 0
  · simp [hn]
  have hb2 : clause.body_literals.isEmpty = false := by
    cases hc : clause.body_literals with
    | nil => exact absurd hc hb
    | cons a t => rfl
  have hlast : clause.random_flags.getLastD false = true ↔
      clause.random_flags.getLast? = some true := by
    rw [List.getLastD_eq_getLast?]
    cases clause.random_flags.getLast? with
    | none => simp
    | some b => simp
  by_cases hr : clause.random_flags.getLastD false = true
  · have hr2 := hlast.mp hr
    simp only [hb2, hn, hr, hr2, Bool.false_or, beq_iff_eq, Bool.not_true, if_false]
    simp only [Bool.not_eq_true_eq_eq_false, ne_eq, hb, not_false_eq_true, true_and,
      Bool.false_eq_true, if_false, Bool.not_eq_true']
    rw [any_enum_false_iff]
    constructor
    · intro h
      refine ⟨hn, ?_⟩
      intro i v hv hge
      have := h i v hv
      simp only [Bool.and_eq_false_imp, decide_eq_true_eq, decide_eq_false_iff_not,
        not_not] at this
      exact this hge
    · intro h i v hv
      simp only [Bool.and_eq_false_imp, decide_eq_true_eq, decide_eq_false_iff_not, not_not]
      exact fun hge => h.2 i v hv hge
  · have hr2 : ¬ clause.random_flags.getLast? = some true := fun h => hr (hlast.mpr h)
    have hr3 : clause.random_flags.getLastD false = false := by
      cases hq : clause.random_flags.getLastD false with
      | true => exact absurd hq hr
      | false => rfl
    have hr4 : clause.random_flags.getLast?.getD false = false := by
      rw [← List.getLastD_eq_getLast?]; exact hr3
    simp [hb2, hn, hr4, hr2]

/-! ## The replaceable-duplicate check on the clauses of the test -/

/-- C6: the outcomes of `CheckReplaceableDuplicate` on the three clauses of the test
`ReplaceableDuplicates`: true for `p_5(0,-1)`, `p_5(3,1)`, `p_5(3,-1)` and false for
`p_5(1,2)` on `p_5(0,1) :- p_5(0,2), p_5(2,1), p_5(0,3)`; true for `p_1(0,-1)` and false
for `p_1(-1,1)` on `p_0(0) :- p_1(0,1)`; true for `p_2(1,0,-1)` and false for
`p_2(1,-1,2)` and `p_1(0,-1)` on `p_0(0) :- p_1(0,1), p_2(1,0,2)`. -/
theorem checkReplaceableDuplicate_test_outcomes :
    checkOnClause (FoilClause.CreateLiteral testPredicate5 [0, 1]) testBody5
        (FoilClause.CreateLiteral testPredicate5 [0, -1]) = some true ∧
    checkOnClause (FoilClause.CreateLiteral testPredicate5 [0, 1]) testBody5
        (FoilClause.CreateLiteral testPredicate5 [3, 1]) = some true ∧
    checkOnClause (FoilClause.CreateLiteral testPredicate5 [0, 1]) testBody5
        (FoilClause.CreateLiteral testPredicate5 [3, -1]) = some true ∧
    checkOnClause (FoilClause.CreateLiteral testPredicate5 [0, 1]) testBody5
        (FoilClause.CreateLiteral testPredicate5 [1, 2]) = some false ∧
    checkOnClause (FoilClause.CreateLiteral testPredicate0 [0])
        [FoilClause.CreateLiteral testPredicate1 [0, 1]]
        (FoilClause.CreateLiteral testPredicate1 [0, -1]) = some true ∧
    checkOnClause (FoilClause.CreateLiteral testPredicate0 [0])
        [FoilClause.CreateLiteral testPredicate1 [0, 1]]
        (FoilClause.CreateLiteral testPredicate1 [-1, 1]) = some false ∧
    checkOnClause (FoilClause.CreateLiteral testPredicate0 [0]) testBody12
        (FoilClause.CreateLiteral testPredicate2 [1, 0, -1]) = some true ∧
    checkOnClause (FoilClause.CreateLiteral testPredicate0 [0]) testBody12
        (FoilClause.CreateLiteral testPredicate2 [1, -1, 2]) = some false ∧
    checkOnClause (FoilClause.CreateLiteral testPredicate0 [0]) testBody12
        (FoilClause.CreateLiteral testPredicate1 [0, -1]) = some false := by
  refine ⟨?_, ?_, ?_, ?_, ?_, ?_, ?_, ?_, ?_⟩ <;> decide

/-- C7 (the code departs from it): on the clause `p_0(0,1) :- p_0(1,0), p_1(0,2)` the check
returns true for the candidate `p_1(1,-1)`, although it is a replaceable duplicate of no
body literal: no assignment fixing the head variables maps `p_1(0,2)` into the clause with
`p_1(1,3)` in its place. -/
theorem checkReplaceableDuplicate_accepts_non_duplicate :
    IsReplaceableDuplicateLiteralToClause dupClause dupLiteral = some true ∧
      ¬ ∃ k, IsReplaceableDuplicateOf dupClause dupLiteral k := by
  refine ⟨by decide, ?_⟩
  rintro ⟨k, old, hk, hp, θ, hhead, hbody⟩
  have hb : dupClause.body_literals =
      [⟨dupPredicate0, [⟨1, 0⟩, ⟨0, 0⟩]⟩, ⟨dupPredicate1, [⟨0, 0⟩, ⟨2, 0⟩]⟩] := by decide
  have hh : dupClause.head_literal = ⟨dupPredicate0, [⟨0, 0⟩, ⟨1, 0⟩]⟩ := by decide
  have h0 : θ 0 = 0 := by
    have := hhead ⟨0, 0⟩ (by rw [hh]; simp)
    simpa using this
  have hmem := hbody ⟨dupPredicate1, [⟨0, 0⟩, ⟨2, 0⟩]⟩ (by rw [hb]; simp)
  rw [hb] at hk
  match k, hk with
  | 0, hk =>
    simp at hk
    subst hk
    exact absurd hp (by decide)
  | 1, _ =>
    have hrows : replacedClauseRows dupClause dupLiteral 1 =
        [(0, [0, 1]), (0, [1, 0]), (1, [1, 3])] := by decide
    rw [hrows] at hmem
    simp [applyAssignment, dupPredicate1, h0] at hmem
  | (n + 2), hk => simp at hk

/-! ## The plan builder on a candidate with three atoms -/

theorem intersectionSize_le (ls other : List Nat) :
    intersectionSize ls other ≤ other.length := by
  unfold intersectionSize
  exact List.length_filter_le _ _

theorem searchSecond_keep (order : List Nat → List Nat) (nodes : List PredicateInfo)
    (hl : ∀ i, ((nodes.getD i default).literal_ids).length ≤ 1)
    (best : Nat × Int × Int) (hb : 1 ≤ best.1) (first : Nat) :
    searchSecond order nodes best first = best := by
  unfold searchSecond
  generalize order (nodes.getD first default).mergeable_nodes = l
  induction l with
  | nil => rfl
  | cons a t ih =>
    rw [List.foldl_cons]
    have hc : ¬ intersectionSize (nodes.getD first default).literal_ids
        (nodes.getD a default).literal_ids > best.1 := by
      have h1 := intersectionSize_le (nodes.getD first default).literal_ids
        (nodes.getD a default).literal_ids
      have h2 := hl a
      omega
    simp only [hc, if_false]
    exact ih

theorem foldl_searchSecond_keep (order : List Nat → List Nat) (nodes : List PredicateInfo)
    (hl : ∀ i, ((nodes.getD i default).literal_ids).length ≤ 1)
    (l : List Nat) (best : Nat × Int × Int) (hb : 1 ≤ best.1) :
    l.foldl (searchSecond order nodes) best = best := by
  induction l with
  | nil => rfl
  | cons a t ih =>
    rw [List.foldl_cons, searchSecond_keep order nodes hl best hb]
    exact ih

theorem order_pair (order : List Nat → List Nat) (ho : ∀ l, (order l).Perm l) :
    order [1, 2] = [1, 2] ∨ order [1, 2] = [2, 1] := by
  have h := ho [1, 2]
  have hlen := h.length_eq
  match hq : order [1, 2], hlen with
  | [a, b], _ =>
    rw [hq] at h
    have ha : a ∈ [1, 2] := h.subset (by simp)
    have hb : b ∈ [1, 2] := h.subset (by simp)
    have hnd : [a, b].Nodup := h.nodup_iff.mpr (by decide)
    simp at ha hb hnd
    rcases ha with rfl | rfl <;> rcases hb with rfl | rfl <;> simp_all

theorem order_single (order : List Nat → List Nat) (ho : ∀ l, (order l).Perm l) (a : Nat) :
    order [a] = [a] := by
  have h := ho [a]
  exact List.perm_singleton.mp h

theorem getD_mem_literal_ids (nodes : List PredicateInfo)
    (h : ∀ n ∈ nodes, n.literal_ids = [0]) (i : Nat) (hi : i < nodes.length) :
    (nodes.getD i default).literal_ids = [0] := by
  rw [List.getD_eq_getElem nodes default hi]
  exact h _ (List.getElem_mem hi)

theorem getD_literal_ids_le (nodes : List PredicateInfo)
    (h : ∀ n ∈ nodes, n.literal_ids = [0]) (i : Nat) :
    ((nodes.getD i default).literal_ids).length ≤ 1 := by
  by_cases hi : i < nodes.length
  · rw [getD_mem_literal_ids nodes h i hi]
    simp
  · rw [List.getD_eq_default nodes default (by omega)]
    decide

theorem findBestPair_stuck (order : List Nat → List Nat) (nodes : List PredicateInfo)
    (x y : Nat) (hq : order [1, 2] = [x, y])
    (hx : x = 1 ∨ x = 2) (hlen : 3 ≤ nodes.length)
    (hm0 : (nodes.getD 0 default).mergeable_nodes = [1, 2])
    (h : ∀ n ∈ nodes, n.literal_ids = [0]) :
    findBestPair order nodes = (1, 0, (x : Int)) := by
  have hl0 := getD_mem_literal_ids nodes h 0 (by omega)
  have hl1 := getD_mem_literal_ids nodes h 1 (by omega)
  have hl2 := getD_mem_literal_ids nodes h 2 (by omega)
  have hall := getD_literal_ids_le _ h
  unfold findBestPair
  obtain ⟨k, hk⟩ : ∃ k, nodes.length - 1 = k + 1 := ⟨nodes.length - 2, by omega⟩
  rw [hk, List.range_succ_eq_map, List.foldl_cons]
  have hfirst : searchSecond order nodes (0, -1, -1) 0 = (1, 0, (x : Int)) := by
    have cx : intersectionSize (nodes.getD 0 default).literal_ids
        (nodes.getD x default).literal_ids = 1 := by
      rcases hx with rfl | rfl
      · rw [hl0, hl1]; rfl
      · rw [hl0, hl2]; rfl
    have cy : ¬ intersectionSize (nodes.getD 0 default).literal_ids
        (nodes.getD y default).literal_ids > 1 := by
      have h1 := intersectionSize_le (nodes.getD 0 default).literal_ids
        (nodes.getD y default).literal_ids
      have h2 := hall y
      omega
    unfold searchSecond
    rw [hm0, hq]
    simp only [List.foldl_cons, List.foldl_nil, cx]
    simp only [gt_iff_lt, Nat.lt_one_iff, if_true, zero_lt_one]
    rw [if_neg (by simpa using cy)]
    rfl
  rw [hfirst]
  exact foldl_searchSecond_keep order _ hall _ _ (by simp)

theorem updateAt_length {α : Type} (l : List α) (i : Nat) (f : α → α) :
    (updateAt l i f).length = l.length := by
  unfold updateAt
  cases l.get? i <;> simp

theorem updateAt_mem_literal_ids (nodes : List PredicateInfo) (i : Nat)
    (f : PredicateInfo → PredicateInfo) (hf : ∀ n, (f n).literal_ids = n.literal_ids)
    (h : ∀ n ∈ nodes, n.literal_ids = [0]) :
    ∀ n ∈ updateAt nodes i f, n.literal_ids = [0] := by
  intro n hn
  unfold updateAt at hn
  cases hg : nodes.get? i with
  | none => rw [hg] at hn; exact h n hn
  | some x =>
    rw [hg] at hn
    simp only at hn
    rcases List.mem_or_eq_of_mem_set hn with hm | rfl
    · exact h n hm
    · rw [hf]
      exact h x (List.get?_mem hg)

theorem getD_updateAt_proj {β : Type} (proj : PredicateInfo → β) (nodes : List PredicateInfo)
    (i j : Nat) (f : PredicateInfo → PredicateInfo) (hf : ∀ n, proj (f n) = proj n) :
    proj ((updateAt nodes i f).getD j default) = proj (nodes.getD j default) := by
  unfold updateAt
  cases hg : nodes.get? i with
  | none => rfl
  | some x =>
    simp only
    by_cases hij : i = j
    · subst hij
      have hi : i < nodes.length := by
        rw [List.get?_eq_some] at hg
        exact hg.1
      rw [List.getD_eq_getElem _ _ (by simpa using hi), List.getD_eq_getElem _ _ hi]
      simp only [List.getElem_set_self, hf]
      have : nodes[i] = x := by
        rw [List.get?_eq_some] at hg
        obtain ⟨_, hx⟩ := hg
        simpa using hx
      rw [this]
    · simp [List.getD_eq_getElem?_getD, List.getElem?_set, hij]

theorem getD_enum_map_append_proj {β : Type} (proj : PredicateInfo → β)
    (nodes : List PredicateInfo) (g : Nat × PredicateInfo → PredicateInfo)
    (extra : PredicateInfo) (j : Nat) (hj : j < nodes.length)
    (hg : ∀ n, proj (g (j, n)) = proj n) :
    proj ((nodes.enum.map g ++ [extra]).getD j default) = proj (nodes.getD j default) := by
  have h1 : j < (nodes.enum.map g ++ [extra]).length := by simp; omega
  rw [List.getD_eq_getElem _ _ h1, List.getD_eq_getElem _ _ hj]
  rw [List.getElem_append_left (by simpa using hj)]
  simp [hg]

theorem enum_map_literal_ids (nodes : List PredicateInfo)
    (g : Nat × PredicateInfo → PredicateInfo)
    (hg : ∀ e, (g e).literal_ids = e.2.literal_ids)
    (h : ∀ n ∈ nodes, n.literal_ids = [0]) :
    ∀ n ∈ nodes.enum.map g, n.literal_ids = [0] := by
  intro n hn
  obtain ⟨e, he, rfl⟩ := List.mem_map.mp hn
  rw [hg]
  have := List.mem_enum_iff_getElem?.mp he
  exact h _ (List.getElem?_mem this)

theorem mergeNodes_stuck (order : List Nat → List Nat) (ho : ∀ l, (order l).Perm l)
    (st : PlanState) (h : PlanStuck st) (x : Nat) (hx : x = 1 ∨ x = 2) :
    PlanStuck (mergeNodes order st 0 (x : Int)) := by
  have ho1 := order_single order ho 0
  have hinter : SetIntersection order [0] [0] = [0] := by
    unfold SetIntersection
    simp [ho1]
  have hlits1 : ∀ n ∈ updateAt (updateAt st.predicate_tree_nodes 0 bumpReference) x
      bumpReference, n.literal_ids = [0] :=
    updateAt_mem_literal_ids _ _ _ (fun _ => rfl)
      (updateAt_mem_literal_ids _ _ _ (fun _ => rfl) h.lits)
  have hlen1 : (updateAt (updateAt st.predicate_tree_nodes 0 bumpReference) x
      bumpReference).length = st.predicate_tree_nodes.length := by
    rw [updateAt_length, updateAt_length]
  have hlen := h.len
  have hxlt : x < st.predicate_tree_nodes.length := by rcases hx with rfl | rfl <;> omega
  have hLL := getD_mem_literal_ids _ hlits1 0 (by rw [hlen1]; omega)
  have hRL := getD_mem_literal_ids _ hlits1 x (by rw [hlen1]; omega)
  have hproj : ∀ {β : Type} (proj : PredicateInfo → β)
      (_ : ∀ n, proj (bumpReference n) = proj n) (j : Nat),
      proj ((updateAt (updateAt st.predicate_tree_nodes 0 bumpReference) x
        bumpReference).getD j default) = proj (st.predicate_tree_nodes.getD j default) := by
    intro β proj hp j
    rw [getD_updateAt_proj proj _ x j bumpReference hp,
      getD_updateAt_proj proj _ 0 j bumpReference hp]
  have hLA := (hproj PredicateInfo.predicate_atoms (fun _ => rfl) 0).trans h.atoms0
  have hRA : ((updateAt (updateAt st.predicate_tree_nodes 0 bumpReference) x
      bumpReference).getD x default).predicate_atoms = [x] := by
    rw [hproj PredicateInfo.predicate_atoms (fun _ => rfl) x]
    rcases hx with rfl | rfl
    · exact h.atoms1
    · exact h.atoms2
  have hset : setEq [0, 1, 2] (setInsert [0] x) = false := by
    rcases hx with rfl | rfl <;> decide
  have hmerge : mergeNodes order st 0 (x : Int) =
      { st with
        predicate_tree_nodes :=
          (updateAt (updateAt st.predicate_tree_nodes 0 bumpReference) x bumpReference).enum.map
            (addMergeable 0 x st.predicate_tree_nodes.length (setInsert [0] x)) ++
          [{ predicate_atoms := setInsert [0] x, literal_ids := [0], mergeable_nodes := [],
             literal := none, plan_node := none, left_predicate_id := 0,
             right_predicate_id := (x : Int), reference_count := 0 }]
        remaining_literal_ids := [0] } := by
    simp only [mergeNodes, Int.toNat_zero, Int.toNat_ofNat, hLL, hRL, hLA, hRA, hinter, ho1,
      List.foldl_cons, List.foldl_nil, attachLiteral, h.info, List.getD_cons_zero, hset,
      Option.isNone_none, Bool.and_false, Bool.false_eq_true, if_false, h.rem, hlen1]
  rw [hmerge]
  constructor
  · rfl
  · exact h.info
  · simp only [List.length_append, List.length_map, List.enum_length, hlen1]
    omega
  · rw [getD_enum_map_append_proj PredicateInfo.predicate_atoms _ _ _ 0 (by rw [hlen1]; omega)]
    · exact hLA
    · intro n; unfold addMergeable; split <;> rfl
  · rw [getD_enum_map_append_proj PredicateInfo.mergeable_nodes _ _ _ 0 (by rw [hlen1]; omega)]
    · exact (hproj PredicateInfo.mergeable_nodes (fun _ => rfl) 0).trans h.merge0
    · intro n; unfold addMergeable; simp
  · rw [getD_enum_map_append_proj PredicateInfo.predicate_atoms _ _ _ 1 (by rw [hlen1]; omega)]
    · exact (hproj PredicateInfo.predicate_atoms (fun _ => rfl) 1).trans h.atoms1
    · intro n; unfold addMergeable; split <;> rfl
  · rw [getD_enum_map_append_proj PredicateInfo.predicate_atoms _ _ _ 2 (by rw [hlen1]; omega)]
    · exact (hproj PredicateInfo.predicate_atoms (fun _ => rfl) 2).trans h.atoms2
    · intro n; unfold addMergeable; split <;> rfl
  · intro n hn
    rcases List.mem_append.mp hn with hm | hm
    · exact enum_map_literal_ids _ _ (by intro e; unfold addMergeable; split <;> rfl) hlits1 n hm
    · simp only [List.mem_singleton] at hm
      rw [hm]

theorem planStep_stuck (order : List Nat → List Nat) (ho : ∀ l, (order l).Perm l)
    (st : PlanState) (h : PlanStuck st) :
    ∃ st1, planStep order st = some st1 ∧ PlanStuck st1 := by
  rcases order_pair order ho with hq | hq
  · have hbest := findBestPair_stuck order st.predicate_tree_nodes 1 2 hq (Or.inl rfl)
      h.len h.merge0 h.lits
    refine ⟨mergeNodes order st 0 ((1 : Nat) : Int), ?_, mergeNodes_stuck order ho st h 1 (Or.inl rfl)⟩
    unfold planStep
    rw [hbest]
    rfl
  · have hbest := findBestPair_stuck order st.predicate_tree_nodes 2 1 hq (Or.inr rfl)
      h.len h.merge0 h.lits
    refine ⟨mergeNodes order st 0 ((2 : Nat) : Int), ?_, mergeNodes_stuck order ho st h 2 (Or.inr rfl)⟩
    unfold planStep
    rw [hbest]
    rfl

theorem planLoop_stuck (order : List Nat → List Nat) (ho : ∀ l, (order l).Perm l)
    (fuel : Nat) : ∀ st, PlanStuck st → planLoop order fuel st = LoopResult.out_of_fuel := by
  induction fuel with
  | zero =>
    intro st h
    unfold planLoop
    simp [h.rem]
  | succ n ih =>
    intro st h
    obtain ⟨st1, hs, h1⟩ := planStep_stuck order ho st h
    unfold planLoop
    simp only [h.rem, List.isEmpty_cons, Bool.false_eq_true, if_false, hs]
    exact ih st1 h1

theorem planInit_stuck : PlanStuck (planInit [threeAtomLiteral]) := by
  constructor <;> decide

/-- C8 (the code departs from it): on the group made of the single candidate
`p_7(0, 1, 2, 3)`, whose atom set has three atoms, the loop of
`GeneratePredicateEvaluationPlan` never ends: whatever the iteration order of the sets
and however many iterations are allowed, the candidate is still unassigned. -/
theorem generatePredicateEvaluationPlan_never_finishes (order : List Nat → List Nat)
    (ho : ∀ l, (order l).Perm l) (fuel : Nat) :
    GeneratePredicateEvaluationPlan order fuel [threeAtomLiteral] = LoopResult.out_of_fuel := by
  unfold GeneratePredicateEvaluationPlan
  simp only [List.isEmpty_cons, Bool.false_eq_true, if_false]
  rw [planLoop_stuck order ho fuel _ planInit_stuck]

/-- The theorem `generatePredicateEvaluationPlan_never_finishes` with sets iterated in
insertion order and a thousand iterations. -/
theorem generatePredicateEvaluationPlan_never_finishes_witness :
    (∀ l : List Nat, (id l).Perm l) ∧
      GeneratePredicateEvaluationPlan id 1000 [threeAtomLiteral] = LoopResult.out_of_fuel :=
  ⟨fun l => List.Perm.refl l,
    generatePredicateEvaluationPlan_never_finishes id (fun l => List.Perm.refl l) 1000⟩

/-! ## Accepting a clause -/

theorem matchCount_add (columns : List (List Int)) (keys : List Nat)
    (m : List Int → Bool) (lo a b : Nat) :
    matchCount columns keys m lo (a + b) =
      matchCount columns keys m lo a + matchCount columns keys m (lo + a) b := by
  unfold matchCount
  rw [List.range_add, List.filter_append, List.length_append, List.filter_map,
    List.length_map]
  congr 1
  simp only [Function.comp_def, Nat.add_assoc]

theorem matchCount_le (columns : List (List Int)) (keys : List Nat)
    (m : List Int → Bool) (lo n : Nat) : matchCount columns keys m lo n ≤ n := by
  unfold matchCount
  exact (List.length_filter_le _ _).trans (by simp)

theorem count_true_map_range (f : Nat → Bool) (n : Nat) :
    ((List.range n).map f).count true = ((List.range n).filter f).length := by
  induction n with
  | zero => rfl
  | succ k ih =>
    rw [List.range_succ, List.map_append, List.count_append, List.filter_append,
      List.length_append, ih]
    cases hf : f k <;> simp [hf]

theorem evaluateWithFilter_length (col : List Int) (f : List Bool)
    (h : f.length ≤ col.length) : (EvaluateWithFilter col f).length = f.count true := by
  unfold EvaluateWithFilter
  rw [List.length_map]
  induction f generalizing col with
  | nil => simp
  | cons b t ih =>
    cases col with
    | nil => simp at h
    | cons x xs =>
      have h2 : t.length ≤ xs.length := by simpa using h
      cases b <;> simp [List.filter_cons, ih xs h2]

theorem count_true_not (f : List Bool) :
    (f.map (fun b => !b)).count true = f.length - f.count true := by
  induction f with
  | nil => rfl
  | cons b t ih =>
    have := List.count_le_length true t
    cases b
    · simp [ih]; omega
    · simp [ih]

theorem chunk_counts (c : Nat) (columns : List (List Int)) (total : Nat)
    (keys project : List Nat) (m : List Int → Bool) (cur : Nat)
    (hcol : (columns.getD 0 []).length = total) (hp : project.head? = some 0)
    (hcur : cur ≤ total) :
    (leftSemiJoinChunk c columns total keys project m cur).num_ones =
        matchCount columns keys m cur (min c (total - cur)) ∧
      (uncoveredOfChunk 0 (leftSemiJoinChunk c columns total keys project m cur)).length +
        matchCount columns keys m cur (min c (total - cur)) = min c (total - cur) := by
  have hones : (leftSemiJoinChunk c columns total keys project m cur).num_ones =
      matchCount columns keys m cur (min c (total - cur)) := by
    unfold leftSemiJoinChunk SemiJoinChunk.create matchCount
    simp only
    rw [count_true_map_range]
  refine ⟨hones, ?_⟩
  have hle := matchCount_le columns keys m cur (min c (total - cur))
  unfold uncoveredOfChunk
  rw [hones]
  have hbv : (leftSemiJoinChunk c columns total keys project m cur).semi_bitvector.length =
      min c (total - cur) := by
    unfold leftSemiJoinChunk SemiJoinChunk.create
    simp
  have hcount : (leftSemiJoinChunk c columns total keys project m cur).semi_bitvector.count true =
      matchCount columns keys m cur (min c (total - cur)) := hones
  have hcolen : ((leftSemiJoinChunk c columns total keys project m cur).output_columns.getD 0
      []).length = min c (total - cur) := by
    unfold leftSemiJoinChunk SemiJoinChunk.create
    cases project with
    | nil => simp at hp
    | cons p ps =>
      simp only [List.head?_cons, Option.some.injEq] at hp
      subst hp
      simp only [List.map_cons, List.getD_cons_zero, List.length_take, List.length_drop, hcol]
      omega
  rw [hbv]
  split
  · rw [evaluateWithFilter_length _ _ (by rw [List.length_map, hbv, hcolen]), count_true_not, hbv,
      hcount]
    omega
  · simp only [List.length_nil]
    omega

theorem leftSemiJoinFrom_counts (c : Nat) (columns : List (List Int)) (total : Nat)
    (keys project : List Nat) (m : List Int → Bool)
    (hcol : (columns.getD 0 []).length = total) (hp : project.head? = some 0) (hc : 0 < c) :
    ∀ fuel cur, total ≤ fuel + cur →
      ((leftSemiJoinFrom c columns total keys project m fuel cur).map
          SemiJoinChunk.num_ones).sum = matchCount columns keys m cur (total - cur) ∧
      ((leftSemiJoinFrom c columns total keys project m fuel cur).flatMap
          (uncoveredOfChunk 0)).length +
        matchCount columns keys m cur (total - cur) = total - cur := by
  intro fuel
  induction fuel with
  | zero =>
    intro cur h
    have : total - cur = 0 := by omega
    simp [leftSemiJoinFrom, this, matchCount]
  | succ n ih =>
    intro cur h
    unfold leftSemiJoinFrom
    by_cases hlt : cur < total
    · simp only [hlt, if_true, List.map_cons, List.sum_cons, List.flatMap_cons,
        List.length_append]
      obtain ⟨h1, h2⟩ := chunk_counts c columns total keys project m cur hcol hp (by omega)
      obtain ⟨i1, i2⟩ := ih (cur + c) (by omega)
      have hsplit : total - cur = min c (total - cur) + (total - (cur + c)) := by omega
      have hadd := matchCount_add columns keys m cur (min c (total - cur)) (total - (cur + c))
      rw [← hsplit] at hadd
      have hz : matchCount columns keys m (cur + min c (total - cur)) (total - (cur + c)) =
          matchCount columns keys m (cur + c) (total - (cur + c)) := by
        by_cases hcc : c ≤ total - cur
        · rw [Nat.min_eq_left hcc]
        · have : total - (cur + c) = 0 := by omega
          rw [this]
          simp [matchCount]
      rw [hz] at hadd
      constructor
      · rw [h1, i1, hadd]
      · rw [hadd]
        omega
    · have : total - cur = 0 := by omega
      simp [hlt, this, matchCount]

theorem leftSemiJoin_counts (c : Nat) (t : TableView) (keys : List Nat) (n : Nat)
    (m : List Int → Bool) (hc : 0 < c) (hn : 0 < n) :
    ((LeftSemiJoin c t.columns t.num_tuples keys (List.range n) m).map
        SemiJoinChunk.num_ones).sum = numMatching t keys m ∧
      ((copyUncovered n (LeftSemiJoin c t.columns t.num_tuples keys (List.range n) m)).headD
          []).length + numMatching t keys m = t.num_tuples := by
  have hcol : (t.columns.getD 0 []).length = t.num_tuples := by
    unfold TableView.num_tuples
    cases t.columns <;> rfl
  have hp : (List.range n).head? = some 0 := by
    cases n with
    | zero => omega
    | succ k => rw [List.range_succ_eq_map]; rfl
  have h := leftSemiJoinFrom_counts c t.columns t.num_tuples keys (List.range n) m hcol hp hc
    t.num_tuples 0 (by omega)
  have hne : c ≠ 0 := by omega
  unfold LeftSemiJoin numMatching
  simp only [hne, if_false, Nat.sub_zero] at h ⊢
  refine ⟨h.1, ?_⟩
  have hhead : (copyUncovered n (leftSemiJoinFrom c t.columns t.num_tuples keys (List.range n) m
      t.num_tuples 0)).headD [] =
      (leftSemiJoinFrom c t.columns t.num_tuples keys (List.range n) m t.num_tuples 0).flatMap
        (uncoveredOfChunk 0) := by
    unfold copyUncovered
    cases n with
    | zero => omega
    | succ k => rw [List.range_succ_eq_map]; rfl
  rw [hhead]
  exact h.2

theorem acceptsClause_rat_all_positive : acceptsClause ratModel 3 0 3 = true := by
  simp only [acceptsClause, ratModel]
  norm_num

/-- C10 (as stated, refuted): a state that still holds an older table of three uncovered
positives, all covered by the literal, is accepted with precision 1, and the global table
of one row loses one row, not the three of the re-check. -/
theorem addBuildingClause_stale_counterexample :
    (AddBuildingClauseWithNewLiteral ratModel 32768 staleData
        ⟨⟨1, -1, [0]⟩, [⟨0, 0⟩]⟩ (fun _ => true) (fun _ => false)).map
          (fun r => (r.1, r.2.global_uncovered_positive_data.num_tuples)) = some (true, 0) ∧
      (ComputeCoverageOnUncoveredData 32768 staleData (fun _ => true) (fun _ => false)).1 = 3 ∧
      staleData.global_uncovered_positive_data.num_tuples = 1 := by
  have hcov : ComputeCoverageOnUncoveredData 32768 staleData (fun _ => true) (fun _ => false) =
      (3, 0, [⟨[[10, 20, 30]], [true, true, true], 3⟩]) := by decide
  refine ⟨?_, ?_, ?_⟩
  · unfold AddBuildingClauseWithNewLiteral
    simp only [hcov]
    have hn : staleData.building_state.uncovered_positive_data.num_tuples = 3 := by decide
    rw [hn, acceptsClause_rat_all_positive]
    decide
  · rw [hcov]
  · decide

/-- C10 (amended): when the re-check passes the precision or the F-score threshold, the
clause extended by the literal is appended to the learnt clauses and the global table is
replaced by its rows that are not covered: if the state holds the global table itself,
the row count decreases by exactly the covered-positive count of the re-check, and if it
holds an older table, by the number of covered rows of the global table.  Otherwise
nothing changes.  The assumptions are a positive chunk size and arity, that equal
addresses mean equal tables, and the assertion `DCHECK_GE(uncovered_num_tuples,
num_output_tuples)` of the source for an older table. -/
theorem addBuildingClause_accepts (fm : FloatModel) (chunk_size : Nat) (q : QuickFoilData)
    (literal : FoilLiteral) (positive_match negative_match : List Int → Bool)
    (hc : 0 < chunk_size) (ha : 0 < q.target_predicate.num_arguments)
    (haddr : q.building_state.uncovered_positive_data.address =
        q.global_uncovered_positive_data.address →
      q.building_state.uncovered_positive_data = q.global_uncovered_positive_data)
    (hfit : q.building_state.uncovered_positive_data.address ≠
        q.global_uncovered_positive_data.address →
      q.global_uncovered_positive_data.num_tuples + numMatching
          q.building_state.uncovered_positive_data (targetColumns q) positive_match ≤
        q.building_state.uncovered_positive_data.num_tuples + numMatching
          q.global_uncovered_positive_data (targetColumns q) positive_match) :
    if acceptsClause fm
        (ComputeCoverageOnUncoveredData chunk_size q positive_match negative_match).1
        (ComputeCoverageOnUncoveredData chunk_size q positive_match negative_match).2.1
        q.building_state.uncovered_positive_data.num_tuples = true then
      ∃ q1, AddBuildingClauseWithNewLiteral fm chunk_size q literal positive_match
          negative_match = some (true, q1) ∧
        q1.learnt_clauses = q.learnt_clauses ++
          [q.building_state.building_clause.AddUnBoundBodyLiteral literal false] ∧
        q1.global_uncovered_positive_data.num_tuples +
          (if q.building_state.uncovered_positive_data.address =
              q.global_uncovered_positive_data.address then
            (ComputeCoverageOnUncoveredData chunk_size q positive_match negative_match).1
           else numMatching q.global_uncovered_positive_data (targetColumns q) positive_match) =
          q.global_uncovered_positive_data.num_tuples
    else
      AddBuildingClauseWithNewLiteral fm chunk_size q literal positive_match negative_match =
        some (false, q) := by
  have hstate := leftSemiJoin_counts chunk_size q.building_state.uncovered_positive_data
    (targetColumns q) q.target_predicate.num_arguments positive_match hc ha
  have hglobal := leftSemiJoin_counts chunk_size q.global_uncovered_positive_data
    (targetColumns q) q.target_predicate.num_arguments positive_match hc ha
  have hcov1 : (ComputeCoverageOnUncoveredData chunk_size q positive_match negative_match).1 =
      numMatching q.building_state.uncovered_positive_data (targetColumns q) positive_match :=
    hstate.1
  have hcov3 : (ComputeCoverageOnUncoveredData chunk_size q positive_match negative_match).2.2 =
      LeftSemiJoin chunk_size q.building_state.uncovered_positive_data.columns
        q.building_state.uncovered_positive_data.num_tuples (targetColumns q) (targetColumns q)
        positive_match := rfl
  split
  · rename_i hacc
    unfold AddBuildingClauseWithNewLiteral
    simp only [hacc, if_true]
    by_cases hsame : q.building_state.uncovered_positive_data.address =
        q.global_uncovered_positive_data.address
    · have heq := haddr hsame
      simp only [hsame, ne_eq, not_true_eq_false, if_false, if_true, hcov3]
      have hlen := hstate.2
      unfold targetColumns at hlen hcov1 ⊢
      rw [if_pos (by rw [hcov1]; omega)]
      refine ⟨_, rfl, rfl, ?_⟩
      show ((copyUncovered _ _).headD []).length + _ = _
      rw [hcov1, ← heq]
      exact hlen
    · simp only [hsame, ne_eq, not_false_eq_true, if_true, if_false]
      have hlen := hglobal.2
      have hf := hfit hsame
      unfold targetColumns at hlen hcov1 hf ⊢
      rw [if_pos (by rw [hcov1]; omega)]
      refine ⟨_, rfl, rfl, ?_⟩
      show ((copyUncovered _ _).headD []).length + _ = _
      exact hlen
  · rename_i hacc
    unfold AddBuildingClauseWithNewLiteral
    simp only [hacc, Bool.false_eq_true, if_false]

/-- The theorem `addBuildingClause_accepts` on a learner whose state holds the global
table of three uncovered positives, two of them covered. -/
theorem addBuildingClause_accepts_witness :
    (0 < 2 ∧ 0 < ({ staleData with global_uncovered_positive_data := ⟨1, [[10, 20, 30]]⟩ } :
      QuickFoilData).target_predicate.num_arguments) ∧
    (if acceptsClause ratModel
        (ComputeCoverageOnUncoveredData 2
          { staleData with global_uncovered_positive_data := ⟨1, [[10, 20, 30]]⟩ }
          (fun k => decide (k ≠ [20])) (fun _ => false)).1
        (ComputeCoverageOnUncoveredData 2
          { staleData with global_uncovered_positive_data := ⟨1, [[10, 20, 30]]⟩ }
          (fun k => decide (k ≠ [20])) (fun _ => false)).2.1 3 = true then
      ∃ q1, AddBuildingClauseWithNewLiteral ratModel 2
          { staleData with global_uncovered_positive_data := ⟨1, [[10, 20, 30]]⟩ }
          ⟨⟨1, -1, [0]⟩, [⟨0, 0⟩]⟩ (fun k => decide (k ≠ [20])) (fun _ => false) =
            some (true, q1) ∧
        q1.learnt_clauses = [] ++
          [(FoilClause.ofHead ⟨⟨0, -1, [0]⟩, [⟨0, 0⟩]⟩).AddUnBoundBodyLiteral
            ⟨⟨1, -1, [0]⟩, [⟨0, 0⟩]⟩ false] ∧
        q1.global_uncovered_positive_data.num_tuples +
          (if (1 : Nat) = 1 then
            (ComputeCoverageOnUncoveredData 2
              { staleData with global_uncovered_positive_data := ⟨1, [[10, 20, 30]]⟩ }
              (fun k => decide (k ≠ [20])) (fun _ => false)).1
           else numMatching ⟨1, [[10, 20, 30]]⟩ [0] (fun k => decide (k ≠ [20]))) = 3
    else
      AddBuildingClauseWithNewLiteral ratModel 2
          { staleData with global_uncovered_positive_data := ⟨1, [[10, 20, 30]]⟩ }
          ⟨⟨1, -1, [0]⟩, [⟨0, 0⟩]⟩ (fun k => decide (k ≠ [20])) (fun _ => false) =
        some (false, { staleData with global_uncovered_positive_data := ⟨1, [[10, 20, 30]]⟩ })) :=
  ⟨⟨by decide, by decide⟩,
    addBuildingClause_accepts ratModel 2
      { staleData with global_uncovered_positive_data := ⟨1, [[10, 20, 30]]⟩ }
      ⟨⟨1, -1, [0]⟩, [⟨0, 0⟩]⟩ (fun k => decide (k ≠ [20])) (fun _ => false)
      (by decide) (by decide) (fun _ => rfl) (fun h => absurd rfl h)⟩

/-! ## The candidate literal enumerator -/

theorem addVariable_inj (l l2 : FoilLiteral) (v v2 : FoilVariable)
    (h : l.AddVariable v = l2.AddVariable v2) : l = l2 ∧ v = v2 := by
  cases l with
  | mk p vs =>
  cases l2 with
  | mk p2 vs2 =>
  simp only [FoilLiteral.AddVariable, FoilLiteral.mk.injEq] at h
  obtain ⟨hp, hv⟩ := h
  have := List.append_inj' hv rfl
  simp only [List.cons.injEq, and_true] at this
  exact ⟨by rw [hp, this.1], this.2⟩

theorem perm_swap_front {α : Type} (a b c : List α) : (a ++ (b ++ c)).Perm (b ++ (a ++ c)) := by
  rw [← List.append_assoc, ← List.append_assoc]
  exact List.Perm.append_right _ List.perm_append_comm

theorem extendCandidates_perm (cv : List FoilVariable) (hcv : cv ≠ [])
    (cands : List FoilLiteral) :
    ∃ r, extendCandidates cv cands = some r ∧
      r.Perm (cands.flatMap (fun l => cv.map (fun v => l.AddVariable v))) := by
  cases cv with
  | nil => exact absurd rfl hcv
  | cons v0 rest =>
    refine ⟨_, rfl, ?_⟩
    induction cands with
    | nil => simp
    | cons l t ih =>
      simp only [List.map_cons, List.flatMap_cons, List.cons_append]
      refine List.Perm.cons _ ?_
      refine (perm_swap_front _ _ _).trans ?_
      refine List.Perm.append_left _ ?_
      simpa only [List.map_cons] using ih

theorem flatMap_map_length {α β γ : Type} (xs : List α) (ys : List β) (f : α → β → γ) :
    (xs.flatMap (fun x => ys.map (f x))).length = xs.length * ys.length := by
  induction xs with
  | nil => simp
  | cons x t ih =>
    simp only [List.flatMap_cons, List.length_append, List.length_map, ih, List.length_cons]
    ring

theorem flatMap_addVariable_nodup (cv : List FoilVariable) (hcv : cv.Nodup)
    (cands : List FoilLiteral) (hc : cands.Nodup) :
    (cands.flatMap (fun l => cv.map (fun v => l.AddVariable v))).Nodup := by
  rw [List.nodup_flatMap]
  refine ⟨fun l _ => ?_, ?_⟩
  · exact hcv.map (fun a b hab => (addVariable_inj l l a b hab).2)
  · refine hc.imp ?_
    intro a b hab x hxa hxb
    simp only [List.mem_map] at hxa hxb
    obtain ⟨v, _, rfl⟩ := hxa
    obtain ⟨w, _, hw⟩ := hxb
    exact hab (addVariable_inj _ _ _ _ hw).1.symm

theorem extendCandidates_last (cv : List FoilVariable) (u : FoilVariable)
    (cands : List FoilLiteral) (l : FoilLiteral) :
    ∃ r, extendCandidates (cv ++ [u]) (cands ++ [l]) = some (r ++ [l.AddVariable u]) := by
  cases cv with
  | nil =>
    refine ⟨cands.map (fun l => l.AddVariable u), ?_⟩
    simp [extendCandidates]
  | cons v0 rest =>
    refine ⟨(cands ++ [l]).map (fun l => l.AddVariable v0) ++
      (cands.flatMap (fun l => (rest ++ [u]).map (fun v => l.AddVariable v)) ++
        rest.map (fun v => l.AddVariable v)), ?_⟩
    simp [extendCandidates, List.flatMap_append]

theorem extendCandidates_mem (cv : List FoilVariable) (hcv : cv ≠ [])
    (cands : List FoilLiteral) :
    ∃ r, extendCandidates cv cands = some r ∧
      (∀ L, L ∈ r ↔ ∃ l ∈ cands, ∃ v ∈ cv, L = l.AddVariable v) ∧
      (cands.Nodup → cv.Nodup → r.Nodup) ∧ r.length = cands.length * cv.length := by
  obtain ⟨r, hr, hp⟩ := extendCandidates_perm cv hcv cands
  refine ⟨r, hr, ?_, ?_, ?_⟩
  · intro L
    rw [hp.mem_iff]
    simp only [List.mem_flatMap, List.mem_map]
    constructor
    · rintro ⟨l, hl, v, hv, rfl⟩
      exact ⟨l, hl, v, hv, rfl⟩
    · rintro ⟨l, hl, v, hv, rfl⟩
      exact ⟨l, hl, v, hv, rfl⟩
  · intro hc hn
    exact hp.nodup_iff.mpr (flatMap_addVariable_nodup cv hn cands hc)
  · rw [hp.length_eq, flatMap_map_length]

theorem generate_fold (cvs : List (List FoilVariable)) (hne : ∀ cv ∈ cvs, cv ≠ [])
    (cands : List FoilLiteral) :
    ∃ r, cvs.foldlM (fun c cv => extendCandidates cv c) cands = some r ∧
      (∀ L, L ∈ r ↔ ∃ l ∈ cands, ∃ vs, List.Forall₂ (fun cv v => v ∈ cv) cvs vs ∧
        L = ⟨l.predicate, l.vars ++ vs⟩) ∧
      (cands.Nodup → (∀ cv ∈ cvs, cv.Nodup) → r.Nodup) ∧
      r.length = cands.length * (cvs.map List.length).prod := by
  induction cvs generalizing cands with
  | nil =>
    refine ⟨cands, rfl, ?_, fun h _ => h, by simp⟩
    intro L
    constructor
    · intro h
      exact ⟨L, h, [], List.Forall₂.nil, by simp⟩
    · rintro ⟨l, hl, vs, hvs, rfl⟩
      cases hvs
      simpa using hl
  | cons cv rest ih =>
    obtain ⟨r1, hr1, hm1, hn1, hl1⟩ :=
      extendCandidates_mem cv (hne cv (List.mem_cons_self _ _)) cands
    obtain ⟨r, hr, hm, hn, hl⟩ := ih (fun c hc => hne c (List.mem_cons_of_mem _ hc)) r1
    refine ⟨r, ?_, ?_, ?_, ?_⟩
    · simp only [List.foldlM_cons, hr1, Option.bind_eq_bind, Option.some_bind]
      exact hr
    · intro L
      rw [hm]
      constructor
      · rintro ⟨l1, hl1m, vs, hvs, rfl⟩
        obtain ⟨l, hlc, v, hv, rfl⟩ := (hm1 l1).mp hl1m
        refine ⟨l, hlc, v :: vs, List.Forall₂.cons hv hvs, ?_⟩
        simp [FoilLiteral.AddVariable]
      · rintro ⟨l, hlc, ws, hws, rfl⟩
        cases hws with
        | cons hv hvs =>
          rename_i v vs
          refine ⟨l.AddVariable v, (hm1 _).mpr ⟨l, hlc, v, hv, rfl⟩, vs, hvs, ?_⟩
          simp [FoilLiteral.AddVariable]
    · intro hc hcv
      exact hn (hn1 hc (hcv cv (List.mem_cons_self _ _)))
        (fun c hcm => hcv c (List.mem_cons_of_mem _ hcm))
    · rw [hl, hl1]
      simp only [List.map_cons, List.prod_cons]
      ring

theorem generate_fold_last (cvs : List (List FoilVariable)) (us : List FoilVariable)
    (h : List.Forall₂ (fun cv u => ∃ xs, cv = xs ++ [u]) cvs us)
    (cands : List FoilLiteral) (l : FoilLiteral) :
    ∃ r, cvs.foldlM (fun c cv => extendCandidates cv c) (cands ++ [l]) =
      some (r ++ [⟨l.predicate, l.vars ++ us⟩]) := by
  induction h generalizing cands l with
  | nil => exact ⟨cands, by simp⟩
  | @cons cv u rest us2 hcu _ ih =>
    obtain ⟨xs, rfl⟩ := hcu
    obtain ⟨r1, hr1⟩ := extendCandidates_last xs u cands l
    obtain ⟨r, hr⟩ := ih r1 (l.AddVariable u)
    refine ⟨r, ?_⟩
    simp only [List.foldlM_cons, hr1, Option.bind_eq_bind, Option.some_bind]
    rw [hr]
    simp [FoilLiteral.AddVariable]

theorem mem_candidate_variables (vs : List FoilVariable) (t : Int) (v : FoilVariable) :
    v ∈ variable_type_to_variable_map vs t ++ [FoilVariable.unbound t] ↔
      ((v ∈ vs ∧ v.variable_type_id = t) ∨ v = FoilVariable.unbound t) := by
  simp [variable_type_to_variable_map]

theorem candidate_variables_nodup (vs : List FoilVariable) (hvs : vs.Nodup)
    (hb : ∀ v ∈ vs, 0 ≤ v.variable_id) (t : Int) :
    (variable_type_to_variable_map vs t ++ [FoilVariable.unbound t]).Nodup := by
  rw [List.nodup_append]
  refine ⟨hvs.filter _, List.nodup_singleton _, ?_⟩
  intro a ha hb2
  simp only [List.mem_singleton] at hb2
  subst hb2
  have := hb _ (List.mem_of_mem_filter ha)
  simp [FoilVariable.unbound] at this

theorem generateCandidateLiterals_spec (vs : List FoilVariable) (hvs : vs.Nodup)
    (hb : ∀ v ∈ vs, 0 ≤ v.variable_id) (P : FoilPredicate) (hP : 0 < P.num_arguments) :
    ∃ init, GenerateCandidateLiterals 0
        (GenerateVariableVectorForPredicate false (variable_type_to_variable_map vs) P [])
        [FoilLiteral.empty P] = some (init ++ [allUnboundLiteral P]) ∧
      (∀ L, L ∈ init ++ [allUnboundLiteral P] ↔ IsCandidateOver vs P L) ∧
      (init ++ [allUnboundLiteral P]).Nodup ∧
      (init ++ [allUnboundLiteral P]).length = productSize vs P := by
  have hvpa : GenerateVariableVectorForPredicate false (variable_type_to_variable_map vs) P [] =
      P.argument_types.map
        (fun t => variable_type_to_variable_map vs t ++ [FoilVariable.unbound t]) := by
    simp [GenerateVariableVectorForPredicate]
  have hne : ∀ cv ∈ P.argument_types.map
      (fun t => variable_type_to_variable_map vs t ++ [FoilVariable.unbound t]), cv ≠ [] := by
    intro cv hcv
    simp only [List.mem_map] at hcv
    obtain ⟨t, _, rfl⟩ := hcv
    simp
  obtain ⟨r, hr, hm, hn, hl⟩ := generate_fold _ hne [FoilLiteral.empty P]
  have hlast : List.Forall₂ (fun cv u => ∃ xs, cv = xs ++ [u])
      (P.argument_types.map
        (fun t => variable_type_to_variable_map vs t ++ [FoilVariable.unbound t]))
      (P.argument_types.map FoilVariable.unbound) := by
    rw [List.forall₂_map_left_iff, List.forall₂_map_right_iff]
    exact List.forall₂_same.mpr (fun t _ => ⟨_, rfl⟩)
  obtain ⟨init, hinit⟩ := generate_fold_last _ _ hlast [] (FoilLiteral.empty P)
  simp only [List.nil_append] at hinit
  have hri : r = init ++ [allUnboundLiteral P] := by
    have := hr.symm.trans hinit
    simpa [allUnboundLiteral, FoilLiteral.empty] using this
  subst hri
  have hgen : GenerateCandidateLiterals 0
      (GenerateVariableVectorForPredicate false (variable_type_to_variable_map vs) P [])
      [FoilLiteral.empty P] = some (init ++ [allUnboundLiteral P]) := by
    rw [hvpa]
    unfold GenerateCandidateLiterals
    rw [List.drop_zero]
    cases hat : P.argument_types with
    | nil => simp [FoilPredicate.num_arguments, hat] at hP
    | cons t ts =>
      rw [hat] at hr
      exact hr
  refine ⟨init, hgen, ?_, ?_, ?_⟩
  · intro L
    rw [hm]
    simp only [List.mem_singleton, exists_eq_left, FoilLiteral.empty, List.nil_append,
      IsCandidateOver, List.forall₂_map_left_iff]
    constructor
    · rintro ⟨ws, hws, rfl⟩
      refine ⟨rfl, ?_⟩
      exact hws.imp (fun _ _ h => (mem_candidate_variables vs _ _).mp h)
    · rintro ⟨hp, hws⟩
      refine ⟨L.vars, hws.imp (fun _ _ h => (mem_candidate_variables vs _ _).mpr h), ?_⟩
      cases L
      simp only [FoilLiteral.mk.injEq, and_true]
      exact hp
  · refine hn (List.nodup_singleton _) ?_
    intro cv hcv
    simp only [List.mem_map] at hcv
    obtain ⟨t, _, rfl⟩ := hcv
    exact candidate_variables_nodup vs hvs hb t
  · rw [hl]
    simp [productSize, Function.comp_def]

theorem predMap_lookup_of_not_contains {α : Type} (m : PredMap α) (p : FoilPredicate)
    (h : m.contains p = false) : m.lookup p = [] := by
  unfold PredMap.contains at h
  unfold PredMap.lookup
  have : m.find? (fun e => decide (e.1 = p)) = none := by
    rw [List.find?_eq_none]
    intro x hx
    have := List.any_eq_false.mp h x hx
    simpa using this
  rw [this]

theorem predMap_lookup_push {α : Type} (m : PredMap α) (p q : FoilPredicate) (v : List α)
    (h : m.contains p = false) :
    PredMap.lookup (m ++ [(p, v)]) q = if q = p then v else m.lookup q := by
  unfold PredMap.contains at h
  have hf : m.find? (fun e => decide (e.1 = p)) = none := by
    rw [List.find?_eq_none]
    intro x hx
    have := List.any_eq_false.mp h x hx
    simpa using this
  unfold PredMap.lookup
  rw [List.find?_append]
  by_cases hq : q = p
  · subst hq
    simp [hf]
  · simp only [hq, if_false]
    cases hm : m.find? (fun e => decide (e.1 = q)) with
    | some e => simp
    | none =>
      have : ¬ p = q := fun h => hq h.symm
      simp [this]

theorem predMap_contains_push {α : Type} (m : PredMap α) (p q : FoilPredicate) (v : List α) :
    PredMap.contains (m ++ [(p, v)]) q = (m.contains q || decide (p = q)) := by
  simp [PredMap.contains]

theorem predMap_lookup_map {α : Type} (m : PredMap α) (p q : FoilPredicate) (xs : List α) :
    PredMap.lookup (m.map (fun e => if e.1 = p then (e.1, e.2 ++ xs) else e)) q =
      if q = p ∧ m.contains p = true then m.lookup q ++ xs else m.lookup q := by
  have hcomp : ((fun e : FoilPredicate × List α => decide (e.1 = q)) ∘
      fun e => if e.1 = p then (e.1, e.2 ++ xs) else e) = fun e => decide (e.1 = q) := by
    funext e
    by_cases h : e.1 = p <;> simp [h]
  unfold PredMap.lookup
  rw [List.find?_map, hcomp]
  cases hf : m.find? (fun e => decide (e.1 = q)) with
  | none =>
    have hc : ¬ (q = p ∧ m.contains p = true) := by
      rintro ⟨rfl, hc⟩
      unfold PredMap.contains at hc
      obtain ⟨x, hx, hxq⟩ := List.any_eq_true.mp hc
      have := List.find?_eq_none.mp hf x hx
      exact this hxq
    simp [hc]
  | some e =>
    have he1 : e.1 = q := by simpa using List.find?_some hf
    have hem : e ∈ m := List.mem_of_find?_eq_some hf
    by_cases hqp : q = p
    · have hc : m.contains p = true := by
        unfold PredMap.contains
        exact List.any_eq_true.mpr ⟨e, hem, by simp [he1, hqp]⟩
      have hep : e.1 = p := he1.trans hqp
      simp [hqp, hc, hep]
    · have hep : ¬ e.1 = p := fun h => hqp (he1.symm.trans h)
      simp [hqp, hep]

theorem predMap_contains_map {α : Type} (m : PredMap α) (p q : FoilPredicate) (xs : List α) :
    PredMap.contains (m.map (fun e => if e.1 = p then (e.1, e.2 ++ xs) else e)) q =
      m.contains q := by
  induction m with
  | nil => rfl
  | cons e t ih =>
    unfold PredMap.contains at ih ⊢
    simp only [List.map_cons, List.any_cons, ih]
    by_cases hep : e.1 = p <;> simp [hep]

theorem predMap_lookup_emplace {α : Type} (m : PredMap α) (p q : FoilPredicate) (v : List α)
    (h : m.contains p = false) :
    (m.emplace p v).lookup q = if q = p then v else m.lookup q := by
  unfold PredMap.emplace
  simp only [h, Bool.false_eq_true, if_false]
  exact predMap_lookup_push m p q v h

theorem predMap_contains_emplace {α : Type} (m : PredMap α) (p q : FoilPredicate)
    (v : List α) :
    (m.emplace p v).contains q = (m.contains q || decide (p = q)) := by
  unfold PredMap.emplace
  by_cases h : m.contains p = true
  · simp only [h, if_true]
    by_cases hpq : p = q
    · subst hpq
      simp [h]
    · simp [hpq]
  · have h2 : m.contains p = false := by simpa using h
    simp only [h2, Bool.false_eq_true, if_false]
    exact predMap_contains_push m p q v

theorem predMap_lookup_append {α : Type} (m : PredMap α) (p q : FoilPredicate) (xs : List α) :
    (m.append p xs).lookup q = if q = p then m.lookup q ++ xs else m.lookup q := by
  unfold PredMap.append
  by_cases h : m.contains p = true
  · simp only [h, if_true]
    rw [predMap_lookup_map]
    simp [h]
  · have h2 : m.contains p = false := by simpa using h
    simp only [h2, Bool.false_eq_true, if_false]
    rw [predMap_lookup_push m p q xs h2]
    by_cases hq : q = p
    · subst hq
      simp [predMap_lookup_of_not_contains m q h2]
    · simp [hq]

theorem predMap_contains_append {α : Type} (m : PredMap α) (p q : FoilPredicate)
    (xs : List α) :
    (m.append p xs).contains q = (m.contains q || decide (p = q)) := by
  unfold PredMap.append
  by_cases h : m.contains p = true
  · simp only [h, if_true]
    rw [predMap_contains_map]
    by_cases hpq : p = q
    · subst hpq
      simp [h]
    · simp [hpq]
  · have h2 : m.contains p = false := by simpa using h
    simp only [h2, Bool.false_eq_true, if_false]
    exact predMap_contains_push m p q xs

/-- A loop over distinct predicates whose body only touches the entries of its predicate
establishes, for every predicate, what its body establishes. -/
theorem foldlM_predicates
    (step : PredMap FoilLiteral × PredMap FoilLiteral → FoilPredicate →
      Option (PredMap FoilLiteral × PredMap FoilLiteral))
    (Q : FoilPredicate → List FoilLiteral → List FoilLiteral → Prop)
    (bg : List FoilPredicate) (hbg : bg.Nodup)
    (hstep : ∀ acc, ∀ P ∈ bg, acc.1.contains P = false → acc.2.contains P = false →
      ∃ acc2, step acc P = some acc2 ∧ Q P (acc2.1.lookup P) (acc2.2.lookup P) ∧
        (∀ q, q ≠ P → acc2.1.lookup q = acc.1.lookup q ∧ acc2.2.lookup q = acc.2.lookup q ∧
          acc2.1.contains q = acc.1.contains q ∧ acc2.2.contains q = acc.2.contains q))
    (acc : PredMap FoilLiteral × PredMap FoilLiteral)
    (hacc : ∀ P ∈ bg, acc.1.contains P = false ∧ acc.2.contains P = false) :
    ∃ res, bg.foldlM step acc = some res ∧
      (∀ P ∈ bg, Q P (res.1.lookup P) (res.2.lookup P)) ∧
      (∀ q, q ∉ bg → res.1.lookup q = acc.1.lookup q ∧ res.2.lookup q = acc.2.lookup q) := by
  induction bg generalizing acc with
  | nil => exact ⟨acc, rfl, by simp, by simp⟩
  | cons P rest ih =>
    have hP := hacc P (List.mem_cons_self _ _)
    obtain ⟨acc2, hs, hQ, hother⟩ := hstep acc P (List.mem_cons_self _ _) hP.1 hP.2
    have hnd := List.nodup_cons.mp hbg
    obtain ⟨res, hres, hall, hrest⟩ := ih hnd.2
      (fun a R hR h1 h2 => hstep a R (List.mem_cons_of_mem _ hR) h1 h2) acc2
      (fun R hR => by
        have hne : R ≠ P := fun h => hnd.1 (h ▸ hR)
        have := hother R hne
        have hR2 := hacc R (List.mem_cons_of_mem _ hR)
        exact ⟨this.2.2.1.trans hR2.1, this.2.2.2.trans hR2.2⟩)
    refine ⟨res, ?_, ?_, ?_⟩
    · simp only [List.foldlM_cons, hs, Option.bind_eq_bind, Option.some_bind]
      exact hres
    · intro R hR
      rcases List.mem_cons.mp hR with rfl | hR2
      · have := hrest R hnd.1
        rw [this.1, this.2]
        exact hQ
      · exact hall R hR2
    · intro q hq
      have hq1 : q ≠ P := fun h => hq (h ▸ List.mem_cons_self _ _)
      have hq2 : q ∉ rest := fun h => hq (List.mem_cons_of_mem _ h)
      have h1 := hrest q hq2
      have h2 := hother q hq1
      exact ⟨h1.1.trans h2.1, h1.2.trans h2.2.1⟩

theorem ofHead_fold_ids (l : List FoilVariable) (vs : List FoilVariable)
    (h : vs.map FoilVariable.variable_id = (List.range vs.length).map Int.ofNat) :
    (l.foldl (fun vs v => if v.variable_id = (vs.length : Int) then vs ++ [v] else vs) vs).map
        FoilVariable.variable_id =
      (List.range (l.foldl
        (fun vs v => if v.variable_id = (vs.length : Int) then vs ++ [v] else vs)
        vs).length).map Int.ofNat := by
  induction l generalizing vs with
  | nil => exact h
  | cons v t ih =>
    simp only [List.foldl_cons]
    apply ih
    by_cases hv : v.variable_id = (vs.length : Int)
    · simp only [hv, if_true, List.map_append, List.map_cons, List.map_nil, List.length_append,
        List.length_singleton, List.range_succ, h]
      rfl
    · simp only [hv, if_false]
      exact h

theorem ofHead_vars_ids (head : FoilLiteral) :
    (FoilClause.ofHead head).vars.map FoilVariable.variable_id =
      (List.range (FoilClause.ofHead head).vars.length).map Int.ofNat :=
  ofHead_fold_ids head.vars [] rfl

theorem ids_nodup_of_range (vs : List FoilVariable)
    (h : vs.map FoilVariable.variable_id = (List.range vs.length).map Int.ofNat) :
    (vs.map FoilVariable.variable_id).Nodup ∧ ∀ v ∈ vs, 0 ≤ v.variable_id := by
  constructor
  · rw [h]
    exact (List.nodup_range _).map (fun a b hab => Int.ofNat.inj hab)
  · intro v hv
    have : v.variable_id ∈ vs.map FoilVariable.variable_id := List.mem_map_of_mem _ hv
    rw [h] at this
    obtain ⟨n, _, hn⟩ := List.mem_map.mp this
    rw [← hn]
    exact Int.ofNat_nonneg n

theorem candidate_eq_of_equals (vs : List FoilVariable)
    (hnd : (vs.map FoilVariable.variable_id).Nodup) (hb : ∀ v ∈ vs, 0 ≤ v.variable_id)
    (P : FoilPredicate) (a b : FoilLiteral) (ha : IsCandidateOver vs P a)
    (hbc : IsCandidateOver vs P b) (he : a.Equals b = true) : a = b := by
  cases a with
  | mk pa va =>
  cases b with
  | mk pb vb =>
  obtain ⟨hpa, hfa⟩ := ha
  obtain ⟨hpb, hfb⟩ := hbc
  simp only at hpa hpb hfa hfb
  subst hpa
  subst hpb
  simp only [FoilLiteral.Equals, decide_True, Bool.true_and, decide_eq_true_eq] at he
  simp only [FoilLiteral.mk.injEq, true_and]
  generalize pb.argument_types = ts at hfa hfb
  induction hfa generalizing vb with
  | nil =>
    cases hfb
    rfl
  | @cons t v ts2 va2 hv _ ih =>
    cases hfb with
    | @cons _ w _ vb2 hw hrest =>
      simp only [List.map_cons, List.cons.injEq] at he
      have hvw : v = w := by
        rcases hv with ⟨hvm, _⟩ | hvu
        · rcases hw with ⟨hwm, _⟩ | hwu
          · exact List.inj_on_of_nodup_map hnd hvm hwm he.1
          · have := hb v hvm
            rw [he.1, hwu] at this
            simp [FoilVariable.unbound] at this
        · rcases hw with ⟨hwm, _⟩ | hwu
          · have := hb w hwm
            rw [← he.1, hvu] at this
            simp [FoilVariable.unbound] at this
          · rw [hvu, hwu]
      rw [hvw, ih vb2 he.2 hrest]

theorem candidate_allUnbound_iff (vs : List FoilVariable) (hb : ∀ v ∈ vs, 0 ≤ v.variable_id)
    (P : FoilPredicate) (L : FoilLiteral) (hL : IsCandidateOver vs P L) :
    L.AreAllVariablesUnBound = true ↔ L = allUnboundLiteral P := by
  cases L with
  | mk p va =>
  obtain ⟨hp, hf⟩ := hL
  simp only at hp hf
  subst hp
  simp only [FoilLiteral.AreAllVariablesUnBound, allUnboundLiteral, FoilLiteral.mk.injEq,
    true_and]
  generalize p.argument_types = ts at hf
  induction hf with
  | nil => simp
  | @cons t v ts2 va2 hv _ ih =>
    simp only [List.all_cons, Bool.and_eq_true, List.map_cons, List.cons.injEq, ih]
    refine and_congr_left (fun _ => ?_)
    rcases hv with ⟨hvm, _⟩ | hvu
    · have h0 := hb v hvm
      constructor
      · intro h
        simp [FoilVariable.IsBound, h0] at h
      · intro h
        rw [h] at h0
        simp [FoilVariable.unbound] at h0
    · rw [hvu]
      simp [FoilVariable.IsBound, FoilVariable.unbound]

theorem generated_init_mem (vs : List FoilVariable) (hb : ∀ v ∈ vs, 0 ≤ v.variable_id)
    (P : FoilPredicate) (init : List FoilLiteral)
    (hm : ∀ L, L ∈ init ++ [allUnboundLiteral P] ↔ IsCandidateOver vs P L)
    (hn : (init ++ [allUnboundLiteral P]).Nodup) (L : FoilLiteral) :
    L ∈ init ↔ (IsCandidateOver vs P L ∧ L.AreAllVariablesUnBound = false) := by
  have hnot : allUnboundLiteral P ∉ init := by
    intro h
    have := List.disjoint_of_nodup_append hn h
    simp at this
  constructor
  · intro h
    have hc : IsCandidateOver vs P L := (hm L).mp (List.mem_append_left _ h)
    refine ⟨hc, ?_⟩
    cases hau : L.AreAllVariablesUnBound with
    | false => rfl
    | true =>
      have := (candidate_allUnbound_iff vs hb P L hc).mp hau
      exact absurd (this ▸ h) hnot
  · rintro ⟨hc, hau⟩
    rcases List.mem_append.mp ((hm L).mpr hc) with h | h
    · exact h
    · simp only [List.mem_singleton] at h
      have := (candidate_allUnbound_iff vs hb P L hc).mpr h
      rw [hau] at this
      exact absurd this (by simp)

theorem candidates_pairwise (vs : List FoilVariable)
    (hnd : (vs.map FoilVariable.variable_id).Nodup) (hb : ∀ v ∈ vs, 0 ≤ v.variable_id)
    (P : FoilPredicate) (l : List FoilLiteral) (hl : l.Nodup)
    (hc : ∀ L ∈ l, IsCandidateOver vs P L) :
    l.Pairwise (fun a b => a.Equals b = false) := by
  refine (List.Pairwise.and_mem.mp hl).imp ?_
  rintro a b ⟨ha, hbm, hab⟩
  cases he : a.Equals b with
  | false => rfl
  | true => exact absurd (candidate_eq_of_equals vs hnd hb P a b (hc a ha) (hc b hbm) he) hab

theorem fromScratchStep_spec (c : FoilClause)
    (hnd : (c.vars.map FoilVariable.variable_id).Nodup) (hb : ∀ v ∈ c.vars, 0 ≤ v.variable_id)
    (P : FoilPredicate) (hP : 0 < P.num_arguments)
    (acc : PredMap FoilLiteral × PredMap FoilLiteral)
    (h1 : acc.1.contains P = false) (h2 : acc.2.contains P = false) :
    ∃ acc2, fromScratchStep c acc P = some acc2 ∧
      ((∀ L, L ∈ acc2.1.lookup P ↔ (IsCandidateOver c.vars P L ∧
          L.AreAllVariablesUnBound = false ∧ L.Equals c.head_literal = false)) ∧
        (acc2.1.lookup P).Pairwise (fun a b => a.Equals b = false) ∧
        acc2.2.lookup P = acc2.1.lookup P) ∧
      (∀ q, q ≠ P → acc2.1.lookup q = acc.1.lookup q ∧ acc2.2.lookup q = acc.2.lookup q ∧
          acc2.1.contains q = acc.1.contains q ∧ acc2.2.contains q = acc.2.contains q) := by
  obtain ⟨init, hgen, hm, hn, _⟩ :=
    generateCandidateLiterals_spec c.vars (List.Nodup.of_map _ hnd) hb P hP
  have hinit := generated_init_mem c.vars hb P init hm hn
  have hinitn : init.Nodup := (List.nodup_append.mp hn).1
  have hl1 := predMap_lookup_of_not_contains acc.1 P h1
  have hl2 := predMap_lookup_of_not_contains acc.2 P h2
  unfold fromScratchStep
  simp only [hgen, List.dropLast_concat]
  by_cases hie : init.isEmpty = true
  · have hnil : init = [] := List.isEmpty_iff.mp hie
    simp only [hie, if_true]
    refine ⟨acc, rfl, ⟨?_, ?_, ?_⟩, fun q _ => ⟨rfl, rfl, rfl, rfl⟩⟩
    · intro L
      rw [hl1]
      have := hinit L
      rw [hnil] at this
      simp only [List.not_mem_nil, false_iff, not_and] at this ⊢
      intro hc hau
      exact absurd hau (by simpa using this hc)
    · rw [hl1]
      exact List.Pairwise.nil
    · rw [hl1, hl2]
  · simp only [hie, if_false]
    by_cases hph : P = c.head_literal.predicate
    · simp only [hph, ne_eq, not_true_eq_false, if_false]
      rw [← hph]
      refine ⟨_, rfl, ⟨?_, ?_, ?_⟩, ?_⟩
      · intro L
        simp only [predMap_lookup_append, if_true, hl1, List.nil_append, List.mem_filter,
          hinit L, Bool.not_eq_true', and_assoc]
      · simp only [predMap_lookup_append, if_true, hl1, List.nil_append]
        exact candidates_pairwise c.vars hnd hb P _ (hinitn.filter _)
          (fun L hL => ((hinit L).mp (List.mem_of_mem_filter hL)).1)
      · simp only [predMap_lookup_append, if_true, hl1, hl2, List.nil_append]
      · intro q hq
        have hpq : ¬ P = q := fun h => hq h.symm
        simp [predMap_lookup_append, predMap_contains_append, hq, hpq]
    · simp only [ne_eq, hph, not_false_eq_true, if_true]
      refine ⟨_, rfl, ⟨?_, ?_, ?_⟩, ?_⟩
      · intro L
        simp only [predMap_lookup_emplace acc.1 P P init h1, if_true, hinit L]
        constructor
        · rintro ⟨hc, hau⟩
          refine ⟨hc, hau, ?_⟩
          have hLP : L.predicate = P := hc.1
          simp [FoilLiteral.Equals, hLP, hph]
        · rintro ⟨hc, hau, _⟩
          exact ⟨hc, hau⟩
      · simp only [predMap_lookup_emplace acc.1 P P init h1, if_true]
        exact candidates_pairwise c.vars hnd hb P _ hinitn (fun L hL => ((hinit L).mp hL).1)
      · simp only [predMap_lookup_append, predMap_lookup_emplace acc.1 P P init h1, if_true,
          hl2, List.nil_append]
      · intro q hq
        have hpq : ¬ P = q := fun h => hq h.symm
        simp [predMap_lookup_append, predMap_contains_append,
          predMap_lookup_emplace acc.1 P q init h1, predMap_contains_emplace, hq, hpq]

/-- C4: for a clause with an empty body and no previous search stats, over distinct
background predicates of arity at least one, `EnumerateCandidateLiterals` returns, for
every background predicate `P`, exactly the literals of `P` whose argument at each
position is a clause variable of the type of the position or the unbound marker, except
the all-unbound literal and the literals equal to the head; no two of them are equal;
the pruned list is the entire list.  The helper `GenerateCandidateLiterals` returns the
full Cartesian product, without repetition, of size the product over the positions of the
number of candidate variables plus one, with the all-unbound literal last. -/
theorem enumerateCandidateLiterals_most_general (bg : List FoilPredicate) (head : FoilLiteral)
    (hbg : bg.Nodup) (harity : ∀ P ∈ bg, 0 < P.num_arguments) :
    ∃ entire pruned,
      EnumerateCandidateLiterals bg (FoilClause.ofHead head) LiteralSearchStats.none =
        some (entire, pruned) ∧
      ∀ P ∈ bg,
        (∀ L, L ∈ entire.lookup P ↔
          (IsCandidateOver (FoilClause.ofHead head).vars P L ∧
            L.AreAllVariablesUnBound = false ∧ L.Equals head = false)) ∧
        (entire.lookup P).Pairwise (fun a b => a.Equals b = false) ∧
        pruned.lookup P = entire.lookup P ∧
        ∃ init,
          GenerateCandidateLiterals 0
            (GenerateVariableVectorForPredicate false
              (variable_type_to_variable_map (FoilClause.ofHead head).vars) P [])
            [FoilLiteral.empty P] = some (init ++ [allUnboundLiteral P]) ∧
          (∀ L, L ∈ init ++ [allUnboundLiteral P] ↔
            IsCandidateOver (FoilClause.ofHead head).vars P L) ∧
          (init ++ [allUnboundLiteral P]).Nodup ∧
          (init ++ [allUnboundLiteral P]).length =
            productSize (FoilClause.ofHead head).vars P := by
  obtain ⟨hnd, hb⟩ := ids_nodup_of_range _ (ofHead_vars_ids head)
  obtain ⟨res, hres, hall, _⟩ := foldlM_predicates (fromScratchStep (FoilClause.ofHead head))
    (fun (P : FoilPredicate) (e p : List FoilLiteral) =>
      (∀ L, L ∈ e ↔ (IsCandidateOver (FoilClause.ofHead head).vars P L ∧
        L.AreAllVariablesUnBound = false ∧ L.Equals head = false)) ∧
      e.Pairwise (fun (a b : FoilLiteral) => a.Equals b = false) ∧ p = e)
    bg hbg
    (fun acc P hP h1 h2 =>
      fromScratchStep_spec (FoilClause.ofHead head) hnd hb P (harity P hP) acc h1 h2)
    ([], []) (fun P _ => ⟨rfl, rfl⟩)
  refine ⟨res.1, res.2, ?_, ?_⟩
  · have hbody : (FoilClause.ofHead head).body_literals.isEmpty = true := rfl
    unfold EnumerateCandidateLiterals
    rw [if_pos hbody]
    exact hres
  · intro P hP
    obtain ⟨hm, hp, he⟩ := hall P hP
    exact ⟨hm, hp, he,
      generateCandidateLiterals_spec _ (List.Nodup.of_map _ hnd) hb P (harity P hP)⟩

theorem enumerateCandidateLiterals_most_general_witness :
    [testPredicate0, testPredicate5].Nodup ∧
    (∀ P ∈ [testPredicate0, testPredicate5], 0 < P.num_arguments) ∧
    ∃ entire pruned,
      EnumerateCandidateLiterals [testPredicate0, testPredicate5]
          (FoilClause.ofHead ⟨testPredicate5, [⟨0, 0⟩, ⟨1, 0⟩]⟩) LiteralSearchStats.none =
        some (entire, pruned) ∧
      ∀ P ∈ [testPredicate0, testPredicate5],
        (∀ L, L ∈ entire.lookup P ↔
          (IsCandidateOver (FoilClause.ofHead ⟨testPredicate5, [⟨0, 0⟩, ⟨1, 0⟩]⟩).vars P L ∧
            L.AreAllVariablesUnBound = false ∧
            L.Equals ⟨testPredicate5, [⟨0, 0⟩, ⟨1, 0⟩]⟩ = false)) ∧
        (entire.lookup P).Pairwise (fun a b => a.Equals b = false) ∧
        pruned.lookup P = entire.lookup P ∧
        ∃ init,
          GenerateCandidateLiterals 0
            (GenerateVariableVectorForPredicate false
              (variable_type_to_variable_map
                (FoilClause.ofHead ⟨testPredicate5, [⟨0, 0⟩, ⟨1, 0⟩]⟩).vars) P [])
            [FoilLiteral.empty P] = some (init ++ [allUnboundLiteral P]) ∧
          (∀ L, L ∈ init ++ [allUnboundLiteral P] ↔
            IsCandidateOver (FoilClause.ofHead ⟨testPredicate5, [⟨0, 0⟩, ⟨1, 0⟩]⟩).vars P L) ∧
          (init ++ [allUnboundLiteral P]).Nodup ∧
          (init ++ [allUnboundLiteral P]).length =
            productSize (FoilClause.ofHead ⟨testPredicate5, [⟨0, 0⟩, ⟨1, 0⟩]⟩).vars P :=
  ⟨by decide, by decide,
    enumerateCandidateLiterals_most_general [testPredicate0, testPredicate5]
      ⟨testPredicate5, [⟨0, 0⟩, ⟨1, 0⟩]⟩ (by decide) (by decide)⟩

/-! ## The enumerator along the extensions of a clause -/

theorem bindFresh_spec (l : List FoilVariable) (vars acc : List FoilVariable) :
    ∃ nv bl, FoilClause.bindFresh l vars acc = (vars ++ nv, acc ++ bl) ∧
      nv.map FoilVariable.variable_id = (List.range' vars.length nv.length).map Int.ofNat ∧
      bl.length = l.length ∧
      (∀ m : Nat, m ≤ vars.length → (∀ v ∈ l, v.variable_id < (m : Int)) →
        bl.filter (fun v => decide (v.variable_id ≥ (m : Int))) = nv ∧
        (∀ v ∈ bl, 0 ≤ v.variable_id ∧ v.variable_id < ((vars.length + nv.length : Nat) : Int)) ∧
        ∀ ids : List Int, (∀ x ∈ ids, x < (m : Int)) →
          (bl.map FoilVariable.variable_id = ids ↔
            (l.all FoilVariable.IsBound = true ∧ l.map FoilVariable.variable_id = ids))) := by
  induction l generalizing vars acc with
  | nil =>
    refine ⟨[], [], by simp [FoilClause.bindFresh], by simp, rfl, ?_⟩
    intro m _ _
    simp
  | cons v rest ih =>
    by_cases hv : v.IsBound = true
    · obtain ⟨nv, bl, hbf, hnv, hlen, hrest⟩ := ih vars (acc ++ [v])
      refine ⟨nv, v :: bl, ?_, hnv, by simp [hlen], ?_⟩
      · simp [FoilClause.bindFresh, hv, hbf]
      · intro m hm hlt
        obtain ⟨hf, hbd, hids⟩ := hrest m hm (fun w hw => hlt w (List.mem_cons_of_mem _ hw))
        have hvm : v.variable_id < (m : Int) := hlt v (List.mem_cons_self _ _)
        have hv0 : 0 ≤ v.variable_id := by simpa [FoilVariable.IsBound] using hv
        refine ⟨?_, ?_, ?_⟩
        · rw [List.filter_cons]
          have : ¬ (v.variable_id ≥ (m : Int)) := not_le.mpr hvm
          simp only [this, decide_False, Bool.false_eq_true, if_false]
          exact hf
        · intro w hw
          rcases List.mem_cons.mp hw with rfl | hw
          · refine ⟨hv0, ?_⟩
            have : (m : Int) ≤ ((vars.length + nv.length : Nat) : Int) := by
              exact_mod_cast Nat.le_trans hm (Nat.le_add_right _ _)
            omega
          · exact hbd w hw
        · intro ids hx
          cases ids with
          | nil => simp
          | cons x xs =>
            have := hids xs (fun y hy => hx y (List.mem_cons_of_mem _ hy))
            simp only [List.map_cons, List.cons.injEq, List.all_cons, Bool.and_eq_true, hv,
              true_and, this]
            tauto
    · obtain ⟨nv, bl, hbf, hnv, hlen, hrest⟩ :=
        ih (vars ++ [⟨(vars.length : Int), v.variable_type_id⟩])
          (acc ++ [⟨(vars.length : Int), v.variable_type_id⟩])
      refine ⟨⟨(vars.length : Int), v.variable_type_id⟩ :: nv,
        ⟨(vars.length : Int), v.variable_type_id⟩ :: bl, ?_, ?_, by simp [hlen], ?_⟩
      · simp [FoilClause.bindFresh, hv, hbf]
      · simp only [List.map_cons, List.length_cons, List.range'_succ, hnv, List.length_append,
          List.length_singleton]
        rfl
      · intro m hm hlt
        obtain ⟨hf, hbd, hids⟩ := hrest m
          (by simp only [List.length_append, List.length_singleton]; omega)
          (fun w hw => hlt w (List.mem_cons_of_mem _ hw))
        refine ⟨?_, ?_, ?_⟩
        · rw [List.filter_cons]
          have : ((vars.length : Int) ≥ (m : Int)) := by exact_mod_cast hm
          simp only [this, decide_True, if_true, hf]
        · intro w hw
          simp only [List.length_append, List.length_singleton, List.length_cons, List.length_nil] at hbd ⊢
          rcases List.mem_cons.mp hw with rfl | hw
          · simp only
            constructor
            · exact Int.ofNat_nonneg _
            · push_cast
              omega
          · have := hbd w hw
            refine ⟨this.1, ?_⟩
            have h2 := this.2
            push_cast at h2 ⊢
            omega
        · intro ids hx
          cases ids with
          | nil => simp
          | cons x xs =>
            have hxm : x < (m : Int) := hx x (List.mem_cons_self _ _)
            have hmv : (m : Int) ≤ (vars.length : Int) := by exact_mod_cast hm
            have hne : ¬ ((vars.length : Int) = x) := by omega
            simp [hv, hne]

theorem extendCandidates_singleton (bv : FoilVariable) (cands : List FoilLiteral) :
    extendCandidates [bv] cands = some (cands.map (fun l => l.AddVariable bv)) := by
  simp [extendCandidates]

theorem fromAnother_fold (old : FoilLiteral) (vpa : List (List FoilVariable))
    (hlen : old.vars.length = vpa.length) (n k : Nat) (hk : k + n = vpa.length)
    (cands : List FoilLiteral) :
    (List.range' k n).foldlM (fromAnotherStep old vpa) cands =
      (List.zipWith (fun (bv : FoilVariable) (cv : List FoilVariable) =>
          if bv.IsBound then [bv] else cv) (old.vars.drop k) (vpa.drop k)).foldlM
        (fun c cv => extendCandidates cv c) cands := by
  induction n generalizing k cands with
  | zero =>
    have : vpa.drop k = [] := List.drop_eq_nil_of_le (by omega)
    simp [this]
  | succ n ih =>
    have hkv : k < vpa.length := by omega
    have hko : k < old.vars.length := by omega
    rw [List.drop_eq_getElem_cons hkv, List.drop_eq_getElem_cons hko]
    simp only [List.range'_succ, List.foldlM_cons, List.zipWith_cons_cons]
    have hstep : fromAnotherStep old vpa cands k =
        extendCandidates (if (old.vars[k]).IsBound then [old.vars[k]] else vpa[k]) cands := by
      unfold fromAnotherStep
      simp only [List.get?_eq_getElem?, List.getElem?_eq_getElem hko,
        List.getElem?_eq_getElem hkv]
      by_cases hb : (old.vars[k]).IsBound = true
      · simp only [hb, if_true]
        exact (extendCandidates_singleton _ _).symm
      · simp only [hb, Bool.false_eq_true, if_false]
    rw [hstep]
    congr 1
    funext c
    exact ih (k + 1) (by omega) c

theorem restrict_pointwise (cvars nvs : List FoilVariable) (m : Nat)
    (hc : ∀ v ∈ cvars, 0 ≤ v.variable_id ∧ v.variable_id < (m : Int))
    (hn : ∀ v ∈ nvs, (m : Int) ≤ v.variable_id) (t : Int) (o v : FoilVariable)
    (ho : (o ∈ cvars ∧ o.variable_type_id = t) ∨ o = FoilVariable.unbound t) :
    v ∈ (if o.IsBound then [o]
        else variable_type_to_variable_map nvs t ++ [FoilVariable.unbound t]) ↔
      (((v ∈ cvars ++ nvs ∧ v.variable_type_id = t) ∨ v = FoilVariable.unbound t) ∧
        (if (m : Int) ≤ v.variable_id then FoilVariable.unbound v.variable_type_id else v) = o) := by
  rcases ho with ⟨hom, hot⟩ | hou
  · have ho1 := hc o hom
    have hob : o.IsBound = true := by simp [FoilVariable.IsBound, ho1.1]
    simp only [hob, if_true, List.mem_singleton]
    constructor
    · rintro rfl
      refine ⟨Or.inl ⟨List.mem_append_left _ hom, hot⟩, ?_⟩
      have : ¬ ((m : Int) ≤ v.variable_id) := by omega
      simp [this]
    · rintro ⟨_, hρ⟩
      by_cases hmv : (m : Int) ≤ v.variable_id
      · simp only [hmv, if_true] at hρ
        rw [← hρ] at ho1
        simp [FoilVariable.unbound] at ho1
      · simp only [hmv, if_false] at hρ
        exact hρ
  · subst hou
    have hob : (FoilVariable.unbound t).IsBound = false := by
      simp [FoilVariable.IsBound, FoilVariable.unbound]
    simp only [hob, Bool.false_eq_true, if_false, mem_candidate_variables]
    constructor
    · rintro (⟨hvm, hvt⟩ | hvu)
      · refine ⟨Or.inl ⟨List.mem_append_right _ hvm, hvt⟩, ?_⟩
        simp [hn v hvm, hvt]
      · subst hvu
        refine ⟨Or.inr rfl, ?_⟩
        have : ¬ ((m : Int) ≤ (FoilVariable.unbound t).variable_id) := by
          simp only [FoilVariable.unbound]
          omega
        simp [this]
    · rintro ⟨hcand, hρ⟩
      by_cases hmv : (m : Int) ≤ v.variable_id
      · rcases hcand with ⟨hvm, hvt⟩ | hvu
        · rcases List.mem_append.mp hvm with h1 | h2
          · have := (hc v h1).2
            omega
          · exact Or.inl ⟨h2, hvt⟩
        · exact Or.inr hvu
      · simp only [hmv, if_false] at hρ
        exact Or.inr hρ

theorem restrict_forall₂ (cvars nvs : List FoilVariable) (m : Nat)
    (hc : ∀ v ∈ cvars, 0 ≤ v.variable_id ∧ v.variable_id < (m : Int))
    (hn : ∀ v ∈ nvs, (m : Int) ≤ v.variable_id) (ts : List Int) (os : List FoilVariable)
    (ho : List.Forall₂ (fun t o => (o ∈ cvars ∧ o.variable_type_id = t) ∨
      o = FoilVariable.unbound t) ts os) (vs : List FoilVariable) :
    List.Forall₂ (fun cv v => v ∈ cv)
        (List.zipWith (fun (bv : FoilVariable) (cv : List FoilVariable) =>
          if bv.IsBound then [bv] else cv) os
          (ts.map (fun t => variable_type_to_variable_map nvs t ++ [FoilVariable.unbound t])))
        vs ↔
      (List.Forall₂ (fun t v => (v ∈ cvars ++ nvs ∧ v.variable_type_id = t) ∨
          v = FoilVariable.unbound t) ts vs ∧
        vs.map (fun v => if (m : Int) ≤ v.variable_id
          then FoilVariable.unbound v.variable_type_id else v) = os) := by
  induction ho generalizing vs with
  | nil =>
    simp only [List.map_nil, List.zipWith_nil_left, List.forall₂_nil_left_iff]
    constructor
    · rintro rfl
      simp
    · rintro ⟨h, _⟩
      exact h
  | @cons t o ts2 os2 hto _ ih =>
    cases vs with
    | nil => simp
    | cons v vs2 =>
      simp only [List.map_cons, List.zipWith_cons_cons, List.forall₂_cons, List.cons.injEq,
        ih vs2, restrict_pointwise cvars nvs m hc hn t o v hto]
      tauto

theorem zipWith_candidates (cvars nvs : List FoilVariable) (hnn : nvs.Nodup)
    (hnb : ∀ v ∈ nvs, 0 ≤ v.variable_id) (hcb : ∀ v ∈ cvars, 0 ≤ v.variable_id)
    (ts : List Int) (os : List FoilVariable)
    (ho : List.Forall₂ (fun t o => (o ∈ cvars ∧ o.variable_type_id = t) ∨
      o = FoilVariable.unbound t) ts os) :
    (∀ cv ∈ List.zipWith (fun (bv : FoilVariable) (cv : List FoilVariable) =>
          if bv.IsBound then [bv] else cv) os
          (ts.map (fun t => variable_type_to_variable_map nvs t ++ [FoilVariable.unbound t])),
        cv ≠ [] ∧ cv.Nodup) ∧
      List.Forall₂ (fun cv u => ∃ xs, cv = xs ++ [u])
        (List.zipWith (fun (bv : FoilVariable) (cv : List FoilVariable) =>
          if bv.IsBound then [bv] else cv) os
          (ts.map (fun t => variable_type_to_variable_map nvs t ++ [FoilVariable.unbound t])))
        os := by
  induction ho with
  | nil => simp
  | @cons t o ts2 os2 hto _ ih =>
    simp only [List.map_cons, List.zipWith_cons_cons, List.mem_cons, forall_eq_or_imp,
      List.forall₂_cons]
    refine ⟨⟨?_, ih.1⟩, ?_, ih.2⟩
    · by_cases hb : o.IsBound = true
      · simp [hb]
      · simp only [hb, Bool.false_eq_true, if_false]
        exact ⟨by simp, candidate_variables_nodup nvs hnn hnb t⟩
    · by_cases hb : o.IsBound = true
      · simp only [hb, if_true]
        exact ⟨[], rfl⟩
      · simp only [hb, Bool.false_eq_true, if_false]
        rcases hto with ⟨h1, _⟩ | hou
        · exact absurd (by simp [FoilVariable.IsBound, hcb o h1]) hb
        · exact ⟨_, by rw [hou]⟩

theorem fromAnother_spec (cvars nvs : List FoilVariable) (m : Nat)
    (hc : ∀ v ∈ cvars, 0 ≤ v.variable_id ∧ v.variable_id < (m : Int))
    (hn : ∀ v ∈ nvs, (m : Int) ≤ v.variable_id) (hnn : nvs.Nodup)
    (P : FoilPredicate) (hP : 0 < P.num_arguments) (old : FoilLiteral)
    (hold : IsCandidateOver cvars P old) :
    ∃ r, GenerateCandidateLiteralsFromAnother old 0
        (GenerateVariableVectorForPredicate false (variable_type_to_variable_map nvs) P [])
        [FoilLiteral.empty P] = some (r ++ [old]) ∧
      (r ++ [old]).Nodup ∧
      ∀ L, L ∈ r ++ [old] ↔ (IsCandidateOver (cvars ++ nvs) P L ∧ restrictTo m L = old) := by
  have hvpa : GenerateVariableVectorForPredicate false (variable_type_to_variable_map nvs) P [] =
      P.argument_types.map
        (fun t => variable_type_to_variable_map nvs t ++ [FoilVariable.unbound t]) := by
    simp [GenerateVariableVectorForPredicate]
  obtain ⟨hop, hof⟩ := hold
  have hnb : ∀ v ∈ nvs, 0 ≤ v.variable_id := fun v hv => by
    have := hn v hv
    omega
  obtain ⟨hz1, hz2⟩ := zipWith_candidates cvars nvs hnn hnb (fun v hv => (hc v hv).1)
    P.argument_types old.vars hof
  obtain ⟨r0, hr0, hm0, hn0, _⟩ := generate_fold _ (fun cv hcv => (hz1 cv hcv).1)
    [FoilLiteral.empty P]
  obtain ⟨r, hr⟩ := generate_fold_last _ _ hz2 [] (FoilLiteral.empty P)
  have hlast : (⟨(FoilLiteral.empty P).predicate, (FoilLiteral.empty P).vars ++ old.vars⟩ :
      FoilLiteral) = old := by
    cases old
    simp only [FoilLiteral.empty, List.nil_append, FoilLiteral.mk.injEq, and_true]
    exact hop.symm
  rw [hlast] at hr
  simp only [List.nil_append] at hr
  have hr0r : r0 = r ++ [old] := by
    have := hr0.symm.trans hr
    simpa using this
  subst hr0r
  have hlen : old.vars.length = (P.argument_types.map
      (fun t => variable_type_to_variable_map nvs t ++ [FoilVariable.unbound t])).length := by
    rw [List.length_map]
    exact hof.length_eq.symm
  refine ⟨r, ?_, ?_, ?_⟩
  · rw [hvpa]
    unfold GenerateCandidateLiteralsFromAnother
    have hpos : 0 < (P.argument_types.map
        (fun t => variable_type_to_variable_map nvs t ++ [FoilVariable.unbound t])).length := by
      rw [List.length_map]
      exact hP
    rw [if_pos hpos, Nat.sub_zero, fromAnother_fold old _ hlen _ 0 (by omega)]
    simp only [List.drop_zero]
    exact hr0
  · exact hn0 (List.nodup_singleton _) (fun cv hcv => (hz1 cv hcv).2)
  · intro L
    rw [hm0]
    simp only [List.mem_singleton, exists_eq_left, FoilLiteral.empty, List.nil_append,
      restrict_forall₂ cvars nvs m hc hn P.argument_types old.vars hof]
    constructor
    · rintro ⟨vs, ⟨hf, hρ⟩, rfl⟩
      refine ⟨⟨rfl, hf⟩, ?_⟩
      cases old
      simp only [restrictTo, FoilLiteral.mk.injEq]
      exact ⟨hop.symm, hρ⟩
    · rintro ⟨⟨hLp, hf⟩, hρ⟩
      refine ⟨L.vars, ⟨hf, ?_⟩, ?_⟩
      · rw [← hρ]
        rfl
      · cases L
        simp only [FoilLiteral.mk.injEq, and_true]
        exact hLp

theorem candidate_new_iff (cvars nvs : List FoilVariable) (m : Nat)
    (hc : ∀ v ∈ cvars, 0 ≤ v.variable_id ∧ v.variable_id < (m : Int))
    (hn : ∀ v ∈ nvs, (m : Int) ≤ v.variable_id) (P : FoilPredicate) (L : FoilLiteral) :
    IsCandidateOver nvs P L ↔
      (IsCandidateOver (cvars ++ nvs) P L ∧ restrictTo m L = allUnboundLiteral P) := by
  cases L with
  | mk p vs =>
  simp only [IsCandidateOver, restrictTo, allUnboundLiteral, FoilLiteral.mk.injEq]
  have key : ∀ (ts : List Int) (vs : List FoilVariable),
      List.Forall₂ (fun t v => (v ∈ nvs ∧ v.variable_type_id = t) ∨
          v = FoilVariable.unbound t) ts vs ↔
        (List.Forall₂ (fun t v => (v ∈ cvars ++ nvs ∧ v.variable_type_id = t) ∨
          v = FoilVariable.unbound t) ts vs ∧
        vs.map (fun v => if (m : Int) ≤ v.variable_id
          then FoilVariable.unbound v.variable_type_id else v) =
            ts.map FoilVariable.unbound) := by
    intro ts
    induction ts with
    | nil =>
      intro vs
      simp only [List.forall₂_nil_left_iff, List.map_nil]
      constructor
      · rintro rfl
        simp
      · rintro ⟨h, _⟩
        exact h
    | cons t ts2 ih =>
      intro vs
      cases vs with
      | nil => simp
      | cons v vs2 =>
        have hp := restrict_pointwise cvars nvs m hc hn t (FoilVariable.unbound t) v (Or.inr rfl)
        have hub : (FoilVariable.unbound t).IsBound = false := by
          simp [FoilVariable.IsBound, FoilVariable.unbound]
        simp only [hub, Bool.false_eq_true, if_false, mem_candidate_variables] at hp
        simp only [List.forall₂_cons, List.map_cons, List.cons.injEq, ih vs2, hp]
        tauto
  constructor
  · rintro ⟨hp, hf⟩
    have := (key _ _).mp hf
    exact ⟨⟨hp, this.1⟩, hp, this.2⟩
  · rintro ⟨⟨hp, hf⟩, _, hρ⟩
    exact ⟨hp, (key _ _).mpr ⟨hf, hρ⟩⟩

theorem extendOldLiterals_spec (cvars nvs : List FoilVariable) (m : Nat)
    (hc : ∀ v ∈ cvars, 0 ≤ v.variable_id ∧ v.variable_id < (m : Int))
    (hn : ∀ v ∈ nvs, (m : Int) ≤ v.variable_id) (hnn : nvs.Nodup)
    (P : FoilPredicate) (hP : 0 < P.num_arguments) (lb : FoilLiteral)
    (kept : List FoilLiteral) (hk : kept.Nodup)
    (hkc : ∀ old ∈ kept, IsCandidateOver cvars P old) :
    ∃ additions,
      (∀ vec, List.foldlM (fun (vec : List FoilLiteral) old_literal =>
        match GenerateCandidateLiteralsFromAnother old_literal 0
            (GenerateVariableVectorForPredicate false (variable_type_to_variable_map nvs) P [])
            [FoilLiteral.empty P] with
        | none => none
        | some new_extended =>
          some (vec ++ new_extended.dropLast ++
            (if lb.Equals old_literal then [] else [old_literal]))) vec kept =
        some (vec ++ additions)) ∧
      additions.Nodup ∧
      ∀ L, L ∈ additions ↔ (IsCandidateOver (cvars ++ nvs) P L ∧ restrictTo m L ∈ kept ∧
        (L ≠ restrictTo m L ∨ lb.Equals L = false)) := by
  induction kept with
  | nil =>
    refine ⟨[], fun vec => by simp, List.nodup_nil, ?_⟩
    intro L
    simp
  | cons old rest ih =>
    have hnd := List.nodup_cons.mp hk
    obtain ⟨add, hadd, haddn, haddm⟩ := ih hnd.2 (fun o ho => hkc o (List.mem_cons_of_mem _ ho))
    obtain ⟨r, hr, hrn, hrm⟩ := fromAnother_spec cvars nvs m hc hn hnn P hP old
      (hkc old (List.mem_cons_self _ _))
    have hold_notin : old ∉ r := by
      intro h
      have := List.disjoint_of_nodup_append hrn h
      simp at this
    have hrmem : ∀ L, L ∈ r ↔ (IsCandidateOver (cvars ++ nvs) P L ∧ restrictTo m L = old ∧
        L ≠ old) := by
      intro L
      constructor
      · intro h
        have := (hrm L).mp (List.mem_append_left _ h)
        exact ⟨this.1, this.2, fun he => hold_notin (he ▸ h)⟩
      · rintro ⟨h1, h2, h3⟩
        rcases List.mem_append.mp ((hrm L).mpr ⟨h1, h2⟩) with h | h
        · exact h
        · exact absurd (List.mem_singleton.mp h) h3
    have holdself : IsCandidateOver (cvars ++ nvs) P old ∧ restrictTo m old = old :=
      (hrm old).mp (List.mem_append_right _ (List.mem_singleton_self _))
    have hcm : ∀ L, L ∈ r ++ (if lb.Equals old = true then [] else [old]) ↔
        (IsCandidateOver (cvars ++ nvs) P L ∧ restrictTo m L = old ∧
          (L ≠ restrictTo m L ∨ lb.Equals L = false)) := by
      intro L
      rw [List.mem_append, hrmem]
      constructor
      · rintro (⟨h1, h2, h3⟩ | h)
        · exact ⟨h1, h2, Or.inl (by rw [h2]; exact h3)⟩
        · by_cases he : lb.Equals old = true
          · simp [he] at h
          · rw [if_neg he] at h
            have hL := List.mem_singleton.mp h
            rw [hL]
            exact ⟨holdself.1, holdself.2, Or.inr (by simpa using he)⟩
      · rintro ⟨h1, h2, h3⟩
        by_cases hL : L = old
        · rcases h3 with h3 | h3
          · exact absurd (hL.trans h2.symm) h3
          · right
            rw [hL] at h3
            simp [h3, hL]
        · exact Or.inl ⟨h1, h2, hL⟩
    refine ⟨(r ++ (if lb.Equals old = true then [] else [old])) ++ add, ?_, ?_, ?_⟩
    · intro vec
      simp only [List.foldlM_cons, hr, List.dropLast_concat, Option.bind_eq_bind,
        Option.some_bind]
      rw [hadd]
      simp [List.append_assoc]
    · rw [List.nodup_append]
      refine ⟨?_, haddn, ?_⟩
      · rw [List.nodup_append]
        refine ⟨(List.nodup_append.mp hrn).1, ?_, ?_⟩
        · by_cases he : lb.Equals old = true <;> simp [he]
        · intro a ha hb
          by_cases he : lb.Equals old = true
          · simp [he] at hb
          · rw [if_neg he] at hb
            exact hold_notin (List.mem_singleton.mp hb ▸ ha)
      · intro a ha hb
        have h1 := (hcm a).mp ha
        have h2 := (haddm a).mp hb
        rw [h1.2.1] at h2
        exact hnd.1 h2.2.1
    · intro L
      rw [List.mem_append, hcm, haddm]
      simp only [List.mem_cons]
      constructor
      · rintro (⟨h1, h2, h3⟩ | ⟨h1, h2, h3⟩)
        · exact ⟨h1, Or.inl h2, h3⟩
        · exact ⟨h1, Or.inr h2, h3⟩
      · rintro ⟨h1, h2 | h2, h3⟩
        · exact Or.inl ⟨h1, h2, h3⟩
        · exact Or.inr ⟨h1, h2, h3⟩

theorem generateAndPrune_spec (c2 : FoilClause) (stats : LiteralSearchStats)
    (cvars nvs : List FoilVariable) (m : Nat)
    (hc : ∀ v ∈ cvars, 0 ≤ v.variable_id ∧ v.variable_id < (m : Int))
    (hn : ∀ v ∈ nvs, (m : Int) ≤ v.variable_id) (hnn : nvs.Nodup)
    (P : FoilPredicate) (hP : 0 < P.num_arguments) (hkey : P.key < 0)
    (lb : FoilLiteral) (hlb : c2.body_literals.getLast? = some lb)
    (Gp : PredMap FoilLiteral) (hG : stats.generated_candidate_literals = some Gp)
    (hGn : (Gp.lookup P).Nodup)
    (hGc : ∀ old ∈ Gp.lookup P, IsCandidateOver cvars P old ∧
      old.AreAllVariablesUnBound = false)
    (p2b : List (Int × List FoilLiteral))
    (htotal : (p2b.find? (fun e => decide (e.1 = P.id))).isSome = true →
      ∀ vec, (∀ L ∈ vec, IsCandidateOver (cvars ++ nvs) P L) →
        ∃ k, pruneDuplicates c2 p2b vec = some k)
    (acc : PredMap FoilLiteral × PredMap FoilLiteral)
    (h1 : acc.1.contains P = false) :
    ∃ acc2, GenerateAndPruneCandidateLiteralForPredicate (decide (P.key ≥ 0)) c2 stats P
        (variable_type_to_variable_map nvs) p2b acc = some acc2 ∧
      ((acc2.1.lookup P).Nodup ∧
        ∀ L, L ∈ acc2.1.lookup P ↔ (IsCandidateOver (cvars ++ nvs) P L ∧
          ((restrictTo m L = allUnboundLiteral P ∧ L.AreAllVariablesUnBound = false) ∨
            (restrictTo m L ∈ keptLiterals stats P (Gp.lookup P) ∧
              (L ≠ restrictTo m L ∨ lb.Equals L = false))))) ∧
      (∀ q, q ≠ P → acc2.1.lookup q = acc.1.lookup q ∧ acc2.2.lookup q = acc.2.lookup q ∧
          acc2.1.contains q = acc.1.contains q ∧ acc2.2.contains q = acc.2.contains q) := by
  have hnb : ∀ v ∈ nvs, 0 ≤ v.variable_id := fun v hv => by
    have := hn v hv
    omega
  obtain ⟨init, hgen, hm, hnd, _⟩ := generateCandidateLiterals_spec nvs hnn hnb P hP
  have hinit := generated_init_mem nvs hnb P init hm hnd
  have hinitn : init.Nodup := (List.nodup_append.mp hnd).1
  have hksub : (keptLiterals stats P (Gp.lookup P)).Sublist (Gp.lookup P) := by
    unfold keptLiterals
    have h := (List.filter_sublist (Gp.lookup P).enum
      (p := fun e : Nat × FoilLiteral =>
        !(stats.pruned_literals_by_covered_results.contains (P, e.1)))).map Prod.snd
    rwa [List.enum_map_snd] at h
  have hkn : (keptLiterals stats P (Gp.lookup P)).Nodup := hGn.sublist hksub
  have hkc : ∀ old ∈ keptLiterals stats P (Gp.lookup P), IsCandidateOver cvars P old :=
    fun old ho => (hGc old (hksub.subset ho)).1
  obtain ⟨add, hadd, haddn, haddm⟩ := extendOldLiterals_spec cvars nvs m hc hn hnn P hP lb
    (keptLiterals stats P (Gp.lookup P)) hkn hkc
  have hext : extendOldLiterals lb P
      (GenerateVariableVectorForPredicate false (variable_type_to_variable_map nvs) P [])
      (keptLiterals stats P (Gp.lookup P)) = some add := by
    unfold extendOldLiterals
    have := hadd []
    simpa using this
  have hl1 := predMap_lookup_of_not_contains acc.1 P h1
  have hlook : ((acc.1.emplace P init).append P add).lookup P = init ++ add := by
    rw [predMap_lookup_append, predMap_lookup_emplace acc.1 P P init h1]
    simp
  have hcand : ∀ L ∈ init ++ add, IsCandidateOver (cvars ++ nvs) P L := by
    intro L hL
    rcases List.mem_append.mp hL with h | h
    · exact ((candidate_new_iff cvars nvs m hc hn P L).mp ((hinit L).mp h).1).1
    · exact ((haddm L).mp h).1
  have hkeyb : decide (P.key ≥ 0) = false := by
    simp only [decide_eq_false_iff_not, not_le]
    exact hkey
  have hQ : (init ++ add).Nodup ∧
      ∀ L, L ∈ init ++ add ↔ (IsCandidateOver (cvars ++ nvs) P L ∧
          ((restrictTo m L = allUnboundLiteral P ∧ L.AreAllVariablesUnBound = false) ∨
            (restrictTo m L ∈ keptLiterals stats P (Gp.lookup P) ∧
              (L ≠ restrictTo m L ∨ lb.Equals L = false)))) := by
    constructor
    · rw [List.nodup_append]
      refine ⟨hinitn, haddn, ?_⟩
      intro a ha hb
      have ha1 := (candidate_new_iff cvars nvs m hc hn P a).mp ((hinit a).mp ha).1
      have hb1 := (haddm a).mp hb
      rw [ha1.2] at hb1
      have hau := (hGc _ (hksub.subset hb1.2.1)).2
      simp [allUnboundLiteral, FoilLiteral.AreAllVariablesUnBound, FoilVariable.IsBound,
        FoilVariable.unbound] at hau
    · intro L
      rw [List.mem_append, hinit, haddm, candidate_new_iff cvars nvs m hc hn P L]
      tauto
  have hothers : ∀ (x : List FoilLiteral) (q : FoilPredicate), q ≠ P →
      ((acc.1.emplace P init).append P add).lookup q = acc.1.lookup q ∧
      (acc.2.append P x).lookup q = acc.2.lookup q ∧
      ((acc.1.emplace P init).append P add).contains q = acc.1.contains q ∧
      (acc.2.append P x).contains q = acc.2.contains q := by
    intro x q hq
    have hpq : ¬ P = q := fun h => hq h.symm
    simp [predMap_lookup_append, predMap_contains_append,
      predMap_lookup_emplace acc.1 P q init h1, predMap_contains_emplace, hq, hpq]
  unfold GenerateAndPruneCandidateLiteralForPredicate
  simp only [hkeyb, keyVariables, Bool.false_eq_true, if_false, Bool.false_and, hgen,
    List.dropLast_concat, hG, hlb, hext, hlook]
  cases hfind : Option.map Prod.snd
      (List.find? (fun e => decide (e.1 = P.id)) p2b) with
  | none =>
    refine ⟨_, rfl, ?_, hothers _⟩
    simp only [hlook]
    exact hQ
  | some ls =>
    have hsome : (p2b.find? (fun e => decide (e.1 = P.id))).isSome = true := by
      cases hf2 : p2b.find? (fun e => decide (e.1 = P.id)) with
      | none => simp [hf2] at hfind
      | some _ => rfl
    obtain ⟨k, hk⟩ := htotal hsome (init ++ add) hcand
    simp only [hk]
    refine ⟨_, rfl, ?_, hothers _⟩
    simp only [hlook]
    exact hQ

/-! ### The replaceable-duplicate check is defined on well-formed clauses -/

theorem rowGet_some (row : List Int) (id : Int) (h0 : 0 ≤ id) (h1 : id < (row.length : Int)) :
    ∃ y, rowGet row id = some y := by
  unfold rowGet
  have hlt : id.toNat < row.length := by omega
  have : ¬ id < 0 := by omega
  simp only [this, if_false, List.get?_eq_getElem?]
  exact ⟨row[id.toNat], List.getElem?_eq_getElem hlt⟩

theorem rowSet_some (row : List Int) (id x : Int) (h0 : 0 ≤ id) (h1 : id < (row.length : Int)) :
    ∃ r, rowSet row id x = some r ∧ r.length = row.length := by
  unfold rowSet
  have hlt : id.toNat < row.length := by omega
  have : ¬ id < 0 := by omega
  simp only [this, if_false, hlt, if_true]
  exact ⟨_, rfl, by simp⟩

theorem rowMatches_total (cb : Bool) (lit : FoilLiteral) (jrow : List Int)
    (hv : ∀ v ∈ lit.vars, (cb = true ∧ v.IsBound = false) ∨
      (0 ≤ v.variable_id ∧ v.variable_id < (jrow.length : Int)))
    (l : List (Nat × Int)) (hl : ∀ e ∈ l, e.1 < lit.vars.length) :
    ∃ b, rowMatches cb lit jrow l = some b := by
  induction l with
  | nil => exact ⟨true, rfl⟩
  | cons e rest ih =>
    obtain ⟨i, x⟩ := e
    have hi : i < lit.vars.length := hl (i, x) (List.mem_cons_self _ _)
    have ih2 := ih (fun e he => hl e (List.mem_cons_of_mem _ he))
    unfold rowMatches
    simp only [List.get?_eq_getElem?, List.getElem?_eq_getElem hi]
    rcases hv _ (List.getElem_mem hi) with ⟨hcb, hub⟩ | ⟨h0, h1⟩
    · simp only [hcb, hub, Bool.not_false, Bool.and_self, if_true]
      rw [hcb] at ih2
      exact ih2
    · have hbd : (lit.vars[i]).IsBound = true := by simp [FoilVariable.IsBound, h0]
      obtain ⟨y, hy⟩ := rowGet_some jrow _ h0 h1
      simp only [hbd, Bool.not_true, Bool.and_false, Bool.false_eq_true, if_false, hy]
      by_cases hc : y ≠ -1 ∧ y ≠ x
      · exact ⟨false, by simp only [hc, ne_eq, not_false_eq_true, and_self, if_true]⟩
      · simp only [hc, if_false]
        exact ih2

theorem extendRow_total (lit : FoilLiteral) (n : Nat)
    (hv : ∀ v ∈ lit.vars, 0 ≤ v.variable_id ∧ v.variable_id < (n : Int))
    (l : List (Nat × Int)) (hl : ∀ e ∈ l, e.1 < lit.vars.length)
    (new_row : List Int) (hn : new_row.length = n) :
    ∃ r, extendRow lit new_row l = some r ∧ r.length = n := by
  induction l generalizing new_row with
  | nil => exact ⟨new_row, rfl, hn⟩
  | cons e rest ih =>
    obtain ⟨i, x⟩ := e
    have hi : i < lit.vars.length := hl (i, x) (List.mem_cons_self _ _)
    have ih2 := ih (fun e he => hl e (List.mem_cons_of_mem _ he))
    obtain ⟨h0, h1⟩ := hv _ (List.getElem_mem hi)
    rw [← hn] at h1
    obtain ⟨y, hy⟩ := rowGet_some new_row _ h0 h1
    unfold extendRow
    simp only [List.get?_eq_getElem?, List.getElem?_eq_getElem hi, hy]
    by_cases hy1 : y = -1
    · obtain ⟨r, hr, hrl⟩ := rowSet_some new_row _ x h0 h1
      simp only [hy1, if_true, hr]
      exact ih2 r (hrl.trans hn)
    · simp only [hy1, if_false]
      exact ih2 new_row hn

theorem enum_fst_lt {α : Type} (l : List α) (e : Nat × α) (h : e ∈ l.enum) : e.1 < l.length := by
  obtain ⟨i, x⟩ := e
  have := List.mk_mem_enum_iff_getElem?.mp h
  exact (List.getElem?_eq_some_iff.mp this).1

theorem nestedLoops_total (cb ria : Bool) (lit : FoilLiteral) (n : Nat)
    (hv : ∀ v ∈ lit.vars, (cb = true ∧ ria = true ∧ v.IsBound = false) ∨
      (0 ≤ v.variable_id ∧ v.variable_id < (n : Int)))
    (joined : List (List Int)) (hj : ∀ r ∈ joined, r.length = n)
    (pairs : List (List Int × List Int))
    (hp : ∀ e ∈ pairs, e.1.length ≤ lit.vars.length ∧ e.2.length = n)
    (acc : List (List Int)) (ha : ∀ r ∈ acc, r.length = n) :
    ∃ b rows, nestedLoops cb ria lit joined acc pairs = some (b, rows) ∧
      ∀ r ∈ rows, r.length = n := by
  induction pairs generalizing acc with
  | nil => exact ⟨_, acc, rfl, ha⟩
  | cons e rest ih =>
    obtain ⟨prow, jrow⟩ := e
    obtain ⟨hpl, hjl⟩ := hp (prow, jrow) (List.mem_cons_self _ _)
    have ih2 := ih (fun e he => hp e (List.mem_cons_of_mem _ he))
    have hidx : ∀ e ∈ prow.enum, e.1 < lit.vars.length :=
      fun e he => Nat.lt_of_lt_of_le (enum_fst_lt prow e he) hpl
    obtain ⟨b, hb⟩ := rowMatches_total cb lit jrow (fun v hvm => by
      rcases hv v hvm with ⟨h1, _, h3⟩ | h
      · exact Or.inl ⟨h1, h3⟩
      · exact Or.inr (by rw [hjl]; exact h)) prow.enum hidx
    unfold nestedLoops
    simp only [hb]
    cases b with
    | false => exact ih2 acc ha
    | true =>
      by_cases hr : ria = true
      · simp only [hr, if_true]
        exact ⟨true, joined, rfl, hj⟩
      · simp only [hr, Bool.false_eq_true, if_false]
        have hv2 : ∀ v ∈ lit.vars, 0 ≤ v.variable_id ∧ v.variable_id < (n : Int) := by
          intro v hvm
          rcases hv v hvm with ⟨_, h2, _⟩ | h
          · exact absurd h2 hr
          · exact h
        obtain ⟨r, hr2, hrl⟩ := extendRow_total lit n hv2 prow.enum hidx jrow hjl
        simp only [hr2]
        have hrf : ria = false := by simpa using hr
        rw [hrf] at ih2
        refine ih2 (acc ++ [r]) ?_
        intro r2 hr2m
        rcases List.mem_append.mp hr2m with h | h
        · exact ha r2 h
        · rw [List.mem_singleton.mp h]
          exact hrl

theorem nestedLoopsJoin_total (cb ria : Bool) (lit : FoilLiteral) (n : Nat)
    (hv : ∀ v ∈ lit.vars, (cb = true ∧ ria = true ∧ v.IsBound = false) ∨
      (0 ≤ v.variable_id ∧ v.variable_id < (n : Int)))
    (rel : List (List Int)) (hrel : ∀ r ∈ rel, r.length ≤ lit.vars.length)
    (joined : List (List Int)) (hj : ∀ r ∈ joined, r.length = n) :
    ∃ b rows, NestedLoopsJoin cb ria lit rel joined = some (b, rows) ∧
      ∀ r ∈ rows, r.length = n := by
  unfold NestedLoopsJoin
  refine nestedLoops_total cb ria lit n hv joined hj _ ?_ [] (by simp)
  intro e he
  simp only [List.mem_flatMap, List.mem_map] at he
  obtain ⟨p, hp, j, hjm, rfl⟩ := he
  exact ⟨hrel p hp, hj j hjm⟩

theorem joinAll_total (n : Nat) (lits : List FoilLiteral)
    (hv : ∀ l ∈ lits, ∀ v ∈ l.vars, 0 ≤ v.variable_id ∧ v.variable_id < (n : Int))
    (rel : List (List Int)) (hrel : ∀ l ∈ lits, ∀ r ∈ rel, r.length ≤ l.vars.length)
    (joined : List (List Int)) (hj : ∀ r ∈ joined, r.length = n) :
    ∃ rows, joinAll lits rel joined = some rows ∧ ∀ r ∈ rows, r.length = n := by
  unfold joinAll
  induction lits generalizing joined with
  | nil => exact ⟨joined, rfl, hj⟩
  | cons l rest ih =>
    obtain ⟨b, rows, hr, hrows⟩ := nestedLoopsJoin_total false false l n
      (fun v hvm => Or.inr (hv l (List.mem_cons_self _ _) v hvm)) rel
      (hrel l (List.mem_cons_self _ _)) joined hj
    simp only [List.foldlM_cons, hr, Option.map_some', Option.bind_eq_bind, Option.some_bind]
    exact ih (fun l2 hl2 => hv l2 (List.mem_cons_of_mem _ hl2))
      (fun l2 hl2 => hrel l2 (List.mem_cons_of_mem _ hl2)) rows hrows

theorem option_mapM_total {α β : Type} (f : α → Option β) (Q : β → Prop) (l : List α)
    (h : ∀ x ∈ l, ∃ y, f x = some y ∧ Q y) :
    ∃ ys, l.mapM f = some ys ∧ ∀ y ∈ ys, Q y := by
  induction l with
  | nil => exact ⟨[], by rw [List.mapM_nil]; rfl, by simp⟩
  | cons x t ih =>
    obtain ⟨y, hy, hq⟩ := h x (List.mem_cons_self _ _)
    obtain ⟨ys, hys, hqs⟩ := ih (fun z hz => h z (List.mem_cons_of_mem _ hz))
    refine ⟨y :: ys, ?_, ?_⟩
    · rw [List.mapM_cons, hy, hys]
      rfl
    · intro z hz
      rcases List.mem_cons.mp hz with rfl | hz
      · exact hq
      · exact hqs z hz

theorem seedRow_total (first : FoilLiteral) (n : Nat)
    (hv : ∀ v ∈ first.vars, 0 ≤ v.variable_id ∧ v.variable_id < (n : Int))
    (l : List (Nat × Int)) (hl : ∀ e ∈ l, e.1 < first.vars.length)
    (r : List Int) (hr : r.length = n) :
    ∃ r2, l.foldlM (fun (r : List Int) (e : Nat × Int) =>
        match first.vars.get? e.1 with
        | none => none
        | some v => rowSet r v.variable_id e.2) r = some r2 ∧ r2.length = n := by
  induction l generalizing r with
  | nil => exact ⟨r, rfl, hr⟩
  | cons e rest ih =>
    have hi : e.1 < first.vars.length := hl e (List.mem_cons_self _ _)
    obtain ⟨h0, h1⟩ := hv _ (List.getElem_mem hi)
    rw [← hr] at h1
    obtain ⟨r1, hr1, hrl⟩ := rowSet_some r _ e.2 h0 h1
    have ih2 := ih (fun e he => hl e (List.mem_cons_of_mem _ he)) r1 (hrl.trans hr)
    simp only [List.get?_eq_getElem?] at ih2 ⊢
    simp only [List.foldlM_cons, List.getElem?_eq_getElem hi, hr1,
      Option.bind_eq_bind, Option.some_bind]
    exact ih2

theorem seedRows_total (first : FoilLiteral) (n : Nat)
    (hv : ∀ v ∈ first.vars, 0 ≤ v.variable_id ∧ v.variable_id < (n : Int))
    (rel : List (List Int)) (hrel : ∀ r ∈ rel, r.length ≤ first.vars.length) :
    ∃ rows, seedRows n first rel = some rows ∧ ∀ r ∈ rows, r.length = n := by
  unfold seedRows
  refine option_mapM_total _ (fun (r : List Int) => r.length = n) rel ?_
  intro row hrow
  exact seedRow_total first n hv row.enum
    (fun e he => Nat.lt_of_lt_of_le (enum_fst_lt row e he) (hrel row hrow))
    (List.replicate n (-1)) (by simp)

theorem newLiteralRow_length (vs : List FoilVariable) (start : Int) :
    (newLiteralRow vs start).length = vs.length := by
  induction vs generalizing start with
  | nil => rfl
  | cons v rest ih =>
    unfold newLiteralRow
    by_cases hb : v.IsBound = true
    · simp [hb, ih]
    · simp [hb, ih]

theorem p2b_fold_facts (body : List FoilLiteral) (m0 : List (Int × List FoilLiteral))
    (S : FoilLiteral → Prop) (hS : ∀ l ∈ body, S l)
    (h0 : ∀ e ∈ m0, e.2 ≠ [] ∧ ∀ l ∈ e.2, S l ∧ l.predicate.id = e.1) :
    ∀ e ∈ body.foldl (fun m l =>
        if m.any (fun e => decide (e.1 = l.predicate.id)) then
          m.map (fun e => if e.1 = l.predicate.id then (e.1, e.2 ++ [l]) else e)
        else m ++ [(l.predicate.id, [l])]) m0,
      e.2 ≠ [] ∧ ∀ l ∈ e.2, S l ∧ l.predicate.id = e.1 := by
  induction body generalizing m0 with
  | nil => exact h0
  | cons b rest ih =>
    simp only [List.foldl_cons]
    refine ih _ (fun l hl => hS l (List.mem_cons_of_mem _ hl)) ?_
    have hb := hS b (List.mem_cons_self _ _)
    by_cases hany : m0.any (fun e => decide (e.1 = b.predicate.id)) = true
    · simp only [hany, if_true]
      intro e he
      obtain ⟨e0, he0, rfl⟩ := List.mem_map.mp he
      by_cases heq : e0.1 = b.predicate.id
      · simp only [heq, if_true]
        refine ⟨by simp, ?_⟩
        intro l hl
        rcases List.mem_append.mp hl with h | h
        · have := (h0 e0 he0).2 l h
          exact ⟨this.1, this.2.trans heq⟩
        · rw [List.mem_singleton.mp h]
          exact ⟨hb, rfl⟩
      · simp only [heq, if_false]
        exact h0 e0 he0
    · simp only [hany, Bool.false_eq_true, if_false]
      intro e he
      rcases List.mem_append.mp he with h | h
      · exact h0 e h
      · rw [List.mem_singleton.mp h]
        refine ⟨by simp, ?_⟩
        intro l hl
        rw [List.mem_singleton.mp hl]
        exact ⟨hb, rfl⟩

theorem p2b_facts (body : List FoilLiteral) :
    ∀ e ∈ predicate_to_body_literals_map body,
      e.2 ≠ [] ∧ ∀ l ∈ e.2, l ∈ body ∧ l.predicate.id = e.1 :=
  p2b_fold_facts body [] (fun l => l ∈ body) (fun _ h => h) (by simp)

theorem canonicalDbStep_total (c : FoilClause) (ar : Int → Nat) (predicate : FoilPredicate)
    (hha : c.head_literal.vars.length = ar c.head_literal.predicate.id)
    (st : List (List Int) × Bool) (hst : ∀ r ∈ st.1, r.length = c.num_variables)
    (e : Int × List FoilLiteral) (hne : e.2 ≠ [])
    (hlit : ∀ l ∈ e.2, (∀ v ∈ l.vars, 0 ≤ v.variable_id ∧
      v.variable_id < (c.num_variables : Int)) ∧ l.vars.length = ar e.1) :
    ∃ st2, canonicalDbStep c predicate st e = some st2 ∧
      ∀ r ∈ st2.1, r.length = c.num_variables := by
  unfold canonicalDbStep
  by_cases hid : e.1 = predicate.id
  · simp only [hid, if_true]
    exact ⟨st, rfl, hst⟩
  · simp only [hid, if_false]
    have hrel : ∀ r ∈ (if (!st.2 && decide (c.head_literal.predicate.id = e.1)) = true
        then e.2.map existingLiteralRow ++ [existingLiteralRow c.head_literal]
        else e.2.map existingLiteralRow), r.length = ar e.1 := by
      intro r hr
      have hbody : ∀ r ∈ e.2.map existingLiteralRow, r.length = ar e.1 := by
        intro r hr
        obtain ⟨l, hl, rfl⟩ := List.mem_map.mp hr
        simp only [existingLiteralRow, List.length_map]
        exact (hlit l hl).2
      by_cases hadd : (!st.2 && decide (c.head_literal.predicate.id = e.1)) = true
      · rw [if_pos hadd] at hr
        rcases List.mem_append.mp hr with h | h
        · exact hbody r h
        · rw [List.mem_singleton.mp h]
          simp only [existingLiteralRow, List.length_map]
          have : c.head_literal.predicate.id = e.1 := by
            simp only [Bool.and_eq_true, decide_eq_true_eq] at hadd
            exact hadd.2
          rw [hha, this]
      · rw [if_neg hadd] at hr
        exact hbody r hr
    have hrel2 : ∀ l ∈ e.2, ∀ r ∈ (if (!st.2 && decide (c.head_literal.predicate.id = e.1)) = true
        then e.2.map existingLiteralRow ++ [existingLiteralRow c.head_literal]
        else e.2.map existingLiteralRow), r.length ≤ l.vars.length := by
      intro l hl r hr
      rw [hrel r hr, (hlit l hl).2]
    by_cases hem : st.1.isEmpty = true
    · simp only [hem, if_true]
      cases he2 : e.2 with
      | nil => exact absurd he2 hne
      | cons first others =>
        rw [he2] at hrel2 hlit
        simp only []
        obtain ⟨seeded, hs, hsl⟩ := seedRows_total first c.num_variables
          (hlit first (List.mem_cons_self _ _)).1 _ (hrel2 first (List.mem_cons_self _ _))
        simp only [hs]
        obtain ⟨rows, hr, hrl⟩ := joinAll_total c.num_variables others
          (fun l hl => (hlit l (List.mem_cons_of_mem _ hl)).1) _
          (fun l hl => hrel2 l (List.mem_cons_of_mem _ hl)) seeded hsl
        simp only [hr, Option.map_some']
        exact ⟨_, rfl, hrl⟩
    · simp only [hem, Bool.false_eq_true, if_false]
      obtain ⟨rows, hr, hrl⟩ := joinAll_total c.num_variables e.2
        (fun l hl => (hlit l hl).1) _ hrel2 st.1 hst
      simp only [hr, Option.map_some']
      exact ⟨_, rfl, hrl⟩

theorem canonicalDb_fold_total (c : FoilClause) (ar : Int → Nat) (predicate : FoilPredicate)
    (hha : c.head_literal.vars.length = ar c.head_literal.predicate.id)
    (p2b : List (Int × List FoilLiteral))
    (hp : ∀ e ∈ p2b, e.2 ≠ [] ∧ ∀ l ∈ e.2, (∀ v ∈ l.vars, 0 ≤ v.variable_id ∧
      v.variable_id < (c.num_variables : Int)) ∧ l.vars.length = ar e.1)
    (st : List (List Int) × Bool) (hst : ∀ r ∈ st.1, r.length = c.num_variables) :
    ∃ st2, p2b.foldlM (canonicalDbStep c predicate) st = some st2 ∧
      ∀ r ∈ st2.1, r.length = c.num_variables := by
  induction p2b generalizing st with
  | nil => exact ⟨st, rfl, hst⟩
  | cons e rest ih =>
    obtain ⟨hne, hlit⟩ := hp e (List.mem_cons_self _ _)
    obtain ⟨st1, hs1, hl1⟩ := canonicalDbStep_total c ar predicate hha st hst e hne hlit
    simp only [List.foldlM_cons, hs1, Option.bind_eq_bind, Option.some_bind]
    exact ih (fun e he => hp e (List.mem_cons_of_mem _ he)) st1 hl1

theorem head_row_total (n : Nat) (vs : List FoilVariable)
    (hv : ∀ v ∈ vs, 0 ≤ v.variable_id ∧ v.variable_id < (n : Int))
    (r : List Int) (hr : r.length = n) :
    ∃ r2, vs.foldlM (fun (r : List Int) v => rowSet r v.variable_id v.variable_id) r =
      some r2 ∧ r2.length = n := by
  induction vs generalizing r with
  | nil => exact ⟨r, rfl, hr⟩
  | cons v rest ih =>
    obtain ⟨h0, h1⟩ := hv v (List.mem_cons_self _ _)
    rw [← hr] at h1
    obtain ⟨r1, hr1, hrl⟩ := rowSet_some r _ v.variable_id h0 h1
    simp only [List.foldlM_cons, hr1, Option.bind_eq_bind, Option.some_bind]
    exact ih (fun w hw => hv w (List.mem_cons_of_mem _ hw)) r1 (hrl.trans hr)

theorem createCanonicalDatabase_total (c : FoilClause) (ar : Int → Nat)
    (predicate : FoilPredicate)
    (hha : c.head_literal.vars.length = ar c.head_literal.predicate.id)
    (hhv : ∀ v ∈ c.head_literal.vars, 0 ≤ v.variable_id ∧
      v.variable_id < (c.num_variables : Int))
    (p2b : List (Int × List FoilLiteral))
    (hp : ∀ e ∈ p2b, e.2 ≠ [] ∧ ∀ l ∈ e.2, (∀ v ∈ l.vars, 0 ≤ v.variable_id ∧
      v.variable_id < (c.num_variables : Int)) ∧ l.vars.length = ar e.1) :
    ∃ db, CreateCanonicalDatabase c predicate p2b = some db ∧
      ∀ r ∈ db, r.length = c.num_variables := by
  obtain ⟨st2, hs, hl⟩ := canonicalDb_fold_total c ar predicate hha p2b hp ([], false)
    (by simp)
  obtain ⟨joined, flag⟩ := st2
  unfold CreateCanonicalDatabase
  simp only [hs]
  by_cases hf : flag = true
  · simp only [hf, if_true]
    exact ⟨joined, rfl, hl⟩
  · simp only [hf, Bool.false_eq_true, if_false]
    by_cases hem : joined.isEmpty = true
    · simp only [hem, if_true]
      obtain ⟨r2, hr2, hrl⟩ := head_row_total c.num_variables c.head_literal.vars hhv
        (List.replicate c.num_variables (-1)) (by simp)
      simp only [hr2, Option.map_some']
      refine ⟨_, rfl, ?_⟩
      intro r hr
      rw [List.mem_singleton.mp hr]
      exact hrl
    · simp only [hem, Bool.false_eq_true, if_false]
      obtain ⟨b, rows, hr, hrl⟩ := nestedLoopsJoin_total false false c.head_literal
        c.num_variables (fun v hv => Or.inr (hhv v hv)) [existingLiteralRow c.head_literal]
        (by
          intro r hr
          rw [List.mem_singleton.mp hr]
          simp [existingLiteralRow]) joined hl
      simp only [hr, Option.map_some']
      exact ⟨_, rfl, hrl⟩

theorem checkReplaces_total (c : FoilClause) (L : FoilLiteral) (db : List (List Int))
    (hdb : ∀ r ∈ db, r.length = c.num_variables)
    (existing : List FoilLiteral) (hne : existing ≠ [])
    (hex : ∀ l ∈ existing, (∀ v ∈ l.vars, 0 ≤ v.variable_id ∧
      v.variable_id < (c.num_variables : Int)) ∧ l.vars.length = L.vars.length)
    (hL : ∀ v ∈ L.vars, v.IsBound = false ∨
      (0 ≤ v.variable_id ∧ v.variable_id < (c.num_variables : Int)))
    (k : Nat) :
    ∃ d, checkReplaces c L db existing k = some d := by
  have hrw : ∀ r ∈ existing.map existingLiteralRow, r.length = L.vars.length := by
    intro r hr
    obtain ⟨l, hl, rfl⟩ := List.mem_map.mp hr
    simp only [existingLiteralRow, List.length_map]
    exact (hex l hl).2
  obtain ⟨joined, hj, hjl⟩ := joinAll_total c.num_variables (existing.eraseIdx k)
    (fun l hl => (hex l (List.mem_of_mem_eraseIdx hl)).1) (existing.map existingLiteralRow)
    (fun l hl r hr => by
      rw [hrw r hr, (hex l (List.mem_of_mem_eraseIdx hl)).2]) db hdb
  obtain ⟨b, rows, hn, _⟩ := nestedLoopsJoin_total true true L c.num_variables
    (fun v hv => by
      rcases hL v hv with h | h
      · exact Or.inl ⟨rfl, rfl, h⟩
      · exact Or.inr h) (existing.map existingLiteralRow)
    (fun r hr => le_of_eq (hrw r hr)) joined hjl
  unfold checkReplaces
  simp only [hj, hn]
  cases b with
  | false => exact ⟨false, rfl⟩
  | true =>
    simp only []
    have hrwith : ∀ r ∈ (existing.map existingLiteralRow).eraseIdx k ++
        [newLiteralRow L.vars c.num_variables], r.length = L.vars.length := by
      intro r hr
      rcases List.mem_append.mp hr with h | h
      · exact hrw r (List.mem_of_mem_eraseIdx h)
      · rw [List.mem_singleton.mp h]
        exact newLiteralRow_length _ _
    obtain ⟨joined2, hj2, hjl2⟩ := joinAll_total c.num_variables existing.dropLast
      (fun l hl => (hex l (List.mem_of_mem_dropLast hl)).1) _
      (fun l hl r hr => by
        rw [hrwith r hr, (hex l (List.mem_of_mem_dropLast hl)).2]) db hdb
    simp only [hj2]
    cases hlast : existing.getLast? with
    | none => exact absurd (List.getLast?_eq_none_iff.mp hlast) hne
    | some last =>
      have hlm : last ∈ existing := List.mem_of_getLast?_eq_some hlast
      obtain ⟨b2, rows2, hn2, _⟩ := nestedLoopsJoin_total false true last c.num_variables
        (fun v hv => Or.inr ((hex last hlm).1 v hv)) _
        (fun r hr => by rw [hrwith r hr, (hex last hlm).2]) joined2 hjl2
      simp only [hn2, Option.map_some']
      exact ⟨_, rfl⟩

theorem checkReplacesAny_total (c : FoilClause) (L : FoilLiteral) (db : List (List Int))
    (hdb : ∀ r ∈ db, r.length = c.num_variables)
    (existing : List FoilLiteral) (hne : existing ≠ [])
    (hex : ∀ l ∈ existing, (∀ v ∈ l.vars, 0 ≤ v.variable_id ∧
      v.variable_id < (c.num_variables : Int)) ∧ l.vars.length = L.vars.length)
    (hL : ∀ v ∈ L.vars, v.IsBound = false ∨
      (0 ≤ v.variable_id ∧ v.variable_id < (c.num_variables : Int)))
    (ks : List Nat) :
    ∃ d, checkReplacesAny c L db existing ks = some d := by
  induction ks with
  | nil => exact ⟨false, rfl⟩
  | cons k rest ih =>
    obtain ⟨d, hd⟩ := checkReplaces_total c L db hdb existing hne hex hL k
    unfold checkReplacesAny
    simp only [hd]
    cases d with
    | true => exact ⟨true, rfl⟩
    | false => exact ih

theorem checkReplaceableDuplicate_total (c : FoilClause) (ar : Int → Nat)
    (hha : c.head_literal.vars.length = ar c.head_literal.predicate.id)
    (hhv : ∀ v ∈ c.head_literal.vars, 0 ≤ v.variable_id ∧
      v.variable_id < (c.num_variables : Int))
    (hbody : ∀ l ∈ c.body_literals, (∀ v ∈ l.vars, 0 ≤ v.variable_id ∧
      v.variable_id < (c.num_variables : Int)) ∧ l.vars.length = ar l.predicate.id)
    (L : FoilLiteral) (hLa : L.vars.length = ar L.predicate.id)
    (hL : ∀ v ∈ L.vars, v.IsBound = false ∨
      (0 ≤ v.variable_id ∧ v.variable_id < (c.num_variables : Int)))
    (hfound : ((predicate_to_body_literals_map c.body_literals).find?
      (fun e => decide (e.1 = L.predicate.id))).isSome = true) :
    ∃ d, CheckReplaceableDuplicate c L (predicate_to_body_literals_map c.body_literals) =
      some d := by
  have hp : ∀ e ∈ predicate_to_body_literals_map c.body_literals,
      e.2 ≠ [] ∧ ∀ l ∈ e.2, (∀ v ∈ l.vars, 0 ≤ v.variable_id ∧
        v.variable_id < (c.num_variables : Int)) ∧ l.vars.length = ar e.1 := by
    intro e he
    obtain ⟨h1, h2⟩ := p2b_facts c.body_literals e he
    refine ⟨h1, fun l hl => ?_⟩
    obtain ⟨hlb, hlid⟩ := h2 l hl
    exact ⟨(hbody l hlb).1, by rw [(hbody l hlb).2, hlid]⟩
  unfold CheckReplaceableDuplicate
  cases hf : (predicate_to_body_literals_map c.body_literals).find?
      (fun e => decide (e.1 = L.predicate.id)) with
  | none => simp [hf] at hfound
  | some e =>
    obtain ⟨eid, existing⟩ := e
    have hem : (eid, existing) ∈ predicate_to_body_literals_map c.body_literals :=
      List.mem_of_find?_eq_some hf
    have heid : eid = L.predicate.id := by simpa using List.find?_some hf
    obtain ⟨hne, hex⟩ := hp _ hem
    simp only at hne hex
    have hie : existing.isEmpty = false := by
      cases existing with
      | nil => exact absurd rfl hne
      | cons _ _ => rfl
    simp only [hie, Bool.false_eq_true, if_false]
    obtain ⟨db, hdb, hdbl⟩ := createCanonicalDatabase_total c ar L.predicate hha hhv _ hp
    simp only [hdb]
    exact checkReplacesAny_total c L db hdbl existing hne
      (fun l hl => ⟨(hex l hl).1, by rw [(hex l hl).2, heid, hLa]⟩) hL _

theorem pruneDuplicates_total (c : FoilClause) (ar : Int → Nat)
    (hha : c.head_literal.vars.length = ar c.head_literal.predicate.id)
    (hhv : ∀ v ∈ c.head_literal.vars, 0 ≤ v.variable_id ∧
      v.variable_id < (c.num_variables : Int))
    (hbody : ∀ l ∈ c.body_literals, (∀ v ∈ l.vars, 0 ≤ v.variable_id ∧
      v.variable_id < (c.num_variables : Int)) ∧ l.vars.length = ar l.predicate.id)
    (vec : List FoilLiteral)
    (hvec : ∀ L ∈ vec, L.vars.length = ar L.predicate.id ∧
      (∀ v ∈ L.vars, v.IsBound = false ∨
        (0 ≤ v.variable_id ∧ v.variable_id < (c.num_variables : Int))) ∧
      ((predicate_to_body_literals_map c.body_literals).find?
        (fun e => decide (e.1 = L.predicate.id))).isSome = true) :
    ∃ k, pruneDuplicates c (predicate_to_body_literals_map c.body_literals) vec = some k := by
  induction vec with
  | nil => exact ⟨[], rfl⟩
  | cons L rest ih =>
    obtain ⟨h1, h2, h3⟩ := hvec L (List.mem_cons_self _ _)
    obtain ⟨d, hd⟩ := checkReplaceableDuplicate_total c ar hha hhv hbody L h1 h2 h3
    obtain ⟨k, hk⟩ := ih (fun L2 hL2 => hvec L2 (List.mem_cons_of_mem _ hL2))
    unfold pruneDuplicates
    simp only [hd, hk]
    exact ⟨_, rfl⟩

/-! ### Restricting a literal to the earlier variables -/

theorem restrict_eq_self (m : Nat) (L : FoilLiteral)
    (h : ∀ v ∈ L.vars, v.variable_id < (m : Int)) : restrictTo m L = L := by
  cases L with
  | mk p vs =>
  simp only [restrictTo, FoilLiteral.mk.injEq, true_and]
  simp only at h
  induction vs with
  | nil => rfl
  | cons v rest ih =>
    have hv := h v (List.mem_cons_self _ _)
    have : ¬ ((m : Int) ≤ v.variable_id) := by omega
    simp only [List.map_cons, this, if_false, List.cons.injEq, true_and]
    exact ih (fun w hw => h w (List.mem_cons_of_mem _ hw))

theorem equals_ids_lt (m : Int) (L X : FoilLiteral) (he : L.Equals X = true)
    (hX : ∀ v ∈ X.vars, v.variable_id < m) : ∀ v ∈ L.vars, v.variable_id < m := by
  simp only [FoilLiteral.Equals, Bool.and_eq_true, decide_eq_true_eq] at he
  intro v hv
  have : v.variable_id ∈ L.vars.map FoilVariable.variable_id := List.mem_map_of_mem _ hv
  rw [he.2] at this
  obtain ⟨w, hw, hwv⟩ := List.mem_map.mp this
  rw [← hwv]
  exact hX w hw

theorem equals_restrict (m : Nat) (L X : FoilLiteral) (he : L.Equals X = true)
    (hX : ∀ v ∈ X.vars, v.variable_id < (m : Int)) : restrictTo m L = L :=
  restrict_eq_self m L (equals_ids_lt m L X he hX)

theorem equals_comm (a b : FoilLiteral) : a.Equals b = b.Equals a := by
  simp only [FoilLiteral.Equals]
  congr 1
  · exact decide_eq_decide.mpr ⟨fun h => h.symm, fun h => h.symm⟩
  · exact decide_eq_decide.mpr ⟨fun h => h.symm, fun h => h.symm⟩

theorem equals_isBound (a b : FoilLiteral) (he : a.Equals b = true)
    (hb : ∀ v ∈ b.vars, 0 ≤ v.variable_id) : ∀ v ∈ a.vars, 0 ≤ v.variable_id := by
  simp only [FoilLiteral.Equals, Bool.and_eq_true, decide_eq_true_eq] at he
  intro v hv
  have : v.variable_id ∈ a.vars.map FoilVariable.variable_id := List.mem_map_of_mem _ hv
  rw [he.2] at this
  obtain ⟨w, hw, hwv⟩ := List.mem_map.mp this
  rw [← hwv]
  exact hb w hw

theorem restrict_bound_eq (m : Nat) (L : FoilLiteral)
    (h : ∀ v ∈ (restrictTo m L).vars, 0 ≤ v.variable_id) : restrictTo m L = L := by
  apply restrict_eq_self
  intro v hv
  by_contra hlt
  have hge : (m : Int) ≤ v.variable_id := by omega
  have hmem : (if (m : Int) ≤ v.variable_id then FoilVariable.unbound v.variable_type_id
      else v) ∈ (restrictTo m L).vars := by
    simp only [restrictTo]
    exact List.mem_map_of_mem _ hv
  have := h _ hmem
  simp [hge, FoilVariable.unbound] at this

theorem restrict_of_allUnbound (m : Nat) (L : FoilLiteral)
    (h : L.AreAllVariablesUnBound = true) : restrictTo m L = L := by
  apply restrict_eq_self
  intro v hv
  simp only [FoilLiteral.AreAllVariablesUnBound, List.all_eq_true] at h
  have := h v hv
  simp only [FoilVariable.IsBound, Bool.not_eq_true', decide_eq_false_iff_not, not_le] at this
  omega

theorem restrict_restrict (m1 m : Nat) (hm : m1 ≤ m) (L : FoilLiteral) :
    restrictTo m1 (restrictTo m L) = restrictTo m1 L := by
  cases L with
  | mk p vs =>
  simp only [restrictTo, List.map_map, FoilLiteral.mk.injEq, true_and]
  apply List.map_congr_left
  intro v _
  simp only [Function.comp]
  by_cases h : (m : Int) ≤ v.variable_id
  · have h1 : (m1 : Int) ≤ v.variable_id := by
      have : (m1 : Int) ≤ (m : Int) := by exact_mod_cast hm
      omega
    have h2 : ¬ ((m1 : Int) ≤ (FoilVariable.unbound v.variable_type_id).variable_id) := by
      simp only [FoilVariable.unbound]
      omega
    simp [h, h1, h2]
  · simp [h]

theorem lve_of_restrict (m : Nat) (L : FoilLiteral) :
    laterVariablesExtension m (restrictTo m L) L := by
  cases L with
  | mk p vs =>
  refine ⟨rfl, ?_⟩
  simp only [restrictTo]
  rw [List.forall₂_map_left_iff]
  apply List.forall₂_same.mpr
  intro v _
  by_cases h : (m : Int) ≤ v.variable_id
  · right
    simp [h, FoilVariable.IsBound, FoilVariable.unbound]
  · left
    simp [h]

theorem restrict_of_lve (vs0 vs : List FoilVariable) (m : Nat)
    (h0 : ∀ v ∈ vs0, 0 ≤ v.variable_id ∧ v.variable_id < (m : Int))
    (P : FoilPredicate) (L0 L : FoilLiteral) (hL0 : IsCandidateOver vs0 P L0)
    (hL : IsCandidateOver vs P L) (hlve : laterVariablesExtension m L0 L) :
    restrictTo m L = L0 := by
  cases L0 with
  | mk p0 v0s =>
  cases L with
  | mk p vls =>
  obtain ⟨hp0, hf0⟩ := hL0
  obtain ⟨hp, hf⟩ := hL
  obtain ⟨hpp, hfl⟩ := hlve
  simp only at hp0 hf0 hp hf hpp hfl
  simp only [restrictTo, FoilLiteral.mk.injEq]
  refine ⟨hpp, ?_⟩
  generalize P.argument_types = ts at hf0 hf
  induction hf0 generalizing vls with
  | nil =>
    cases hfl
    rfl
  | @cons t v0 ts2 v0s2 hv0 _ ih =>
    cases hf with
    | @cons _ v _ vls2 hv hrest =>
      cases hfl with
      | cons hrel hrel2 =>
        simp only [List.map_cons, List.cons.injEq]
        refine ⟨?_, ih vls2 hrel2 hrest⟩
        rcases hrel with heq | ⟨hub, hge⟩
        · subst heq
          have : ¬ ((m : Int) ≤ v.variable_id) := by
            rcases hv0 with ⟨hm0, _⟩ | hu
            · have := (h0 v hm0).2
              omega
            · rw [hu]
              simp only [FoilVariable.unbound]
              omega
          simp [this]
        · have hv0u : v0 = FoilVariable.unbound t := by
            rcases hv0 with ⟨hm0, _⟩ | hu
            · have := (h0 v0 hm0).1
              simp [FoilVariable.IsBound, this] at hub
            · exact hu
          have hvt : v.variable_type_id = t := by
            rcases hv with ⟨_, ht⟩ | hu
            · exact ht
            · rw [hu]
              rfl
          simp [hge, hvt, hv0u]

theorem restrict_candidate (cvars nvs : List FoilVariable) (m : Nat)
    (hn : ∀ v ∈ nvs, (m : Int) ≤ v.variable_id) (P : FoilPredicate) (L : FoilLiteral)
    (hL : IsCandidateOver (cvars ++ nvs) P L) : IsCandidateOver cvars P (restrictTo m L) := by
  cases L with
  | mk p vs =>
  obtain ⟨hp, hf⟩ := hL
  refine ⟨hp, ?_⟩
  simp only [restrictTo] at hf ⊢
  rw [List.forall₂_map_right_iff]
  refine hf.imp ?_
  intro t v hv
  by_cases h : (m : Int) ≤ v.variable_id
  · simp only [h, if_true]
    right
    rcases hv with ⟨_, ht⟩ | hu
    · rw [ht]
    · rw [hu]
      rfl
  · simp only [h, if_false]
    rcases hv with ⟨hm, ht⟩ | hu
    · rcases List.mem_append.mp hm with h1 | h2
      · exact Or.inl ⟨h1, ht⟩
      · exact absurd (hn v h2) h
    · exact Or.inr hu

theorem candidate_mono (vs ws : List FoilVariable) (h : ∀ v ∈ vs, v ∈ ws) (P : FoilPredicate)
    (L : FoilLiteral) (hL : IsCandidateOver vs P L) : IsCandidateOver ws P L := by
  refine ⟨hL.1, hL.2.imp ?_⟩
  intro t v hv
  rcases hv with ⟨hm, ht⟩ | hu
  · exact Or.inl ⟨h v hm, ht⟩
  · exact Or.inr hu

theorem candidate_ids_lt (vs : List FoilVariable) (m : Int) (hm : 0 ≤ m)
    (h : ∀ v ∈ vs, v.variable_id < m) (P : FoilPredicate) (L : FoilLiteral)
    (hL : IsCandidateOver vs P L) : ∀ v ∈ L.vars, v.variable_id < m := by
  cases L with
  | mk p lvs =>
  obtain ⟨hp, hf⟩ := hL
  clear hp
  simp only at hf ⊢
  generalize P.argument_types = ts at hf
  induction hf with
  | nil => simp
  | @cons t v _ _ hv _ ih =>
    intro w hw
    rcases List.mem_cons.mp hw with rfl | hw
    · rcases hv with ⟨hvm, _⟩ | hu
      · exact h _ hvm
      · rw [hu]
        simp only [FoilVariable.unbound]
        omega
    · exact ih w hw

theorem candidate_length (vs : List FoilVariable) (P : FoilPredicate) (L : FoilLiteral)
    (hL : IsCandidateOver vs P L) : L.vars.length = P.num_arguments :=
  hL.2.length_eq.symm

theorem candidate_var_cases (vs : List FoilVariable) (P : FoilPredicate) (L : FoilLiteral)
    (hL : IsCandidateOver vs P L) :
    ∀ v ∈ L.vars, v ∈ vs ∨ v.IsBound = false := by
  cases L with
  | mk p lvs =>
  obtain ⟨hp, hf⟩ := hL
  clear hp
  simp only at hf ⊢
  generalize P.argument_types = ts at hf
  induction hf with
  | nil => simp
  | @cons t v _ _ hv _ ih =>
    intro w hw
    rcases List.mem_cons.mp hw with rfl | hw
    · rcases hv with ⟨hvm, _⟩ | hu
      · exact Or.inl hvm
      · right
        rw [hu]
        simp [FoilVariable.IsBound, FoilVariable.unbound]
    · exact ih w hw

theorem restrict_ids_lt (m : Nat) (L : FoilLiteral) :
    ∀ v ∈ (restrictTo m L).vars, v.variable_id < (m : Int) := by
  intro v hv
  simp only [restrictTo, List.mem_map] at hv
  obtain ⟨w, _, rfl⟩ := hv
  by_cases h : (m : Int) ≤ w.variable_id
  · simp only [h, if_true, FoilVariable.unbound]
    omega
  · simp only [h, if_false]
    omega

theorem ids_lt_of_range (vs : List FoilVariable)
    (h : vs.map FoilVariable.variable_id = (List.range vs.length).map Int.ofNat) :
    ∀ v ∈ vs, 0 ≤ v.variable_id ∧ v.variable_id < (vs.length : Int) := by
  intro v hv
  have : v.variable_id ∈ vs.map FoilVariable.variable_id := List.mem_map_of_mem _ hv
  rw [h] at this
  obtain ⟨n, hn, hnv⟩ := List.mem_map.mp this
  rw [← hnv]
  have := List.mem_range.mp hn
  constructor
  · exact Int.ofNat_nonneg n
  · exact Int.ofNat_lt.mpr this

theorem addUnBound_spec (c : FoilClause) (l : FoilLiteral) (flag : Bool)
    (hl : ∀ v ∈ l.vars, v.variable_id < (c.vars.length : Int)) :
    ∃ nvs lb,
      (c.AddUnBoundBodyLiteral l flag).vars = c.vars ++ nvs ∧
      (c.AddUnBoundBodyLiteral l flag).body_literals = c.body_literals ++ [lb] ∧
      (c.AddUnBoundBodyLiteral l flag).head_literal = c.head_literal ∧
      nvs.map FoilVariable.variable_id =
        (List.range' c.vars.length nvs.length).map Int.ofNat ∧
      newVariables (c.AddUnBoundBodyLiteral l flag) lb = nvs ∧
      lb.predicate = l.predicate ∧ lb.vars.length = l.vars.length ∧
      (∀ v ∈ lb.vars, 0 ≤ v.variable_id ∧
        v.variable_id < ((c.vars.length + nvs.length : Nat) : Int)) ∧
      ∀ L : FoilLiteral, (∀ v ∈ L.vars, v.variable_id < (c.vars.length : Int)) →
        (lb.Equals L = true ↔ (l.IsBound = true ∧ l.Equals L = true)) := by
  obtain ⟨nv, bl, hbf, hnv, hlen, hrest⟩ := bindFresh_spec l.vars c.vars []
  obtain ⟨hf, hbd, hids⟩ := hrest c.vars.length (le_refl _) hl
  refine ⟨nv, ⟨l.predicate, bl⟩, ?_, ?_, rfl, hnv, ?_, rfl, hlen, hbd, ?_⟩
  · simp [FoilClause.AddUnBoundBodyLiteral, hbf]
  · simp [FoilClause.AddUnBoundBodyLiteral, hbf]
  · simp only [newVariables, FoilClause.AddUnBoundBodyLiteral]
    exact hf
  · intro L hL
    have := hids (L.vars.map FoilVariable.variable_id) (by
      intro x hx
      obtain ⟨w, hw, rfl⟩ := List.mem_map.mp hx
      exact hL w hw)
    simp only [FoilLiteral.Equals, FoilLiteral.IsBound, Bool.and_eq_true, decide_eq_true_eq,
      this]
    tauto

theorem enumerateNonMostGeneral_spec (bg : List FoilPredicate) (hbg : bg.Nodup)
    (harity : ∀ P ∈ bg, 0 < P.num_arguments) (hkey : ∀ P ∈ bg, P.key < 0)
    (ar : Int → Nat) (har : ∀ P ∈ bg, P.num_arguments = ar P.id)
    (c : FoilClause)
    (hids : c.vars.map FoilVariable.variable_id = (List.range c.vars.length).map Int.ofNat)
    (hha : c.head_literal.vars.length = ar c.head_literal.predicate.id)
    (hhv : ∀ v ∈ c.head_literal.vars, 0 ≤ v.variable_id ∧
      v.variable_id < (c.vars.length : Int))
    (hbody : ∀ b ∈ c.body_literals, (∀ v ∈ b.vars, 0 ≤ v.variable_id ∧
      v.variable_id < (c.vars.length : Int)) ∧ b.vars.length = ar b.predicate.id)
    (l : FoilLiteral) (flag : Bool)
    (hl : ∀ v ∈ l.vars, v.variable_id < (c.vars.length : Int))
    (hla : l.vars.length = ar l.predicate.id)
    (pr : List (FoilPredicate × Nat)) (Gp : PredMap FoilLiteral)
    (hGp : ∀ P ∈ bg, (Gp.lookup P).Nodup ∧
      ∀ old ∈ Gp.lookup P, IsCandidateOver c.vars P old ∧ old.AreAllVariablesUnBound = false) :
    ∃ G prn, EnumerateCandidateLiterals bg (c.AddUnBoundBodyLiteral l flag) ⟨some Gp, pr⟩ =
        some (G, prn) ∧
      ∀ P ∈ bg, (G.lookup P).Nodup ∧
        ∀ L, L ∈ G.lookup P ↔
          (IsCandidateOver (c.AddUnBoundBodyLiteral l flag).vars P L ∧
            ((restrictTo c.vars.length L = allUnboundLiteral P ∧
                L.AreAllVariablesUnBound = false) ∨
              (restrictTo c.vars.length L ∈ keptLiterals ⟨some Gp, pr⟩ P (Gp.lookup P) ∧
                (L ≠ restrictTo c.vars.length L ∨
                  ¬ (l.IsBound = true ∧ l.Equals L = true))))) := by
  obtain ⟨nvs, lb, hvars, hbl, hhead, hnv, hnew, hlbp, hlbl, hlbv, hlbe⟩ :=
    addUnBound_spec c l flag hl
  have hc := ids_lt_of_range c.vars hids
  have hn : ∀ v ∈ nvs, (c.vars.length : Int) ≤ v.variable_id := by
    intro v hv
    have : v.variable_id ∈ nvs.map FoilVariable.variable_id := List.mem_map_of_mem _ hv
    rw [hnv] at this
    obtain ⟨k, hk, hkv⟩ := List.mem_map.mp this
    rw [← hkv]
    have := (List.mem_range'_1.mp hk).1
    exact Int.ofNat_le.mpr this
  have hnn : nvs.Nodup := by
    apply List.Nodup.of_map FoilVariable.variable_id
    rw [hnv]
    exact (List.nodup_range' _ _).map (fun a b hab => Int.ofNat.inj hab)
  have hn2 : (c.AddUnBoundBodyLiteral l flag).num_variables = c.vars.length + nvs.length := by
    simp [FoilClause.num_variables, hvars]
  have hlast : (c.AddUnBoundBodyLiteral l flag).body_literals.getLast? = some lb := by
    rw [hbl]
    simp
  have hle : (c.vars.length : Int) ≤ ((c.vars.length + nvs.length : Nat) : Int) := by
    push_cast
    omega
  have htotal : ∀ P ∈ bg,
      ((predicate_to_body_literals_map (c.AddUnBoundBodyLiteral l flag).body_literals).find?
        (fun e => decide (e.1 = P.id))).isSome = true →
      ∀ vec, (∀ L ∈ vec, IsCandidateOver (c.vars ++ nvs) P L) →
        ∃ k, pruneDuplicates (c.AddUnBoundBodyLiteral l flag)
          (predicate_to_body_literals_map (c.AddUnBoundBodyLiteral l flag).body_literals)
          vec = some k := by
    intro P hP hsome vec hvec
    refine pruneDuplicates_total _ ar ?_ ?_ ?_ vec ?_
    · rw [hhead]
      exact hha
    · rw [hhead, hn2]
      intro v hv
      have := hhv v hv
      exact ⟨this.1, lt_of_lt_of_le this.2 hle⟩
    · rw [hbl, hn2]
      intro b hb
      rcases List.mem_append.mp hb with h | h
      · have := hbody b h
        exact ⟨fun v hv => ⟨(this.1 v hv).1, lt_of_lt_of_le (this.1 v hv).2 hle⟩, this.2⟩
      · rw [List.mem_singleton.mp h]
        exact ⟨hlbv, by rw [hlbl, hlbp, hla]⟩
    · intro L hL
      have hLc := hvec L hL
      have hLp : L.predicate = P := hLc.1
      refine ⟨?_, ?_, ?_⟩
      · rw [candidate_length _ P L hLc, hLp]
        exact har P hP
      · intro v hv
        rcases candidate_var_cases _ P L hLc v hv with h | h
        · right
          rw [hn2]
          rcases List.mem_append.mp h with h1 | h2
          · have := hc v h1
            exact ⟨this.1, lt_of_lt_of_le this.2 hle⟩
          · have h3 : v.variable_id ∈ nvs.map FoilVariable.variable_id :=
              List.mem_map_of_mem _ h2
            rw [hnv] at h3
            obtain ⟨k, hk, hkv⟩ := List.mem_map.mp h3
            rw [← hkv]
            have := List.mem_range'_1.mp hk
            constructor
            · exact Int.ofNat_nonneg k
            · exact Int.ofNat_lt.mpr this.2
        · exact Or.inl h
      · rw [hLp]
        exact hsome
  obtain ⟨res, hres, hall, _⟩ := foldlM_predicates
    (fun acc P => GenerateAndPruneCandidateLiteralForPredicate (decide (P.key ≥ 0))
      (c.AddUnBoundBodyLiteral l flag) ⟨some Gp, pr⟩ P (variable_type_to_variable_map nvs)
      (predicate_to_body_literals_map (c.AddUnBoundBodyLiteral l flag).body_literals) acc)
    (fun (P : FoilPredicate) (e _p : List FoilLiteral) => e.Nodup ∧
      ∀ L, L ∈ e ↔ (IsCandidateOver (c.vars ++ nvs) P L ∧
          ((restrictTo c.vars.length L = allUnboundLiteral P ∧
              L.AreAllVariablesUnBound = false) ∨
            (restrictTo c.vars.length L ∈ keptLiterals ⟨some Gp, pr⟩ P (Gp.lookup P) ∧
              (L ≠ restrictTo c.vars.length L ∨ lb.Equals L = false)))))
    bg hbg
    (fun acc P hP h1 _ =>
      generateAndPrune_spec (c.AddUnBoundBodyLiteral l flag) ⟨some Gp, pr⟩ c.vars nvs
        c.vars.length hc hn hnn P (harity P hP) (hkey P hP) lb hlast Gp rfl (hGp P hP).1
        (hGp P hP).2 _ (htotal P hP) acc h1)
    ([], []) (fun P _ => ⟨rfl, rfl⟩)
  refine ⟨res.1, res.2, ?_, ?_⟩
  · unfold EnumerateCandidateLiterals
    have hne : (c.AddUnBoundBodyLiteral l flag).body_literals.isEmpty = false := by
      rw [hbl]
      cases c.body_literals <;> rfl
    simp only [hne, Bool.false_eq_true, if_false]
    unfold EnumerateForNonMostGeneralClause
    simp only [hlast, hnew]
    exact hres
  · intro P hP
    obtain ⟨hnd, hm⟩ := hall P hP
    refine ⟨hnd, fun L => ?_⟩
    rw [hm L, hvars]
    refine and_congr_right (fun _ => or_congr_right (and_congr_right (fun _ => ?_)))
    by_cases hself : L = restrictTo c.vars.length L
    · have hlt : ∀ v ∈ L.vars, v.variable_id < (c.vars.length : Int) := by
        rw [hself]
        exact restrict_ids_lt _ _
      have := hlbe L hlt
      constructor
      · rintro (h | h)
        · exact absurd hself h
        · right
          rw [← this, h]
          simp
      · rintro (h | h)
        · exact absurd hself h
        · right
          rw [← this] at h
          simpa using h
    · simp [hself]

theorem nodup_index_unique {α : Type} (l : List α) (hn : l.Nodup) (i j : Nat) (x : α)
    (hi : l.get? i = some x) (hj : l.get? j = some x) : i = j := by
  simp only [List.get?_eq_getElem?] at hi hj
  have h := List.nodup_iff_getElem?_ne_getElem?.mp hn
  rcases Nat.lt_trichotomy i j with hlt | heq | hgt
  · have hjl : j < l.length := (List.getElem?_eq_some_iff.mp hj).1
    exact absurd (hi.trans hj.symm) (h i j hlt hjl)
  · exact heq
  · have hil : i < l.length := (List.getElem?_eq_some_iff.mp hi).1
    exact absurd (hj.trans hi.symm) (h j i hgt hil)

theorem keptLiterals_mem (stats : LiteralSearchStats) (P : FoilPredicate)
    (olds : List FoilLiteral) (hn : olds.Nodup) (old : FoilLiteral) :
    old ∈ keptLiterals stats P olds ↔
      (old ∈ olds ∧ ¬ ∃ idx, (P, idx) ∈ stats.pruned_literals_by_covered_results ∧
        olds.get? idx = some old) := by
  unfold keptLiterals
  simp only [List.mem_map, List.mem_filter, Bool.not_eq_true', Prod.exists,
    List.mk_mem_enum_iff_getElem?, exists_and_right, exists_eq_right, List.get?_eq_getElem?]
  constructor
  · rintro ⟨idx, hidx, hnp⟩
    refine ⟨List.getElem?_mem hidx, ?_⟩
    rintro ⟨idx2, hp2, hidx2⟩
    have := nodup_index_unique olds hn idx idx2 old (by simpa using hidx) (by simpa using hidx2)
    subst this
    have hc : stats.pruned_literals_by_covered_results.contains (P, idx) = true := by
      simpa using hp2
    rw [hc] at hnp
    exact absurd hnp (by simp)
  · rintro ⟨hmem, hnot⟩
    obtain ⟨idx, hidx⟩ := List.mem_iff_getElem?.mp hmem
    refine ⟨idx, hidx, ?_⟩
    cases hc : stats.pruned_literals_by_covered_results.contains (P, idx) with
    | false => rfl
    | true => exact absurd ⟨idx, by simpa using hc, hidx⟩ hnot

/-! ### Clauses reached by valid extensions -/

theorem validExtensions_append (bg : List FoilPredicate) (c : FoilClause)
    (a b : List ExtensionStep) :
    validExtensions bg c (a ++ b) =
      (validExtensions bg c a &&
        validExtensions bg
          (a.foldl (fun c s => c.AddUnBoundBodyLiteral s.literal s.is_random) c) b) := by
  induction a generalizing c with
  | nil => simp [validExtensions]
  | cons s rest ih =>
    simp only [List.cons_append, validExtensions, List.foldl_cons, List.append_eq, ih,
      Bool.and_assoc]

theorem clauseInvariant_step (bg : List FoilPredicate) (head : FoilLiteral) (c : FoilClause)
    (hc : ClauseInvariant bg head c) (s : ExtensionStep)
    (hs : validExtensions bg c [s] = true) :
    ClauseInvariant bg head (c.AddUnBoundBodyLiteral s.literal s.is_random) ∧
      c.vars.length ≤ (c.AddUnBoundBodyLiteral s.literal s.is_random).vars.length ∧
      (∀ v ∈ c.vars, v ∈ (c.AddUnBoundBodyLiteral s.literal s.is_random).vars) ∧
      s.literal.predicate ∈ bg ∧
      s.literal.vars.length = s.literal.predicate.num_arguments ∧
      ∀ v ∈ s.literal.vars, v.variable_id < (c.vars.length : Int) := by
  simp only [validExtensions, Bool.and_true, Bool.and_eq_true, decide_eq_true_eq,
    List.all_eq_true, FoilClause.num_variables] at hs
  obtain ⟨⟨hp, ha⟩, hv⟩ := hs
  obtain ⟨nvs, lb, hvars, hbl, hhead, hnv, _, hlbp, hlbl, hlbv, _⟩ :=
    addUnBound_spec c s.literal s.is_random hv
  have hle : (c.vars.length : Int) ≤ ((c.vars.length + nvs.length : Nat) : Int) := by
    push_cast
    omega
  refine ⟨⟨?_, ?_, ?_, ?_⟩, ?_, ?_, hp, ha, hv⟩
  · rw [hvars, List.map_append, hc.ids, hnv, List.length_append, List.range_add,
      List.map_append, List.range'_eq_map_range, List.map_map]
  · rw [hhead]
    exact hc.head_eq
  · rw [hvars, List.length_append]
    intro v hvm
    have := hc.head_vars v hvm
    exact ⟨this.1, lt_of_lt_of_le this.2 hle⟩
  · rw [hbl, hvars, List.length_append]
    intro b hb
    rcases List.mem_append.mp hb with h | h
    · have := hc.body b h
      exact ⟨fun v hvm => ⟨(this.1 v hvm).1, lt_of_lt_of_le (this.1 v hvm).2 hle⟩, this.2⟩
    · rw [List.mem_singleton.mp h]
      exact ⟨hlbv, by rw [hlbl, hlbp, ha], by rw [hlbp]; exact hp⟩
  · rw [hvars, List.length_append]
    omega
  · intro v hvm
    rw [hvars]
    exact List.mem_append_left _ hvm

theorem clauseInvariant_foldl (bg : List FoilPredicate) (head : FoilLiteral)
    (steps : List ExtensionStep) (c : FoilClause) (hc : ClauseInvariant bg head c)
    (hs : validExtensions bg c steps = true) :
    ClauseInvariant bg head
        (steps.foldl (fun c s => c.AddUnBoundBodyLiteral s.literal s.is_random) c) ∧
      c.vars.length ≤
        (steps.foldl (fun c s => c.AddUnBoundBodyLiteral s.literal s.is_random) c).vars.length ∧
      (∀ v ∈ c.vars, v ∈
        (steps.foldl (fun c s => c.AddUnBoundBodyLiteral s.literal s.is_random) c).vars) ∧
      ∀ s ∈ steps, ∀ v ∈ s.literal.vars, v.variable_id <
        ((steps.foldl (fun c s => c.AddUnBoundBodyLiteral s.literal s.is_random)
          c).vars.length : Int) := by
  induction steps generalizing c with
  | nil => exact ⟨hc, le_refl _, fun _ h => h, by simp⟩
  | cons s rest ih =>
    have happ := validExtensions_append bg c [s] rest
    simp only [List.singleton_append, hs, List.foldl_cons, List.foldl_nil] at happ
    have h1 : validExtensions bg c [s] = true := by
      cases h : validExtensions bg c [s] with
      | true => rfl
      | false => simp [h] at happ
    have h2 : validExtensions bg (c.AddUnBoundBodyLiteral s.literal s.is_random) rest = true := by
      cases h : validExtensions bg (c.AddUnBoundBodyLiteral s.literal s.is_random) rest with
      | true => rfl
      | false => simp [h] at happ
    obtain ⟨hc2, hle, hsub, _, _, hv⟩ := clauseInvariant_step bg head c hc s h1
    obtain ⟨hc3, hle3, hsub3, hv3⟩ := ih _ hc2 h2
    simp only [List.foldl_cons]
    refine ⟨hc3, le_trans hle hle3, fun v hvm => hsub3 v (hsub v hvm), ?_⟩
    intro s2 hs2 v hvm
    rcases List.mem_cons.mp hs2 with rfl | hs2
    · have := hv v hvm
      have hle4 : (c.vars.length : Int) ≤ _ := Int.ofNat_le.mpr (le_trans hle hle3)
      exact lt_of_lt_of_le this hle4
    · exact hv3 s2 hs2 v hvm

theorem clauseInvariant_ofHead (bg : List FoilPredicate) (head : FoilLiteral)
    (hhead : ∀ v ∈ head.vars, 0 ≤ v.variable_id ∧
      v.variable_id < ((FoilClause.ofHead head).vars.length : Int)) :
    ClauseInvariant bg head (FoilClause.ofHead head) :=
  ⟨ofHead_vars_ids head, rfl, hhead, by
    intro b hb
    simp [FoilClause.ofHead] at hb⟩

theorem arity_by_id (preds : List FoilPredicate)
    (hpid : ∀ P ∈ preds, ∀ Q ∈ preds, P.id = Q.id → P = Q) :
    ∃ ar : Int → Nat, ∀ P ∈ preds, P.num_arguments = ar P.id := by
  refine ⟨fun i => match preds.find? (fun p => decide (p.id = i)) with
    | some p => p.num_arguments
    | none => 0, ?_⟩
  intro P hP
  cases hf : preds.find? (fun p => decide (p.id = P.id)) with
  | none =>
    have := List.find?_eq_none.mp hf P hP
    simp at this
  | some Q =>
    have hQ : Q ∈ preds := List.mem_of_find?_eq_some hf
    have hid : Q.id = P.id := by simpa using List.find?_some hf
    simp only [hf]
    rw [hpid Q hQ P hP hid]

theorem nodup_of_pairwise_not_equals (l : List FoilLiteral)
    (h : l.Pairwise (fun a b => a.Equals b = false)) : l.Nodup := by
  refine h.imp ?_
  intro a b hab heq
  subst heq
  simp [FoilLiteral.Equals] at hab

/-! ### One more extension: the generated literals and the refined set -/

theorem allUnbound_allUnbound (P : FoilPredicate) :
    (allUnboundLiteral P).AreAllVariablesUnBound = true := by
  simp [allUnboundLiteral, FoilLiteral.AreAllVariablesUnBound, FoilVariable.IsBound,
    FoilVariable.unbound]

theorem isBound_ids (l : FoilLiteral) (h : l.IsBound = true) :
    ∀ v ∈ l.vars, 0 ≤ v.variable_id := by
  intro v hv
  simp only [FoilLiteral.IsBound, List.all_eq_true] at h
  simpa [FoilVariable.IsBound] using h v hv

theorem recordedPruned_append_lt (bg : List FoilPredicate) (head : FoilLiteral)
    (init : List ExtensionStep) (s : ExtensionStep) (j : Nat) (hj : j < init.length)
    (P : FoilPredicate) (L0 : FoilLiteral) :
    RecordedPruned bg head (init ++ [s]) j P L0 ↔ RecordedPruned bg head init j P L0 := by
  unfold RecordedPruned
  simp only [List.get?_eq_getElem?, List.getElem?_append_left hj,
    List.take_append_of_le_length (le_of_lt hj)]

theorem recordedPruned_append_last (bg : List FoilPredicate) (head : FoilLiteral)
    (init : List ExtensionStep) (s : ExtensionStep) (G : PredMap FoilLiteral)
    (hrun : enumeratorRun bg head init = some G) (P : FoilPredicate) (L0 : FoilLiteral) :
    RecordedPruned bg head (init ++ [s]) init.length P L0 ↔
      ∃ idx, (P, idx) ∈ s.pruned ∧ (G.lookup P).get? idx = some L0 := by
  unfold RecordedPruned
  simp only [List.get?_eq_getElem?, List.getElem?_concat_length, Option.some.injEq,
    List.take_left', hrun]
  constructor
  · rintro ⟨s2, G2, idx, rfl, rfl, h1, h2⟩
    exact ⟨idx, h1, h2⟩
  · rintro ⟨idx, h1, h2⟩
    exact ⟨s, G, idx, rfl, rfl, h1, h2⟩

theorem refined_step (bg : List FoilPredicate) (head : FoilLiteral)
    (init : List ExtensionStep) (s : ExtensionStep) (P : FoilPredicate)
    (G : PredMap FoilLiteral) (hrun : enumeratorRun bg head init = some G)
    (hGn : (G.lookup P).Nodup)
    (hG : ∀ L, L ∈ G.lookup P ↔ RefinedSet bg head init P L)
    (nvs : List FoilVariable)
    (hvars2 : (clauseAfter head (init ++ [s])).vars = (clauseAfter head init).vars ++ nvs)
    (hc : ∀ v ∈ (clauseAfter head init).vars, 0 ≤ v.variable_id ∧
      v.variable_id < ((clauseAfter head init).vars.length : Int))
    (hn : ∀ v ∈ nvs, ((clauseAfter head init).vars.length : Int) ≤ v.variable_id)
    (hhv : ∀ v ∈ head.vars, v.variable_id < ((clauseAfter head init).vars.length : Int))
    (hhb : ∀ v ∈ head.vars, 0 ≤ v.variable_id)
    (hsv : ∀ s2 ∈ init ++ [s], ∀ v ∈ s2.literal.vars,
      v.variable_id < ((clauseAfter head init).vars.length : Int))
    (hpre : ∀ j, j < init.length → ∀ Gj L0,
      enumeratorRun bg head (init.take j) = some Gj → L0 ∈ Gj.lookup P →
        IsCandidateOver (clauseAfter head (init.take j)).vars P L0 ∧
          L0.AreAllVariablesUnBound = false)
    (hprev : ∀ j, j ≤ init.length →
      (∀ v ∈ (clauseAfter head (init.take j)).vars, 0 ≤ v.variable_id ∧
        v.variable_id < ((clauseAfter head (init.take j)).vars.length : Int)) ∧
      (clauseAfter head (init.take j)).vars.length ≤ (clauseAfter head init).vars.length)
    (L : FoilLiteral) :
    (IsCandidateOver ((clauseAfter head init).vars ++ nvs) P L ∧
      ((restrictTo (clauseAfter head init).vars.length L = allUnboundLiteral P ∧
          L.AreAllVariablesUnBound = false) ∨
        (restrictTo (clauseAfter head init).vars.length L ∈
            keptLiterals ⟨some G, s.pruned⟩ P (G.lookup P) ∧
          (L ≠ restrictTo (clauseAfter head init).vars.length L ∨
            ¬ (s.literal.IsBound = true ∧ s.literal.Equals L = true))))) ↔
      RefinedSet bg head (init ++ [s]) P L := by
  have hcb : ∀ v ∈ (clauseAfter head init).vars, 0 ≤ v.variable_id := fun v hv => (hc v hv).1
  have hK1 : ∀ j L0, j < (init ++ [s]).length →
      RecordedPruned bg head (init ++ [s]) j P L0 →
      (IsCandidateOver (clauseAfter head (init.take j)).vars P L0 ∧
        L0.AreAllVariablesUnBound = false) ∧ j ≤ init.length := by
    intro j L0 hj hrec
    simp only [List.length_append, List.length_singleton] at hj
    by_cases hlt : j < init.length
    · obtain ⟨s2, Gj, idx, _, hr, _, hget⟩ :=
        (recordedPruned_append_lt bg head init s j hlt P L0).mp hrec
      exact ⟨hpre j hlt Gj L0 hr (List.getElem?_mem (by simpa using hget)), le_of_lt hlt⟩
    · have hje : j = init.length := by omega
      subst hje
      obtain ⟨idx, _, hget⟩ := (recordedPruned_append_last bg head init s G hrun P L0).mp hrec
      have hmem : L0 ∈ G.lookup P := List.getElem?_mem (by simpa using hget)
      rw [List.take_length]
      exact ⟨⟨((hG L0).mp hmem).1.1, ((hG L0).mp hmem).1.2.1⟩, le_refl _⟩
  have htake : ∀ j, j ≤ init.length → (init ++ [s]).take j = init.take j :=
    fun j hj => List.take_append_of_le_length hj
  have hK2 : ∀ j L0 (L2 : FoilLiteral) (vs : List FoilVariable),
      j < (init ++ [s]).length → RecordedPruned bg head (init ++ [s]) j P L0 →
      IsCandidateOver vs P L2 →
      laterVariablesExtension (clauseAfter head ((init ++ [s]).take j)).num_variables L0 L2 →
      restrictTo (clauseAfter head (init.take j)).vars.length L2 = L0 := by
    intro j L0 L2 vs hj hrec hL2 hlve
    obtain ⟨⟨hc0, _⟩, hjle⟩ := hK1 j L0 hj hrec
    rw [htake j hjle] at hlve
    exact restrict_of_lve _ vs _ (hprev j hjle).1 P L0 L2 hc0 hL2 hlve
  have hK3 : ∀ j L0 (L2 : FoilLiteral), j ≤ init.length →
      restrictTo (clauseAfter head (init.take j)).vars.length L2 = L0 →
      laterVariablesExtension (clauseAfter head ((init ++ [s]).take j)).num_variables L0 L2 := by
    intro j L0 L2 hjle h
    rw [htake j hjle, ← h]
    exact lve_of_restrict _ L2
  constructor
  · rintro ⟨hcand, hcase⟩
    have hcand2 : IsCandidateOver (clauseAfter head (init ++ [s])).vars P L := by
      rw [hvars2]
      exact hcand
    rcases hcase with ⟨hρ, hau⟩ | ⟨hk, hcond⟩
    · have hne : restrictTo (clauseAfter head init).vars.length L ≠ L := by
        intro h
        rw [h] at hρ
        rw [hρ, allUnbound_allUnbound] at hau
        exact absurd hau (by simp)
      refine ⟨⟨hcand2, hau, ?_, ?_⟩, ?_⟩
      · cases he : L.Equals head with
        | false => rfl
        | true => exact absurd (equals_restrict _ L head he hhv) hne
      · intro s2 hs2 _
        cases he : L.Equals s2.literal with
        | false => rfl
        | true => exact absurd (equals_restrict _ L s2.literal he (hsv s2 hs2)) hne
      · rintro ⟨j, L0, hj, hrec, hlve⟩
        obtain ⟨⟨_, hnau⟩, hjle⟩ := hK1 j L0 hj hrec
        have h1 := hK2 j L0 L _ hj hrec hcand hlve
        rw [← restrict_restrict _ _ (hprev j hjle).2, hρ,
          restrict_of_allUnbound _ _ (allUnbound_allUnbound P)] at h1
        rw [← h1, allUnbound_allUnbound] at hnau
        exact absurd hnau (by simp)
    · obtain ⟨hmem, hnrec⟩ := (keptLiterals_mem ⟨some G, s.pruned⟩ P _ hGn _).mp hk
      obtain ⟨⟨hoc, hoau, hoh, hos⟩, honp⟩ := (hG _).mp hmem
      refine ⟨⟨hcand2, ?_, ?_, ?_⟩, ?_⟩
      · cases he : L.AreAllVariablesUnBound with
        | false => rfl
        | true =>
          rw [restrict_of_allUnbound _ L he, he] at hoau
          exact absurd hoau (by simp)
      · cases he : L.Equals head with
        | false => rfl
        | true =>
          rw [equals_restrict _ L head he hhv, he] at hoh
          exact absurd hoh (by simp)
      · intro s2 hs2 hb
        cases he : L.Equals s2.literal with
        | false => rfl
        | true =>
          have hself := equals_restrict _ L s2.literal he (hsv s2 hs2)
          rcases List.mem_append.mp hs2 with h | h
          · have := hos s2 h hb
            rw [hself, he] at this
            exact absurd this (by simp)
          · rw [List.mem_singleton.mp h] at hb he
            rcases hcond with h2 | h2
            · exact absurd hself.symm h2
            · exact absurd ⟨hb, by rw [equals_comm]; exact he⟩ h2
      · rintro ⟨j, L0, hj, hrec, hlve⟩
        obtain ⟨_, hjle⟩ := hK1 j L0 hj hrec
        have h1 := hK2 j L0 L _ hj hrec hcand hlve
        simp only [List.length_append, List.length_singleton] at hj
        by_cases hlt : j < init.length
        · apply honp
          refine ⟨j, L0, hlt, (recordedPruned_append_lt bg head init s j hlt P L0).mp hrec, ?_⟩
          rw [← restrict_restrict _ _ (hprev j hjle).2] at h1
          rw [← h1]
          exact lve_of_restrict _ _
        · have hje : j = init.length := by omega
          subst hje
          rw [List.take_length] at h1
          apply hnrec
          obtain ⟨idx, hp, hget⟩ :=
            (recordedPruned_append_last bg head init s G hrun P L0).mp hrec
          exact ⟨idx, hp, by rw [h1]; exact hget⟩
  · rintro ⟨⟨hcand2, hau, hhead, hst⟩, hnp⟩
    have hcand : IsCandidateOver ((clauseAfter head init).vars ++ nvs) P L := by
      rw [← hvars2]
      exact hcand2
    refine ⟨hcand, ?_⟩
    by_cases hρ : restrictTo (clauseAfter head init).vars.length L = allUnboundLiteral P
    · exact Or.inl ⟨hρ, hau⟩
    · right
      have hoc := restrict_candidate _ nvs _ hn P L hcand
      have hoau : (restrictTo (clauseAfter head init).vars.length L).AreAllVariablesUnBound =
          false := by
        cases he : (restrictTo (clauseAfter head init).vars.length L).AreAllVariablesUnBound with
        | false => rfl
        | true => exact absurd ((candidate_allUnbound_iff _ hcb P _ hoc).mp he) hρ
      have hbound : ∀ X : FoilLiteral, (∀ v ∈ X.vars, 0 ≤ v.variable_id) →
          (restrictTo (clauseAfter head init).vars.length L).Equals X = true →
          L.Equals X = true := by
        intro X hX he
        have := restrict_bound_eq _ L (equals_isBound _ X he hX)
        rw [this] at he
        exact he
      have hnrec : ¬ ∃ idx, (P, idx) ∈ s.pruned ∧
          (G.lookup P).get? idx = some (restrictTo (clauseAfter head init).vars.length L) := by
        rintro ⟨idx, hp, hget⟩
        apply hnp
        refine ⟨init.length, _, by simp,
          (recordedPruned_append_last bg head init s G hrun P _).mpr ⟨idx, hp, hget⟩, ?_⟩
        apply hK3 _ _ _ (le_refl _)
        rw [List.take_length]
      have hmem : restrictTo (clauseAfter head init).vars.length L ∈ G.lookup P := by
        rw [hG]
        refine ⟨⟨hoc, hoau, ?_, ?_⟩, ?_⟩
        · cases he : (restrictTo (clauseAfter head init).vars.length L).Equals head with
          | false => rfl
          | true =>
            rw [hbound head hhb he] at hhead
            exact absurd hhead (by simp)
        · intro s2 hs2 hb
          cases he : (restrictTo (clauseAfter head init).vars.length L).Equals s2.literal with
          | false => rfl
          | true =>
            have := hst s2 (List.mem_append_left _ hs2) hb
            rw [hbound s2.literal (isBound_ids _ hb) he] at this
            exact absurd this (by simp)
        · rintro ⟨j, L0, hj, hrec, hlve⟩
          apply hnp
          have hj2 : j < (init ++ [s]).length := by
            simp only [List.length_append, List.length_singleton]
            omega
          have hrec2 := (recordedPruned_append_lt bg head init s j hj P L0).mpr hrec
          refine ⟨j, L0, hj2, hrec2, ?_⟩
          have hlve2 : laterVariablesExtension
              (clauseAfter head ((init ++ [s]).take j)).num_variables L0
              (restrictTo (clauseAfter head init).vars.length L) := by
            rw [htake j (le_of_lt hj)]
            exact hlve
          have h1 := hK2 j L0 _ _ hj2 hrec2 hoc hlve2
          rw [restrict_restrict _ _ (hprev j (le_of_lt hj)).2] at h1
          exact hK3 j L0 L (le_of_lt hj) h1
      refine ⟨(keptLiterals_mem ⟨some G, s.pruned⟩ P _ hGn _).mpr ⟨hmem, hnrec⟩, ?_⟩
      right
      rintro ⟨hb, he⟩
      have := hst s (List.mem_append_right _ (List.mem_singleton_self _)) hb
      rw [equals_comm, he] at this
      exact absurd this (by simp)

/-! ### The run of the enumerator -/

theorem enumeratorRun_of_fold (bg : List FoilPredicate) (head : FoilLiteral)
    (steps : List ExtensionStep) (st : FoilClause × LiteralSearchStats)
    (G prn : PredMap FoilLiteral)
    (hfold : steps.foldlM (runStep bg) (FoilClause.ofHead head, LiteralSearchStats.none) =
      some st)
    (henum : EnumerateCandidateLiterals bg st.1 st.2 = some (G, prn)) :
    enumeratorRun bg head steps = some G := by
  unfold enumeratorRun
  simp only [hfold, henum, Option.map_some']

theorem enumerateMostGeneral_spec (bg : List FoilPredicate) (hbg : bg.Nodup)
    (harity : ∀ P ∈ bg, 0 < P.num_arguments) (head : FoilLiteral) :
    ∃ G prn, EnumerateCandidateLiterals bg (FoilClause.ofHead head) LiteralSearchStats.none =
        some (G, prn) ∧
      ∀ P ∈ bg, (G.lookup P).Nodup ∧
        ∀ L, L ∈ G.lookup P ↔ RefinedSet bg head [] P L := by
  obtain ⟨hnd, hb⟩ := ids_nodup_of_range _ (ofHead_vars_ids head)
  obtain ⟨res, hres, hall, _⟩ := foldlM_predicates (fromScratchStep (FoilClause.ofHead head))
    (fun (P : FoilPredicate) (e p : List FoilLiteral) =>
      (∀ L, L ∈ e ↔ (IsCandidateOver (FoilClause.ofHead head).vars P L ∧
        L.AreAllVariablesUnBound = false ∧ L.Equals head = false)) ∧
      e.Pairwise (fun (a b : FoilLiteral) => a.Equals b = false) ∧ p = e)
    bg hbg
    (fun acc P hP h1 h2 =>
      fromScratchStep_spec (FoilClause.ofHead head) hnd hb P (harity P hP) acc h1 h2)
    ([], []) (fun P _ => ⟨rfl, rfl⟩)
  refine ⟨res.1, res.2, ?_, ?_⟩
  · have hbody : (FoilClause.ofHead head).body_literals.isEmpty = true := rfl
    unfold EnumerateCandidateLiterals
    rw [if_pos hbody]
    exact hres
  · intro P hP
    obtain ⟨hm, hp, _⟩ := hall P hP
    refine ⟨nodup_of_pairwise_not_equals _ hp, fun L => ?_⟩
    rw [hm L]
    simp [RefinedSet, FromScratchSet, clauseAfter]

theorem clauseAfter_append (head : FoilLiteral) (a b : List ExtensionStep) :
    clauseAfter head (a ++ b) =
      b.foldl (fun c s => c.AddUnBoundBodyLiteral s.literal s.is_random)
        (clauseAfter head a) := by
  simp [clauseAfter, List.foldl_append]

theorem validExtensions_split (bg : List FoilPredicate) (c : FoilClause)
    (a b : List ExtensionStep) (h : validExtensions bg c (a ++ b) = true) :
    validExtensions bg c a = true ∧
      validExtensions bg
        (a.foldl (fun c s => c.AddUnBoundBodyLiteral s.literal s.is_random) c) b = true := by
  rw [validExtensions_append, Bool.and_eq_true] at h
  exact h

theorem enumeratorRun_spec (bg : List FoilPredicate) (head : FoilLiteral)
    (hbg : bg.Nodup) (harity : ∀ P ∈ bg, 0 < P.num_arguments) (hkey : ∀ P ∈ bg, P.key < 0)
    (hpid : ∀ P ∈ head.predicate :: bg, ∀ Q ∈ head.predicate :: bg, P.id = Q.id → P = Q)
    (hhead : ∀ v ∈ head.vars, 0 ≤ v.variable_id ∧
      v.variable_id < ((FoilClause.ofHead head).vars.length : Int))
    (hheada : head.vars.length = head.predicate.num_arguments)
    (n : Nat) :
    ∀ steps : List ExtensionStep, steps.length = n →
      validExtensions bg (FoilClause.ofHead head) steps = true →
      ∃ st G prn,
        steps.foldlM (runStep bg) (FoilClause.ofHead head, LiteralSearchStats.none) =
          some st ∧
        st.1 = clauseAfter head steps ∧
        EnumerateCandidateLiterals bg st.1 st.2 = some (G, prn) ∧
        ∀ P ∈ bg, (G.lookup P).Nodup ∧
          ∀ L, L ∈ G.lookup P ↔ RefinedSet bg head steps P L := by
  induction n using Nat.strong_induction_on with
  | _ n ih =>
    intro steps hlen hvalid
    rcases List.eq_nil_or_concat steps with hnil | ⟨init, s, hsteps⟩
    · subst hnil
      obtain ⟨G, prn, henum, hchar⟩ := enumerateMostGeneral_spec bg hbg harity head
      exact ⟨(FoilClause.ofHead head, LiteralSearchStats.none), G, prn, rfl, rfl, henum, hchar⟩
    · rw [List.concat_eq_append] at hsteps
      subst hsteps
      have hlen2 : init.length < n := by
        rw [← hlen]
        simp
      obtain ⟨hvi, hvs⟩ := validExtensions_split bg _ init [s] hvalid
      obtain ⟨st, G, prn, hfold, hst, henum, hchar⟩ := ih init.length hlen2 init rfl hvi
      have hrun : enumeratorRun bg head init = some G :=
        enumeratorRun_of_fold bg head init st G prn hfold henum
      have hinv0 := clauseInvariant_ofHead bg head hhead
      obtain ⟨hinv, _, _, hsvi⟩ := clauseInvariant_foldl bg head init _ hinv0 hvi
      obtain ⟨_, _, _, hsp, hsa, hsvs⟩ := clauseInvariant_step bg head _ hinv s hvs
      obtain ⟨ar, har⟩ := arity_by_id (head.predicate :: bg) hpid
      have hcl : clauseAfter head init =
          init.foldl (fun c s => c.AddUnBoundBodyLiteral s.literal s.is_random)
            (FoilClause.ofHead head) := rfl
      rw [← hcl] at hinv hsvi hsvs
      have hGp : ∀ P ∈ bg, (G.lookup P).Nodup ∧
          ∀ old ∈ G.lookup P, IsCandidateOver (clauseAfter head init).vars P old ∧
            old.AreAllVariablesUnBound = false := by
        intro P hP
        refine ⟨(hchar P hP).1, fun old ho => ?_⟩
        have := ((hchar P hP).2 old).mp ho
        exact ⟨this.1.1, this.1.2.1⟩
      obtain ⟨G2, prn2, henum2, hchar2⟩ := enumerateNonMostGeneral_spec bg hbg harity hkey ar
        (fun P hP => har P (List.mem_cons_of_mem _ hP)) (clauseAfter head init) hinv.ids
        (by rw [hinv.head_eq, hheada]; exact har _ (List.mem_cons_self _ _))
        (by rw [hinv.head_eq]; exact hinv.head_vars)
        (fun b hb => ⟨(hinv.body b hb).1, by
          rw [(hinv.body b hb).2.1]
          exact har _ (List.mem_cons_of_mem _ (hinv.body b hb).2.2)⟩)
        s.literal s.is_random hsvs
        (by rw [hsa]; exact har _ (List.mem_cons_of_mem _ hsp))
        s.pruned G hGp
      obtain ⟨nvs, lb, hvars, _, _, hnv, _⟩ :=
        addUnBound_spec (clauseAfter head init) s.literal s.is_random hsvs
      have hcl2 : clauseAfter head (init ++ [s]) =
          (clauseAfter head init).AddUnBoundBodyLiteral s.literal s.is_random := by
        rw [clauseAfter_append]
        rfl
      refine ⟨((clauseAfter head init).AddUnBoundBodyLiteral s.literal s.is_random,
        ⟨some G, s.pruned⟩), G2, prn2, ?_, hcl2.symm, henum2, ?_⟩
      · rw [List.foldlM_append, hfold]
        have henum3 := henum
        rw [hst] at henum3
        simp [runStep, hst, henum3]
      · intro P hP
        refine ⟨(hchar2 P hP).1, fun L => ?_⟩
        rw [(hchar2 P hP).2 L, hvars]
        have hn : ∀ v ∈ nvs, ((clauseAfter head init).vars.length : Int) ≤ v.variable_id := by
          intro v hv
          have : v.variable_id ∈ nvs.map FoilVariable.variable_id := List.mem_map_of_mem _ hv
          rw [hnv] at this
          obtain ⟨k, hk, hkv⟩ := List.mem_map.mp this
          rw [← hkv]
          exact Int.ofNat_le.mpr (List.mem_range'_1.mp hk).1
        refine refined_step bg head init s P G hrun (hchar P hP).1 (hchar P hP).2 nvs
          (by rw [hcl2]; exact hvars) (ids_lt_of_range _ hinv.ids) hn
          (fun v hv => (hinv.head_vars v hv).2) (fun v hv => (hhead v hv).1) ?_ ?_ ?_ L
        · intro s2 hs2 v hv
          rcases List.mem_append.mp hs2 with h | h
          · exact hsvi s2 h v hv
          · rw [List.mem_singleton.mp h] at hv
            exact hsvs v hv
        · intro j hj Gj L0 hrj hmem
          have hvj : validExtensions bg (FoilClause.ofHead head) (init.take j) = true := by
            have h := hvi
            rw [← List.take_append_drop j init] at h
            exact (validExtensions_split bg _ _ _ h).1
          have hlj : (init.take j).length < n := by
            rw [List.length_take]
            omega
          obtain ⟨stj, Gj2, prnj, hfj, _, hej, hcj⟩ := ih _ hlj (init.take j) rfl hvj
          have := enumeratorRun_of_fold bg head _ stj Gj2 prnj hfj hej
          rw [hrj] at this
          have hGG : Gj = Gj2 := Option.some.inj this
          subst hGG
          have := ((hcj P hP).2 L0).mp hmem
          exact ⟨this.1.1, this.1.2.1⟩
        · intro j hj
          have h := hvi
          rw [← List.take_append_drop j init] at h
          obtain ⟨hv1, hv2⟩ := validExtensions_split bg _ _ _ h
          obtain ⟨hinvj, _, _, _⟩ := clauseInvariant_foldl bg head (init.take j) _ hinv0 hv1
          obtain ⟨_, hle, _, _⟩ := clauseInvariant_foldl bg head (init.drop j) _ hinvj hv2
          have hcj : clauseAfter head (init.take j) =
              (init.take j).foldl (fun c s => c.AddUnBoundBodyLiteral s.literal s.is_random)
                (FoilClause.ofHead head) := rfl
          rw [← hcj] at hinvj hle
          have hcc : (init.drop j).foldl
              (fun c s => c.AddUnBoundBodyLiteral s.literal s.is_random)
              (clauseAfter head (init.take j)) = clauseAfter head init := by
            rw [← clauseAfter_append, List.take_append_drop]
          rw [hcc] at hle
          exact ⟨ids_lt_of_range _ hinvj.ids, hle⟩

/-- C5: for a clause reached from the most general clause of `head` by successive
extensions with valid literals (background predicates without keys, pairwise distinct,
told apart by their ids, of arity at least one; the head variables are clause variables),
the enumerator returns, and for every background predicate its entire generated list has
no two equal literals and holds exactly the literals of the from-scratch set (the
type-compatible literals over the clause variables and the unbound marker, without the
all-unbound literal, the literals equal to the head and the literals equal to a fully
bound literal added to the body) that are neither recorded as pruned by coverage in an
earlier iteration nor obtained from such a literal by binding unbound positions to
variables introduced later. -/
theorem enumerator_refines_from_scratch (bg : List FoilPredicate) (head : FoilLiteral)
    (steps : List ExtensionStep)
    (hbg : bg.Nodup) (harity : ∀ P ∈ bg, 0 < P.num_arguments) (hkey : ∀ P ∈ bg, P.key < 0)
    (hpid : ∀ P ∈ head.predicate :: bg, ∀ Q ∈ head.predicate :: bg, P.id = Q.id → P = Q)
    (hhead : ∀ v ∈ head.vars, 0 ≤ v.variable_id ∧
      v.variable_id < ((FoilClause.ofHead head).vars.length : Int))
    (hheada : head.vars.length = head.predicate.num_arguments)
    (hvalid : validExtensions bg (FoilClause.ofHead head) steps = true) :
    ∃ G, enumeratorRun bg head steps = some G ∧
      ∀ P ∈ bg, (G.lookup P).Pairwise (fun a b => a.Equals b = false) ∧
        ∀ L, L ∈ G.lookup P ↔ RefinedSet bg head steps P L := by
  obtain ⟨st, G, prn, hfold, _, henum, hchar⟩ :=
    enumeratorRun_spec bg head hbg harity hkey hpid hhead hheada steps.length steps rfl hvalid
  refine ⟨G, enumeratorRun_of_fold bg head steps st G prn hfold henum, fun P hP => ?_⟩
  obtain ⟨hnd, hm⟩ := hchar P hP
  refine ⟨?_, hm⟩
  obtain ⟨hinv, _, _, _⟩ := clauseInvariant_foldl bg head steps _
    (clauseInvariant_ofHead bg head hhead) hvalid
  obtain ⟨hidn, hidb⟩ := ids_nodup_of_range _ hinv.ids
  exact candidates_pairwise _ hidn hidb P _ hnd (fun L hL => ((hm L).mp hL).1.1)

theorem enumerator_refines_from_scratch_witness :
    testBackground.Nodup ∧ (∀ P ∈ testBackground, 0 < P.num_arguments) ∧
    (∀ P ∈ testBackground, P.key < 0) ∧
    (∀ P ∈ testHead5.predicate :: testBackground,
      ∀ Q ∈ testHead5.predicate :: testBackground, P.id = Q.id → P = Q) ∧
    (∀ v ∈ testHead5.vars, 0 ≤ v.variable_id ∧
      v.variable_id < ((FoilClause.ofHead testHead5).vars.length : Int)) ∧
    testHead5.vars.length = testHead5.predicate.num_arguments ∧
    validExtensions testBackground (FoilClause.ofHead testHead5) testSteps = true ∧
    ∃ G, enumeratorRun testBackground testHead5 testSteps = some G ∧
      ∀ P ∈ testBackground, (G.lookup P).Pairwise (fun a b => a.Equals b = false) ∧
        ∀ L, L ∈ G.lookup P ↔ RefinedSet testBackground testHead5 testSteps P L :=
  ⟨by decide, by decide, by decide, by decide, by decide, by decide, by decide,
    enumerator_refines_from_scratch testBackground testHead5 testSteps (by decide) (by decide)
      (by decide) (by decide) (by decide) (by decide) (by decide)⟩

/-! ## The scores of the literal selector and the random candidates -/

/-- C20 (as stated, refuted): for a clause without positive bindings
`ComputeMccScore(P, N)` is `-1`, not `0`, and `ComputeAreaUnderEntropyCurve(0, 0)` is `0`,
not `1`: in both functions the test for a zero first argument comes first.  The square
root and the logarithms of the model are not reached. -/
theorem computeScores_counterexample :
    ComputeMccScore (ratDouble id id id) 0 3 0 3 ≠ (ratDouble id id id).ofInt 0 ∧
    ComputeAreaUnderEntropyCurve (ratDouble id id id) 0 0 ≠ (ratDouble id id id).ofInt 1 := by
  constructor
  · simp [ComputeMccScore, ratDouble]
  · simp [ComputeAreaUnderEntropyCurve, ratDouble]

/-- C20 (amended): for a clause with `P` positive and `N` negative bindings,
`ComputeMccScore(0, n) = -1` for every `n`; `ComputeMccScore(P, N) = 0` when `P` is not
`0`; `ComputeAreaUnderEntropyCurve(m, 0) = 1` for every `m` other than `0`; and
`ComputeAreaUnderEntropyCurve(0, k) = 0` for every `k`. -/
theorem computeScores_boundary (fm : DoubleModel) (P N n m k : Int) (hP : P ≠ 0)
    (hm : m ≠ 0) :
    ComputeMccScore fm P N 0 n = fm.ofInt (-1) ∧
    ComputeMccScore fm P N P N = fm.ofInt 0 ∧
    ComputeAreaUnderEntropyCurve fm m 0 = fm.ofInt 1 ∧
    ComputeAreaUnderEntropyCurve fm 0 k = fm.ofInt 0 := by
  refine ⟨?_, ?_, ?_, ?_⟩
  · simp [ComputeMccScore]
  · simp [ComputeMccScore, hP]
  · simp [ComputeAreaUnderEntropyCurve, hm]
  · simp [ComputeAreaUnderEntropyCurve]

theorem computeScores_boundary_witness :
    (2 : Int) ≠ 0 ∧ (1 : Int) ≠ 0 ∧
    (ComputeMccScore (ratDouble id id id) 2 3 0 7 = (ratDouble id id id).ofInt (-1) ∧
     ComputeMccScore (ratDouble id id id) 2 3 2 3 = (ratDouble id id id).ofInt 0 ∧
     ComputeAreaUnderEntropyCurve (ratDouble id id id) 1 0 = (ratDouble id id id).ofInt 1 ∧
     ComputeAreaUnderEntropyCurve (ratDouble id id id) 0 4 =
       (ratDouble id id id).ofInt 0) :=
  ⟨by decide, by decide,
    computeScores_boundary (ratDouble id id id) 2 3 7 1 4 (by decide) (by decide)⟩

/-- C19 (as stated, refuted): a candidate that is not dropped, has an unbound variable, a
raw MCC of `0` inside the margin, is not on the black list and needs no regrow, is still
not a random candidate when its binding counts equal its covered counts; the best random
literal stays empty.  The square root and the logarithms of the model are not reached. -/
theorem insert_random_counterexample :
    insertDiscards (ratDouble id id id) (fullCoverSelector _) fullCoverInfo = false ∧
    (∃ v ∈ fullCoverInfo.literal.vars, v.IsBound = false) ∧
    (ratDouble id id id).lt
      ((ratDouble id id id).neg (ratDouble id id id).random_margin)
      (insertRawMcc (ratDouble id id id) (fullCoverSelector _) fullCoverInfo) = true ∧
    (ratDouble id id id).lt
      (insertRawMcc (ratDouble id id id) (fullCoverSelector _) fullCoverInfo)
      (ratDouble id id id).random_margin = true ∧
    (∀ l ∈ (fullCoverSelector (ratDouble id id id)).black_random_literals,
      l.Equals fullCoverInfo.literal = false) ∧
    NeedRegrowImpl (fullCoverSelector (ratDouble id id id)).clause
      fullCoverInfo.num_covered_negative fullCoverInfo.literal = false ∧
    IsRandomCandidate (ratDouble id id id) (fullCoverSelector _) fullCoverInfo = false ∧
    (LiteralSelector.Insert (ratDouble id id id) true (fullCoverSelector _)
      fullCoverInfo).best_random_literal = none := by
  have hraw : insertRawMcc (ratDouble id id id) (fullCoverSelector _) fullCoverInfo
      = (0 : ℚ) := by
    simp [insertRawMcc, ComputeMccScore, fullCoverSelector, LiteralSelector.create,
      fullCoverInfo, ratDouble]
  have hdis : insertDiscards (ratDouble id id id) (fullCoverSelector _) fullCoverInfo
      = false := by
    unfold insertDiscards
    rw [hraw]
    simp [ComputeEntropyScore, ComputeAreaUnderEntropyCurve, fullCoverSelector,
      LiteralSelector.create, fullCoverInfo, ratDouble]
  have hrand : IsRandomCandidate (ratDouble id id id) (fullCoverSelector _)
      fullCoverInfo = false := by
    unfold IsRandomCandidate
    rw [hraw]
    simp [fullCoverInfo, ratDouble]
  have hregrow : NeedRegrowImpl (fullCoverSelector (ratDouble id id id)).clause
      fullCoverInfo.num_covered_negative fullCoverInfo.literal = false := by
    simp [NeedRegrowImpl, fullCoverInfo]
  refine ⟨hdis, ⟨⟨-1, 0⟩, by simp [fullCoverInfo], by decide⟩, ?_, ?_, ?_, hregrow, hrand,
    ?_⟩
  · rw [hraw]; simp [ratDouble]
  · rw [hraw]; simp [ratDouble]
  · intro l hl
    simp [fullCoverSelector, LiteralSelector.create] at hl
  · unfold LiteralSelector.Insert
    simp only [hdis, hrand, Bool.and_false, Bool.false_eq_true, if_false]
    simp [pushTopLiteral, fullCoverSelector, LiteralSelector.create]

/-- C19 (amended): in `LiteralSelector::Insert` with random literals considered, a
candidate is treated as a random candidate exactly when its literal has at least one
unbound variable, its raw MCC lies strictly between `-random_margin` and `+random_margin`,
no literal of the black list of the clause is `Equals` to it, `NeedRegrow` is false for
it, and it is not the case that the raw MCC is `0` while the binding counts equal the
covered counts. -/
theorem insert_random_candidate_iff (fm : DoubleModel) (sel : LiteralSelector fm)
    (info : CandidateLiteralInfo) :
    IsRandomCandidate fm sel info = true ↔
      ((∃ v ∈ info.literal.vars, v.IsBound = false) ∧
        fm.lt (fm.neg fm.random_margin) (insertRawMcc fm sel info) = true ∧
        fm.lt (insertRawMcc fm sel info) fm.random_margin = true ∧
        (∀ l ∈ sel.black_random_literals, l.Equals info.literal = false) ∧
        NeedRegrowImpl sel.clause info.num_covered_negative info.literal = false ∧
        ¬ (fm.eq (insertRawMcc fm sel info) (fm.ofInt 0) = true ∧
            info.num_binding_positive = info.num_covered_positive ∧
            info.num_binding_negative = info.num_covered_negative)) := by
  unfold IsRandomCandidate FoilLiteral.IsBound
  simp only [Bool.and_eq_true, Bool.not_eq_true', List.all_eq_false, List.any_eq_false,
    decide_eq_true_eq, Bool.and_eq_false_iff, decide_eq_false_iff_not]
  constructor
  · rintro ⟨⟨⟨⟨⟨h1, h2⟩, h3⟩, h4⟩, h5⟩, h6⟩
    refine ⟨?_, h4, h3, ?_, h6, ?_⟩
    · obtain ⟨v, hv, hb⟩ := h1
      exact ⟨v, hv, by simpa using hb⟩
    · intro l hl
      have := h5 l hl
      simpa using this
    · rintro ⟨a, b, c⟩
      rcases h2 with (h2 | h2) | h2
      · rw [a] at h2; exact Bool.noConfusion h2
      · exact h2 b
      · exact h2 c
  · rintro ⟨h1, h4, h3, h5, h6, h2⟩
    refine ⟨⟨⟨⟨⟨?_, ?_⟩, h3⟩, h4⟩, ?_⟩, h6⟩
    · obtain ⟨v, hv, hb⟩ := h1
      exact ⟨v, hv, by simpa using hb⟩
    · by_cases a : fm.eq (insertRawMcc fm sel info) (fm.ofInt 0) = true
      · by_cases b : info.num_binding_positive = info.num_covered_positive
        · right
          exact fun c => h2 ⟨a, b, c⟩
        · left; right; exact b
      · left; left
        simpa using a
    · intro l hl
      simpa using h5 l hl

/-! ## The filter on a join chunk -/

theorem option_mapM_map {α β : Type} (f : α → Option β) (g : α → β) (l : List α)
    (h : ∀ x ∈ l, f x = some (g x)) : l.mapM f = some (l.map g) := by
  induction l with
  | nil => rw [List.mapM_nil]; rfl
  | cons x t ih =>
    rw [List.mapM_cons, h x (List.mem_cons_self _ _),
      ih (fun z hz => h z (List.mem_cons_of_mem _ hz))]
    rfl

theorem get?_eq_some_getD {α : Type} (l : List α) (i : Nat) (d : α) (h : i < l.length) :
    l.get? i = some (l.getD i d) := by
  rw [List.get?_eq_getElem?, List.getD_eq_getElem?_getD, List.getElem?_eq_getElem h]
  rfl

theorem getD_mem_of_lt {α : Type} (l : List α) (i : Nat) (d : α) (h : i < l.length) :
    l.getD i d ∈ l := by
  rw [List.getD_eq_getElem?_getD, List.getElem?_eq_getElem h]
  exact List.getElem_mem _

theorem orBit_spec (bits : BitVector) (block_id bit : Nat) (value : Bool)
    (h : 64 * block_id + bit < bits.length) :
    ∃ out, orBit bits block_id bit value = some out ∧ out.length = bits.length ∧
      ∀ i, out.getD i false =
        if i = 64 * block_id + bit then (bits.getD i false || value) else bits.getD i false := by
  unfold orBit
  rw [get?_eq_some_getD bits _ false h]
  refine ⟨_, rfl, by simp, ?_⟩
  intro i
  by_cases hi : i = 64 * block_id + bit
  · subst hi
    simp [List.getD_eq_getElem?_getD, List.getElem?_set, h]
  · have hne : ¬ (64 * block_id + bit = i) := fun e => hi e.symm
    simp [List.getD_eq_getElem?_getD, List.getElem?_set, hi, hne]

theorem fillBlock_spec (probe_values build_values : List Int) (probe_tids build_tids : List Nat)
    (g : Nat → Bool) (block_id : Nat) :
    ∀ (k : Nat) (bits : BitVector), 64 * block_id + k ≤ bits.length →
      (∀ j, j < k → compareAt probe_values build_values probe_tids build_tids
        (64 * block_id + j) = some (g (64 * block_id + j))) →
      ∃ out, fillBlock probe_values build_values probe_tids build_tids block_id k bits
          = some out ∧ out.length = bits.length ∧
        ∀ i, out.getD i false =
          if 64 * block_id ≤ i ∧ i < 64 * block_id + k then (bits.getD i false || g i)
          else bits.getD i false := by
  intro k
  induction k with
  | zero =>
    intro bits _ _
    refine ⟨bits, rfl, rfl, ?_⟩
    intro i
    have : ¬ (64 * block_id ≤ i ∧ i < 64 * block_id + 0) := by omega
    rw [if_neg this]
  | succ k ih =>
    intro bits hlen hcmp
    obtain ⟨mid, hmid, hmlen, hmbits⟩ := ih bits (by omega) (fun j hj => hcmp j (by omega))
    obtain ⟨out, hout, holen, hobits⟩ := orBit_spec mid block_id k (g (64 * block_id + k))
      (by omega)
    refine ⟨out, ?_, by omega, ?_⟩
    · unfold fillBlock at hmid ⊢
      rw [List.range_succ, List.foldlM_append, hmid]
      simp only [Option.bind_eq_bind, Option.some_bind, List.foldlM_cons, List.foldlM_nil]
      rw [hcmp k (by omega)]
      simp only [hout]
      rfl
    · intro i
      rw [hobits i, hmbits i]
      by_cases h1 : i = 64 * block_id + k
      · subst h1
        have h2 : ¬ (64 * block_id ≤ 64 * block_id + k ∧ 64 * block_id + k < 64 * block_id + k) := by
          omega
        have h3 : 64 * block_id ≤ 64 * block_id + k ∧
            64 * block_id + k < 64 * block_id + (k + 1) := by omega
        simp [h2, h3]
      · by_cases h2 : 64 * block_id ≤ i ∧ i < 64 * block_id + k
        · have h3 : 64 * block_id ≤ i ∧ i < 64 * block_id + (k + 1) := by omega
          simp [h1, h2, h3]
        · have h3 : ¬ (64 * block_id ≤ i ∧ i < 64 * block_id + (k + 1)) := by omega
          simp [h1, h2, h3]

theorem fillBlocks_spec (probe_values build_values : List Int) (probe_tids build_tids : List Nat)
    (g : Nat → Bool) :
    ∀ (m : Nat) (bits : BitVector), 64 * m ≤ bits.length →
      (∀ t, t < 64 * m → compareAt probe_values build_values probe_tids build_tids t
        = some (g t)) →
      ∃ out, (List.range m).foldlM (fun (out : BitVector) (block_id : Nat) =>
          fillBlock probe_values build_values probe_tids build_tids block_id 64 out) bits
          = some out ∧ out.length = bits.length ∧
        ∀ i, out.getD i false =
          if i < 64 * m then (bits.getD i false || g i) else bits.getD i false := by
  intro m
  induction m with
  | zero =>
    intro bits _ _
    exact ⟨bits, rfl, rfl, fun i => by simp⟩
  | succ m ih =>
    intro bits hlen hcmp
    obtain ⟨mid, hmid, hmlen, hmbits⟩ := ih bits (by omega) (fun t ht => hcmp t (by omega))
    obtain ⟨out, hout, holen, hobits⟩ := fillBlock_spec probe_values build_values probe_tids
      build_tids g m 64 mid (by omega) (fun j hj => hcmp _ (by omega))
    refine ⟨out, ?_, by omega, ?_⟩
    · rw [List.range_succ, List.foldlM_append, hmid]
      simp only [Option.bind_eq_bind, Option.some_bind, List.foldlM_cons, List.foldlM_nil]
      rw [hout]
      rfl
    · intro i
      rw [hobits i, hmbits i]
      by_cases h1 : i < 64 * m
      · have h2 : ¬ (64 * m ≤ i ∧ i < 64 * m + 64) := by omega
        have h3 : i < 64 * (m + 1) := by omega
        simp [h1, h2, h3]
      · by_cases h2 : i < 64 * (m + 1)
        · have h3 : 64 * m ≤ i ∧ i < 64 * m + 64 := by omega
          simp [h1, h2, h3]
        · have h3 : ¬ (64 * m ≤ i ∧ i < 64 * m + 64) := by omega
          simp [h1, h2, h3]

theorem compareAt_spec (probe_values build_values : List Int) (probe_tids build_tids : List Nat)
    (hlen : build_tids.length = probe_tids.length)
    (hp : ∀ p ∈ probe_tids, p < probe_values.length)
    (hb : ∀ b ∈ build_tids, b < build_values.length) (t : Nat) (ht : t < probe_tids.length) :
    compareAt probe_values build_values probe_tids build_tids t =
      some (decide (probe_values.getD (probe_tids.getD t 0) 0 =
        build_values.getD (build_tids.getD t 0) 0)) := by
  have ht2 : t < build_tids.length := by omega
  have h1 := get?_eq_some_getD probe_tids t 0 ht
  have h2 := get?_eq_some_getD build_tids t 0 ht2
  have hp1 : probe_tids.getD t 0 < probe_values.length := hp _ (getD_mem_of_lt _ _ _ ht)
  have hb1 : build_tids.getD t 0 < build_values.length := hb _ (getD_mem_of_lt _ _ _ ht2)
  have h3 := get?_eq_some_getD probe_values _ 0 hp1
  have h4 := get?_eq_some_getD build_values _ 0 hb1
  unfold compareAt
  rw [h1, h2]
  simp only [h3, h4]
  rfl

theorem evaluateForJoin_spec (predicate : FoilFilterPredicate)
    (probe_columns build_columns : List (List Int)) (probe_tids build_tids : List Nat)
    (probe_values build_values : List Int)
    (hpc : probe_columns.get? predicate.probe_attribute = some probe_values)
    (hbc : build_columns.get? predicate.build_attribute = some build_values)
    (hlen : build_tids.length = probe_tids.length)
    (hp : ∀ p ∈ probe_tids, p < probe_values.length)
    (hb : ∀ b ∈ build_tids, b < build_values.length) :
    ∃ out, predicate.EvaluateForJoin probe_columns build_columns probe_tids build_tids
        = some out ∧ out.length = probe_tids.length ∧
      ∀ t, t < probe_tids.length →
        (out.getD t false = true ↔
          probe_values.getD (probe_tids.getD t 0) 0 =
            build_values.getD (build_tids.getD t 0) 0) := by
  have hn := Nat.div_add_mod probe_tids.length 64
  obtain ⟨full, hfull, hflen, hfbits⟩ := fillBlocks_spec probe_values build_values probe_tids
    build_tids (fun t => decide (probe_values.getD (probe_tids.getD t 0) 0 =
        build_values.getD (build_tids.getD t 0) 0)) (probe_tids.length / 64)
    (List.replicate probe_tids.length false) (by rw [List.length_replicate]; omega)
    (fun t ht => compareAt_spec _ _ _ _ hlen hp hb t (by omega))
  obtain ⟨out, hout, holen, hobits⟩ := fillBlock_spec probe_values build_values probe_tids
    build_tids (fun t => decide (probe_values.getD (probe_tids.getD t 0) 0 =
        build_values.getD (build_tids.getD t 0) 0)) (probe_tids.length / 64)
    (probe_tids.length % 64) full (by rw [hflen, List.length_replicate]; omega)
    (fun j hj => compareAt_spec _ _ _ _ hlen hp hb _ (by omega))
  refine ⟨out, ?_, by rw [holen, hflen]; simp, ?_⟩
  · unfold FoilFilterPredicate.EvaluateForJoin
    rw [hpc, hbc]
    simp only [hfull, hout]
  · intro t ht
    rw [hobits t, hfbits t]
    have hrep : (List.replicate probe_tids.length false).getD t false = false := by
      simp [List.getD_eq_getElem?_getD, List.getElem?_replicate, ht]
    rw [hrep]
    by_cases h1 : t < 64 * (probe_tids.length / 64)
    · have h2 : ¬ (64 * (probe_tids.length / 64) ≤ t ∧
          t < 64 * (probe_tids.length / 64) + probe_tids.length % 64) := by omega
      simp [h1, h2]
    · have h2 : 64 * (probe_tids.length / 64) ≤ t ∧
          t < 64 * (probe_tids.length / 64) + probe_tids.length % 64 := by omega
      simp [h1, h2]

/-- C17: for a hash-join chunk with `n` joined tuples and the predicate group of its
table and join group, `Filter::Next` returns one bit vector per predicate of the group;
the bit vector of the equality predicate (probe attribute `x`, build attribute `y`) has
length `n`, and its bit `t` is set exactly when
`probe_columns[x][probe_tids[t]] = build_columns[y][build_tids[t]]`, for every `t < n`.
The chunk has as many build ids as probe ids, and the ids and the attributes are inside
the columns. -/
theorem filter_next_bits (predicate_groups : List (List (List FoilFilterPredicate)))
    (chunk : HashJoinChunk) (predicate_group : List FoilFilterPredicate)
    (hgroup : (predicate_groups.get? chunk.table_id).bind
      (fun g => g.get? chunk.join_group_id) = some predicate_group)
    (hlen : chunk.build_tids.length = chunk.probe_tids.length)
    (hattr : ∀ predicate ∈ predicate_group,
      predicate.probe_attribute < chunk.probe_columns.length ∧
      predicate.build_attribute < chunk.build_columns.length)
    (hp : ∀ column ∈ chunk.probe_columns, ∀ p ∈ chunk.probe_tids, p < column.length)
    (hb : ∀ column ∈ chunk.build_columns, ∀ b ∈ chunk.build_tids, b < column.length) :
    ∃ bit_vectors,
      Filter.Next predicate_groups (some chunk) = some (some ⟨chunk, bit_vectors⟩) ∧
      bit_vectors.length = predicate_group.length ∧
      ∀ (i : Nat) (predicate : FoilFilterPredicate),
        predicate_group.get? i = some predicate →
        ∃ bits, bit_vectors.get? i = some bits ∧ bits.length = chunk.probe_tids.length ∧
          ∀ t, t < chunk.probe_tids.length →
            (bits.getD t false = true ↔
              (chunk.probe_columns.getD predicate.probe_attribute []).getD
                  (chunk.probe_tids.getD t 0) 0 =
                (chunk.build_columns.getD predicate.build_attribute []).getD
                  (chunk.build_tids.getD t 0) 0) := by
  have hspec : ∀ predicate ∈ predicate_group,
      ∃ out, predicate.EvaluateForJoin chunk.probe_columns chunk.build_columns
          chunk.probe_tids chunk.build_tids = some out ∧
        out.length = chunk.probe_tids.length ∧
        ∀ t, t < chunk.probe_tids.length →
          (out.getD t false = true ↔
            (chunk.probe_columns.getD predicate.probe_attribute []).getD
                (chunk.probe_tids.getD t 0) 0 =
              (chunk.build_columns.getD predicate.build_attribute []).getD
                (chunk.build_tids.getD t 0) 0) := by
    intro predicate hmem
    obtain ⟨ha1, ha2⟩ := hattr predicate hmem
    have hpc := get?_eq_some_getD chunk.probe_columns _ [] ha1
    have hbc := get?_eq_some_getD chunk.build_columns _ [] ha2
    have hpm := getD_mem_of_lt chunk.probe_columns _ [] ha1
    have hbm := getD_mem_of_lt chunk.build_columns _ [] ha2
    exact evaluateForJoin_spec predicate _ _ _ _ _ _ hpc hbc hlen (hp _ hpm) (hb _ hbm)
  have hmap := option_mapM_map (fun (p : FoilFilterPredicate) =>
      p.EvaluateForJoin chunk.probe_columns chunk.build_columns chunk.probe_tids
        chunk.build_tids)
    (fun p => (p.EvaluateForJoin chunk.probe_columns chunk.build_columns chunk.probe_tids
        chunk.build_tids).getD []) predicate_group
    (fun p hmem => by
      obtain ⟨out, ho, _⟩ := hspec p hmem
      simp only [ho, Option.getD_some])
  refine ⟨predicate_group.map (fun p => (p.EvaluateForJoin chunk.probe_columns
    chunk.build_columns chunk.probe_tids chunk.build_tids).getD []), ?_, ?_, ?_⟩
  · unfold Filter.Next
    simp only [hgroup, hmap]
  · simp
  · intro i predicate hi
    have hmem : predicate ∈ predicate_group := List.get?_mem hi
    obtain ⟨out, ho, holen, hobits⟩ := hspec predicate hmem
    refine ⟨out, ?_, holen, hobits⟩
    rw [List.get?_eq_getElem?, List.getElem?_map]
    rw [List.get?_eq_getElem?] at hi
    rw [hi]
    simp [ho]

theorem filter_next_bits_witness :
    ∃ bit_vectors,
      Filter.Next [[[⟨0, 1⟩]]] (some filterTestChunk) =
        some (some ⟨filterTestChunk, bit_vectors⟩) ∧
      bit_vectors.length = [(⟨0, 1⟩ : FoilFilterPredicate)].length ∧
      ∀ (i : Nat) (predicate : FoilFilterPredicate),
        [(⟨0, 1⟩ : FoilFilterPredicate)].get? i = some predicate →
        ∃ bits, bit_vectors.get? i = some bits ∧
          bits.length = filterTestChunk.probe_tids.length ∧
          ∀ t, t < filterTestChunk.probe_tids.length →
            (bits.getD t false = true ↔
              (filterTestChunk.probe_columns.getD predicate.probe_attribute []).getD
                  (filterTestChunk.probe_tids.getD t 0) 0 =
                (filterTestChunk.build_columns.getD predicate.build_attribute []).getD
                  (filterTestChunk.build_tids.getD t 0) 0) :=
  filter_next_bits [[[⟨0, 1⟩]]] filterTestChunk [⟨0, 1⟩] (by decide) (by decide) (by decide)
    (by decide) (by decide)

/-! ## The partition assigner -/

theorem assigner_next_mono (c : Nat) :
    ∀ (fuel : Nat) (a : PartitionAssigner) (r : Option PartitionChunk × PartitionAssigner),
      PartitionAssigner.Next c fuel a = some r → PartitionAssigner.Next c (fuel + 1) a = some r := by
  intro fuel
  induction fuel with
  | zero => intro a r h; simp [PartitionAssigner.Next] at h
  | succ n ih =>
    intro a r h
    rw [PartitionAssigner.Next] at h ⊢
    cases hp : a.cur_partitions.get? a.cur_partition_id with
    | none => rw [hp] at h; simp at h
    | some cur =>
      rw [hp] at h
      simp only at h ⊢
      by_cases hoff : a.cur_partition_offset = cur.length
      · rw [if_pos hoff] at h ⊢
        cases hm : a.MoveToNextJoinGroup with
        | none => rw [hm] at h; simp at h
        | some m =>
          obtain ⟨b, a1⟩ := m
          rw [hm] at h
          cases b with
          | true => simpa using h
          | false =>
            simp only at h ⊢
            exact ih a1 r h
      · rw [if_neg hoff] at h ⊢
        exact h

theorem assigner_drain_mono (c : Nat) :
    ∀ (fuel : Nat) (a : PartitionAssigner) (X : List PartitionChunk),
      PartitionAssigner.drain c fuel a = some X →
      PartitionAssigner.drain c (fuel + 1) a = some X := by
  intro fuel
  induction fuel with
  | zero => intro a X h; simp [PartitionAssigner.drain] at h
  | succ n ih =>
    intro a X h
    rw [PartitionAssigner.drain] at h ⊢
    cases hn : PartitionAssigner.Next c (n + 1) a with
    | none => rw [hn] at h; simp at h
    | some r =>
      rw [hn] at h
      rw [assigner_next_mono c (n + 1) a r hn]
      obtain ⟨oc, a1⟩ := r
      cases oc with
      | none => exact h
      | some chunk =>
        simp only at h ⊢
        cases hd : PartitionAssigner.drain c n a1 with
        | none => rw [hd] at h; simp at h
        | some chunks =>
          rw [hd] at h
          rw [ih a1 chunks hd]
          exact h

theorem assigner_drain_mono_le (c : Nat) (a : PartitionAssigner) (X : List PartitionChunk)
    (f1 f2 : Nat) (hle : f1 ≤ f2) (h : PartitionAssigner.drain c f1 a = some X) :
    PartitionAssigner.drain c f2 a = some X := by
  induction hle with
  | refl => exact h
  | step _ ih => exact assigner_drain_mono c _ a X ih

theorem assigner_next_mono_le (c : Nat) (a : PartitionAssigner)
    (r : Option PartitionChunk × PartitionAssigner)
    (f1 f2 : Nat) (hle : f1 ≤ f2) (h : PartitionAssigner.Next c f1 a = some r) :
    PartitionAssigner.Next c f2 a = some r := by
  induction hle with
  | refl => exact h
  | step _ ih => exact assigner_next_mono c _ a r ih

/-- With enough fuel the calls of `Next` from `a` return the chunks `X` and then null. -/
theorem assigner_drains_emit (c : Nat) (a a1 : PartitionAssigner) (chunk : PartitionChunk)
    (X : List PartitionChunk)
    (hnext : PartitionAssigner.Next c 1 a = some (some chunk, a1))
    (h : ∃ f, PartitionAssigner.drain c f a1 = some X) :
    ∃ f, PartitionAssigner.drain c f a = some (chunk :: X) := by
  obtain ⟨f, hf⟩ := h
  refine ⟨f + 1, ?_⟩
  rw [PartitionAssigner.drain, assigner_next_mono_le c a _ 1 (f + 1) (by omega) hnext]
  simp only [hf]

theorem assigner_drains_move (c : Nat) (a a1 : PartitionAssigner) (cur : List PartitionTuple)
    (X : List PartitionChunk)
    (hcur : a.cur_partitions.get? a.cur_partition_id = some cur)
    (hoff : a.cur_partition_offset = cur.length)
    (hmove : a.MoveToNextJoinGroup = some (false, a1))
    (h : ∃ f, PartitionAssigner.drain c f a1 = some X) :
    ∃ f, PartitionAssigner.drain c f a = some X := by
  obtain ⟨f, hf⟩ := h
  cases f with
  | zero => simp [PartitionAssigner.drain] at hf
  | succ n =>
    refine ⟨n + 2, ?_⟩
    rw [PartitionAssigner.drain] at hf ⊢
    have hstep : ∀ r, PartitionAssigner.Next c (n + 1) a1 = some r →
        PartitionAssigner.Next c (n + 1 + 1) a = some r := by
      intro r hr
      rw [PartitionAssigner.Next, hcur]
      simp only [hoff, if_true, hmove]
      exact hr
    cases hn : PartitionAssigner.Next c (n + 1) a1 with
    | none => rw [hn] at hf; simp at hf
    | some r =>
      rw [hn] at hf
      rw [hstep r hn]
      obtain ⟨oc, a2⟩ := r
      cases oc with
      | none => exact hf
      | some chunk =>
        simp only at hf ⊢
        cases hd : PartitionAssigner.drain c n a2 with
        | none => rw [hd] at hf; simp at hf
        | some chunks =>
          rw [hd] at hf
          rw [assigner_drain_mono c n a2 chunks hd]
          exact hf

theorem assigner_drains_finish (c : Nat) (a a1 : PartitionAssigner) (cur : List PartitionTuple)
    (hcur : a.cur_partitions.get? a.cur_partition_id = some cur)
    (hoff : a.cur_partition_offset = cur.length)
    (hmove : a.MoveToNextJoinGroup = some (true, a1)) :
    ∃ f, PartitionAssigner.drain c f a = some [] := by
  refine ⟨1, ?_⟩
  rw [PartitionAssigner.drain, PartitionAssigner.Next, hcur]
  simp only [hoff, if_true, hmove]
theorem assignerAt_cur (tables : List PartitionedTable) (ids : List (List Nat)) (P : Nat)
    (W : WellPartitioned tables ids P) (p t g off : Nat) (hp : p < P) (ht : t < tables.length)
    (hg : g < (ids.getD t []).length) :
    (assignerAt tables ids P p t g off).cur_partitions.get?
        (assignerAt tables ids P p t g off).cur_partition_id
      = some (partitionArray tables ids t g p) := by
  obtain ⟨parts, hparts, hlen⟩ := W.partitioned t g ht hg
  simp only [assignerAt, partitionArray, hparts, Option.getD_some]
  exact get?_eq_some_getD parts p [] (by omega)

theorem assigner_next_emit (c : Nat) (tables : List PartitionedTable) (ids : List (List Nat))
    (P : Nat) (W : WellPartitioned tables ids P) (p t g off : Nat) (hp : p < P)
    (ht : t < tables.length) (hg : g < (ids.getD t []).length)
    (hoff : off < (partitionArray tables ids t g p).length) :
    PartitionAssigner.Next c 1 (assignerAt tables ids P p t g off) =
      some (some ⟨t, g, p,
          ((partitionArray tables ids t g p).drop off).take
            (min c ((partitionArray tables ids t g p).length - off)),
          (tables.getD t ⟨[], []⟩).columns⟩,
        assignerAt tables ids P p t g
          (off + min c ((partitionArray tables ids t g p).length - off))) := by
  rw [PartitionAssigner.Next, assignerAt_cur tables ids P W p t g off hp ht hg]
  have hne : ¬ (assignerAt tables ids P p t g off).cur_partition_offset =
      (partitionArray tables ids t g p).length := by
    simp only [assignerAt]; omega
  simp only [hne, if_false]
  have htab : (assignerAt tables ids P p t g off).tables.get?
      (assignerAt tables ids P p t g off).cur_table_id = some (tables.getD t ⟨[], []⟩) :=
    get?_eq_some_getD tables t _ ht
  rw [htab]
  rfl

theorem assigner_move_group (tables : List PartitionedTable) (ids : List (List Nat))
    (P : Nat) (W : WellPartitioned tables ids P) (p t g off : Nat)
    (ht : t < tables.length) (hg : g + 1 < (ids.getD t []).length) :
    (assignerAt tables ids P p t g off).MoveToNextJoinGroup =
      some (false, assignerAt tables ids P p t (g + 1) 0) := by
  obtain ⟨parts, hparts, hlen⟩ := W.partitioned t (g + 1) ht hg
  have hids : ids.get? t = some (ids.getD t []) :=
    get?_eq_some_getD ids t [] (by rw [W.ids_length]; exact ht)
  unfold PartitionAssigner.MoveToNextJoinGroup
  simp only [assignerAt, hids]
  have hne : ¬ (g + 1 = (ids.getD t []).length) := by omega
  simp only [hne, if_false, hparts, Option.getD_some, Bool.false_eq_true]

theorem assigner_move_table (tables : List PartitionedTable) (ids : List (List Nat))
    (P : Nat) (W : WellPartitioned tables ids P) (p t g off : Nat)
    (ht : t + 1 < tables.length) (hg : g + 1 = (ids.getD t []).length) :
    (assignerAt tables ids P p t g off).MoveToNextJoinGroup =
      some (false, assignerAt tables ids P p (t + 1) 0 0) := by
  obtain ⟨parts, hparts, hlen⟩ := W.partitioned (t + 1) 0 ht (W.groups_pos (t + 1) ht)
  have hids : ids.get? t = some (ids.getD t []) :=
    get?_eq_some_getD ids t [] (by rw [W.ids_length]; omega)
  unfold PartitionAssigner.MoveToNextJoinGroup PartitionAssigner.MoveToNextJoinTable
  simp only [assignerAt, hids]
  have hne : ¬ (t + 1 = tables.length) := by omega
  simp only [hg, if_true, hne, if_false, hparts, Option.getD_some, Bool.false_eq_true]

theorem assigner_move_partition (tables : List PartitionedTable) (ids : List (List Nat))
    (P : Nat) (W : WellPartitioned tables ids P) (p t g off : Nat)
    (hp : p + 1 < P) (ht : t + 1 = tables.length) (hg : g + 1 = (ids.getD t []).length) :
    (assignerAt tables ids P p t g off).MoveToNextJoinGroup =
      some (false, assignerAt tables ids P (p + 1) 0 0 0) := by
  obtain ⟨parts, hparts, hlen⟩ := W.partitioned 0 0 W.tables_pos (W.groups_pos 0 W.tables_pos)
  have hids : ids.get? t = some (ids.getD t []) :=
    get?_eq_some_getD ids t [] (by rw [W.ids_length]; omega)
  unfold PartitionAssigner.MoveToNextJoinGroup PartitionAssigner.MoveToNextJoinTable
    PartitionAssigner.MoveToNextPartition
  simp only [assignerAt, hids]
  have hne : ¬ (p + 1 = P) := by omega
  simp [hg, ht, hne, hparts]

theorem assigner_move_end (tables : List PartitionedTable) (ids : List (List Nat))
    (P : Nat) (W : WellPartitioned tables ids P) (p t g off : Nat)
    (hp : p + 1 = P) (ht : t + 1 = tables.length) (hg : g + 1 = (ids.getD t []).length) :
    ∃ a1, (assignerAt tables ids P p t g off).MoveToNextJoinGroup = some (true, a1) := by
  have hids : ids.get? t = some (ids.getD t []) :=
    get?_eq_some_getD ids t [] (by rw [W.ids_length]; omega)
  unfold PartitionAssigner.MoveToNextJoinGroup PartitionAssigner.MoveToNextJoinTable
    PartitionAssigner.MoveToNextPartition
  simp only [assignerAt, hids]
  simp [hg, ht, hp]
theorem chunk_count_le (c len : Nat) (hc : 0 < c) : len ≤ (len + c - 1) / c * c := by
  by_contra h
  have h1 : (len + c - 1) / c + 1 ≤ (len + c - 1) / c := by
    rw [Nat.le_div_iff_mul_le hc, Nat.succ_mul]
    omega
  omega

theorem chunk_count_lt (c len k : Nat) (hc : 0 < c) (hk : k < (len + c - 1) / c) :
    k * c < len := by
  have h1 : k + 1 ≤ (len + c - 1) / c := hk
  rw [Nat.le_div_iff_mul_le hc, Nat.succ_mul] at h1
  omega

theorem take_min_length {α : Type} (c : Nat) (l : List α) :
    l.take (min c l.length) = l.take c := by
  by_cases h : c ≤ l.length
  · rw [Nat.min_eq_left h]
  · rw [Nat.min_eq_right (by omega), List.take_of_length_le (le_refl _),
      List.take_of_length_le (by omega)]

theorem assigner_slot (c : Nat) (hc : 0 < c) (tables : List PartitionedTable)
    (ids : List (List Nat)) (P : Nat) (W : WellPartitioned tables ids P) (p t g : Nat)
    (hp : p < P) (ht : t < tables.length) (hg : g < (ids.getD t []).length)
    (X : List PartitionChunk)
    (hX : ∃ f, PartitionAssigner.drain c f
      (assignerAt tables ids P p t g (partitionArray tables ids t g p).length) = some X) :
    ∀ (d k : Nat), k + d = ((partitionArray tables ids t g p).length + c - 1) / c →
      ∃ f, PartitionAssigner.drain c f
          (assignerAt tables ids P p t g
            (min (k * c) (partitionArray tables ids t g p).length))
        = some ((List.range' k d).map (fun k =>
            (⟨t, g, p, ((partitionArray tables ids t g p).drop (k * c)).take c,
              (tables.getD t ⟨[], []⟩).columns⟩ : PartitionChunk)) ++ X) := by
  intro d
  induction d with
  | zero =>
    intro k hk
    have hle := chunk_count_le c (partitionArray tables ids t g p).length hc
    rw [Nat.add_zero] at hk
    rw [← hk] at hle
    rw [Nat.min_eq_right hle]
    simpa using hX
  | succ d ih =>
    intro k hk
    have hlt := chunk_count_lt c (partitionArray tables ids t g p).length k hc (by omega)
    rw [Nat.min_eq_left (le_of_lt hlt)]
    have hnext := assigner_next_emit c tables ids P W p t g (k * c) hp ht hg hlt
    have hoff : k * c + min c ((partitionArray tables ids t g p).length - k * c) =
        min ((k + 1) * c) (partitionArray tables ids t g p).length := by
      rw [Nat.succ_mul]
      omega
    have htake : ((partitionArray tables ids t g p).drop (k * c)).take
        (min c ((partitionArray tables ids t g p).length - k * c)) =
        ((partitionArray tables ids t g p).drop (k * c)).take c := by
      have := take_min_length c ((partitionArray tables ids t g p).drop (k * c))
      rw [List.length_drop] at this
      exact this
    rw [hoff, htake] at hnext
    have hrest := ih (k + 1) (by omega)
    have := assigner_drains_emit c _ _ _ _ hnext hrest
    rw [List.range'_succ, List.map_cons, List.cons_append]
    exact this

theorem assigner_slot_all (c : Nat) (hc : 0 < c) (tables : List PartitionedTable)
    (ids : List (List Nat)) (P : Nat) (W : WellPartitioned tables ids P) (p t g : Nat)
    (hp : p < P) (ht : t < tables.length) (hg : g < (ids.getD t []).length)
    (X : List PartitionChunk)
    (hX : ∃ f, PartitionAssigner.drain c f
      (assignerAt tables ids P p t g (partitionArray tables ids t g p).length) = some X) :
    ∃ f, PartitionAssigner.drain c f (assignerAt tables ids P p t g 0)
      = some (groupChunks c tables ids p t g ++ X) := by
  have := assigner_slot c hc tables ids P W p t g hp ht hg X hX _ 0 (Nat.zero_add _)
  rw [Nat.zero_mul, Nat.zero_min] at this
  unfold groupChunks chunksOfPartition
  rw [List.range_eq_range']
  exact this

theorem assigner_groups (c : Nat) (hc : 0 < c) (tables : List PartitionedTable)
    (ids : List (List Nat)) (P : Nat) (W : WellPartitioned tables ids P) (p t : Nat)
    (hp : p < P) (ht : t < tables.length) (Y : List PartitionChunk)
    (hY : ∃ f, PartitionAssigner.drain c f
      (assignerAt tables ids P p t ((ids.getD t []).length - 1)
        (partitionArray tables ids t ((ids.getD t []).length - 1) p).length) = some Y) :
    ∀ (d g : Nat), g + d + 1 = (ids.getD t []).length →
      ∃ f, PartitionAssigner.drain c f (assignerAt tables ids P p t g 0)
        = some ((List.range' g (d + 1)).flatMap (groupChunks c tables ids p t) ++ Y) := by
  intro d
  induction d with
  | zero =>
    intro g hg
    have hg2 : g = (ids.getD t []).length - 1 := by omega
    have := assigner_slot_all c hc tables ids P W p t g hp ht (by omega) Y (by rw [hg2]; exact hY)
    simpa using this
  | succ d ih =>
    intro g hg
    have hrest := ih (g + 1) (by omega)
    have hmove := assigner_move_group tables ids P W p t g
      (partitionArray tables ids t g p).length ht (by omega)
    have hcur := assignerAt_cur tables ids P W p t g
      (partitionArray tables ids t g p).length hp ht (by omega)
    have hX := assigner_drains_move c _ _ _ _ hcur rfl hmove hrest
    have := assigner_slot_all c hc tables ids P W p t g hp ht (by omega) _ hX
    rw [List.range'_succ, List.flatMap_cons, List.append_assoc]
    exact this

theorem assigner_tables (c : Nat) (hc : 0 < c) (tables : List PartitionedTable)
    (ids : List (List Nat)) (P : Nat) (W : WellPartitioned tables ids P) (p : Nat)
    (hp : p < P) (Z : List PartitionChunk)
    (hZ : ∃ f, PartitionAssigner.drain c f
      (assignerAt tables ids P p (tables.length - 1)
        ((ids.getD (tables.length - 1) []).length - 1)
        (partitionArray tables ids (tables.length - 1)
          ((ids.getD (tables.length - 1) []).length - 1) p).length) = some Z) :
    ∀ (d t : Nat), t + d + 1 = tables.length →
      ∃ f, PartitionAssigner.drain c f (assignerAt tables ids P p t 0 0)
        = some ((List.range' t (d + 1)).flatMap (tableChunks c tables ids p) ++ Z) := by
  intro d
  induction d with
  | zero =>
    intro t ht
    have ht2 : t = tables.length - 1 := by omega
    have hgp := W.groups_pos t (by omega)
    have := assigner_groups c hc tables ids P W p t hp (by omega) Z (by rw [ht2]; exact hZ)
      ((ids.getD t []).length - 1) 0 (by omega)
    have hsub : (ids.getD t []).length - 1 + 1 = (ids.getD t []).length := by omega
    rw [hsub, ← List.range_eq_range'] at this
    simpa [tableChunks] using this
  | succ d ih =>
    intro t ht
    have hgp := W.groups_pos t (by omega)
    have hrest := ih (t + 1) (by omega)
    have hmove := assigner_move_table tables ids P W p t ((ids.getD t []).length - 1)
      (partitionArray tables ids t ((ids.getD t []).length - 1) p).length (by omega) (by omega)
    have hcur := assignerAt_cur tables ids P W p t ((ids.getD t []).length - 1)
      (partitionArray tables ids t ((ids.getD t []).length - 1) p).length hp (by omega)
      (by omega)
    have hY := assigner_drains_move c _ _ _ _ hcur rfl hmove hrest
    have := assigner_groups c hc tables ids P W p t hp (by omega) _ hY
      ((ids.getD t []).length - 1) 0 (by omega)
    have hsub : (ids.getD t []).length - 1 + 1 = (ids.getD t []).length := by omega
    rw [hsub, ← List.range_eq_range'] at this
    rw [List.range'_succ, List.flatMap_cons, List.append_assoc]
    exact this

theorem assigner_partitions (c : Nat) (hc : 0 < c) (tables : List PartitionedTable)
    (ids : List (List Nat)) (P : Nat) (W : WellPartitioned tables ids P) :
    ∀ (d p : Nat), p + d + 1 = P →
      ∃ f, PartitionAssigner.drain c f (assignerAt tables ids P p 0 0 0)
        = some ((List.range' p (d + 1)).flatMap (partitionChunks c tables ids)) := by
  intro d
  have htp := W.tables_pos
  have hgp := W.groups_pos (tables.length - 1) (by omega)
  have hcur : ∀ p, p < P → _ := fun p hp =>
    assignerAt_cur tables ids P W p (tables.length - 1)
      ((ids.getD (tables.length - 1) []).length - 1)
      (partitionArray tables ids (tables.length - 1)
        ((ids.getD (tables.length - 1) []).length - 1) p).length hp (by omega) (by omega)
  have hsub : tables.length - 1 + 1 = tables.length := by omega
  induction d with
  | zero =>
    intro p hp
    obtain ⟨a1, hmove⟩ := assigner_move_end tables ids P W p (tables.length - 1)
      ((ids.getD (tables.length - 1) []).length - 1)
      (partitionArray tables ids (tables.length - 1)
        ((ids.getD (tables.length - 1) []).length - 1) p).length (by omega) (by omega)
      (by omega)
    have hZ := assigner_drains_finish c _ _ _ (hcur p (by omega)) rfl hmove
    have := assigner_tables c hc tables ids P W p (by omega) [] hZ (tables.length - 1) 0
      (by omega)
    rw [hsub, ← List.range_eq_range'] at this
    simpa [partitionChunks] using this
  | succ d ih =>
    intro p hp
    have hrest := ih (p + 1) (by omega)
    have hmove := assigner_move_partition tables ids P W p (tables.length - 1)
      ((ids.getD (tables.length - 1) []).length - 1)
      (partitionArray tables ids (tables.length - 1)
        ((ids.getD (tables.length - 1) []).length - 1) p).length (by omega) (by omega)
      (by omega)
    have hZ := assigner_drains_move c _ _ _ _ (hcur p (by omega)) rfl hmove hrest
    have := assigner_tables c hc tables ids P W p (by omega) _ hZ (tables.length - 1) 0
      (by omega)
    rw [hsub, ← List.range_eq_range'] at this
    rw [List.range'_succ, List.flatMap_cons]
    exact this

theorem chunks_flatten {α : Type} (c : Nat) :
    ∀ (n : Nat) (l : List α), l.length ≤ n * c →
      ((List.range n).map (fun k => (l.drop (k * c)).take c)).flatten = l := by
  intro n
  induction n with
  | zero =>
    intro l hl
    have : l = [] := List.eq_nil_of_length_eq_zero (by omega)
    simp [this]
  | succ n ih =>
    intro l hl
    rw [List.range_succ_eq_map, List.map_cons, List.flatten_cons, List.map_map]
    have hrest := ih (l.drop c) (by rw [List.length_drop, Nat.succ_mul] at *; omega)
    have hfun : ((fun k => (l.drop (k * c)).take c) ∘ Nat.succ) =
        (fun k => ((l.drop c).drop (k * c)).take c) := by
      funext k
      simp only [Function.comp, List.drop_drop, Nat.succ_mul]
      rw [Nat.add_comm]
    rw [hfun, hrest]
    simp
theorem assignerTest_wellPartitioned :
    WellPartitioned assignerTestTables [[0, 1], [0]] 2 := by
  refine ⟨by decide, by decide, ?_, ?_, by decide⟩
  · intro t ht
    have ht2 : t < 2 := ht
    interval_cases t <;> decide
  · intro t g ht hg
    have ht2 : t < 2 := ht
    interval_cases t
    · have hg2 : g < 2 := hg
      interval_cases g
      · exact ⟨_, rfl, rfl⟩
      · exact ⟨_, rfl, rfl⟩
    · have hg2 : g < 1 := hg
      interval_cases g
      exact ⟨_, rfl, rfl⟩

/-- C16: for a non-empty list of partitioned tables, each with at least one join group,
and a chunk size `c ≥ 1`, the chunks returned by `PartitionAssigner::Next` until null
(the calls end, given enough fuel) are the chunks of all the partition arrays in the
order of partition, then table, then join group, then offset; the chunks of one
(partition, table, group) carry these three ids, have between `1` and `c` tuples, and
their concatenation is that partition array. -/
theorem partitionAssigner_order (c : Nat) (tables : List PartitionedTable)
    (ids : List (List Nat)) (P : Nat) (hc : 0 < c) (W : WellPartitioned tables ids P) :
    ∃ a0, PartitionAssigner.create tables ids = some a0 ∧
      (∃ fuel0, ∀ fuel, fuel0 ≤ fuel →
        PartitionAssigner.drain c fuel a0 = some (chunksInAssignerOrder c tables ids P)) ∧
      (∀ p t g, ((groupChunks c tables ids p t g).map PartitionChunk.partition).flatten =
        partitionArray tables ids t g p) ∧
      (∀ p t g, ∀ chunk ∈ groupChunks c tables ids p t g,
        chunk.table_id = t ∧ chunk.join_group_id = g ∧ chunk.partition_id = p ∧
        0 < chunk.partition.length ∧ chunk.partition.length ≤ c) := by
  obtain ⟨parts, hparts, hlen⟩ := W.partitioned 0 0 W.tables_pos (W.groups_pos 0 W.tables_pos)
  have hP := W.partitions_pos
  refine ⟨assignerAt tables ids P 0 0 0 0, ?_, ?_, ?_, ?_⟩
  · unfold PartitionAssigner.create
    simp only [hparts, assignerAt, hlen, Option.getD_some]
  · obtain ⟨f, hf⟩ := assigner_partitions c hc tables ids P W (P - 1) 0 (by omega)
    have hsub : P - 1 + 1 = P := by omega
    rw [hsub, ← List.range_eq_range'] at hf
    exact ⟨f, fun fuel hle => assigner_drain_mono_le c _ _ f fuel hle hf⟩
  · intro p t g
    unfold groupChunks chunksOfPartition
    rw [List.map_map]
    exact chunks_flatten c _ _ (chunk_count_le c _ hc)
  · intro p t g chunk hmem
    unfold groupChunks chunksOfPartition at hmem
    obtain ⟨k, hk, rfl⟩ := List.mem_map.mp hmem
    have hlt := chunk_count_lt c _ k hc (List.mem_range.mp hk)
    refine ⟨rfl, rfl, rfl, ?_, ?_⟩
    · simp only [List.length_take, List.length_drop]
      omega
    · simp only [List.length_take, List.length_drop]
      omega

theorem partitionAssigner_order_witness :
    ∃ a0, PartitionAssigner.create assignerTestTables [[0, 1], [0]] = some a0 ∧
      (∃ fuel0, ∀ fuel, fuel0 ≤ fuel →
        PartitionAssigner.drain 2 fuel a0 =
          some (chunksInAssignerOrder 2 assignerTestTables [[0, 1], [0]] 2)) ∧
      (∀ p t g,
        ((groupChunks 2 assignerTestTables [[0, 1], [0]] p t g).map
          PartitionChunk.partition).flatten =
        partitionArray assignerTestTables [[0, 1], [0]] t g p) ∧
      (∀ p t g, ∀ chunk ∈ groupChunks 2 assignerTestTables [[0, 1], [0]] p t g,
        chunk.table_id = t ∧ chunk.join_group_id = g ∧ chunk.partition_id = p ∧
        0 < chunk.partition.length ∧ chunk.partition.length ≤ 2) :=
  partitionAssigner_order 2 assignerTestTables [[0, 1], [0]] 2 (by decide)
    assignerTest_wellPartitioned

/-! ## Hash tables -/

theorem numValuesRead_template (values : List (List Int)) :
    numValuesRead (templateKeys values.length) values = values.length := by
  unfold numValuesRead templateKeys
  by_cases h : 1 ≤ values.length ∧ values.length ≤ 5
  · rw [if_pos h, if_pos (by omega)]
  · rw [if_neg h, if_neg (by omega)]

theorem valueAt_append (pre rest : List (List Int)) (column : List Int) (tid : Nat)
    (h : tid < column.length) :
    valueAt (pre ++ column :: rest) pre.length tid = some (column.getD tid 0) := by
  unfold valueAt
  have : (pre ++ column :: rest).get? pre.length = some column := by
    rw [List.get?_eq_getElem?, List.getElem?_append_right (le_refl _)]
    simp
  rw [this]
  exact get?_eq_some_getD column tid 0 h

theorem hashAt_fold (hash : Int → Nat) (tid : Nat) :
    ∀ (rest pre : List (List Int)) (seed : Nat), (∀ column ∈ rest, tid < column.length) →
      (List.range' pre.length rest.length).foldlM (fun (seed : Nat) (i : Nat) =>
        match valueAt (pre ++ rest) i tid with
        | none => none
        | some y => some (HashCombine hash seed y)) seed
      = some ((keyRow rest tid).foldl (HashCombine hash) seed) := by
  intro rest
  induction rest with
  | nil => intro pre seed _; rfl
  | cons column rest ih =>
    intro pre seed hrows
    rw [List.length_cons, List.range'_succ, List.foldlM_cons,
      valueAt_append pre rest column tid (hrows column (List.mem_cons_self _ _))]
    have h2 := ih (pre ++ [column]) (HashCombine hash seed (column.getD tid 0))
      (fun c hc => hrows c (List.mem_cons_of_mem _ hc))
    rw [List.length_append, List.length_singleton, List.append_assoc,
      List.singleton_append] at h2
    simp only [Option.bind_eq_bind, Option.some_bind]
    rw [h2]
    rfl

theorem hashAt_spec (hash : Int → Nat) (values : List (List Int)) (tid : Nat)
    (hne : values ≠ []) (hrows : ∀ column ∈ values, tid < column.length) :
    HashAt hash (templateKeys values.length) values tid =
      some (hashRow hash (keyRow values tid)) := by
  cases values with
  | nil => exact absurd rfl hne
  | cons column rest =>
    unfold HashAt
    rw [numValuesRead_template]
    have h0 := valueAt_append [] rest column tid (hrows column (List.mem_cons_self _ _))
    rw [List.nil_append, List.length_nil] at h0
    rw [h0]
    have h2 := hashAt_fold hash tid rest [column] (hash (column.getD tid 0))
      (fun c hc => hrows c (List.mem_cons_of_mem _ hc))
    rw [List.length_singleton, List.singleton_append] at h2
    simp only [List.length_cons, Nat.add_sub_cancel]
    rw [h2]
    rfl

theorem vectorEqualLoop_spec (left_tid right_tid : Nat) :
    ∀ (left_rest right_rest left_pre right_pre : List (List Int)),
      left_pre.length = right_pre.length → left_rest.length = right_rest.length →
      (∀ column ∈ left_rest, left_tid < column.length) →
      (∀ column ∈ right_rest, right_tid < column.length) →
      vectorEqualLoop (left_pre ++ left_rest) (right_pre ++ right_rest) left_tid right_tid
          (List.range' left_pre.length left_rest.length)
        = some (decide (keyRow left_rest left_tid = keyRow right_rest right_tid)) := by
  intro left_rest
  induction left_rest with
  | nil =>
    intro right_rest left_pre right_pre _ hlen _ _
    have : right_rest = [] := List.eq_nil_of_length_eq_zero (by simpa using hlen.symm)
    subst this
    rfl
  | cons lc lrest ih =>
    intro right_rest left_pre right_pre hpre hlen hl hr
    cases right_rest with
    | nil => simp at hlen
    | cons rc rrest =>
      rw [List.length_cons, List.range'_succ]
      unfold vectorEqualLoop
      rw [valueAt_append left_pre lrest lc left_tid (hl lc (List.mem_cons_self _ _)), hpre,
        valueAt_append right_pre rrest rc right_tid (hr rc (List.mem_cons_self _ _))]
      simp only
      by_cases hx : lc.getD left_tid 0 = rc.getD right_tid 0
      · rw [if_neg (by simpa using hx)]
        have h2 := ih rrest (left_pre ++ [lc]) (right_pre ++ [rc])
          (by simp [hpre]) (by simpa using hlen)
          (fun c hc => hl c (List.mem_cons_of_mem _ hc))
          (fun c hc => hr c (List.mem_cons_of_mem _ hc))
        rw [List.length_append, List.length_singleton, List.append_assoc,
          List.singleton_append, List.append_assoc, List.singleton_append, hpre] at h2
        rw [h2]
        have hk1 : keyRow (lc :: lrest) left_tid =
            lc.getD left_tid 0 :: keyRow lrest left_tid := rfl
        have hk2 : keyRow (rc :: rrest) right_tid =
            rc.getD right_tid 0 :: keyRow rrest right_tid := rfl
        rw [hk1, hk2, hx]
        congr 1
        rw [decide_eq_decide, List.cons.injEq]
        exact ⟨fun h => ⟨rfl, h⟩, fun h => h.2⟩
      · rw [if_pos hx]
        have hk1 : keyRow (lc :: lrest) left_tid =
            lc.getD left_tid 0 :: keyRow lrest left_tid := rfl
        have hk2 : keyRow (rc :: rrest) right_tid =
            rc.getD right_tid 0 :: keyRow rrest right_tid := rfl
        rw [hk1, hk2]
        have hne : ¬ (lc.getD left_tid 0 :: keyRow lrest left_tid =
            rc.getD right_tid 0 :: keyRow rrest right_tid) := fun h => hx (List.cons.inj h).1
        rw [decide_eq_false hne]

theorem vectorEqualAt_spec (left_values right_values : List (List Int))
    (left_tid right_tid : Nat) (hlen : left_values.length = right_values.length)
    (hl : ∀ column ∈ left_values, left_tid < column.length)
    (hr : ∀ column ∈ right_values, right_tid < column.length) :
    VectorEqualAt (templateKeys right_values.length) left_values right_values left_tid
        right_tid
      = some (decide (keyRow left_values left_tid = keyRow right_values right_tid)) := by
  unfold VectorEqualAt
  rw [← hlen, numValuesRead_template, List.range_eq_range']
  exact vectorEqualLoop_spec left_tid right_tid left_values right_values [] [] rfl hlen hl hr

theorem next_pow_2_le (V : Nat) (h : V < 2 ^ 31) : NEXT_POW_2 V ≤ 2 ^ 31 := by
  unfold NEXT_POW_2
  by_cases h0 : V = 0
  · rw [if_pos h0]; exact Nat.zero_le _
  · rw [if_neg h0]
    have key : ∀ (x k : Nat), x < 2 ^ 31 → x ||| (x >>> k) < 2 ^ 31 := by
      intro x k hx
      apply Nat.or_lt_two_pow hx
      rw [Nat.shiftRight_eq_div_pow]
      exact lt_of_le_of_lt (Nat.div_le_self _ _) hx
    have h1 : V - 1 < 2 ^ 31 := by omega
    have := key _ 16 (key _ 8 (key _ 4 (key _ 2 (key _ 1 h1))))
    exact this

theorem next_pow_2_pos (V : Nat) (h : 0 < V) : 0 < NEXT_POW_2 V := by
  unfold NEXT_POW_2
  rw [if_neg (by omega)]
  exact Nat.succ_pos _

theorem bucket_lt (num_buckets radix_bits hash_value : Nat) (h1 : 0 < num_buckets)
    (h2 : num_buckets ≤ 2 ^ 32) :
    (hash_value &&& ((((num_buckets + 2 ^ 32 - 1) % 2 ^ 32) <<< radix_bits) % 2 ^ 32))
      >>> radix_bits < num_buckets := by
  have hm : (num_buckets + 2 ^ 32 - 1) % 2 ^ 32 = num_buckets - 1 := by
    have : num_buckets + 2 ^ 32 - 1 = (num_buckets - 1) + 2 ^ 32 := by omega
    rw [this, Nat.add_mod_right, Nat.mod_eq_of_lt (by omega)]
  rw [hm]
  have ha : hash_value &&& (((num_buckets - 1) <<< radix_bits) % 2 ^ 32) ≤
      (num_buckets - 1) <<< radix_bits :=
    le_trans Nat.and_le_right (Nat.mod_le _ _)
  have hb : (hash_value &&& (((num_buckets - 1) <<< radix_bits) % 2 ^ 32)) >>> radix_bits ≤
      ((num_buckets - 1) <<< radix_bits) >>> radix_bits := by
    rw [Nat.shiftRight_eq_div_pow, Nat.shiftRight_eq_div_pow]
    exact Nat.div_le_div_right ha
  rw [Nat.shiftLeft_shiftRight] at hb
  omega
theorem isChain_set (next : List (Option Nat)) (k : Nat) (x : Option Nat) :
    ∀ (l : List Nat) (first : Nat), IsChain next first l → (∀ p ∈ l, p ≠ k) →
      IsChain (next.set k x) first l := by
  intro l
  induction l with
  | nil => intro first h _; exact h
  | cons p rest ih =>
    intro first h hne
    obtain ⟨h1, following, h2, h3⟩ := h
    refine ⟨h1, following, ?_, ih following h3 (fun q hq => hne q (List.mem_cons_of_mem _ hq))⟩
    have hpk : k ≠ p := fun e => hne p (List.mem_cons_self _ _) e.symm
    rw [List.get?_eq_getElem?] at h2 ⊢
    rw [List.getElem?_set_ne hpk]
    exact h2

theorem probeChain_of_isChain (next : List (Option Nat)) (is_match : Nat → Option Bool)
    (m : Nat → Bool) :
    ∀ (l : List Nat) (first : Nat), IsChain next first l →
      (∀ p ∈ l, is_match p = some (m p)) →
      ∀ fuel, l.length ≤ fuel → probeChain next is_match fuel first = some (l.filter m) := by
  intro l
  induction l with
  | nil =>
    intro first h _ fuel _
    have h0 : first = 0 := h
    subst h0
    cases fuel <;> rfl
  | cons p rest ih =>
    intro first h hm fuel hfuel
    obtain ⟨h1, following, h2, h3⟩ := h
    subst h1
    cases fuel with
    | zero => simp at hfuel
    | succ fuel =>
      rw [probeChain, hm p (List.mem_cons_self _ _), h2]
      simp only
      rw [ih following h3 (fun q hq => hm q (List.mem_cons_of_mem _ hq)) fuel
        (by simpa using hfuel)]
      cases hmp : m p <;> simp [List.filter_cons, hmp]

theorem probeChainAny_of_isChain (next : List (Option Nat)) (is_match : Nat → Option Bool)
    (m : Nat → Bool) :
    ∀ (l : List Nat) (first : Nat), IsChain next first l →
      (∀ p ∈ l, is_match p = some (m p)) →
      ∀ fuel, l.length ≤ fuel → probeChainAny next is_match fuel first = some (l.any m) := by
  intro l
  induction l with
  | nil =>
    intro first h _ fuel _
    have h0 : first = 0 := h
    subst h0
    cases fuel <;> rfl
  | cons p rest ih =>
    intro first h hm fuel hfuel
    obtain ⟨h1, following, h2, h3⟩ := h
    subst h1
    cases fuel with
    | zero => simp at hfuel
    | succ fuel =>
      rw [probeChainAny, hm p (List.mem_cons_self _ _)]
      cases hmp : m p with
      | true => simp [hmp]
      | false =>
        simp only [h2]
        rw [ih following h3 (fun q hq => hm q (List.mem_cons_of_mem _ hq)) fuel
          (by simpa using hfuel)]
        simp [hmp]

theorem chainWalk_of_isChain (next : List (Option Nat)) (l : List Nat) (first : Nat)
    (h : IsChain next first l) (fuel : Nat) (hfuel : l.length ≤ fuel) :
    chainWalk next fuel first = some l := by
  unfold chainWalk
  rw [probeChain_of_isChain next (fun _ => some true) (fun _ => true) l first h
    (fun _ _ => rfl) fuel hfuel]
  simp

theorem linkFold_spec (radix_bits n nb mask : Nat) (hv : Nat → Nat)
    (f : FoilHashTable → Nat → Option FoilHashTable)
    (hf : ∀ (ht : FoilHashTable) (i : Nat), i < n → f ht i = linkTuple radix_bits ht i (hv i))
    (hb : ∀ i, i < n → (hv i &&& mask) >>> radix_bits < nb) :
    ∀ k, k ≤ n →
      ∃ ht, (List.range k).foldlM f ⟨mask, List.replicate nb 0, List.replicate n none⟩
          = some ht ∧
        ht.mask = mask ∧ ht.buckets.length = nb ∧ ht.next.length = n ∧
        ∀ b, b < nb → IsChain ht.next (ht.buckets.getD b 0)
          (((List.range k).filter (fun j =>
            decide ((hv j &&& mask) >>> radix_bits = b))).reverse) := by
  intro k
  induction k with
  | zero =>
    intro _
    refine ⟨_, rfl, rfl, by simp, by simp, ?_⟩
    intro b hb
    simp [IsChain, List.getD_eq_getElem?_getD, List.getElem?_replicate, hb]
  | succ k ih =>
    intro hk
    obtain ⟨ht, hfold, hmask, hbl, hnl, hchains⟩ := ih (by omega)
    have hbk := hb k (by omega)
    have hget : ht.buckets.get? ((hv k &&& ht.mask) >>> radix_bits) =
        some (ht.buckets.getD ((hv k &&& mask) >>> radix_bits) 0) := by
      rw [hmask]
      exact get?_eq_some_getD _ _ 0 (by omega)
    have hlink : f ht k = some
        { ht with next := ht.next.set k (some (ht.buckets.getD ((hv k &&& mask) >>> radix_bits) 0))
                  buckets := ht.buckets.set ((hv k &&& mask) >>> radix_bits) (k + 1) } := by
      rw [hf ht k (by omega)]
      unfold linkTuple
      simp only [hget]
      rw [if_pos (by omega), hmask]
    refine ⟨{ ht with
        next := ht.next.set k (some (ht.buckets.getD ((hv k &&& mask) >>> radix_bits) 0))
        buckets := ht.buckets.set ((hv k &&& mask) >>> radix_bits) (k + 1) },
      ?_, hmask, by simp [hbl], by simp [hnl], ?_⟩
    · rw [List.range_succ, List.foldlM_append, hfold]
      simp only [Option.bind_eq_bind, Option.some_bind, List.foldlM_cons, List.foldlM_nil]
      rw [hlink]
      rfl
    · intro b hblt
      have hold := hchains b hblt
      have hne : ∀ p ∈ ((List.range k).filter (fun j =>
          decide ((hv j &&& mask) >>> radix_bits = b))).reverse, p ≠ k := by
        intro p hp
        rw [List.mem_reverse, List.mem_filter, List.mem_range] at hp
        omega
      have hset := isChain_set ht.next k
        (some (ht.buckets.getD ((hv k &&& mask) >>> radix_bits) 0)) _ _ hold hne
      rw [List.range_succ, List.filter_append, List.reverse_append]
      by_cases hbb : (hv k &&& mask) >>> radix_bits = b
      · subst hbb
        have hfil : List.filter (fun j => decide ((hv j &&& mask) >>> radix_bits =
            (hv k &&& mask) >>> radix_bits)) [k] = [k] := by simp
        rw [hfil, List.reverse_singleton, List.singleton_append]
        refine ⟨?_, _, ?_, hset⟩
        · simp [List.getD_eq_getElem?_getD, List.getElem?_set, hbl, hblt]
        · rw [List.get?_eq_getElem?]
          simp only
          rw [List.getElem?_set_self (by omega)]
      · have hfil : List.filter (fun j => decide ((hv j &&& mask) >>> radix_bits = b)) [k]
            = [] := by simp [hbb]
        rw [hfil]
        have hsame : (ht.buckets.set ((hv k &&& mask) >>> radix_bits) (k + 1)).getD b 0 =
            ht.buckets.getD b 0 := by
          simp [List.getD_eq_getElem?_getD, List.getElem?_set, hbb]
        rw [List.reverse_nil, List.nil_append]
        show IsChain _ ((ht.buckets.set ((hv k &&& mask) >>> radix_bits) (k + 1)).getD b 0) _
        rw [hsame]
        exact hset
theorem option_mapM_length {α β : Type} (f : α → Option β) :
    ∀ (l : List α) (ys : List β), l.mapM f = some ys → ys.length = l.length := by
  intro l
  induction l with
  | nil =>
    intro ys h
    rw [List.mapM_nil] at h
    cases h
    rfl
  | cons x t ih =>
    intro ys h
    rw [List.mapM_cons] at h
    cases hx : f x with
    | none => rw [hx] at h; cases h
    | some y =>
      cases ht : t.mapM f with
      | none => rw [hx, ht] at h; cases h
      | some ys2 =>
        rw [hx, ht] at h
        cases h
        simp [ih ys2 ht]

theorem bucketRows_length_le (hash : Int → Nat) (values : List (List Int)) (mask n b : Nat) :
    (bucketRows hash values mask n b).length ≤ n := by
  unfold bucketRows
  rw [List.length_reverse]
  exact le_trans (List.length_filter_le _ _) (by simp)

theorem bucketRows_nodup (hash : Int → Nat) (values : List (List Int)) (mask n b : Nat) :
    (bucketRows hash values mask n b).Nodup := by
  unfold bucketRows
  rw [List.nodup_reverse]
  exact (List.nodup_range n).filter _

theorem mem_bucketRows (hash : Int → Nat) (values : List (List Int)) (mask n b j : Nat) :
    j ∈ bucketRows hash values mask n b ↔
      j < n ∧ hashRow hash (keyRow values j) &&& mask = b := by
  unfold bucketRows
  rw [List.mem_reverse, List.mem_filter, List.mem_range]
  simp

theorem buildHashTableOnTable_spec (hash : Int → Nat) (build_keys : List Nat)
    (table : TableView) (build_keys_values : List (List Int))
    (hrows : 0 < table.num_tuples) (hsize : table.num_tuples < 2 ^ 31)
    (hkeys : build_keys ≠ [])
    (hcols : keyColumns build_keys table.columns = some build_keys_values)
    (hrect : ∀ column ∈ build_keys_values, column.length = table.num_tuples) :
    ∃ ht, BuildHashTableOnTable hash build_keys table = some ht ∧
      ht.next.length = table.num_tuples ∧
      (∀ h, h &&& ht.mask < ht.buckets.length) ∧
      ∀ b, b < ht.buckets.length → IsChain ht.next (ht.buckets.getD b 0)
        (bucketRows hash build_keys_values ht.mask table.num_tuples b) := by
  have hlen : build_keys_values.length = build_keys.length :=
    option_mapM_length _ _ _ hcols
  have hne : build_keys_values ≠ [] := by
    intro h
    rw [h] at hlen
    exact hkeys (List.eq_nil_of_length_eq_zero hlen.symm)
  have hnb1 := next_pow_2_pos table.num_tuples hrows
  have hnb2 := next_pow_2_le table.num_tuples hsize
  have hbucket : ∀ h, (h &&& ((((NEXT_POW_2 table.num_tuples + 2 ^ 32 - 1) % 2 ^ 32) <<< 0)
      % 2 ^ 32)) >>> 0 < NEXT_POW_2 table.num_tuples := fun h =>
    bucket_lt _ 0 h hnb1 (le_trans hnb2 (by norm_num))
  obtain ⟨ht, hfold, hmask, hbl, hnl, hchains⟩ :=
    linkFold_spec 0 table.num_tuples (NEXT_POW_2 table.num_tuples)
      ((((NEXT_POW_2 table.num_tuples + 2 ^ 32 - 1) % 2 ^ 32) <<< 0) % 2 ^ 32)
      (fun i => hashRow hash (keyRow build_keys_values i))
      (fun (hash_table : FoilHashTable) (index : Nat) =>
        match HashAt hash (templateKeys build_keys.length) build_keys_values index with
        | none => none
        | some hash_value => linkTuple 0 hash_table index hash_value)
      (by
        intro ht i hi
        have hh := hashAt_spec hash build_keys_values i hne
          (fun c hc => by rw [hrect c hc]; exact hi)
        rw [hlen] at hh
        simp only [hh])
      (fun i _ => hbucket _) table.num_tuples (le_refl _)
  refine ⟨ht, ?_, hnl, ?_, ?_⟩
  · unfold BuildHashTableOnTable
    rw [hcols]
    exact hfold
  · intro h
    rw [hmask, hbl]
    have := hbucket h
    rw [Nat.shiftRight_zero] at this
    exact this
  · intro b hb
    have := hchains b (by rw [← hbl]; exact hb)
    unfold bucketRows
    rw [hmask]
    simpa only [Nat.shiftRight_zero] using this

/-- C14: for a non-empty table of at most `2^30` rows and a non-empty list of key columns
of the table,
`BuildHashTableOnTable` returns a hash table in which, for every row `i`, the walk of the
chain of bucket `hash(key(i)) & mask` ends (with fuel for as many steps as the table has
rows), visits no row twice, visits rows of the table only, and visits every row `j`
whose key values equal those of row `i`. -/
theorem buildHashTableOnTable_chains (hash : Int → Nat) (build_keys : List Nat)
    (table : TableView) (build_keys_values : List (List Int))
    (hrows : 0 < table.num_tuples) (hsize : table.num_tuples ≤ 2 ^ 30)
    (hkeys : build_keys ≠ [])
    (hcols : keyColumns build_keys table.columns = some build_keys_values)
    (hrect : ∀ column ∈ build_keys_values, column.length = table.num_tuples) :
    ∃ ht, BuildHashTableOnTable hash build_keys table = some ht ∧
      ∀ i, i < table.num_tuples →
        ∃ hash_value chain,
          HashAt hash (templateKeys build_keys.length) build_keys_values i = some hash_value ∧
          (∀ fuel, table.num_tuples ≤ fuel →
            chainWalk ht.next fuel (ht.buckets.getD (hash_value &&& ht.mask) 0) = some chain) ∧
          chain.Nodup ∧ (∀ j ∈ chain, j < table.num_tuples) ∧
          ∀ j, j < table.num_tuples →
            keyRow build_keys_values j = keyRow build_keys_values i → j ∈ chain := by
  obtain ⟨ht, hbuild, _, hlt, hchains⟩ := buildHashTableOnTable_spec hash build_keys table
    build_keys_values hrows (lt_of_le_of_lt hsize (by norm_num)) hkeys hcols hrect
  have hlen : build_keys_values.length = build_keys.length :=
    option_mapM_length _ _ _ hcols
  have hne : build_keys_values ≠ [] := by
    intro h
    rw [h] at hlen
    exact hkeys (List.eq_nil_of_length_eq_zero hlen.symm)
  refine ⟨ht, hbuild, ?_⟩
  intro i hi
  refine ⟨hashRow hash (keyRow build_keys_values i),
    bucketRows hash build_keys_values ht.mask table.num_tuples
      (hashRow hash (keyRow build_keys_values i) &&& ht.mask), ?_, ?_,
    bucketRows_nodup _ _ _ _ _, ?_, ?_⟩
  · rw [← hlen]
    exact hashAt_spec hash build_keys_values i hne (fun c hc => by rw [hrect c hc]; exact hi)
  · intro fuel hfuel
    exact chainWalk_of_isChain _ _ _ (hchains _ (hlt _)) fuel
      (le_trans (bucketRows_length_le _ _ _ _ _) hfuel)
  · intro j hj
    exact ((mem_bucketRows _ _ _ _ _ _).mp hj).1
  · intro j hj hkey
    rw [mem_bucketRows]
    exact ⟨hj, by rw [hkey]⟩

theorem buildHashTableOnTable_chains_witness :
    ∃ ht, BuildHashTableOnTable (fun v => v.toNat) [0, 1] hashTestTable = some ht ∧
      ∀ i, i < hashTestTable.num_tuples →
        ∃ hash_value chain,
          HashAt (fun v => v.toNat) (templateKeys [0, 1].length)
            [[5, 7, 5, 9, 7, 5], [1, 2, 1, 4, 5, 1]] i = some hash_value ∧
          (∀ fuel, hashTestTable.num_tuples ≤ fuel →
            chainWalk ht.next fuel (ht.buckets.getD (hash_value &&& ht.mask) 0) = some chain) ∧
          chain.Nodup ∧ (∀ j ∈ chain, j < hashTestTable.num_tuples) ∧
          ∀ j, j < hashTestTable.num_tuples →
            keyRow [[5, 7, 5, 9, 7, 5], [1, 2, 1, 4, 5, 1]] j =
              keyRow [[5, 7, 5, 9, 7, 5], [1, 2, 1, 4, 5, 1]] i → j ∈ chain :=
  buildHashTableOnTable_chains (fun v => v.toNat) [0, 1] hashTestTable
    [[5, 7, 5, 9, 7, 5], [1, 2, 1, 4, 5, 1]] (by decide) (by decide) (by decide) (by rfl)
    (by decide)

/-! ## Probing a hash table -/

theorem filter_keyEq_bucketRows (hash : Int → Nat) (build_values : List (List Int))
    (mask n : Nat) (key : List Int) :
    (bucketRows hash build_values mask n (hashRow hash key &&& mask)).filter
        (fun b => decide (key = keyRow build_values b))
      = ((List.range n).filter (fun b => decide (key = keyRow build_values b))).reverse := by
  unfold bucketRows
  rw [List.filter_reverse, List.filter_filter]
  congr 1
  apply List.filter_congr
  intro b _
  by_cases h : key = keyRow build_values b
  · simp [h]
  · simp [h]

theorem any_keyEq_bucketRows (hash : Int → Nat) (build_values : List (List Int))
    (mask n : Nat) (key : List Int) :
    (bucketRows hash build_values mask n (hashRow hash key &&& mask)).any
        (fun b => decide (key = keyRow build_values b))
      = (List.range n).any (fun b => decide (key = keyRow build_values b)) := by
  rw [Bool.eq_iff_iff]
  simp only [List.any_eq_true, mem_bucketRows, List.mem_range, decide_eq_true_eq]
  constructor
  · rintro ⟨b, ⟨hb, _⟩, hk⟩
    exact ⟨b, hb, hk⟩
  · rintro ⟨b, hb, hk⟩
    exact ⟨b, ⟨hb, by rw [hk]⟩, hk⟩

theorem joinInput_lengths (hash : Int → Nat) (probe_table build_table : TableView)
    (probe_keys build_keys : List Nat) (probe_values build_values : List (List Int))
    (ht : FoilHashTable)
    (W : JoinInput hash probe_table build_table probe_keys build_keys probe_values
      build_values ht) :
    probe_values.length = build_values.length ∧ build_values.length = probe_keys.length ∧
      probe_values ≠ [] := by
  have h1 := option_mapM_length _ _ _ W.probe_columns
  have h2 := option_mapM_length _ _ _ W.build_columns
  have h3 := W.keys_length
  refine ⟨by omega, by omega, ?_⟩
  intro h
  rw [h] at h1
  have : build_keys.length = 0 := by simp at h1; omega
  exact W.keys_ne (List.eq_nil_of_length_eq_zero this)

/-- The walk of the joins on a block of probe key columns: the matching build positions
of a probe row are the build rows with its key values, the last one first. -/
theorem matchingPositions_spec (hash : Int → Nat) (probe_table build_table : TableView)
    (probe_keys build_keys : List Nat) (probe_values build_values : List (List Int))
    (ht : FoilHashTable)
    (W : JoinInput hash probe_table build_table probe_keys build_keys probe_values
      build_values ht)
    (probe_block : List (List Int)) (hblock : probe_block.length = probe_values.length)
    (probe_tid fuel : Nat) (hrow : ∀ column ∈ probe_block, probe_tid < column.length)
    (hfuel : build_table.num_tuples ≤ fuel) :
    matchingPositions hash fuel (templateKeys probe_keys.length) ht probe_block build_values
        probe_tid
      = some (((List.range build_table.num_tuples).filter (fun b =>
          decide (keyRow probe_block probe_tid = keyRow build_values b))).reverse) := by
  obtain ⟨hl1, hl2, hne⟩ := joinInput_lengths _ _ _ _ _ _ _ _ W
  obtain ⟨ht2, hbuild, hnl, hlt, hchains⟩ := buildHashTableOnTable_spec hash build_keys
    build_table build_values W.build_rows (lt_of_le_of_lt W.build_size (by norm_num))
    W.keys_ne W.build_columns W.build_rect
  have hsame : ht2 = ht := by
    have := W.built
    rw [hbuild] at this
    exact Option.some.inj this
  subst hsame
  have hbne : probe_block ≠ [] := by
    intro h
    rw [h] at hblock
    exact hne (List.eq_nil_of_length_eq_zero hblock.symm)
  have hhash := hashAt_spec hash probe_block probe_tid hbne hrow
  rw [hblock, hl1, hl2] at hhash
  unfold matchingPositions
  rw [hhash]
  simp only
  rw [get?_eq_some_getD ht2.buckets _ 0 (hlt _)]
  simp only
  rw [probeChain_of_isChain ht2.next _
    (fun b => decide (keyRow probe_block probe_tid = keyRow build_values b)) _ _
    (hchains _ (hlt _)) ?_ fuel (le_trans (bucketRows_length_le _ _ _ _ _) hfuel)]
  · rw [filter_keyEq_bucketRows]
  · intro p hp
    have hp2 := ((mem_bucketRows _ _ _ _ _ _).mp hp).1
    have := vectorEqualAt_spec probe_block build_values probe_tid p (by omega) hrow
      (fun c hc => by rw [W.build_rect c hc]; exact hp2)
    rw [← hl2]
    exact this

theorem hasMatch_spec (hash : Int → Nat) (probe_table build_table : TableView)
    (probe_keys build_keys : List Nat) (probe_values build_values : List (List Int))
    (ht : FoilHashTable)
    (W : JoinInput hash probe_table build_table probe_keys build_keys probe_values
      build_values ht)
    (probe_block : List (List Int)) (hblock : probe_block.length = probe_values.length)
    (probe_tid fuel : Nat) (hrow : ∀ column ∈ probe_block, probe_tid < column.length)
    (hfuel : build_table.num_tuples ≤ fuel) :
    hasMatch hash fuel (templateKeys probe_keys.length) ht probe_block build_values probe_tid
      = some (hasEqualKey probe_block build_values build_table.num_tuples probe_tid) := by
  obtain ⟨hl1, hl2, hne⟩ := joinInput_lengths _ _ _ _ _ _ _ _ W
  obtain ⟨ht2, hbuild, hnl, hlt, hchains⟩ := buildHashTableOnTable_spec hash build_keys
    build_table build_values W.build_rows (lt_of_le_of_lt W.build_size (by norm_num))
    W.keys_ne W.build_columns W.build_rect
  have hsame : ht2 = ht := by
    have := W.built
    rw [hbuild] at this
    exact Option.some.inj this
  subst hsame
  have hbne : probe_block ≠ [] := by
    intro h
    rw [h] at hblock
    exact hne (List.eq_nil_of_length_eq_zero hblock.symm)
  have hhash := hashAt_spec hash probe_block probe_tid hbne hrow
  rw [hblock, hl1, hl2] at hhash
  unfold hasMatch
  rw [hhash]
  simp only
  rw [get?_eq_some_getD ht2.buckets _ 0 (hlt _)]
  simp only
  rw [probeChainAny_of_isChain ht2.next _
    (fun b => decide (keyRow probe_block probe_tid = keyRow build_values b)) _ _
    (hchains _ (hlt _)) ?_ fuel (le_trans (bucketRows_length_le _ _ _ _ _) hfuel)]
  · rw [any_keyEq_bucketRows]
    rfl
  · intro p hp
    have hp2 := ((mem_bucketRows _ _ _ _ _ _).mp hp).1
    have := vectorEqualAt_spec probe_block build_values probe_tid p (by omega) hrow
      (fun c hc => by rw [W.build_rect c hc]; exact hp2)
    rw [← hl2]
    exact this

theorem hasEqualKey_iff (left_values right_values : List (List Int))
    (right_rows left_tid : Nat) :
    hasEqualKey left_values right_values right_rows left_tid = true ↔
      ∃ b, b < right_rows ∧ keyRow left_values left_tid = keyRow right_values b := by
  unfold hasEqualKey
  simp [List.any_eq_true]
/-! ## The right semi-join -/

theorem testSet_fold :
    ∀ (positions : List Nat) (bits : BitVector), (∀ p ∈ positions, p < bits.length) →
      ∃ out, positions.foldlM (fun (bits : BitVector) (build_position : Nat) =>
          match testSet bits build_position with
          | none => none
          | some r => some r.2) bits = some out ∧
        out.length = bits.length ∧
        ∀ b, out.getD b false = (bits.getD b false || decide (b ∈ positions)) := by
  intro positions
  induction positions with
  | nil =>
    intro bits _
    exact ⟨bits, rfl, rfl, fun b => by simp⟩
  | cons p rest ih =>
    intro bits hlt
    have hp := hlt p (List.mem_cons_self _ _)
    obtain ⟨out, hout, holen, hobits⟩ := ih (bits.set p true)
      (fun q hq => by rw [List.length_set]; exact hlt q (List.mem_cons_of_mem _ hq))
    refine ⟨out, ?_, by rw [holen, List.length_set], ?_⟩
    · rw [List.foldlM_cons]
      unfold testSet
      rw [get?_eq_some_getD bits p false hp]
      exact hout
    · intro b
      rw [hobits b]
      by_cases hbp : b = p
      · subst hbp
        simp [List.getD_eq_getElem?_getD, List.getElem?_set, hp]
      · have hpb : ¬ p = b := fun e => hbp e.symm
        simp [List.getD_eq_getElem?_getD, List.getElem?_set, hbp, hpb]

theorem rightSemiJoin_fold (hash : Int → Nat) (probe_table build_table : TableView)
    (probe_keys build_keys : List Nat) (probe_values build_values : List (List Int))
    (ht : FoilHashTable)
    (W : JoinInput hash probe_table build_table probe_keys build_keys probe_values
      build_values ht) (fuel : Nat) (hfuel : build_table.num_tuples ≤ fuel) :
    ∀ k, k ≤ probe_table.num_tuples →
      ∃ bits, (List.range k).foldlM
          (fun (bit_vector : BitVector) (probe_tid : Nat) =>
            match matchingPositions hash fuel (templateKeys probe_keys.length) ht
                probe_values build_values probe_tid with
            | none => none
            | some positions =>
              positions.foldlM (fun (bits : BitVector) (build_position : Nat) =>
                match testSet bits build_position with
                | none => none
                | some r => some r.2) bit_vector)
          (List.replicate build_table.num_tuples false) = some bits ∧
        bits.length = build_table.num_tuples ∧
        ∀ b, b < build_table.num_tuples →
          bits.getD b false = hasEqualKey build_values probe_values k b := by
  intro k
  induction k with
  | zero =>
    intro _
    refine ⟨_, rfl, by simp, ?_⟩
    intro b hb
    simp [hasEqualKey, List.getD_eq_getElem?_getD, List.getElem?_replicate, hb]
  | succ k ih =>
    intro hk
    obtain ⟨bits, hfold, hlen, hbits⟩ := ih (by omega)
    have hpos := matchingPositions_spec hash probe_table build_table probe_keys build_keys
      probe_values build_values ht W probe_values rfl k fuel
      (fun c hc => by rw [W.probe_rect c hc]; omega) hfuel
    obtain ⟨out, hout, holen, hobits⟩ := testSet_fold
      (((List.range build_table.num_tuples).filter (fun b =>
          decide (keyRow probe_values k = keyRow build_values b))).reverse) bits
      (fun p hp => by
        rw [List.mem_reverse, List.mem_filter, List.mem_range] at hp
        omega)
    refine ⟨out, ?_, by omega, ?_⟩
    · rw [List.range_succ, List.foldlM_append, hfold]
      simp only [Option.bind_eq_bind, Option.some_bind, List.foldlM_cons, List.foldlM_nil,
        hpos]
      rw [hout]
      rfl
    · intro b hb
      rw [hobits b, hbits b hb]
      unfold hasEqualKey
      rw [List.range_succ, List.any_append]
      congr 1
      rw [Bool.eq_iff_iff]
      simp only [List.mem_reverse, List.mem_filter, List.mem_range, decide_eq_true_eq,
        List.any_cons, List.any_nil, Bool.or_false]
      constructor
      · rintro ⟨_, h⟩
        exact h.symm
      · intro h
        exact ⟨hb, h.symm⟩

theorem list_eq_map_range {α : Type} (l : List α) (d : α) (f : Nat → α)
    (h : ∀ i, i < l.length → l.getD i d = f i) : l = (List.range l.length).map f := by
  apply List.ext_getElem?
  intro i
  by_cases hi : i < l.length
  · have := h i hi
    rw [List.getD_eq_getElem?_getD, List.getElem?_eq_getElem hi] at this
    simp only [Option.getD_some] at this
    rw [List.getElem?_eq_getElem hi, List.getElem?_map, List.getElem?_range hi, this]
    rfl
  · rw [List.getElem?_eq_none (by omega), List.getElem?_eq_none (by simp; omega)]

theorem count_map_range (n : Nat) (f : Nat → Bool) :
    ((List.range n).map f).count true = ((List.range n).filter f).length := by
  rw [List.count_eq_countP, List.countP_map, List.countP_eq_length_filter]
  congr 1
  apply List.filter_congr
  intro x _
  simp

/-- C12: `RightSemiJoin::Next` returns one chunk and then null; the bit vector of the
chunk has one bit per build row, bit `b` is set exactly when some probe row has the key
values of build row `b`, `num_ones` is the number of such build rows (each counted
once), and the output columns are the projected columns of the build table. -/
theorem rightSemiJoin_next (hash : Int → Nat) (probe_table build_table : TableView)
    (probe_keys build_keys project_column_ids : List Nat)
    (probe_values build_values : List (List Int)) (ht : FoilHashTable) (fuel : Nat)
    (W : JoinInput hash probe_table build_table probe_keys build_keys probe_values
      build_values ht)
    (hproj : ∀ c ∈ project_column_ids, c < build_table.columns.length)
    (hfuel : build_table.num_tuples ≤ fuel) :
    ∃ semi_join chunk,
      CreateSemiJoin probe_table build_table ht probe_keys build_keys project_column_ids
        = some semi_join ∧
      RightSemiJoin.Next hash fuel semi_join false = some (some chunk, true) ∧
      RightSemiJoin.Next hash fuel semi_join true = some (none, true) ∧
      chunk.semi_bitvector = (List.range build_table.num_tuples).map (fun b =>
        hasEqualKey build_values probe_values probe_table.num_tuples b) ∧
      (∀ b, b < build_table.num_tuples →
        (chunk.semi_bitvector.getD b false = true ↔
          ∃ p, p < probe_table.num_tuples ∧ keyRow probe_values p = keyRow build_values b)) ∧
      chunk.num_ones = ((List.range build_table.num_tuples).filter (fun b =>
        hasEqualKey build_values probe_values probe_table.num_tuples b)).length ∧
      chunk.output_columns = project_column_ids.map (fun c => build_table.columns.getD c []) := by
  obtain ⟨bits, hfold, hlen, hbits⟩ := rightSemiJoin_fold hash probe_table build_table
    probe_keys build_keys probe_values build_values ht W fuel hfuel probe_table.num_tuples
    (le_refl _)
  have hcols := option_mapM_map (fun column_id => build_table.columns.get? column_id)
    (fun c => build_table.columns.getD c []) project_column_ids
    (fun c hc => get?_eq_some_getD _ _ _ (hproj c hc))
  have hvec : bits = (List.range build_table.num_tuples).map (fun b =>
      hasEqualKey build_values probe_values probe_table.num_tuples b) := by
    have := list_eq_map_range bits false (fun b =>
      hasEqualKey build_values probe_values probe_table.num_tuples b)
      (fun i hi => hbits i (by omega))
    rw [hlen] at this
    exact this
  refine ⟨⟨probe_table, build_table, ht, probe_values, build_values, project_column_ids,
      templateKeys probe_keys.length⟩,
    SemiJoinChunk.create (project_column_ids.map
      (fun c => build_table.columns.getD c [])) bits, ?_, ?_, ?_, hvec, ?_, ?_, rfl⟩
  · unfold CreateSemiJoin
    rw [W.probe_columns, W.build_columns]
  · unfold RightSemiJoin.Next
    simp only [Bool.false_eq_true, if_false]
    rw [hfold]
    simp only [hcols]
  · unfold RightSemiJoin.Next
    simp
  · intro b hb
    show bits.getD b false = true ↔ _
    rw [hbits b hb, hasEqualKey_iff]
    constructor
    · rintro ⟨p, hp, h⟩
      exact ⟨p, hp, h.symm⟩
    · rintro ⟨p, hp, h⟩
      exact ⟨p, hp, h.symm⟩
  · show bits.count true = _
    rw [hvec, count_map_range]

theorem probeTest_joinInput :
    JoinInput (fun v => v.toNat) probeTestTable hashTestTable [0, 1] [0, 1]
      [[7, 5, 8, 9, 7], [2, 1, 1, 0, 5]] [[5, 7, 5, 9, 7, 5], [1, 2, 1, 4, 5, 1]]
      ⟨7, [5, 0, 0, 2, 0, 0, 6, 0], [some 0, some 0, some 1, some 3, some 0, some 4]⟩ :=
  ⟨by decide, by decide, by decide, rfl, rfl, rfl, by decide, by decide, by decide⟩

theorem rightSemiJoin_next_witness :
    ∃ semi_join chunk,
      CreateSemiJoin probeTestTable hashTestTable
        ⟨7, [5, 0, 0, 2, 0, 0, 6, 0], [some 0, some 0, some 1, some 3, some 0, some 4]⟩
        [0, 1] [0, 1] [0, 1] = some semi_join ∧
      RightSemiJoin.Next (fun v => v.toNat) 6 semi_join false = some (some chunk, true) ∧
      RightSemiJoin.Next (fun v => v.toNat) 6 semi_join true = some (none, true) ∧
      chunk.semi_bitvector = (List.range hashTestTable.num_tuples).map (fun b =>
        hasEqualKey [[5, 7, 5, 9, 7, 5], [1, 2, 1, 4, 5, 1]]
          [[7, 5, 8, 9, 7], [2, 1, 1, 0, 5]] probeTestTable.num_tuples b) ∧
      (∀ b, b < hashTestTable.num_tuples →
        (chunk.semi_bitvector.getD b false = true ↔
          ∃ p, p < probeTestTable.num_tuples ∧
            keyRow [[7, 5, 8, 9, 7], [2, 1, 1, 0, 5]] p =
              keyRow [[5, 7, 5, 9, 7, 5], [1, 2, 1, 4, 5, 1]] b)) ∧
      chunk.num_ones = ((List.range hashTestTable.num_tuples).filter (fun b =>
        hasEqualKey [[5, 7, 5, 9, 7, 5], [1, 2, 1, 4, 5, 1]]
          [[7, 5, 8, 9, 7], [2, 1, 1, 0, 5]] probeTestTable.num_tuples b)).length ∧
      chunk.output_columns = [0, 1].map (fun c => hashTestTable.columns.getD c []) :=
  rightSemiJoin_next (fun v => v.toNat) probeTestTable hashTestTable [0, 1] [0, 1] [0, 1]
    [[7, 5, 8, 9, 7], [2, 1, 1, 0, 5]] [[5, 7, 5, 9, 7, 5], [1, 2, 1, 4, 5, 1]]
    ⟨7, [5, 0, 0, 2, 0, 0, 6, 0], [some 0, some 0, some 1, some 3, some 0, some 4]⟩ 6
    probeTest_joinInput (by decide) (by decide)
/-! ## The left semi-join -/

theorem packBlock_spec (value : Nat → Option Bool) (g : Nat → Bool) (block_id : Nat) :
    ∀ (k : Nat) (bits : BitVector), 64 * block_id + k ≤ bits.length →
      (∀ j, j < k → value (64 * block_id + j) = some (g (64 * block_id + j))) →
      ∃ out, packBlock value block_id k bits = some out ∧ out.length = bits.length ∧
        ∀ i, out.getD i false =
          if 64 * block_id ≤ i ∧ i < 64 * block_id + k then (bits.getD i false || g i)
          else bits.getD i false := by
  intro k
  induction k with
  | zero =>
    intro bits _ _
    refine ⟨bits, rfl, rfl, ?_⟩
    intro i
    have : ¬ (64 * block_id ≤ i ∧ i < 64 * block_id + 0) := by omega
    rw [if_neg this]
  | succ k ih =>
    intro bits hlen hcmp
    obtain ⟨mid, hmid, hmlen, hmbits⟩ := ih bits (by omega) (fun j hj => hcmp j (by omega))
    obtain ⟨out, hout, holen, hobits⟩ := orBit_spec mid block_id k (g (64 * block_id + k))
      (by omega)
    refine ⟨out, ?_, by omega, ?_⟩
    · unfold packBlock at hmid ⊢
      rw [List.range_succ, List.foldlM_append, hmid]
      simp only [Option.bind_eq_bind, Option.some_bind, List.foldlM_cons, List.foldlM_nil]
      rw [hcmp k (by omega)]
      simp only [hout]
      rfl
    · intro i
      rw [hobits i, hmbits i]
      by_cases h1 : i = 64 * block_id + k
      · subst h1
        have h2 : ¬ (64 * block_id ≤ 64 * block_id + k ∧ 64 * block_id + k < 64 * block_id + k) := by
          omega
        have h3 : 64 * block_id ≤ 64 * block_id + k ∧
            64 * block_id + k < 64 * block_id + (k + 1) := by omega
        simp [h2, h3]
      · by_cases h2 : 64 * block_id ≤ i ∧ i < 64 * block_id + k
        · have h3 : 64 * block_id ≤ i ∧ i < 64 * block_id + (k + 1) := by omega
          simp [h1, h2, h3]
        · have h3 : ¬ (64 * block_id ≤ i ∧ i < 64 * block_id + (k + 1)) := by omega
          simp [h1, h2, h3]

theorem packBlocks_spec (value : Nat → Option Bool) (g : Nat → Bool) :
    ∀ (m : Nat) (bits : BitVector), 64 * m ≤ bits.length →
      (∀ t, t < 64 * m → value t = some (g t)) →
      ∃ out, (List.range m).foldlM (fun (out : BitVector) (block_id : Nat) =>
          packBlock value block_id 64 out) bits = some out ∧ out.length = bits.length ∧
        ∀ i, out.getD i false =
          if i < 64 * m then (bits.getD i false || g i) else bits.getD i false := by
  intro m
  induction m with
  | zero =>
    intro bits _ _
    exact ⟨bits, rfl, rfl, fun i => by simp⟩
  | succ m ih =>
    intro bits hlen hcmp
    obtain ⟨mid, hmid, hmlen, hmbits⟩ := ih bits (by omega) (fun t ht => hcmp t (by omega))
    obtain ⟨out, hout, holen, hobits⟩ := packBlock_spec value g m 64 mid (by omega)
      (fun j hj => hcmp _ (by omega))
    refine ⟨out, ?_, by omega, ?_⟩
    · rw [List.range_succ, List.foldlM_append, hmid]
      simp only [Option.bind_eq_bind, Option.some_bind, List.foldlM_cons, List.foldlM_nil]
      rw [hout]
      rfl
    · intro i
      rw [hobits i, hmbits i]
      by_cases h1 : i < 64 * m
      · have h2 : ¬ (64 * m ≤ i ∧ i < 64 * m + 64) := by omega
        have h3 : i < 64 * (m + 1) := by omega
        simp [h1, h2, h3]
      · by_cases h2 : i < 64 * (m + 1)
        · have h3 : 64 * m ≤ i ∧ i < 64 * m + 64 := by omega
          simp [h1, h2, h3]
        · have h3 : ¬ (64 * m ≤ i ∧ i < 64 * m + 64) := by omega
          simp [h1, h2, h3]

/-- Filling a cleared bit vector of `n` bits through the builder gives the bits
`g 0, ..., g (n - 1)`. -/
theorem packBits_spec (value : Nat → Option Bool) (g : Nat → Bool) (n : Nat)
    (hvalue : ∀ t, t < n → value t = some (g t)) :
    packBits value (List.replicate n false) = some ((List.range n).map g) := by
  have hn := Nat.div_add_mod n 64
  obtain ⟨full, hfull, hflen, hfbits⟩ := packBlocks_spec value g (n / 64)
    (List.replicate n false) (by rw [List.length_replicate]; omega)
    (fun t ht => hvalue t (by omega))
  obtain ⟨out, hout, holen, hobits⟩ := packBlock_spec value g (n / 64) (n % 64) full
    (by rw [hflen, List.length_replicate]; omega) (fun j hj => hvalue _ (by omega))
  have hlen : out.length = n := by rw [holen, hflen, List.length_replicate]
  have hvec := list_eq_map_range out false g (fun t ht => by
    rw [hobits t, hfbits t]
    have htn : t < n := by omega
    have hrep : (List.replicate n false).getD t false = false := by
      simp [List.getD_eq_getElem?_getD, List.getElem?_replicate, htn]
    rw [hrep]
    by_cases h1 : t < 64 * (n / 64)
    · have h2 : ¬ (64 * (n / 64) ≤ t ∧ t < 64 * (n / 64) + n % 64) := by omega
      simp [h1, h2]
    · have h2 : 64 * (n / 64) ≤ t ∧ t < 64 * (n / 64) + n % 64 := by omega
      simp [h1, h2])
  rw [hlen] at hvec
  unfold packBits
  rw [List.length_replicate, hfull]
  simp only
  rw [hout, hvec]

theorem keyRow_drop (values : List (List Int)) (offset i : Nat) :
    keyRow (values.map (fun column => column.drop offset)) i = keyRow values (offset + i) := by
  unfold keyRow
  rw [List.map_map]
  apply List.map_congr_left
  intro column _
  simp [List.getD_eq_getElem?_getD, List.getElem?_drop]

theorem hasEqualKey_drop (probe_values build_values : List (List Int))
    (build_rows offset i : Nat) :
    hasEqualKey (probe_values.map (fun column => column.drop offset)) build_values
        build_rows i
      = hasEqualKey probe_values build_values build_rows (offset + i) := by
  unfold hasEqualKey
  rw [keyRow_drop]

theorem leftSemiJoin_next_spec (hash : Int → Nat) (probe_table build_table : TableView)
    (probe_keys build_keys project_column_ids : List Nat)
    (probe_values build_values : List (List Int)) (ht : FoilHashTable) (fuel c cur : Nat)
    (W : JoinInput hash probe_table build_table probe_keys build_keys probe_values
      build_values ht)
    (hproj : ∀ cid ∈ project_column_ids, cid < probe_table.columns.length)
    (hfuel : build_table.num_tuples ≤ fuel) (hcur : cur < probe_table.num_tuples) :
    LeftSemiJoin.Next hash fuel c
        ⟨probe_table, build_table, ht, probe_values, build_values, project_column_ids,
          templateKeys probe_keys.length⟩ cur
      = some (some (leftChunkAt c probe_table project_column_ids probe_values build_values
          build_table.num_tuples cur), cur + c) := by
  have hbits := packBits_spec (fun probe_tid =>
      hasMatch hash fuel (templateKeys probe_keys.length) ht
        (probe_values.map (fun column => column.drop cur)) build_values probe_tid)
    (fun i => hasEqualKey probe_values build_values build_table.num_tuples (cur + i))
    (min c (probe_table.num_tuples - cur))
    (fun t ht2 => by
      have := hasMatch_spec hash probe_table build_table probe_keys build_keys probe_values
        build_values ht W (probe_values.map (fun column => column.drop cur))
        (by simp) t fuel
        (fun column hc => by
          obtain ⟨col, hcol, rfl⟩ := List.mem_map.mp hc
          rw [List.length_drop, W.probe_rect col hcol]
          omega) hfuel
      simp only [this, hasEqualKey_drop])
  have hcols := option_mapM_map (fun column_id =>
      match probe_table.columns.get? column_id with
      | none => none
      | some column => some (column.drop cur))
    (fun cid => (probe_table.columns.getD cid []).drop cur) project_column_ids
    (fun cid hc => by
      simp only [get?_eq_some_getD probe_table.columns cid [] (hproj cid hc)])
  unfold LeftSemiJoin.Next LeftSemiJoin.DoSemiJoin
  rw [if_neg (by simp only [ge_iff_le, not_le]; exact hcur)]
  simp only [hbits, hcols]
  rfl
theorem leftSemiJoin_drain_spec (hash : Int → Nat) (probe_table build_table : TableView)
    (probe_keys build_keys project_column_ids : List Nat)
    (probe_values build_values : List (List Int)) (ht : FoilHashTable) (c : Nat)
    (W : JoinInput hash probe_table build_table probe_keys build_keys probe_values
      build_values ht)
    (hproj : ∀ cid ∈ project_column_ids, cid < probe_table.columns.length) (hc : 0 < c) :
    ∀ (d k fuel : Nat), k + d = (probe_table.num_tuples + c - 1) / c →
      build_table.num_tuples + d + 1 ≤ fuel →
      LeftSemiJoin.drain hash c
          ⟨probe_table, build_table, ht, probe_values, build_values, project_column_ids,
            templateKeys probe_keys.length⟩ fuel (k * c)
        = some ((List.range' k d).map (fun k =>
            leftChunkAt c probe_table project_column_ids probe_values build_values
              build_table.num_tuples (k * c))) := by
  intro d
  induction d with
  | zero =>
    intro k fuel hk hfuel
    have hle := chunk_count_le c probe_table.num_tuples hc
    rw [Nat.add_zero] at hk
    rw [← hk] at hle
    cases fuel with
    | zero => omega
    | succ fuel =>
      rw [LeftSemiJoin.drain]
      unfold LeftSemiJoin.Next
      rw [if_pos hle]
      rfl
  | succ d ih =>
    intro k fuel hk hfuel
    have hlt := chunk_count_lt c probe_table.num_tuples k hc (by omega)
    cases fuel with
    | zero => omega
    | succ fuel =>
      rw [LeftSemiJoin.drain, leftSemiJoin_next_spec hash probe_table build_table probe_keys
        build_keys project_column_ids probe_values build_values ht (fuel + 1) c (k * c) W hproj
        (by omega) hlt]
      simp only
      have hnext : k * c + c = (k + 1) * c := by rw [Nat.succ_mul]
      rw [hnext, ih (k + 1) fuel (by omega) (by omega)]
      rw [List.range'_succ, List.map_cons]

theorem take_drop_map_range {α : Type} (f : Nat → α) (total c offset : Nat) :
    (((List.range total).map f).drop offset).take c =
      (List.range (min c (total - offset))).map (fun i => f (offset + i)) := by
  apply List.ext_getElem?
  intro i
  rw [List.getElem?_take, List.getElem?_drop, List.getElem?_map, List.getElem?_map]
  by_cases hi : i < c
  · rw [if_pos hi]
    by_cases h2 : offset + i < total
    · rw [List.getElem?_range h2, List.getElem?_range (by omega)]
      rfl
    · rw [List.getElem?_eq_none (by simp; omega), List.getElem?_eq_none (by simp; omega)]
      rfl
  · rw [if_neg hi, List.getElem?_eq_none (by simp; omega)]
    rfl

/-- C11: for a chunk size `c ≥ 1`, the chunks returned by `LeftSemiJoin::Next` until null
(the calls end, given enough fuel) are the chunks at the probe offsets `0, c, 2c, ...`
below the number of probe rows; the chunk at an offset has the projected probe columns
from that offset on, a bit vector of between `1` and `c` bits in which bit `i` tells
whether a build row has the key values of probe row `offset + i`, and `num_ones` counts
its set bits; the bit vectors of the chunks together are the bits of the probe rows
`0 .. total - 1` in order. -/
theorem leftSemiJoin_chunks (hash : Int → Nat) (probe_table build_table : TableView)
    (probe_keys build_keys project_column_ids : List Nat)
    (probe_values build_values : List (List Int)) (ht : FoilHashTable) (c : Nat)
    (W : JoinInput hash probe_table build_table probe_keys build_keys probe_values
      build_values ht)
    (hproj : ∀ cid ∈ project_column_ids, cid < probe_table.columns.length) (hc : 0 < c) :
    ∃ semi_join,
      CreateSemiJoin probe_table build_table ht probe_keys build_keys project_column_ids
        = some semi_join ∧
      (∀ fuel, build_table.num_tuples + probe_table.num_tuples + 1 ≤ fuel →
        LeftSemiJoin.drain hash c semi_join fuel 0 =
          some ((List.range ((probe_table.num_tuples + c - 1) / c)).map (fun k =>
            leftChunkAt c probe_table project_column_ids probe_values build_values
              build_table.num_tuples (k * c)))) ∧
      ((List.range ((probe_table.num_tuples + c - 1) / c)).map (fun k =>
          (leftChunkAt c probe_table project_column_ids probe_values build_values
            build_table.num_tuples (k * c)).semi_bitvector)).flatten =
        (List.range probe_table.num_tuples).map (fun p =>
          hasEqualKey probe_values build_values build_table.num_tuples p) ∧
      (∀ k, k < (probe_table.num_tuples + c - 1) / c →
        0 < (leftChunkAt c probe_table project_column_ids probe_values build_values
          build_table.num_tuples (k * c)).semi_bitvector.length ∧
        (leftChunkAt c probe_table project_column_ids probe_values build_values
          build_table.num_tuples (k * c)).semi_bitvector.length ≤ c ∧
        (leftChunkAt c probe_table project_column_ids probe_values build_values
          build_table.num_tuples (k * c)).num_ones =
          (leftChunkAt c probe_table project_column_ids probe_values build_values
            build_table.num_tuples (k * c)).semi_bitvector.count true) ∧
      (∀ p, hasEqualKey probe_values build_values build_table.num_tuples p = true ↔
        ∃ b, b < build_table.num_tuples ∧ keyRow probe_values p = keyRow build_values b) := by
  refine ⟨⟨probe_table, build_table, ht, probe_values, build_values, project_column_ids,
      templateKeys probe_keys.length⟩, ?_, ?_, ?_, ?_, fun p => hasEqualKey_iff _ _ _ _⟩
  · unfold CreateSemiJoin
    rw [W.probe_columns, W.build_columns]
  · intro fuel hfuel
    have hn : (probe_table.num_tuples + c - 1) / c ≤ probe_table.num_tuples := by
      by_contra h
      have h1 := chunk_count_lt c probe_table.num_tuples probe_table.num_tuples hc (by omega)
      have h2 : probe_table.num_tuples ≤ probe_table.num_tuples * c :=
        Nat.le_mul_of_pos_right _ hc
      omega
    have := leftSemiJoin_drain_spec hash probe_table build_table probe_keys build_keys
      project_column_ids probe_values build_values ht c W hproj hc _ 0 fuel (Nat.zero_add _)
      (by omega)
    rw [Nat.zero_mul, ← List.range_eq_range'] at this
    exact this
  · have := chunks_flatten c ((probe_table.num_tuples + c - 1) / c)
      ((List.range probe_table.num_tuples).map (fun p =>
        hasEqualKey probe_values build_values build_table.num_tuples p))
      (by rw [List.length_map, List.length_range]; exact chunk_count_le c _ hc)
    rw [← this]
    congr 1
    apply List.map_congr_left
    intro k _
    rw [take_drop_map_range]
    rfl
  · intro k hk
    have hlt := chunk_count_lt c probe_table.num_tuples k hc hk
    refine ⟨?_, ?_, rfl⟩
    · simp only [leftChunkAt, SemiJoinChunk.create, List.length_map, List.length_range]
      omega
    · simp only [leftChunkAt, SemiJoinChunk.create, List.length_map, List.length_range]
      omega

theorem leftSemiJoin_chunks_witness :
    ∃ semi_join,
      CreateSemiJoin probeTestTable hashTestTable
        ⟨7, [5, 0, 0, 2, 0, 0, 6, 0], [some 0, some 0, some 1, some 3, some 0, some 4]⟩
        [0, 1] [0, 1] [0, 2] = some semi_join ∧
      (∀ fuel, hashTestTable.num_tuples + probeTestTable.num_tuples + 1 ≤ fuel →
        LeftSemiJoin.drain (fun v => v.toNat) 2 semi_join fuel 0 =
          some ((List.range ((probeTestTable.num_tuples + 2 - 1) / 2)).map (fun k =>
            leftChunkAt 2 probeTestTable [0, 2] [[7, 5, 8, 9, 7], [2, 1, 1, 0, 5]]
              [[5, 7, 5, 9, 7, 5], [1, 2, 1, 4, 5, 1]] hashTestTable.num_tuples (k * 2)))) ∧
      ((List.range ((probeTestTable.num_tuples + 2 - 1) / 2)).map (fun k =>
          (leftChunkAt 2 probeTestTable [0, 2] [[7, 5, 8, 9, 7], [2, 1, 1, 0, 5]]
            [[5, 7, 5, 9, 7, 5], [1, 2, 1, 4, 5, 1]] hashTestTable.num_tuples
            (k * 2)).semi_bitvector)).flatten =
        (List.range probeTestTable.num_tuples).map (fun p =>
          hasEqualKey [[7, 5, 8, 9, 7], [2, 1, 1, 0, 5]]
            [[5, 7, 5, 9, 7, 5], [1, 2, 1, 4, 5, 1]] hashTestTable.num_tuples p) ∧
      (∀ k, k < (probeTestTable.num_tuples + 2 - 1) / 2 →
        0 < (leftChunkAt 2 probeTestTable [0, 2] [[7, 5, 8, 9, 7], [2, 1, 1, 0, 5]]
          [[5, 7, 5, 9, 7, 5], [1, 2, 1, 4, 5, 1]] hashTestTable.num_tuples
          (k * 2)).semi_bitvector.length ∧
        (leftChunkAt 2 probeTestTable [0, 2] [[7, 5, 8, 9, 7], [2, 1, 1, 0, 5]]
          [[5, 7, 5, 9, 7, 5], [1, 2, 1, 4, 5, 1]] hashTestTable.num_tuples
          (k * 2)).semi_bitvector.length ≤ 2 ∧
        (leftChunkAt 2 probeTestTable [0, 2] [[7, 5, 8, 9, 7], [2, 1, 1, 0, 5]]
          [[5, 7, 5, 9, 7, 5], [1, 2, 1, 4, 5, 1]] hashTestTable.num_tuples
          (k * 2)).num_ones =
          (leftChunkAt 2 probeTestTable [0, 2] [[7, 5, 8, 9, 7], [2, 1, 1, 0, 5]]
            [[5, 7, 5, 9, 7, 5], [1, 2, 1, 4, 5, 1]] hashTestTable.num_tuples
            (k * 2)).semi_bitvector.count true) ∧
      (∀ p, hasEqualKey [[7, 5, 8, 9, 7], [2, 1, 1, 0, 5]]
          [[5, 7, 5, 9, 7, 5], [1, 2, 1, 4, 5, 1]] hashTestTable.num_tuples p = true ↔
        ∃ b, b < hashTestTable.num_tuples ∧
          keyRow [[7, 5, 8, 9, 7], [2, 1, 1, 0, 5]] p =
            keyRow [[5, 7, 5, 9, 7, 5], [1, 2, 1, 4, 5, 1]] b) :=
  leftSemiJoin_chunks (fun v => v.toNat) probeTestTable hashTestTable [0, 1] [0, 1] [0, 2]
    [[7, 5, 8, 9, 7], [2, 1, 1, 0, 5]] [[5, 7, 5, 9, 7, 5], [1, 2, 1, 4, 5, 1]]
    ⟨7, [5, 0, 0, 2, 0, 0, 6, 0], [some 0, some 0, some 1, some 3, some 0, some 4]⟩ 2
    probeTest_joinInput (by decide) (by decide)

/-! ## The hash table built after a semi-join -/

/-- C13 (refuted on a stream of two chunks): the left semi-join of a table with the keys
`1, 2, 3, 0` with chunk size `2` marks all four rows in two chunks;
`BuildHashTableAfterSemiJoin` links the rows by their positions inside the chunks, so
that the chain of the bucket of key `3` (row 2, marked) holds position `0` only, and row
`0` of the table has key `1`: the walk reaches no row with the key of row 2. -/
theorem buildHashTableAfterSemiJoin_two_chunks :
    ∃ ht semi_join stream,
      BuildHashTableOnTable (fun v => v.toNat) [0] fourFactTable = some ht ∧
      CreateSemiJoin fourRowTable fourFactTable ht [0] [0] [0] = some semi_join ∧
      LeftSemiJoin.drain (fun v => v.toNat) 2 semi_join 8 0 = some stream ∧
      stream.map SemiJoinChunk.semi_bitvector = [[true, true], [true, true]] ∧
      BuildHashTableAfterSemiJoin (fun v => v.toNat) 8 fourRowTable.num_tuples 1 stream =
        some ⟨3, [2, 1, 2, 1], [some 0, some 0, none, none]⟩ ∧
      HashAt (fun v => v.toNat) (templateKeys 1) fourRowTable.columns 2 = some 3 ∧
      chainWalk [some 0, some 0, none, none] 8 ([2, 1, 2, 1].getD (3 &&& 3) 0) = some [0] ∧
      keyRow fourRowTable.columns 0 ≠ keyRow fourRowTable.columns 2 :=
  ⟨⟨3, [4, 1, 2, 3], [some 0, some 0, some 0, some 0]⟩,
    ⟨fourRowTable, fourFactTable, ⟨3, [4, 1, 2, 3], [some 0, some 0, some 0, some 0]⟩,
      [[1, 2, 3, 0]], [[1, 2, 3, 0]], [0], 1⟩,
    [⟨[[1, 2, 3, 0]], [true, true], 2⟩, ⟨[[3, 0]], [true, true], 2⟩],
    by decide, by decide, by decide, by decide, by decide, by decide, by decide, by decide⟩

/-! ## The hash join on several columns -/

theorem matchingPositions_block (hash : Int → Nat) (probe_table build_table : TableView)
    (probe_keys build_keys : List Nat) (probe_values build_values : List (List Int))
    (ht : FoilHashTable)
    (W : JoinInput hash probe_table build_table probe_keys build_keys probe_values
      build_values ht)
    (offset i fuel : Nat) (hi : offset + i < probe_table.num_tuples)
    (hfuel : build_table.num_tuples ≤ fuel) :
    matchingPositions hash fuel (templateKeys probe_keys.length) ht
        (probe_values.map (fun column => column.drop offset)) build_values i
      = some (matchingRows probe_values build_values build_table.num_tuples (offset + i)) := by
  have := matchingPositions_spec hash probe_table build_table probe_keys build_keys
    probe_values build_values ht W (probe_values.map (fun column => column.drop offset))
    (by simp) i fuel
    (fun column hc => by
      obtain ⟨col, hcol, rfl⟩ := List.mem_map.mp hc
      rw [List.length_drop, W.probe_rect col hcol]
      omega) hfuel
  rw [this]
  unfold matchingRows
  simp only [keyRow_drop]

theorem doBlockJoin_spec (hash : Int → Nat) (probe_table build_table : TableView)
    (probe_keys build_keys : List Nat) (probe_values build_values : List (List Int))
    (ht : FoilHashTable)
    (W : JoinInput hash probe_table build_table probe_keys build_keys probe_values
      build_values ht)
    (populate_probe_tids populate_build_tids : Bool) (offset fuel : Nat)
    (hfuel : build_table.num_tuples ≤ fuel) :
    ∀ n, offset + n ≤ probe_table.num_tuples →
      DoBlockJoin hash fuel (templateKeys probe_keys.length) populate_probe_tids
          populate_build_tids n (probe_values.map (fun column => column.drop offset))
          build_values ht
        = some
          (if populate_probe_tids then
              (joinPairsFrom probe_values build_values build_table.num_tuples offset n).map
                (fun pr => pr.1 - offset)
            else [],
           if populate_build_tids then
              (joinPairsFrom probe_values build_values build_table.num_tuples offset n).map
                Prod.snd
            else []) := by
  intro n
  induction n with
  | zero =>
    intro _
    cases populate_probe_tids <;> cases populate_build_tids <;> rfl
  | succ n ih =>
    intro hn
    have hprev := ih (by omega)
    have hpos := matchingPositions_block hash probe_table build_table probe_keys build_keys
      probe_values build_values ht W offset n fuel (by omega) hfuel
    unfold DoBlockJoin at hprev ⊢
    rw [List.range_succ, List.foldlM_append, hprev]
    simp only [Option.bind_eq_bind, Option.some_bind, List.foldlM_cons, List.foldlM_nil, hpos]
    have hsplit : joinPairsFrom probe_values build_values build_table.num_tuples offset (n + 1)
        = joinPairsFrom probe_values build_values build_table.num_tuples offset n ++
          (matchingRows probe_values build_values build_table.num_tuples (offset + n)).map
            (fun b => (offset + n, b)) := by
      unfold joinPairsFrom
      rw [List.range'_concat, List.flatMap_append]
      simp
    rw [hsplit]
    cases populate_probe_tids <;> cases populate_build_tids <;>
      simp [List.map_append, Function.comp_def]
theorem writeToBuffer_spec (tids : List Nat) (input_values : List Int) (start : Nat)
    (output : OutputBuffer) (htids : ∀ tid ∈ tids, tid < input_values.length)
    (hcap : start + tids.length ≤ output.length) :
    WriteToBuffer tids input_values start output =
      some (output.take start ++ tids.map (fun tid => some (input_values.getD tid 0)) ++
        output.drop (start + tids.length)) := by
  have hmap := option_mapM_map (fun tid => input_values.get? tid)
    (fun tid => input_values.getD tid 0) tids
    (fun tid h => get?_eq_some_getD _ _ _ (htids tid h))
  unfold WriteToBuffer
  rw [hmap]
  simp only [List.length_map]
  rw [if_pos hcap, List.map_map]
  rfl

theorem mem_joinPairsFrom (probe_values build_values : List (List Int))
    (build_rows first count : Nat) (pr : Nat × Nat)
    (h : pr ∈ joinPairsFrom probe_values build_values build_rows first count) :
    first ≤ pr.1 ∧ pr.1 < first + count ∧ pr.2 < build_rows := by
  unfold joinPairsFrom matchingRows at h
  rw [List.mem_flatMap] at h
  obtain ⟨p, hp, hmem⟩ := h
  rw [List.mem_map] at hmem
  obtain ⟨b, hb, rfl⟩ := hmem
  rw [List.mem_reverse, List.mem_filter, List.mem_range] at hb
  rw [List.mem_range'_1] at hp
  exact ⟨hp.1, hp.2, hb.1⟩

theorem evaluateForJoin_block (probe_table build_table : TableView)
    (populate_probe_tids populate_build_tids : Bool) (column_id offset : Nat)
    (pairs : List (Nat × Nat)) (start : Nat) (buffer : OutputBuffer)
    (hprobe : ∀ column ∈ probe_table.columns, column.length = probe_table.num_tuples)
    (hbuild : ∀ column ∈ build_table.columns, column.length = build_table.num_tuples)
    (hcid : (column_id < probe_table.columns.length ∧ populate_probe_tids = true) ∨
      (probe_table.columns.length ≤ column_id ∧
        column_id < probe_table.columns.length + build_table.columns.length ∧
        populate_build_tids = true))
    (hpairs : ∀ pr ∈ pairs, offset ≤ pr.1 ∧ pr.1 < probe_table.num_tuples ∧
      pr.2 < build_table.num_tuples)
    (hcap : start + pairs.length ≤ buffer.length) :
    AttributeReference.EvaluateForJoin column_id
        (probe_table.columns.map (fun column => column.drop offset)) build_table.columns
        (if populate_probe_tids then pairs.map (fun pr => pr.1 - offset) else [])
        (if populate_build_tids then pairs.map Prod.snd else []) start buffer
      = some (buffer.take start ++
          pairs.map (fun pr => some (projectPair probe_table build_table column_id pr)) ++
          buffer.drop (start + pairs.length)) := by
  unfold AttributeReference.EvaluateForJoin
  rw [List.length_map]
  rcases hcid with ⟨h1, h2⟩ | ⟨h1, h2, h3⟩
  · rw [if_pos h1, h2]
    have hget : (probe_table.columns.map (fun column => column.drop offset)).get? column_id =
        some ((probe_table.columns.getD column_id []).drop offset) := by
      rw [List.get?_eq_getElem?, List.getElem?_map, ← List.get?_eq_getElem?,
        get?_eq_some_getD probe_table.columns column_id [] h1]
      rfl
    rw [hget]
    simp only [if_true]
    have hlen := hprobe _ (getD_mem_of_lt probe_table.columns column_id [] h1)
    rw [writeToBuffer_spec _ _ _ _ (fun tid htid => by
        obtain ⟨pr, hpr, rfl⟩ := List.mem_map.mp htid
        have := hpairs pr hpr
        rw [List.length_drop, hlen]
        omega) (by rw [List.length_map]; exact hcap)]
    rw [List.length_map, List.map_map]
    congr 2
    congr 1
    apply List.map_congr_left
    intro pr hpr
    have := hpairs pr hpr
    simp only [Function.comp, projectPair, if_pos h1]
    congr 1
    simp only [List.getD_eq_getElem?_getD, List.getElem?_drop]
    congr 2
    omega
  · rw [if_neg (by omega), h3]
    rw [get?_eq_some_getD build_table.columns _ [] (by omega)]
    simp only [if_true]
    have hlen := hbuild _ (getD_mem_of_lt build_table.columns
      (column_id - probe_table.columns.length) [] (by omega))
    rw [writeToBuffer_spec _ _ _ _ (fun tid htid => by
        obtain ⟨pr, hpr, rfl⟩ := List.mem_map.mp htid
        have := hpairs pr hpr
        rw [hlen]
        omega) (by rw [List.length_map]; exact hcap)]
    rw [List.length_map, List.map_map]
    congr 2
    congr 1
    apply List.map_congr_left
    intro pr _
    simp only [Function.comp, projectPair, if_neg (by omega : ¬ column_id <
      probe_table.columns.length)]

theorem enum_foldlM_set {α β : Type} (step : List β → Nat × α → Option (List β))
    (f : α → β → Option β) (g : α → β → β)
    (hstep : ∀ (buffers : List β) (i : Nat) (a : α) (b : β), buffers.get? i = some b →
      f a b = some (g a b) → step buffers (i, a) = some (buffers.set i (g a b))) :
    ∀ (l : List α) (pre : List β) (rest : List β), l.length = rest.length →
      (∀ a b, (a, b) ∈ l.zip rest → f a b = some (g a b)) →
      (l.enumFrom pre.length).foldlM step (pre ++ rest)
        = some (pre ++ List.zipWith g l rest) := by
  intro l
  induction l with
  | nil =>
    intro pre rest hlen _
    have : rest = [] := List.eq_nil_of_length_eq_zero hlen.symm
    subst this
    rfl
  | cons a t ih =>
    intro pre rest hlen hf
    cases rest with
    | nil => simp at hlen
    | cons b rest =>
      rw [List.enumFrom_cons, List.foldlM_cons]
      have hget : (pre ++ b :: rest).get? pre.length = some b := by
        rw [List.get?_eq_getElem?, List.getElem?_append_right (le_refl _)]
        simp
      rw [hstep _ _ a b hget (hf a b (by simp))]
      have hset : (pre ++ b :: rest).set pre.length (g a b) = (pre ++ [g a b]) ++ rest := by
        rw [List.set_append_right _ _ (le_refl _)]
        simp
      simp only [Option.bind_eq_bind, Option.some_bind]
      rw [hset]
      have := ih (pre ++ [g a b]) rest (by simpa using hlen)
        (fun a2 b2 h => hf a2 b2 (by simp [h]))
      rw [List.length_append, List.length_singleton] at this
      rw [this]
      simp
theorem realloc_length (buffer : OutputBuffer) (n : Nat) : (buffer.Realloc n).length = n := by
  unfold OutputBuffer.Realloc
  rw [List.length_append, List.length_take, List.length_replicate]
  omega

theorem realloc_take (buffer : OutputBuffer) (n k : Nat) (h1 : k ≤ n) (h2 : k ≤ buffer.length) :
    (buffer.Realloc n).take k = buffer.take k := by
  unfold OutputBuffer.Realloc
  rw [List.take_append_of_le_length (by rw [List.length_take]; omega), List.take_take]
  congr 1
  omega

theorem getD_map_realloc (buffers : List OutputBuffer) (n i : Nat) (hi : i < buffers.length) :
    (buffers.map (fun buffer => buffer.Realloc n)).getD i [] = (buffers.getD i []).Realloc n := by
  simp [List.getD_eq_getElem?_getD, List.getElem?_map, List.getElem?_eq_getElem hi]

/-- The resizing step of `JoinImpl`: afterwards every buffer has room for the `m` results
of the block and the cells written before are unchanged. -/
theorem join_resize_spec (resizeable : Bool) (project_expressions : List Nat)
    (probe_table build_table : TableView) (pairs : List (Nat × Nat)) (total m : Nat)
    (state : List OutputBuffer × Nat)
    (hI : JoinProgress resizeable project_expressions probe_table build_table pairs total state)
    (hm : pairs.length + m ≤ total) :
    ∃ buffers,
      (if resizeable then
          match state.1.get? 0 with
          | none => none
          | some first =>
            if first.length < state.2 + m then
              some (state.1.map (fun buffer =>
                buffer.Realloc (max (state.2 + m) (first.length * 3 / 2))))
            else some state.1
        else some state.1) = some buffers ∧
      buffers.length = state.1.length ∧
      (∀ i, i < state.1.length →
        (buffers.getD i []).take state.2 = (state.1.getD i []).take state.2) ∧
      (∀ b ∈ buffers, state.2 + m ≤ b.length) ∧
      (resizeable = true → buffers ≠ [] ∧ ∃ L, state.2 + m ≤ L ∧ ∀ b ∈ buffers, b.length = L) ∧
      (resizeable = false → ∀ b ∈ buffers, total ≤ b.length) := by
  cases hr : resizeable with
  | false =>
    have hcap := hI.fixed_capacity hr
    refine ⟨state.1, by simp, rfl, fun _ _ => rfl, ?_, by simp, fun _ => hcap⟩
    intro b hb
    have := hcap b hb
    have := hI.offset_eq
    omega
  | true =>
    obtain ⟨hne, L, hL, hall⟩ := hI.resizeable_capacity hr
    cases hbufs : state.1 with
    | nil => exact absurd hbufs hne
    | cons first rest =>
      have hfirst : first.length = L := hall first (by rw [hbufs]; exact List.mem_cons_self _ _)
      simp only [if_true, List.get?_cons_zero]
      by_cases hlt : first.length < state.2 + m
      · rw [if_pos hlt]
        refine ⟨_, rfl, by simp, ?_, ?_, fun _ => ⟨by simp, max (state.2 + m) (first.length * 3 / 2),
          le_max_left _ _, ?_⟩, by simp⟩
        · intro i hi
          rw [← hbufs, getD_map_realloc _ _ _ (by rw [hbufs]; exact hi)]
          apply realloc_take
          · exact le_trans (Nat.le_add_right _ _) (le_max_left _ _)
          · have := hall _ (getD_mem_of_lt state.1 i [] (by rw [hbufs]; exact hi))
            omega
        · intro b hb
          obtain ⟨b0, _, rfl⟩ := List.mem_map.mp hb
          rw [realloc_length]
          exact le_max_left _ _
        · intro b hb
          obtain ⟨b0, _, rfl⟩ := List.mem_map.mp hb
          exact realloc_length _ _
      · rw [if_neg hlt]
        refine ⟨_, rfl, rfl, fun _ _ => rfl, ?_, fun _ => ⟨by simp, L, by omega, ?_⟩, by simp⟩
        · intro b hb
          have := hall b (by rw [hbufs]; exact hb)
          omega
        · intro b hb
          exact hall b (by rw [hbufs]; exact hb)
theorem joinPairsFrom_append (probe_values build_values : List (List Int))
    (build_rows first m n : Nat) :
    joinPairsFrom probe_values build_values build_rows first (m + n) =
      joinPairsFrom probe_values build_values build_rows first m ++
        joinPairsFrom probe_values build_values build_rows (first + m) n := by
  unfold joinPairsFrom
  rw [Nat.add_comm m n, ← List.range'_append_1, List.flatMap_append]

theorem written_cells (buffer : OutputBuffer) (start : Nat) (values : List (Option Int))
    (h : start + values.length ≤ buffer.length) :
    (buffer.take start ++ values ++ buffer.drop (start + values.length)).length = buffer.length ∧
    (buffer.take start ++ values ++ buffer.drop (start + values.length)).take
        (start + values.length) = buffer.take start ++ values := by
  constructor
  · simp only [List.length_append, List.length_take, List.length_drop]
    omega
  · rw [List.take_append_of_le_length (by
      simp only [List.length_append, List.length_take]; omega)]
    rw [List.take_of_length_le (by simp only [List.length_append, List.length_take]; omega)]

theorem getD_zipWith_of_lt {α β γ : Type} (g : α → β → γ) (l : List α) (r : List β)
    (i : Nat) (a : α) (d : γ) (e : β) (ha : l.get? i = some a) (hi : i < r.length) :
    (List.zipWith g l r).getD i d = g a (r.getD i e) := by
  rw [List.get?_eq_getElem?] at ha
  rw [List.getD_eq_getElem?_getD, List.getElem?_zipWith, ha, List.getD_eq_getElem?_getD,
    List.getElem?_eq_getElem hi]
  rfl

theorem joinBlock_spec (hash : Int → Nat) (probe_table build_table : TableView)
    (probe_keys build_keys project_expressions : List Nat)
    (probe_values build_values : List (List Int)) (ht : FoilHashTable)
    (W : JoinInput hash probe_table build_table probe_keys build_keys probe_values
      build_values ht)
    (resizeable populate_probe_tids populate_build_tids : Bool)
    (hflags : populate_probe_tids = true ∨ populate_build_tids = true)
    (hprobe : ∀ column ∈ probe_table.columns, column.length = probe_table.num_tuples)
    (hbuild : ∀ column ∈ build_table.columns, column.length = build_table.num_tuples)
    (hproj : ∀ cid ∈ project_expressions,
      (cid < probe_table.columns.length ∧ populate_probe_tids = true) ∨
      (probe_table.columns.length ≤ cid ∧
        cid < probe_table.columns.length + build_table.columns.length ∧
        populate_build_tids = true))
    (c fuel offset : Nat) (state : List OutputBuffer × Nat)
    (hfuel : build_table.num_tuples ≤ fuel) (hoff : offset < probe_table.num_tuples)
    (hI : JoinProgress resizeable project_expressions probe_table build_table
      (joinPairsFrom probe_values build_values build_table.num_tuples 0 offset)
      (joinPairs probe_values build_values probe_table.num_tuples
        build_table.num_tuples).length state) :
    ∃ state1,
      joinBlock hash fuel c resizeable populate_probe_tids populate_build_tids
          (templateKeys probe_keys.length) ⟨probe_table, probe_values, project_expressions⟩
          build_table ht build_values offset state = some state1 ∧
      JoinProgress resizeable project_expressions probe_table build_table
        (joinPairsFrom probe_values build_values build_table.num_tuples 0
          (offset + min c (probe_table.num_tuples - offset)))
        (joinPairs probe_values build_values probe_table.num_tuples
          build_table.num_tuples).length state1 := by
  have hdo := doBlockJoin_spec hash probe_table build_table probe_keys build_keys probe_values
    build_values ht W populate_probe_tids populate_build_tids offset fuel hfuel
    (min c (probe_table.num_tuples - offset)) (by omega)
  have hsplit := joinPairsFrom_append probe_values build_values build_table.num_tuples 0
    offset (min c (probe_table.num_tuples - offset))
  rw [Nat.zero_add] at hsplit
  have hle : (joinPairsFrom probe_values build_values build_table.num_tuples 0 offset).length +
      (joinPairsFrom probe_values build_values build_table.num_tuples offset
        (min c (probe_table.num_tuples - offset))).length ≤
      (joinPairs probe_values build_values probe_table.num_tuples
        build_table.num_tuples).length := by
    have h2 := joinPairsFrom_append probe_values build_values build_table.num_tuples 0
      (offset + min c (probe_table.num_tuples - offset))
      (probe_table.num_tuples - (offset + min c (probe_table.num_tuples - offset)))
    have h3 : offset + min c (probe_table.num_tuples - offset) +
        (probe_table.num_tuples - (offset + min c (probe_table.num_tuples - offset))) =
        probe_table.num_tuples := by omega
    rw [h3] at h2
    unfold joinPairs
    rw [h2, hsplit, List.length_append, List.length_append]
    omega
  have hmemblk : ∀ pr ∈ joinPairsFrom probe_values build_values build_table.num_tuples offset
      (min c (probe_table.num_tuples - offset)),
      offset ≤ pr.1 ∧ pr.1 < probe_table.num_tuples ∧ pr.2 < build_table.num_tuples := by
    intro pr hpr
    have := mem_joinPairsFrom _ _ _ _ _ pr hpr
    omega
  generalize joinPairsFrom probe_values build_values build_table.num_tuples offset
    (min c (probe_table.num_tuples - offset)) = blk at hdo hsplit hle hmemblk
  have hnum : (if populate_build_tids = true then
        (if populate_build_tids = true then blk.map Prod.snd else []).length
      else
        (if populate_probe_tids = true then blk.map (fun pr => pr.1 - offset) else []).length) =
      blk.length := by
    cases hb : populate_build_tids with
    | true => simp
    | false =>
      have hp : populate_probe_tids = true := by
        rcases hflags with h | h
        · exact h
        · rw [hb] at h; exact absurd h (by decide)
      simp [hp]
  obtain ⟨buffers, hres, hblen, htake, hroom, hcapr, hcapf⟩ := join_resize_spec resizeable
    project_expressions probe_table build_table _ _ blk.length state hI hle
  have hwrite := enum_foldlM_set
    (writeProjection (probe_table.columns.map (fun column => column.drop offset))
      build_table.columns
      (if populate_probe_tids then blk.map (fun pr => pr.1 - offset) else [])
      (if populate_build_tids then blk.map Prod.snd else []) state.2)
    (fun (cid : Nat) (buffer : OutputBuffer) =>
      AttributeReference.EvaluateForJoin cid
        (probe_table.columns.map (fun column => column.drop offset)) build_table.columns
        (if populate_probe_tids then blk.map (fun pr => pr.1 - offset) else [])
        (if populate_build_tids then blk.map Prod.snd else [])
        state.2 buffer)
    (fun (cid : Nat) (buffer : OutputBuffer) =>
      buffer.take state.2 ++
        blk.map (fun pr => some (projectPair probe_table build_table cid pr)) ++
        buffer.drop (state.2 + blk.length))
    (fun buffers i a b hget hf => by
      unfold writeProjection
      simp only at hf
      simp only [hget, hf])
    project_expressions [] buffers (by rw [hblen, hI.buffers_length])
    (fun cid buffer hmem => by
      have hc := (List.of_mem_zip hmem).1
      have hb := (List.of_mem_zip hmem).2
      exact evaluateForJoin_block probe_table build_table populate_probe_tids
        populate_build_tids cid offset _ state.2 buffer hprobe hbuild (hproj cid hc)
        hmemblk (hroom buffer hb))
  refine ⟨(List.zipWith (fun (cid : Nat) (buffer : OutputBuffer) =>
      buffer.take state.2 ++
        blk.map (fun pr => some (projectPair probe_table build_table cid pr)) ++
        buffer.drop (state.2 + blk.length)) project_expressions buffers,
    state.2 + blk.length), ?_, ?_⟩
  · unfold joinBlock
    simp only [hdo, hnum, hres]
    rw [List.nil_append, List.nil_append] at hwrite
    have he : project_expressions.enum = List.enumFrom ([] : List OutputBuffer).length
        project_expressions := rfl
    rw [he, hwrite]
  · rw [hsplit]
    refine ⟨?_, ?_, ?_, ?_, ?_⟩
    · simp only [List.length_zipWith, hblen, hI.buffers_length, Nat.min_self]
    · simp only [List.length_append, hI.offset_eq]
    · intro i cid hget
      have hi : i < buffers.length := by
        rw [hblen, hI.buffers_length]
        rw [List.get?_eq_getElem?] at hget
        exact (List.getElem?_eq_some_iff.mp hget).1
      simp only
      rw [getD_zipWith_of_lt _ project_expressions buffers i cid [] [] hget hi]
      have hw := written_cells (buffers.getD i []) state.2
        (blk.map
          (fun pr => some (projectPair probe_table build_table cid pr)))
        (by rw [List.length_map]; exact hroom _ (getD_mem_of_lt buffers i [] hi))
      rw [List.length_map] at hw
      rw [hw.2, htake i (by rw [← hblen]; exact hi), hI.written i cid hget, List.map_append]
    · intro hr
      obtain ⟨hne, L, hL, hall⟩ := hcapr hr
      refine ⟨?_, L, hL, ?_⟩
      · intro h
        have h1 := congrArg List.length h
        simp only [List.length_zipWith, List.length_nil] at h1
        have h2 : 0 < buffers.length := List.length_pos.mpr hne
        rw [hblen, hI.buffers_length] at h2
        rw [hblen, hI.buffers_length, Nat.min_self] at h1
        omega
      · intro b hb
        rw [List.mem_iff_getElem?] at hb
        obtain ⟨i, hi⟩ := hb
        rw [List.getElem?_zipWith] at hi
        cases hp : project_expressions[i]? with
        | none => rw [hp] at hi; simp at hi
        | some cid =>
          cases hq : buffers[i]? with
          | none => rw [hp, hq] at hi; simp at hi
          | some buf =>
            rw [hp, hq] at hi
            simp only [Option.map_some', Option.bind_some, Option.some.injEq] at hi
            have hmem : buf ∈ buffers := List.getElem?_mem hq
            have hw := written_cells buf state.2
              (blk.map
                (fun pr => some (projectPair probe_table build_table cid pr)))
              (by rw [List.length_map]; exact hroom _ hmem)
            rw [List.length_map] at hw
            rw [← hi, hw.1]
            exact hall buf hmem
    · intro hr
      have hall := hcapf hr
      intro b hb
      rw [List.mem_iff_getElem?] at hb
      obtain ⟨i, hi⟩ := hb
      rw [List.getElem?_zipWith] at hi
      cases hp : project_expressions[i]? with
      | none => rw [hp] at hi; simp at hi
      | some cid =>
        cases hq : buffers[i]? with
        | none => rw [hp, hq] at hi; simp at hi
        | some buf =>
          rw [hp, hq] at hi
          simp only [Option.map_some', Option.bind_some, Option.some.injEq] at hi
          have hmem : buf ∈ buffers := List.getElem?_mem hq
          have hw := written_cells buf state.2
            (blk.map
              (fun pr => some (projectPair probe_table build_table cid pr)))
            (by rw [List.length_map]; exact hroom _ hmem)
          rw [List.length_map] at hw
          rw [← hi, hw.1]
          exact hall buf hmem
theorem joinLoop_spec (hash : Int → Nat) (probe_table build_table : TableView)
    (probe_keys build_keys project_expressions : List Nat)
    (probe_values build_values : List (List Int)) (ht : FoilHashTable)
    (W : JoinInput hash probe_table build_table probe_keys build_keys probe_values
      build_values ht)
    (resizeable populate_probe_tids populate_build_tids : Bool)
    (hflags : populate_probe_tids = true ∨ populate_build_tids = true)
    (hprobe : ∀ column ∈ probe_table.columns, column.length = probe_table.num_tuples)
    (hbuild : ∀ column ∈ build_table.columns, column.length = build_table.num_tuples)
    (hproj : ∀ cid ∈ project_expressions,
      (cid < probe_table.columns.length ∧ populate_probe_tids = true) ∨
      (probe_table.columns.length ≤ cid ∧
        cid < probe_table.columns.length + build_table.columns.length ∧
        populate_build_tids = true))
    (c fuel : Nat) (hc : 0 < c) (hfuel : build_table.num_tuples ≤ fuel) :
    ∀ (d k loop_fuel : Nat) (state : List OutputBuffer × Nat),
      k + d = (probe_table.num_tuples + c - 1) / c → d < loop_fuel →
      JoinProgress resizeable project_expressions probe_table build_table
        (joinPairsFrom probe_values build_values build_table.num_tuples 0
          (min (k * c) probe_table.num_tuples))
        (joinPairs probe_values build_values probe_table.num_tuples
          build_table.num_tuples).length state →
      ∃ state1,
        joinLoop hash fuel c resizeable populate_probe_tids populate_build_tids
            (templateKeys probe_keys.length) ⟨probe_table, probe_values, project_expressions⟩
            build_table ht build_values loop_fuel (k * c) state = some state1 ∧
        JoinProgress resizeable project_expressions probe_table build_table
          (joinPairs probe_values build_values probe_table.num_tuples build_table.num_tuples)
          (joinPairs probe_values build_values probe_table.num_tuples
            build_table.num_tuples).length state1 := by
  intro d
  induction d with
  | zero =>
    intro k loop_fuel state hk hlf hI
    have hle := chunk_count_le c probe_table.num_tuples hc
    rw [Nat.add_zero] at hk
    rw [← hk] at hle
    rw [Nat.min_eq_right hle] at hI
    cases loop_fuel with
    | zero => omega
    | succ loop_fuel =>
      refine ⟨state, ?_, hI⟩
      rw [joinLoop, if_neg (by simp only [not_lt]; exact hle)]
  | succ d ih =>
    intro k loop_fuel state hk hlf hI
    have hlt := chunk_count_lt c probe_table.num_tuples k hc (by omega)
    rw [Nat.min_eq_left (le_of_lt hlt)] at hI
    cases loop_fuel with
    | zero => omega
    | succ loop_fuel =>
      obtain ⟨state1, hblock, hI1⟩ := joinBlock_spec hash probe_table build_table probe_keys
        build_keys project_expressions probe_values build_values ht W resizeable
        populate_probe_tids populate_build_tids hflags hprobe hbuild hproj c fuel (k * c) state
        hfuel hlt hI
      have hrows : k * c + min c (probe_table.num_tuples - k * c) =
          min ((k + 1) * c) probe_table.num_tuples := by
        rw [Nat.succ_mul]
        omega
      rw [hrows] at hI1
      obtain ⟨state2, hloop, hI2⟩ := ih (k + 1) loop_fuel state1 (by omega) (by omega) hI1
      refine ⟨state2, ?_, hI2⟩
      rw [joinLoop, if_pos hlt]
      simp only [hblock]
      have hnext : k * c + c = (k + 1) * c := by rw [Nat.succ_mul]
      rw [hnext]
      exact hloop

theorem mem_joinPairs (probe_values build_values : List (List Int))
    (probe_rows build_rows : Nat) (pr : Nat × Nat) :
    pr ∈ joinPairs probe_values build_values probe_rows build_rows ↔
      pr.1 < probe_rows ∧ pr.2 < build_rows ∧
        keyRow probe_values pr.1 = keyRow build_values pr.2 := by
  unfold joinPairs joinPairsFrom matchingRows
  rw [List.mem_flatMap]
  constructor
  · rintro ⟨p, hp, hmem⟩
    rw [List.mem_map] at hmem
    obtain ⟨b, hb, rfl⟩ := hmem
    rw [List.mem_reverse, List.mem_filter, List.mem_range, decide_eq_true_eq] at hb
    rw [List.mem_range'_1] at hp
    exact ⟨by simp only; omega, hb.1, hb.2⟩
  · rintro ⟨h1, h2, h3⟩
    refine ⟨pr.1, by rw [List.mem_range'_1]; omega, ?_⟩
    rw [List.mem_map]
    refine ⟨pr.2, ?_, rfl⟩
    rw [List.mem_reverse, List.mem_filter, List.mem_range, decide_eq_true_eq]
    exact ⟨h2, h3⟩

theorem joinPairs_nodup (probe_values build_values : List (List Int))
    (probe_rows build_rows : Nat) :
    (joinPairs probe_values build_values probe_rows build_rows).Nodup := by
  unfold joinPairs joinPairsFrom
  rw [List.nodup_flatMap]
  constructor
  · intro p _
    apply List.Nodup.map
    · intro a b h
      exact (Prod.mk.inj h).2
    · unfold matchingRows
      rw [List.nodup_reverse]
      exact (List.nodup_range build_rows).filter _
  · apply List.Nodup.pairwise_of_forall_ne (List.nodup_range' 0 probe_rows)
    intro a _ b _ hab
    intro pr h1 h2
    rw [List.mem_map] at h1 h2
    obtain ⟨x, _, rfl⟩ := h1
    obtain ⟨y, _, hy⟩ := h2
    exact hab (Prod.mk.inj hy).1.symm

theorem joinPairs_length (probe_values build_values : List (List Int))
    (probe_rows build_rows : Nat) :
    (joinPairs probe_values build_values probe_rows build_rows).length =
      ((List.range probe_rows).map (fun p =>
        ((List.range build_rows).filter (fun b =>
          decide (keyRow probe_values p = keyRow build_values b))).length)).sum := by
  unfold joinPairs joinPairsFrom matchingRows
  rw [List.length_flatMap, ← List.range_eq_range']
  congr 1
  apply List.map_congr_left
  intro p _
  simp
/-- C2: for a hash table built by `BuildHashTableOnTable` on the build keys and a chunk
size `c ≥ 1`, `MultiColumnHashJoin::Join` returns (given fuel for the walks and the loop)
with, in the buffer of every projection, the projection of the pairs `joinPairs` in
order: the pairs (probe row, build row) with equal key values, each pair once, probe
rows in order.  The number of rows is the sum over the probe rows of the number of build
rows with equal key values.  When the buffers are resized the buffer is exactly that
column; otherwise the column is the beginning of the buffer. -/
theorem multiColumnHashJoin_join (hash : Int → Nat) (probe_table build_table : TableView)
    (probe_keys build_keys project_expressions : List Nat)
    (probe_values build_values : List (List Int)) (ht : FoilHashTable)
    (resizeable populate_probe_tids populate_build_tids : Bool) (c fuel : Nat)
    (output_buffers : List OutputBuffer)
    (W : JoinInput hash probe_table build_table probe_keys build_keys probe_values
      build_values ht)
    (hc : 0 < c)
    (hflags : populate_probe_tids = true ∨ populate_build_tids = true)
    (hprobe : ∀ column ∈ probe_table.columns, column.length = probe_table.num_tuples)
    (hbuild : ∀ column ∈ build_table.columns, column.length = build_table.num_tuples)
    (hproj : ∀ cid ∈ project_expressions,
      (cid < probe_table.columns.length ∧ populate_probe_tids = true) ∨
      (probe_table.columns.length ≤ cid ∧
        cid < probe_table.columns.length + build_table.columns.length ∧
        populate_build_tids = true))
    (hbuffers : output_buffers.length = project_expressions.length)
    (hresize : resizeable = true →
      output_buffers ≠ [] ∧ ∃ L, ∀ b ∈ output_buffers, b.length = L)
    (hfixed : resizeable = false → ∀ b ∈ output_buffers,
      (joinPairs probe_values build_values probe_table.num_tuples
        build_table.num_tuples).length ≤ b.length)
    (hfuel : build_table.num_tuples ≤ fuel) (hfuel2 : probe_table.num_tuples < fuel) :
    ∃ join buffers,
      MultiColumnHashJoin.create probe_table probe_keys project_expressions = some join ∧
      join.Join hash fuel c resizeable populate_probe_tids populate_build_tids build_table ht
        build_keys output_buffers = some buffers ∧
      buffers.length = project_expressions.length ∧
      (∀ i cid, project_expressions.get? i = some cid →
        (buffers.getD i []).take
            (joinPairs probe_values build_values probe_table.num_tuples
              build_table.num_tuples).length =
          (joinPairs probe_values build_values probe_table.num_tuples
            build_table.num_tuples).map
            (fun pr => some (projectPair probe_table build_table cid pr)) ∧
        (resizeable = true →
          buffers.getD i [] =
            (joinPairs probe_values build_values probe_table.num_tuples
              build_table.num_tuples).map
              (fun pr => some (projectPair probe_table build_table cid pr)))) ∧
      (∀ pr, pr ∈ joinPairs probe_values build_values probe_table.num_tuples
          build_table.num_tuples ↔
        pr.1 < probe_table.num_tuples ∧ pr.2 < build_table.num_tuples ∧
          keyRow probe_values pr.1 = keyRow build_values pr.2) ∧
      (joinPairs probe_values build_values probe_table.num_tuples
        build_table.num_tuples).Nodup ∧
      (joinPairs probe_values build_values probe_table.num_tuples
        build_table.num_tuples).length =
        ((List.range probe_table.num_tuples).map (fun p =>
          ((List.range build_table.num_tuples).filter (fun b =>
            decide (keyRow probe_values p = keyRow build_values b))).length)).sum := by
  obtain ⟨hl1, hl2, _⟩ := joinInput_lengths _ _ _ _ _ _ _ _ W
  have hn : (probe_table.num_tuples + c - 1) / c ≤ probe_table.num_tuples := by
    by_contra h
    have h1 := chunk_count_lt c probe_table.num_tuples probe_table.num_tuples hc (by omega)
    have h2 : probe_table.num_tuples ≤ probe_table.num_tuples * c :=
      Nat.le_mul_of_pos_right _ hc
    omega
  have hinit : JoinProgress resizeable project_expressions probe_table build_table
      (joinPairsFrom probe_values build_values build_table.num_tuples 0
        (min (0 * c) probe_table.num_tuples))
      (joinPairs probe_values build_values probe_table.num_tuples
        build_table.num_tuples).length (output_buffers, 0) := by
    rw [Nat.zero_mul, Nat.zero_min]
    refine ⟨hbuffers, rfl, fun i cid _ => rfl, ?_, hfixed⟩
    intro hr
    obtain ⟨hne, L, hL⟩ := hresize hr
    exact ⟨hne, L, Nat.zero_le _, hL⟩
  obtain ⟨state, hloop, hI⟩ := joinLoop_spec hash probe_table build_table probe_keys build_keys
    project_expressions probe_values build_values ht W resizeable populate_probe_tids
    populate_build_tids hflags hprobe hbuild hproj c fuel hc hfuel _ 0 fuel (output_buffers, 0)
    (Nat.zero_add _) (by omega) hinit
  rw [Nat.zero_mul] at hloop
  obtain ⟨buffers, oo⟩ := state
  have hoo : oo = (joinPairs probe_values build_values probe_table.num_tuples
      build_table.num_tuples).length := hI.offset_eq
  have hJoin : (⟨probe_table, probe_values, project_expressions⟩ : MultiColumnHashJoin).Join
      hash fuel c resizeable populate_probe_tids populate_build_tids build_table ht build_keys
      output_buffers =
      some (if resizeable then buffers.map (fun buffer => buffer.Realloc oo) else buffers) := by
    unfold MultiColumnHashJoin.Join
    rw [W.build_columns]
    simp only
    rw [hl2, hloop]
    cases resizeable <;> rfl
  refine ⟨⟨probe_table, probe_values, project_expressions⟩, _, ?_, hJoin, ?_, ?_,
    mem_joinPairs _ _ _ _, joinPairs_nodup _ _ _ _, joinPairs_length _ _ _ _⟩
  · unfold MultiColumnHashJoin.create
    rw [W.probe_columns]
  · cases resizeable with
    | true => simpa using hI.buffers_length
    | false => simpa using hI.buffers_length
  · intro i cid hget
    have hi : i < buffers.length := by
      rw [hI.buffers_length]
      rw [List.get?_eq_getElem?] at hget
      exact (List.getElem?_eq_some_iff.mp hget).1
    have hw := hI.written i cid hget
    simp only at hw
    cases hr : resizeable with
    | false =>
      simp only [Bool.false_eq_true, if_false, false_implies, and_true]
      rw [← hoo]
      exact hw
    | true =>
      obtain ⟨_, L, hL, hall⟩ := hI.resizeable_capacity hr
      have hlen : (buffers.getD i []).length = L := hall _ (getD_mem_of_lt buffers i [] hi)
      have hre : (buffers.getD i []).Realloc oo = (buffers.getD i []).take oo := by
        unfold OutputBuffer.Realloc
        have : oo - (buffers.getD i []).length = 0 := by
          simp only at hL
          omega
        rw [this]
        simp
      simp only [if_true, true_implies]
      rw [getD_map_realloc buffers oo i hi, hre, ← hoo, List.take_take, Nat.min_self]
      exact ⟨hw, hw⟩

theorem multiColumnHashJoin_join_witness :
    ∃ join buffers,
      MultiColumnHashJoin.create probeTestTable [0, 1] [2, 0, 4] = some join ∧
      join.Join (fun v => v.toNat) 8 2 true true true hashTestTable
        ⟨7, [5, 0, 0, 2, 0, 0, 6, 0], [some 0, some 0, some 1, some 3, some 0, some 4]⟩
        [0, 1] [[none], [none], [none]] = some buffers ∧
      buffers.length = [2, 0, 4].length ∧
      (∀ i cid, [2, 0, 4].get? i = some cid →
        (buffers.getD i []).take
            (joinPairs [[7, 5, 8, 9, 7], [2, 1, 1, 0, 5]]
              [[5, 7, 5, 9, 7, 5], [1, 2, 1, 4, 5, 1]] probeTestTable.num_tuples
              hashTestTable.num_tuples).length =
          (joinPairs [[7, 5, 8, 9, 7], [2, 1, 1, 0, 5]]
            [[5, 7, 5, 9, 7, 5], [1, 2, 1, 4, 5, 1]] probeTestTable.num_tuples
            hashTestTable.num_tuples).map
            (fun pr => some (projectPair probeTestTable hashTestTable cid pr)) ∧
        (true = true →
          buffers.getD i [] =
            (joinPairs [[7, 5, 8, 9, 7], [2, 1, 1, 0, 5]]
              [[5, 7, 5, 9, 7, 5], [1, 2, 1, 4, 5, 1]] probeTestTable.num_tuples
              hashTestTable.num_tuples).map
              (fun pr => some (projectPair probeTestTable hashTestTable cid pr)))) ∧
      (∀ pr, pr ∈ joinPairs [[7, 5, 8, 9, 7], [2, 1, 1, 0, 5]]
          [[5, 7, 5, 9, 7, 5], [1, 2, 1, 4, 5, 1]] probeTestTable.num_tuples
          hashTestTable.num_tuples ↔
        pr.1 < probeTestTable.num_tuples ∧ pr.2 < hashTestTable.num_tuples ∧
          keyRow [[7, 5, 8, 9, 7], [2, 1, 1, 0, 5]] pr.1 =
            keyRow [[5, 7, 5, 9, 7, 5], [1, 2, 1, 4, 5, 1]] pr.2) ∧
      (joinPairs [[7, 5, 8, 9, 7], [2, 1, 1, 0, 5]]
        [[5, 7, 5, 9, 7, 5], [1, 2, 1, 4, 5, 1]] probeTestTable.num_tuples
        hashTestTable.num_tuples).Nodup ∧
      (joinPairs [[7, 5, 8, 9, 7], [2, 1, 1, 0, 5]]
        [[5, 7, 5, 9, 7, 5], [1, 2, 1, 4, 5, 1]] probeTestTable.num_tuples
        hashTestTable.num_tuples).length =
        ((List.range probeTestTable.num_tuples).map (fun p =>
          ((List.range hashTestTable.num_tuples).filter (fun b =>
            decide (keyRow [[7, 5, 8, 9, 7], [2, 1, 1, 0, 5]] p =
              keyRow [[5, 7, 5, 9, 7, 5], [1, 2, 1, 4, 5, 1]] b))).length)).sum :=
  multiColumnHashJoin_join (fun v => v.toNat) probeTestTable hashTestTable [0, 1] [0, 1]
    [2, 0, 4] [[7, 5, 8, 9, 7], [2, 1, 1, 0, 5]] [[5, 7, 5, 9, 7, 5], [1, 2, 1, 4, 5, 1]]
    ⟨7, [5, 0, 0, 2, 0, 0, 6, 0], [some 0, some 0, some 1, some 3, some 0, some 4]⟩
    true true true 2 8 [[none], [none], [none]] probeTest_joinInput (by decide)
    (by decide) (by decide) (by decide) (by decide) (by decide)
    (fun _ => ⟨by decide, 1, by decide⟩) (fun h => absurd h (by decide)) (by decide)
    (by decide)

/-! ## The hash join on partitions -/

theorem option_mapM_get {α β : Type} (f : α → Option β) :
    ∀ (l : List α) (ys : List β), l.mapM f = some ys →
      ∀ (i : Nat) (a : α), l.get? i = some a → ∃ y, ys.get? i = some y ∧ f a = some y := by
  intro l
  induction l with
  | nil => intro ys _ i a h; simp at h
  | cons x t ih =>
    intro ys h i a hget
    rw [List.mapM_cons] at h
    cases hx : f x with
    | none => rw [hx] at h; cases h
    | some y =>
      cases ht : t.mapM f with
      | none => rw [hx, ht] at h; cases h
      | some ys2 =>
        rw [hx, ht] at h
        cases h
        cases i with
        | zero =>
          simp only [List.get?_cons_zero, Option.some.injEq] at hget
          subst hget
          exact ⟨y, rfl, hx⟩
        | succ i =>
          simp only [List.get?_cons_succ] at hget
          exact ih ys2 ht i a hget

theorem buildPartitionTable_spec (hash : Int → Nat) (num_radix_bits : Nat)
    (partition : List PartitionTuple) (hne : 0 < partition.length)
    (hsize : partition.length < 2 ^ 31) :
    ∃ ht, buildPartitionTable hash num_radix_bits partition = some ht ∧
      (∀ h, (h &&& ht.mask) >>> num_radix_bits < ht.buckets.length) ∧
      ∀ b, b < ht.buckets.length → IsChain ht.next (ht.buckets.getD b 0)
        (((List.range partition.length).filter (fun j =>
          decide ((hash (partition.getD j ⟨0, 0⟩).value &&& ht.mask) >>> num_radix_bits = b))).reverse) := by
  have hnb1 := next_pow_2_pos partition.length hne
  have hnb2 := next_pow_2_le partition.length hsize
  have hbucket : ∀ h, (h &&& ((((NEXT_POW_2 partition.length + 2 ^ 32 - 1) % 2 ^ 32) <<<
      num_radix_bits) % 2 ^ 32)) >>> num_radix_bits < NEXT_POW_2 partition.length := fun h =>
    bucket_lt _ num_radix_bits h hnb1 (le_trans hnb2 (by norm_num))
  obtain ⟨ht, hfold, hmask, hbl, hnl, hchains⟩ :=
    linkFold_spec num_radix_bits partition.length (NEXT_POW_2 partition.length)
      ((((NEXT_POW_2 partition.length + 2 ^ 32 - 1) % 2 ^ 32) <<< num_radix_bits) % 2 ^ 32)
      (fun j => hash (partition.getD j ⟨0, 0⟩).value)
      (fun (hash_table : FoilHashTable) (index : Nat) =>
        match partition.get? index with
        | none => none
        | some tuple => linkTuple num_radix_bits hash_table index (hash tuple.value))
      (by
        intro ht i hi
        simp only [get?_eq_some_getD partition i ⟨0, 0⟩ hi])
      (fun i _ => hbucket _) partition.length (le_refl _)
  refine ⟨ht, ?_, ?_, ?_⟩
  · unfold buildPartitionTable
    rw [if_neg (by omega)]
    exact hfold
  · intro h
    rw [hmask, hbl]
    exact hbucket h
  · intro b hb
    have := hchains b (by rw [← hbl]; exact hb)
    rw [hmask]
    exact this

theorem filter_bucket_filter (n : Nat) (bucket : Nat → Nat) (b : Nat) (q : Nat → Bool)
    (hq : ∀ j, q j = true → bucket j = b) :
    (((List.range n).filter (fun j => decide (bucket j = b))).reverse).filter q =
      ((List.range n).filter q).reverse := by
  rw [List.filter_reverse, List.filter_filter]
  congr 1
  apply List.filter_congr
  intro j _
  cases hj : q j with
  | true => simp [hq j hj]
  | false => simp

theorem probePartitionTuple_spec (hash : Int → Nat) (fuel num_radix_bits : Nat)
    (build_partition : List PartitionTuple) (ht : FoilHashTable)
    (hne : 0 < build_partition.length) (hsize : build_partition.length < 2 ^ 31)
    (hbuilt : buildPartitionTable hash num_radix_bits build_partition = some ht)
    (hfuel : build_partition.length ≤ fuel)
    (triples : List (Nat × Nat × Nat)) (probe : PartitionTuple) :
    probePartitionTuple hash fuel num_radix_bits build_partition ht triples probe =
      some (triples ++ joinTriples [probe] build_partition) := by
  obtain ⟨ht2, hb2, hlt, hchains⟩ := buildPartitionTable_spec hash num_radix_bits
    build_partition hne hsize
  have hsame : ht2 = ht := by
    rw [hb2] at hbuilt
    exact Option.some.inj hbuilt
  subst hsame
  unfold probePartitionTuple
  rw [get?_eq_some_getD ht2.buckets _ 0 (hlt _)]
  simp only
  have hchain := hchains _ (hlt (hash probe.value))
  have hlen : (((List.range build_partition.length).filter (fun j =>
      decide ((hash (build_partition.getD j ⟨0, 0⟩).value &&& ht2.mask) >>> num_radix_bits =
        (hash probe.value &&& ht2.mask) >>> num_radix_bits))).reverse).length ≤ fuel := by
    rw [List.length_reverse]
    exact le_trans (List.length_filter_le _ _) (by simpa using hfuel)
  rw [probeChain_of_isChain ht2.next _
    (fun position => decide ((build_partition.getD position ⟨0, 0⟩).value = probe.value))
    _ _ hchain ?_ fuel hlen]
  · rw [filter_bucket_filter build_partition.length
      (fun j => (hash (build_partition.getD j ⟨0, 0⟩).value &&& ht2.mask) >>> num_radix_bits)
      _ _ (fun j hj => by
        have : (build_partition.getD j ⟨0, 0⟩).value = probe.value := by simpa using hj
        simp only [this])]
    simp [joinTriples]
  · intro p hp
    rw [List.mem_reverse, List.mem_filter, List.mem_range] at hp
    unfold sameValueAt
    rw [get?_eq_some_getD build_partition p ⟨0, 0⟩ hp.1]
    rfl

theorem joinTriples_cons (probe : PartitionTuple) (rest build_partition : List PartitionTuple) :
    joinTriples (probe :: rest) build_partition =
      joinTriples [probe] build_partition ++ joinTriples rest build_partition := by
  simp [joinTriples]

theorem probePartition_fold (hash : Int → Nat) (fuel num_radix_bits : Nat)
    (build_partition : List PartitionTuple) (ht : FoilHashTable)
    (hne : 0 < build_partition.length) (hsize : build_partition.length < 2 ^ 31)
    (hbuilt : buildPartitionTable hash num_radix_bits build_partition = some ht)
    (hfuel : build_partition.length ≤ fuel) :
    ∀ (probe : List PartitionTuple) (triples : List (Nat × Nat × Nat)),
      probe.foldlM (probePartitionTuple hash fuel num_radix_bits build_partition ht) triples =
        some (triples ++ joinTriples probe build_partition) := by
  intro probe
  induction probe with
  | nil => intro triples; simp [joinTriples]
  | cons p rest ih =>
    intro triples
    rw [List.foldlM_cons, probePartitionTuple_spec hash fuel num_radix_bits build_partition ht
      hne hsize hbuilt hfuel triples p]
    simp only [Option.bind_eq_bind, Option.some_bind]
    rw [ih, joinTriples_cons p rest, List.append_assoc]

theorem joinPartitionChunk_spec (hash : Int → Nat) (fuel num_radix_bits : Nat)
    (hash_join : HashJoin) (partition_chunk : PartitionChunk)
    (hbuilt : BuildHashTableOnPartitions hash num_radix_bits hash_join.build_partitions =
      some hash_join.build_hash_tables)
    (hsize : ∀ p ∈ hash_join.build_partitions, p.length < 2 ^ 31 ∧ p.length ≤ fuel)
    (hp : partition_chunk.partition_id < hash_join.build_partitions.length) :
    joinPartitionChunk hash fuel num_radix_bits hash_join partition_chunk =
      some (joinChunkOf hash_join.build_columns hash_join.build_partitions partition_chunk) := by
  have hget := get?_eq_some_getD hash_join.build_partitions _ [] hp
  obtain ⟨ht, hht, hbt⟩ := option_mapM_get _ _ _ hbuilt _ _ hget
  have hmem := getD_mem_of_lt hash_join.build_partitions _ [] hp
  unfold joinPartitionChunk joinChunkOf
  rw [hget]
  simp only
  by_cases hempty : (hash_join.build_partitions.getD partition_chunk.partition_id []).length = 0
  · rw [if_pos hempty]
    have : hash_join.build_partitions.getD partition_chunk.partition_id [] = [] :=
      List.eq_nil_of_length_eq_zero hempty
    rw [this]
    simp [joinTriples]
  · rw [if_neg hempty, hht]
    simp only
    rw [probePartition_fold hash fuel num_radix_bits _ ht (by omega) (hsize _ hmem).1 hbt
      (hsize _ hmem).2]
    simp only [List.nil_append]
    by_cases htr : (joinTriples partition_chunk.partition
        (hash_join.build_partitions.getD partition_chunk.partition_id [])).isEmpty = true
    · rw [if_pos htr, if_pos htr]
    · rw [if_neg htr, if_neg htr]

theorem assigner_drains_all (c : Nat) (tables : List PartitionedTable)
    (ids : List (List Nat)) (P : Nat) (hc : 0 < c) (W : WellPartitioned tables ids P) :
    PartitionAssigner.create tables ids = some (assignerAt tables ids P 0 0 0 0) ∧
      ∃ f, PartitionAssigner.drain c f (assignerAt tables ids P 0 0 0 0) =
        some (chunksInAssignerOrder c tables ids P) := by
  obtain ⟨parts, hparts, hlen⟩ := W.partitioned 0 0 W.tables_pos (W.groups_pos 0 W.tables_pos)
  have hP := W.partitions_pos
  refine ⟨?_, ?_⟩
  · unfold PartitionAssigner.create
    simp only [hparts, assignerAt, hlen, Option.getD_some]
  · obtain ⟨f, hf⟩ := assigner_partitions c hc tables ids P W (P - 1) 0 (by omega)
    have hsub : P - 1 + 1 = P := by omega
    rw [hsub, ← List.range_eq_range'] at hf
    exact ⟨f, hf⟩

theorem chunksInAssignerOrder_partition_id (c : Nat) (tables : List PartitionedTable)
    (ids : List (List Nat)) (P : Nat) (chunk : PartitionChunk)
    (h : chunk ∈ chunksInAssignerOrder c tables ids P) : chunk.partition_id < P := by
  unfold chunksInAssignerOrder partitionChunks tableChunks groupChunks chunksOfPartition at h
  simp only [List.mem_flatMap, List.mem_map, List.mem_range] at h
  obtain ⟨p, hp, t, _, g, _, k, _, rfl⟩ := h
  exact hp

theorem hashJoin_next_spec (hash : Int → Nat) (fuel c r : Nat)
    (build_columns : List (List Int)) (build_hash_tables : List FoilHashTable)
    (build_partitions : List (List PartitionTuple))
    (J : PartitionChunk → Option HashJoinChunk) :
    ∀ (f : Nat) (a : PartitionAssigner) (X : List PartitionChunk),
      PartitionAssigner.drain c f a = some X → f ≤ fuel →
      (∀ a1, ∀ pc ∈ X, joinPartitionChunk hash fuel r
        ⟨a1, build_columns, build_hash_tables, build_partitions⟩ pc = some (J pc)) →
      ∀ n, X.length < n →
        (X.filterMap J = [] ∧ ∃ a1, HashJoin.Next hash fuel c r n
            ⟨a, build_columns, build_hash_tables, build_partitions⟩ =
          some (none, ⟨a1, build_columns, build_hash_tables, build_partitions⟩)) ∨
        (∃ chunk a1 X1 f1, HashJoin.Next hash fuel c r n
            ⟨a, build_columns, build_hash_tables, build_partitions⟩ =
            some (some chunk, ⟨a1, build_columns, build_hash_tables, build_partitions⟩) ∧
          PartitionAssigner.drain c f1 a1 = some X1 ∧ f1 ≤ f ∧ X1.length < X.length ∧
          X.filterMap J = chunk :: X1.filterMap J ∧ ∀ pc ∈ X1, pc ∈ X) := by
  intro f
  induction f with
  | zero => intro a X h; simp [PartitionAssigner.drain] at h
  | succ f ih =>
    intro a X hdrain hle hjoin n hn
    rw [PartitionAssigner.drain] at hdrain
    cases hnext : PartitionAssigner.Next c (f + 1) a with
    | none => rw [hnext] at hdrain; simp at hdrain
    | some res =>
      obtain ⟨oc, a1⟩ := res
      rw [hnext] at hdrain
      have hnextF := assigner_next_mono_le c a _ (f + 1) fuel hle hnext
      obtain ⟨k, rfl⟩ : ∃ k, n = k + 1 := ⟨n - 1, by omega⟩
      cases oc with
      | none =>
        simp only [Option.some.injEq] at hdrain
        subst hdrain
        left
        refine ⟨rfl, a1, ?_⟩
        rw [HashJoin.Next]
        simp only [hnextF]
      | some pc =>
        simp only at hdrain
        cases hd : PartitionAssigner.drain c f a1 with
        | none => rw [hd] at hdrain; simp at hdrain
        | some X1 =>
          rw [hd] at hdrain
          simp only [Option.some.injEq] at hdrain
          subst hdrain
          have hpc := hjoin a pc (List.mem_cons_self _ _)
          simp only [List.length_cons] at hn
          cases hJ : J pc with
          | none =>
            rw [hJ] at hpc
            rcases ih a1 X1 hd (by omega)
              (fun a2 q hq => hjoin a2 q (List.mem_cons_of_mem _ hq)) k (by omega) with
              ⟨hnil, a2, h2⟩ | ⟨chunk, a2, X2, f2, h2, hd2, hf2, hlen2, hX2, hmem2⟩
            · left
              refine ⟨by rw [List.filterMap_cons, hJ]; exact hnil, a2, ?_⟩
              rw [HashJoin.Next]
              simp only [hnextF, hpc]
              exact h2
            · right
              refine ⟨chunk, a2, X2, f2, ?_, hd2, by omega, ?_, ?_, ?_⟩
              · rw [HashJoin.Next]
                simp only [hnextF, hpc]
                exact h2
              · simp only [List.length_cons]
                omega
              · rw [List.filterMap_cons, hJ]
                exact hX2
              · intro q hq
                exact List.mem_cons_of_mem _ (hmem2 q hq)
          | some chunk =>
            rw [hJ] at hpc
            right
            refine ⟨chunk, a1, X1, f, ?_, hd, by omega, by simp, ?_, ?_⟩
            · rw [HashJoin.Next]
              simp only [hnextF, hpc]
            · rw [List.filterMap_cons, hJ]
            · intro q hq
              exact List.mem_cons_of_mem _ hq

theorem hashJoin_drain_spec (hash : Int → Nat) (fuel c r : Nat)
    (build_columns : List (List Int)) (build_hash_tables : List FoilHashTable)
    (build_partitions : List (List PartitionTuple))
    (J : PartitionChunk → Option HashJoinChunk) :
    ∀ (m : Nat) (X : List PartitionChunk), X.length ≤ m →
      ∀ (f : Nat) (a : PartitionAssigner),
      PartitionAssigner.drain c f a = some X → f ≤ fuel →
      (∀ a1, ∀ pc ∈ X, joinPartitionChunk hash fuel r
        ⟨a1, build_columns, build_hash_tables, build_partitions⟩ pc = some (J pc)) →
      ∀ n, X.length < n →
        HashJoin.drain hash fuel c r n
            ⟨a, build_columns, build_hash_tables, build_partitions⟩ =
          some (X.filterMap J) := by
  intro m
  induction m with
  | zero =>
    intro X hX f a hdrain hle hjoin n hn
    obtain ⟨k, rfl⟩ : ∃ k, n = k + 1 := ⟨n - 1, by omega⟩
    rcases hashJoin_next_spec hash fuel c r build_columns build_hash_tables build_partitions J
      f a X hdrain hle hjoin (k + 1) hn with
      ⟨hnil, a2, h2⟩ | ⟨chunk, a2, X2, f2, h2, hd2, hf2, hlen2, hX2, hmem2⟩
    · rw [HashJoin.drain, h2, hnil]
    · omega
  | succ m ih =>
    intro X hX f a hdrain hle hjoin n hn
    obtain ⟨k, rfl⟩ : ∃ k, n = k + 1 := ⟨n - 1, by omega⟩
    rcases hashJoin_next_spec hash fuel c r build_columns build_hash_tables build_partitions J
      f a X hdrain hle hjoin (k + 1) hn with
      ⟨hnil, a2, h2⟩ | ⟨chunk, a2, X2, f2, h2, hd2, hf2, hlen2, hX2, hmem2⟩
    · rw [HashJoin.drain, h2, hnil]
    · rw [HashJoin.drain, h2]
      simp only
      rw [ih X2 (by omega) f2 a2 hd2 (by omega)
        (fun a3 q hq => hjoin a3 q (hmem2 q hq)) k (by omega), hX2]

theorem mem_joinTriples (probe build_partition : List PartitionTuple)
    (triple : Nat × Nat × Nat) :
    triple ∈ joinTriples probe build_partition ↔
      ∃ probe_tuple ∈ probe, ∃ position, position < build_partition.length ∧
        (build_partition.getD position ⟨0, 0⟩).value = probe_tuple.value ∧
        triple = (probe_tuple.tuple_id, (build_partition.getD position ⟨0, 0⟩).tuple_id,
          position) := by
  unfold joinTriples
  simp only [List.mem_flatMap, List.mem_map, List.mem_reverse, List.mem_filter, List.mem_range,
    decide_eq_true_eq]
  constructor
  · rintro ⟨q, hq, position, ⟨hlt, hv⟩, rfl⟩
    exact ⟨q, hq, position, hlt, hv, rfl⟩
  · rintro ⟨q, hq, position, hlt, hv, rfl⟩
    exact ⟨q, hq, position, ⟨hlt, hv⟩, rfl⟩

/-- C15: with the hash tables of the build partitions made by
`BuildHashTableOnPartitions` (partitions of at most `2^30` tuples, one per partition of the
well-formed probe tables, chunk size at least 1), the calls of `HashJoin::Next` until null
end, given enough fuel, and return, in the order of the assigner, the join chunk of every
probe chunk that has one; the join chunk of a probe chunk of partition `p` carries the ids
of the probe chunk, the size of build partition `p` and the triples `joinTriples`, which
are exactly the (probe tuple id, build tuple id, position in build partition `p`) of the
pairs of a probe tuple of the chunk and a build tuple of partition `p` with equal values;
a probe chunk has no join chunk exactly when there is no such pair (in particular when
build partition `p` is empty). -/
theorem hashJoin_chunks (hash : Int → Nat) (c r : Nat) (tables : List PartitionedTable)
    (ids : List (List Nat)) (P : Nat) (build_columns : List (List Int))
    (build_partitions : List (List PartitionTuple)) (build_hash_tables : List FoilHashTable)
    (hc : 0 < c) (W : WellPartitioned tables ids P) (hlen : build_partitions.length = P)
    (hsize : ∀ p ∈ build_partitions, p.length ≤ 2 ^ 30)
    (hbuilt : BuildHashTableOnPartitions hash r build_partitions = some build_hash_tables) :
    ∃ a0, PartitionAssigner.create tables ids = some a0 ∧
      (∃ fuel0, ∀ fuel, fuel0 ≤ fuel →
        HashJoin.drain hash fuel c r fuel
            ⟨a0, build_columns, build_hash_tables, build_partitions⟩ =
          some ((chunksInAssignerOrder c tables ids P).filterMap
            (joinChunkOf build_columns build_partitions))) ∧
      (∀ (pc : PartitionChunk) (chunk : HashJoinChunk), joinChunkOf build_columns build_partitions pc = some chunk →
        chunk.table_id = pc.table_id ∧ chunk.join_group_id = pc.join_group_id ∧
        chunk.partition_id = pc.partition_id ∧
        chunk.binding_partition_size = (build_partitions.getD pc.partition_id []).length ∧
        chunk.probe_columns = pc.columns ∧ chunk.build_columns = build_columns ∧
        chunk.probe_tids = (joinTriples pc.partition
          (build_partitions.getD pc.partition_id [])).map (fun t => t.1) ∧
        chunk.build_tids = (joinTriples pc.partition
          (build_partitions.getD pc.partition_id [])).map (fun t => t.2.1) ∧
        chunk.build_relative_tids = (joinTriples pc.partition
          (build_partitions.getD pc.partition_id [])).map (fun t => t.2.2)) ∧
      (∀ (pc : PartitionChunk) (triple : Nat × Nat × Nat), triple ∈ joinTriples pc.partition
          (build_partitions.getD pc.partition_id []) ↔
        ∃ probe_tuple ∈ pc.partition, ∃ position,
          position < (build_partitions.getD pc.partition_id []).length ∧
          ((build_partitions.getD pc.partition_id []).getD position ⟨0, 0⟩).value =
            probe_tuple.value ∧
          triple = (probe_tuple.tuple_id,
            ((build_partitions.getD pc.partition_id []).getD position ⟨0, 0⟩).tuple_id,
            position)) ∧
      (∀ (pc : PartitionChunk), joinChunkOf build_columns build_partitions pc = none ↔
        ¬ ∃ probe_tuple ∈ pc.partition,
          ∃ build_tuple ∈ build_partitions.getD pc.partition_id [],
            build_tuple.value = probe_tuple.value) := by
  obtain ⟨hcreate, f, hf⟩ := assigner_drains_all c tables ids P hc W
  refine ⟨_, hcreate, ?_, ?_, ?_, ?_⟩
  · refine ⟨f + (chunksInAssignerOrder c tables ids P).length + 1 + 2 ^ 31, ?_⟩
    intro fuel hfuel
    exact hashJoin_drain_spec hash fuel c r build_columns build_hash_tables build_partitions
      (joinChunkOf build_columns build_partitions) _ _ (le_refl _) f _ hf (by omega)
      (fun a1 pc hpc =>
        joinPartitionChunk_spec hash fuel r
          ⟨a1, build_columns, build_hash_tables, build_partitions⟩ pc hbuilt
          (fun p hp => ⟨lt_of_le_of_lt (hsize p hp) (by norm_num),
            by have := hsize p hp; omega⟩)
          (by
            rw [hlen]
            exact chunksInAssignerOrder_partition_id c tables ids P pc hpc))
      fuel (by omega)
  · intro pc chunk h
    unfold joinChunkOf at h
    simp only at h
    split at h
    · cases h
    · cases h
      exact ⟨rfl, rfl, rfl, rfl, rfl, rfl, rfl, rfl, rfl⟩
  · intro pc triple
    exact mem_joinTriples _ _ _
  · intro pc
    unfold joinChunkOf
    simp only
    constructor
    · intro h
      split at h
      · rename_i hempty
        rintro ⟨q, hq, b, hb, hv⟩
        obtain ⟨position, hlt, hget⟩ := List.getElem_of_mem hb
        have hmem : (q.tuple_id, b.tuple_id, position) ∈ joinTriples pc.partition
            (build_partitions.getD pc.partition_id []) := by
          rw [mem_joinTriples]
          refine ⟨q, hq, position, hlt, ?_, ?_⟩
          · rw [List.getD_eq_getElem _ _ hlt, hget]
            exact hv
          · rw [List.getD_eq_getElem _ _ hlt, hget]
        rw [List.isEmpty_iff] at hempty
        rw [hempty] at hmem
        cases hmem
      · cases h
    · intro h
      rw [if_pos]
      rw [List.isEmpty_iff, List.eq_nil_iff_forall_not_mem]
      intro triple hmem
      rw [mem_joinTriples] at hmem
      obtain ⟨q, hq, position, hlt, hv, _⟩ := hmem
      exact h ⟨q, hq, _, getD_mem_of_lt _ position ⟨0, 0⟩ hlt, hv⟩

theorem hashJoin_chunks_witness :
    ∃ a0, PartitionAssigner.create assignerTestTables [[0, 1], [0]] = some a0 ∧
      (∃ fuel0, ∀ fuel, fuel0 ≤ fuel →
        HashJoin.drain (fun v => v.toNat) fuel 2 1 fuel
            ⟨a0, [[4, 6, 2, 1, 4]],
              [⟨6, [0, 3, 4, 2], [some 0, some 0, some 0, some 1]⟩, ⟨0, [], []⟩],
              buildTestPartitions⟩ =
          some ((chunksInAssignerOrder 2 assignerTestTables [[0, 1], [0]] 2).filterMap
            (joinChunkOf [[4, 6, 2, 1, 4]] buildTestPartitions))) ∧
      (∀ (pc : PartitionChunk) (chunk : HashJoinChunk), joinChunkOf [[4, 6, 2, 1, 4]] buildTestPartitions pc = some chunk →
        chunk.table_id = pc.table_id ∧ chunk.join_group_id = pc.join_group_id ∧
        chunk.partition_id = pc.partition_id ∧
        chunk.binding_partition_size = (buildTestPartitions.getD pc.partition_id []).length ∧
        chunk.probe_columns = pc.columns ∧ chunk.build_columns = [[4, 6, 2, 1, 4]] ∧
        chunk.probe_tids = (joinTriples pc.partition
          (buildTestPartitions.getD pc.partition_id [])).map (fun t => t.1) ∧
        chunk.build_tids = (joinTriples pc.partition
          (buildTestPartitions.getD pc.partition_id [])).map (fun t => t.2.1) ∧
        chunk.build_relative_tids = (joinTriples pc.partition
          (buildTestPartitions.getD pc.partition_id [])).map (fun t => t.2.2)) ∧
      (∀ (pc : PartitionChunk) (triple : Nat × Nat × Nat), triple ∈ joinTriples pc.partition
          (buildTestPartitions.getD pc.partition_id []) ↔
        ∃ probe_tuple ∈ pc.partition, ∃ position,
          position < (buildTestPartitions.getD pc.partition_id []).length ∧
          ((buildTestPartitions.getD pc.partition_id []).getD position ⟨0, 0⟩).value =
            probe_tuple.value ∧
          triple = (probe_tuple.tuple_id,
            ((buildTestPartitions.getD pc.partition_id []).getD position ⟨0, 0⟩).tuple_id,
            position)) ∧
      (∀ (pc : PartitionChunk), joinChunkOf [[4, 6, 2, 1, 4]] buildTestPartitions pc = none ↔
        ¬ ∃ probe_tuple ∈ pc.partition,
          ∃ build_tuple ∈ buildTestPartitions.getD pc.partition_id [],
            build_tuple.value = probe_tuple.value) :=
  hashJoin_chunks (fun v => v.toNat) 2 1 assignerTestTables [[0, 1], [0]] 2 [[4, 6, 2, 1, 4]]
    buildTestPartitions [⟨6, [0, 3, 4, 2], [some 0, some 0, some 0, some 1]⟩, ⟨0, [], []⟩]
    (by decide) assignerTest_wellPartitioned (by decide) (by decide) (by decide)

/-! ## The constructor of the hash table -/

theorem testBit_smear_step (x y m : Nat)
    (h : ∀ i, y.testBit i = true ↔ ∃ j, j < m ∧ x.testBit (i + j) = true) :
    ∀ i, (y ||| (y >>> m)).testBit i = true ↔ ∃ j, j < 2 * m ∧ x.testBit (i + j) = true := by
  intro i
  rw [Nat.testBit_or, Nat.testBit_shiftRight, Bool.or_eq_true, h, h]
  constructor
  · rintro (⟨j, hj, hb⟩ | ⟨j, hj, hb⟩)
    · exact ⟨j, by omega, hb⟩
    · refine ⟨m + j, by omega, ?_⟩
      have : i + (m + j) = m + i + j := by omega
      rw [this]
      exact hb
  · rintro ⟨j, hj, hb⟩
    by_cases hjm : j < m
    · exact Or.inl ⟨j, hjm, hb⟩
    · refine Or.inr ⟨j - m, by omega, ?_⟩
      have : m + i + (j - m) = i + j := by omega
      rw [this]
      exact hb

theorem testBit_top (x k : Nat) (h1 : 2 ^ k ≤ x) (h2 : x < 2 ^ (k + 1)) :
    x.testBit k = true := by
  obtain ⟨i, hi, hb⟩ := Nat.ge_two_pow_implies_high_bit_true h1
  by_cases hik : i = k
  · rw [← hik]; exact hb
  · have hlt : x < 2 ^ i :=
      lt_of_lt_of_le h2 (Nat.pow_le_pow_right (by norm_num) (by omega))
    rw [Nat.testBit_lt_two_pow hlt] at hb
    cases hb

theorem next_pow_2_spec (V : Nat) (h1 : 1 ≤ V) (h2 : V ≤ 2 ^ 32) :
    ∃ k, NEXT_POW_2 V = 2 ^ k ∧ V ≤ 2 ^ k ∧ ∀ j, V ≤ 2 ^ j → k ≤ j := by
  unfold NEXT_POW_2
  rw [if_neg (by omega)]
  by_cases h0 : V - 1 = 0
  · refine ⟨0, ?_, by omega, fun j _ => Nat.zero_le j⟩
    rw [h0]
    rfl
  · have hs0 : ∀ i, (V - 1).testBit i = true ↔ ∃ j, j < 1 ∧ (V - 1).testBit (i + j) = true := by
      intro i
      constructor
      · intro h; exact ⟨0, by omega, h⟩
      · rintro ⟨j, hj, hb⟩
        have : j = 0 := by omega
        subst this
        exact hb
    have hs1 := testBit_smear_step (V - 1) _ 1 hs0
    have hs2 := testBit_smear_step (V - 1) _ 2 hs1
    have hs4 := testBit_smear_step (V - 1) _ 4 hs2
    have hs8 := testBit_smear_step (V - 1) _ 8 hs4
    have hs16 := testBit_smear_step (V - 1) _ 16 hs8
    have hlo : 2 ^ (V - 1).log2 ≤ V - 1 := Nat.log2_self_le h0
    have hhi : V - 1 < 2 ^ ((V - 1).log2 + 1) := Nat.lt_log2_self
    have hk32 : (V - 1).log2 < 32 := by
      by_contra hc
      have : 2 ^ 32 ≤ 2 ^ (V - 1).log2 := Nat.pow_le_pow_right (by norm_num) (by omega)
      omega
    have hval : ∀ s, (∀ i, s.testBit i = true ↔
        ∃ j, j < 2 * 16 ∧ (V - 1).testBit (i + j) = true) →
        s = 2 ^ ((V - 1).log2 + 1) - 1 := by
      intro s hs
      apply Nat.eq_of_testBit_eq
      intro i
      rw [Nat.testBit_two_pow_sub_one]
      by_cases hi : i < (V - 1).log2 + 1
      · rw [decide_eq_true hi]
        rw [hs]
        refine ⟨(V - 1).log2 - i, by omega, ?_⟩
        have : i + ((V - 1).log2 - i) = (V - 1).log2 := by omega
        rw [this]
        exact testBit_top _ _ hlo hhi
      · rw [decide_eq_false hi]
        cases hb : s.testBit i with
        | false => rfl
        | true =>
          obtain ⟨j, _, hj⟩ := (hs i).mp hb
          have hlt : V - 1 < 2 ^ (i + j) :=
            lt_of_lt_of_le hhi (Nat.pow_le_pow_right (by norm_num) (by omega))
          rw [Nat.testBit_lt_two_pow hlt] at hj
          cases hj
    refine ⟨(V - 1).log2 + 1, ?_, ?_, ?_⟩
    · simp only
      rw [hval _ hs16]
      have : 0 < 2 ^ ((V - 1).log2 + 1) := Nat.two_pow_pos _
      omega
    · omega
    · intro j hj
      by_contra hc
      have : 2 ^ j ≤ 2 ^ (V - 1).log2 := Nat.pow_le_pow_right (by norm_num) (by omega)
      omega

/-- C27 (as stated, refuted): for the row count `2^30 + 1`, a 32-bit signed `int`, the
smallest power of two that is not below it is `2^31`, which is not an `int`: the last
increment of `NEXT_POW_2` overflows and the constructor has no defined result. -/
theorem foilHashTable_construct_counterexample :
    (1 : Int) ≤ 2 ^ 30 + 1 ∧ (2 ^ 30 + 1 : Int) < 2 ^ 31 ∧
    NEXT_POW_2 (2 ^ 30 + 1) = 2 ^ 31 ∧
    FoilHashTable.construct (2 ^ 30 + 1) 0 = none := by
  refine ⟨by norm_num, by norm_num, by decide, by decide⟩

/-- C27 (amended): for a row count `1 ≤ num_rows ≤ 2^30` and a radix-bit count `r < 32`
such that `(num_buckets - 1) << r` fits in 32 bits, `FoilHashTable(num_rows, r)` has
`num_buckets = 2^k` zeroed buckets, where `2^k` is the smallest power of two that is not
below `num_rows`, a `next` array of `num_rows` entries, and the mask
`(num_buckets - 1) << r`. -/
theorem foilHashTable_construct (num_rows : Int) (r : Nat) (h1 : 1 ≤ num_rows)
    (h2 : num_rows ≤ 2 ^ 30) (hr : r < 32)
    (hmask : (NEXT_POW_2 num_rows.toNat - 1) <<< r < 2 ^ 32) :
    ∃ ht k, FoilHashTable.construct num_rows r = some ht ∧
      ht.buckets = List.replicate (2 ^ k) 0 ∧
      num_rows ≤ 2 ^ k ∧ (∀ j : Nat, num_rows ≤ 2 ^ j → 2 ^ k ≤ 2 ^ j) ∧
      (ht.next.length : Int) = num_rows ∧
      ht.mask = (2 ^ k - 1) <<< r := by
  have hn1 : 1 ≤ num_rows.toNat := by omega
  have hn2 : num_rows.toNat ≤ 2 ^ 30 := by omega
  obtain ⟨k, hk, hle, hmin⟩ := next_pow_2_spec num_rows.toNat hn1 (by omega)
  have hk30 : k ≤ 30 := hmin 30 hn2
  have hpow : 2 ^ k ≤ 2 ^ 30 := Nat.pow_le_pow_right (by norm_num) hk30
  have hpos : 0 < 2 ^ k := Nat.two_pow_pos _
  refine ⟨FoilHashTable.create num_rows.toNat r, k, ?_, ?_, ?_, ?_, ?_, ?_⟩
  · unfold FoilHashTable.construct
    rw [if_neg (by omega), if_neg (by rw [hk]; omega), if_neg (by omega)]
  · simp only [FoilHashTable.create, hk]
  · have : ((num_rows.toNat : Nat) : Int) ≤ ((2 ^ k : Nat) : Int) := by exact_mod_cast hle
    have h3 : (num_rows.toNat : Int) = num_rows := Int.toNat_of_nonneg (by omega)
    rw [h3] at this
    exact_mod_cast this
  · intro j hj
    apply Nat.pow_le_pow_right (by norm_num)
    apply hmin
    have h3 : (num_rows.toNat : Int) = num_rows := Int.toNat_of_nonneg (by omega)
    have : ((num_rows.toNat : Nat) : Int) ≤ ((2 ^ j : Nat) : Int) := by
      rw [h3]; exact_mod_cast hj
    exact_mod_cast this
  · simp only [FoilHashTable.create, List.length_replicate]
    exact Int.toNat_of_nonneg (by omega)
  · simp only [FoilHashTable.create, hk]
    rw [hk] at hmask
    have hm : (2 ^ k + 2 ^ 32 - 1) % 2 ^ 32 = 2 ^ k - 1 := by
      have : 2 ^ k + 2 ^ 32 - 1 = (2 ^ k - 1) + 2 ^ 32 := by omega
      rw [this, Nat.add_mod_right, Nat.mod_eq_of_lt (by omega)]
    rw [hm, Nat.mod_eq_of_lt hmask]

theorem foilHashTable_construct_witness :
    ∃ ht k, FoilHashTable.construct 5 3 = some ht ∧
      ht.buckets = List.replicate (2 ^ k) 0 ∧
      (5 : Int) ≤ 2 ^ k ∧ (∀ j : Nat, (5 : Int) ≤ 2 ^ j → 2 ^ k ≤ 2 ^ j) ∧
      (ht.next.length : Int) = 5 ∧
      ht.mask = (2 ^ k - 1) <<< 3 :=
  foilHashTable_construct 5 3 (by decide) (by decide) (by decide) (by decide)

/-! ## The join key of a literal -/

theorem updateJoinKey_fold (vars : List FoilVariable) :
    ∀ n, n ≤ vars.length →
      match (List.range n).foldl (FoilLiteral.UpdateJoinKey vars) none with
      | none => ∀ j w, j < n → vars.get? j = some w → w.IsBound = false
      | some k => FoilLiteral.IsJoinKeyAmong vars n k := by
  intro n
  induction n with
  | zero =>
    intro _
    simp only [List.range_zero, List.foldl_nil]
    intro j w hj
    omega
  | succ n ih =>
    intro hn
    have ih := ih (by omega)
    rw [List.range_succ, List.foldl_append, List.foldl_cons, List.foldl_nil]
    have hget : vars.get? n = some (vars.getD n ⟨0, 0⟩) :=
      get?_eq_some_getD vars n ⟨0, 0⟩ (by omega)
    generalize vars.getD n ⟨0, 0⟩ = v at hget
    cases hjk : (List.range n).foldl (FoilLiteral.UpdateJoinKey vars) none with
    | none =>
      rw [hjk] at ih
      simp only at ih
      unfold FoilLiteral.UpdateJoinKey
      rw [hget]
      simp only
      by_cases hb : v.IsBound = true
      · rw [if_pos hb]
        refine ⟨by omega, v, hget, hb, ?_, ?_⟩
        · intro j w hj hw hwb
          by_cases hjn : j = n
          · subst hjn
            rw [hget] at hw
            cases hw
            exact le_refl _
          · rw [ih j w (by omega) hw] at hwb
            cases hwb
        · intro j w hj hw hwb
          rw [ih j w hj hw] at hwb
          cases hwb
      · rw [if_neg hb]
        intro j w hj hw
        by_cases hjn : j = n
        · subst hjn
          rw [hget] at hw
          cases hw
          simpa using hb
        · exact ih j w (by omega) hw
    | some k =>
      rw [hjk] at ih
      simp only at ih
      obtain ⟨hk, u, hu, hub, hmax, hfirst⟩ := ih
      unfold FoilLiteral.UpdateJoinKey
      rw [hget]
      simp only
      by_cases hb : v.IsBound = true
      · rw [if_pos hb, hu]
        simp only
        by_cases hlt : u.variable_type_id < v.variable_type_id
        · rw [if_pos hlt]
          refine ⟨by omega, v, hget, hb, ?_, ?_⟩
          · intro j w hj hw hwb
            by_cases hjn : j = n
            · subst hjn
              rw [hget] at hw
              cases hw
              exact le_refl _
            · have := hmax j w (by omega) hw hwb
              omega
          · intro j w hj hw hwb
            have := hmax j w hj hw hwb
            omega
        · rw [if_neg hlt]
          refine ⟨by omega, u, hu, hub, ?_, hfirst⟩
          intro j w hj hw hwb
          by_cases hjn : j = n
          · subst hjn
            rw [hget] at hw
            cases hw
            omega
          · exact hmax j w (by omega) hw hwb
      · rw [if_neg hb]
        refine ⟨by omega, u, hu, hub, ?_, hfirst⟩
        intro j w hj hw hwb
        by_cases hjn : j = n
        · subst hjn
          rw [hget] at hw
          cases hw
          exact absurd hwb hb
        · exact hmax j w (by omega) hw hwb

theorem isJoinKeyAmong_unique (vars : List FoilVariable) (n k1 k2 : Nat)
    (h1 : FoilLiteral.IsJoinKeyAmong vars n k1) (h2 : FoilLiteral.IsJoinKeyAmong vars n k2) :
    k1 = k2 := by
  obtain ⟨hk1, v1, hv1, hb1, hmax1, hfirst1⟩ := h1
  obtain ⟨hk2, v2, hv2, hb2, hmax2, hfirst2⟩ := h2
  rcases Nat.lt_trichotomy k1 k2 with h | h | h
  · have := hfirst2 k1 v1 h hv1 hb1
    have := hmax1 k2 v2 hk2 hv2 hb2
    omega
  · exact h
  · have := hfirst1 k2 v2 h hv2 hb2
    have := hmax2 k1 v1 hk1 hv1 hb1
    omega

theorem updateJoinKey_lt (vars : List FoilVariable) (jk : Option Nat) (pos bound : Nat)
    (hpos : pos < bound) (hjk : ∀ k, jk = some k → k < bound) :
    ∀ k, FoilLiteral.UpdateJoinKey vars jk pos = some k → k < bound := by
  intro k hk
  unfold FoilLiteral.UpdateJoinKey at hk
  split at hk
  · exact hjk k hk
  · split at hk
    · split at hk
      · cases hk; exact hpos
      · split at hk
        · split at hk
          · cases hk; exact hpos
          · exact hjk k hk
        · exact hjk k hk
    · exact hjk k hk

theorem updateJoinKey_prefix (pre rest : List FoilVariable) (jk : Option Nat) (pos : Nat)
    (hpos : pos < pre.length) (hjk : ∀ k, jk = some k → k < pre.length) :
    FoilLiteral.UpdateJoinKey (pre ++ rest) jk pos = FoilLiteral.UpdateJoinKey pre jk pos := by
  have hget : ∀ i, i < pre.length → (pre ++ rest).get? i = pre.get? i := by
    intro i hi
    rw [List.get?_eq_getElem?, List.get?_eq_getElem?, List.getElem?_append_left hi]
  unfold FoilLiteral.UpdateJoinKey
  rw [hget pos hpos]
  cases jk with
  | none => rfl
  | some k => simp only [hget k (hjk k rfl)]

theorem joinKeyAfterAdds_fold :
    ∀ (rest pre : List FoilVariable) (jk : Option Nat),
      (∀ k, jk = some k → k < pre.length) →
      FoilLiteral.joinKeyAfterAdds rest pre jk =
        (List.range' pre.length rest.length).foldl
          (FoilLiteral.UpdateJoinKey (pre ++ rest)) jk := by
  intro rest
  induction rest with
  | nil => intro pre jk _; simp [FoilLiteral.joinKeyAfterAdds]
  | cons v rest ih =>
    intro pre jk hjk
    rw [FoilLiteral.joinKeyAfterAdds, ih]
    · simp only [List.length_append, List.length_singleton, List.length_cons,
        List.range'_succ, List.foldl_cons, List.append_assoc, List.singleton_append]
      congr 1
      have := updateJoinKey_prefix (pre ++ [v]) rest jk pre.length (by simp)
        (fun k hk => by have := hjk k hk; simp; omega)
      simp only [List.append_assoc, List.singleton_append] at this
      exact this.symm
    · intro k hk
      exact updateJoinKey_lt _ _ _ _ (by simp) (fun k hk => by have := hjk k hk; simp; omega)
        k hk

/-- C29: the join key of a literal is the same whether the literal is built by the
constructor on a vector of variables or by successive calls of `AddVariable`; it is `-1`
(`none`) exactly when no argument is bound, and otherwise it is the position `k` of a bound
argument whose type id is the largest among the bound arguments, with a smaller type id at
every bound position before `k`. -/
theorem join_key_spec (l : FoilLiteral) :
    FoilLiteral.joinKeyAfterAdds l.vars [] none = l.join_key ∧
    (l.join_key = none ↔ ∀ v ∈ l.vars, v.IsBound = false) ∧
    ∀ k, l.join_key = some k ↔
      ∃ v, l.vars.get? k = some v ∧ v.IsBound = true ∧
        (∀ j w, l.vars.get? j = some w → w.IsBound = true →
          w.variable_type_id ≤ v.variable_type_id) ∧
        (∀ j w, j < k → l.vars.get? j = some w → w.IsBound = true →
          w.variable_type_id < v.variable_type_id) := by
  have hfold := updateJoinKey_fold l.vars l.vars.length (le_refl _)
  have hlt : ∀ j w, l.vars.get? j = some w → j < l.vars.length := by
    intro j w hw
    rw [List.get?_eq_getElem?] at hw
    exact (List.getElem?_eq_some_iff.mp hw).1
  refine ⟨?_, ?_, ?_⟩
  · rw [joinKeyAfterAdds_fold l.vars [] none (fun k hk => by cases hk)]
    simp only [List.length_nil, List.nil_append, FoilLiteral.join_key, List.range_eq_range']
  · unfold FoilLiteral.join_key
    cases hjk : (List.range l.vars.length).foldl (FoilLiteral.UpdateJoinKey l.vars) none with
    | none =>
      rw [hjk] at hfold
      simp only at hfold
      simp only [true_iff]
      intro v hv
      obtain ⟨j, hj⟩ := List.get?_of_mem hv
      exact hfold j v (hlt j v hj) hj
    | some k =>
      rw [hjk] at hfold
      simp only at hfold
      obtain ⟨_, u, hu, hub, _, _⟩ := hfold
      simp only [false_iff, reduceCtorEq]
      intro hall
      rw [hall u (List.get?_mem hu)] at hub
      cases hub
  · intro k
    unfold FoilLiteral.join_key
    cases hjk : (List.range l.vars.length).foldl (FoilLiteral.UpdateJoinKey l.vars) none with
    | none =>
      rw [hjk] at hfold
      simp only at hfold
      simp only [false_iff, reduceCtorEq]
      rintro ⟨v, hv, hb, _, _⟩
      rw [hfold k v (hlt k v hv) hv] at hb
      cases hb
    | some k0 =>
      rw [hjk] at hfold
      simp only at hfold
      constructor
      · intro h
        cases h
        obtain ⟨_, u, hu, hub, hmax, hfirst⟩ := hfold
        exact ⟨u, hu, hub, fun j w hw hwb => hmax j w (hlt j w hw) hw hwb, hfirst⟩
      · rintro ⟨v, hv, hb, hmax, hfirst⟩
        have : FoilLiteral.IsJoinKeyAmong l.vars l.vars.length k :=
          ⟨hlt k v hv, v, hv, hb, fun j w _ hw hwb => hmax j w hw hwb, hfirst⟩
        rw [isJoinKeyAmong_unique l.vars l.vars.length k0 k hfold this]

/-! ## Extending a clause by a literal -/

theorem bindFresh_closed :
    ∀ (l vars acc : List FoilVariable),
      ∃ bl, FoilClause.bindFresh l vars acc =
          (vars ++ ((l.filter (fun u => !u.IsBound)).enumFrom vars.length).map
            (fun e => (⟨(e.1 : Int), e.2.variable_type_id⟩ : FoilVariable)), acc ++ bl) ∧
        bl.length = l.length ∧
        ∀ i v, l.get? i = some v →
          bl.get? i = some (if v.IsBound then v else
            ⟨((vars.length + ((l.take i).filter (fun u => !u.IsBound)).length : Nat) : Int),
              v.variable_type_id⟩) := by
  intro l
  induction l with
  | nil =>
    intro vars acc
    exact ⟨[], by simp [FoilClause.bindFresh], rfl, by intro i v h; simp at h⟩
  | cons u rest ih =>
    intro vars acc
    by_cases hu : u.IsBound = true
    · obtain ⟨bl, hbf, hlen, hget⟩ := ih vars (acc ++ [u])
      refine ⟨u :: bl, ?_, by simp [hlen], ?_⟩
      · rw [FoilClause.bindFresh, if_pos hu, hbf]
        simp [hu]
      · intro i v hv
        cases i with
        | zero =>
          simp only [List.get?_cons_zero, Option.some.injEq] at hv
          subst hv
          simp [hu]
        | succ i =>
          simp only [List.get?_cons_succ] at hv
          simp only [List.get?_cons_succ, List.take_succ_cons, List.filter_cons, hu,
            Bool.not_true, Bool.false_eq_true, if_false]
          exact hget i v hv
    · obtain ⟨bl, hbf, hlen, hget⟩ := ih (vars ++ [⟨(vars.length : Int), u.variable_type_id⟩])
        (acc ++ [⟨(vars.length : Int), u.variable_type_id⟩])
      have hu2 : u.IsBound = false := by simpa using hu
      refine ⟨⟨(vars.length : Int), u.variable_type_id⟩ :: bl, ?_, by simp [hlen], ?_⟩
      · rw [FoilClause.bindFresh, if_neg hu]
        simp only
        rw [hbf]
        simp [hu2, List.enumFrom_cons]
      · intro i v hv
        cases i with
        | zero =>
          simp only [List.get?_cons_zero, Option.some.injEq] at hv
          subst hv
          simp [hu2]
        | succ i =>
          simp only [List.get?_cons_succ] at hv
          have := hget i v hv
          simp only [List.get?_cons_succ, List.take_succ_cons, List.filter_cons, hu2,
            Bool.not_false, if_true, List.length_cons]
          rw [this]
          simp only [List.length_append, List.length_singleton]
          congr 3
          omega

theorem map_id_enumFrom (n : Nat) :
    ∀ (l : List FoilVariable),
      (((l.enumFrom n).map
        (fun e => (⟨(e.1 : Int), e.2.variable_type_id⟩ : FoilVariable))).map
          FoilVariable.variable_id) = (List.range' n l.length).map Int.ofNat := by
  intro l
  induction l generalizing n with
  | nil => rfl
  | cons v rest ih =>
    simp only [List.enumFrom_cons, List.map_cons, List.length_cons, List.range'_succ]
    rw [ih (n + 1)]
    rfl

/-- C28: for a clause whose variables are numbered `0, 1, ...` in order and whose random
flags are as many as its body literals, and a literal `L` whose variable ids are below
`num_variables`, `AddUnBoundBodyLiteral(L, flag)` keeps the head, appends one body literal
to the earlier ones, of the predicate of `L` and fully bound, in which a bound argument of
`L` is kept and the unbound arguments get, in position order, the fresh ids
`num_variables`, `num_variables + 1`, ...; it appends exactly these fresh variables, with
the type of their argument, to the earlier variables, which stay numbered in order; every
variable of the new literal is a variable of the clause; and `flag` is appended to the
random flags, which stay as many as the body literals. -/
theorem addUnBoundBodyLiteral_spec (c : FoilClause) (L : FoilLiteral) (flag : Bool)
    (hids : c.vars.map FoilVariable.variable_id = (List.range c.vars.length).map Int.ofNat)
    (hflags : c.random_flags.length = c.body_literals.length)
    (hL : ∀ v ∈ L.vars, v.variable_id < (c.num_variables : Int)) :
    (c.AddUnBoundBodyLiteral L flag).head_literal = c.head_literal ∧
    (∃ lb, (c.AddUnBoundBodyLiteral L flag).body_literals = c.body_literals ++ [lb] ∧
      lb.predicate = L.predicate ∧ lb.IsBound = true ∧ lb.vars.length = L.vars.length ∧
      (∀ i v, L.vars.get? i = some v →
        lb.vars.get? i = some (if v.IsBound then v else
          ⟨((c.num_variables + ((L.vars.take i).filter (fun u => !u.IsBound)).length : Nat) :
            Int), v.variable_type_id⟩)) ∧
      ∀ v ∈ lb.vars,
        v.variable_id < ((c.AddUnBoundBodyLiteral L flag).num_variables : Int)) ∧
    (c.AddUnBoundBodyLiteral L flag).vars =
      c.vars ++ ((L.vars.filter (fun u => !u.IsBound)).enumFrom c.num_variables).map
        (fun e => (⟨(e.1 : Int), e.2.variable_type_id⟩ : FoilVariable)) ∧
    (c.AddUnBoundBodyLiteral L flag).vars.map FoilVariable.variable_id =
      (List.range (c.AddUnBoundBodyLiteral L flag).vars.length).map Int.ofNat ∧
    (c.AddUnBoundBodyLiteral L flag).num_variables_without_last_body_literal =
      (c.num_variables : Int) ∧
    (c.AddUnBoundBodyLiteral L flag).random_flags = c.random_flags ++ [flag] ∧
    (c.AddUnBoundBodyLiteral L flag).random_flags.length =
      (c.AddUnBoundBodyLiteral L flag).body_literals.length := by
  obtain ⟨bl, hbf, hlen, hget⟩ := bindFresh_closed L.vars c.vars []
  have hvars : (c.AddUnBoundBodyLiteral L flag).vars =
      c.vars ++ ((L.vars.filter (fun u => !u.IsBound)).enumFrom c.num_variables).map
        (fun e => (⟨(e.1 : Int), e.2.variable_type_id⟩ : FoilVariable)) := by
    simp only [FoilClause.AddUnBoundBodyLiteral, hbf, FoilClause.num_variables]
  have hbody : (c.AddUnBoundBodyLiteral L flag).body_literals =
      c.body_literals ++ [⟨L.predicate, bl⟩] := by
    simp only [FoilClause.AddUnBoundBodyLiteral, hbf, List.nil_append]
  have hcount : ∀ i, ((L.vars.take i).filter (fun u => !u.IsBound)).length ≤
      (L.vars.filter (fun u => !u.IsBound)).length := by
    intro i
    exact List.Sublist.length_le ((List.take_sublist i L.vars).filter _)
  have hbound : ∀ i v w, L.vars.get? i = some v → bl.get? i = some w →
      0 ≤ w.variable_id ∧
        i < L.vars.length ∧
        (v.IsBound = false →
          ((L.vars.take i).filter (fun u => !u.IsBound)).length <
            (L.vars.filter (fun u => !u.IsBound)).length) ∧
        w = (if v.IsBound then v else
          ⟨((c.vars.length + ((L.vars.take i).filter (fun u => !u.IsBound)).length : Nat) :
            Int), v.variable_type_id⟩) := by
    intro i v w hv hw
    have hw2 := hget i v hv
    rw [hw] at hw2
    have hw3 := Option.some.inj hw2
    have hi : i < L.vars.length := by
      rw [List.get?_eq_getElem?] at hv
      exact (List.getElem?_eq_some_iff.mp hv).1
    refine ⟨?_, hi, ?_, hw3⟩
    · rw [hw3]
      by_cases hb : v.IsBound = true
      · rw [if_pos hb]
        simpa [FoilVariable.IsBound] using hb
      · rw [if_neg hb]
        exact Int.ofNat_nonneg _
    · intro hvb
      have hsplit : L.vars = L.vars.take i ++ v :: L.vars.drop (i + 1) := by
        rw [List.get?_eq_getElem?] at hv
        obtain ⟨h1, h2⟩ := List.getElem?_eq_some_iff.mp hv
        rw [← h2, ← List.drop_eq_getElem_cons h1, List.take_append_drop]
      have : (L.vars.filter (fun u => !u.IsBound)).length =
          ((L.vars.take i).filter (fun u => !u.IsBound)).length + 1 +
            ((L.vars.drop (i + 1)).filter (fun u => !u.IsBound)).length := by
        conv_lhs => rw [hsplit]
        simp only [List.filter_append, List.filter_cons, hvb, Bool.not_false, if_true,
          List.length_append, List.length_cons]
        omega
      omega
  refine ⟨rfl, ⟨⟨L.predicate, bl⟩, hbody, rfl, ?_, hlen, ?_, ?_⟩, hvars, ?_, rfl, rfl, ?_⟩
  · simp only [FoilLiteral.IsBound, List.all_eq_true]
    intro w hw
    have hw2 : w ∈ bl := hw
    obtain ⟨i, hi⟩ := List.get?_of_mem hw2
    have hil : i < L.vars.length := by
      rw [List.get?_eq_getElem?] at hi
      rw [← hlen]
      exact (List.getElem?_eq_some_iff.mp hi).1
    obtain ⟨h0, _⟩ := hbound i _ w (get?_eq_some_getD L.vars i ⟨0, 0⟩ hil) hi
    simpa [FoilVariable.IsBound] using h0
  · intro i v hv
    exact hget i v hv
  · intro w hw
    obtain ⟨i, hi⟩ := List.get?_of_mem hw
    have hil : i < L.vars.length := by
      rw [List.get?_eq_getElem?] at hi
      rw [← hlen]
      exact (List.getElem?_eq_some_iff.mp hi).1
    have hv := get?_eq_some_getD L.vars i ⟨0, 0⟩ hil
    obtain ⟨_, _, hlt, hw3⟩ := hbound i _ w hv hi
    have hmem := getD_mem_of_lt L.vars i ⟨0, 0⟩ hil
    simp only [FoilClause.num_variables, hvars, List.length_append, List.length_map,
      List.enumFrom_length]
    generalize L.vars.getD i ⟨0, 0⟩ = v at hv hlt hw3 hmem
    by_cases hb : v.IsBound = true
    · rw [if_pos hb] at hw3
      rw [hw3]
      have := hL v hmem
      simp only [FoilClause.num_variables] at this
      push_cast
      omega
    · rw [if_neg hb] at hw3
      rw [hw3]
      have := hlt (by simpa using hb)
      simp only
      exact_mod_cast (by omega : c.vars.length +
        ((L.vars.take i).filter (fun u => !u.IsBound)).length <
        c.vars.length + (L.vars.filter (fun u => !u.IsBound)).length)
  · rw [hvars, List.map_append, hids, map_id_enumFrom, List.length_append, List.length_map,
      List.enumFrom_length, FoilClause.num_variables, List.range_eq_range',
      List.range_eq_range', ← List.map_append]
    congr 1
    have h := List.range'_append_1 0 c.vars.length
      (L.vars.filter (fun u => !u.IsBound)).length
    rw [Nat.zero_add, Nat.add_comm] at h
    exact h
  · simp only [hbody, FoilClause.AddUnBoundBodyLiteral, List.length_append,
      List.length_singleton, hflags]

theorem addUnBoundBodyLiteral_spec_witness :
    ((FoilClause.ofHead testHead5).AddUnBoundBodyLiteral
      ⟨testPredicate4, [⟨-1, 1⟩, ⟨1, 0⟩, ⟨-1, 1⟩]⟩ true).vars =
      [⟨0, 0⟩, ⟨1, 0⟩, ⟨2, 1⟩, ⟨3, 1⟩] ∧
    ((FoilClause.ofHead testHead5).AddUnBoundBodyLiteral
      ⟨testPredicate4, [⟨-1, 1⟩, ⟨1, 0⟩, ⟨-1, 1⟩]⟩ true).head_literal =
      (FoilClause.ofHead testHead5).head_literal :=
  ⟨by decide,
    (addUnBoundBodyLiteral_spec (FoilClause.ofHead testHead5)
      ⟨testPredicate4, [⟨-1, 1⟩, ⟨1, 0⟩, ⟨-1, 1⟩]⟩ true (by decide) (by decide)
      (by decide)).1⟩

/-! ## Choosing the sides of a semi-join -/

theorem hashableTable_built (hash : Int → Nat) (table : TableView) (keys : List Nat)
    (key_values : List (List Int)) (H : HashableTable table keys key_values) :
    ∃ ht, BuildHashTableOnTable hash keys table = some ht := by
  obtain ⟨ht, h, _⟩ := buildHashTableOnTable_spec hash keys table key_values H.rows
    (lt_of_le_of_lt H.size (by norm_num)) H.keys_ne H.columns H.rect
  exact ⟨ht, h⟩

theorem resetIfNull_spec (hash : Int → Nat) (pointer : Option FoilHashTable)
    (table : TableView) (keys : List Nat) (key_values : List (List Int))
    (H : HashableTable table keys key_values) :
    ∃ ht, resetIfNull hash pointer keys table = some ht ∧
      (∀ ht0, pointer = some ht0 → ht = ht0) ∧
      (pointer = none → BuildHashTableOnTable hash keys table = some ht) := by
  cases pointer with
  | none =>
    obtain ⟨ht, h⟩ := hashableTable_built hash _ _ _ H
    exact ⟨ht, h, (fun _ h0 => by cases h0), fun _ => h⟩
  | some ht0 =>
    exact ⟨ht0, rfl, (fun _ h0 => by cases h0; rfl), fun h0 => by cases h0⟩

/-- C26: on two tables on which a hash table can be built, `SelectAndCreateSemiJoin`
returns a semi-join; when `output_table` has strictly fewer rows than `other_table` it is
a right semi-join (`left_semijoin = false`) with `output_table` as build side,
`other_table` as probe side and the hash table of `output_table`, which is the one passed
in when the pointer is not null and the one built by `BuildHashTableOnTable` otherwise;
in the other case it is a left semi-join with `other_table` as build side and
`output_table` as probe side, with the hash table of `other_table` in the same way; the
pointer of the build side holds the hash table afterwards and the other pointer is
unchanged; so the build side never has more rows than the probe side. -/
theorem selectAndCreateSemiJoin_side (hash : Int → Nat) (output_table other_table : TableView)
    (output_hash_table other_hash_table : Option FoilHashTable)
    (output_join_keys other_join_keys project_column_ids : List Nat)
    (output_values other_values : List (List Int))
    (Hout : HashableTable output_table output_join_keys output_values)
    (Hoth : HashableTable other_table other_join_keys other_values) :
    ∃ left semi_join pointer1 pointer2,
      SelectAndCreateSemiJoin hash output_table other_table output_hash_table
        other_hash_table output_join_keys other_join_keys project_column_ids =
        some ((left, semi_join), pointer1, pointer2) ∧
      (output_table.num_tuples < other_table.num_tuples →
        left = false ∧ semi_join.build_table = output_table ∧
        semi_join.probe_table = other_table ∧
        semi_join.build_key_values = output_values ∧
        semi_join.probe_key_values = other_values ∧
        (∀ ht, output_hash_table = some ht → semi_join.build_hash_table = ht) ∧
        (output_hash_table = none →
          BuildHashTableOnTable hash output_join_keys output_table =
            some semi_join.build_hash_table) ∧
        pointer1 = some semi_join.build_hash_table ∧ pointer2 = other_hash_table) ∧
      (¬ output_table.num_tuples < other_table.num_tuples →
        left = true ∧ semi_join.build_table = other_table ∧
        semi_join.probe_table = output_table ∧
        semi_join.build_key_values = other_values ∧
        semi_join.probe_key_values = output_values ∧
        (∀ ht, other_hash_table = some ht → semi_join.build_hash_table = ht) ∧
        (other_hash_table = none →
          BuildHashTableOnTable hash other_join_keys other_table =
            some semi_join.build_hash_table) ∧
        pointer1 = output_hash_table ∧ pointer2 = some semi_join.build_hash_table) ∧
      semi_join.project_column_ids = project_column_ids ∧
      semi_join.build_table.num_tuples ≤ semi_join.probe_table.num_tuples := by
  by_cases hlt : output_table.num_tuples < other_table.num_tuples
  · obtain ⟨ht, hbuilt, hreuse, hnew⟩ :=
      resetIfNull_spec hash output_hash_table _ _ _ Hout
    refine ⟨false, ⟨other_table, output_table, ht, other_values, output_values,
      project_column_ids, templateKeys other_join_keys.length⟩, some ht, other_hash_table,
      ?_, ?_, ?_, rfl, le_of_lt hlt⟩
    · unfold SelectAndCreateSemiJoin
      rw [if_pos hlt]
      simp only [hbuilt, CreateSemiJoin, Hout.columns, Hoth.columns]
    · intro _
      exact ⟨rfl, rfl, rfl, rfl, rfl, hreuse, hnew, rfl, rfl⟩
    · intro h
      exact absurd hlt h
  · obtain ⟨ht, hbuilt, hreuse, hnew⟩ :=
      resetIfNull_spec hash other_hash_table _ _ _ Hoth
    refine ⟨true, ⟨output_table, other_table, ht, output_values, other_values,
      project_column_ids, templateKeys output_join_keys.length⟩, output_hash_table, some ht,
      ?_, ?_, ?_, rfl, Nat.le_of_not_lt hlt⟩
    · unfold SelectAndCreateSemiJoin
      rw [if_neg hlt]
      simp only [hbuilt, CreateSemiJoin, Hout.columns, Hoth.columns]
    · intro h
      exact absurd h hlt
    · intro _
      exact ⟨rfl, rfl, rfl, rfl, rfl, hreuse, hnew, rfl, rfl⟩

theorem selectAndCreateSemiJoin_side_witness :
    ∃ left semi_join pointer1 pointer2,
      SelectAndCreateSemiJoin (fun v => v.toNat) probeTestTable hashTestTable none none
        [0, 1] [0, 1] [0] = some ((left, semi_join), pointer1, pointer2) ∧
      left = false ∧ semi_join.build_table = probeTestTable ∧
      semi_join.probe_table = hashTestTable ∧
      semi_join.build_table.num_tuples ≤ semi_join.probe_table.num_tuples := by
  obtain ⟨left, semi_join, pointer1, pointer2, h, hlt, _, _, hle⟩ :=
    selectAndCreateSemiJoin_side (fun v => v.toNat) probeTestTable hashTestTable none none
      [0, 1] [0, 1] [0] [[7, 5, 8, 9, 7], [2, 1, 1, 0, 5]]
      [[5, 7, 5, 9, 7, 5], [1, 2, 1, 4, 5, 1]]
      ⟨by decide, by decide, by decide, by decide, by decide⟩
      ⟨by decide, by decide, by decide, by decide, by decide⟩
  obtain ⟨h1, h2, h3, _⟩ := hlt (by decide)
  exact ⟨left, semi_join, pointer1, pointer2, h, h1, h2, h3, hle⟩

/-! ## The enumerator on a clause without body and the stats of the previous search -/

theorem reuse_fold (stats : LiteralSearchStats) :
    ∀ (generated : PredMap FoilLiteral), (generated.map Prod.fst).Nodup →
      ∀ p, ((generated.foldl (reuseStep stats) ([], [])).1.lookup p =
          keptLiterals stats p (generated.lookup p)) ∧
        ((generated.foldl (reuseStep stats) ([], [])).2.lookup p =
          keptLiterals stats p (generated.lookup p)) ∧
        ((generated.foldl (reuseStep stats) ([], [])).1.contains p =
          generated.contains p) ∧
        ((generated.foldl (reuseStep stats) ([], [])).2.contains p =
          generated.contains p) := by
  intro generated
  induction generated using List.reverseRecOn with
  | nil =>
    intro _ p
    simp [PredMap.lookup, PredMap.contains, keptLiterals]
  | append_singleton done g ih =>
    intro hnodup p
    rw [List.map_append, List.nodup_append] at hnodup
    obtain ⟨hd, _, hdisj⟩ := hnodup
    have hg : PredMap.contains done g.1 = false := by
      rw [Bool.eq_false_iff]
      intro hc
      simp only [PredMap.contains, List.any_eq_true, decide_eq_true_eq] at hc
      obtain ⟨e, he, heq⟩ := hc
      exact hdisj (List.mem_map_of_mem Prod.fst he) (by simp [heq])
    rw [List.foldl_append, List.foldl_cons, List.foldl_nil]
    obtain ⟨ih1, ih2, _, _⟩ := ih hd g.1
    obtain ⟨ip1, ip2, ip3, ip4⟩ := ih hd p
    have hlook : PredMap.lookup (done ++ [g]) p = if p = g.1 then g.2 else PredMap.lookup done p :=
      predMap_lookup_push done g.1 p g.2 hg
    have hdone : PredMap.lookup done g.1 = [] := predMap_lookup_of_not_contains done g.1 hg
    have hk0 : keptLiterals stats g.1 [] = [] := rfl
    rw [hdone, hk0] at ih1 ih2
    generalize List.foldl (reuseStep stats) ([], []) done = acc at ih1 ih2 ip1 ip2 ip3 ip4
    simp only [reuseStep, predMap_lookup_append, predMap_contains_append, if_true, ih1,
      List.nil_append]
    rw [hlook, predMap_contains_push, ip3, ip4]
    refine ⟨?_, ?_, rfl, rfl⟩
    · by_cases hp : p = g.1
      · subst hp
        simp [ih1]
      · simp [hp, ip1]
    · by_cases hp : p = g.1
      · subst hp
        simp [ih2]
      · simp [hp, ip2]

/-- C22: for a clause with an empty body and the stats of a previous search that hold
generated literals (a map, so with one entry per predicate), `EnumerateCandidateLiterals`
returns, for every predicate, the list generated for the predicate in the previous search,
in the same order, without the literals recorded as pruned by their covered results
(pointers, that is the predicate and the index in its list); the predicates with an entry
are the same, and the pruned list of every predicate is this entire list. -/
theorem enumerate_most_general_reuses (background_predicates : List FoilPredicate)
    (building_clause : FoilClause) (last_run_stats : LiteralSearchStats)
    (generated : PredMap FoilLiteral)
    (hbody : building_clause.body_literals = [])
    (hstats : last_run_stats.generated_candidate_literals = some generated)
    (hmap : (generated.map Prod.fst).Nodup) :
    ∃ entire pruned,
      EnumerateCandidateLiterals background_predicates building_clause last_run_stats =
        some (entire, pruned) ∧
      ∀ p, entire.lookup p =
          ((generated.lookup p).enum.filter (fun e =>
            !(last_run_stats.pruned_literals_by_covered_results.contains (p, e.1)))).map
              Prod.snd ∧
        pruned.lookup p = entire.lookup p ∧
        entire.contains p = generated.contains p ∧
        pruned.contains p = generated.contains p := by
  have key := reuse_fold last_run_stats generated hmap
  have hrun : EnumerateCandidateLiterals background_predicates building_clause
      last_run_stats = some (generated.foldl (reuseStep last_run_stats) ([], [])) := by
    unfold EnumerateCandidateLiterals EnumerateForMostGeneralClause
    rw [hbody, hstats]
    rfl
  rw [hrun]
  generalize generated.foldl (reuseStep last_run_stats) ([], []) = r at key
  obtain ⟨entire, pruned⟩ := r
  refine ⟨entire, pruned, rfl, ?_⟩
  intro p
  obtain ⟨h1, h2, h3, h4⟩ := key p
  refine ⟨?_, ?_, h3, h4⟩
  · rw [h1]; rfl
  · rw [h2, h1]

theorem enumerate_most_general_reuses_witness :
    ∃ entire pruned,
      EnumerateCandidateLiterals testBackground (FoilClause.ofHead testHead5)
        ⟨some [(testPredicate0, [⟨testPredicate0, [⟨0, 0⟩]⟩, ⟨testPredicate0, [⟨1, 0⟩]⟩])],
          [(testPredicate0, 0)]⟩ = some (entire, pruned) ∧
      entire.lookup testPredicate0 = [⟨testPredicate0, [⟨1, 0⟩]⟩] ∧
      pruned.lookup testPredicate0 = entire.lookup testPredicate0 := by
  obtain ⟨entire, pruned, h, hp⟩ := enumerate_most_general_reuses testBackground
    (FoilClause.ofHead testHead5)
    ⟨some [(testPredicate0, [⟨testPredicate0, [⟨0, 0⟩]⟩, ⟨testPredicate0, [⟨1, 0⟩]⟩])],
      [(testPredicate0, 0)]⟩
    [(testPredicate0, [⟨testPredicate0, [⟨0, 0⟩]⟩, ⟨testPredicate0, [⟨1, 0⟩]⟩])]
    (by decide) rfl (by decide)
  obtain ⟨h1, h2, _, _⟩ := hp testPredicate0
  refine ⟨entire, pruned, h, ?_, h2⟩
  rw [h1]
  decide
/-! ## The enumerator on a clause without body: the role of the stats -/

theorem keptLiterals_congr (s1 s2 : LiteralSearchStats)
    (h : ∀ x, x ∈ s1.pruned_literals_by_covered_results ↔
      x ∈ s2.pruned_literals_by_covered_results) :
    keptLiterals s1 = keptLiterals s2 := by
  funext p olds
  unfold keptLiterals
  congr 1
  apply List.filter_congr
  intro e _
  congr 1
  rw [Bool.eq_iff_iff]
  simp only [List.contains, List.elem_eq_mem, decide_eq_true_eq]
  exact h (p, e.1)

/-- C23 (as stated, refuted): for the clause `p_5(0, 1)` without body and the background
predicate `p_0`, two stats that hold the same generated literals `p_0(0), p_0(1)` and
differ in the literals recorded as pruned give different literals: with the pointer to
`p_0(0)` recorded, `p_0(0)` is not returned. -/
theorem enumerate_most_general_history_counterexample :
    ∃ entire1 pruned1 entire2 pruned2,
      EnumerateCandidateLiterals [testPredicate0] (FoilClause.ofHead testHead5)
        ⟨some [(testPredicate0, [⟨testPredicate0, [⟨0, 0⟩]⟩, ⟨testPredicate0, [⟨1, 0⟩]⟩])],
          []⟩ = some (entire1, pruned1) ∧
      EnumerateCandidateLiterals [testPredicate0] (FoilClause.ofHead testHead5)
        ⟨some [(testPredicate0, [⟨testPredicate0, [⟨0, 0⟩]⟩, ⟨testPredicate0, [⟨1, 0⟩]⟩])],
          [(testPredicate0, 0)]⟩ = some (entire2, pruned2) ∧
      (⟨testPredicate0, [⟨0, 0⟩]⟩ : FoilLiteral) ∈ entire1.lookup testPredicate0 ∧
      (⟨testPredicate0, [⟨0, 0⟩]⟩ : FoilLiteral) ∉ entire2.lookup testPredicate0 ∧
      (⟨testPredicate0, [⟨0, 0⟩]⟩ : FoilLiteral) ∈ pruned1.lookup testPredicate0 ∧
      (⟨testPredicate0, [⟨0, 0⟩]⟩ : FoilLiteral) ∉ pruned2.lookup testPredicate0 := by
  refine ⟨[(testPredicate0, [⟨testPredicate0, [⟨0, 0⟩]⟩, ⟨testPredicate0, [⟨1, 0⟩]⟩])],
    [(testPredicate0, [⟨testPredicate0, [⟨0, 0⟩]⟩, ⟨testPredicate0, [⟨1, 0⟩]⟩])],
    [(testPredicate0, [⟨testPredicate0, [⟨1, 0⟩]⟩])],
    [(testPredicate0, [⟨testPredicate0, [⟨1, 0⟩]⟩])], ?_, ?_, ?_, ?_, ?_, ?_⟩ <;> decide

/-- C23 (amended): for a clause without body literals, two stats give the same result of
`EnumerateCandidateLiterals` when they hold the same generated literals and either hold
none (then the literals recorded as pruned play no role) or record the same literals as
pruned by their covered results. -/
theorem enumerate_most_general_same_stats (background_predicates : List FoilPredicate)
    (building_clause : FoilClause) (stats1 stats2 : LiteralSearchStats)
    (hbody : building_clause.body_literals = [])
    (hgenerated : stats1.generated_candidate_literals = stats2.generated_candidate_literals)
    (hpruned : stats1.generated_candidate_literals = none ∨
      ∀ x, x ∈ stats1.pruned_literals_by_covered_results ↔
        x ∈ stats2.pruned_literals_by_covered_results) :
    EnumerateCandidateLiterals background_predicates building_clause stats1 =
      EnumerateCandidateLiterals background_predicates building_clause stats2 := by
  unfold EnumerateCandidateLiterals
  rw [hbody]
  simp only [List.isEmpty_nil, if_true]
  cases hg : stats1.generated_candidate_literals with
  | none =>
    unfold EnumerateForMostGeneralClause
    rw [← hgenerated, hg]
  | some generated =>
    rcases hpruned with h | h
    · rw [hg] at h; cases h
    · have h1 : EnumerateForMostGeneralClause background_predicates building_clause stats1 =
          some (generated.foldl (reuseStep stats1) ([], [])) := by
        unfold EnumerateForMostGeneralClause
        rw [hg]
        rfl
      have h2 : EnumerateForMostGeneralClause background_predicates building_clause stats2 =
          some (generated.foldl (reuseStep stats2) ([], [])) := by
        unfold EnumerateForMostGeneralClause
        rw [← hgenerated, hg]
        rfl
      have hstep : reuseStep stats1 = reuseStep stats2 := by
        funext acc group
        unfold reuseStep
        rw [keptLiterals_congr stats1 stats2 h]
      rw [h1, h2, hstep]

theorem enumerate_most_general_same_stats_witness :
    EnumerateCandidateLiterals testBackground (FoilClause.ofHead testHead5)
        ⟨none, [(testPredicate0, 0)]⟩ =
      EnumerateCandidateLiterals testBackground (FoilClause.ofHead testHead5)
        ⟨none, [(testPredicate1, 3), (testPredicate0, 1)]⟩ :=
  enumerate_most_general_same_stats testBackground (FoilClause.ofHead testHead5)
    ⟨none, [(testPredicate0, 0)]⟩ ⟨none, [(testPredicate1, 3), (testPredicate0, 1)]⟩
    (by decide) rfl (Or.inl rfl)

/-! ## Key pruning in the enumerator -/

theorem p2b_fold_complete (body : List FoilLiteral) :
    ∀ (m0 : List (Int × List FoilLiteral)) (done : List FoilLiteral),
      (∀ b ∈ done, ∃ e, m0.find? (fun e => decide (e.1 = b.predicate.id)) = some e ∧ b ∈ e.2) →
      ∀ b, (b ∈ done ∨ b ∈ body) →
        ∃ e, (body.foldl (fun m l =>
          if m.any (fun e => decide (e.1 = l.predicate.id)) then
            m.map (fun e => if e.1 = l.predicate.id then (e.1, e.2 ++ [l]) else e)
          else m ++ [(l.predicate.id, [l])]) m0).find?
            (fun e => decide (e.1 = b.predicate.id)) = some e ∧ b ∈ e.2 := by
  induction body with
  | nil =>
    intro m0 done h b hb
    rcases hb with hb | hb
    · exact h b hb
    · cases hb
  | cons l rest ih =>
    intro m0 done h b hb
    rw [List.foldl_cons]
    apply ih _ (done ++ [l])
    · intro d hd
      by_cases hany : m0.any (fun e => decide (e.1 = l.predicate.id)) = true
      · rw [if_pos hany]
        have hfind : ∀ k : Int,
            (m0.map (fun e => if e.1 = l.predicate.id then (e.1, e.2 ++ [l]) else e)).find?
              (fun e => decide (e.1 = k)) =
            (m0.find? (fun e => decide (e.1 = k))).map
              (fun e => if e.1 = l.predicate.id then (e.1, e.2 ++ [l]) else e) := by
          intro k
          have hp : ((fun (e : Int × List FoilLiteral) => decide (e.1 = k)) ∘
              fun e => if e.1 = l.predicate.id then (e.1, e.2 ++ [l]) else e) =
              (fun e => decide (e.1 = k)) := by
            funext e
            simp only [Function.comp]
            split <;> rfl
          rw [List.find?_map, hp]
        rw [hfind]
        rcases List.mem_append.mp hd with hd | hd
        · obtain ⟨e, he, hbe⟩ := h d hd
          rw [he]
          refine ⟨_, rfl, ?_⟩
          dsimp only
          split
          · exact List.mem_append_left _ hbe
          · exact hbe
        · rw [List.mem_singleton.mp hd]
          obtain ⟨e, he, hek⟩ := List.any_eq_true.mp hany
          have hek2 : e.1 = l.predicate.id := by simpa using hek
          cases hf : m0.find? (fun e => decide (e.1 = l.predicate.id)) with
          | none =>
            rw [List.find?_eq_none] at hf
            exact absurd hek (hf e he)
          | some e2 =>
            have he2 : e2.1 = l.predicate.id := by
              simpa using List.find?_some hf
            refine ⟨_, rfl, ?_⟩
            dsimp only
            rw [if_pos he2]
            simp
      · rw [if_neg hany]
        rw [List.find?_append]
        rcases List.mem_append.mp hd with hd | hd
        · obtain ⟨e, he, hbe⟩ := h d hd
          rw [he]
          exact ⟨e, rfl, hbe⟩
        · rw [List.mem_singleton.mp hd]
          have hf : m0.find? (fun e => decide (e.1 = l.predicate.id)) = none := by
            rw [List.find?_eq_none]
            intro e he hek
            exact hany (List.any_eq_true.mpr ⟨e, he, hek⟩)
          rw [hf]
          refine ⟨(l.predicate.id, [l]), ?_, by simp⟩
          simp
    · rcases hb with hb | hb
      · exact Or.inl (List.mem_append_left _ hb)
      · rcases List.mem_cons.mp hb with hb | hb
        · exact Or.inl (List.mem_append_right _ (by simp [hb]))
        · exact Or.inr hb

theorem p2b_complete (body : List FoilLiteral) (b : FoilLiteral) (hb : b ∈ body) :
    ∃ e, (predicate_to_body_literals_map body).find?
      (fun e => decide (e.1 = b.predicate.id)) = some e ∧ b ∈ e.2 :=
  p2b_fold_complete body [] [] (by simp) b (Or.inr hb)

theorem keyVariables_complete (P : FoilPredicate) (hkey : 0 ≤ P.key) (has_key : Bool)
    (ls : List FoilLiteral) (keys : List FoilVariable)
    (h : keyVariables has_key P (some ls) = some keys) (hk : has_key = true) :
    ∀ b ∈ ls, ∀ w, b.vars.get? P.key.toNat = some w → w ∈ keys := by
  intro b hb w hw
  unfold keyVariables at h
  rw [if_pos hk] at h
  simp only at h
  obtain ⟨i, hi⟩ := List.get?_of_mem hb
  obtain ⟨y, hy, hfy⟩ := option_mapM_get _ _ _ h i b hi
  rw [if_neg (by omega), hw] at hfy
  cases hfy
  exact List.get?_mem hy

theorem variableVector_no_key (type_map : Int → List FoilVariable) (P : FoilPredicate)
    (keys : List FoilVariable) :
    ∀ cv ∈ GenerateVariableVectorForPredicate (!keys.isEmpty) type_map P keys,
      cv ≠ [] ∧ ∀ v ∈ cv, v.IsBound = true → keys.any (fun k => k.Equals v) = false := by
  intro cv hcv
  unfold GenerateVariableVectorForPredicate at hcv
  obtain ⟨t, _, rfl⟩ := List.mem_map.mp hcv
  refine ⟨by simp, ?_⟩
  intro v hv hb
  rcases List.mem_append.mp hv with hv | hv
  · cases keys with
    | nil => rfl
    | cons k ks =>
      simp only [List.isEmpty_cons, Bool.not_false, if_true] at hv
      have := (List.mem_filter.mp hv).2
      simpa using this
  · rw [List.mem_singleton.mp hv] at hb
    simp [FoilVariable.unbound, FoilVariable.IsBound] at hb

theorem forall₂_get? {α β : Type} (R : α → β → Prop) :
    ∀ (l1 : List α) (l2 : List β), List.Forall₂ R l1 l2 →
      ∀ i b, l2.get? i = some b → ∃ a, l1.get? i = some a ∧ R a b := by
  intro l1 l2 h
  induction h with
  | nil => intro i b hb; simp at hb
  | cons hr _ ih =>
    intro i b hb
    cases i with
    | zero =>
      simp only [List.get?_cons_zero, Option.some.injEq] at hb
      subst hb
      exact ⟨_, rfl, hr⟩
    | succ i => exact ih i b hb

theorem zipWith_get? {α β γ : Type} (f : α → β → γ) :
    ∀ (l1 : List α) (l2 : List β) (i : Nat) (c : γ),
      (List.zipWith f l1 l2).get? i = some c →
      ∃ a b, l1.get? i = some a ∧ l2.get? i = some b ∧ c = f a b := by
  intro l1
  induction l1 with
  | nil => intro l2 i c h; simp at h
  | cons a as ih =>
    intro l2 i c h
    cases l2 with
    | nil => simp at h
    | cons b bs =>
      cases i with
      | zero =>
        simp only [List.zipWith_cons_cons, List.get?_cons_zero, Option.some.injEq] at h
        exact ⟨a, b, rfl, rfl, h.symm⟩
      | succ i => exact ih bs i c h

theorem generated_from_candidates (P : FoilPredicate) (vpa : List (List FoilVariable))
    (hne : ∀ cv ∈ vpa, cv ≠ []) (generated : List FoilLiteral)
    (h : GenerateCandidateLiterals 0 vpa [FoilLiteral.empty P] = some generated) :
    ∀ L ∈ generated, List.Forall₂ (fun cv v => v ∈ cv) vpa L.vars := by
  intro L hL
  obtain ⟨r, hr, hm, _, _⟩ := generate_fold vpa hne [FoilLiteral.empty P]
  unfold GenerateCandidateLiterals at h
  rw [List.drop_zero] at h
  cases vpa with
  | nil => simp at h
  | cons cv rest =>
    simp only at h
    rw [hr] at h
    cases h
    obtain ⟨l, hl, vs, hvs, rfl⟩ := (hm L).mp hL
    rw [List.mem_singleton.mp hl]
    simpa [FoilLiteral.empty] using hvs

theorem extended_from_candidates (P : FoilPredicate) (vpa : List (List FoilVariable))
    (hne : ∀ cv ∈ vpa, cv ≠ []) (old : FoilLiteral) (hlen : old.vars.length = vpa.length)
    (extended : List FoilLiteral)
    (h : GenerateCandidateLiteralsFromAnother old 0 vpa [FoilLiteral.empty P] = some extended) :
    ∀ L ∈ extended, ∀ i v, L.vars.get? i = some v →
      ∃ bv cv, old.vars.get? i = some bv ∧ vpa.get? i = some cv ∧
        v ∈ (if bv.IsBound then [bv] else cv) := by
  intro L hL i v hv
  unfold GenerateCandidateLiteralsFromAnother at h
  split at h
  · rw [fromAnother_fold old vpa hlen _ 0 (by omega)] at h
    simp only [List.drop_zero] at h
    have hne2 : ∀ cv ∈ List.zipWith (fun (bv : FoilVariable) (cv : List FoilVariable) =>
        if bv.IsBound then [bv] else cv) old.vars vpa, cv ≠ [] := by
      intro cv hcv
      obtain ⟨j, hj⟩ := List.get?_of_mem hcv
      obtain ⟨a, b, _, hb, rfl⟩ := zipWith_get? _ _ _ j cv hj
      split
      · simp
      · exact hne b (List.get?_mem hb)
    obtain ⟨r, hr, hm, _, _⟩ := generate_fold _ hne2 [FoilLiteral.empty P]
    rw [hr] at h
    cases h
    obtain ⟨l, hl, vs, hvs, rfl⟩ := (hm L).mp hL
    rw [List.mem_singleton.mp hl] at hv
    simp only [FoilLiteral.empty, List.nil_append] at hv
    obtain ⟨c, hc, hvc⟩ := forall₂_get? _ _ _ hvs i v hv
    obtain ⟨a, b, ha, hb, rfl⟩ := zipWith_get? _ _ _ i c hc
    exact ⟨a, b, ha, hb, hvc⟩
  · cases h

theorem pruneDuplicates_subset (c : FoilClause) (p2b : List (Int × List FoilLiteral)) :
    ∀ (vec kept : List FoilLiteral), pruneDuplicates c p2b vec = some kept →
      ∀ L ∈ kept, L ∈ vec := by
  intro vec
  induction vec with
  | nil =>
    intro kept h L hL
    simp only [pruneDuplicates, Option.some.injEq] at h
    rw [← h] at hL
    cases hL
  | cons l rest ih =>
    intro kept h L hL
    rw [pruneDuplicates] at h
    split at h
    · cases h
    · split at h
      · cases h
      · rename_i d _ r hr
        cases h
        split at hL
        · exact List.mem_cons_of_mem _ (ih r hr L hL)
        · rcases List.mem_cons.mp hL with hL | hL
          · rw [hL]; exact List.mem_cons_self _ _
          · exact List.mem_cons_of_mem _ (ih r hr L hL)
theorem keptLiterals_subset (stats : LiteralSearchStats) (P : FoilPredicate)
    (olds : List FoilLiteral) : ∀ old ∈ keptLiterals stats P olds, old ∈ olds := by
  intro old h
  unfold keptLiterals at h
  obtain ⟨e, he, rfl⟩ := List.mem_map.mp h
  have := (List.mem_filter.mp he).1
  obtain ⟨i, x⟩ := e
  rw [List.mk_mem_enum_iff_getElem?] at this
  exact List.getElem?_mem this

theorem extendOldLiterals_mem (last : FoilLiteral) (P : FoilPredicate)
    (vpa : List (List FoilVariable)) :
    ∀ (kept additions : List FoilLiteral),
      extendOldLiterals last P vpa kept = some additions →
      ∀ L ∈ additions, L ∈ kept ∨ ∃ old ∈ kept, ∃ r,
        GenerateCandidateLiteralsFromAnother old 0 vpa [FoilLiteral.empty P] = some r ∧
          L ∈ r := by
  intro kept
  induction kept using List.reverseRecOn with
  | nil =>
    intro additions h L hL
    simp only [extendOldLiterals, List.foldlM_nil] at h
    cases h
    cases hL
  | append_singleton ks k ih =>
    intro additions h L hL
    unfold extendOldLiterals at h
    rw [List.foldlM_append] at h
    cases hks : extendOldLiterals last P vpa ks with
    | none =>
      unfold extendOldLiterals at hks
      rw [hks] at h
      cases h
    | some a =>
      have ih := ih a hks
      unfold extendOldLiterals at hks
      rw [hks] at h
      simp only [Option.bind_eq_bind, Option.some_bind, List.foldlM_cons, List.foldlM_nil] at h
      cases hg : GenerateCandidateLiteralsFromAnother k 0 vpa [FoilLiteral.empty P] with
      | none =>
        rw [hg] at h
        cases h
      | some r =>
        rw [hg] at h
        simp only [Option.some_bind, Option.pure_def, Option.some.injEq] at h
        rw [← h] at hL
        rcases List.mem_append.mp hL with hL | hL
        · rcases List.mem_append.mp hL with hL | hL
          · rcases ih L hL with h1 | ⟨old, ho, r2, hr2, hL2⟩
            · exact Or.inl (List.mem_append_left _ h1)
            · exact Or.inr ⟨old, List.mem_append_left _ ho, r2, hr2, hL2⟩
          · exact Or.inr ⟨k, by simp, r, hg, List.mem_of_mem_dropLast hL⟩
        · split at hL
          · cases hL
          · rw [List.mem_singleton.mp hL]
            exact Or.inl (by simp)

theorem predMap_lookup_emplace_any {α : Type} (m : PredMap α) (p q : FoilPredicate)
    (v : List α) :
    (m.emplace p v).lookup q =
      if m.contains p = true then m.lookup q else if q = p then v else m.lookup q := by
  by_cases h : m.contains p = true
  · rw [if_pos h]
    unfold PredMap.emplace
    rw [if_pos h]
  · rw [if_neg h]
    exact predMap_lookup_emplace m p q v (by simpa using h)

theorem generateAndPrune_parts (has_key : Bool) (c : FoilClause) (stats : LiteralSearchStats)
    (q : FoilPredicate) (type_map : Int → List FoilVariable)
    (p2b : List (Int × List FoilLiteral))
    (acc acc2 : PredMap FoilLiteral × PredMap FoilLiteral)
    (h : GenerateAndPruneCandidateLiteralForPredicate has_key c stats q type_map p2b acc =
      some acc2) :
    ∃ keys generated old_map last additions,
      keyVariables has_key q
        ((p2b.find? (fun e => decide (e.1 = q.id))).map Prod.snd) = some keys ∧
      GenerateCandidateLiterals 0
        (GenerateVariableVectorForPredicate (has_key && !keys.isEmpty) type_map q keys)
        [FoilLiteral.empty q] = some generated ∧
      stats.generated_candidate_literals = some old_map ∧
      extendOldLiterals last q
        (GenerateVariableVectorForPredicate (has_key && !keys.isEmpty) type_map q keys)
        (keptLiterals stats q (old_map.lookup q)) = some additions ∧
      acc2.1 = (acc.1.emplace q generated.dropLast).append q additions ∧
      ∃ kept, (∀ L ∈ kept, L ∈ acc2.1.lookup q) ∧ acc2.2 = acc.2.append q kept := by
  unfold GenerateAndPruneCandidateLiteralForPredicate at h
  simp only at h
  split at h
  · cases h
  · rename_i keys hkeys
    split at h
    · cases h
    · rename_i generated hgen
      split at h
      · rename_i old_map last hold hlast
        split at h
        · cases h
        · rename_i additions hadd
          split at h
          · cases h
            exact ⟨keys, generated, old_map, last, additions, hkeys, hgen, hold, hadd, rfl,
              _, fun L hL => hL, rfl⟩
          · split at h
            · cases h
            · rename_i kept hkept
              cases h
              exact ⟨keys, generated, old_map, last, additions, hkeys, hgen, hold, hadd, rfl,
                kept, pruneDuplicates_subset _ _ _ _ hkept, rfl⟩
      · cases h

theorem newly_bound_not_key (c : FoilClause) (P : FoilPredicate) (hkey : 0 ≤ P.key)
    (type_map : Int → List FoilVariable) (keys : List FoilVariable)
    (hkeys : keyVariables (decide (P.key ≥ 0)) P
      (((predicate_to_body_literals_map c.body_literals).find?
        (fun e => decide (e.1 = P.id))).map Prod.snd) = some keys)
    (cv : List FoilVariable)
    (hcv : cv ∈ GenerateVariableVectorForPredicate (decide (P.key ≥ 0) && !keys.isEmpty)
      type_map P keys)
    (v : FoilVariable) (hv : v ∈ cv) (hb : v.IsBound = true)
    (hk : IsKeyVariableOf c P v) : False := by
  have hd : decide (P.key ≥ 0) = true := decide_eq_true hkey
  rw [hd, Bool.true_and] at hcv
  rw [hd] at hkeys
  have hno := (variableVector_no_key type_map P keys cv hcv).2 v hv hb
  obtain ⟨b, hbm, hid, w, hw, hwe⟩ := hk
  obtain ⟨e, he, hbe⟩ := p2b_complete c.body_literals b hbm
  rw [hid] at he
  rw [he] at hkeys
  have hwk := keyVariables_complete P hkey true e.2 keys hkeys rfl b hbe w hw
  have := List.any_eq_false.mp hno w hwk
  rw [hwe] at this
  exact this rfl

theorem generateAndPrune_keys (c : FoilClause) (stats : LiteralSearchStats)
    (olds_map : PredMap FoilLiteral) (P q : FoilPredicate) (hkey : 0 ≤ P.key)
    (hstats : stats.generated_candidate_literals = some olds_map)
    (harity : ∀ old ∈ olds_map.lookup P, old.vars.length = P.num_arguments)
    (type_map : Int → List FoilVariable)
    (acc acc2 : PredMap FoilLiteral × PredMap FoilLiteral)
    (h : GenerateAndPruneCandidateLiteralForPredicate (decide (q.key ≥ 0)) c stats q type_map
      (predicate_to_body_literals_map c.body_literals) acc = some acc2)
    (hinv : (∀ L ∈ acc.1.lookup P, KeyVariablesFrom c P (olds_map.lookup P) L) ∧
      ∀ L ∈ acc.2.lookup P, KeyVariablesFrom c P (olds_map.lookup P) L) :
    (∀ L ∈ acc2.1.lookup P, KeyVariablesFrom c P (olds_map.lookup P) L) ∧
      ∀ L ∈ acc2.2.lookup P, KeyVariablesFrom c P (olds_map.lookup P) L := by
  obtain ⟨keys, generated, old_map, last, additions, hkeys, hgen, hold, hadd, h1, kept,
    hkept, h2⟩ := generateAndPrune_parts _ c stats q type_map _ acc acc2 h
  rw [hstats] at hold
  cases hold
  by_cases hq : q = P
  · subst hq
    have hne : ∀ cv ∈ GenerateVariableVectorForPredicate
        (decide (q.key ≥ 0) && !keys.isEmpty) type_map q keys, cv ≠ [] := by
      intro cv hcv
      have hd : decide (q.key ≥ 0) = true := decide_eq_true hkey
      rw [hd, Bool.true_and] at hcv
      exact (variableVector_no_key type_map q keys cv hcv).1
    have hvlen : (GenerateVariableVectorForPredicate
        (decide (q.key ≥ 0) && !keys.isEmpty) type_map q keys).length = q.num_arguments := by
      simp [GenerateVariableVectorForPredicate, FoilPredicate.num_arguments]
    have hentire : ∀ L ∈ acc2.1.lookup q, KeyVariablesFrom c q (olds_map.lookup q) L := by
      intro L hL
      rw [h1, predMap_lookup_append, if_pos rfl, predMap_lookup_emplace_any] at hL
      rcases List.mem_append.mp hL with hL | hL
      · by_cases hc : acc.1.contains q = true
        · rw [if_pos hc] at hL
          exact hinv.1 L hL
        · rw [if_neg hc, if_pos rfl] at hL
          intro i v hv hb hk
          exfalso
          have hf := generated_from_candidates q _ hne generated hgen L
            (List.mem_of_mem_dropLast hL)
          obtain ⟨cv, hcv, hvc⟩ := forall₂_get? _ _ _ hf i v hv
          exact newly_bound_not_key c q hkey type_map keys hkeys cv (List.get?_mem hcv) v hvc
            hb hk
      · rcases extendOldLiterals_mem last q _ _ additions hadd L hL with hk | ⟨old, ho, r, hr, hLr⟩
        · intro i v hv _ _
          exact ⟨L, keptLiterals_subset _ _ _ L hk, hv⟩
        · have hold := keptLiterals_subset _ _ _ old ho
          intro i v hv hb hk
          obtain ⟨bv, cv, hbv, hcv, hvm⟩ := extended_from_candidates q _ hne old
            (by rw [harity old hold, hvlen]) r hr L hLr i v hv
          split at hvm
          · rw [List.mem_singleton.mp hvm]
            exact ⟨old, hold, hbv⟩
          · exfalso
            exact newly_bound_not_key c q hkey type_map keys hkeys cv (List.get?_mem hcv) v hvm
              hb hk
    refine ⟨hentire, ?_⟩
    intro L hL
    rw [h2, predMap_lookup_append, if_pos rfl] at hL
    rcases List.mem_append.mp hL with hL | hL
    · exact hinv.2 L hL
    · exact hentire L (hkept L hL)
  · have hPq : ¬ P = q := fun h => hq h.symm
    constructor
    · intro L hL
      rw [h1, predMap_lookup_append, if_neg hPq, predMap_lookup_emplace_any] at hL
      by_cases hc : acc.1.contains q = true
      · rw [if_pos hc] at hL
        exact hinv.1 L hL
      · rw [if_neg hc, if_neg hPq] at hL
        exact hinv.1 L hL
    · intro L hL
      rw [h2, predMap_lookup_append, if_neg hPq] at hL
      exact hinv.2 L hL

theorem option_foldlM_invariant {α β : Type} (f : β → α → Option β) (Inv : β → Prop)
    (hstep : ∀ b a b2, f b a = some b2 → Inv b → Inv b2) :
    ∀ (l : List α) (init result : β), l.foldlM f init = some result → Inv init →
      Inv result := by
  intro l
  induction l with
  | nil =>
    intro init result h hi
    simp only [List.foldlM_nil, Option.pure_def, Option.some.injEq] at h
    rw [← h]
    exact hi
  | cons a rest ih =>
    intro init result h hi
    rw [List.foldlM_cons] at h
    cases hf : f init a with
    | none => rw [hf] at h; cases h
    | some b2 =>
      rw [hf] at h
      exact ih b2 result h (hstep init a b2 hf hi)

/-- C24 (amended): for a predicate `P` with a key and a clause with a body, when
`EnumerateCandidateLiterals` returns, every bound argument of a candidate literal on `P`
(in the entire and in the pruned list) that is a variable at the key position of a body
literal on `P` stands at a position where a literal generated for `P` in the previous
search already had it: no argument is newly bound to such a variable, at the key position
or elsewhere, but literals carried over from the previous search keep theirs.  The
literals of the previous search have one variable per argument of `P`. -/
theorem enumerate_key_pruning (background_predicates : List FoilPredicate)
    (building_clause : FoilClause) (last_run_stats : LiteralSearchStats)
    (generated : PredMap FoilLiteral) (P : FoilPredicate)
    (entire pruned : PredMap FoilLiteral)
    (hkey : 0 ≤ P.key) (hbody : building_clause.body_literals ≠ [])
    (hstats : last_run_stats.generated_candidate_literals = some generated)
    (harity : ∀ old ∈ generated.lookup P, old.vars.length = P.num_arguments)
    (hrun : EnumerateCandidateLiterals background_predicates building_clause last_run_stats =
      some (entire, pruned)) :
    ∀ L, (L ∈ entire.lookup P ∨ L ∈ pruned.lookup P) →
      ∀ i v, L.vars.get? i = some v → v.IsBound = true →
        (∃ b ∈ building_clause.body_literals, b.predicate.id = P.id ∧
          ∃ w, b.vars.get? P.key.toNat = some w ∧ w.Equals v = true) →
        ∃ old ∈ generated.lookup P, old.vars.get? i = some v := by
  unfold EnumerateCandidateLiterals at hrun
  have hne : building_clause.body_literals.isEmpty = false := by
    cases hb : building_clause.body_literals with
    | nil => exact absurd hb hbody
    | cons _ _ => rfl
  rw [hne] at hrun
  simp only [Bool.false_eq_true, if_false] at hrun
  unfold EnumerateForNonMostGeneralClause at hrun
  split at hrun
  · cases hrun
  · simp only at hrun
    have hinv := option_foldlM_invariant _
      (fun (acc : PredMap FoilLiteral × PredMap FoilLiteral) =>
        (∀ L ∈ acc.1.lookup P, KeyVariablesFrom building_clause P (generated.lookup P) L) ∧
        ∀ L ∈ acc.2.lookup P, KeyVariablesFrom building_clause P (generated.lookup P) L)
      (fun acc q acc2 h hi =>
        generateAndPrune_keys building_clause last_run_stats generated P q hkey hstats harity
          _ acc acc2 h hi)
      background_predicates ([], []) (entire, pruned) hrun
      ⟨(by intro L hL; cases hL), (by intro L hL; cases hL)⟩
    intro L hL i v hv hb hk
    rcases hL with hL | hL
    · exact hinv.1 L hL i v hv hb hk
    · exact hinv.2 L hL i v hv hb hk

theorem enumerate_key_pruning_witness :
    ∃ entire pruned,
      EnumerateCandidateLiterals [keyedPredicate] keyedClause ⟨some keyedGenerated, []⟩ =
        some (entire, pruned) ∧
      ∀ L, (L ∈ entire.lookup keyedPredicate ∨ L ∈ pruned.lookup keyedPredicate) →
        ∀ i v, L.vars.get? i = some v → v.IsBound = true →
          (∃ b ∈ keyedClause.body_literals, b.predicate.id = keyedPredicate.id ∧
            ∃ w, b.vars.get? keyedPredicate.key.toNat = some w ∧ w.Equals v = true) →
          ∃ old ∈ keyedGenerated.lookup keyedPredicate, old.vars.get? i = some v := by
  cases h : EnumerateCandidateLiterals [keyedPredicate] keyedClause
      ⟨some keyedGenerated, []⟩ with
  | none => exact absurd h (by decide)
  | some r =>
    obtain ⟨entire, pruned⟩ := r
    exact ⟨entire, pruned, rfl, enumerate_key_pruning [keyedPredicate] keyedClause
      ⟨some keyedGenerated, []⟩ keyedGenerated keyedPredicate entire pruned (by decide)
      (by decide) rfl (by decide) h⟩
/-- C24 (as stated, refuted): with the keyed predicate `p_0` (key position `0`), the
search on the most general clause of `p_1(0, 1)` generates `p_0(0, 1)` among others; after
the candidate `p_0(0, -1)` is added, giving `p_1(0, 1) :- p_0(0, 2)`, the next search with
these stats still returns `p_0(0, 1)`, in both the entire and the pruned list, although
its variable `0` at the key position is the variable at the key position of the body
literal `p_0(0, 2)`. -/
theorem enumerate_key_counterexample :
    EnumerateCandidateLiterals [keyedPredicate]
      (FoilClause.ofHead ⟨⟨1, -1, [0, 0]⟩, [⟨0, 0⟩, ⟨1, 0⟩]⟩) LiteralSearchStats.none =
      some (keyedGenerated, keyedGenerated) ∧
    keyedClause.body_literals = [FoilClause.CreateLiteral keyedPredicate [0, 2]] ∧
    keyedPredicate.key = 0 ∧
    ∃ entire pruned,
      EnumerateCandidateLiterals [keyedPredicate] keyedClause ⟨some keyedGenerated, []⟩ =
        some (entire, pruned) ∧
      FoilClause.CreateLiteral keyedPredicate [0, 1] ∈ entire.lookup keyedPredicate ∧
      FoilClause.CreateLiteral keyedPredicate [0, 1] ∈ pruned.lookup keyedPredicate := by
  refine ⟨by decide, by decide, rfl, ?_⟩
  refine ⟨[(keyedPredicate,
      [FoilClause.CreateLiteral keyedPredicate [2, 2],
       FoilClause.CreateLiteral keyedPredicate [-1, 2],
       FoilClause.CreateLiteral keyedPredicate [2, -1],
       FoilClause.CreateLiteral keyedPredicate [0, 0],
       FoilClause.CreateLiteral keyedPredicate [1, 0],
       FoilClause.CreateLiteral keyedPredicate [2, 0],
       FoilClause.CreateLiteral keyedPredicate [-1, 0],
       FoilClause.CreateLiteral keyedPredicate [0, 1],
       FoilClause.CreateLiteral keyedPredicate [0, 2],
       FoilClause.CreateLiteral keyedPredicate [0, -1],
       FoilClause.CreateLiteral keyedPredicate [1, 1],
       FoilClause.CreateLiteral keyedPredicate [1, 2],
       FoilClause.CreateLiteral keyedPredicate [1, -1],
       FoilClause.CreateLiteral keyedPredicate [2, 1],
       FoilClause.CreateLiteral keyedPredicate [-1, 1]])],
    [(keyedPredicate,
      [FoilClause.CreateLiteral keyedPredicate [2, 2],
       FoilClause.CreateLiteral keyedPredicate [-1, 2],
       FoilClause.CreateLiteral keyedPredicate [2, -1],
       FoilClause.CreateLiteral keyedPredicate [0, 0],
       FoilClause.CreateLiteral keyedPredicate [1, 0],
       FoilClause.CreateLiteral keyedPredicate [2, 0],
       FoilClause.CreateLiteral keyedPredicate [-1, 0],
       FoilClause.CreateLiteral keyedPredicate [0, 1],
       FoilClause.CreateLiteral keyedPredicate [1, 1],
       FoilClause.CreateLiteral keyedPredicate [1, 2],
       FoilClause.CreateLiteral keyedPredicate [1, -1],
       FoilClause.CreateLiteral keyedPredicate [2, 1],
       FoilClause.CreateLiteral keyedPredicate [-1, 1]])], ?_, by decide, by decide⟩
  decide

/-! ## The heap of the literal selector -/

theorem heapMinScore_spec (fm : DoubleModel) [LinearOrder fm.F]
    (hlt : ∀ a b, fm.lt a b = decide (a < b)) :
    ∀ (rest : List fm.F) (first : fm.F),
      heapMinScore fm first rest ∈ first :: rest ∧
        ∀ s ∈ first :: rest, heapMinScore fm first rest ≤ s := by
  intro rest
  induction rest with
  | nil =>
    intro first
    simp [heapMinScore]
  | cons x xs ih =>
    intro first
    unfold heapMinScore
    rw [List.foldl_cons]
    by_cases hx : x < first
    · have h1 : (if fm.lt x first = true then x else first) = x := by
        rw [hlt, decide_eq_true hx]; rfl
      rw [h1]
      obtain ⟨hm, hle⟩ := ih x
      unfold heapMinScore at hm hle
      refine ⟨List.mem_cons_of_mem _ hm, ?_⟩
      intro s hs
      rcases List.mem_cons.mp hs with rfl | hs
      · exact le_trans (hle x (List.mem_cons_self _ _)) (le_of_lt hx)
      · exact hle s hs
    · have h1 : (if fm.lt x first = true then x else first) = first := by
        rw [hlt, decide_eq_false hx]; rfl
      rw [h1]
      obtain ⟨hm, hle⟩ := ih first
      unfold heapMinScore at hm hle
      refine ⟨?_, ?_⟩
      · rcases List.mem_cons.mp hm with h | h
        · rw [h]; exact List.mem_cons_self _ _
        · exact List.mem_cons_of_mem _ (List.mem_cons_of_mem _ h)
      · intro s hs
        rcases List.mem_cons.mp hs with rfl | hs
        · exact hle _ (List.mem_cons_self _ _)
        · rcases List.mem_cons.mp hs with rfl | hs
          · exact le_trans (hle first (List.mem_cons_self _ _)) (not_lt.mp hx)
          · exact hle s (List.mem_cons_of_mem _ hs)

/-- The three cases of `pushHeap` when the flag is positive. -/
theorem pushHeap_cases (fm : DoubleModel) [LinearOrder fm.F]
    (hlt : ∀ a b, fm.lt a b = decide (a < b)) (heq : ∀ a b, fm.eq a b = decide (a = b))
    (K : Int) (hK : 0 < K) (H : List (CandidateLiteralInfo × fm.F))
    (a : CandidateLiteralInfo × fm.F) :
    ((H.length : Int) < K ∧ pushHeap fm K H a = H ++ [a]) ∨
    (K ≤ (H.length : Int) ∧ ∃ m, m ∈ H.map Prod.snd ∧ (∀ e ∈ H, m ≤ e.2) ∧
      ((a.2 < m ∧ pushHeap fm K H a = H) ∨
        (m ≤ a.2 ∧ pushHeap fm K H a = H.filter (fun e => decide (e.2 ≠ m)) ++ [a]))) := by
  by_cases hlen : (H.length : Int) < K
  · left
    exact ⟨hlen, by unfold pushHeap; rw [if_pos hlen]⟩
  · right
    refine ⟨not_lt.mp hlen, ?_⟩
    cases H with
    | nil =>
      simp only [List.length_nil, Nat.cast_zero] at hlen
      omega
    | cons first rest =>
      obtain ⟨hm, hle⟩ := heapMinScore_spec fm hlt (rest.map Prod.snd) first.2
      refine ⟨heapMinScore fm first.2 (rest.map Prod.snd), by simpa using hm, ?_, ?_⟩
      · intro e he
        apply hle
        rcases List.mem_cons.mp he with rfl | he
        · exact List.mem_cons_self _ _
        · exact List.mem_cons_of_mem _ (List.mem_map_of_mem _ he)
      · by_cases hs : a.2 < heapMinScore fm first.2 (rest.map Prod.snd)
        · left
          refine ⟨hs, ?_⟩
          unfold pushHeap
          rw [if_neg hlen]
          simp only
          rw [hlt, decide_eq_true hs, if_pos rfl]
        · right
          refine ⟨not_lt.mp hs, ?_⟩
          unfold pushHeap
          rw [if_neg hlen]
          simp only
          rw [hlt, decide_eq_false hs, if_neg (by simp)]
          congr 1
          apply List.filter_congr
          intro e _
          rw [heq]
          by_cases he : e.2 = heapMinScore fm first.2 (rest.map Prod.snd)
          · simp [he]
          · simp [he]

theorem filter_ne_length (fm : DoubleModel) (m : fm.F) [DecidableEq fm.F] :
    ∀ (H : List (CandidateLiteralInfo × fm.F)), (H.map Prod.snd).Nodup →
      m ∈ H.map Prod.snd →
      (H.filter (fun e => decide (e.2 ≠ m))).length + 1 = H.length := by
  intro H
  induction H with
  | nil => intro _ h; cases h
  | cons e rest ih =>
    intro hn hm
    rw [List.map_cons, List.nodup_cons] at hn
    by_cases he : e.2 = m
    · have hnot : m ∉ rest.map Prod.snd := by rw [← he]; exact hn.1
      have hall : rest.filter (fun e => decide (e.2 ≠ m)) = rest := by
        rw [List.filter_eq_self]
        intro x hx
        have : x.2 ≠ m := fun h => hnot (h ▸ List.mem_map_of_mem _ hx)
        exact decide_eq_true this
      have hd : decide (e.2 ≠ m) = false := decide_eq_false (fun h => h he)
      rw [List.filter_cons, hd, if_neg (by simp), hall, List.length_cons]
    · have hm2 : m ∈ rest.map Prod.snd := by
        rcases List.mem_cons.mp hm with h | h
        · exact absurd h.symm he
        · exact h
      have := ih hn.2 hm2
      have hd : decide (e.2 ≠ m) = true := decide_eq_true he
      rw [List.filter_cons, hd, if_pos rfl, List.length_cons, List.length_cons, this]

theorem pushHeap_fold_general (fm : DoubleModel) [LinearOrder fm.F]
    (hlt : ∀ a b, fm.lt a b = decide (a < b)) (heq : ∀ a b, fm.eq a b = decide (a = b))
    (K : Int) (hK : 0 < K) :
    ∀ (E : List (CandidateLiteralInfo × fm.F)),
      ((E.foldl (pushHeap fm K) []).length : Int) ≤ K ∧
      (∀ e ∈ E.foldl (pushHeap fm K) [], e ∈ E) ∧
      (E ≠ [] → ∃ e ∈ E.foldl (pushHeap fm K) [], ∀ x ∈ E, x.2 ≤ e.2) := by
  intro E
  induction E using List.reverseRecOn with
  | nil => exact ⟨by simpa using le_of_lt hK, by simp, by simp⟩
  | append_singleton E a ih =>
    obtain ⟨i1, i2, i3⟩ := ih
    rw [List.foldl_append, List.foldl_cons, List.foldl_nil]
    generalize E.foldl (pushHeap fm K) [] = H at i1 i2 i3
    have hmax : ∀ e0 ∈ H, (∀ x ∈ E, x.2 ≤ e0.2) → ∀ H2 : List (CandidateLiteralInfo × fm.F),
        (a ∈ H2 ∨ a.2 < e0.2) → (e0 ∈ H2 ∨ e0.2 ≤ a.2 ∧ a ∈ H2) →
        ∃ e ∈ H2, ∀ x ∈ E ++ [a], x.2 ≤ e.2 := by
      intro e0 _ hmax0 H2 ha he0
      by_cases hcmp : e0.2 ≤ a.2
      · have haH : a ∈ H2 := by
          rcases ha with h | h
          · exact h
          · exact absurd hcmp (not_le.mpr h)
        refine ⟨a, haH, ?_⟩
        intro x hx
        rcases List.mem_append.mp hx with hx | hx
        · exact le_trans (hmax0 x hx) hcmp
        · rw [List.mem_singleton.mp hx]
      · have heH : e0 ∈ H2 := by
          rcases he0 with h | h
          · exact h
          · exact absurd h.1 hcmp
        refine ⟨e0, heH, ?_⟩
        intro x hx
        rcases List.mem_append.mp hx with hx | hx
        · exact hmax0 x hx
        · rw [List.mem_singleton.mp hx]
          exact le_of_lt (not_le.mp hcmp)
    rcases pushHeap_cases fm hlt heq K hK H a with ⟨hlen, hp⟩ | ⟨hlen, m, hm, hmin, hcase⟩
    · rw [hp]
      refine ⟨?_, ?_, ?_⟩
      · simp only [List.length_append, List.length_singleton]
        push_cast
        omega
      · intro e he
        rcases List.mem_append.mp he with he | he
        · exact List.mem_append_left _ (i2 e he)
        · exact List.mem_append_right _ he
      · intro _
        by_cases hE : E = []
        · refine ⟨a, by simp, ?_⟩
          intro x hx
          rw [hE] at hx
          simp only [List.nil_append, List.mem_singleton] at hx
          rw [hx]
        · obtain ⟨e0, he0, hmax0⟩ := i3 hE
          exact hmax e0 he0 hmax0 _ (Or.inl (by simp)) (Or.inl (List.mem_append_left _ he0))
    · have hEne : E ≠ [] := by
        intro hE
        rw [hE] at i2
        obtain ⟨e, he, _⟩ := List.mem_map.mp hm
        exact absurd (i2 e he) (by simp)
      obtain ⟨e0, he0, hmax0⟩ := i3 hEne
      rcases hcase with ⟨hs, hp⟩ | ⟨hs, hp⟩
      · rw [hp]
        refine ⟨i1, fun e he => List.mem_append_left _ (i2 e he), fun _ => ?_⟩
        exact hmax e0 he0 hmax0 _ (Or.inr (lt_of_lt_of_le hs (hmin e0 he0))) (Or.inl he0)
      · rw [hp]
        obtain ⟨em, hem, hem2⟩ := List.mem_map.mp hm
        have hflt : (H.filter (fun e => decide (e.2 ≠ m))).length < H.length := by
          apply List.length_filter_lt_length_iff_exists.mpr
          exact ⟨em, hem, by simp [hem2]⟩
        refine ⟨?_, ?_, fun _ => ?_⟩
        · simp only [List.length_append, List.length_singleton]
          push_cast
          omega
        · intro e he
          rcases List.mem_append.mp he with he | he
          · exact List.mem_append_left _ (i2 e (List.mem_filter.mp he).1)
          · exact List.mem_append_right _ he
        · apply hmax e0 he0 hmax0 _ (Or.inl (by simp))
          by_cases h0 : e0.2 = m
          · right
            exact ⟨by rw [h0]; exact hs, by simp⟩
          · left
            exact List.mem_append_left _ (List.mem_filter.mpr ⟨he0, by simpa using h0⟩)
theorem pushHeap_fold_nodup (fm : DoubleModel) [LinearOrder fm.F]
    (hlt : ∀ a b, fm.lt a b = decide (a < b)) (heq : ∀ a b, fm.eq a b = decide (a = b))
    (K : Int) (hK : 0 < K) :
    ∀ (E : List (CandidateLiteralInfo × fm.F)), (E.map Prod.snd).Nodup →
      ((E.foldl (pushHeap fm K) []).map Prod.snd).Nodup ∧
      ∀ x ∈ E, x ∈ E.foldl (pushHeap fm K) [] ∨
        (K ≤ ((E.foldl (pushHeap fm K) []).length : Int) ∧
          ∀ e ∈ E.foldl (pushHeap fm K) [], x.2 < e.2) := by
  intro E
  induction E using List.reverseRecOn with
  | nil => intro _; simp
  | append_singleton E a ih =>
    intro hn
    rw [List.map_append, List.nodup_append] at hn
    obtain ⟨hnE, _, hdisj⟩ := hn
    have hanew : a.2 ∉ E.map Prod.snd := fun h => hdisj h (by simp)
    obtain ⟨i5, i4⟩ := ih hnE
    have i2 := (pushHeap_fold_general fm hlt heq K hK E).2.1
    rw [List.foldl_append, List.foldl_cons, List.foldl_nil]
    generalize E.foldl (pushHeap fm K) [] = H at i2 i4 i5
    have haH : a.2 ∉ H.map Prod.snd := by
      intro h
      obtain ⟨e, he, he2⟩ := List.mem_map.mp h
      exact hanew (he2 ▸ List.mem_map_of_mem _ (i2 e he))
    rcases pushHeap_cases fm hlt heq K hK H a with ⟨hlen, hp⟩ | ⟨hlen, m, hm, hmin, hcase⟩
    · rw [hp]
      refine ⟨?_, ?_⟩
      · rw [List.map_append, List.nodup_append]
        refine ⟨i5, by simp, ?_⟩
        intro s hs hs2
        simp only [List.map_cons, List.map_nil, List.mem_singleton] at hs2
        exact haH (hs2 ▸ hs)
      · intro x hx
        rcases List.mem_append.mp hx with hx | hx
        · rcases i4 x hx with h | ⟨h, _⟩
          · exact Or.inl (List.mem_append_left _ h)
          · omega
        · exact Or.inl (List.mem_append_right _ hx)
    · rcases hcase with ⟨hs, hp⟩ | ⟨hs, hp⟩
      · rw [hp]
        refine ⟨i5, ?_⟩
        intro x hx
        rcases List.mem_append.mp hx with hx | hx
        · exact i4 x hx
        · rw [List.mem_singleton.mp hx]
          exact Or.inr ⟨hlen, fun e he => lt_of_lt_of_le hs (hmin e he)⟩
      · rw [hp]
        have hsm : m < a.2 := by
          rcases lt_or_eq_of_le hs with h | h
          · exact h
          · exact absurd (h ▸ hm) haH
        have hflen := filter_ne_length fm m H i5 hm
        have hsub : ∀ e ∈ H.filter (fun e => decide (e.2 ≠ m)), e ∈ H ∧ m < e.2 := by
          intro e he
          obtain ⟨h1, h2⟩ := List.mem_filter.mp he
          have hne : e.2 ≠ m := by simpa using h2
          exact ⟨h1, lt_of_le_of_ne (hmin e h1) (fun h => hne h.symm)⟩
        have hlen2 : K ≤ ((H.filter (fun e => decide (e.2 ≠ m)) ++ [a]).length : Int) := by
          simp only [List.length_append, List.length_singleton]
          have : ((H.filter (fun e => decide (e.2 ≠ m))).length + 1 : Int) = (H.length : Int) := by
            exact_mod_cast hflen
          push_cast
          omega
        refine ⟨?_, ?_⟩
        · rw [List.map_append, List.nodup_append]
          refine ⟨(i5.sublist ((List.filter_sublist H).map Prod.snd)), by simp, ?_⟩
          intro s hs1 hs2
          simp only [List.map_cons, List.map_nil, List.mem_singleton] at hs2
          obtain ⟨e, he, he2⟩ := List.mem_map.mp hs1
          exact haH (hs2 ▸ he2 ▸ List.mem_map_of_mem _ (hsub e he).1)
        · intro x hx
          rcases List.mem_append.mp hx with hx | hx
          · rcases i4 x hx with h | ⟨_, hall⟩
            · by_cases hxm : x.2 = m
              · right
                refine ⟨hlen2, ?_⟩
                intro e he
                rcases List.mem_append.mp he with he | he
                · rw [hxm]; exact (hsub e he).2
                · rw [List.mem_singleton.mp he, hxm]; exact hsm
              · left
                exact List.mem_append_left _
                  (List.mem_filter.mpr ⟨h, by simpa using hxm⟩)
            · right
              refine ⟨hlen2, ?_⟩
              intro e he
              rcases List.mem_append.mp he with he | he
              · exact hall e (hsub e he).1
              · rw [List.mem_singleton.mp he]
                obtain ⟨em, hem, hem2⟩ := List.mem_map.mp hm
                exact lt_trans (hem2 ▸ hall em hem) hsm
          · exact Or.inl (List.mem_append_right _ hx)

theorem pushTopLiteral_heap (fm : DoubleModel) (sel : LiteralSelector fm)
    (info : CandidateLiteralInfo) (score : fm.F) :
    (pushTopLiteral fm sel info score).top_literal_heap =
        pushHeap fm sel.num_saved_literals sel.top_literal_heap (info, score) ∧
      (pushTopLiteral fm sel info score).num_positive_bindings = sel.num_positive_bindings ∧
      (pushTopLiteral fm sel info score).num_negative_bindings = sel.num_negative_bindings ∧
      (pushTopLiteral fm sel info score).clause_entropy_area = sel.clause_entropy_area ∧
      (pushTopLiteral fm sel info score).num_saved_literals = sel.num_saved_literals := by
  unfold pushTopLiteral pushHeap
  by_cases hlen : (sel.top_literal_heap.length : Int) < sel.num_saved_literals
  · rw [if_pos hlen, if_pos hlen]
    exact ⟨rfl, rfl, rfl, rfl, rfl⟩
  · rw [if_neg hlen, if_neg hlen]
    cases hh : sel.top_literal_heap with
    | nil => exact ⟨rfl, rfl, rfl, rfl, rfl⟩
    | cons first rest =>
      simp only
      by_cases hs : fm.lt score (heapMinScore fm first.2 (rest.map Prod.snd)) = true
      · rw [if_pos hs, if_pos hs]
        exact ⟨hh, rfl, rfl, rfl, rfl⟩
      · rw [if_neg hs, if_neg hs]
        exact ⟨rfl, rfl, rfl, rfl, rfl⟩

theorem updateBestRandom_fields (fm : DoubleModel) (sel : LiteralSelector fm)
    (info : CandidateLiteralInfo) (score : fm.F) :
    (updateBestRandom fm sel info score).top_literal_heap = sel.top_literal_heap ∧
      (updateBestRandom fm sel info score).num_positive_bindings = sel.num_positive_bindings ∧
      (updateBestRandom fm sel info score).num_negative_bindings = sel.num_negative_bindings ∧
      (updateBestRandom fm sel info score).clause_entropy_area = sel.clause_entropy_area ∧
      (updateBestRandom fm sel info score).num_saved_literals = sel.num_saved_literals := by
  unfold updateBestRandom
  simp only
  split <;> exact ⟨rfl, rfl, rfl, rfl, rfl⟩

theorem insert_fields (fm : DoubleModel) (flag : Bool) (sel : LiteralSelector fm)
    (info : CandidateLiteralInfo) :
    (LiteralSelector.Insert fm flag sel info).top_literal_heap =
        (if insertDiscards fm sel info = true then sel.top_literal_heap
          else pushHeap fm sel.num_saved_literals sel.top_literal_heap
            (info, insertScore fm sel info)) ∧
      (LiteralSelector.Insert fm flag sel info).num_positive_bindings =
        sel.num_positive_bindings ∧
      (LiteralSelector.Insert fm flag sel info).num_negative_bindings =
        sel.num_negative_bindings ∧
      (LiteralSelector.Insert fm flag sel info).clause_entropy_area =
        sel.clause_entropy_area ∧
      (LiteralSelector.Insert fm flag sel info).num_saved_literals =
        sel.num_saved_literals := by
  unfold LiteralSelector.Insert
  simp only
  by_cases hd : insertDiscards fm sel info = true
  · rw [if_pos hd, if_pos hd]
    exact ⟨rfl, rfl, rfl, rfl, rfl⟩
  · rw [if_neg hd, if_neg hd]
    by_cases hr : (flag && IsRandomCandidate fm sel info) = true
    · rw [if_pos hr]
      obtain ⟨p1, p2, p3, p4, p5⟩ := pushTopLiteral_heap fm
        (updateBestRandom fm sel info (insertScore fm sel info)) info (insertScore fm sel info)
      obtain ⟨u1, u2, u3, u4, u5⟩ := updateBestRandom_fields fm sel info
        (insertScore fm sel info)
      rw [u1, u5] at p1
      exact ⟨p1, p2.trans u2, p3.trans u3, p4.trans u4, p5.trans u5⟩
    · rw [if_neg hr]
      exact pushTopLiteral_heap fm sel info (insertScore fm sel info)

theorem insert_congr (fm : DoubleModel) (s t : LiteralSelector fm)
    (h1 : s.num_positive_bindings = t.num_positive_bindings)
    (h2 : s.num_negative_bindings = t.num_negative_bindings)
    (h3 : s.clause_entropy_area = t.clause_entropy_area) (info : CandidateLiteralInfo) :
    insertDiscards fm s info = insertDiscards fm t info ∧
      insertScore fm s info = insertScore fm t info := by
  unfold insertDiscards insertScore insertRawMcc ComputeEntropyScore
  rw [h1, h2, h3]
  exact ⟨rfl, rfl⟩

theorem insertAll_heap (fm : DoubleModel) (sel0 : LiteralSelector fm) :
    ∀ (calls : List (Bool × CandidateLiteralInfo)) (sel : LiteralSelector fm),
      sel.num_positive_bindings = sel0.num_positive_bindings →
      sel.num_negative_bindings = sel0.num_negative_bindings →
      sel.clause_entropy_area = sel0.clause_entropy_area →
      sel.num_saved_literals = sel0.num_saved_literals →
      (insertAll fm sel calls).top_literal_heap =
        (((calls.map Prod.snd).filter (fun info => !insertDiscards fm sel0 info)).map
          (fun info => (info, insertScore fm sel0 info))).foldl
            (pushHeap fm sel0.num_saved_literals) sel.top_literal_heap := by
  intro calls
  induction calls with
  | nil => intro sel _ _ _ _; rfl
  | cons call rest ih =>
    intro sel h1 h2 h3 h4
    obtain ⟨f1, f2, f3, f4, f5⟩ := insert_fields fm call.1 sel call.2
    obtain ⟨c1, c2⟩ := insert_congr fm sel sel0 h1 h2 h3 call.2
    unfold insertAll
    rw [List.foldl_cons]
    have := ih (LiteralSelector.Insert fm call.1 sel call.2) (f2.trans h1) (f3.trans h2)
      (f4.trans h3) (f5.trans h4)
    unfold insertAll at this
    rw [this, f1, c1, c2, h4, List.map_cons, List.filter_cons]
    by_cases hd : insertDiscards fm sel0 call.2 = true
    · simp [hd]
    · simp [hd]
/-- C21 (as stated, refuted): with `num_saved_literals = 2`, after the calls of `Insert`
for three different candidates that are not discarded and have the same score `1`, the
heap holds only the third one: the third call finds the heap full, its score is not below
the smallest score, and all the entries with the smallest score are removed.  So the heap
does not hold the two highest-scoring of the three candidates.  The square root and the
logarithms of the model are not reached. -/
theorem literalSelector_heap_counterexample :
    (twoSlotSelector (ratDouble id id id)).num_saved_literals = 2 ∧
    (twoSlotSelector (ratDouble id id id)).top_literal_heap = [] ∧
    [fullCoverInfo, fullCoverInfo2, fullCoverInfo3].Nodup ∧
    (∀ info ∈ [fullCoverInfo, fullCoverInfo2, fullCoverInfo3],
      insertDiscards (ratDouble id id id) (twoSlotSelector _) info = false ∧
      insertScore (ratDouble id id id) (twoSlotSelector _) info = (1 : ℚ)) ∧
    (insertAll (ratDouble id id id) (twoSlotSelector _)
      [(false, fullCoverInfo), (false, fullCoverInfo2),
        (false, fullCoverInfo3)]).top_literal_heap = [(fullCoverInfo3, (1 : ℚ))] := by
  have hraw : ∀ info ∈ [fullCoverInfo, fullCoverInfo2, fullCoverInfo3],
      insertRawMcc (ratDouble id id id) (twoSlotSelector _) info = (0 : ℚ) := by
    intro info hinfo
    simp only [List.mem_cons, List.mem_singleton, List.not_mem_nil, or_false] at hinfo
    rcases hinfo with rfl | rfl | rfl <;>
      simp [insertRawMcc, ComputeMccScore, twoSlotSelector, LiteralSelector.create,
        fullCoverInfo, fullCoverInfo2, fullCoverInfo3, ratDouble]
  have hall : ∀ info ∈ [fullCoverInfo, fullCoverInfo2, fullCoverInfo3],
      insertDiscards (ratDouble id id id) (twoSlotSelector _) info = false ∧
      insertScore (ratDouble id id id) (twoSlotSelector _) info = (1 : ℚ) := by
    intro info hinfo
    have hr := hraw info hinfo
    simp only [List.mem_cons, List.mem_singleton, List.not_mem_nil, or_false] at hinfo
    constructor
    · unfold insertDiscards
      rw [hr]
      rcases hinfo with rfl | rfl | rfl <;>
        simp [ComputeEntropyScore, ComputeAreaUnderEntropyCurve, twoSlotSelector,
          LiteralSelector.create, fullCoverInfo, fullCoverInfo2, fullCoverInfo3, ratDouble]
    · unfold insertScore
      rw [hr]
      rcases hinfo with rfl | rfl | rfl <;>
        simp [ComputeEntropyScore, ComputeAreaUnderEntropyCurve, twoSlotSelector,
          LiteralSelector.create, fullCoverInfo, fullCoverInfo2, fullCoverInfo3, ratDouble] <;>
        norm_num
  refine ⟨rfl, rfl, by decide, hall, ?_⟩
  rw [insertAll_heap (ratDouble id id id) (twoSlotSelector _) _ (twoSlotSelector _) rfl rfl rfl
    rfl]
  obtain ⟨d1, s1⟩ := hall fullCoverInfo (by simp)
  obtain ⟨d2, s2⟩ := hall fullCoverInfo2 (by simp)
  obtain ⟨d3, s3⟩ := hall fullCoverInfo3 (by simp)
  simp only [List.map_cons, List.map_nil, List.filter_cons, List.filter_nil, d1, d2, d3,
    Bool.not_false, if_true, s1, s2, s3, List.foldl_cons, List.foldl_nil]
  have hK : (twoSlotSelector (ratDouble id id id)).num_saved_literals = 2 := rfl
  have hH : (twoSlotSelector (ratDouble id id id)).top_literal_heap = [] := rfl
  rw [hK, hH]
  simp [pushHeap, heapMinScore, ratDouble]

/-- C21 (amended): after any sequence of calls of `Insert` on a selector with an empty
heap and `num_saved_literals = K ≥ 1`, with scores that are linearly ordered by `<` and
compared by `==` as equality, the heap holds at most `K` entries; each entry is a
candidate of one of the calls that was not discarded (`mcc` and `auec` not `0`), with its
score; if some candidate was not discarded, the heap holds an entry whose score is the
highest of the candidates not discarded; and if the scores of these candidates are
pairwise different, the heap holds `min(K, n)` of the `n` candidates not discarded, and
every such candidate outside the heap has a smaller score than every entry. -/
theorem literalSelector_heap (fm : DoubleModel) [LinearOrder fm.F]
    (hlt : ∀ a b, fm.lt a b = decide (a < b)) (heq : ∀ a b, fm.eq a b = decide (a = b))
    (sel0 : LiteralSelector fm) (calls : List (Bool × CandidateLiteralInfo))
    (hempty : sel0.top_literal_heap = []) (hK : 0 < sel0.num_saved_literals) :
    ((insertAll fm sel0 calls).top_literal_heap.length : Int) ≤ sel0.num_saved_literals ∧
    (∀ e ∈ (insertAll fm sel0 calls).top_literal_heap,
      (∃ call ∈ calls, call.2 = e.1) ∧ insertDiscards fm sel0 e.1 = false ∧
        e.2 = insertScore fm sel0 e.1) ∧
    ((∃ call ∈ calls, insertDiscards fm sel0 call.2 = false) →
      ∃ e ∈ (insertAll fm sel0 calls).top_literal_heap,
        ∀ call ∈ calls, insertDiscards fm sel0 call.2 = false →
          insertScore fm sel0 call.2 ≤ e.2) ∧
    ((((calls.map Prod.snd).filter (fun info => !insertDiscards fm sel0 info)).map
        (insertScore fm sel0)).Nodup →
      ((insertAll fm sel0 calls).top_literal_heap.length : Int) =
        min sel0.num_saved_literals
          (((calls.map Prod.snd).filter
            (fun info => !insertDiscards fm sel0 info)).length : Int) ∧
      ∀ call ∈ calls, insertDiscards fm sel0 call.2 = false →
        call.2 ∉ (insertAll fm sel0 calls).top_literal_heap.map Prod.fst →
        ∀ e ∈ (insertAll fm sel0 calls).top_literal_heap,
          insertScore fm sel0 call.2 < e.2) := by
  have hheap := insertAll_heap fm sel0 calls sel0 rfl rfl rfl rfl
  rw [hempty] at hheap
  rw [hheap]
  have hmemN : ∀ info, info ∈ (calls.map Prod.snd).filter
      (fun info => !insertDiscards fm sel0 info) ↔
      (∃ call ∈ calls, call.2 = info) ∧ insertDiscards fm sel0 info = false := by
    intro info
    rw [List.mem_filter, List.mem_map]
    simp
  generalize (calls.map Prod.snd).filter (fun info => !insertDiscards fm sel0 info) = N
    at hmemN ⊢
  have hmemE : ∀ e, e ∈ N.map (fun info => (info, insertScore fm sel0 info)) ↔
      e.1 ∈ N ∧ e.2 = insertScore fm sel0 e.1 := by
    intro e
    rw [List.mem_map]
    constructor
    · rintro ⟨info, hi, rfl⟩
      exact ⟨hi, rfl⟩
    · rintro ⟨h1, h2⟩
      exact ⟨e.1, h1, by rw [← h2]⟩
  have hEsnd : (N.map (fun info => (info, insertScore fm sel0 info))).map Prod.snd =
      N.map (insertScore fm sel0) := by
    rw [List.map_map]
    rfl
  obtain ⟨g1, g2, g3⟩ := pushHeap_fold_general fm hlt heq sel0.num_saved_literals hK
    (N.map (fun info => (info, insertScore fm sel0 info)))
  have hnod := pushHeap_fold_nodup fm hlt heq sel0.num_saved_literals hK
    (N.map (fun info => (info, insertScore fm sel0 info)))
  rw [hEsnd] at hnod
  generalize (N.map (fun info => (info, insertScore fm sel0 info))).foldl
    (pushHeap fm sel0.num_saved_literals) [] = H at g1 g2 g3 hnod ⊢
  refine ⟨g1, ?_, ?_, ?_⟩
  · intro e he
    obtain ⟨h1, h2⟩ := (hmemE e).mp (g2 e he)
    obtain ⟨h3, h4⟩ := (hmemN e.1).mp h1
    exact ⟨h3, h4, h2⟩
  · rintro ⟨call, hc, hd⟩
    have hN : call.2 ∈ N := (hmemN call.2).mpr ⟨⟨call, hc, rfl⟩, hd⟩
    obtain ⟨e, he, hmax⟩ := g3 (by
      intro h
      rw [List.map_eq_nil_iff] at h
      rw [h] at hN
      cases hN)
    refine ⟨e, he, ?_⟩
    intro c2 hc2 hd2
    exact hmax (c2.2, insertScore fm sel0 c2.2)
      ((hmemE _).mpr ⟨(hmemN c2.2).mpr ⟨⟨c2, hc2, rfl⟩, hd2⟩, rfl⟩)
  · intro hscores
    obtain ⟨n5, n4⟩ := hnod hscores
    have hHnodup : H.Nodup := List.Nodup.of_map Prod.snd n5
    have hEnodup : (N.map (fun info => (info, insertScore fm sel0 info))).Nodup := by
      apply List.Nodup.of_map Prod.snd
      rw [hEsnd]
      exact hscores
    have hle : H.length ≤ N.length := by
      have := (List.Nodup.subperm hHnodup (fun e he => g2 e he)).length_le
      simpa using this
    refine ⟨?_, ?_⟩
    · by_cases hlen : (H.length : Int) < sel0.num_saved_literals
      · have hsub : ∀ x ∈ N.map (fun info => (info, insertScore fm sel0 info)), x ∈ H := by
          intro x hx
          rcases n4 x hx with h | ⟨h, _⟩
          · exact h
          · omega
        have hge : N.length ≤ H.length := by
          have := (List.Nodup.subperm hEnodup hsub).length_le
          simpa using this
        have : H.length = N.length := le_antisymm hle hge
        rw [this] at hlen ⊢
        exact (min_eq_right (le_of_lt hlen)).symm
      · have hKH : (H.length : Int) = sel0.num_saved_literals :=
          le_antisymm g1 (not_lt.mp hlen)
        rw [hKH]
        have : sel0.num_saved_literals ≤ (N.length : Int) := by
          rw [← hKH]
          exact_mod_cast hle
        exact (min_eq_left this).symm
    · intro call hc hd hnot e he
      have hx : (call.2, insertScore fm sel0 call.2) ∈
          N.map (fun info => (info, insertScore fm sel0 info)) :=
        (hmemE _).mpr ⟨(hmemN call.2).mpr ⟨⟨call, hc, rfl⟩, hd⟩, rfl⟩
      rcases n4 _ hx with h | ⟨_, hall⟩
      · exact absurd (List.mem_map_of_mem Prod.fst h) hnot
      · exact hall e he

theorem literalSelector_heap_witness :
    (((insertAll (ratDouble id id id) (twoSlotSelector _)
      [(false, fullCoverInfo), (true, fullCoverInfo2)]).top_literal_heap.length : Nat) :
        Int) ≤ (twoSlotSelector (ratDouble id id id)).num_saved_literals :=
  (@literalSelector_heap (ratDouble id id id) (inferInstanceAs (LinearOrder ℚ))
    (fun _ _ => rfl) (fun _ _ => rfl) (twoSlotSelector _)
    [(false, fullCoverInfo), (true, fullCoverInfo2)] rfl (by decide)).1

/-! ## The clause parser and printer -/

/-! ## Parsing and printing a clause -/

theorem findIn_append (c : Char) :
    ∀ (a b : List Char), c ∉ a → findIn c (a ++ c :: b) = some a.length := by
  intro a
  induction a with
  | nil => intro b _; simp [findIn]
  | cons x xs ih =>
    intro b h
    have hx : x ≠ c := fun e => h (e ▸ List.mem_cons_self _ _)
    have hxs : c ∉ xs := fun e => h (List.mem_cons_of_mem _ e)
    simp [findIn, hx, ih b hxs]

theorem findIn_none (c : Char) : ∀ (a : List Char), c ∉ a → findIn c a = none := by
  intro a
  induction a with
  | nil => intro _; rfl
  | cons x xs ih =>
    intro h
    have hx : x ≠ c := fun e => h (e ▸ List.mem_cons_self _ _)
    have hxs : c ∉ xs := fun e => h (List.mem_cons_of_mem _ e)
    simp [findIn, hx, ih hxs]

theorem find_at (c : Char) (pre a b : List Char) (h : c ∉ a) :
    find (pre ++ (a ++ c :: b)) c pre.length = some (pre.length + a.length) := by
  unfold find
  rw [List.drop_left, findIn_append c a b h]
  simp [Nat.add_comm]

theorem find_none (c : Char) (pre a : List Char) (h : c ∉ a) :
    find (pre ++ a) c pre.length = none := by
  unfold find
  rw [List.drop_left, findIn_none c a h]
  rfl

theorem substr_at (pre a b : List Char) :
    substr (pre ++ (a ++ b)) pre.length (some a.length) = some a := by
  unfold substr
  rw [if_pos (by simp)]
  simp only [List.drop_left, List.take_left]

theorem substr_end (pre a : List Char) :
    substr (pre ++ a) pre.length none = some a := by
  unfold substr
  rw [if_pos (by simp)]
  simp only [List.drop_left]

/-- A decimal digit. -/
theorem digit_char (d : Nat) (hd : d < 10) :
    (Char.ofNat (48 + d)).toNat = 48 + d := by
  interval_cases d <;> rfl

theorem decimalDigits_spec :
    ∀ (fuel n : Nat) (acc : List Char), n < 10 ^ fuel → 0 < fuel →
      (∀ c ∈ acc, 48 ≤ c.toNat ∧ c.toNat ≤ 57) →
      (∀ c ∈ decimalDigits fuel n acc, 48 ≤ c.toNat ∧ c.toNat ≤ 57) ∧
      (decimalDigits fuel n acc).foldl (fun a c => a * 10 + (c.toNat - 48)) 0 =
        n * 10 ^ acc.length + acc.foldl (fun a c => a * 10 + (c.toNat - 48)) 0 ∧
      ∃ d rest, decimalDigits fuel n acc = Char.ofNat (48 + d) :: rest ∧ d < 10 ∧
        (0 < n → 0 < d) ∧ (n = 0 → rest = acc) := by
  intro fuel
  induction fuel with
  | zero => intro n acc _ h; omega
  | succ fuel ih =>
    intro n acc hn _ hacc
    have hfold : ∀ (l : List Char) (a : Nat),
        l.foldl (fun a c => a * 10 + (c.toNat - 48)) a =
          a * 10 ^ l.length + l.foldl (fun a c => a * 10 + (c.toNat - 48)) 0 := by
      intro l
      induction l with
      | nil => intro a; simp
      | cons x xs ihl =>
        intro a
        rw [List.foldl_cons, List.foldl_cons, ihl (a * 10 + (x.toNat - 48)),
          ihl (0 * 10 + (x.toNat - 48)), List.length_cons]
        ring
    unfold decimalDigits
    by_cases h10 : n < 10
    · rw [if_pos h10]
      refine ⟨?_, ?_, n, acc, rfl, h10, fun h => h, fun _ => rfl⟩
      · intro c hc
        rcases List.mem_cons.mp hc with rfl | hc
        · rw [digit_char n h10]; omega
        · exact hacc c hc
      · rw [List.foldl_cons, hfold acc, digit_char n h10]
        simp
    · rw [if_neg h10]
      have hf : 0 < fuel := by
        by_contra hc
        have : fuel = 0 := by omega
        subst this
        simp at hn
        omega
      have hn2 : n / 10 < 10 ^ fuel := by
        rw [Nat.div_lt_iff_lt_mul (by norm_num)]
        rw [pow_succ] at hn
        exact hn
      have hmod : n % 10 < 10 := Nat.mod_lt _ (by norm_num)
      have hacc2 : ∀ c ∈ Char.ofNat (48 + n % 10) :: acc, 48 ≤ c.toNat ∧ c.toNat ≤ 57 := by
        intro c hc
        rcases List.mem_cons.mp hc with rfl | hc
        · rw [digit_char _ hmod]; omega
        · exact hacc c hc
      obtain ⟨h1, h2, d, rest, h3, h4, h5, _⟩ := ih (n / 10) _ hn2 hf hacc2
      refine ⟨h1, ?_, d, rest, h3, h4, fun _ => h5 (by omega), fun h0 => by omega⟩
      rw [h2, List.foldl_cons, hfold acc, digit_char _ hmod, List.length_cons]
      have := Nat.div_add_mod n 10
      have e : 48 + n % 10 - 48 = n % 10 := by omega
      rw [e]
      have : n * 10 ^ acc.length = (10 * (n / 10) + n % 10) * 10 ^ acc.length := by
        rw [Nat.div_add_mod]
      rw [this]
      ring

theorem readDigits_decimal :
    ∀ (cs : List Char) (acc count : Nat), (∀ c ∈ cs, 48 ≤ c.toNat ∧ c.toNat ≤ 57) →
      readDigits 10 cs acc count =
        (cs.foldl (fun a c => a * 10 + (c.toNat - 48)) acc, count + cs.length) := by
  intro cs
  induction cs with
  | nil => intro acc count _; rfl
  | cons c cs ih =>
    intro acc count h
    have hc := h c (List.mem_cons_self _ _)
    have hd : digitOf c = some (c.toNat - 48) := by
      unfold digitOf
      rw [if_pos hc]
    rw [readDigits, hd]
    simp only
    rw [if_pos (by omega), ih _ _ (fun x hx => h x (List.mem_cons_of_mem _ hx))]
    simp only [List.foldl_cons, List.length_cons]
    congr 1
    omega

theorem to_string_digits (n : Int) (h0 : 0 ≤ n) :
    (∀ c ∈ to_string n, 48 ≤ c.toNat ∧ c.toNat ≤ 57) ∧ to_string n ≠ [] := by
  unfold to_string
  rw [if_neg (by omega)]
  have hlt : n.toNat < 10 ^ (n.toNat + 1) :=
    lt_of_lt_of_le (Nat.lt_pow_self (by norm_num) _) (Nat.pow_le_pow_right (by norm_num) (by omega))
  obtain ⟨h1, _, d, rest, h3, _⟩ := decimalDigits_spec (n.toNat + 1) n.toNat [] hlt (by omega)
    (by simp)
  exact ⟨h1, by rw [h3]; simp⟩

theorem readInt_to_string (n : Int) (h0 : 0 ≤ n) (h1 : n < 2 ^ 31) :
    ReadInt (to_string n) = some n := by
  have hlt : n.toNat < 10 ^ (n.toNat + 1) :=
    lt_of_lt_of_le (Nat.lt_pow_self (by norm_num) _) (Nat.pow_le_pow_right (by norm_num) (by omega))
  obtain ⟨hd, hval, d, rest, hcons, hd10, hdpos, hzero⟩ :=
    decimalDigits_spec (n.toNat + 1) n.toNat [] hlt (by omega) (by simp)
  have hts : to_string n = Char.ofNat (48 + d) :: rest := by
    unfold to_string
    rw [if_neg (by omega), hcons]
  have hnat : ((n.toNat : Nat) : Int) = n := Int.toNat_of_nonneg h0
  by_cases hn : n.toNat = 0
  · have hr : rest = [] := hzero hn
    have hd0 : d = 0 := by
      have := hval
      rw [hcons, hr] at this
      simp only [List.foldl_cons, List.foldl_nil, List.length_nil, pow_zero] at this
      rw [digit_char d hd10, hn] at this
      omega
    have hn0 : n = 0 := by omega
    rw [hts, hr, hd0, hn0]
    decide
  · have hdp : 0 < d := hdpos (by omega)
    have hread := readDigits_decimal (to_string n) 0 0 (to_string_digits n h0).1
    rw [hts] at hread
    have hval2 : (Char.ofNat (48 + d) :: rest).foldl (fun a c => a * 10 + (c.toNat - 48)) 0 =
        n.toNat := by
      rw [← hcons, hval]
      simp
    rw [hval2] at hread
    have hsp : isspace (Char.ofNat (48 + d)) = false := by
      interval_cases d <;> rfl
    have hminus : Char.ofNat (48 + d) ≠ '-' := by
      interval_cases d <;> decide
    have hplus : Char.ofNat (48 + d) ≠ '+' := by
      interval_cases d <;> decide
    have hzero2 : Char.ofNat (48 + d) ≠ '0' := by
      interval_cases d <;> first | omega | decide
    rw [hts]
    unfold ReadInt strtol
    simp only [List.dropWhile_cons, hsp, Bool.false_eq_true, if_false, if_neg hminus,
      if_neg hplus, if_neg hzero2, hread]
    have hrange : ¬ ((n.toNat : Int) < -(2 ^ 63) ∨ (2 : Int) ^ 63 ≤ (n.toNat : Int)) := by
      rw [hnat]
      omega
    simp only [Bool.false_eq_true, if_false, hrange]
    simp only [List.length_cons, Nat.zero_add, Nat.add_one_ne_zero, if_false, hnat]
    congr 1
    omega

theorem digit_not_special (c : Char) (h : 48 ≤ c.toNat ∧ c.toNat ≤ 57) :
    c ≠ ',' ∧ c ≠ ')' ∧ c ≠ '(' ∧ c ≠ ':' ∧ isspace c = false := by
  refine ⟨?_, ?_, ?_, ?_, ?_⟩
  · rintro rfl; revert h; decide
  · rintro rfl; revert h; decide
  · rintro rfl; revert h; decide
  · rintro rfl; revert h; decide
  · unfold isspace
    simp only [Bool.or_eq_false_iff, decide_eq_false_iff_not]
    omega

theorem plainName_spec (name : List Char) (h : plainName name = true) :
    name ≠ [] ∧ ∀ c ∈ name, c ≠ ',' ∧ c ≠ ')' ∧ c ≠ '(' ∧ c ≠ ':' ∧ isspace c = false := by
  unfold plainName at h
  simp only [Bool.and_eq_true, Bool.not_eq_true', List.all_eq_true, decide_eq_true_eq] at h
  refine ⟨?_, ?_⟩
  · intro hn
    rw [hn] at h
    simp at h
  · intro c hc
    obtain ⟨⟨⟨⟨h1, h2⟩, h3⟩, h4⟩, h5⟩ := h.2 c hc
    exact ⟨h4, h3, h2, h5, h1⟩

theorem readVariables_text (p : FoilPredicate) :
    ∀ (rest : List Int) (x : Int) (pre : List Char) (literal : FoilLiteral) (fuel : Nat)
      (processed : List Char),
      processed = pre ++ (commaSeparated ((x :: rest).map to_string) ++ [')']) →
      (∀ id ∈ x :: rest, 0 ≤ id ∧ id < 2 ^ 31) →
      literal.vars.length + (x :: rest).length ≤ p.argument_types.length →
      rest.length < fuel →
      ∃ next last,
        readVariables processed p fuel pre.length literal = some (next, last) ∧
        readLastVariable processed p next last =
          some ⟨literal.predicate, literal.vars ++
            ((x :: rest).enumFrom literal.vars.length).map
              (fun e => ⟨e.2, p.argument_types.getD e.1 (-1)⟩)⟩ := by
  intro rest
  induction rest with
  | nil =>
    intro x pre literal fuel processed hp hr hl hf
    obtain ⟨k, rfl⟩ : ∃ k, fuel = k + 1 := ⟨fuel - 1, by omega⟩
    have hx := hr x (List.mem_cons_self _ _)
    obtain ⟨hdig, _⟩ := to_string_digits x hx.1
    simp only [List.map_cons, List.map_nil, commaSeparated] at hp
    have hnc : ',' ∉ to_string x ++ [')'] := by
      intro h
      rcases List.mem_append.mp h with h | h
      · exact (digit_not_special _ (hdig _ h)).1 rfl
      · simp at h
    have hnp : ')' ∉ to_string x := fun h => (digit_not_special _ (hdig _ h)).2.1 rfl
    refine ⟨pre.length, literal, ?_, ?_⟩
    · rw [readVariables, hp, find_none ',' pre _ hnc]
    · unfold readLastVariable
      rw [hp, find_at ')' pre (to_string x) [] hnp]
      simp only [Option.map_some', Nat.add_sub_cancel_left]
      rw [substr_at pre (to_string x) [')']]
      simp only
      rw [readInt_to_string x hx.1 hx.2]
      have ht : p.argument_types.get? literal.vars.length =
          some (p.argument_types.getD literal.vars.length (-1)) :=
        get?_eq_some_getD _ _ _ (by simp at hl; omega)
      rw [ht]
      simp [FoilLiteral.AddVariable, List.enumFrom]
  | cons y rest ih =>
    intro x pre literal fuel processed hp hr hl hf
    obtain ⟨k, rfl⟩ : ∃ k, fuel = k + 1 := ⟨fuel - 1, by omega⟩
    have hx := hr x (List.mem_cons_self _ _)
    obtain ⟨hdig, _⟩ := to_string_digits x hx.1
    have hcs : commaSeparated ((x :: y :: rest).map to_string) =
        to_string x ++ ',' :: commaSeparated ((y :: rest).map to_string) := by
      simp only [List.map_cons, commaSeparated]
    rw [hcs] at hp
    have hnc : ',' ∉ to_string x := fun h => (digit_not_special _ (hdig _ h)).1 rfl
    have hp1 : processed = pre ++ (to_string x ++
        ',' :: (commaSeparated ((y :: rest).map to_string) ++ [')'])) := by
      rw [hp]; simp
    have hp2 : processed = (pre ++ to_string x ++ [',']) ++
        (commaSeparated ((y :: rest).map to_string) ++ [')']) := by
      rw [hp]; simp
    have ht : p.argument_types.get? literal.vars.length =
        some (p.argument_types.getD literal.vars.length (-1)) :=
      get?_eq_some_getD _ _ _ (by simp at hl; omega)
    obtain ⟨next, last, h1, h2⟩ := ih y (pre ++ to_string x ++ [','])
      (literal.AddVariable ⟨x, p.argument_types.getD literal.vars.length (-1)⟩) k processed hp2
      (fun id hid => hr id (List.mem_cons_of_mem _ hid))
      (by simp [FoilLiteral.AddVariable] at hl ⊢; omega)
      (by simp at hf; omega)
    refine ⟨next, last, ?_, ?_⟩
    · rw [readVariables]
      conv_lhs => rw [hp1]
      rw [find_at ',' pre (to_string x) _ hnc]
      simp only [Nat.add_sub_cancel_left]
      rw [substr_at pre (to_string x) _]
      simp only
      rw [readInt_to_string x hx.1 hx.2, ht]
      simp only
      rw [← hp1]
      have hpos : pre.length + (to_string x).length + 1 =
          (pre ++ to_string x ++ [',']).length := by
        simp only [List.length_append, List.length_singleton]
      rw [hpos]
      exact h1
    · rw [h2]
      simp [FoilLiteral.AddVariable, List.enumFrom]

theorem createLiteralFromString_text (catalog : List (List Char × FoilPredicate))
    (p : FoilPredicate) (name : List Char) (ids : List Int) (str : List Char) (fuel : Nat)
    (hname : plainName name = true)
    (hfind : catalog.find? (fun e => decide (e.1 = name)) = some (name, p))
    (hids : ids ≠ []) (hlen : ids.length ≤ p.argument_types.length)
    (hrange : ∀ id ∈ ids, 0 ≤ id ∧ id < 2 ^ 31)
    (hstr : RemoveWhiteSpace str = literalText name ids) (hfuel : ids.length ≤ fuel) :
    CreateLiteralFromString catalog fuel str = some (FoilClause.CreateLiteral p ids) := by
  obtain ⟨hne, hchars⟩ := plainName_spec name hname
  obtain ⟨x, rest, rfl⟩ : ∃ x rest, ids = x :: rest := by
    cases ids with
    | nil => exact absurd rfl hids
    | cons x rest => exact ⟨x, rest, rfl⟩
  have hnp : '(' ∉ name := fun h => (hchars _ h).2.2.1 rfl
  have hform : RemoveWhiteSpace str =
      [] ++ (name ++ '(' :: (commaSeparated ((x :: rest).map to_string) ++ [')'])) := by
    rw [hstr, literalText]
    simp
  have hform2 : RemoveWhiteSpace str =
      (name ++ ['(']) ++ (commaSeparated ((x :: rest).map to_string) ++ [')']) := by
    rw [hstr, literalText]
    simp
  have hfind0 : find (RemoveWhiteSpace str) '(' 0 = some name.length := by
    have := find_at '(' [] name (commaSeparated ((x :: rest).map to_string) ++ [')']) hnp
    rw [← hform] at this
    simpa using this
  have hsub : substr (RemoveWhiteSpace str) 0 (some name.length) = some name := by
    have := substr_at [] name ('(' :: (commaSeparated ((x :: rest).map to_string) ++ [')']))
    rw [← hform] at this
    simpa using this
  obtain ⟨next, last, h1, h2⟩ := readVariables_text p rest x (name ++ ['('])
    (FoilLiteral.empty p) fuel (RemoveWhiteSpace str) hform2 hrange
    (by simpa [FoilLiteral.empty] using hlen) (by simp at hfuel; omega)
  unfold CreateLiteralFromString
  simp only
  have hempty : (RemoveWhiteSpace str).isEmpty = false := by
    rw [hstr, literalText]
    cases name with
    | nil => exact absurd rfl hne
    | cons c cs => rfl
  rw [hempty]
  simp only [Bool.false_eq_true, if_false]
  rw [hfind0]
  have hn0 : ¬ (some name.length = some 0) := by
    intro h
    have : name.length = 0 := Option.some.inj h
    exact hne (List.eq_nil_of_length_eq_zero this)
  rw [if_neg hn0, hsub]
  simp only
  rw [hfind]
  simp only [Option.elim]
  have hpos : name.length + 1 = (name ++ ['(']).length := by simp
  rw [hpos, h1]
  simp only
  rw [h2]
  simp [FoilLiteral.empty, FoilClause.CreateLiteral, List.enum]

theorem space_not_special (c : Char) (h : isspace c = true) : c ≠ ',' ∧ c ≠ ')' ∧ c ≠ ':' := by
  refine ⟨?_, ?_, ?_⟩
  · rintro rfl; revert h; decide
  · rintro rfl; revert h; decide
  · rintro rfl; revert h; decide

theorem removeWhiteSpace_append (a b : List Char) :
    RemoveWhiteSpace (a ++ b) = RemoveWhiteSpace a ++ RemoveWhiteSpace b := by
  unfold RemoveWhiteSpace
  exact List.filter_append _ _

theorem removeWhiteSpace_id (a : List Char) (h : ∀ c ∈ a, isspace c = false) :
    RemoveWhiteSpace a = a := by
  unfold RemoveWhiteSpace
  rw [List.filter_eq_self]
  intro c hc
  rw [h c hc]
  rfl

theorem removeWhiteSpace_nil_iff (a : List Char) :
    RemoveWhiteSpace a = [] ↔ ∀ c ∈ a, isspace c = true := by
  unfold RemoveWhiteSpace
  rw [List.filter_eq_nil_iff]
  constructor
  · intro h c hc
    have := h c hc
    simpa using this
  · intro h c hc
    simp [h c hc]

theorem mem_removeWhiteSpace (a : List Char) (c : Char) :
    c ∈ RemoveWhiteSpace a ↔ c ∈ a ∧ isspace c = false := by
  unfold RemoveWhiteSpace
  rw [List.mem_filter]
  simp

/-- A string that reads `t ++ c :: r` without its white space splits at that `c`. -/
theorem removeWhiteSpace_split (b t r : List Char) (c : Char)
    (h : RemoveWhiteSpace b = t ++ c :: r) :
    ∃ b1 b2, b = b1 ++ c :: b2 ∧ RemoveWhiteSpace b1 = t ∧ RemoveWhiteSpace b2 = r := by
  unfold RemoveWhiteSpace at h
  obtain ⟨l1, l2, hb, h1, h2⟩ := List.filter_eq_append_iff.mp h
  obtain ⟨w, l3, hl2, hw, _, h3⟩ := List.filter_eq_cons_iff.mp h2
  refine ⟨l1 ++ w, l3, ?_, ?_, h3⟩
  · rw [hb, hl2]; simp
  · unfold RemoveWhiteSpace
    rw [List.filter_append, h1]
    have : List.filter (fun c => !isspace c) w = [] := by
      rw [List.filter_eq_nil_iff]
      intro x hx
      exact hw x hx
    rw [this, List.append_nil]

theorem commaSeparated_digits (ids : List Int) (hr : ∀ id ∈ ids, 0 ≤ id ∧ id < 2 ^ 31) :
    ∀ c ∈ commaSeparated (ids.map to_string),
      c ≠ ')' ∧ c ≠ '(' ∧ c ≠ ':' ∧ isspace c = false := by
  induction ids with
  | nil => intro c hc; simp [commaSeparated] at hc
  | cons x rest ih =>
    have hx := hr x (List.mem_cons_self _ _)
    have hd := (to_string_digits x hx.1).1
    cases rest with
    | nil =>
      intro c hc
      simp only [List.map_cons, List.map_nil, commaSeparated] at hc
      have := digit_not_special c (hd c hc)
      exact ⟨this.2.1, this.2.2.1, this.2.2.2.1, this.2.2.2.2⟩
    | cons y rest2 =>
      intro c hc
      simp only [List.map_cons, commaSeparated] at hc
      rcases List.mem_append.mp hc with h | h
      · have := digit_not_special c (hd c h)
        exact ⟨this.2.1, this.2.2.1, this.2.2.2.1, this.2.2.2.2⟩
      · rcases List.mem_cons.mp h with h | h
        · subst h
          refine ⟨by decide, by decide, by decide, by decide⟩
        · exact ih (fun id hid => hr id (List.mem_cons_of_mem _ hid)) c
            (by simpa only [List.map_cons] using h)

/-- The text of a literal has no white space, no colon and one closing parenthesis, at its
end. -/
theorem literalText_chars (name : List Char) (ids : List Int) (hname : plainName name = true)
    (hr : ∀ id ∈ ids, 0 ≤ id ∧ id < 2 ^ 31) :
    (∀ c ∈ name ++ '(' :: commaSeparated (ids.map to_string),
      c ≠ ')' ∧ c ≠ ':' ∧ isspace c = false) ∧
    literalText name ids = (name ++ '(' :: commaSeparated (ids.map to_string)) ++ [')'] := by
  obtain ⟨_, hchars⟩ := plainName_spec name hname
  refine ⟨?_, ?_⟩
  · intro c hc
    rcases List.mem_append.mp hc with h | h
    · have := hchars c h
      exact ⟨this.2.1, this.2.2.2.1, this.2.2.2.2⟩
    · rcases List.mem_cons.mp h with h | h
      · subst h
        exact ⟨by decide, by decide, by decide⟩
      · have := commaSeparated_digits ids hr c h
        exact ⟨this.1, this.2.2.1, this.2.2.2⟩
  · unfold literalText
    simp

/-- A string that reads as the text of a literal without its white space: the closing
parenthesis is the last character that is not white space. -/
theorem raw_literal_split (raw name : List Char) (ids : List Int)
    (hname : plainName name = true) (hr : ∀ id ∈ ids, 0 ≤ id ∧ id < 2 ^ 31)
    (h : RemoveWhiteSpace raw = literalText name ids) :
    ∃ u w, raw = u ++ ')' :: w ∧ ')' ∉ u ∧ ':' ∉ u ∧ (∀ c ∈ w, isspace c = true) ∧
      RemoveWhiteSpace (u ++ [')']) = literalText name ids := by
  obtain ⟨hch, hform⟩ := literalText_chars name ids hname hr
  rw [hform] at h
  obtain ⟨u, w, hraw, hu, hw⟩ := removeWhiteSpace_split raw _ [] ')' h
  refine ⟨u, w, hraw, ?_, ?_, (removeWhiteSpace_nil_iff w).mp hw, ?_⟩
  · intro hm
    have : ')' ∈ RemoveWhiteSpace u := (mem_removeWhiteSpace u ')').mpr ⟨hm, by decide⟩
    rw [hu] at this
    exact (hch _ this).1 rfl
  · intro hm
    have : ':' ∈ RemoveWhiteSpace u := (mem_removeWhiteSpace u ':').mpr ⟨hm, by decide⟩
    rw [hu] at this
    exact (hch _ this).2.1 rfl
  · rw [removeWhiteSpace_append, hu, hform]
    rfl

/-- The hypotheses on a literal of a clause string. -/
theorem bindGiven_total : ∀ (vs vars : List FoilVariable),
    (∀ v ∈ vs, 0 ≤ v.variable_id) → ∃ r, FoilClause.bindGiven vs vars = some r := by
  intro vs
  induction vs with
  | nil => intro vars _; exact ⟨vars, rfl⟩
  | cons v rest ih =>
    intro vars h
    have hv := h v (List.mem_cons_self _ _)
    have hrest : ∀ v ∈ rest, 0 ≤ v.variable_id := fun x hx => h x (List.mem_cons_of_mem _ hx)
    rw [FoilClause.bindGiven]
    by_cases h1 : v.variable_id ≥ (vars.length : Int)
    · rw [if_pos h1]
      exact ih _ hrest
    · rw [if_neg h1, if_neg (by omega)]
      have hlt : v.variable_id.toNat < vars.length := by omega
      rw [List.get?_eq_get hlt]
      simp only
      split
      · exact ih _ hrest
      · exact ih _ hrest

theorem createLiteral_ids (p : FoilPredicate) (ids : List Int) :
    (FoilClause.CreateLiteral p ids).vars.map FoilVariable.variable_id = ids := by
  unfold FoilClause.CreateLiteral
  simp only [List.map_map]
  have : ((fun v => v.variable_id) ∘ fun (e : Nat × Int) =>
      (⟨e.2, p.argument_types.getD e.1 (-1)⟩ : FoilVariable)) = Prod.snd := by
    funext e; rfl
  show List.map (FoilVariable.variable_id ∘ _) _ = _
  rw [this]
  exact List.enum_map_snd ids

theorem addBound_total (c : FoilClause) (p : FoilPredicate) (ids : List Int)
    (hr : ∀ id ∈ ids, 0 ≤ id) :
    ∃ c1, c.AddBoundBodyLiteral (FoilClause.CreateLiteral p ids) false = some c1 ∧
      c1.head_literal = c.head_literal ∧
      c1.body_literals = c.body_literals ++ [FoilClause.CreateLiteral p ids] := by
  obtain ⟨r, hr2⟩ := bindGiven_total (FoilClause.CreateLiteral p ids).vars c.vars (by
    intro v hv
    have : v.variable_id ∈ (FoilClause.CreateLiteral p ids).vars.map FoilVariable.variable_id :=
      List.mem_map_of_mem _ hv
    rw [createLiteral_ids] at this
    exact hr _ this)
  unfold FoilClause.AddBoundBodyLiteral
  rw [hr2]
  exact ⟨_, rfl, rfl, rfl⟩

theorem createClause_total (body : List (FoilPredicate × List Int))
    (hr : ∀ l ∈ body, ∀ id ∈ l.2, 0 ≤ id) :
    ∀ (c : FoilClause), ∃ c1,
      (body.map (fun l => FoilClause.CreateLiteral l.1 l.2)).foldlM
        (fun c l => c.AddBoundBodyLiteral l false) c = some c1 ∧
      c1.head_literal = c.head_literal ∧
      c1.body_literals = c.body_literals ++
        body.map (fun l => FoilClause.CreateLiteral l.1 l.2) := by
  induction body with
  | nil => intro c; exact ⟨c, rfl, rfl, by simp⟩
  | cons l rest ih =>
    intro c
    obtain ⟨c1, h1, h2, h3⟩ := addBound_total c l.1 l.2 (hr l (List.mem_cons_self _ _))
    obtain ⟨c2, h4, h5, h6⟩ := ih (fun x hx => hr x (List.mem_cons_of_mem _ hx)) c1
    refine ⟨c2, ?_, ?_, ?_⟩
    · rw [List.map_cons, List.foldlM_cons, h1]
      exact h4
    · rw [h5, h2]
    · rw [h6, h3]; simp

theorem readBody_text (catalog : List (List Char × FoilPredicate))
    (name : FoilPredicate → List Char) (fuel : Nat) :
    ∀ (rest : List (FoilPredicate × List Int)) (x : FoilPredicate × List Int)
      (pre b : List Char) (clause : FoilClause) (loop_fuel : Nat),
      (∀ l ∈ x :: rest, plainName (name l.1) = true ∧
        catalog.find? (fun e => decide (e.1 = name l.1)) = some (name l.1, l.1) ∧
        l.2 ≠ [] ∧ l.2.length ≤ l.1.argument_types.length ∧
        (∀ id ∈ l.2, 0 ≤ id ∧ id < 2 ^ 31) ∧ l.2.length ≤ fuel) →
      RemoveWhiteSpace b =
        commaSeparated ((x :: rest).map (fun l => literalText (name l.1) l.2)) →
      rest.length < loop_fuel →
      readBody catalog fuel (pre ++ b) loop_fuel pre.length (find (pre ++ b) ')' pre.length)
          clause =
        ((x :: rest).map (fun l => FoilClause.CreateLiteral l.1 l.2)).foldlM
          (fun c l => c.AddBoundBodyLiteral l false) clause := by
  intro rest
  induction rest with
  | nil =>
    intro x pre b clause loop_fuel hl hb hf
    obtain ⟨k, rfl⟩ : ∃ k, loop_fuel = k + 1 := ⟨loop_fuel - 1, by omega⟩
    obtain ⟨hn, hfind, hne, hlen, hr, hfl⟩ := hl x (List.mem_cons_self _ _)
    simp only [List.map_cons, List.map_nil, commaSeparated] at hb
    obtain ⟨u, w, hraw, hu, _, hw, htext⟩ := raw_literal_split b _ _ hn hr hb
    have hs1 : pre ++ b = pre ++ (u ++ ')' :: w) := by rw [hraw]
    have hs2 : pre ++ b = pre ++ ((u ++ [')']) ++ w) := by rw [hraw]; simp
    have hs3 : pre ++ b = (pre ++ (u ++ [')'])) ++ w := by rw [hraw]; simp
    have hcw : ',' ∉ w := fun h => (space_not_special _ (hw _ h)).1 rfl
    rw [hs1, find_at ')' pre u w hu, readBody]
    simp only [Nat.add_sub_cancel_left]
    rw [← hs1, hs2]
    have hsub := substr_at pre (u ++ [')']) w
    simp only [List.length_append, List.length_singleton] at hsub
    rw [hsub]
    simp only
    rw [createLiteralFromString_text catalog x.1 (name x.1) x.2 (u ++ [')']) fuel hn hfind hne
      hlen hr htext hfl]
    simp only [List.map_cons, List.map_nil, List.foldlM_cons, List.foldlM_nil]
    cases hadd : clause.AddBoundBodyLiteral (FoilClause.CreateLiteral x.1 x.2) false with
    | none => rfl
    | some clause1 =>
      simp only
      rw [← hs2, hs3]
      have hpos : pre.length + u.length + 1 = (pre ++ (u ++ [')'])).length := by
        simp only [List.length_append, List.length_singleton, Nat.add_assoc]
      rw [hpos, find_none ',' _ w hcw]
      rfl
  | cons y rest ih =>
    intro x pre b clause loop_fuel hl hb hf
    obtain ⟨k, rfl⟩ : ∃ k, loop_fuel = k + 1 := ⟨loop_fuel - 1, by omega⟩
    obtain ⟨hn, hfind, hne, hlen, hr, hfl⟩ := hl x (List.mem_cons_self _ _)
    have hcs : commaSeparated ((x :: y :: rest).map (fun l => literalText (name l.1) l.2)) =
        literalText (name x.1) x.2 ++
          ',' :: commaSeparated ((y :: rest).map (fun l => literalText (name l.1) l.2)) := by
      simp only [List.map_cons, commaSeparated]
    rw [hcs] at hb
    obtain ⟨b1, b2, hbb, hb1, hb2⟩ := removeWhiteSpace_split b _ _ ',' hb
    obtain ⟨u, w, hraw, hu, _, hw, htext⟩ := raw_literal_split b1 _ _ hn hr hb1
    have hs1 : pre ++ b = pre ++ (u ++ ')' :: (w ++ ',' :: b2)) := by rw [hbb, hraw]; simp
    have hs2 : pre ++ b = pre ++ ((u ++ [')']) ++ (w ++ ',' :: b2)) := by
      rw [hbb, hraw]; simp
    have hs3 : pre ++ b = (pre ++ (u ++ [')'])) ++ (w ++ ',' :: b2) := by
      rw [hbb, hraw]; simp
    have hs4 : pre ++ b = (pre ++ (u ++ [')']) ++ w ++ [',']) ++ b2 := by
      rw [hbb, hraw]; simp
    have hcw : ',' ∉ w := fun h => (space_not_special _ (hw _ h)).1 rfl
    have ih2 := ih y (pre ++ (u ++ [')']) ++ w ++ [',']) b2
    rw [hs1, find_at ')' pre u _ hu, readBody]
    simp only [Nat.add_sub_cancel_left]
    rw [← hs1, hs2]
    have hsub := substr_at pre (u ++ [')']) (w ++ ',' :: b2)
    simp only [List.length_append, List.length_singleton] at hsub
    rw [hsub]
    simp only
    rw [createLiteralFromString_text catalog x.1 (name x.1) x.2 (u ++ [')']) fuel hn hfind hne
      hlen hr htext hfl]
    rw [List.map_cons, List.foldlM_cons]
    simp only
    cases hadd : clause.AddBoundBodyLiteral (FoilClause.CreateLiteral x.1 x.2) false with
    | none => rfl
    | some clause1 =>
      simp only
      rw [← hs2, hs3]
      have hpos : pre.length + u.length + 1 = (pre ++ (u ++ [')'])).length := by
        simp only [List.length_append, List.length_singleton, Nat.add_assoc]
      rw [hpos, find_at ',' _ w b2 hcw]
      simp only
      have hpos2 : (pre ++ (u ++ [')'])).length + w.length + 1 =
          (pre ++ (u ++ [')']) ++ w ++ [',']).length := by
        simp only [List.length_append, List.length_singleton, Nat.add_assoc]
      rw [hpos2, ← hs3, hs4]
      exact ih2 clause1 k (fun l hl2 => hl l (List.mem_cons_of_mem _ hl2)) hb2
        (by simp at hf; omega)

theorem createClauseFromString_text (catalog : List (List Char × FoilPredicate))
    (name : FoilPredicate → List Char) (fuel : Nat) (head : FoilPredicate × List Int)
    (body : List (FoilPredicate × List Int)) (s h b : List Char)
    (hl : ∀ l ∈ head :: body, plainName (name l.1) = true ∧
      catalog.find? (fun e => decide (e.1 = name l.1)) = some (name l.1, l.1) ∧
      l.2 ≠ [] ∧ l.2.length ≤ l.1.argument_types.length ∧
      (∀ id ∈ l.2, 0 ≤ id ∧ id < 2 ^ 31) ∧ l.2.length ≤ fuel)
    (hhead : headAsserts (FoilClause.CreateLiteral head.1 head.2).vars 0 = true)
    (hs : s = h ++ ':' :: '-' :: b)
    (hh : RemoveWhiteSpace h = literalText (name head.1) head.2)
    (hb : RemoveWhiteSpace b = commaSeparated (body.map (fun l => literalText (name l.1) l.2)))
    (hfuel : body.length < fuel) :
    CreateClauseFromString catalog fuel s =
      FoilClause.CreateClause (FoilClause.CreateLiteral head.1 head.2)
        (body.map (fun l => FoilClause.CreateLiteral l.1 l.2)) := by
  obtain ⟨hn, hfind, hne, hlen, hr, hfl⟩ := hl head (List.mem_cons_self _ _)
  obtain ⟨u, w, hraw, _, hu, hw, _⟩ := raw_literal_split h _ _ hn hr hh
  have hcolon : ':' ∉ h := by
    rw [hraw]
    intro hm
    rcases List.mem_append.mp hm with hm | hm
    · exact hu hm
    · rcases List.mem_cons.mp hm with hm | hm
      · revert hm; decide
      · exact (space_not_special _ (hw _ hm)).2.2 rfl
  have hh0 : h.length ≠ 0 := by rw [hraw]; simp
  have hs0 : s = [] ++ (h ++ ':' :: '-' :: b) := by rw [hs]; rfl
  have hs2 : s = (h ++ [':', '-']) ++ b := by rw [hs]; simp
  have hfind0 : find s ':' 0 = some h.length := by
    have := find_at ':' [] h ('-' :: b) hcolon
    rw [← hs0] at this
    simpa using this
  have hsub : substr s 0 (some h.length) = some h := by
    have := substr_at [] h (':' :: '-' :: b)
    rw [← hs0] at this
    simpa using this
  have hlen2 : h.length + 1 < s.length := by rw [hs]; simp
  have hget : s.get? (h.length + 1) = some '-' := by
    rw [hs, List.get?_eq_getElem?, List.getElem?_append_right (by omega)]
    simp
  unfold CreateClauseFromString
  rw [hfind0]
  simp only
  rw [if_neg (by
    intro hc
    rcases hc with hc | hc | hc
    · exact hh0 hc
    · exact hc hlen2
    · exact hc hget)]
  rw [hsub]
  simp only
  rw [createLiteralFromString_text catalog head.1 (name head.1) head.2 h fuel hn hfind hne hlen
    hr hh hfl]
  simp only
  rw [if_pos hhead]
  have hpos : h.length + 2 = (h ++ [':', '-']).length := by simp
  rw [hpos, hs2]
  unfold FoilClause.CreateClause
  cases body with
  | nil =>
    obtain ⟨k, rfl⟩ : ∃ k, fuel = k + 1 := ⟨fuel - 1, by simp at hfuel; omega⟩
    simp only [List.map_nil, commaSeparated] at hb
    have hnp : ')' ∉ b := by
      intro hm
      have := (removeWhiteSpace_nil_iff b).mp hb _ hm
      exact (space_not_special _ this).2.1 rfl
    rw [find_none ')' _ b hnp, readBody]
    rfl
  | cons x rest =>
    exact readBody_text catalog name fuel rest x (h ++ [':', '-']) b _ fuel
      (fun l hl2 => hl l (List.mem_cons_of_mem _ hl2)) hb (by simp at hfuel; omega)

theorem intercalate_cons_flatMap (sep : List Char) :
    ∀ (l : List (List Char)) (a : List Char),
      List.intercalate sep (a :: l) = a ++ l.flatMap (fun x => sep ++ x) := by
  intro l
  induction l with
  | nil => intro a; simp [List.intercalate]
  | cons b l ih =>
    intro a
    have h := ih b
    simp only [List.intercalate, List.intersperse_cons_cons, List.flatten_cons,
      List.flatMap_cons] at h ⊢
    rw [h]
    simp

theorem flatMap_append_sep (sep : List Char) :
    ∀ (l : List (List Char)) (a : List Char),
      (a :: l).flatMap (fun x => x ++ sep) = List.intercalate sep (a :: l) ++ sep := by
  intro l
  induction l with
  | nil => intro a; simp [List.intercalate]
  | cons b l ih =>
    intro a
    have h := ih b
    simp only [List.intercalate, List.intersperse_cons_cons, List.flatten_cons,
      List.flatMap_cons] at h ⊢
    rw [h]
    simp

theorem literal_toString (name : FoilPredicate → List Char) (p : FoilPredicate)
    (ids : List Int) (hne : ids ≠ []) :
    FoilLiteral.ToString name (FoilClause.CreateLiteral p ids) =
      some (printedLiteral (name p) ids) := by
  obtain ⟨x, rest, rfl⟩ : ∃ x rest, ids = x :: rest := by
    cases ids with
    | nil => exact absurd rfl hne
    | cons x rest => exact ⟨x, rest, rfl⟩
  have hflat : ∀ (l : List Int) (k : Nat),
      ((l.enumFrom k).map (fun e =>
        (⟨e.2, p.argument_types.getD e.1 (-1)⟩ : FoilVariable))).flatMap
        (fun v => [',', ' '] ++ to_string v.variable_id) =
      (l.map to_string).flatMap (fun x => [',', ' '] ++ x) := by
    intro l
    induction l with
    | nil => intro k; rfl
    | cons y l ih =>
      intro k
      simp only [List.enumFrom, List.map_cons, List.flatMap_cons]
      rw [ih (k + 1)]
  unfold FoilLiteral.ToString FoilClause.CreateLiteral printedLiteral
  simp only [List.enum, List.enumFrom, List.map_cons]
  rw [hflat rest 1, intercalate_cons_flatMap]
  simp

theorem removeWhiteSpace_intercalate :
    ∀ (xs : List (List Char)),
      RemoveWhiteSpace (List.intercalate [',', ' '] xs) =
        commaSeparated (xs.map RemoveWhiteSpace) := by
  intro xs
  induction xs with
  | nil => rfl
  | cons a l ih =>
    cases l with
    | nil => simp [List.intercalate, commaSeparated]
    | cons b l =>
      have h1 : List.intercalate [',', ' '] (a :: b :: l) =
          a ++ ([',', ' '] ++ List.intercalate [',', ' '] (b :: l)) := by
        simp [List.intercalate, List.intersperse_cons_cons]
      rw [h1, removeWhiteSpace_append, removeWhiteSpace_append, ih]
      simp only [List.map_cons, commaSeparated]
      rfl

theorem removeWhiteSpace_printedLiteral (name : List Char) (ids : List Int)
    (hname : plainName name = true) (hr : ∀ id ∈ ids, 0 ≤ id ∧ id < 2 ^ 31) :
    RemoveWhiteSpace (printedLiteral name ids) = literalText name ids := by
  obtain ⟨_, hchars⟩ := plainName_spec name hname
  have hmap : (ids.map to_string).map RemoveWhiteSpace = ids.map to_string := by
    rw [List.map_map]
    apply List.map_congr_left
    intro id hid
    exact removeWhiteSpace_id _ (fun c hc =>
      (digit_not_special c ((to_string_digits id (hr id hid).1).1 c hc)).2.2.2.2)
  unfold printedLiteral literalText
  have h1 : name ++ '(' :: List.intercalate [',', ' '] (ids.map to_string) ++ [')'] =
      name ++ (['('] ++ (List.intercalate [',', ' '] (ids.map to_string) ++ [')'])) := by simp
  rw [h1, removeWhiteSpace_append, removeWhiteSpace_append, removeWhiteSpace_append,
    removeWhiteSpace_intercalate, hmap, removeWhiteSpace_id name (fun c hc => (hchars c hc).2.2.2.2)]
  simp
  rfl

theorem take_length_sub_two (x : List Char) (a b : Char) :
    (x ++ [a, b]).take ((x ++ [a, b]).length - 2) = x := by
  have : (x ++ [a, b]).length - 2 = x.length := by simp
  rw [this, List.take_left]

theorem clause_toString (name : FoilPredicate → List Char) (clause : FoilClause)
    (head : FoilPredicate × List Int) (body : List (FoilPredicate × List Int))
    (hne : ∀ l ∈ head :: body, l.2 ≠ [])
    (h1 : clause.head_literal = FoilClause.CreateLiteral head.1 head.2)
    (h2 : clause.body_literals = body.map (fun l => FoilClause.CreateLiteral l.1 l.2)) :
    clause.ToString name =
      some (printedClause (printedLiteral (name head.1) head.2)
        (body.map (fun l => printedLiteral (name l.1) l.2))) := by
  have hm : clause.body_literals.mapM (FoilLiteral.ToString name) =
      some (body.map (fun l => printedLiteral (name l.1) l.2)) := by
    rw [h2]
    have := option_mapM_map (FoilLiteral.ToString name)
      (fun (L : FoilLiteral) => printedLiteral (name L.predicate)
        (L.vars.map FoilVariable.variable_id))
      (body.map (fun l => FoilClause.CreateLiteral l.1 l.2)) (by
        intro L hL
        obtain ⟨l, hl, rfl⟩ := List.mem_map.mp hL
        rw [literal_toString name l.1 l.2 (hne l (List.mem_cons_of_mem _ hl))]
        show some (printedLiteral (name l.1) l.2) = some (printedLiteral (name l.1)
          ((FoilClause.CreateLiteral l.1 l.2).vars.map FoilVariable.variable_id))
        rw [createLiteral_ids])
    rw [this, List.map_map]
    congr 1
    apply List.map_congr_left
    intro l _
    show printedLiteral (name (FoilClause.CreateLiteral l.1 l.2).predicate)
      ((FoilClause.CreateLiteral l.1 l.2).vars.map FoilVariable.variable_id) = _
    rw [createLiteral_ids]
    rfl
  unfold FoilClause.ToString
  rw [h1, literal_toString name head.1 head.2 (hne head (List.mem_cons_self _ _)), hm]
  simp only
  unfold printedClause
  cases body with
  | nil =>
    simp only [List.map_nil, List.flatMap_nil, List.append_nil, List.isEmpty_nil, if_true]
    have : printedLiteral (name head.1) head.2 ++ [' ', ':', '-', ' ', ' '] =
        (printedLiteral (name head.1) head.2 ++ [' ', ':', '-']) ++ [' ', ' '] := by simp
    rw [this, take_length_sub_two]
  | cons x rest =>
    rw [List.map_cons, flatMap_append_sep]
    have : printedLiteral (name head.1) head.2 ++ [' ', ':', '-', ' ', ' '] ++
        (List.intercalate [',', ' '] (printedLiteral (name x.1) x.2 ::
          List.map (fun l => printedLiteral (name l.1) l.2) rest) ++ [',', ' ']) =
        (printedLiteral (name head.1) head.2 ++ [' ', ':', '-'] ++
          ' ' :: ' ' :: List.intercalate [',', ' '] (printedLiteral (name x.1) x.2 ::
          List.map (fun l => printedLiteral (name l.1) l.2) rest)) ++ [',', ' '] := by simp
    rw [this, take_length_sub_two]
    rfl

theorem removeWhiteSpace_printedClause (name : FoilPredicate → List Char)
    (head : FoilPredicate × List Int) (body : List (FoilPredicate × List Int))
    (hl : ∀ l ∈ head :: body, plainName (name l.1) = true ∧
      (∀ id ∈ l.2, 0 ≤ id ∧ id < 2 ^ 31)) :
    RemoveWhiteSpace (printedClause (printedLiteral (name head.1) head.2)
        (body.map (fun l => printedLiteral (name l.1) l.2))) =
      literalText (name head.1) head.2 ++ ':' :: '-' ::
        commaSeparated (body.map (fun l => literalText (name l.1) l.2)) := by
  have hmap : (body.map (fun l => printedLiteral (name l.1) l.2)).map RemoveWhiteSpace =
      body.map (fun l => literalText (name l.1) l.2) := by
    rw [List.map_map]
    apply List.map_congr_left
    intro l hlm
    have := hl l (List.mem_cons_of_mem _ hlm)
    exact removeWhiteSpace_printedLiteral _ _ this.1 this.2
  have hh := hl head (List.mem_cons_self _ _)
  unfold printedClause
  rw [removeWhiteSpace_append, removeWhiteSpace_append,
    removeWhiteSpace_printedLiteral _ _ hh.1 hh.2]
  cases body with
  | nil => simp [commaSeparated]; rfl
  | cons x rest =>
    have he : (List.map (fun l => printedLiteral (name l.1) l.2) (x :: rest)).isEmpty = false :=
      rfl
    rw [he]
    simp only [Bool.false_eq_true, if_false]
    have h3 : (' ' :: ' ' :: List.intercalate [',', ' ']
        (List.map (fun l => printedLiteral (name l.1) l.2) (x :: rest))) =
        [' ', ' '] ++ List.intercalate [',', ' ']
          (List.map (fun l => printedLiteral (name l.1) l.2) (x :: rest)) := rfl
    rw [h3, removeWhiteSpace_append, removeWhiteSpace_intercalate, hmap]
    have e1 : RemoveWhiteSpace [' ', ':', '-'] = [':', '-'] := by decide
    have e2 : RemoveWhiteSpace [' ', ' '] = [] := by decide
    rw [e1, e2]
    simp

/-- C30: printing undoes parsing up to white space.  Take a clause string `h :- b` whose
head `h` reads, without its white space, as `name(v_1,...,v_k)` and whose body `b` reads as
the comma-separated texts of `n ≥ 0` body literals, where every predicate name is a plain
name that the catalog maps to its predicate, every literal has at least one and at most
arity many variable ids, all of them non-negative `int`s in decimal, and the head ids pass
the checks of the clause constructor; the loops get enough fuel.  Then
`CreateClauseFromString` returns a clause with these head and body literals, `ToString`
prints it as `head :-  body_1, ..., body_n` with every literal printed as
`predicate(v_1, ..., v_k)`, and the printed text equals the string once white space is
removed from both. -/
theorem parse_print_roundtrip (catalog : List (List Char × FoilPredicate))
    (name : FoilPredicate → List Char) (fuel : Nat) (head : FoilPredicate × List Int)
    (body : List (FoilPredicate × List Int)) (s h b : List Char)
    (hl : ∀ l ∈ head :: body, plainName (name l.1) = true ∧
      catalog.find? (fun e => decide (e.1 = name l.1)) = some (name l.1, l.1) ∧
      l.2 ≠ [] ∧ l.2.length ≤ l.1.argument_types.length ∧
      (∀ id ∈ l.2, 0 ≤ id ∧ id < 2 ^ 31) ∧ l.2.length ≤ fuel)
    (hhead : headAsserts (FoilClause.CreateLiteral head.1 head.2).vars 0 = true)
    (hs : s = h ++ ':' :: '-' :: b)
    (hh : RemoveWhiteSpace h = literalText (name head.1) head.2)
    (hb : RemoveWhiteSpace b = commaSeparated (body.map (fun l => literalText (name l.1) l.2)))
    (hfuel : body.length < fuel) :
    ∃ clause text,
      CreateClauseFromString catalog fuel s = some clause ∧
      clause.head_literal = FoilClause.CreateLiteral head.1 head.2 ∧
      clause.body_literals = body.map (fun l => FoilClause.CreateLiteral l.1 l.2) ∧
      clause.ToString name = some text ∧
      text = printedClause (printedLiteral (name head.1) head.2)
        (body.map (fun l => printedLiteral (name l.1) l.2)) ∧
      RemoveWhiteSpace text = RemoveWhiteSpace s := by
  obtain ⟨clause, h1, h2, h3⟩ := createClause_total body
    (fun l hlm id hid => ((hl l (List.mem_cons_of_mem _ hlm)).2.2.2.2.1 id hid).1)
    (FoilClause.ofHead (FoilClause.CreateLiteral head.1 head.2))
  have h3b : clause.body_literals = body.map (fun l => FoilClause.CreateLiteral l.1 l.2) := by
    rw [h3]; rfl
  refine ⟨clause, _, ?_, h2, h3b,
    clause_toString name clause head body (fun l hlm => (hl l hlm).2.2.1) h2 h3b, rfl, ?_⟩
  · rw [createClauseFromString_text catalog name fuel head body s h b hl hhead hs hh hb hfuel]
    exact h1
  · rw [removeWhiteSpace_printedClause name head body
      (fun l hlm => ⟨(hl l hlm).1, (hl l hlm).2.2.2.2.1⟩), hs, removeWhiteSpace_append, hh]
    have : RemoveWhiteSpace (':' :: '-' :: b) = ':' :: '-' :: RemoveWhiteSpace b := by
      have e : (':' :: '-' :: b) = [':', '-'] ++ b := rfl
      rw [e, removeWhiteSpace_append]
      rfl
    rw [this, hb]

/-- The clause string of the parser test of the repository, in the catalog `p_0`..`p_5`. -/
theorem parse_print_roundtrip_witness :
    ∃ clause text,
      CreateClauseFromString testCatalog 100
        "p_0(0) :- p_1(1, 0), p_2(0, 1, 2), p_0(3), p_1(3, 4)".toList = some clause ∧
      clause.head_literal = FoilClause.CreateLiteral testPredicate0 [0] ∧
      clause.body_literals = [FoilClause.CreateLiteral testPredicate1 [1, 0],
        FoilClause.CreateLiteral testPredicate2 [0, 1, 2],
        FoilClause.CreateLiteral testPredicate0 [3],
        FoilClause.CreateLiteral testPredicate1 [3, 4]] ∧
      clause.ToString testName = some text ∧
      text = "p_0(0) :-  p_1(1, 0), p_2(0, 1, 2), p_0(3), p_1(3, 4)".toList ∧
      RemoveWhiteSpace text =
        "p_0(0):-p_1(1,0),p_2(0,1,2),p_0(3),p_1(3,4)".toList := by
  obtain ⟨clause, text, h1, h2, h3, h4, h5, h6⟩ := parse_print_roundtrip testCatalog testName 100
    (testPredicate0, [0])
    [(testPredicate1, [1, 0]), (testPredicate2, [0, 1, 2]), (testPredicate0, [3]),
      (testPredicate1, [3, 4])]
    "p_0(0) :- p_1(1, 0), p_2(0, 1, 2), p_0(3), p_1(3, 4)".toList
    "p_0(0) ".toList " p_1(1, 0), p_2(0, 1, 2), p_0(3), p_1(3, 4)".toList
    (by decide) (by decide) (by decide) (by decide) (by decide) (by decide)
  refine ⟨clause, text, h1, h2, h3, h4, ?_, ?_⟩
  · rw [h5]; decide
  · rw [h6]; decide

/-! ## The binding tables of a clause extended by a literal -/

theorem writeToBuffer_length (tids : List Nat) (input_values : List Int) (start : Nat)
    (output written : OutputBuffer)
    (h : WriteToBuffer tids input_values start output = some written) :
    written.length = output.length := by
  unfold WriteToBuffer at h
  cases hm : tids.mapM (fun tid => input_values.get? tid) with
  | none => rw [hm] at h; cases h
  | some values =>
    rw [hm] at h
    simp only at h
    by_cases hcap : start + values.length ≤ output.length
    · rw [if_pos hcap] at h
      have := Option.some.inj h
      rw [← this]
      have hw := written_cells output start (values.map some) (by
        rw [List.length_map]; exact hcap)
      rw [List.length_map] at hw
      exact hw.1
    · rw [if_neg hcap] at h
      by_cases he : values.isEmpty = true
      · rw [if_pos he] at h
        rw [← Option.some.inj h]
      · rw [if_neg he] at h
        cases h

theorem evaluateForJoin_length (column_id : Nat) (probe_column build_column : List (List Int))
    (probe_tids build_tids : List Nat) (start : Nat) (output written : OutputBuffer)
    (h : AttributeReference.EvaluateForJoin column_id probe_column build_column probe_tids
      build_tids start output = some written) :
    written.length = output.length := by
  unfold AttributeReference.EvaluateForJoin at h
  by_cases hc : column_id < probe_column.length
  · rw [if_pos hc] at h
    cases hg : probe_column.get? column_id with
    | none => rw [hg] at h; cases h
    | some values =>
      rw [hg] at h
      exact writeToBuffer_length _ _ _ _ _ h
  · rw [if_neg hc] at h
    cases hg : build_column.get? (column_id - probe_column.length) with
    | none => rw [hg] at h; cases h
    | some values =>
      rw [hg] at h
      exact writeToBuffer_length _ _ _ _ _ h

theorem set_same_length (buffers : List OutputBuffer) (i : Nat) (buffer written : OutputBuffer)
    (hget : buffers.get? i = some buffer) (hlen : written.length = buffer.length) :
    (buffers.set i written).map List.length = buffers.map List.length := by
  rw [List.get?_eq_getElem?] at hget
  apply List.ext_getElem?
  intro j
  rw [List.getElem?_map, List.getElem?_map, List.getElem?_set]
  by_cases hij : i = j
  · subst hij
    rw [if_pos rfl, hget]
    have hi : i < buffers.length := (List.getElem?_eq_some_iff.mp hget).1
    rw [if_pos hi]
    simp only [Option.map_some', hlen]
  · rw [if_neg hij]

theorem writeProjection_lengths (probe_column build_column : List (List Int))
    (probe_tids build_tids : List Nat) (output_offset : Nat)
    (buffers : List OutputBuffer) (e : Nat × Nat) (result : List OutputBuffer)
    (h : writeProjection probe_column build_column probe_tids build_tids output_offset buffers e
      = some result) :
    result.map List.length = buffers.map List.length := by
  unfold writeProjection at h
  cases hg : buffers.get? e.1 with
  | none => rw [hg] at h; cases h
  | some buffer =>
    rw [hg] at h
    simp only at h
    cases hw : AttributeReference.EvaluateForJoin e.2 probe_column build_column probe_tids
        build_tids output_offset buffer with
    | none => rw [hw] at h; cases h
    | some written =>
      rw [hw] at h
      rw [← Option.some.inj h]
      exact set_same_length buffers e.1 buffer written hg
        (evaluateForJoin_length _ _ _ _ _ _ _ _ hw)

theorem joinBlock_lengths (hash : Int → Nat) (fuel c : Nat)
    (populate_probe_tids populate_build_tids : Bool) (num_keys : Nat)
    (join : MultiColumnHashJoin) (build_table : TableView) (ht : FoilHashTable)
    (build_key_values : List (List Int)) (offset : Nat)
    (state state1 : List OutputBuffer × Nat)
    (h : joinBlock hash fuel c false populate_probe_tids populate_build_tids num_keys join
      build_table ht build_key_values offset state = some state1) :
    state1.1.map List.length = state.1.map List.length := by
  unfold joinBlock at h
  simp only at h
  cases hd : DoBlockJoin hash fuel num_keys populate_probe_tids populate_build_tids
      (min c (join.probe_table.num_tuples - offset))
      (join.probe_key_values.map (fun column => column.drop offset)) build_key_values ht with
  | none => rw [hd] at h; cases h
  | some tids =>
    obtain ⟨probe_tids, build_tids⟩ := tids
    rw [hd] at h
    simp only [Bool.false_eq_true, if_false] at h
    cases hf : join.project_expressions.enum.foldlM
        (writeProjection (join.probe_table.columns.map (fun column => column.drop offset))
          build_table.columns probe_tids build_tids state.2) state.1 with
    | none => rw [hf] at h; cases h
    | some written =>
      rw [hf] at h
      rw [← Option.some.inj h]
      exact option_foldlM_invariant _
        (fun (buffers : List OutputBuffer) => buffers.map List.length = state.1.map List.length)
        (fun b a b2 hstep hb => by
          rw [← hb]
          exact writeProjection_lengths _ _ _ _ _ _ _ _ hstep)
        _ _ _ hf rfl

theorem joinLoop_lengths (hash : Int → Nat) (fuel c : Nat)
    (populate_probe_tids populate_build_tids : Bool) (num_keys : Nat)
    (join : MultiColumnHashJoin) (build_table : TableView) (ht : FoilHashTable)
    (build_key_values : List (List Int)) :
    ∀ (loop_fuel offset : Nat) (state state1 : List OutputBuffer × Nat),
      joinLoop hash fuel c false populate_probe_tids populate_build_tids num_keys join
        build_table ht build_key_values loop_fuel offset state = some state1 →
      state1.1.map List.length = state.1.map List.length := by
  intro loop_fuel
  induction loop_fuel with
  | zero => intro offset state state1 h; rw [joinLoop] at h; cases h
  | succ loop_fuel ih =>
    intro offset state state1 h
    rw [joinLoop] at h
    by_cases hlt : offset < join.probe_table.num_tuples
    · rw [if_pos hlt] at h
      cases hb : joinBlock hash fuel c false populate_probe_tids populate_build_tids num_keys
          join build_table ht build_key_values offset state with
      | none => rw [hb] at h; cases h
      | some state2 =>
        rw [hb] at h
        rw [ih _ _ _ h]
        exact joinBlock_lengths _ _ _ _ _ _ _ _ _ _ _ _ _ hb
    · rw [if_neg hlt] at h
      rw [← Option.some.inj h]

/-- The join without resizing: every output buffer keeps its size and holds, from its
first cell on, the projection of the pairs of the join. -/
theorem join_fixed_spec (hash : Int → Nat) (probe_table build_table : TableView)
    (probe_keys build_keys project_expressions : List Nat)
    (probe_values build_values : List (List Int)) (ht : FoilHashTable)
    (populate_probe_tids populate_build_tids : Bool) (c fuel size : Nat)
    (output_buffers : List OutputBuffer)
    (W : JoinInput hash probe_table build_table probe_keys build_keys probe_values
      build_values ht)
    (hc : 0 < c)
    (hflags : populate_probe_tids = true ∨ populate_build_tids = true)
    (hprobe : ∀ column ∈ probe_table.columns, column.length = probe_table.num_tuples)
    (hbuild : ∀ column ∈ build_table.columns, column.length = build_table.num_tuples)
    (hproj : ∀ cid ∈ project_expressions,
      (cid < probe_table.columns.length ∧ populate_probe_tids = true) ∨
      (probe_table.columns.length ≤ cid ∧
        cid < probe_table.columns.length + build_table.columns.length ∧
        populate_build_tids = true))
    (hbuffers : output_buffers.length = project_expressions.length)
    (hsize : ∀ b ∈ output_buffers, b.length = size)
    (hfixed : (joinPairs probe_values build_values probe_table.num_tuples
        build_table.num_tuples).length ≤ size)
    (hfuel : build_table.num_tuples ≤ fuel) (hfuel2 : probe_table.num_tuples < fuel) :
    ∃ buffers,
      MultiColumnHashJoin.create probe_table probe_keys project_expressions =
        some ⟨probe_table, probe_values, project_expressions⟩ ∧
      (⟨probe_table, probe_values, project_expressions⟩ : MultiColumnHashJoin).Join hash fuel c
        false populate_probe_tids populate_build_tids build_table ht build_keys output_buffers
        = some buffers ∧
      buffers.length = project_expressions.length ∧
      (∀ b ∈ buffers, b.length = size) ∧
      ∀ i cid, project_expressions.get? i = some cid →
        (buffers.getD i []).take
            (joinPairs probe_values build_values probe_table.num_tuples
              build_table.num_tuples).length =
          (joinPairs probe_values build_values probe_table.num_tuples
            build_table.num_tuples).map
            (fun pr => some (projectPair probe_table build_table cid pr)) := by
  obtain ⟨hl1, hl2, _⟩ := joinInput_lengths _ _ _ _ _ _ _ _ W
  have hn : (probe_table.num_tuples + c - 1) / c ≤ probe_table.num_tuples := by
    by_contra h
    have h1 := chunk_count_lt c probe_table.num_tuples probe_table.num_tuples hc (by omega)
    have h2 : probe_table.num_tuples ≤ probe_table.num_tuples * c :=
      Nat.le_mul_of_pos_right _ hc
    omega
  have hinit : JoinProgress false project_expressions probe_table build_table
      (joinPairsFrom probe_values build_values build_table.num_tuples 0
        (min (0 * c) probe_table.num_tuples))
      (joinPairs probe_values build_values probe_table.num_tuples
        build_table.num_tuples).length (output_buffers, 0) := by
    rw [Nat.zero_mul, Nat.zero_min]
    refine ⟨hbuffers, rfl, fun i cid _ => rfl, fun h => absurd h (by decide), ?_⟩
    intro _ b hb
    rw [hsize b hb]
    exact hfixed
  obtain ⟨state, hloop, hI⟩ := joinLoop_spec hash probe_table build_table probe_keys build_keys
    project_expressions probe_values build_values ht W false populate_probe_tids
    populate_build_tids hflags hprobe hbuild hproj c fuel hc hfuel _ 0 fuel (output_buffers, 0)
    (Nat.zero_add _) (by omega) hinit
  rw [Nat.zero_mul] at hloop
  have hlens := joinLoop_lengths _ _ _ _ _ _ _ _ _ _ _ _ _ _ hloop
  obtain ⟨buffers, oo⟩ := state
  have hoo : oo = (joinPairs probe_values build_values probe_table.num_tuples
      build_table.num_tuples).length := hI.offset_eq
  refine ⟨buffers, ?_, ?_, hI.buffers_length, ?_, ?_⟩
  · unfold MultiColumnHashJoin.create
    rw [W.probe_columns]
  · unfold MultiColumnHashJoin.Join
    rw [W.build_columns]
    simp only
    rw [hl2, hloop]
    rfl
  · intro b hb
    have : b.length ∈ buffers.map List.length := List.mem_map_of_mem _ hb
    simp only at hlens
    rw [hlens] at this
    obtain ⟨b0, hb0, hb1⟩ := List.mem_map.mp this
    rw [← hb1]
    exact hsize b0 hb0
  · intro i cid hget
    have hw := hI.written i cid hget
    simp only at hw
    rw [← hoo]
    exact hw

/-- The cells of a buffer after a write of `left` at `lo` and a write of `right` through
the view from `vo` on at `ro`, when the left write stays below the view. -/
theorem collaborate_cells (b : OutputBuffer) (vo lo ro : Nat) (left right : List (Option Int))
    (h1 : lo + left.length ≤ vo) (h2 : vo + (ro + right.length) ≤ b.length) :
    (collaborateCells vo lo ro left right b).length = b.length ∧
    (collaborateCells vo lo ro left right b).take (lo + left.length) = b.take lo ++ left ∧
    ((collaborateCells vo lo ro left right b).drop vo).take (ro + right.length) =
      (b.drop vo).take ro ++ right := by
  unfold collaborateCells
  have hw := written_cells b lo left (by omega)
  generalize hb1 : b.take lo ++ left ++ b.drop (lo + left.length) = b1 at hw ⊢
  have hdrop : b1.drop vo = b.drop vo := by
    rw [← hb1]
    have hlen : (b.take lo ++ left).length = lo + left.length := by
      rw [List.length_append, List.length_take]
      omega
    rw [List.drop_append_eq_append_drop, hlen]
    have h0 : List.drop vo (b.take lo ++ left) = [] := by
      apply List.drop_eq_nil_of_le
      rw [hlen]
      exact h1
    rw [h0, List.nil_append, List.drop_drop]
    congr 1
    omega
  have hw2 := written_cells (b1.drop vo) ro right (by
    rw [List.length_drop, hw.1]
    omega)
  have htl : (b1.take vo).length = vo := by
    rw [List.length_take, hw.1]
    omega
  refine ⟨?_, ?_, ?_⟩
  · rw [List.length_append, hw2.1, htl, List.length_drop, hw.1]
    omega
  · rw [List.take_append_of_le_length (by rw [htl]; exact h1), List.take_take,
      Nat.min_eq_left h1]
    exact hw.2
  · have hd : List.drop vo (b1.take vo ++ (List.take ro (b1.drop vo) ++ right ++
        List.drop (ro + right.length) (b1.drop vo))) =
        List.take ro (b1.drop vo) ++ right ++ List.drop (ro + right.length) (b1.drop vo) := by
      have := List.drop_left (b1.take vo) (List.take ro (b1.drop vo) ++ right ++
        List.drop (ro + right.length) (b1.drop vo))
      rw [htl] at this
      exact this
    rw [hd, hw2.2, hdrop]

theorem writeCollaborate_step (view_offset : Nat)
    (probe_column left_build_column right_build_column : List (List Int))
    (left_probe_tids left_build_tids right_probe_tids right_build_tids : List Nat)
    (left_output_offset right_output_offset : Nat) (buffers : List OutputBuffer)
    (i cid : Nat) (b b1 w : OutputBuffer) (hget : buffers.get? i = some b)
    (hleft : AttributeReference.EvaluateForJoin cid probe_column left_build_column
      left_probe_tids left_build_tids left_output_offset b = some b1)
    (hright : AttributeReference.EvaluateForJoin cid probe_column right_build_column
      right_probe_tids right_build_tids right_output_offset (b1.drop view_offset) = some w) :
    writeCollaborate view_offset probe_column left_build_column right_build_column
      left_probe_tids left_build_tids right_probe_tids right_build_tids left_output_offset
      right_output_offset buffers (i, cid) =
      some (buffers.set i (b1.take view_offset ++ w)) := by
  have hi : i < buffers.length := by
    rw [List.get?_eq_getElem?] at hget
    exact (List.getElem?_eq_some_iff.mp hget).1
  have hget1 : (buffers.set i b1).get? i = some b1 := by
    rw [List.get?_eq_getElem?, List.getElem?_set_self hi]
  unfold writeCollaborate writeProjection
  simp only [hget, hleft]
  unfold writeProjectionInView
  simp only [hget1, hright, List.set_set]

theorem collaborateBlock_spec (hash : Int → Nat)
    (probe_table left_build_table right_build_table : TableView)
    (probe_keys build_keys project_expressions : List Nat)
    (probe_values left_build_values right_build_values : List (List Int))
    (left_ht right_ht : FoilHashTable)
    (WL : JoinInput hash probe_table left_build_table probe_keys build_keys probe_values
      left_build_values left_ht)
    (WR : JoinInput hash probe_table right_build_table probe_keys build_keys probe_values
      right_build_values right_ht)
    (populate_probe_tids populate_build_tids : Bool)
    (hflags : populate_probe_tids = true ∨ populate_build_tids = true)
    (hprobe : ∀ column ∈ probe_table.columns, column.length = probe_table.num_tuples)
    (hleft : ∀ column ∈ left_build_table.columns,
      column.length = left_build_table.num_tuples)
    (hright : ∀ column ∈ right_build_table.columns,
      column.length = right_build_table.num_tuples)
    (hcols : left_build_table.columns.length = right_build_table.columns.length)
    (hproj : ∀ cid ∈ project_expressions,
      (cid < probe_table.columns.length ∧ populate_probe_tids = true) ∨
      (probe_table.columns.length ≤ cid ∧
        cid < probe_table.columns.length + left_build_table.columns.length ∧
        populate_build_tids = true))
    (c fuel offset : Nat) (state : List OutputBuffer × Nat × Nat)
    (hfuelL : left_build_table.num_tuples ≤ fuel)
    (hfuelR : right_build_table.num_tuples ≤ fuel)
    (hoff : offset < probe_table.num_tuples)
    (hI : CollaborateProgress project_expressions probe_table left_build_table
      right_build_table
      (joinPairsFrom probe_values left_build_values left_build_table.num_tuples 0 offset)
      (joinPairsFrom probe_values right_build_values right_build_table.num_tuples 0 offset)
      (joinPairs probe_values left_build_values probe_table.num_tuples
        left_build_table.num_tuples).length
      ((joinPairs probe_values left_build_values probe_table.num_tuples
        left_build_table.num_tuples).length +
       (joinPairs probe_values right_build_values probe_table.num_tuples
        right_build_table.num_tuples).length) state) :
    ∃ state1,
      collaborateBlock hash fuel c populate_probe_tids populate_build_tids
          (templateKeys probe_keys.length) ⟨probe_table, probe_values, project_expressions⟩
          left_build_table right_build_table left_ht right_ht left_build_values
          right_build_values
          (joinPairs probe_values left_build_values probe_table.num_tuples
            left_build_table.num_tuples).length offset state = some state1 ∧
      CollaborateProgress project_expressions probe_table left_build_table right_build_table
        (joinPairsFrom probe_values left_build_values left_build_table.num_tuples 0
          (offset + min c (probe_table.num_tuples - offset)))
        (joinPairsFrom probe_values right_build_values right_build_table.num_tuples 0
          (offset + min c (probe_table.num_tuples - offset)))
        (joinPairs probe_values left_build_values probe_table.num_tuples
          left_build_table.num_tuples).length
        ((joinPairs probe_values left_build_values probe_table.num_tuples
          left_build_table.num_tuples).length +
         (joinPairs probe_values right_build_values probe_table.num_tuples
          right_build_table.num_tuples).length) state1 := by
  have hdoL := doBlockJoin_spec hash probe_table left_build_table probe_keys build_keys
    probe_values left_build_values left_ht WL populate_probe_tids populate_build_tids offset
    fuel hfuelL (min c (probe_table.num_tuples - offset)) (by omega)
  have hdoR := doBlockJoin_spec hash probe_table right_build_table probe_keys build_keys
    probe_values right_build_values right_ht WR populate_probe_tids populate_build_tids offset
    fuel hfuelR (min c (probe_table.num_tuples - offset)) (by omega)
  have hsplitL := joinPairsFrom_append probe_values left_build_values
    left_build_table.num_tuples 0 offset (min c (probe_table.num_tuples - offset))
  have hsplitR := joinPairsFrom_append probe_values right_build_values
    right_build_table.num_tuples 0 offset (min c (probe_table.num_tuples - offset))
  rw [Nat.zero_add] at hsplitL hsplitR
  have hle : ∀ (bv : List (List Int)) (rows : Nat),
      (joinPairsFrom probe_values bv rows 0 offset).length +
      (joinPairsFrom probe_values bv rows offset
        (min c (probe_table.num_tuples - offset))).length ≤
      (joinPairs probe_values bv probe_table.num_tuples rows).length := by
    intro bv rows
    have h1 := joinPairsFrom_append probe_values bv rows 0 offset
      (min c (probe_table.num_tuples - offset))
    rw [Nat.zero_add] at h1
    have h2 := joinPairsFrom_append probe_values bv rows 0
      (offset + min c (probe_table.num_tuples - offset))
      (probe_table.num_tuples - (offset + min c (probe_table.num_tuples - offset)))
    have h3 : offset + min c (probe_table.num_tuples - offset) +
        (probe_table.num_tuples - (offset + min c (probe_table.num_tuples - offset))) =
        probe_table.num_tuples := by omega
    rw [h3] at h2
    unfold joinPairs
    rw [h2, h1, List.length_append, List.length_append]
    omega
  have hleL := hle left_build_values left_build_table.num_tuples
  have hleR := hle right_build_values right_build_table.num_tuples
  have hmemL : ∀ pr ∈ joinPairsFrom probe_values left_build_values
      left_build_table.num_tuples offset (min c (probe_table.num_tuples - offset)),
      offset ≤ pr.1 ∧ pr.1 < probe_table.num_tuples ∧ pr.2 < left_build_table.num_tuples := by
    intro pr hpr
    have := mem_joinPairsFrom _ _ _ _ _ pr hpr
    omega
  have hmemR : ∀ pr ∈ joinPairsFrom probe_values right_build_values
      right_build_table.num_tuples offset (min c (probe_table.num_tuples - offset)),
      offset ≤ pr.1 ∧ pr.1 < probe_table.num_tuples ∧ pr.2 < right_build_table.num_tuples := by
    intro pr hpr
    have := mem_joinPairsFrom _ _ _ _ _ pr hpr
    omega
  generalize hNP : (joinPairs probe_values left_build_values probe_table.num_tuples
    left_build_table.num_tuples).length = np at hI hleL ⊢
  generalize hNN : (joinPairs probe_values right_build_values probe_table.num_tuples
    right_build_table.num_tuples).length = nn at hI hleR ⊢
  generalize joinPairsFrom probe_values left_build_values left_build_table.num_tuples offset
    (min c (probe_table.num_tuples - offset)) = blkL at hdoL hsplitL hleL hmemL
  generalize joinPairsFrom probe_values right_build_values right_build_table.num_tuples offset
    (min c (probe_table.num_tuples - offset)) = blkR at hdoR hsplitR hleR hmemR
  generalize hPL : joinPairsFrom probe_values left_build_values left_build_table.num_tuples 0
    offset = preL at hI hsplitL hleL
  generalize hPR : joinPairsFrom probe_values right_build_values right_build_table.num_tuples 0
    offset = preR at hI hsplitR hleR
  obtain ⟨buffers, lo, ro⟩ := state
  have hlo : lo = preL.length := hI.left_offset
  have hro : ro = preR.length := hI.right_offset
  have hcap : ∀ b ∈ buffers, b.length = np + nn := hI.capacity
  have hnum : ∀ (blk : List (Nat × Nat)), (if populate_build_tids = true then
        (if populate_build_tids = true then blk.map Prod.snd else []).length
      else
        (if populate_probe_tids = true then blk.map (fun pr => pr.1 - offset) else []).length) =
      blk.length := by
    intro blk
    cases hb : populate_build_tids with
    | true => simp
    | false =>
      have hp : populate_probe_tids = true := by
        rcases hflags with h | h
        · exact h
        · rw [hb] at h; exact absurd h (by decide)
      simp [hp]
  have hprojR : ∀ cid ∈ project_expressions,
      (cid < probe_table.columns.length ∧ populate_probe_tids = true) ∨
      (probe_table.columns.length ≤ cid ∧
        cid < probe_table.columns.length + right_build_table.columns.length ∧
        populate_build_tids = true) := by
    intro cid hcid
    rw [← hcols]
    exact hproj cid hcid
  have hevalL : ∀ cid ∈ project_expressions, ∀ b ∈ buffers,
      AttributeReference.EvaluateForJoin cid
        (probe_table.columns.map (fun column => column.drop offset))
        left_build_table.columns
        (if populate_probe_tids then blkL.map (fun pr => pr.1 - offset) else [])
        (if populate_build_tids then blkL.map Prod.snd else []) lo b =
      some (b.take lo ++
        blkL.map (fun pr => some (projectPair probe_table left_build_table cid pr)) ++
        b.drop (lo + blkL.length)) := by
    intro cid hcid b hb
    exact evaluateForJoin_block probe_table left_build_table populate_probe_tids
      populate_build_tids cid offset _ lo b hprobe hleft (hproj cid hcid) hmemL (by
        rw [hcap b hb]; omega)
  have hevalL : ∀ cid ∈ project_expressions, ∀ b ∈ buffers,
      AttributeReference.EvaluateForJoin cid
        (probe_table.columns.map (fun column => column.drop offset))
        left_build_table.columns
        (if populate_probe_tids then blkL.map (fun pr => pr.1 - offset) else [])
        (if populate_build_tids then blkL.map Prod.snd else []) lo b =
      some (b.take lo ++
        blkL.map (fun pr => some (projectPair probe_table left_build_table cid pr)) ++
        b.drop (lo + blkL.length)) := by
    intro cid hcid b hb
    exact evaluateForJoin_block probe_table left_build_table populate_probe_tids
      populate_build_tids cid offset _ lo b hprobe hleft (hproj cid hcid) hmemL (by
        rw [hcap b hb]; omega)
  have hevalR : ∀ cid ∈ project_expressions, ∀ (b1 : OutputBuffer), b1.length = np + nn →
      AttributeReference.EvaluateForJoin cid
        (probe_table.columns.map (fun column => column.drop offset))
        right_build_table.columns
        (if populate_probe_tids then blkR.map (fun pr => pr.1 - offset) else [])
        (if populate_build_tids then blkR.map Prod.snd else []) ro (b1.drop np) =
      some ((b1.drop np).take ro ++
        blkR.map (fun pr => some (projectPair probe_table right_build_table cid pr)) ++
        (b1.drop np).drop (ro + blkR.length)) := by
    intro cid hcid b1 hb1
    exact evaluateForJoin_block probe_table right_build_table populate_probe_tids
      populate_build_tids cid offset _ ro (b1.drop np) hprobe hright (hprojR cid hcid) hmemR (by
        rw [List.length_drop, hb1]; omega)
  have hwrite := enum_foldlM_set
    (writeCollaborate np (probe_table.columns.map (fun column => column.drop offset))
      left_build_table.columns right_build_table.columns
      (if populate_probe_tids then blkL.map (fun pr => pr.1 - offset) else [])
      (if populate_build_tids then blkL.map Prod.snd else [])
      (if populate_probe_tids then blkR.map (fun pr => pr.1 - offset) else [])
      (if populate_build_tids then blkR.map Prod.snd else []) lo ro)
    (fun (cid : Nat) (b : OutputBuffer) =>
      match AttributeReference.EvaluateForJoin cid
          (probe_table.columns.map (fun column => column.drop offset))
          left_build_table.columns
          (if populate_probe_tids then blkL.map (fun pr => pr.1 - offset) else [])
          (if populate_build_tids then blkL.map Prod.snd else []) lo b with
      | none => none
      | some b1 =>
        match AttributeReference.EvaluateForJoin cid
            (probe_table.columns.map (fun column => column.drop offset))
            right_build_table.columns
            (if populate_probe_tids then blkR.map (fun pr => pr.1 - offset) else [])
            (if populate_build_tids then blkR.map Prod.snd else []) ro (b1.drop np) with
        | none => none
        | some w => some (b1.take np ++ w))
    (fun (cid : Nat) (b : OutputBuffer) =>
      collaborateCells np lo ro
        (blkL.map (fun pr => some (projectPair probe_table left_build_table cid pr)))
        (blkR.map (fun pr => some (projectPair probe_table right_build_table cid pr))) b)
    (fun bufs i cid b hget hf => by
      simp only at hf
      cases hL : AttributeReference.EvaluateForJoin cid
          (probe_table.columns.map (fun column => column.drop offset))
          left_build_table.columns
          (if populate_probe_tids then blkL.map (fun pr => pr.1 - offset) else [])
          (if populate_build_tids then blkL.map Prod.snd else []) lo b with
      | none => rw [hL] at hf; cases hf
      | some b1 =>
        rw [hL] at hf
        simp only at hf
        cases hR : AttributeReference.EvaluateForJoin cid
            (probe_table.columns.map (fun column => column.drop offset))
            right_build_table.columns
            (if populate_probe_tids then blkR.map (fun pr => pr.1 - offset) else [])
            (if populate_build_tids then blkR.map Prod.snd else []) ro (b1.drop np) with
        | none => rw [hR] at hf; cases hf
        | some w =>
          rw [hR] at hf
          dsimp only
          rw [← Option.some.inj hf]
          exact writeCollaborate_step np _ _ _ _ _ _ _ lo ro bufs i cid b b1 w hget hL hR)
    project_expressions [] buffers (by rw [hI.buffers_length])
    (fun cid b hmem => by
      have hc := (List.of_mem_zip hmem).1
      have hb := (List.of_mem_zip hmem).2
      simp only
      rw [hevalL cid hc b hb]
      simp only
      have hw := written_cells b lo
        (blkL.map (fun pr => some (projectPair probe_table left_build_table cid pr)))
        (by rw [List.length_map, hcap b hb]; omega)
      rw [List.length_map] at hw
      rw [hevalR cid hc _ (by rw [hw.1]; exact hcap b hb)]
      unfold collaborateCells
      simp only [List.length_map])
  refine ⟨(List.zipWith (fun (cid : Nat) (b : OutputBuffer) =>
      collaborateCells np lo ro
        (blkL.map (fun pr => some (projectPair probe_table left_build_table cid pr)))
        (blkR.map (fun pr => some (projectPair probe_table right_build_table cid pr))) b)
      project_expressions buffers, lo + blkL.length, ro + blkR.length), ?_, ?_⟩
  · unfold collaborateBlock
    simp only [hdoL, hdoR, hnum]
    rw [List.nil_append, List.nil_append] at hwrite
    have he : project_expressions.enum = List.enumFrom ([] : List OutputBuffer).length
        project_expressions := rfl
    rw [he, hwrite]
  · rw [hsplitL, hsplitR]
    have hcell : ∀ cid, ∀ b ∈ buffers,
        (collaborateCells np lo ro
          (blkL.map (fun pr => some (projectPair probe_table left_build_table cid pr)))
          (blkR.map (fun pr => some (projectPair probe_table right_build_table cid pr)))
          b).length = b.length ∧
        (collaborateCells np lo ro
          (blkL.map (fun pr => some (projectPair probe_table left_build_table cid pr)))
          (blkR.map (fun pr => some (projectPair probe_table right_build_table cid pr)))
          b).take (lo + blkL.length) = b.take lo ++
            blkL.map (fun pr => some (projectPair probe_table left_build_table cid pr)) ∧
        ((collaborateCells np lo ro
          (blkL.map (fun pr => some (projectPair probe_table left_build_table cid pr)))
          (blkR.map (fun pr => some (projectPair probe_table right_build_table cid pr)))
          b).drop np).take (ro + blkR.length) = (b.drop np).take ro ++
            blkR.map (fun pr => some (projectPair probe_table right_build_table cid pr)) := by
      intro cid b hb
      have := collaborate_cells b np lo ro
        (blkL.map (fun pr => some (projectPair probe_table left_build_table cid pr)))
        (blkR.map (fun pr => some (projectPair probe_table right_build_table cid pr)))
        (by rw [List.length_map]; omega)
        (by rw [List.length_map, hcap b hb]; omega)
      rw [List.length_map, List.length_map] at this
      exact this
    refine ⟨?_, ?_, ?_, ?_, ?_, ?_⟩
    · simp only [List.length_zipWith, hI.buffers_length, Nat.min_self]
    · simp only [List.length_append, hlo]
    · simp only [List.length_append, hro]
    · intro b hb
      rw [List.mem_iff_getElem?] at hb
      obtain ⟨i, hi⟩ := hb
      rw [List.getElem?_zipWith] at hi
      cases hp : project_expressions[i]? with
      | none => rw [hp] at hi; simp at hi
      | some cid =>
        cases hq : buffers[i]? with
        | none => rw [hp, hq] at hi; simp at hi
        | some buf =>
          rw [hp, hq] at hi
          simp only [Option.map_some', Option.bind_some, Option.some.injEq] at hi
          have hmem : buf ∈ buffers := List.getElem?_mem hq
          have hlen := (hcell cid buf hmem).1
          rw [hi] at hlen
          rw [hlen]
          exact hcap buf hmem
    · intro i cid hget
      have hi : i < buffers.length := by
        have h0 : (buffers, lo, ro).1.length = project_expressions.length := hI.buffers_length
        simp only at h0
        rw [h0]
        rw [List.get?_eq_getElem?] at hget
        exact (List.getElem?_eq_some_iff.mp hget).1
      simp only
      rw [getD_zipWith_of_lt _ project_expressions buffers i cid [] [] hget hi]
      rw [(hcell cid _ (getD_mem_of_lt buffers i [] hi)).2.1]
      have := hI.written_left i cid hget
      simp only at this
      rw [this, List.map_append]
    · intro i cid hget
      have hi : i < buffers.length := by
        have h0 : (buffers, lo, ro).1.length = project_expressions.length := hI.buffers_length
        simp only at h0
        rw [h0]
        rw [List.get?_eq_getElem?] at hget
        exact (List.getElem?_eq_some_iff.mp hget).1
      simp only
      rw [getD_zipWith_of_lt _ project_expressions buffers i cid [] [] hget hi]
      rw [(hcell cid _ (getD_mem_of_lt buffers i [] hi)).2.2]
      have := hI.written_right i cid hget
      simp only at this
      rw [this, List.map_append]

theorem collaborateLoop_spec (hash : Int → Nat)
    (probe_table left_build_table right_build_table : TableView)
    (probe_keys build_keys project_expressions : List Nat)
    (probe_values left_build_values right_build_values : List (List Int))
    (left_ht right_ht : FoilHashTable)
    (WL : JoinInput hash probe_table left_build_table probe_keys build_keys probe_values
      left_build_values left_ht)
    (WR : JoinInput hash probe_table right_build_table probe_keys build_keys probe_values
      right_build_values right_ht)
    (populate_probe_tids populate_build_tids : Bool)
    (hflags : populate_probe_tids = true ∨ populate_build_tids = true)
    (hprobe : ∀ column ∈ probe_table.columns, column.length = probe_table.num_tuples)
    (hleft : ∀ column ∈ left_build_table.columns,
      column.length = left_build_table.num_tuples)
    (hright : ∀ column ∈ right_build_table.columns,
      column.length = right_build_table.num_tuples)
    (hcols : left_build_table.columns.length = right_build_table.columns.length)
    (hproj : ∀ cid ∈ project_expressions,
      (cid < probe_table.columns.length ∧ populate_probe_tids = true) ∨
      (probe_table.columns.length ≤ cid ∧
        cid < probe_table.columns.length + left_build_table.columns.length ∧
        populate_build_tids = true))
    (c fuel : Nat) (hc : 0 < c)
    (hfuelL : left_build_table.num_tuples ≤ fuel)
    (hfuelR : right_build_table.num_tuples ≤ fuel) :
    ∀ (d k loop_fuel : Nat) (state : List OutputBuffer × Nat × Nat),
      k + d = (probe_table.num_tuples + c - 1) / c → d < loop_fuel →
      CollaborateProgress project_expressions probe_table left_build_table right_build_table
        (joinPairsFrom probe_values left_build_values left_build_table.num_tuples 0
          (min (k * c) probe_table.num_tuples))
        (joinPairsFrom probe_values right_build_values right_build_table.num_tuples 0
          (min (k * c) probe_table.num_tuples))
        (joinPairs probe_values left_build_values probe_table.num_tuples
          left_build_table.num_tuples).length
        ((joinPairs probe_values left_build_values probe_table.num_tuples
          left_build_table.num_tuples).length +
         (joinPairs probe_values right_build_values probe_table.num_tuples
          right_build_table.num_tuples).length) state →
      ∃ state1,
        collaborateLoop hash fuel c populate_probe_tids populate_build_tids
            (templateKeys probe_keys.length) ⟨probe_table, probe_values, project_expressions⟩
            left_build_table right_build_table left_ht right_ht left_build_values
            right_build_values
            (joinPairs probe_values left_build_values probe_table.num_tuples
              left_build_table.num_tuples).length loop_fuel (k * c) state = some state1 ∧
        CollaborateProgress project_expressions probe_table left_build_table right_build_table
          (joinPairs probe_values left_build_values probe_table.num_tuples
            left_build_table.num_tuples)
          (joinPairs probe_values right_build_values probe_table.num_tuples
            right_build_table.num_tuples)
          (joinPairs probe_values left_build_values probe_table.num_tuples
            left_build_table.num_tuples).length
          ((joinPairs probe_values left_build_values probe_table.num_tuples
            left_build_table.num_tuples).length +
           (joinPairs probe_values right_build_values probe_table.num_tuples
            right_build_table.num_tuples).length) state1 := by
  intro d
  induction d with
  | zero =>
    intro k loop_fuel state hk hlf hI
    have hle := chunk_count_le c probe_table.num_tuples hc
    rw [Nat.add_zero] at hk
    rw [← hk] at hle
    rw [Nat.min_eq_right hle] at hI
    cases loop_fuel with
    | zero => omega
    | succ loop_fuel =>
      refine ⟨state, ?_, hI⟩
      rw [collaborateLoop, if_neg (by simp only [not_lt]; exact hle)]
  | succ d ih =>
    intro k loop_fuel state hk hlf hI
    have hlt := chunk_count_lt c probe_table.num_tuples k hc (by omega)
    rw [Nat.min_eq_left (le_of_lt hlt)] at hI
    cases loop_fuel with
    | zero => omega
    | succ loop_fuel =>
      obtain ⟨state1, hblock, hI1⟩ := collaborateBlock_spec hash probe_table left_build_table
        right_build_table probe_keys build_keys project_expressions probe_values
        left_build_values right_build_values left_ht right_ht WL WR populate_probe_tids
        populate_build_tids hflags hprobe hleft hright hcols hproj c fuel (k * c) state
        hfuelL hfuelR hlt hI
      have hrows : k * c + min c (probe_table.num_tuples - k * c) =
          min ((k + 1) * c) probe_table.num_tuples := by
        rw [Nat.succ_mul]
        omega
      rw [hrows] at hI1
      obtain ⟨state2, hloop, hI2⟩ := ih (k + 1) loop_fuel state1 (by omega) (by omega) hI1
      refine ⟨state2, ?_, hI2⟩
      rw [collaborateLoop, if_pos hlt]
      simp only [hblock]
      have hnext : k * c + c = (k + 1) * c := by rw [Nat.succ_mul]
      rw [hnext]
      exact hloop

/-- The joins with two build tables into one set of output buffers: the buffers hold the
projections of the left pairs, followed by those of the right pairs. -/
theorem collaborateJoin_spec (hash : Int → Nat)
    (probe_table left_build_table right_build_table : TableView)
    (probe_keys build_keys project_expressions : List Nat)
    (probe_values left_build_values right_build_values : List (List Int))
    (left_ht right_ht : FoilHashTable)
    (WL : JoinInput hash probe_table left_build_table probe_keys build_keys probe_values
      left_build_values left_ht)
    (WR : JoinInput hash probe_table right_build_table probe_keys build_keys probe_values
      right_build_values right_ht)
    (populate_probe_tids populate_build_tids : Bool)
    (hflags : populate_probe_tids = true ∨ populate_build_tids = true)
    (hprobe : ∀ column ∈ probe_table.columns, column.length = probe_table.num_tuples)
    (hleft : ∀ column ∈ left_build_table.columns,
      column.length = left_build_table.num_tuples)
    (hright : ∀ column ∈ right_build_table.columns,
      column.length = right_build_table.num_tuples)
    (hcols : left_build_table.columns.length = right_build_table.columns.length)
    (hproj : ∀ cid ∈ project_expressions,
      (cid < probe_table.columns.length ∧ populate_probe_tids = true) ∨
      (probe_table.columns.length ≤ cid ∧
        cid < probe_table.columns.length + left_build_table.columns.length ∧
        populate_build_tids = true))
    (c fuel : Nat) (hc : 0 < c)
    (hfuelL : left_build_table.num_tuples ≤ fuel)
    (hfuelR : right_build_table.num_tuples ≤ fuel)
    (hfuelP : probe_table.num_tuples < fuel)
    (output_buffers : List OutputBuffer)
    (hbuffers : output_buffers.length = project_expressions.length)
    (hsize : ∀ b ∈ output_buffers, b.length =
      (joinPairs probe_values left_build_values probe_table.num_tuples
        left_build_table.num_tuples).length +
      (joinPairs probe_values right_build_values probe_table.num_tuples
        right_build_table.num_tuples).length) :
    ∃ buffers,
      MultiColumnHashJoin.create probe_table probe_keys project_expressions =
        some ⟨probe_table, probe_values, project_expressions⟩ ∧
      (⟨probe_table, probe_values, project_expressions⟩ : MultiColumnHashJoin).CollaborateJoin
        hash fuel c populate_probe_tids populate_build_tids left_build_table right_build_table
        left_ht right_ht build_keys
        (joinPairs probe_values left_build_values probe_table.num_tuples
          left_build_table.num_tuples).length output_buffers = some buffers ∧
      buffers.length = project_expressions.length ∧
      (∀ b ∈ buffers, b.length =
        (joinPairs probe_values left_build_values probe_table.num_tuples
          left_build_table.num_tuples).length +
        (joinPairs probe_values right_build_values probe_table.num_tuples
          right_build_table.num_tuples).length) ∧
      ∀ i cid, project_expressions.get? i = some cid →
        (buffers.getD i []).take
            (joinPairs probe_values left_build_values probe_table.num_tuples
              left_build_table.num_tuples).length =
          (joinPairs probe_values left_build_values probe_table.num_tuples
            left_build_table.num_tuples).map
            (fun pr => some (projectPair probe_table left_build_table cid pr)) ∧
        ((buffers.getD i []).drop
            (joinPairs probe_values left_build_values probe_table.num_tuples
              left_build_table.num_tuples).length).take
            (joinPairs probe_values right_build_values probe_table.num_tuples
              right_build_table.num_tuples).length =
          (joinPairs probe_values right_build_values probe_table.num_tuples
            right_build_table.num_tuples).map
            (fun pr => some (projectPair probe_table right_build_table cid pr)) := by
  obtain ⟨_, hl2, _⟩ := joinInput_lengths _ _ _ _ _ _ _ _ WL
  have hn : (probe_table.num_tuples + c - 1) / c ≤ probe_table.num_tuples := by
    by_contra h
    have h1 := chunk_count_lt c probe_table.num_tuples probe_table.num_tuples hc (by omega)
    have h2 : probe_table.num_tuples ≤ probe_table.num_tuples * c :=
      Nat.le_mul_of_pos_right _ hc
    omega
  have hinit : CollaborateProgress project_expressions probe_table left_build_table
      right_build_table
      (joinPairsFrom probe_values left_build_values left_build_table.num_tuples 0
        (min (0 * c) probe_table.num_tuples))
      (joinPairsFrom probe_values right_build_values right_build_table.num_tuples 0
        (min (0 * c) probe_table.num_tuples))
      (joinPairs probe_values left_build_values probe_table.num_tuples
        left_build_table.num_tuples).length
      ((joinPairs probe_values left_build_values probe_table.num_tuples
        left_build_table.num_tuples).length +
       (joinPairs probe_values right_build_values probe_table.num_tuples
        right_build_table.num_tuples).length) (output_buffers, 0, 0) := by
    rw [Nat.zero_mul, Nat.zero_min]
    exact ⟨hbuffers, rfl, rfl, hsize, fun i cid _ => rfl, fun i cid _ => rfl⟩
  obtain ⟨state, hloop, hI⟩ := collaborateLoop_spec hash probe_table left_build_table
    right_build_table probe_keys build_keys project_expressions probe_values left_build_values
    right_build_values left_ht right_ht WL WR populate_probe_tids populate_build_tids hflags
    hprobe hleft hright hcols hproj c fuel hc hfuelL hfuelR _ 0 fuel (output_buffers, 0, 0)
    (Nat.zero_add _) (by omega) hinit
  rw [Nat.zero_mul] at hloop
  obtain ⟨buffers, lo, ro⟩ := state
  have hlo : lo = (joinPairs probe_values left_build_values probe_table.num_tuples
      left_build_table.num_tuples).length := hI.left_offset
  have hro : ro = (joinPairs probe_values right_build_values probe_table.num_tuples
      right_build_table.num_tuples).length := hI.right_offset
  refine ⟨buffers, ?_, ?_, hI.buffers_length, hI.capacity, ?_⟩
  · unfold MultiColumnHashJoin.create
    rw [WL.probe_columns]
  · unfold MultiColumnHashJoin.CollaborateJoin
    rw [WL.build_columns, WR.build_columns]
    simp only
    rw [hl2, hloop]
  · intro i cid hget
    have h1 := hI.written_left i cid hget
    have h2 := hI.written_right i cid hget
    simp only at h1 h2
    rw [← hlo] at h2
    rw [← hlo, ← hro]
    exact ⟨h1, h2⟩

theorem keyColumns_of_lt (keys : List Nat) (columns : List (List Int))
    (h : ∀ k ∈ keys, k < columns.length) :
    keyColumns keys columns = some (keys.map (fun k => columns.getD k [])) := by
  unfold keyColumns
  exact option_mapM_map _ _ keys (fun k hk => get?_eq_some_getD _ _ _ (h k hk))

theorem mem_boundPositions (vars : List FoilVariable) (i : Nat) :
    i ∈ boundPositions vars ↔ i < vars.length ∧ (vars.getD i ⟨-1, -1⟩).IsBound = true := by
  unfold boundPositions
  rw [List.mem_filter, List.mem_range]

theorem mem_unboundPositions (vars : List FoilVariable) (i : Nat) :
    i ∈ unboundPositions vars ↔ i < vars.length ∧ (vars.getD i ⟨-1, -1⟩).IsBound = false := by
  unfold unboundPositions
  rw [List.mem_filter, List.mem_range]
  simp

theorem boundPositions_ne_nil (vars : List FoilVariable)
    (h : ∃ v ∈ vars, v.IsBound = true) : boundPositions vars ≠ [] := by
  obtain ⟨v, hv, hb⟩ := h
  obtain ⟨i, hi, hget⟩ := List.getElem_of_mem hv
  intro hnil
  have : i ∈ boundPositions vars := by
    rw [mem_boundPositions]
    refine ⟨hi, ?_⟩
    rw [List.getD_eq_getElem?_getD, List.getElem?_eq_getElem hi]
    simp only [Option.getD_some]
    rw [hget]
    exact hb
  rw [hnil] at this
  cases this

theorem boundVariables_lt (vars : List FoilVariable) (n : Nat)
    (hvars : ∀ v ∈ vars, v.IsBound = true → v.variable_id < (n : Int)) :
    ∀ k ∈ boundVariables vars, k < n := by
  intro k hk
  unfold boundVariables at hk
  obtain ⟨i, hi, rfl⟩ := List.mem_map.mp hk
  rw [mem_boundPositions] at hi
  have hmem : vars.getD i ⟨-1, -1⟩ ∈ vars := getD_mem_of_lt vars i _ hi.1
  have h1 := hvars _ hmem hi.2
  have h2 : 0 ≤ (vars.getD i ⟨-1, -1⟩).variable_id := by
    have := hi.2
    unfold FoilVariable.IsBound at this
    exact of_decide_eq_true this
  omega

/-- The key rows of a binding row and of a fact row are equal exactly when the rows
match on the bound arguments. -/
theorem keyRow_eq_iff_match (binding_table background_table : TableView)
    (vars : List FoilVariable) (b f : Nat) :
    keyRow ((boundVariables vars).map (fun k => binding_table.columns.getD k [])) b =
      keyRow ((boundPositions vars).map (fun k => background_table.columns.getD k [])) f ↔
    bindingsMatch binding_table background_table vars b f = true := by
  unfold keyRow boundVariables bindingsMatch
  rw [List.map_map, List.map_map, List.map_map, List.map_inj_left, List.all_eq_true]
  constructor
  · intro h i hi
    have := h i hi
    simp only [Function.comp] at this
    rw [decide_eq_true_eq]
    exact this.symm
  · intro h i hi
    have := h i hi
    rw [decide_eq_true_eq] at this
    simp only [Function.comp]
    exact this.symm

theorem mem_bindingJoinPairs (binding_table background_table : TableView)
    (vars : List FoilVariable) (pr : Nat × Nat) :
    pr ∈ bindingJoinPairs binding_table background_table vars ↔
      pr.1 < binding_table.num_tuples ∧ pr.2 < background_table.num_tuples ∧
        bindingsMatch binding_table background_table vars pr.1 pr.2 = true := by
  unfold bindingJoinPairs
  rw [List.mem_flatMap]
  constructor
  · rintro ⟨b, hb, hmem⟩
    rw [List.mem_map] at hmem
    obtain ⟨f, hf, rfl⟩ := hmem
    rw [List.mem_filter, List.mem_range] at hf
    rw [List.mem_range] at hb
    exact ⟨hb, hf.1, hf.2⟩
  · rintro ⟨h1, h2, h3⟩
    refine ⟨pr.1, by rw [List.mem_range]; exact h1, ?_⟩
    rw [List.mem_map]
    refine ⟨pr.2, ?_, rfl⟩
    rw [List.mem_filter, List.mem_range]
    exact ⟨h2, h3⟩

theorem bindingJoinPairs_nodup (binding_table background_table : TableView)
    (vars : List FoilVariable) :
    (bindingJoinPairs binding_table background_table vars).Nodup := by
  unfold bindingJoinPairs
  rw [List.nodup_flatMap]
  constructor
  · intro b _
    apply List.Nodup.map
    · intro x y h
      exact (Prod.mk.inj h).2
    · exact (List.nodup_range _).filter _
  · apply List.Nodup.pairwise_of_forall_ne (List.nodup_range _)
    intro x _ y _ hxy
    intro pr h1 h2
    rw [List.mem_map] at h1 h2
    obtain ⟨u, _, rfl⟩ := h1
    obtain ⟨v, _, hv⟩ := h2
    exact hxy (Prod.mk.inj hv).1.symm

/-- The pairs of the hash join probed with the binding rows are the pairs of the
equi-join, up to their order. -/
theorem joinPairs_perm_binding (binding_table background_table : TableView)
    (vars : List FoilVariable) :
    (joinPairs ((boundVariables vars).map (fun k => binding_table.columns.getD k []))
      ((boundPositions vars).map (fun k => background_table.columns.getD k []))
      binding_table.num_tuples background_table.num_tuples).Perm
      (bindingJoinPairs binding_table background_table vars) := by
  rw [List.perm_ext_iff_of_nodup (joinPairs_nodup _ _ _ _) (bindingJoinPairs_nodup _ _ _)]
  intro pr
  rw [mem_joinPairs, mem_bindingJoinPairs, keyRow_eq_iff_match]

/-- The pairs of the hash join probed with the fact rows are the pairs of the equi-join
with their components swapped, up to their order. -/
theorem joinPairs_swap_perm_binding (binding_table background_table : TableView)
    (vars : List FoilVariable) :
    ((joinPairs ((boundPositions vars).map (fun k => background_table.columns.getD k []))
      ((boundVariables vars).map (fun k => binding_table.columns.getD k []))
      background_table.num_tuples binding_table.num_tuples).map Prod.swap).Perm
      (bindingJoinPairs binding_table background_table vars) := by
  rw [List.perm_ext_iff_of_nodup
    ((joinPairs_nodup _ _ _ _).map Prod.swap_injective) (bindingJoinPairs_nodup _ _ _)]
  intro pr
  rw [List.mem_map, mem_bindingJoinPairs, ← keyRow_eq_iff_match]
  constructor
  · rintro ⟨q, hq, rfl⟩
    rw [mem_joinPairs] at hq
    exact ⟨hq.2.1, hq.1, hq.2.2.symm⟩
  · rintro ⟨h1, h2, h3⟩
    refine ⟨(pr.2, pr.1), ?_, rfl⟩
    rw [mem_joinPairs]
    exact ⟨h2, h1, h3.symm⟩

/-- The rows of output buffers whose columns hold the projections of a list of pairs. -/
theorem rowsOf_columns (n : Nat) (buffers : List OutputBuffer) (project_expressions : List Nat)
    (pairs : List (Nat × Nat)) (value : Nat → Nat × Nat → Int)
    (hlen : buffers.length = project_expressions.length) (hn : n = pairs.length)
    (hcol : ∀ i cid, project_expressions.get? i = some cid →
      (buffers.getD i []).take n = pairs.map (fun pr => some (value cid pr))) :
    rowsOf n buffers =
      pairs.map (fun pr => project_expressions.map (fun cid => some (value cid pr))) := by
  unfold rowsOf
  apply List.ext_getElem
  · rw [List.length_map, List.length_map, List.length_range, hn]
  · intro r h1 h2
    rw [List.getElem_map, List.getElem_map, List.getElem_range]
    rw [List.length_map, List.length_range] at h1
    apply List.ext_getElem
    · rw [List.length_map, List.length_map, hlen]
    · intro i h3 h4
      rw [List.getElem_map, List.getElem_map]
      rw [List.length_map] at h3 h4
      have hget : project_expressions.get? i = some project_expressions[i] := by
        rw [List.get?_eq_getElem?, List.getElem?_eq_getElem h4]
      have hc := hcol i _ hget
      have hb : buffers.getD i [] = buffers[i] := by
        rw [List.getD_eq_getElem?_getD, List.getElem?_eq_getElem h3]
        rfl
      rw [hb] at hc
      have hr : (buffers[i].take n)[r]? = buffers[i][r]? := by
        rw [List.getElem?_take_of_lt h1]
      rw [List.getD_eq_getElem?_getD, ← hr, hc, List.getElem?_map,
        List.getElem?_eq_getElem (by omega)]
      rfl

theorem map_getD_range (columns : List (List Int)) (g : List Int → Option Int) :
    (List.range columns.length).map (fun cid => g (columns.getD cid [])) = columns.map g := by
  apply List.ext_getElem
  · rw [List.length_map, List.length_map, List.length_range]
  · intro i h1 h2
    rw [List.getElem_map, List.getElem_map, List.getElem_range]
    rw [List.length_map] at h2
    rw [List.getD_eq_getElem?_getD, List.getElem?_eq_getElem h2]
    rfl

/-- The projections of the join probed with the binding rows give the rows of the
equi-join. -/
theorem projections_binding_probe (binding_table background_table : TableView)
    (vars : List FoilVariable) (pr : Nat × Nat) :
    (List.range binding_table.columns.length ++
      (unboundPositions vars).map (fun i => i + binding_table.columns.length)).map
      (fun cid => some (projectPair binding_table background_table cid pr)) =
    bindingJoinRow binding_table background_table vars pr := by
  unfold bindingJoinRow
  rw [List.map_append, List.map_map]
  congr 1
  · rw [← map_getD_range binding_table.columns (fun column => some (column.getD pr.1 0))]
    apply List.map_congr_left
    intro cid hcid
    rw [List.mem_range] at hcid
    unfold projectPair
    rw [if_pos hcid]
  · apply List.map_congr_left
    intro i _
    simp only [Function.comp]
    unfold projectPair
    rw [if_neg (by omega), Nat.add_sub_cancel]

/-- The projections of the join probed with the fact rows give the rows of the
equi-join. -/
theorem projections_fact_probe (binding_table background_table : TableView)
    (vars : List FoilVariable) (hF : background_table.columns.length = vars.length)
    (pr : Nat × Nat) :
    ((List.range binding_table.columns.length).map (fun i => i + vars.length) ++
      unboundPositions vars).map
      (fun cid => some (projectPair background_table binding_table cid pr)) =
    bindingJoinRow binding_table background_table vars pr.swap := by
  unfold bindingJoinRow
  rw [List.map_append, List.map_map]
  congr 1
  · rw [← map_getD_range binding_table.columns
      (fun column => some (column.getD pr.swap.1 0))]
    apply List.map_congr_left
    intro cid _
    simp only [Function.comp]
    unfold projectPair
    rw [if_neg (by omega), hF, Nat.add_sub_cancel]
    rfl
  · apply List.map_congr_left
    intro i hi
    rw [mem_unboundPositions] at hi
    unfold projectPair
    rw [if_pos (by rw [hF]; exact hi.1)]
    rfl

theorem joinInput_of_tables (hash : Int → Nat) (probe_table build_table : TableView)
    (probe_keys build_keys : List Nat) (hlen : probe_keys.length = build_keys.length)
    (hne : build_keys ≠ [])
    (hpk : ∀ k ∈ probe_keys, k < probe_table.columns.length)
    (hbk : ∀ k ∈ build_keys, k < build_table.columns.length)
    (hprobe : ∀ column ∈ probe_table.columns, column.length = probe_table.num_tuples)
    (hbuild : ∀ column ∈ build_table.columns, column.length = build_table.num_tuples)
    (hrows : 0 < build_table.num_tuples) (hsize : build_table.num_tuples ≤ 2 ^ 30) :
    ∃ ht, BuildHashTableOnTable hash build_keys build_table = some ht ∧
      JoinInput hash probe_table build_table probe_keys build_keys
        (probe_keys.map (fun k => probe_table.columns.getD k []))
        (build_keys.map (fun k => build_table.columns.getD k [])) ht := by
  have hrectB : ∀ column ∈ build_keys.map (fun k => build_table.columns.getD k []),
      column.length = build_table.num_tuples := by
    intro column hcol
    obtain ⟨k, hk, rfl⟩ := List.mem_map.mp hcol
    exact hbuild _ (getD_mem_of_lt _ _ _ (hbk k hk))
  have hrectP : ∀ column ∈ probe_keys.map (fun k => probe_table.columns.getD k []),
      column.length = probe_table.num_tuples := by
    intro column hcol
    obtain ⟨k, hk, rfl⟩ := List.mem_map.mp hcol
    exact hprobe _ (getD_mem_of_lt _ _ _ (hpk k hk))
  obtain ⟨ht, hht⟩ := hashableTable_built hash build_table build_keys _
    ⟨hrows, hsize, hne, keyColumns_of_lt _ _ hbk, hrectB⟩
  exact ⟨ht, hht, ⟨hrows, hsize, hne, hlen, keyColumns_of_lt _ _ hpk, keyColumns_of_lt _ _ hbk,
    hrectP, hrectB, hht⟩⟩

theorem getD_map_drop (buffers : List OutputBuffer) (n i : Nat) :
    (buffers.map (fun b => b.drop n)).getD i [] = (buffers.getD i []).drop n := by
  rw [List.getD_eq_getElem?_getD, List.getD_eq_getElem?_getD, List.getElem?_map]
  cases buffers[i]? with
  | none => simp
  | some b => rfl

/-- The rows of output buffers that hold the projections of the positive pairs in their
first cells and those of the negative pairs behind them. -/
theorem label_rows (np nn : Nat) (buffers : List OutputBuffer) (project_expressions : List Nat)
    (positive_pairs negative_pairs : List (Nat × Nat))
    (positive_value negative_value : Nat → Nat × Nat → Int)
    (hlen : buffers.length = project_expressions.length)
    (hnp : np = positive_pairs.length) (hnn : nn = negative_pairs.length)
    (hcol : ∀ i cid, project_expressions.get? i = some cid →
      (buffers.getD i []).take np =
        positive_pairs.map (fun pr => some (positive_value cid pr)) ∧
      ((buffers.getD i []).drop np).take nn =
        negative_pairs.map (fun pr => some (negative_value cid pr))) :
    rowsOf np buffers = positive_pairs.map (fun pr =>
        project_expressions.map (fun cid => some (positive_value cid pr))) ∧
    rowsOf nn (buffers.map (fun b => b.drop np)) = negative_pairs.map (fun pr =>
        project_expressions.map (fun cid => some (negative_value cid pr))) := by
  refine ⟨rowsOf_columns np buffers project_expressions positive_pairs positive_value hlen hnp
    (fun i cid h => (hcol i cid h).1), ?_⟩
  apply rowsOf_columns nn _ project_expressions negative_pairs negative_value
    (by rw [List.length_map]; exact hlen) hnn
  intro i cid h
  rw [getD_map_drop]
  exact (hcol i cid h).2

/-- C25: take binding tables of a clause with `num_clause_variables` columns and a
literal whose fact table has one column per argument (all three tables not empty, of one
row count per table and at most `2^30` rows), with at least one bound argument and every
bound argument a clause variable, and counts equal to the sizes of the equi-joins of the
positive and of the negative binding rows with the fact table on the bound arguments.
Then, given a chunk size `c ≥ 1` and fuel for the loops, `CreateLabelAwareBindingTables`
returns one buffer per clause variable followed by one per unbound argument (in argument
order), each of `num_binding_positives + num_binding_negatives` cells; the first
`num_binding_positives` rows are, as a bag, the rows of the equi-join of the positive
binding rows with the fact table, and the rows behind them those of the negative binding
rows.  This holds for every value of the two binding sizes that choose the side of the
hash tables, so the result is the same bag on either side. -/
theorem createLabelAwareBindingTables_spec (hash : Int → Nat) (fuel c : Nat)
    (num_clause_variables positive_binding_size negative_binding_size : Nat)
    (positive_table negative_table : TableView) (new_literal : FoilLiteral)
    (background_table : TableView) (num_binding_positives num_binding_negatives : Nat)
    (hc : 0 < c)
    (hP : positive_table.WellFormed num_clause_variables)
    (hN : negative_table.WellFormed num_clause_variables)
    (hF : background_table.WellFormed new_literal.vars.length)
    (hProws : 0 < positive_table.num_tuples ∧ positive_table.num_tuples ≤ 2 ^ 30)
    (hNrows : 0 < negative_table.num_tuples ∧ negative_table.num_tuples ≤ 2 ^ 30)
    (hFrows : 0 < background_table.num_tuples ∧ background_table.num_tuples ≤ 2 ^ 30)
    (hkey : ∃ v ∈ new_literal.vars, v.IsBound = true)
    (hvars : ∀ v ∈ new_literal.vars, v.IsBound = true →
      v.variable_id < (num_clause_variables : Int))
    (hnp : num_binding_positives =
      (bindingJoinRows positive_table background_table new_literal.vars).length)
    (hnn : num_binding_negatives =
      (bindingJoinRows negative_table background_table new_literal.vars).length)
    (hfuel : positive_table.num_tuples < fuel ∧ negative_table.num_tuples < fuel ∧
      background_table.num_tuples < fuel) :
    ∃ buffers,
      CreateLabelAwareBindingTables hash fuel c num_clause_variables positive_binding_size
        negative_binding_size positive_table negative_table new_literal background_table
        num_binding_positives num_binding_negatives = some buffers ∧
      buffers.length = num_clause_variables + (unboundPositions new_literal.vars).length ∧
      (∀ b ∈ buffers, b.length = num_binding_positives + num_binding_negatives) ∧
      (rowsOf num_binding_positives buffers).Perm
        (bindingJoinRows positive_table background_table new_literal.vars) ∧
      (rowsOf num_binding_negatives
        (buffers.map (fun b => b.drop num_binding_positives))).Perm
        (bindingJoinRows negative_table background_table new_literal.vars) := by
  obtain ⟨hPc, hPr⟩ := hP
  obtain ⟨hNc, hNr⟩ := hN
  obtain ⟨hFc, hFr⟩ := hF
  have hbk_ne := boundPositions_ne_nil new_literal.vars hkey
  have hkl : (boundVariables new_literal.vars).length =
      (boundPositions new_literal.vars).length := by
    unfold boundVariables
    rw [List.length_map]
  have hck_ne : boundVariables new_literal.vars ≠ [] := by
    intro h
    rw [h] at hkl
    exact hbk_ne (List.eq_nil_of_length_eq_zero hkl.symm)
  have hck_lt := boundVariables_lt new_literal.vars num_clause_variables hvars
  have hbk_lt : ∀ k ∈ boundPositions new_literal.vars, k < background_table.columns.length := by
    intro k hk
    rw [hFc]
    exact ((mem_boundPositions _ _).mp hk).1
  have hub_lt : ∀ k ∈ unboundPositions new_literal.vars, k < new_literal.vars.length :=
    fun k hk => ((mem_unboundPositions _ _).mp hk).1
  have hub_flag : ∀ k ∈ unboundPositions new_literal.vars,
      (!(unboundPositions new_literal.vars).isEmpty) = true := by
    intro k hk
    cases hu : unboundPositions new_literal.vars with
    | nil => rw [hu] at hk; cases hk
    | cons x rest => rfl
  have hrowsP : (bindingJoinRows positive_table background_table new_literal.vars).length =
      (bindingJoinPairs positive_table background_table new_literal.vars).length := by
    unfold bindingJoinRows
    rw [List.length_map]
  have hrowsN : (bindingJoinRows negative_table background_table new_literal.vars).length =
      (bindingJoinPairs negative_table background_table new_literal.vars).length := by
    unfold bindingJoinRows
    rw [List.length_map]
  have hbuf_len : (List.replicate (num_clause_variables +
      (unboundPositions new_literal.vars).length)
      (List.replicate (num_binding_positives + num_binding_negatives)
        (none : Option Int))).length =
      num_clause_variables + (unboundPositions new_literal.vars).length :=
    List.length_replicate _ _
  have hbuf_size : ∀ b ∈ List.replicate (num_clause_variables +
      (unboundPositions new_literal.vars).length)
      (List.replicate (num_binding_positives + num_binding_negatives) (none : Option Int)),
      b.length = num_binding_positives + num_binding_negatives := by
    intro b hb
    rw [List.eq_of_mem_replicate hb, List.length_replicate]
  by_cases hbranch : positive_binding_size < background_table.num_tuples ∧
      negative_binding_size < background_table.num_tuples
  · -- the fact table is the probe side
    obtain ⟨pht, hpht, WL⟩ := joinInput_of_tables hash background_table positive_table
      (boundPositions new_literal.vars) (boundVariables new_literal.vars) hkl.symm hck_ne
      hbk_lt (by rw [hPc]; exact hck_lt) hFr hPr hProws.1 hProws.2
    obtain ⟨nht, hnht, WR⟩ := joinInput_of_tables hash background_table negative_table
      (boundPositions new_literal.vars) (boundVariables new_literal.vars) hkl.symm hck_ne
      hbk_lt (by rw [hNc]; exact hck_lt) hFr hNr hNrows.1 hNrows.2
    have hnpL : (joinPairs
        ((boundPositions new_literal.vars).map (fun k => background_table.columns.getD k []))
        ((boundVariables new_literal.vars).map (fun k => positive_table.columns.getD k []))
        background_table.num_tuples positive_table.num_tuples).length =
        num_binding_positives := by
      rw [hnp, hrowsP, ← (joinPairs_swap_perm_binding positive_table background_table
        new_literal.vars).length_eq, List.length_map]
    have hnnL : (joinPairs
        ((boundPositions new_literal.vars).map (fun k => background_table.columns.getD k []))
        ((boundVariables new_literal.vars).map (fun k => negative_table.columns.getD k []))
        background_table.num_tuples negative_table.num_tuples).length =
        num_binding_negatives := by
      rw [hnn, hrowsN, ← (joinPairs_swap_perm_binding negative_table background_table
        new_literal.vars).length_eq, List.length_map]
    have hproj : ∀ cid ∈ (List.range num_clause_variables).map
          (fun i => i + new_literal.vars.length) ++ unboundPositions new_literal.vars,
        (cid < background_table.columns.length ∧
          (!(unboundPositions new_literal.vars).isEmpty) = true) ∨
        (background_table.columns.length ≤ cid ∧
          cid < background_table.columns.length + positive_table.columns.length ∧
          true = true) := by
      intro cid hcid
      rcases List.mem_append.mp hcid with h | h
      · obtain ⟨i, hi, rfl⟩ := List.mem_map.mp h
        rw [List.mem_range] at hi
        right
        rw [hFc, hPc]
        exact ⟨by omega, by omega, rfl⟩
      · left
        rw [hFc]
        exact ⟨hub_lt cid h, hub_flag cid h⟩
    obtain ⟨buffers, hcreate, hjoin, hblen, hbsize, hcols⟩ := collaborateJoin_spec hash
      background_table positive_table negative_table (boundPositions new_literal.vars)
      (boundVariables new_literal.vars)
      ((List.range num_clause_variables).map (fun i => i + new_literal.vars.length) ++
        unboundPositions new_literal.vars) _ _ _ pht nht WL WR
      (!(unboundPositions new_literal.vars).isEmpty) true (Or.inr rfl) hFr hPr hNr
      (by rw [hPc, hNc]) hproj c fuel hc (le_of_lt hfuel.1) (le_of_lt hfuel.2.1) hfuel.2.2
      (List.replicate (num_clause_variables + (unboundPositions new_literal.vars).length)
        (List.replicate (num_binding_positives + num_binding_negatives) none))
      (by simp) (by rw [hnpL, hnnL]; exact hbuf_size)
    rw [hnpL] at hjoin hbsize hcols
    rw [hnnL] at hbsize hcols
    have hlen2 : buffers.length =
        num_clause_variables + (unboundPositions new_literal.vars).length := by
      rw [hblen]; simp
    obtain ⟨hrows1, hrows2⟩ := label_rows num_binding_positives num_binding_negatives buffers
      _ _ _ (projectPair background_table positive_table)
      (projectPair background_table negative_table) hblen hnpL.symm hnnL.symm hcols
    refine ⟨buffers, ?_, hlen2, hbsize, ?_, ?_⟩
    · unfold CreateLabelAwareBindingTables
      simp only [if_pos hbranch, hpht, hnht, hcreate]
      exact hjoin
    · rw [hrows1]
      have hmap : (joinPairs
          ((boundPositions new_literal.vars).map
            (fun k => background_table.columns.getD k []))
          ((boundVariables new_literal.vars).map (fun k => positive_table.columns.getD k []))
          background_table.num_tuples positive_table.num_tuples).map
          (fun pr => ((List.range num_clause_variables).map
            (fun i => i + new_literal.vars.length) ++ unboundPositions new_literal.vars).map
            (fun cid => some (projectPair background_table positive_table cid pr))) =
          ((joinPairs
          ((boundPositions new_literal.vars).map
            (fun k => background_table.columns.getD k []))
          ((boundVariables new_literal.vars).map (fun k => positive_table.columns.getD k []))
          background_table.num_tuples positive_table.num_tuples).map Prod.swap).map
          (bindingJoinRow positive_table background_table new_literal.vars) := by
        rw [List.map_map]
        apply List.map_congr_left
        intro pr _
        rw [← hPc]
        exact projections_fact_probe positive_table background_table new_literal.vars hFc pr
      rw [hmap]
      exact (joinPairs_swap_perm_binding positive_table background_table
        new_literal.vars).map _
    · rw [hrows2]
      have hmap : (joinPairs
          ((boundPositions new_literal.vars).map
            (fun k => background_table.columns.getD k []))
          ((boundVariables new_literal.vars).map (fun k => negative_table.columns.getD k []))
          background_table.num_tuples negative_table.num_tuples).map
          (fun pr => ((List.range num_clause_variables).map
            (fun i => i + new_literal.vars.length) ++ unboundPositions new_literal.vars).map
            (fun cid => some (projectPair background_table negative_table cid pr))) =
          ((joinPairs
          ((boundPositions new_literal.vars).map
            (fun k => background_table.columns.getD k []))
          ((boundVariables new_literal.vars).map (fun k => negative_table.columns.getD k []))
          background_table.num_tuples negative_table.num_tuples).map Prod.swap).map
          (bindingJoinRow negative_table background_table new_literal.vars) := by
        rw [List.map_map]
        apply List.map_congr_left
        intro pr _
        rw [← hNc]
        exact projections_fact_probe negative_table background_table new_literal.vars hFc pr
      rw [hmap]
      exact (joinPairs_swap_perm_binding negative_table background_table
        new_literal.vars).map _
  · -- the binding tables are the probe sides
    obtain ⟨ht, hht, WP⟩ := joinInput_of_tables hash positive_table background_table
      (boundVariables new_literal.vars) (boundPositions new_literal.vars) hkl hbk_ne
      (by rw [hPc]; exact hck_lt) hbk_lt hPr hFr hFrows.1 hFrows.2
    obtain ⟨ht2, hht2, WN0⟩ := joinInput_of_tables hash negative_table background_table
      (boundVariables new_literal.vars) (boundPositions new_literal.vars) hkl hbk_ne
      (by rw [hNc]; exact hck_lt) hbk_lt hNr hFr hFrows.1 hFrows.2
    have hsame : ht2 = ht := by
      rw [hht] at hht2
      exact (Option.some.inj hht2).symm
    rw [hsame] at WN0
    have hnpL : (joinPairs
        ((boundVariables new_literal.vars).map (fun k => positive_table.columns.getD k []))
        ((boundPositions new_literal.vars).map (fun k => background_table.columns.getD k []))
        positive_table.num_tuples background_table.num_tuples).length =
        num_binding_positives := by
      rw [hnp, hrowsP, (joinPairs_perm_binding positive_table background_table
        new_literal.vars).length_eq]
    have hnnL : (joinPairs
        ((boundVariables new_literal.vars).map (fun k => negative_table.columns.getD k []))
        ((boundPositions new_literal.vars).map (fun k => background_table.columns.getD k []))
        negative_table.num_tuples background_table.num_tuples).length =
        num_binding_negatives := by
      rw [hnn, hrowsN, (joinPairs_perm_binding negative_table background_table
        new_literal.vars).length_eq]
    have hproj : ∀ (table : TableView), table.columns.length = num_clause_variables →
        ∀ cid ∈ List.range num_clause_variables ++
          (unboundPositions new_literal.vars).map (fun i => i + num_clause_variables),
        (cid < table.columns.length ∧ true = true) ∨
        (table.columns.length ≤ cid ∧
          cid < table.columns.length + background_table.columns.length ∧
          (!(unboundPositions new_literal.vars).isEmpty) = true) := by
      intro table htc cid hcid
      rcases List.mem_append.mp hcid with h | h
      · left
        rw [List.mem_range] at h
        rw [htc]
        exact ⟨h, rfl⟩
      · obtain ⟨i, hi, rfl⟩ := List.mem_map.mp h
        right
        rw [htc, hFc]
        have := hub_lt i hi
        exact ⟨by omega, by omega, hub_flag i hi⟩
    obtain ⟨buffers1, hcreate1, hjoin1, hlen1, hsize1, hcols1⟩ := join_fixed_spec hash
      positive_table background_table (boundVariables new_literal.vars)
      (boundPositions new_literal.vars)
      (List.range num_clause_variables ++
        (unboundPositions new_literal.vars).map (fun i => i + num_clause_variables)) _ _ ht
      true (!(unboundPositions new_literal.vars).isEmpty) c fuel
      (num_binding_positives + num_binding_negatives)
      (List.replicate (num_clause_variables + (unboundPositions new_literal.vars).length)
        (List.replicate (num_binding_positives + num_binding_negatives) none))
      WP hc (Or.inl rfl) hPr hFr (hproj positive_table hPc) (by simp) hbuf_size
      (by rw [hnpL]; omega) (le_of_lt hfuel.2.2) hfuel.1
    obtain ⟨views, hcreate2, hjoin2, hlen2, hsize2, hcols2⟩ := join_fixed_spec hash
      negative_table background_table (boundVariables new_literal.vars)
      (boundPositions new_literal.vars)
      (List.range num_clause_variables ++
        (unboundPositions new_literal.vars).map (fun i => i + num_clause_variables)) _ _ ht
      true (!(unboundPositions new_literal.vars).isEmpty) c fuel num_binding_negatives
      (buffers1.map (fun buffer => buffer.drop num_binding_positives))
      WN0 hc (Or.inl rfl) hNr hFr (hproj negative_table hNc)
      (by rw [List.length_map]; exact hlen1)
      (by
        intro b hb
        obtain ⟨b0, hb0, rfl⟩ := List.mem_map.mp hb
        rw [List.length_drop, hsize1 b0 hb0]
        omega)
      (by rw [hnnL]) (le_of_lt hfuel.2.2) hfuel.2.1
    rw [hnpL] at hcols1
    rw [hnnL] at hcols2
    have hcell : ∀ i cid, (List.range num_clause_variables ++
          (unboundPositions new_literal.vars).map (fun i => i + num_clause_variables)).get? i =
          some cid →
        (List.zipWith (fun (buffer view : OutputBuffer) =>
            buffer.take num_binding_positives ++ view) buffers1 views).getD i [] =
          (buffers1.getD i []).take num_binding_positives ++ views.getD i [] ∧
        ((buffers1.getD i []).take num_binding_positives).length = num_binding_positives ∧
        (views.getD i []).length = num_binding_negatives := by
      intro i cid hget
      have hi : i < (List.range num_clause_variables ++
          (unboundPositions new_literal.vars).map (fun i => i + num_clause_variables)).length := by
        rw [List.get?_eq_getElem?] at hget
        exact (List.getElem?_eq_some_iff.mp hget).1
      have hi1 : i < buffers1.length := by rw [hlen1]; exact hi
      have hi2 : i < views.length := by rw [hlen2]; exact hi
      refine ⟨?_, ?_, hsize2 _ (getD_mem_of_lt views i [] hi2)⟩
      · exact getD_zipWith_of_lt _ buffers1 views i (buffers1.getD i []) [] []
          (get?_eq_some_getD buffers1 i [] hi1) hi2
      · rw [List.length_take, hsize1 _ (getD_mem_of_lt buffers1 i [] hi1)]
        omega
    have hcols : ∀ i cid, (List.range num_clause_variables ++
          (unboundPositions new_literal.vars).map (fun i => i + num_clause_variables)).get? i =
          some cid →
        ((List.zipWith (fun (buffer view : OutputBuffer) =>
            buffer.take num_binding_positives ++ view) buffers1 views).getD i []).take
            num_binding_positives =
          (joinPairs
            ((boundVariables new_literal.vars).map (fun k => positive_table.columns.getD k []))
            ((boundPositions new_literal.vars).map
              (fun k => background_table.columns.getD k []))
            positive_table.num_tuples background_table.num_tuples).map
            (fun pr => some (projectPair positive_table background_table cid pr)) ∧
        (((List.zipWith (fun (buffer view : OutputBuffer) =>
            buffer.take num_binding_positives ++ view) buffers1 views).getD i []).drop
            num_binding_positives).take num_binding_negatives =
          (joinPairs
            ((boundVariables new_literal.vars).map (fun k => negative_table.columns.getD k []))
            ((boundPositions new_literal.vars).map
              (fun k => background_table.columns.getD k []))
            negative_table.num_tuples background_table.num_tuples).map
            (fun pr => some (projectPair negative_table background_table cid pr)) := by
      intro i cid hget
      obtain ⟨h1, h2, h3⟩ := hcell i cid hget
      rw [h1]
      refine ⟨?_, ?_⟩
      · rw [List.take_append_of_le_length (by rw [h2]), List.take_take, Nat.min_self]
        exact hcols1 i cid hget
      · have hd := List.drop_left ((buffers1.getD i []).take num_binding_positives)
          (views.getD i [])
        rw [h2] at hd
        rw [hd]
        exact hcols2 i cid hget
    have hflen : (List.zipWith (fun (buffer view : OutputBuffer) =>
        buffer.take num_binding_positives ++ view) buffers1 views).length =
        (List.range num_clause_variables ++
          (unboundPositions new_literal.vars).map
            (fun i => i + num_clause_variables)).length := by
      rw [List.length_zipWith, hlen1, hlen2, Nat.min_self]
    obtain ⟨hrows1, hrows2⟩ := label_rows num_binding_positives num_binding_negatives _
      _ _ _ (projectPair positive_table background_table)
      (projectPair negative_table background_table) hflen hnpL.symm hnnL.symm hcols
    refine ⟨List.zipWith (fun (buffer view : OutputBuffer) =>
        buffer.take num_binding_positives ++ view) buffers1 views, ?_, ?_, ?_, ?_, ?_⟩
    · unfold CreateLabelAwareBindingTables
      simp only [if_neg hbranch, hht, hcreate1, hcreate2, hjoin1, hjoin2]
    · rw [hflen]; simp
    · intro b hb
      rw [List.mem_iff_getElem?] at hb
      obtain ⟨i, hi⟩ := hb
      have hil : i < (List.zipWith (fun (buffer view : OutputBuffer) =>
          buffer.take num_binding_positives ++ view) buffers1 views).length :=
        (List.getElem?_eq_some_iff.mp hi).1
      rw [hflen] at hil
      obtain ⟨h1, h2, h3⟩ := hcell i _ (by
        rw [List.get?_eq_getElem?, List.getElem?_eq_getElem hil])
      have hb2 : (List.zipWith (fun (buffer view : OutputBuffer) =>
          buffer.take num_binding_positives ++ view) buffers1 views).getD i [] = b := by
        rw [List.getD_eq_getElem?_getD, hi]
        rfl
      rw [← hb2, h1, List.length_append, h2, h3]
    · rw [hrows1]
      have hmap : (joinPairs
          ((boundVariables new_literal.vars).map (fun k => positive_table.columns.getD k []))
          ((boundPositions new_literal.vars).map
            (fun k => background_table.columns.getD k []))
          positive_table.num_tuples background_table.num_tuples).map
          (fun pr => (List.range num_clause_variables ++
            (unboundPositions new_literal.vars).map (fun i => i + num_clause_variables)).map
            (fun cid => some (projectPair positive_table background_table cid pr))) =
          (joinPairs
          ((boundVariables new_literal.vars).map (fun k => positive_table.columns.getD k []))
          ((boundPositions new_literal.vars).map
            (fun k => background_table.columns.getD k []))
          positive_table.num_tuples background_table.num_tuples).map
          (bindingJoinRow positive_table background_table new_literal.vars) := by
        apply List.map_congr_left
        intro pr _
        rw [← hPc]
        exact projections_binding_probe positive_table background_table new_literal.vars pr
      rw [hmap]
      exact (joinPairs_perm_binding positive_table background_table new_literal.vars).map _
    · rw [hrows2]
      have hmap : (joinPairs
          ((boundVariables new_literal.vars).map (fun k => negative_table.columns.getD k []))
          ((boundPositions new_literal.vars).map
            (fun k => background_table.columns.getD k []))
          negative_table.num_tuples background_table.num_tuples).map
          (fun pr => (List.range num_clause_variables ++
            (unboundPositions new_literal.vars).map (fun i => i + num_clause_variables)).map
            (fun cid => some (projectPair negative_table background_table cid pr))) =
          (joinPairs
          ((boundVariables new_literal.vars).map (fun k => negative_table.columns.getD k []))
          ((boundPositions new_literal.vars).map
            (fun k => background_table.columns.getD k []))
          negative_table.num_tuples background_table.num_tuples).map
          (bindingJoinRow negative_table background_table new_literal.vars) := by
        apply List.map_congr_left
        intro pr _
        rw [← hNc]
        exact projections_binding_probe negative_table background_table new_literal.vars pr
      rw [hmap]
      exact (joinPairs_perm_binding negative_table background_table new_literal.vars).map _

/-- A clause with two variables, three positive and two negative binding rows, extended by
the literal `q(V0, _)` on a fact table with four facts. -/
theorem createLabelAwareBindingTables_spec_witness :
    ∃ buffers,
      CreateLabelAwareBindingTables (fun v => v.toNat) 10 2 2 3 2 labelPositiveTable
        labelNegativeTable labelLiteral labelFactTable 3 2 = some buffers ∧
      buffers.length = 2 + (unboundPositions labelLiteral.vars).length ∧
      (∀ b ∈ buffers, b.length = 3 + 2) ∧
      (rowsOf 3 buffers).Perm
        (bindingJoinRows labelPositiveTable labelFactTable labelLiteral.vars) ∧
      (rowsOf 2 (buffers.map (fun b => b.drop 3))).Perm
        (bindingJoinRows labelNegativeTable labelFactTable labelLiteral.vars) :=
  createLabelAwareBindingTables_spec (fun v => v.toNat) 10 2 2 3 2 labelPositiveTable
    labelNegativeTable labelLiteral labelFactTable 3 2 (by decide)
    ⟨rfl, by decide⟩ ⟨rfl, by decide⟩ ⟨rfl, by decide⟩ (by decide) (by decide) (by decide)
    (by decide) (by decide) (by decide) (by decide) (by decide)

/-! ## Un-binding a literal, the literal set and the equality of clauses -/

theorem createUnBound_fold (p : FoilPredicate) (k : Int) :
    ∀ (rest done : List FoilVariable),
      (done ++ rest).map FoilVariable.variable_type_id =
        p.argument_types.take (done ++ rest).length →
      rest.foldlM
        (fun (literal : FoilLiteral) v =>
          literal.AddVariableChecked
            (if v.variable_id < k then v else FoilVariable.unbound v.variable_type_id))
        ⟨p, done⟩ =
      some ⟨p, done ++ rest.map (fun v =>
        if v.variable_id < k then v else FoilVariable.unbound v.variable_type_id)⟩ := by
  intro rest
  induction rest with
  | nil => intro done _; simp
  | cons v rest ih =>
    intro done h
    have hty : p.argument_types.get? done.length = some v.variable_type_id := by
      have h1 := congrArg (fun l => l.get? done.length) h
      simp only [List.get?_eq_getElem?, List.map_append, List.map_cons] at h1
      rw [List.getElem?_append_right (by simp)] at h1
      simp only [List.length_map, Nat.sub_self, List.getElem?_cons_zero] at h1
      rw [List.getElem?_take_of_lt (by simp)] at h1
      rw [List.get?_eq_getElem?]
      exact h1.symm
    have hty2 : (if v.variable_id < k then v
        else FoilVariable.unbound v.variable_type_id).variable_type_id = v.variable_type_id := by
      split <;> rfl
    rw [List.foldlM_cons]
    have hadd : FoilLiteral.AddVariableChecked ⟨p, done⟩
        (if v.variable_id < k then v else FoilVariable.unbound v.variable_type_id) =
        some ⟨p, done ++ [if v.variable_id < k then v
          else FoilVariable.unbound v.variable_type_id]⟩ := by
      unfold FoilLiteral.AddVariableChecked
      simp only [hty2]
      rw [if_pos hty]
      rfl
    rw [hadd]
    simp only [Option.bind_eq_bind, Option.some_bind]
    have := ih (done ++ [if v.variable_id < k then v
      else FoilVariable.unbound v.variable_type_id]) (by
        simp only [List.map_append, List.map_cons, List.map_nil, hty2, List.length_append,
          List.length_cons, List.length_nil] at h ⊢
        simpa [Nat.add_assoc, Nat.add_comm 1] using h)
    rw [this]
    simp

theorem createUnBoundLiteral_eq (L : FoilLiteral) (k : Int)
    (hL : L.vars.map FoilVariable.variable_type_id =
      L.predicate.argument_types.take L.vars.length) :
    L.CreateUnBoundLiteral k =
      some ⟨L.predicate, L.vars.map (fun v =>
        if v.variable_id < k then v else FoilVariable.unbound v.variable_type_id)⟩ := by
  have := createUnBound_fold L.predicate k L.vars [] (by simpa using hL)
  simpa [FoilLiteral.CreateUnBoundLiteral, FoilLiteral.empty] using this

theorem foilLiteral_equals_iff (a b : FoilLiteral) :
    a.Equals b = true ↔ a.predicate = b.predicate ∧
      a.vars.map FoilVariable.variable_id = b.vars.map FoilVariable.variable_id := by
  unfold FoilLiteral.Equals
  simp only [Bool.and_eq_true, decide_eq_true_eq]

theorem foilLiteralHash_ids (hash : Int → Nat) (a : FoilLiteral) :
    FoilLiteralHash hash a =
      (a.vars.map FoilVariable.variable_id).foldl (HashCombine hash) (hash a.predicate.id) := by
  unfold FoilLiteralHash
  rw [List.foldl_map]

theorem foilLiteralSet_find_iff (hash : Int → Nat) (set : FoilLiteralSet) (U : FoilLiteral) :
    (set.find hash U).isSome = true ↔
      ∃ e ∈ set.elements, e.predicate = U.predicate ∧
        e.vars.map FoilVariable.variable_id = U.vars.map FoilVariable.variable_id := by
  unfold FoilLiteralSet.find
  rw [List.find?_isSome]
  constructor
  · rintro ⟨e, he, hp⟩
    rw [Bool.and_eq_true] at hp
    exact ⟨e, he, (foilLiteral_equals_iff e U).mp hp.2⟩
  · rintro ⟨e, he, h1, h2⟩
    refine ⟨e, he, ?_⟩
    rw [Bool.and_eq_true]
    refine ⟨?_, (foilLiteral_equals_iff e U).mpr ⟨h1, h2⟩⟩
    rw [decide_eq_true_eq, foilLiteralHash_ids, foilLiteralHash_ids, h1, h2]

theorem unbound_ids_eq_iff (vars : List FoilVariable) (k : Int) :
    (vars.map (fun v =>
      if v.variable_id < k then v else FoilVariable.unbound v.variable_type_id)).map
      FoilVariable.variable_id = vars.map FoilVariable.variable_id ↔
    ∀ v ∈ vars, v.variable_id < k ∨ v.variable_id = -1 := by
  rw [List.map_map, List.map_inj_left]
  constructor
  · intro h v hv
    have := h v hv
    simp only [Function.comp] at this
    by_cases hk : v.variable_id < k
    · exact Or.inl hk
    · rw [if_neg hk] at this
      exact Or.inr this.symm
  · intro h v hv
    simp only [Function.comp]
    by_cases hk : v.variable_id < k
    · rw [if_pos hk]
    · rw [if_neg hk]
      rcases h v hv with h1 | h1
      · exact absurd h1 hk
      · rw [h1]; rfl

/-- C34 (the claim as stated fails for a negative threshold): the literal `p_0(-1)` with the
threshold `-1` is un-bound to itself, so the result `Equals` the literal, although its
variable id `-1` is not below the threshold. -/
theorem createUnBoundLiteral_counterexample :
    FoilLiteral.CreateUnBoundLiteral ⟨testPredicate0, [⟨-1, 0⟩]⟩ (-1) =
      some ⟨testPredicate0, [⟨-1, 0⟩]⟩ ∧
    FoilLiteral.Equals ⟨testPredicate0, [⟨-1, 0⟩]⟩ ⟨testPredicate0, [⟨-1, 0⟩]⟩ = true ∧
    ¬ (∀ v ∈ (⟨testPredicate0, [⟨-1, 0⟩]⟩ : FoilLiteral).vars, v.variable_id < (-1 : Int)) := by
  decide

/-- C34 (amended): for a literal `L` whose variables have the types of the arguments of
its predicate and a threshold `k`, `L.CreateUnBoundLiteral(k)` is the literal on the
predicate of `L` whose argument at each position is the variable of `L` when its id is
below `k` and an unbound variable of the same type otherwise; it `Equals` `L` exactly when
every variable id of `L` is below `k` or is `-1`, which for `k ≥ 0` means that every
variable id is below `k`; and a literal set finds it exactly when the set holds a literal
with the same predicate and the same sequence of variable ids. -/
theorem createUnBoundLiteral_spec (hash : Int → Nat) (L : FoilLiteral) (k : Int)
    (set : FoilLiteralSet)
    (hL : L.vars.map FoilVariable.variable_type_id =
      L.predicate.argument_types.take L.vars.length) :
    ∃ U, L.CreateUnBoundLiteral k = some U ∧
      U.predicate = L.predicate ∧
      U.vars = L.vars.map (fun v =>
        if v.variable_id < k then v else FoilVariable.unbound v.variable_type_id) ∧
      (U.Equals L = true ↔ ∀ v ∈ L.vars, v.variable_id < k ∨ v.variable_id = -1) ∧
      (0 ≤ k → (U.Equals L = true ↔ ∀ v ∈ L.vars, v.variable_id < k)) ∧
      ((set.find hash U).isSome = true ↔
        ∃ e ∈ set.elements, e.predicate = L.predicate ∧
          e.vars.map FoilVariable.variable_id = U.vars.map FoilVariable.variable_id) := by
  have hE : FoilLiteral.Equals ⟨L.predicate, L.vars.map (fun v =>
        if v.variable_id < k then v else FoilVariable.unbound v.variable_type_id)⟩ L = true ↔
      ∀ v ∈ L.vars, v.variable_id < k ∨ v.variable_id = -1 := by
    rw [foilLiteral_equals_iff]
    simp only [true_and]
    exact unbound_ids_eq_iff L.vars k
  refine ⟨_, createUnBoundLiteral_eq L k hL, rfl, rfl, hE, ?_, ?_⟩
  · intro hk
    rw [hE]
    constructor
    · intro h v hv
      rcases h v hv with h1 | h1
      · exact h1
      · omega
    · intro h v hv
      exact Or.inl (h v hv)
  · exact foilLiteralSet_find_iff hash set _

/-- The literal `p1(0, 0, 2)` of the test of the literal set, un-bound from the id 1 on: the
set of the test holds `p1(0, 0, -1)`. -/
theorem createUnBoundLiteral_spec_witness :
    ∃ U, FoilLiteral.CreateUnBoundLiteral ⟨⟨1, 0, [0, 0, 1]⟩, [⟨0, 0⟩, ⟨0, 0⟩, ⟨2, 1⟩]⟩ 1 =
        some U ∧
      U.vars = [⟨0, 0⟩, ⟨0, 0⟩, ⟨-1, 1⟩] ∧
      (literalSetOfTest.find (fun v => v.toNat) U).isSome = true := by
  obtain ⟨U, h1, _, h3, _, _, h6⟩ := createUnBoundLiteral_spec (fun v => v.toNat)
    ⟨⟨1, 0, [0, 0, 1]⟩, [⟨0, 0⟩, ⟨0, 0⟩, ⟨2, 1⟩]⟩ 1 literalSetOfTest (by decide)
  refine ⟨U, h1, ?_, ?_⟩
  · rw [h3]; decide
  · rw [h6, h3]
    exact ⟨⟨⟨1, 0, [0, 0, 1]⟩, [⟨0, 0⟩, ⟨0, 0⟩, ⟨-1, 1⟩]⟩, by decide, rfl, by decide⟩

/-- C36: `FoilClause::Equals` is not an equality.  It returns `false` for every clause
compared with itself, and `true` for the two clauses `p_5(0, 1)` and `p_1(0, 1)` without
body, whose head literals are not `Equal`. -/
theorem foilClause_equals_not_equality :
    (∀ c : FoilClause, c.Equals c = false) ∧
    FoilClause.Equals (FoilClause.ofHead testHead5) (FoilClause.ofHead testHead5) = false ∧
    FoilClause.Equals (FoilClause.ofHead testHead5)
      (FoilClause.ofHead ⟨testPredicate1, [⟨0, 0⟩, ⟨1, 1⟩]⟩) = true ∧
    FoilLiteral.Equals (FoilClause.ofHead testHead5).head_literal
      (FoilClause.ofHead ⟨testPredicate1, [⟨0, 0⟩, ⟨1, 1⟩]⟩).head_literal = false := by
  refine ⟨?_, by decide, by decide, by decide⟩
  intro c
  unfold FoilClause.Equals
  have h : c.head_literal.Equals c.head_literal = true :=
    (foilLiteral_equals_iff _ _).mpr ⟨rfl, rfl⟩
  simp [h]

/-- C38: for a clause `C` and a candidate literal `L` whose variables have the types of the
arguments of its predicate, and whose variable ids are `-1` (unbound) or ids of variables
of `C`, the clause obtained by `AddUnBoundBodyLiteral(L)` gives back `L` by
`CreateUnboundLastLiteral`: the result is the literal on the predicate of `L` with the
bound variables of `L` and an unbound variable of the same type at the other arguments,
and it `Equals` `L`. -/
theorem createUnboundLastLiteral_roundtrip (c : FoilClause) (L : FoilLiteral) (flag : Bool)
    (hL : L.vars.map FoilVariable.variable_type_id =
      L.predicate.argument_types.take L.vars.length)
    (hids : ∀ v ∈ L.vars, v.variable_id = -1 ∨
      (0 ≤ v.variable_id ∧ v.variable_id < (c.vars.length : Int))) :
    ∃ U, (c.AddUnBoundBodyLiteral L flag).CreateUnboundLastLiteral = some U ∧
      U = ⟨L.predicate, L.vars.map (fun v =>
        if v.IsBound then v else FoilVariable.unbound v.variable_type_id)⟩ ∧
      U.Equals L = true := by
  obtain ⟨bl, hbf, hlen, hget⟩ := bindFresh_closed L.vars c.vars []
  rw [List.nil_append] at hbf
  have hbl : ∀ i : Nat, bl[i]? = (L.vars[i]?).map (fun (v : FoilVariable) =>
      if v.IsBound then v else
      (⟨((c.vars.length + ((L.vars.take i).filter
        (fun (u : FoilVariable) => !u.IsBound)).length : Nat) : Int),
        v.variable_type_id⟩ : FoilVariable)) := by
    intro i
    cases hv : L.vars[i]? with
    | none =>
      rw [List.getElem?_eq_none_iff] at hv
      have : bl[i]? = none := by
        rw [List.getElem?_eq_none_iff]
        omega
      rw [this]
      rfl
    | some v =>
      have := hget i v (by rw [List.get?_eq_getElem?]; exact hv)
      rw [List.get?_eq_getElem?] at this
      rw [this]
      rfl
  have htypes : bl.map FoilVariable.variable_type_id =
      L.vars.map FoilVariable.variable_type_id := by
    apply List.ext_getElem?
    intro i
    rw [List.getElem?_map, List.getElem?_map, hbl i]
    cases L.vars[i]? with
    | none => rfl
    | some v =>
      simp only [Option.map_some']
      split <;> rfl
  have hmap : bl.map (fun w => if w.variable_id < (c.vars.length : Int) then w
        else FoilVariable.unbound w.variable_type_id) =
      L.vars.map (fun v =>
        if v.IsBound then v else FoilVariable.unbound v.variable_type_id) := by
    apply List.ext_getElem?
    intro i
    rw [List.getElem?_map, List.getElem?_map, hbl i]
    cases hv : L.vars[i]? with
    | none => rfl
    | some v =>
      simp only [Option.map_some']
      have hmem : v ∈ L.vars := List.getElem?_mem hv
      by_cases hb : v.IsBound = true
      · rw [if_pos hb, if_pos hb]
        have h0 : 0 ≤ v.variable_id := of_decide_eq_true hb
        rcases hids v hmem with h1 | h1
        · omega
        · rw [if_pos h1.2]
      · rw [if_neg hb, if_neg hb]
        rw [if_neg (by simp only; omega)]
  have hlast : (c.AddUnBoundBodyLiteral L flag).body_literals.getLast? =
      some ⟨L.predicate, bl⟩ := by
    simp [FoilClause.AddUnBoundBodyLiteral, hbf]
  have hnum : (c.AddUnBoundBodyLiteral L flag).num_variables_without_last_body_literal =
      (c.vars.length : Int) := rfl
  refine ⟨_, ?_, rfl, ?_⟩
  · unfold FoilClause.CreateUnboundLastLiteral
    rw [hlast, hnum]
    simp only
    rw [createUnBoundLiteral_eq ⟨L.predicate, bl⟩ (c.vars.length : Int) (by
      simp only
      rw [htypes, hlen]
      exact hL)]
    simp only
    rw [hmap]
  · rw [foilLiteral_equals_iff]
    refine ⟨rfl, ?_⟩
    simp only
    rw [List.map_map, List.map_inj_left]
    intro v hv
    simp only [Function.comp]
    by_cases hb : v.IsBound = true
    · rw [if_pos hb]
    · rw [if_neg hb]
      have h0 : ¬ 0 ≤ v.variable_id := fun h => hb (decide_eq_true h)
      rcases hids v hv with h1 | h1
      · rw [h1]; rfl
      · exact absurd h1.1 h0

/-- The clause `p_5(0, 1)` extended by the candidate `p_4(-1, 1, -1)` is un-bound to the
candidate. -/
theorem createUnboundLastLiteral_roundtrip_witness :
    ∃ U, ((FoilClause.ofHead testHead5).AddUnBoundBodyLiteral
        ⟨testPredicate4, [⟨-1, 1⟩, ⟨1, 0⟩, ⟨-1, 1⟩]⟩ true).CreateUnboundLastLiteral = some U ∧
      U = ⟨testPredicate4, [⟨-1, 1⟩, ⟨1, 0⟩, ⟨-1, 1⟩]⟩ ∧
      U.Equals ⟨testPredicate4, [⟨-1, 1⟩, ⟨1, 0⟩, ⟨-1, 1⟩]⟩ = true := by
  obtain ⟨U, h1, h2, h3⟩ := createUnboundLastLiteral_roundtrip (FoilClause.ofHead testHead5)
    ⟨testPredicate4, [⟨-1, 1⟩, ⟨1, 0⟩, ⟨-1, 1⟩]⟩ true (by decide) (by decide)
  refine ⟨U, h1, ?_, h3⟩
  rw [h2]
  decide

/-! ## The enumerator on the background predicates of its test -/

theorem option_any_some {α : Type} (o : Option α) (p : α → Bool) (h : o.any p = true) :
    ∃ r, o = some r ∧ p r = true := by
  cases o with
  | none => cases h
  | some r => exact ⟨r, rfl, h⟩

set_option maxRecDepth 100000 in
/-- C31 (the count of the claim is not the count of the code): on the background
predicates of the enumerator test and the clause with the head `p_5(0, 1)` and no body,
`EnumerateCandidateLiterals` returns 23 literals, not 63. -/
theorem enumerate_test_count_counterexample :
    ∃ entire pruned,
      EnumerateCandidateLiterals testBackground (FoilClause.ofHead testHead5)
        LiteralSearchStats.none = some (entire, pruned) ∧
      (allLiterals entire).length = 23 ∧ (allLiterals entire).length ≠ 63 := by
  have h : (EnumerateCandidateLiterals testBackground (FoilClause.ofHead testHead5)
      LiteralSearchStats.none).any (fun r =>
        decide ((allLiterals r.1).length = 23 ∧ (allLiterals r.1).length ≠ 63)) = true := by
    decide
  obtain ⟨r, hr, hp⟩ := option_any_some _ _ h
  exact ⟨r.1, r.2, hr, of_decide_eq_true hp⟩

set_option maxRecDepth 100000 in
/-- C31 (amended): on the background predicates of the enumerator test (`p_0(0)`,
`p_1(0,1)`, `p_5(0,0)`, `p_2(1,0,2)`, `p_3(0,0,1)`, `p_4(1,0,1)` by argument type) and the
clause with the head `p_5(0, 1)` and no body, `EnumerateCandidateLiterals` returns exactly
23 literals: 2 on `p_0`, 2 on `p_1`, 7 on `p_5`, 2 on `p_2`, 8 on `p_3` and 2 on `p_4`,
with the variable ids listed in `testCandidateIds`; no two of them are `Equal`, every
argument that is not one of the clause variables `0` and `1` carries the variable id `-1`,
each literal has the argument types of its predicate, and the pruned list is the entire
list. -/
theorem enumerate_test_literals :
    ∃ entire pruned,
      EnumerateCandidateLiterals testBackground (FoilClause.ofHead testHead5)
        LiteralSearchStats.none = some (entire, pruned) ∧
      entire.map (fun e => (e.1, e.2.map (fun l => l.vars.map FoilVariable.variable_id))) =
        testCandidateIds ∧
      (allLiterals entire).length = 23 ∧
      (allLiterals entire).Pairwise (fun a b => a.Equals b = false) ∧
      (∀ e ∈ entire, ∀ L ∈ e.2, L.predicate = e.1 ∧
        L.vars.map FoilVariable.variable_type_id = e.1.argument_types ∧
        ∀ v ∈ L.vars, v.variable_id = 0 ∨ v.variable_id = 1 ∨ v.variable_id = -1) ∧
      pruned = entire := by
  have h : (EnumerateCandidateLiterals testBackground (FoilClause.ofHead testHead5)
      LiteralSearchStats.none).any (fun r =>
        decide (r.1.map (fun e =>
            (e.1, e.2.map (fun l => l.vars.map FoilVariable.variable_id))) =
          testCandidateIds ∧
        (allLiterals r.1).length = 23 ∧
        (allLiterals r.1).Pairwise (fun a b => a.Equals b = false) ∧
        (∀ e ∈ r.1, ∀ L ∈ e.2, L.predicate = e.1 ∧
          L.vars.map FoilVariable.variable_type_id = e.1.argument_types ∧
          ∀ v ∈ L.vars, v.variable_id = 0 ∨ v.variable_id = 1 ∨ v.variable_id = -1) ∧
        r.2 = r.1)) = true := by
    decide
  obtain ⟨r, hr, hp⟩ := option_any_some _ _ h
  exact ⟨r.1, r.2, hr, of_decide_eq_true hp⟩

/-! ## The arena -/

theorem arena_allocate_large (n size : Nat) (h1 : 2 * n ≤ size)
    (h2 : n * 2 ≤ MAX_ARENA_BUFFER_INCREMENT_SIZE) :
    ((Arena.create n).Allocate size).2 = none := by
  have hlast : (Arena.create n).blocks.getLast? = some (ArenaBlock.create n) := rfl
  have hfirst : (ArenaBlock.create n).Allocate size = (ArenaBlock.create n, none) := by
    unfold ArenaBlock.Allocate ArenaBlock.create
    simp only [List.length_replicate]
    rw [if_neg (by omega)]
  have hsize : (ArenaBlock.create n).size = n := by
    unfold ArenaBlock.size ArenaBlock.create
    simp
  have hsecond : (ArenaBlock.create (max size (n * 2))).Allocate size =
      (ArenaBlock.create (max size (n * 2)), none) := by
    unfold ArenaBlock.Allocate ArenaBlock.create
    simp only [List.length_replicate]
    rw [if_neg (by
      have : max size (n * 2) = size := Nat.max_eq_left (by omega)
      omega)]
  unfold Arena.Allocate
  rw [hlast]
  simp only [hfirst, hsize]
  rw [if_neg (by omega)]
  simp only [hsecond]

/-- C35: `Arena::AddStringPiece` can get a null address from `Arena::Allocate` and copy the
string through it.  In an arena of the initial buffer size 10, as in the test,
`Allocate(20)` returns `nullptr`, so adding a string of 19 characters fails, and so does
adding the string `a` to an arena of the initial buffer size 1; in general the first string
added to an arena of the initial buffer size `n` (with `2 n` at most 32 MB) fails when its
size with the NUL is at least `2 n`.  The strings of the test (8 characters) are added and
read back. -/
theorem arena_addStringPiece_null :
    ((Arena.create 10).Allocate 20).2 = none ∧
    (Arena.create 10).AddStringPiece "0123456789012345678".toList = none ∧
    (Arena.create 1).AddStringPiece ['a'] = none ∧
    (∀ (n : Nat) (str : List Char), 1 ≤ n → n * 2 ≤ MAX_ARENA_BUFFER_INCREMENT_SIZE →
      2 * n ≤ str.length + 1 → (Arena.create n).AddStringPiece str = none) ∧
    (((Arena.create 10).AddStringPiece "0.000000".toList).bind (fun r =>
      (r.1.AddStringPiece "1.500000".toList).map (fun r2 =>
        (r.2, r2.2, r2.1.stringAt r.2, r2.1.stringAt r2.2)))) =
      some ((0, 0), (1, 0), some "0.000000".toList, some "1.500000".toList) := by
  refine ⟨by decide, by decide, by decide, ?_, by decide⟩
  intro n str _ h2 h3
  have h := arena_allocate_large n (str.length + 1) h3 h2
  unfold Arena.AddStringPiece
  cases hA : (Arena.create n).Allocate (str.length + 1) with
  | mk a1 dest =>
    rw [hA] at h
    simp only at h
    rw [h]

/-! ## The plan builder: structure of the returned plan -/

theorem getD_updateAt_ne {α : Type} (l : List α) (i j : Nat) (f : α → α) (d : α)
    (h : i ≠ j) : (updateAt l i f).getD j d = l.getD j d := by
  unfold updateAt
  cases hg : l.get? i with
  | none => rfl
  | some x => simp [List.getD_eq_getElem?_getD, List.getElem?_set, h]

theorem getD_updateAt_self {α : Type} (l : List α) (i : Nat) (f : α → α) (d : α)
    (h : i < l.length) : (updateAt l i f).getD i d = f (l.getD i d) := by
  unfold updateAt
  have hg : l.get? i = some l[i] := by simp [List.get?_eq_getElem?, h]
  rw [hg]
  simp [List.getD_eq_getElem?_getD, List.getElem?_set, h]

theorem getD_updateAt_ge {α : Type} (l : List α) (i j : Nat) (f : α → α) (d : α)
    (h : l.length ≤ i) : (updateAt l i f).getD j d = l.getD j d := by
  unfold updateAt
  have hg : l.get? i = none := by simp [List.get?_eq_getElem?, h]
  rw [hg]

theorem getD_enum_map {α β : Type} (l : List α) (g : Nat × α → β) (j : Nat) (d : α) (d2 : β)
    (h : j < l.length) : (l.enum.map g).getD j d2 = g (j, l.getD j d) := by
  simp [List.getD_eq_getElem?_getD, List.getElem?_map, List.enum_eq_zip_range, h,
    List.getElem?_zip_eq_some]

theorem getD_enum_map_proj {β : Type} (proj : PredicateInfo → β)
    (nodes : List PredicateInfo) (g : Nat × PredicateInfo → PredicateInfo) (j : Nat)
    (hg : ∀ e, proj (g e) = proj e.2) :
    proj ((nodes.enum.map g).getD j default) = proj (nodes.getD j default) := by
  by_cases h : j < nodes.length
  · rw [getD_enum_map nodes g j default default h, hg]
  · have h1 : (nodes.enum.map g).length ≤ j := by simp; omega
    rw [List.getD_eq_default _ _ h1, List.getD_eq_default _ _ (by omega)]

theorem mem_setInsert (s : List Nat) (x y : Nat) : y ∈ setInsert s x ↔ y ∈ s ∨ y = x := by
  unfold setInsert
  split
  · constructor
    · exact Or.inl
    · rintro (h | rfl)
      · exact h
      · assumption
  · simp

theorem mem_setErase (s : List Nat) (x y : Nat) : y ∈ setErase s x ↔ y ∈ s ∧ y ≠ x := by
  unfold setErase
  simp

theorem mem_foldl_setInsert (r : List Nat) : ∀ (l : List Nat) (y : Nat),
    y ∈ r.foldl setInsert l ↔ y ∈ l ∨ y ∈ r := by
  induction r with
  | nil => intro l y; simp
  | cons a r ih =>
    intro l y
    rw [List.foldl_cons, ih, mem_setInsert]
    simp only [List.mem_cons]
    tauto
theorem covered_mono (st : PlanState) (E F : List Nat) (h : Covered st E)
    (hEF : ∀ x, x ∈ E → x ∈ F) : Covered st F := by
  intro x hx
  rcases h x hx with h1 | h1 | h1
  · exact Or.inl h1
  · exact Or.inr (Or.inl h1)
  · exact Or.inr (Or.inr (hEF x h1))

theorem treeAt_append_left (t : List PredicateTreeNode) (extra : List PredicateTreeNode)
    (i : Nat) (h : i < t.length) : treeAt (t ++ extra) i = treeAt t i := by
  unfold treeAt
  rw [List.getD_append _ _ _ _ h]

theorem nodeAt_append_left (t : List PredicateInfo) (extra : List PredicateInfo)
    (i : Nat) (h : i < t.length) : nodeAt (t ++ extra) i = nodeAt t i := by
  unfold nodeAt
  rw [List.getD_append _ _ _ _ h]

theorem nodeAt_append_length (t : List PredicateInfo) (n : PredicateInfo) :
    nodeAt (t ++ [n]) t.length = n := by
  unfold nodeAt
  rw [List.getD_append_right _ _ _ _ (le_refl _)]
  simp

theorem treeAt_append_length (t : List PredicateTreeNode) (n : PredicateTreeNode) :
    treeAt (t ++ [n]) t.length = n := by
  unfold treeAt
  rw [List.getD_append_right _ _ _ _ (le_refl _)]
  simp

/-- A new atom: a node of the builder, a node of the plan, a filter predicate and an entry
of the map are appended. -/
theorem extendAtom_inv (st : PlanState) (pair : Nat × Int) (E : List Nat) (h : AtomInv st)
    (hc : Covered st E) :
    AtomInv { st with
      tree_nodes := st.tree_nodes ++ [⟨none, none⟩]
      predicate_tree_nodes := st.predicate_tree_nodes ++
        [{ predicate_atoms := [st.attr_pair_id_map.length], literal_ids := [],
           mergeable_nodes := [], literal := none,
           plan_node := some st.tree_nodes.length,
           left_predicate_id := -1, right_predicate_id := -1, reference_count := 0 }]
      predicates := st.predicates ++ [pair]
      attr_pair_id_map := st.attr_pair_id_map ++ [(pair, st.attr_pair_id_map.length)] } ∧
    Covered { st with
      tree_nodes := st.tree_nodes ++ [⟨none, none⟩]
      predicate_tree_nodes := st.predicate_tree_nodes ++
        [{ predicate_atoms := [st.attr_pair_id_map.length], literal_ids := [],
           mergeable_nodes := [], literal := none,
           plan_node := some st.tree_nodes.length,
           left_predicate_id := -1, right_predicate_id := -1, reference_count := 0 }]
      predicates := st.predicates ++ [pair]
      attr_pair_id_map := st.attr_pair_id_map ++ [(pair, st.attr_pair_id_map.length)] }
      (setInsert E st.attr_pair_id_map.length) := by
  have hn := h.len_nodes
  have hm := h.len_map
  have hp := h.len_predicates
  constructor
  · constructor
    · simp only [List.length_append, List.length_singleton, hn]
    · simp only [List.length_append, List.length_singleton, hm]
    · simp only [List.length_append, List.length_singleton, hp]
    · intro m hmem
      simp only [List.length_append, List.length_singleton]
      rcases List.mem_append.mp hmem with h1 | h1
      · have := h.map_lt m h1
        omega
      · simp only [List.mem_singleton] at h1
        rw [h1]
        simp only
        omega
    · intro i hi
      simp only [List.length_append, List.length_singleton] at hi
      by_cases hlt : i < st.tree_nodes.length
      · simp only
        rw [nodeAt_append_left _ _ _ (by omega)]
        exact h.node i hlt
      · have hi2 : i = st.predicate_tree_nodes.length := by omega
        simp only
        rw [hi2, nodeAt_append_length]
        simp only [PredicateInfo.shape, hm, hn]
    · intro i hi
      simp only [List.length_append, List.length_singleton] at hi
      by_cases hlt : i < st.tree_nodes.length
      · simp only
        rw [treeAt_append_left _ _ _ hlt]
        exact h.tree i hlt
      · have hi2 : i = st.tree_nodes.length := by omega
        simp only
        rw [hi2, treeAt_append_length]
  · intro x hx
    simp only [List.length_append, List.length_singleton] at hx
    by_cases hlt : x < st.tree_nodes.length
    · simp only
      rw [treeAt_append_left _ _ _ hlt]
      rcases hc x hlt with h1 | h1 | h1
      · exact Or.inl h1
      · exact Or.inr (Or.inl h1)
      · exact Or.inr (Or.inr ((mem_setInsert _ _ _).mpr (Or.inl h1)))
    · refine Or.inr (Or.inr ((mem_setInsert _ _ _).mpr (Or.inr ?_)))
      omega

/-- An atom of the candidate `l` is recorded in its atom set and in the literal set of the
atom node. -/
theorem recordAtom_inv (st : PlanState) (l m : Nat) (h : AtomInv st)
    (hl : l < st.literal_info_vec.length)
    (hc : Covered st (setInsert (st.literal_info_vec.getD l []) m)) :
    AtomInv { st with
      predicate_tree_nodes := updateAt st.predicate_tree_nodes m
        (fun n => { n with literal_ids := setInsert n.literal_ids l })
      literal_info_vec := updateAt st.literal_info_vec l (fun a => setInsert a m) } ∧
    Covered { st with
      predicate_tree_nodes := updateAt st.predicate_tree_nodes m
        (fun n => { n with literal_ids := setInsert n.literal_ids l })
      literal_info_vec := updateAt st.literal_info_vec l (fun a => setInsert a m) }
      ((updateAt st.literal_info_vec l (fun a => setInsert a m)).getD l []) := by
  constructor
  · constructor
    · simp only [updateAt_length]
      exact h.len_nodes
    · exact h.len_map
    · exact h.len_predicates
    · exact h.map_lt
    · intro i hi
      simp only
      unfold nodeAt
      exact (getD_updateAt_proj PredicateInfo.shape st.predicate_tree_nodes m i
        (fun n => { n with literal_ids := setInsert n.literal_ids l }) (fun _ => rfl)).trans
        (h.node i hi)
    · exact h.tree
  · intro x hx
    rw [getD_updateAt_self _ _ _ _ hl]
    rcases hc x hx with h1 | ⟨l1, hl1, hx1⟩ | h1
    · exact Or.inl h1
    · refine Or.inr (Or.inl ⟨l1, hl1, ?_⟩)
      simp only
      by_cases hll : l = l1
      · subst hll
        rw [getD_updateAt_self _ _ _ _ hl]
        exact (mem_setInsert _ _ _).mpr (Or.inl hx1)
      · rw [getD_updateAt_ne _ _ _ _ _ hll]
        exact hx1
    · exact Or.inr (Or.inr h1)

theorem addAtom_inv (join_key : Option Nat) (l : Nat) (st : PlanState) (e : Nat × FoilVariable)
    (h : AtomInv st) (hl : l < st.literal_info_vec.length)
    (hc : Covered st (st.literal_info_vec.getD l [])) :
    AtomInv (addAtom join_key l st e) ∧
    (addAtom join_key l st e).literal_info_vec.length = st.literal_info_vec.length ∧
    Covered (addAtom join_key l st e) ((addAtom join_key l st e).literal_info_vec.getD l []) := by
  unfold addAtom
  split
  · cases hf : st.attr_pair_id_map.find? (fun m => decide (m.1 = (e.1, e.2.variable_id))) with
    | some m =>
      simp only [hf]
      have hm := h.map_lt m (List.mem_of_find?_eq_some hf)
      have hc2 : Covered st (setInsert (st.literal_info_vec.getD l []) m.2) :=
        covered_mono st _ _ hc (fun x hx => (mem_setInsert _ _ _).mpr (Or.inl hx))
      have := recordAtom_inv st l m.2 h hl hc2
      exact ⟨this.1, by simp only [updateAt_length], this.2⟩
    | none =>
      have hfind : (st.attr_pair_id_map ++ [((e.1, e.2.variable_id), st.attr_pair_id_map.length)]).find?
          (fun m => decide (m.1 = (e.1, e.2.variable_id))) =
          some ((e.1, e.2.variable_id), st.attr_pair_id_map.length) := by
        rw [List.find?_append, hf]
        simp
      simp only [hf, hfind]
      have hx := extendAtom_inv st (e.1, e.2.variable_id) (st.literal_info_vec.getD l []) h hc
      have := recordAtom_inv _ l st.attr_pair_id_map.length hx.1 hl hx.2
      refine ⟨?_, ?_, ?_⟩
      · exact this.1
      · simp only [updateAt_length]
      · exact this.2
  · exact ⟨h, rfl, hc⟩

theorem foldl_addAtom_inv (join_key : Option Nat) (l : Nat) (vs : List (Nat × FoilVariable)) :
    ∀ (st : PlanState), AtomInv st → l < st.literal_info_vec.length →
    Covered st (st.literal_info_vec.getD l []) →
    AtomInv (vs.foldl (addAtom join_key l) st) ∧
    (vs.foldl (addAtom join_key l) st).literal_info_vec.length = st.literal_info_vec.length ∧
    Covered (vs.foldl (addAtom join_key l) st)
      ((vs.foldl (addAtom join_key l) st).literal_info_vec.getD l []) := by
  induction vs with
  | nil => intro st h _ hc; exact ⟨h, rfl, hc⟩
  | cons e vs ih =>
    intro st h hl hc
    obtain ⟨h1, h2, h3⟩ := addAtom_inv join_key l st e h hl hc
    obtain ⟨h4, h5, h6⟩ := ih _ h1 (by rw [h2]; exact hl) h3
    rw [List.foldl_cons]
    exact ⟨h4, by rw [h5, h2], h6⟩
theorem treeAt_updateAt_ne (t : List PredicateTreeNode) (p i : Nat)
    (f : PredicateTreeNode → PredicateTreeNode) (h : p ≠ i) :
    treeAt (updateAt t p f) i = treeAt t i := by
  unfold treeAt
  exact getD_updateAt_ne t p i f _ h

theorem treeAt_updateAt_self (t : List PredicateTreeNode) (p : Nat)
    (f : PredicateTreeNode → PredicateTreeNode) (h : p < t.length) :
    treeAt (updateAt t p f) p = f (treeAt t p) := by
  unfold treeAt
  exact getD_updateAt_self t p f _ h

theorem addLiteral_inv (join_key : Option Nat) (st : PlanState) (e : Nat × FoilLiteral)
    (h : AtomInv st) (hl : e.1 < st.literal_info_vec.length) (hc : Covered st []) :
    AtomInv (addLiteral join_key st e) ∧
    (addLiteral join_key st e).literal_info_vec.length = st.literal_info_vec.length ∧
    Covered (addLiteral join_key st e) [] := by
  obtain ⟨h1, h2, h3⟩ := foldl_addAtom_inv join_key e.1 e.2.vars.enum st h hl
    (covered_mono st _ _ hc (fun x hx => by simp at hx))
  unfold addLiteral
  dsimp only
  generalize (e.2.vars.enum.foldl (addAtom join_key e.1) st) = st1 at h1 h2 h3 ⊢
  split
  · rename_i hget
    rw [hget] at h3
    exact ⟨⟨h1.len_nodes, h1.len_map, h1.len_predicates, h1.map_lt, h1.node, h1.tree⟩, h2, h3⟩
  · rename_i p hget
    rw [hget] at h3
    refine ⟨⟨?_, ?_, ?_, ?_, ?_, ?_⟩, h2, ?_⟩
    · simp only [updateAt_length]
      exact h1.len_nodes
    · simp only [updateAt_length]
      exact h1.len_map
    · simp only [updateAt_length]
      exact h1.len_predicates
    · simp only [updateAt_length]
      exact h1.map_lt
    · intro i hi
      simp only [updateAt_length] at hi
      exact (getD_updateAt_proj PredicateInfo.shape st1.predicate_tree_nodes p i
        (fun n => { n with literal_ids := setErase n.literal_ids e.1 }) (fun _ => rfl)).trans
        (h1.node i hi)
    · intro i hi
      simp only [updateAt_length] at hi
      simp only
      by_cases hpi : p = i
      · subst hpi
        rw [treeAt_updateAt_self _ _ _ hi]
        exact h1.tree p hi
      · rw [treeAt_updateAt_ne _ _ _ _ hpi]
        exact h1.tree i hi
    · intro x hx
      simp only [updateAt_length] at hx
      simp only
      by_cases hpx : p = x
      · subst hpx
        rw [treeAt_updateAt_self _ _ _ hx]
        exact Or.inl rfl
      · rw [treeAt_updateAt_ne _ _ _ _ hpx]
        rcases h3 x hx with h4 | h4 | h4
        · exact Or.inl h4
        · exact Or.inr (Or.inl h4)
        · simp only [List.mem_singleton] at h4
          exact absurd h4.symm hpx
  · refine ⟨⟨h1.len_nodes, h1.len_map, h1.len_predicates, h1.map_lt, h1.node, h1.tree⟩, h2, ?_⟩
    intro x hx
    rcases h3 x hx with h4 | ⟨l1, hl1, hx1⟩ | h4
    · exact Or.inl h4
    · exact Or.inr (Or.inl ⟨l1, (mem_setInsert _ _ _).mpr (Or.inl hl1), hx1⟩)
    · exact Or.inr (Or.inl ⟨e.1, (mem_setInsert _ _ _).mpr (Or.inr rfl), h4⟩)

theorem foldl_addLiteral_inv (join_key : Option Nat) (n : Nat) :
    ∀ (ls : List (Nat × FoilLiteral)) (st : PlanState), (∀ e ∈ ls, e.1 < n) →
    AtomInv st → st.literal_info_vec.length = n → Covered st [] →
    AtomInv (ls.foldl (addLiteral join_key) st) ∧
    Covered (ls.foldl (addLiteral join_key) st) [] := by
  intro ls
  induction ls with
  | nil => intro st _ h _ hc; exact ⟨h, hc⟩
  | cons e ls ih =>
    intro st hls h hn hc
    obtain ⟨h1, h2, h3⟩ := addLiteral_inv join_key st e h
      (by rw [hn]; exact hls e (List.mem_cons_self _ _)) hc
    rw [List.foldl_cons]
    exact ih _ (fun e1 he1 => hls e1 (List.mem_cons_of_mem _ he1)) h1 (by rw [h2, hn]) h3

/-- When the loop over the remaining candidates is entered, the nodes are the atom nodes,
and every atom node has a candidate attached or is an atom of a remaining candidate. -/
theorem planInit_inv (literals : List FoilLiteral) :
    AtomInv (planInit literals) ∧ Covered (planInit literals) [] := by
  have hmem : ∀ e ∈ literals.enum, e.1 < literals.length := by
    intro e he
    have := List.mem_enum_iff_getElem?.mp he
    exact (List.getElem?_eq_some_iff.mp this).1
  obtain ⟨h1, h2⟩ := foldl_addLiteral_inv ((literals.head?.map FoilLiteral.join_key).getD none)
    literals.length literals.enum
    { root_literal := none, tree_nodes := [], predicate_tree_nodes := [],
      literal_info_vec := List.replicate literals.length [],
      attr_pair_id_map := [], predicates := [], remaining_literal_ids := [] } hmem
    ⟨rfl, rfl, rfl, by intro m hm; simp at hm, by intro i hi; simp at hi,
      by intro i hi; simp at hi⟩
    (by simp) (by intro x hx; simp at hx)
  unfold planInit
  dsimp only
  generalize (literals.enum.foldl (addLiteral ((literals.head?.map FoilLiteral.join_key).getD none))
    { root_literal := none, tree_nodes := [], predicate_tree_nodes := [],
      literal_info_vec := List.replicate literals.length [],
      attr_pair_id_map := [], predicates := [], remaining_literal_ids := [] }) = st at h1 h2 ⊢
  refine ⟨⟨?_, h1.len_map, h1.len_predicates, h1.map_lt, ?_, h1.tree⟩, h2⟩
  · unfold initMergeable
    simp only [List.length_map, List.enum_length]
    exact h1.len_nodes
  · intro i hi
    unfold initMergeable
    exact (getD_enum_map_proj PredicateInfo.shape st.predicate_tree_nodes
      (fun e => { e.2 with mergeable_nodes :=
        (List.range st.predicate_tree_nodes.length).filter (fun i => decide (i ≠ e.1)) }) i
      (fun _ => rfl)).trans (h1.node i hi)
theorem getElem?_append_some {α : Type} (l : List α) (extra : List α) (i : Nat) (a : α)
    (h : l[i]? = some a) : (l ++ extra)[i]? = some a := by
  have hi : i < l.length := (List.getElem?_eq_some_iff.mp h).1
  rw [List.getElem?_append_left hi]
  exact h

theorem extendAtom_sem (join_key : Option Nat) (literals : List FoilLiteral) (st : PlanState)
    (pair : Nat × Int) (l : Nat) (atoms : List (Nat × Int)) (h : AtomInv st)
    (hs : AtomSem join_key literals st) (hp : AtomProgress st l atoms) :
    AtomSem join_key literals { st with
      tree_nodes := st.tree_nodes ++ [⟨none, none⟩]
      predicate_tree_nodes := st.predicate_tree_nodes ++
        [{ predicate_atoms := [st.attr_pair_id_map.length], literal_ids := [],
           mergeable_nodes := [], literal := none,
           plan_node := some st.tree_nodes.length,
           left_predicate_id := -1, right_predicate_id := -1, reference_count := 0 }]
      predicates := st.predicates ++ [pair]
      attr_pair_id_map := st.attr_pair_id_map ++ [(pair, st.attr_pair_id_map.length)] } ∧
    AtomProgress { st with
      tree_nodes := st.tree_nodes ++ [⟨none, none⟩]
      predicate_tree_nodes := st.predicate_tree_nodes ++
        [{ predicate_atoms := [st.attr_pair_id_map.length], literal_ids := [],
           mergeable_nodes := [], literal := none,
           plan_node := some st.tree_nodes.length,
           left_predicate_id := -1, right_predicate_id := -1, reference_count := 0 }]
      predicates := st.predicates ++ [pair]
      attr_pair_id_map := st.attr_pair_id_map ++ [(pair, st.attr_pair_id_map.length)] }
      l atoms ∧
    (st.predicates ++ [pair])[st.attr_pair_id_map.length]? = some pair := by
  refine ⟨⟨?_, ?_⟩, ⟨?_, ?_⟩, ?_⟩
  · intro m hm
    dsimp only at hm ⊢
    rcases List.mem_append.mp hm with h1 | h1
    · exact getElem?_append_some _ _ _ _ (hs.map_pred m h1)
    · simp only [List.mem_singleton] at h1
      rw [h1]
      dsimp only
      rw [h.len_map, ← h.len_predicates]
      simp
  · intro i l1 hi hl
    dsimp only at hi hl ⊢
    simp only [List.length_append, List.length_singleton] at hi
    by_cases hlt : i < st.tree_nodes.length
    · rw [treeAt_append_left _ _ _ hlt] at hl
      obtain ⟨L, h1, h2, h3⟩ := hs.attached i l1 hlt hl
      exact ⟨L, h1, h2, fun a ha => getElem?_append_some _ _ _ _ (h3 a ha)⟩
    · have : i = st.tree_nodes.length := by omega
      rw [this, treeAt_append_length] at hl
      simp at hl
  · intro m hm
    obtain ⟨a, ha, h1⟩ := hp.1 m hm
    exact ⟨a, ha, getElem?_append_some _ _ _ _ h1⟩
  · intro a ha
    obtain ⟨m, hm, h1⟩ := hp.2 a ha
    exact ⟨m, hm, getElem?_append_some _ _ _ _ h1⟩
  · rw [h.len_map, ← h.len_predicates]
    simp

theorem recordAtom_sem (join_key : Option Nat) (literals : List FoilLiteral) (st : PlanState)
    (l m : Nat) (pair : Nat × Int) (atoms : List (Nat × Int))
    (hl : l < st.literal_info_vec.length)
    (hs : AtomSem join_key literals st) (hp : AtomProgress st l atoms)
    (hm : st.predicates[m]? = some pair) :
    AtomSem join_key literals { st with
      predicate_tree_nodes := updateAt st.predicate_tree_nodes m
        (fun n => { n with literal_ids := setInsert n.literal_ids l })
      literal_info_vec := updateAt st.literal_info_vec l (fun a => setInsert a m) } ∧
    AtomProgress { st with
      predicate_tree_nodes := updateAt st.predicate_tree_nodes m
        (fun n => { n with literal_ids := setInsert n.literal_ids l })
      literal_info_vec := updateAt st.literal_info_vec l (fun a => setInsert a m) }
      l (atoms ++ [pair]) := by
  refine ⟨⟨hs.map_pred, hs.attached⟩, ⟨?_, ?_⟩⟩
  · intro m1 hm1
    dsimp only at hm1 ⊢
    rw [getD_updateAt_self _ _ _ _ hl, mem_setInsert] at hm1
    rcases hm1 with h1 | h1
    · obtain ⟨a, ha, h2⟩ := hp.1 m1 h1
      exact ⟨a, List.mem_append_left _ ha, h2⟩
    · rw [h1]
      exact ⟨pair, by simp, hm⟩
  · intro a ha
    dsimp only
    rw [getD_updateAt_self _ _ _ _ hl]
    rcases List.mem_append.mp ha with h1 | h1
    · obtain ⟨m1, hm1, h2⟩ := hp.2 a h1
      exact ⟨m1, (mem_setInsert _ _ _).mpr (Or.inl hm1), h2⟩
    · simp only [List.mem_singleton] at h1
      rw [h1]
      exact ⟨m, (mem_setInsert _ _ _).mpr (Or.inr rfl), hm⟩

theorem atomsOfVars_snoc (join_key : Option Nat) (done : List (Nat × FoilVariable))
    (e : Nat × FoilVariable) :
    atomsOfVars join_key (done ++ [e]) =
      atomsOfVars join_key done ++
        (if (e.2.IsBound && decide (some e.1 ≠ join_key)) = true then [(e.1, e.2.variable_id)]
         else []) := by
  unfold atomsOfVars
  rw [List.filter_append, List.map_append]
  congr 1
  by_cases hc : (e.2.IsBound && decide (some e.1 ≠ join_key)) = true
  · rw [if_pos hc]
    simp only [List.filter_cons, hc, if_true, List.filter_nil, List.map_cons, List.map_nil]
  · rw [if_neg hc]
    simp only [List.filter_cons, hc, if_false, List.filter_nil, List.map_nil,
      Bool.false_eq_true]

theorem addAtom_sem (join_key : Option Nat) (literals : List FoilLiteral) (l : Nat)
    (st : PlanState) (e : Nat × FoilVariable) (done : List (Nat × FoilVariable))
    (h : AtomInv st) (hl : l < st.literal_info_vec.length)
    (hs : AtomSem join_key literals st) (hp : AtomProgress st l (atomsOfVars join_key done)) :
    AtomSem join_key literals (addAtom join_key l st e) ∧
    AtomProgress (addAtom join_key l st e) l (atomsOfVars join_key (done ++ [e])) := by
  rw [atomsOfVars_snoc]
  unfold addAtom
  split
  · rename_i hc
    cases hf : st.attr_pair_id_map.find? (fun m => decide (m.1 = (e.1, e.2.variable_id))) with
    | some m =>
      simp only [hf]
      have hm1 : m.1 = (e.1, e.2.variable_id) := by
        have := List.find?_some hf
        simpa using this
      have hm := hs.map_pred m (List.mem_of_find?_eq_some hf)
      rw [hm1] at hm
      exact recordAtom_sem join_key literals st l m.2 _ _ hl hs hp hm
    | none =>
      have hfind : (st.attr_pair_id_map ++ [((e.1, e.2.variable_id), st.attr_pair_id_map.length)]).find?
          (fun m => decide (m.1 = (e.1, e.2.variable_id))) =
          some ((e.1, e.2.variable_id), st.attr_pair_id_map.length) := by
        rw [List.find?_append, hf]
        simp
      simp only [hf, hfind]
      obtain ⟨x1, x2, x3⟩ := extendAtom_sem join_key literals st (e.1, e.2.variable_id) l
        (atomsOfVars join_key done) h hs hp
      refine recordAtom_sem join_key literals _ l st.attr_pair_id_map.length _ _ ?_ x1 x2 x3
      exact hl
  · rw [List.append_nil]
    exact ⟨hs, hp⟩

theorem foldl_addAtom_sem (join_key : Option Nat) (literals : List FoilLiteral) (l : Nat)
    (vs : List (Nat × FoilVariable)) :
    ∀ (st : PlanState) (done : List (Nat × FoilVariable)), AtomInv st →
    l < st.literal_info_vec.length → Covered st (st.literal_info_vec.getD l []) →
    AtomSem join_key literals st → AtomProgress st l (atomsOfVars join_key done) →
    AtomSem join_key literals (vs.foldl (addAtom join_key l) st) ∧
    AtomProgress (vs.foldl (addAtom join_key l) st) l (atomsOfVars join_key (done ++ vs)) := by
  induction vs with
  | nil =>
    intro st done _ _ _ hs hp
    rw [List.append_nil]
    exact ⟨hs, hp⟩
  | cons e vs ih =>
    intro st done h hl hc hs hp
    obtain ⟨h1, h2, h3⟩ := addAtom_inv join_key l st e h hl hc
    obtain ⟨s1, s2⟩ := addAtom_sem join_key literals l st e done h hl hs hp
    rw [List.foldl_cons]
    have := ih _ (done ++ [e]) h1 (by rw [h2]; exact hl) h3 s1 s2
    rw [List.append_assoc, List.singleton_append] at this
    exact this
theorem planInit_planInv (literals : List FoilLiteral) :
    PlanInv (planInit literals).tree_nodes.length (planInit literals) := by
  obtain ⟨h, hc⟩ := planInit_inv literals
  generalize planInit literals = st at h hc
  have hnode : ∀ i, i < st.tree_nodes.length →
      (nodeAt st.predicate_tree_nodes i).predicate_atoms = [i] ∧
      (nodeAt st.predicate_tree_nodes i).plan_node = some i ∧
      (nodeAt st.predicate_tree_nodes i).left_predicate_id = -1 ∧
      (nodeAt st.predicate_tree_nodes i).right_predicate_id = -1 ∧
      (nodeAt st.predicate_tree_nodes i).reference_count = 0 := by
    intro i hi
    have := h.node i hi
    simp only [PredicateInfo.shape, Prod.mk.injEq] at this
    exact ⟨this.1, this.2.2.1, this.2.2.2.1, this.2.2.2.2.1, this.2.2.2.2.2⟩
  refine ⟨by rw [h.len_nodes], rfl, h.len_predicates, h.tree, ?_, ?_, ?_, ?_⟩
  · intro i hi
    obtain ⟨h1, h2, h3, h4, _⟩ := hnode i hi
    exact ⟨h1, h2, h3, h4⟩
  · intro i hi hi2
    rw [h.len_nodes] at hi2
    omega
  · intro i hi
    rw [h.len_nodes] at hi
    rw [(hnode i hi).2.2.2.2]
    unfold referenceSum
    symm
    apply Finset.sum_eq_zero
    intro p hp
    rw [Finset.mem_range, h.len_nodes] at hp
    obtain ⟨_, _, h3, h4, _⟩ := hnode p hp
    simp only [if_true, childCount, h3, h4]
    have : ¬ ((-1 : Int) = (i : Int)) := by omega
    simp [this]
  · intro x hx
    rcases hc x hx with h1 | h1 | h1
    · exact Or.inl h1
    · exact Or.inr (Or.inl h1)
    · simp at h1

theorem setEq_subset (a b : List Nat) (h : setEq a b = true) : ∀ x, x ∈ a → x ∈ b := by
  unfold setEq at h
  simp only [Bool.and_eq_true, List.all_eq_true, decide_eq_true_eq] at h
  exact h.2

theorem attachLiteral_some (info : List (List Nat)) (new_node_id : Nat) (ls : List Nat) :
    ∀ (acc : List PredicateInfo × PredicateInfo × List Nat), acc.2.1.literal.isSome = true →
    ls.foldl (attachLiteral info new_node_id) acc = acc := by
  induction ls with
  | nil => intro acc _; rfl
  | cons l ls ih =>
    intro acc h
    rw [List.foldl_cons]
    have h1 : attachLiteral info new_node_id acc l = acc := by
      unfold attachLiteral
      have : acc.2.1.literal.isNone = false := by
        cases hlit : acc.2.1.literal with
        | none => rw [hlit] at h; simp at h
        | some v => rfl
      simp [this]
    rw [h1]
    exact ih acc h

theorem attachLiteral_fold (info : List (List Nat)) (new_node_id : Nat) (ls : List Nat) :
    ∀ (acc : List PredicateInfo × PredicateInfo × List Nat),
    (ls.foldl (attachLiteral info new_node_id) acc).1.length = acc.1.length ∧
    (∀ j, ((ls.foldl (attachLiteral info new_node_id) acc).1.getD j default).shape =
      (acc.1.getD j default).shape) ∧
    (ls.foldl (attachLiteral info new_node_id) acc).2.1.predicate_atoms =
      acc.2.1.predicate_atoms ∧
    (ls.foldl (attachLiteral info new_node_id) acc).2.1.plan_node = acc.2.1.plan_node ∧
    (ls.foldl (attachLiteral info new_node_id) acc).2.1.left_predicate_id =
      acc.2.1.left_predicate_id ∧
    (ls.foldl (attachLiteral info new_node_id) acc).2.1.right_predicate_id =
      acc.2.1.right_predicate_id ∧
    (ls.foldl (attachLiteral info new_node_id) acc).2.1.reference_count =
      acc.2.1.reference_count ∧
    (((ls.foldl (attachLiteral info new_node_id) acc).2.1.literal = acc.2.1.literal ∧
      (ls.foldl (attachLiteral info new_node_id) acc).2.2 = acc.2.2) ∨
     (∃ l, (ls.foldl (attachLiteral info new_node_id) acc).2.1.literal = some l ∧
        (∀ x, x ∈ info.getD l [] → x ∈ acc.2.1.predicate_atoms) ∧
        (ls.foldl (attachLiteral info new_node_id) acc).2.2 = setErase acc.2.2 l)) := by
  induction ls with
  | nil =>
    intro acc
    exact ⟨rfl, fun _ => rfl, rfl, rfl, rfl, rfl, rfl, Or.inl ⟨rfl, rfl⟩⟩
  | cons l ls ih =>
    intro acc
    rw [List.foldl_cons]
    by_cases hcond : (acc.2.1.literal.isNone &&
        setEq (info.getD l []) acc.2.1.predicate_atoms) = true
    · have hstep : attachLiteral info new_node_id acc l =
          ((acc.1.enum.map (fun e =>
            if e.1 < new_node_id then
              { e.2 with literal_ids := setErase e.2.literal_ids l }
            else e.2)),
          { acc.2.1 with literal := some l,
                         literal_ids := setErase acc.2.1.literal_ids l },
          setErase acc.2.2 l) := by
        unfold attachLiteral
        rw [if_pos hcond]
      rw [attachLiteral_some info new_node_id ls _ (by rw [hstep]; rfl)]
      rw [hstep]
      refine ⟨by simp, ?_, rfl, rfl, rfl, rfl, rfl, Or.inr ⟨l, rfl, ?_, rfl⟩⟩
      · intro j
        exact getD_enum_map_proj PredicateInfo.shape acc.1
          (fun e =>
            if e.1 < new_node_id then
              { e.2 with literal_ids := setErase e.2.literal_ids l }
            else e.2) j (by intro e; dsimp only; split <;> rfl)
      · simp only [Bool.and_eq_true] at hcond
        exact setEq_subset _ _ hcond.2
    · have hstep : attachLiteral info new_node_id acc l = acc := by
        unfold attachLiteral
        rw [if_neg hcond]
      rw [hstep]
      exact ih acc
theorem bumpReference_twice (nodes : List PredicateInfo) (a b j : Nat)
    (ha : a < nodes.length) (hb : b < nodes.length) :
    ((updateAt (updateAt nodes a bumpReference) b bumpReference).getD j default).shape =
      ((nodes.getD j default).predicate_atoms, (nodes.getD j default).literal,
       (nodes.getD j default).plan_node, (nodes.getD j default).left_predicate_id,
       (nodes.getD j default).right_predicate_id,
       (nodes.getD j default).reference_count + (if j = a then 1 else 0) +
         (if j = b then 1 else 0)) := by
  have hb1 : b < (updateAt nodes a bumpReference).length := by rw [updateAt_length]; exact hb
  by_cases hjb : j = b
  · subst hjb
    rw [getD_updateAt_self _ _ _ _ hb1]
    by_cases hja : j = a
    · subst hja
      rw [getD_updateAt_self _ _ _ _ ha]
      simp [PredicateInfo.shape, bumpReference]
    · rw [getD_updateAt_ne _ _ _ _ _ (Ne.symm hja)]
      simp [PredicateInfo.shape, bumpReference, hja]
  · rw [getD_updateAt_ne _ _ _ _ _ (Ne.symm hjb)]
    by_cases hja : j = a
    · subst hja
      rw [getD_updateAt_self _ _ _ _ ha]
      simp [PredicateInfo.shape, bumpReference, hjb]
    · rw [getD_updateAt_ne _ _ _ _ _ (Ne.symm hja)]
      simp [PredicateInfo.shape, hja, hjb]

/-- One iteration of the loop over the remaining candidates appends the conjunction of the
nodes `a` and `b`, counts one more reference to each of them, and attaches to the new
node at most one candidate, whose atoms are atoms of the node. -/
theorem mergeNodes_spec (order : List Nat → List Nat) (st : PlanState) (a b : Nat)
    (ha : a < st.predicate_tree_nodes.length) (hb : b < st.predicate_tree_nodes.length) :
    ∃ (nodes2 : List PredicateInfo) (node : PredicateInfo) (rem2 : List Nat),
      mergeNodes order st (a : Int) (b : Int) =
        { st with predicate_tree_nodes := nodes2 ++ [node], remaining_literal_ids := rem2 } ∧
      nodes2.length = st.predicate_tree_nodes.length ∧
      (∀ j, (nodes2.getD j default).shape =
        ((st.predicate_tree_nodes.getD j default).predicate_atoms,
         (st.predicate_tree_nodes.getD j default).literal,
         (st.predicate_tree_nodes.getD j default).plan_node,
         (st.predicate_tree_nodes.getD j default).left_predicate_id,
         (st.predicate_tree_nodes.getD j default).right_predicate_id,
         (st.predicate_tree_nodes.getD j default).reference_count +
           (if j = a then 1 else 0) + (if j = b then 1 else 0))) ∧
      node.left_predicate_id = (a : Int) ∧ node.right_predicate_id = (b : Int) ∧
      node.plan_node = none ∧ node.reference_count = 0 ∧
      (∀ x, x ∈ node.predicate_atoms →
        x ∈ (st.predicate_tree_nodes.getD a default).predicate_atoms ∨
        x ∈ (st.predicate_tree_nodes.getD b default).predicate_atoms) ∧
      ((node.literal = none ∧ rem2 = st.remaining_literal_ids) ∨
       (∃ l, node.literal = some l ∧
          (∀ x, x ∈ st.literal_info_vec.getD l [] → x ∈ node.predicate_atoms) ∧
          rem2 = setErase st.remaining_literal_ids l)) := by
  have hsh := fun j => bumpReference_twice st.predicate_tree_nodes a b j ha hb
  have hlen1 : (updateAt (updateAt st.predicate_tree_nodes a bumpReference) b
      bumpReference).length = st.predicate_tree_nodes.length := by
    rw [updateAt_length, updateAt_length]
  generalize hn1 : updateAt (updateAt st.predicate_tree_nodes a bumpReference) b
    bumpReference = nodes1 at hsh hlen1
  have hatoms : ∀ j, (nodes1.getD j default).predicate_atoms =
      (st.predicate_tree_nodes.getD j default).predicate_atoms := by
    intro j
    have := hsh j
    simp only [PredicateInfo.shape, Prod.mk.injEq] at this
    exact this.1
  have hmerge : mergeNodes order st (a : Int) (b : Int) =
      { st with
        predicate_tree_nodes :=
          ((order (SetIntersection order (nodes1.getD a default).literal_ids
              (nodes1.getD b default).literal_ids)).foldl
            (attachLiteral st.literal_info_vec nodes1.length)
            (nodes1,
              { predicate_atoms := (nodes1.getD b default).predicate_atoms.foldl setInsert
                  (nodes1.getD a default).predicate_atoms
                literal_ids := SetIntersection order (nodes1.getD a default).literal_ids
                  (nodes1.getD b default).literal_ids
                mergeable_nodes := [], literal := none, plan_node := none
                left_predicate_id := (a : Int), right_predicate_id := (b : Int)
                reference_count := 0 },
              st.remaining_literal_ids)).1.enum.map
            (addMergeable a b nodes1.length
              ((order (SetIntersection order (nodes1.getD a default).literal_ids
                (nodes1.getD b default).literal_ids)).foldl
              (attachLiteral st.literal_info_vec nodes1.length)
              (nodes1,
                { predicate_atoms := (nodes1.getD b default).predicate_atoms.foldl setInsert
                    (nodes1.getD a default).predicate_atoms
                  literal_ids := SetIntersection order (nodes1.getD a default).literal_ids
                    (nodes1.getD b default).literal_ids
                  mergeable_nodes := [], literal := none, plan_node := none
                  left_predicate_id := (a : Int), right_predicate_id := (b : Int)
                  reference_count := 0 },
                st.remaining_literal_ids)).2.1.predicate_atoms) ++
          [((order (SetIntersection order (nodes1.getD a default).literal_ids
              (nodes1.getD b default).literal_ids)).foldl
            (attachLiteral st.literal_info_vec nodes1.length)
            (nodes1,
              { predicate_atoms := (nodes1.getD b default).predicate_atoms.foldl setInsert
                  (nodes1.getD a default).predicate_atoms
                literal_ids := SetIntersection order (nodes1.getD a default).literal_ids
                  (nodes1.getD b default).literal_ids
                mergeable_nodes := [], literal := none, plan_node := none
                left_predicate_id := (a : Int), right_predicate_id := (b : Int)
                reference_count := 0 },
              st.remaining_literal_ids)).2.1]
        remaining_literal_ids :=
          ((order (SetIntersection order (nodes1.getD a default).literal_ids
              (nodes1.getD b default).literal_ids)).foldl
            (attachLiteral st.literal_info_vec nodes1.length)
            (nodes1,
              { predicate_atoms := (nodes1.getD b default).predicate_atoms.foldl setInsert
                  (nodes1.getD a default).predicate_atoms
                literal_ids := SetIntersection order (nodes1.getD a default).literal_ids
                  (nodes1.getD b default).literal_ids
                mergeable_nodes := [], literal := none, plan_node := none
                left_predicate_id := (a : Int), right_predicate_id := (b : Int)
                reference_count := 0 },
              st.remaining_literal_ids)).2.2 } := by
    rw [← hn1]
    rfl
  obtain ⟨f1, f2, f3, f4, f5, f6, f7, f8⟩ := attachLiteral_fold st.literal_info_vec nodes1.length
    (order (SetIntersection order (nodes1.getD a default).literal_ids
      (nodes1.getD b default).literal_ids))
    (nodes1,
      { predicate_atoms := (nodes1.getD b default).predicate_atoms.foldl setInsert
          (nodes1.getD a default).predicate_atoms
        literal_ids := SetIntersection order (nodes1.getD a default).literal_ids
          (nodes1.getD b default).literal_ids
        mergeable_nodes := [], literal := none, plan_node := none
        left_predicate_id := (a : Int), right_predicate_id := (b : Int)
        reference_count := 0 },
      st.remaining_literal_ids)
  rw [hmerge]
  generalize ((order (SetIntersection order (nodes1.getD a default).literal_ids
      (nodes1.getD b default).literal_ids)).foldl
    (attachLiteral st.literal_info_vec nodes1.length)
    (nodes1,
      { predicate_atoms := (nodes1.getD b default).predicate_atoms.foldl setInsert
          (nodes1.getD a default).predicate_atoms
        literal_ids := SetIntersection order (nodes1.getD a default).literal_ids
          (nodes1.getD b default).literal_ids
        mergeable_nodes := [], literal := none, plan_node := none
        left_predicate_id := (a : Int), right_predicate_id := (b : Int)
        reference_count := 0 },
      st.remaining_literal_ids)) = r at f1 f2 f3 f4 f5 f6 f7 f8 ⊢
  simp only at f1 f2 f3 f4 f5 f6 f7 f8
  refine ⟨_, _, _, rfl, ?_, ?_, f5, f6, f4, f7, ?_, ?_⟩
  · simp only [List.length_map, List.enum_length, f1, hlen1]
  · intro j
    rw [getD_enum_map_proj PredicateInfo.shape r.1 _ j
      (by intro e; unfold addMergeable; split <;> rfl), f2 j]
    exact hsh j
  · intro x hx
    rw [f3, mem_foldl_setInsert, hatoms, hatoms] at hx
    exact hx
  · rcases f8 with ⟨h1, h2⟩ | ⟨l, h1, h2, h3⟩
    · exact Or.inl ⟨h1, h2⟩
    · refine Or.inr ⟨l, h1, ?_, h3⟩
      intro x hx
      rw [f3]
      exact h2 x hx
theorem intersectionSize_nil (s : List Nat) : intersectionSize s [] = 0 := rfl

theorem searchSecond_lt (order : List Nat → List Nat) (nodes : List PredicateInfo)
    (first_node_id : Nat) (hf : first_node_id < nodes.length) (best : Nat × Int × Int)
    (h : best.1 = 0 ∨ ∃ a b : Nat, best.2.1 = (a : Int) ∧ best.2.2 = (b : Int) ∧
      a < nodes.length ∧ b < nodes.length) :
    (searchSecond order nodes best first_node_id).1 = 0 ∨
    ∃ a b : Nat, (searchSecond order nodes best first_node_id).2.1 = (a : Int) ∧
      (searchSecond order nodes best first_node_id).2.2 = (b : Int) ∧
      a < nodes.length ∧ b < nodes.length := by
  unfold searchSecond
  generalize order (nodes.getD first_node_id default).mergeable_nodes = seconds
  induction seconds generalizing best with
  | nil => exact h
  | cons s seconds ih =>
    rw [List.foldl_cons]
    apply ih
    dsimp only
    split
    · rename_i hgt
      right
      refine ⟨first_node_id, s, rfl, rfl, hf, ?_⟩
      by_contra hs
      have hd : nodes.getD s default = default := List.getD_eq_default _ _ (by omega)
      rw [hd] at hgt
      have : intersectionSize (nodes.getD first_node_id default).literal_ids
          (default : PredicateInfo).literal_ids = 0 := intersectionSize_nil _
      omega
    · exact h

theorem findBestPair_lt (order : List Nat → List Nat) (nodes : List PredicateInfo) :
    (findBestPair order nodes).1 = 0 ∨
    ∃ a b : Nat, (findBestPair order nodes).2.1 = (a : Int) ∧
      (findBestPair order nodes).2.2 = (b : Int) ∧ a < nodes.length ∧ b < nodes.length := by
  unfold findBestPair
  have hmem : ∀ f ∈ List.range (nodes.length - 1), f < nodes.length := by
    intro f hf
    rw [List.mem_range] at hf
    omega
  generalize List.range (nodes.length - 1) = firsts at hmem
  have key : ∀ (best : Nat × Int × Int),
      (best.1 = 0 ∨ ∃ a b : Nat, best.2.1 = (a : Int) ∧ best.2.2 = (b : Int) ∧
        a < nodes.length ∧ b < nodes.length) →
      ((firsts.foldl (searchSecond order nodes) best).1 = 0 ∨
        ∃ a b : Nat, (firsts.foldl (searchSecond order nodes) best).2.1 = (a : Int) ∧
          (firsts.foldl (searchSecond order nodes) best).2.2 = (b : Int) ∧
          a < nodes.length ∧ b < nodes.length) := by
    induction firsts with
    | nil => intro best h; exact h
    | cons f firsts ih =>
      intro best h
      rw [List.foldl_cons]
      exact ih (fun g hg => hmem g (List.mem_cons_of_mem _ hg)) _
        (searchSecond_lt order nodes f (hmem f (List.mem_cons_self _ _)) best h)
  exact key _ (Or.inl rfl)

theorem childCount_congr (nodes1 nodes2 : List PredicateInfo) (p n : Nat)
    (hl : (nodeAt nodes1 p).left_predicate_id = (nodeAt nodes2 p).left_predicate_id)
    (hr : (nodeAt nodes1 p).right_predicate_id = (nodeAt nodes2 p).right_predicate_id) :
    childCount nodes1 p n = childCount nodes2 p n := by
  unfold childCount
  rw [hl, hr]

/-- A node is not a child of a node with a smaller or equal id. -/
theorem childCount_zero (A : Nat) (st : PlanState) (h : PlanInv A st) (p n : Nat)
    (hp : p < st.predicate_tree_nodes.length) (hn : p ≤ n) :
    childCount st.predicate_tree_nodes p n = 0 := by
  unfold childCount
  by_cases hpA : p < A
  · obtain ⟨_, _, h3, h4⟩ := h.atom p hpA
    rw [h3, h4]
    have : ¬ ((-1 : Int) = (n : Int)) := by omega
    simp [this]
  · obtain ⟨h1, h2, h3, h4, _⟩ := h.conj p (by omega) hp
    have e1 : ¬ ((nodeAt st.predicate_tree_nodes p).left_predicate_id = (n : Int)) := by omega
    have e2 : ¬ ((nodeAt st.predicate_tree_nodes p).right_predicate_id = (n : Int)) := by omega
    simp [e1, e2]

theorem planStep_inv (order : List Nat → List Nat) (A : Nat) (st st1 : PlanState)
    (h : PlanInv A st) (hs : planStep order st = some st1) : PlanInv A st1 := by
  unfold planStep at hs
  dsimp only at hs
  split at hs
  · exact absurd hs (by simp)
  rename_i hne
  rcases findBestPair_lt order st.predicate_tree_nodes with h0 | ⟨a, b, ha, hb, halt, hblt⟩
  · exact absurd h0 hne
  rw [ha, hb] at hs
  obtain ⟨nodes2, node, rem2, hm, hlen, hsh, hleft, hright, hplan, hrc, hatoms, hlit⟩ :=
    mergeNodes_spec order st a b halt hblt
  rw [hm] at hs
  have hst1 := Option.some.inj hs
  have hf : ∀ j, j < st.predicate_tree_nodes.length →
      (nodeAt (nodes2 ++ [node]) j).predicate_atoms =
        (nodeAt st.predicate_tree_nodes j).predicate_atoms ∧
      (nodeAt (nodes2 ++ [node]) j).literal = (nodeAt st.predicate_tree_nodes j).literal ∧
      (nodeAt (nodes2 ++ [node]) j).plan_node = (nodeAt st.predicate_tree_nodes j).plan_node ∧
      (nodeAt (nodes2 ++ [node]) j).left_predicate_id =
        (nodeAt st.predicate_tree_nodes j).left_predicate_id ∧
      (nodeAt (nodes2 ++ [node]) j).right_predicate_id =
        (nodeAt st.predicate_tree_nodes j).right_predicate_id ∧
      (nodeAt (nodes2 ++ [node]) j).reference_count =
        (nodeAt st.predicate_tree_nodes j).reference_count +
          (if j = a then 1 else 0) + (if j = b then 1 else 0) := by
    intro j hj
    rw [nodeAt_append_left _ _ _ (by rw [hlen]; exact hj)]
    have := hsh j
    simp only [PredicateInfo.shape, Prod.mk.injEq] at this
    exact this
  have hnew : nodeAt (nodes2 ++ [node]) st.predicate_tree_nodes.length = node := by
    rw [← hlen]
    exact nodeAt_append_length _ _
  have hlen1 : (nodes2 ++ [node]).length = st.predicate_tree_nodes.length + 1 := by
    simp [hlen]
  rw [← hst1]
  constructor
  · show A ≤ (nodes2 ++ [node]).length
    have := h.len
    omega
  · exact h.trees
  · exact h.preds
  · exact h.tree
  · intro i hi
    have hiN : i < st.predicate_tree_nodes.length := lt_of_lt_of_le hi h.len
    obtain ⟨g1, _, g3, g4, g5, _⟩ := hf i hiN
    obtain ⟨k1, k2, k3, k4⟩ := h.atom i hi
    show (nodeAt (nodes2 ++ [node]) i).predicate_atoms = [i] ∧ _
    rw [g1, g3, g4, g5]
    exact ⟨k1, k2, k3, k4⟩
  · intro i hiA hi
    show 0 ≤ (nodeAt (nodes2 ++ [node]) i).left_predicate_id ∧ _
    change i < (nodes2 ++ [node]).length at hi
    rw [hlen1] at hi
    by_cases hiN : i < st.predicate_tree_nodes.length
    · obtain ⟨g1, _, _, g4, g5, _⟩ := hf i hiN
      obtain ⟨k1, k2, k3, k4, k5⟩ := h.conj i hiA hiN
      rw [g1, g4, g5]
      refine ⟨k1, k2, k3, k4, ?_⟩
      intro x hx
      rw [(hf _ (by omega)).1, (hf _ (by omega)).1]
      exact k5 x hx
    · have hiN2 : i = st.predicate_tree_nodes.length := by omega
      subst hiN2
      rw [hnew, hleft, hright]
      simp only [Int.toNat_ofNat]
      refine ⟨by omega, halt, by omega, hblt, ?_⟩
      intro x hx
      rw [(hf _ halt).1, (hf _ hblt).1]
      exact hatoms x hx
  · intro i hi
    change i < (nodes2 ++ [node]).length at hi
    rw [hlen1] at hi
    show (nodeAt (nodes2 ++ [node]) i).reference_count = referenceSum (nodes2 ++ [node]) _ i
    unfold referenceSum
    rw [hlen1, Finset.sum_range_succ]
    simp only [if_true]
    have hsum : Finset.sum (Finset.range st.predicate_tree_nodes.length)
        (fun p => childCount (nodes2 ++ [node]) p i) =
        Finset.sum (Finset.range st.predicate_tree_nodes.length)
        (fun p => childCount st.predicate_tree_nodes p i) := by
      apply Finset.sum_congr rfl
      intro p hp
      rw [Finset.mem_range] at hp
      exact childCount_congr _ _ p i (hf p hp).2.2.2.1 (hf p hp).2.2.2.2.1
    rw [hsum]
    have hlast : childCount (nodes2 ++ [node]) st.predicate_tree_nodes.length i =
        (if i = a then 1 else 0) + (if i = b then 1 else 0) := by
      unfold childCount
      rw [hnew, hleft, hright]
      simp only [Nat.cast_inj, eq_comm]
    rw [hlast]
    by_cases hiN : i < st.predicate_tree_nodes.length
    · rw [(hf i hiN).2.2.2.2.2, h.refs i hiN]
      unfold referenceSum
      simp only [if_true]
      omega
    · have hiN2 : i = st.predicate_tree_nodes.length := by omega
      subst hiN2
      rw [hnew, hrc]
      have hz : Finset.sum (Finset.range st.predicate_tree_nodes.length)
          (fun p => childCount st.predicate_tree_nodes p st.predicate_tree_nodes.length) = 0 := by
        apply Finset.sum_eq_zero
        intro p hp
        rw [Finset.mem_range] at hp
        exact childCount_zero A st h p _ hp (by omega)
      rw [hz]
      have e1 : ¬ (st.predicate_tree_nodes.length = a) := by omega
      have e2 : ¬ (st.predicate_tree_nodes.length = b) := by omega
      simp [e1, e2]
  · intro x hx
    have hA := h.len
    have hc3 : ∀ c, A ≤ c → c < st.predicate_tree_nodes.length →
        (nodeAt st.predicate_tree_nodes c).literal.isSome = true →
        x ∈ (nodeAt st.predicate_tree_nodes c).predicate_atoms →
        ∃ c, A ≤ c ∧ c < (nodes2 ++ [node]).length ∧
          (nodeAt (nodes2 ++ [node]) c).literal.isSome = true ∧
          x ∈ (nodeAt (nodes2 ++ [node]) c).predicate_atoms := by
      intro c hcA hcN hl hxa
      refine ⟨c, hcA, by rw [hlen1]; omega, ?_, ?_⟩
      · rw [(hf c hcN).2.1]; exact hl
      · rw [(hf c hcN).1]; exact hxa
    rcases h.cover x hx with h1 | ⟨l, hl, hxl⟩ | ⟨c, hcA, hcN, hl, hxa⟩
    · exact Or.inl h1
    · rcases hlit with ⟨_, hrem⟩ | ⟨l0, hl0, hsub, hrem⟩
      · exact Or.inr (Or.inl ⟨l, by rw [hrem]; exact hl, hxl⟩)
      · by_cases hll : l = l0
        · subst hll
          refine Or.inr (Or.inr ⟨st.predicate_tree_nodes.length, hA, by rw [hlen1]; omega, ?_, ?_⟩)
          · rw [hnew, hl0]; rfl
          · rw [hnew]; exact hsub x hxl
        · exact Or.inr (Or.inl ⟨l, by rw [hrem]; exact (mem_setErase _ _ _).mpr ⟨hl, hll⟩, hxl⟩)
    · exact Or.inr (Or.inr (hc3 c hcA hcN hl hxa))

theorem planLoop_inv (order : List Nat → List Nat) (A : Nat) (fuel : Nat) :
    ∀ (st st1 : PlanState), PlanInv A st → planLoop order fuel st = LoopResult.finished st1 →
    PlanInv A st1 ∧ st1.remaining_literal_ids = [] := by
  induction fuel with
  | zero =>
    intro st st1 h hl
    unfold planLoop at hl
    split at hl
    · rename_i he
      have := LoopResult.finished.inj hl
      subst this
      exact ⟨h, List.isEmpty_iff.mp he⟩
    · simp at hl
  | succ n ih =>
    intro st st1 h hl
    unfold planLoop at hl
    split at hl
    · rename_i he
      have := LoopResult.finished.inj hl
      subst this
      exact ⟨h, List.isEmpty_iff.mp he⟩
    · cases hs : planStep order st with
      | none => rw [hs] at hl; simp at hl
      | some st2 =>
        rw [hs] at hl
        exact ih st2 st1 (planStep_inv order A st st2 h hs) hl
theorem addAtom_info_ne (join_key : Option Nat) (l l1 : Nat) (st : PlanState)
    (e : Nat × FoilVariable) (h : l ≠ l1) :
    (addAtom join_key l st e).literal_info_vec.getD l1 [] = st.literal_info_vec.getD l1 [] := by
  unfold addAtom
  split
  · cases hf : st.attr_pair_id_map.find? (fun m => decide (m.1 = (e.1, e.2.variable_id))) with
    | some m =>
      simp only [hf]
      exact getD_updateAt_ne _ _ _ _ _ h
    | none =>
      have hfind : (st.attr_pair_id_map ++ [((e.1, e.2.variable_id), st.attr_pair_id_map.length)]).find?
          (fun m => decide (m.1 = (e.1, e.2.variable_id))) =
          some ((e.1, e.2.variable_id), st.attr_pair_id_map.length) := by
        rw [List.find?_append, hf]
        simp
      simp only [hf, hfind]
      exact getD_updateAt_ne _ _ _ _ _ h
  · rfl

theorem foldl_addAtom_info_ne (join_key : Option Nat) (l l1 : Nat) (h : l ≠ l1)
    (vs : List (Nat × FoilVariable)) : ∀ (st : PlanState),
    (vs.foldl (addAtom join_key l) st).literal_info_vec.getD l1 [] =
      st.literal_info_vec.getD l1 [] := by
  induction vs with
  | nil => intro st; rfl
  | cons e vs ih =>
    intro st
    rw [List.foldl_cons, ih, addAtom_info_ne join_key l l1 st e h]

theorem addLiteral_info_ne (join_key : Option Nat) (st : PlanState) (e : Nat × FoilLiteral)
    (l1 : Nat) (h : e.1 ≠ l1) :
    (addLiteral join_key st e).literal_info_vec.getD l1 [] = st.literal_info_vec.getD l1 [] := by
  have := foldl_addAtom_info_ne join_key e.1 l1 h e.2.vars.enum st
  unfold addLiteral
  dsimp only
  split
  · exact this
  · exact this
  · exact this

theorem addLiteral_sem (join_key : Option Nat) (literals : List FoilLiteral) (st : PlanState)
    (e : Nat × FoilLiteral) (h : AtomInv st) (hl : e.1 < st.literal_info_vec.length)
    (hc : Covered st []) (hs : AtomSem join_key literals st)
    (hempty : st.literal_info_vec.getD e.1 [] = []) (hlit : literals[e.1]? = some e.2) :
    AtomSem join_key literals (addLiteral join_key st e) := by
  obtain ⟨h1, _, _⟩ := foldl_addAtom_inv join_key e.1 e.2.vars.enum st h hl
    (covered_mono st _ _ hc (fun x hx => by simp at hx))
  obtain ⟨s1, s2⟩ := foldl_addAtom_sem join_key literals e.1 e.2.vars.enum st [] h hl
    (covered_mono st _ _ hc (fun x hx => by simp at hx)) hs
    (by
      constructor
      · intro m hm
        rw [hempty] at hm
        simp at hm
      · intro a ha
        simp [atomsOfVars] at ha)
  rw [List.nil_append] at s2
  unfold addLiteral
  dsimp only
  generalize (e.2.vars.enum.foldl (addAtom join_key e.1) st) = st1 at h1 s1 s2 ⊢
  split
  · exact ⟨s1.map_pred, s1.attached⟩
  · rename_i p hget
    refine ⟨s1.map_pred, ?_⟩
    intro i l1 hi hl1
    dsimp only at hi hl1 ⊢
    rw [updateAt_length] at hi
    by_cases hpi : p = i
    · subst hpi
      rw [treeAt_updateAt_self _ _ _ hi] at hl1
      dsimp only at hl1
      have hle : e.1 = l1 := Option.some.inj hl1
      subst hle
      refine ⟨e.2, hlit, ?_, ?_⟩
      · obtain ⟨a, ha, _⟩ := s2.1 p (by rw [hget]; simp)
        exact List.ne_nil_of_mem ha
      · intro a ha
        obtain ⟨m, hm, hma⟩ := s2.2 a ha
        rw [hget, List.mem_singleton] at hm
        rw [← hm]
        exact hma
    · rw [treeAt_updateAt_ne _ _ _ _ hpi] at hl1
      exact s1.attached i l1 hi hl1
  · exact ⟨s1.map_pred, s1.attached⟩

theorem foldl_addLiteral_sem (join_key : Option Nat) (literals : List FoilLiteral) :
    ∀ (ls : List FoilLiteral) (n : Nat) (st : PlanState),
    (∀ i L, ls[i]? = some L → literals[n + i]? = some L) →
    n + ls.length ≤ st.literal_info_vec.length →
    AtomInv st → Covered st [] → AtomSem join_key literals st →
    (∀ l, n ≤ l → st.literal_info_vec.getD l [] = []) →
    AtomSem join_key literals ((ls.enumFrom n).foldl (addLiteral join_key) st) := by
  intro ls
  induction ls with
  | nil => intro n st _ _ _ _ hs _; exact hs
  | cons L ls ih =>
    intro n st hls hn h hc hs hempty
    rw [List.enumFrom_cons, List.foldl_cons]
    simp only [List.length_cons] at hn
    obtain ⟨h1, h2, h3⟩ := addLiteral_inv join_key st (n, L) h (by dsimp only; omega) hc
    have s1 := addLiteral_sem join_key literals st (n, L) h (by dsimp only; omega) hc hs
      (hempty n (le_refl _)) (by simpa using hls 0 L (by simp))
    apply ih (n + 1) _ _ (by rw [h2]; omega) h1 h3 s1
    · intro l hl
      rw [addLiteral_info_ne join_key st (n, L) l (by dsimp only; omega)]
      exact hempty l (by omega)
    · intro i L1 hi
      have := hls (i + 1) L1 (by simpa using hi)
      rw [show n + 1 + i = n + (i + 1) by omega]
      exact this

theorem planInit_sem (literals : List FoilLiteral) :
    AtomSem ((literals.head?.map FoilLiteral.join_key).getD none) literals
      (planInit literals) := by
  have := foldl_addLiteral_sem ((literals.head?.map FoilLiteral.join_key).getD none) literals
    literals 0
    { root_literal := none, tree_nodes := [], predicate_tree_nodes := [],
      literal_info_vec := List.replicate literals.length [],
      attr_pair_id_map := [], predicates := [], remaining_literal_ids := [] }
    (by intro i L hi; rw [Nat.zero_add]; exact hi)
    (by simp)
    ⟨rfl, rfl, rfl, by intro m hm; simp at hm, by intro i hi; simp at hi,
      by intro i hi; simp at hi⟩
    (by intro x hx; simp at hx)
    ⟨by intro m hm; simp at hm, by intro i l hi; simp at hi⟩
    (by
      intro l _
      dsimp only
      by_cases hl : l < literals.length
      · rw [List.getD_eq_getElem _ _ (by simpa using hl)]
        simp
      · rw [List.getD_eq_default _ _ (by simp; omega)])
  unfold planInit
  dsimp only
  exact ⟨this.map_pred, this.attached⟩

theorem planLoop_frame (order : List Nat → List Nat) (fuel : Nat) :
    ∀ (st st1 : PlanState), planLoop order fuel st = LoopResult.finished st1 →
    st1.tree_nodes = st.tree_nodes ∧ st1.predicates = st.predicates := by
  induction fuel with
  | zero =>
    intro st st1 hl
    unfold planLoop at hl
    split at hl
    · have := LoopResult.finished.inj hl
      subst this
      exact ⟨rfl, rfl⟩
    · simp at hl
  | succ n ih =>
    intro st st1 hl
    unfold planLoop at hl
    split at hl
    · have := LoopResult.finished.inj hl
      subst this
      exact ⟨rfl, rfl⟩
    · cases hs : planStep order st with
      | none => rw [hs] at hl; simp at hl
      | some st2 =>
        rw [hs] at hl
        obtain ⟨h1, h2⟩ := ih st2 st1 hl
        unfold planStep at hs
        dsimp only at hs
        split at hs
        · simp at hs
        · have := Option.some.inj hs
          subst this
          exact ⟨h1, h2⟩
theorem sum_flag_change (N k : Nat) (hk : k < N) (f g : Nat → Bool) (c : Nat → Int)
    (hfg : ∀ p, p ≠ k → f p = g p) (hf : f k = true) (hg : g k = false) :
    Finset.sum (Finset.range N) (fun p => if f p then c p else 0) =
      Finset.sum (Finset.range N) (fun p => if g p then c p else 0) + c k := by
  have hmem : k ∈ Finset.range N := Finset.mem_range.mpr hk
  rw [← Finset.add_sum_erase _ _ hmem, ← Finset.add_sum_erase (Finset.range N) _ hmem]
  have hrest : Finset.sum ((Finset.range N).erase k) (fun p => if f p then c p else 0) =
      Finset.sum ((Finset.range N).erase k) (fun p => if g p then c p else 0) := by
    apply Finset.sum_congr rfl
    intro p hp
    rw [hfg p (Finset.ne_of_mem_erase hp)]
  rw [hrest, hf, hg]
  simp only [if_true, Bool.false_eq_true, if_false]
  omega

/-- The decrement `--reference_count` of a node. -/
theorem decrement_twice (nodes : List PredicateInfo) (a b j : Nat)
    (ha : a < nodes.length) (hb : b < nodes.length) :
    ((updateAt (updateAt nodes a
        (fun m => { m with reference_count := m.reference_count - 1 })) b
        (fun m => { m with reference_count := m.reference_count - 1 })).getD j default).shape =
      ((nodes.getD j default).predicate_atoms, (nodes.getD j default).literal,
       (nodes.getD j default).plan_node, (nodes.getD j default).left_predicate_id,
       (nodes.getD j default).right_predicate_id,
       (nodes.getD j default).reference_count - (if j = a then 1 else 0) -
         (if j = b then 1 else 0)) := by
  have hb1 : b < (updateAt nodes a
      (fun m => { m with reference_count := m.reference_count - 1 })).length := by
    rw [updateAt_length]; exact hb
  by_cases hjb : j = b
  · subst hjb
    rw [getD_updateAt_self _ _ _ _ hb1]
    by_cases hja : j = a
    · subst hja
      rw [getD_updateAt_self _ _ _ _ ha]
      simp [PredicateInfo.shape]
    · rw [getD_updateAt_ne _ _ _ _ _ (Ne.symm hja)]
      simp [PredicateInfo.shape, hja]
  · rw [getD_updateAt_ne _ _ _ _ _ (Ne.symm hjb)]
    by_cases hja : j = a
    · subst hja
      rw [getD_updateAt_self _ _ _ _ ha]
      simp [PredicateInfo.shape, hjb]
    · rw [getD_updateAt_ne _ _ _ _ _ (Ne.symm hja)]
      simp [PredicateInfo.shape, hja, hjb]
theorem sweepStep_inv (A : Nat) (st : PlanState) (h : PlanInv A st) (k : Nat) (hkA : A ≤ k)
    (hkN : k < st.predicate_tree_nodes.length) (ns : List PredicateInfo)
    (hs : SweepInv st.predicate_tree_nodes (k + 1) ns) :
    SweepInv st.predicate_tree_nodes k
      (if (ns.getD k default).literal.isNone &&
          decide ((ns.getD k default).reference_count = 0) then
        updateAt (updateAt ns (ns.getD k default).left_predicate_id.toNat
            (fun m => { m with reference_count := m.reference_count - 1 }))
          (ns.getD k default).right_predicate_id.toNat
          (fun m => { m with reference_count := m.reference_count - 1 })
      else ns) := by
  obtain ⟨c1, c2, c3, c4, _⟩ := h.conj k hkA hkN
  obtain ⟨_, s2, _, s4, s5⟩ := hs.same k
  have hnk : ns.getD k default = nodeAt ns k := rfl
  rw [hnk]
  rw [← s4] at c1 c2
  rw [← s5] at c3 c4
  generalize hl : (nodeAt ns k).left_predicate_id.toNat = l at c2
  generalize hr : (nodeAt ns k).right_predicate_id.toNat = r at c4
  have hleft : (nodeAt ns k).left_predicate_id = (l : Int) := by omega
  have hright : (nodeAt ns k).right_predicate_id = (r : Int) := by omega
  have hcc : ∀ i : Nat, childCount ns k i = (if i = l then 1 else 0) + (if i = r then 1 else 0) := by
    intro i
    unfold childCount
    rw [hleft, hright]
    simp only [Nat.cast_inj, eq_comm]
  split
  · rename_i hdrop
    simp only [Bool.and_eq_true, Option.isNone_iff_eq_none, decide_eq_true_eq] at hdrop
    have hlN : l < ns.length := by rw [hs.len]; omega
    have hrN : r < ns.length := by rw [hs.len]; omega
    have hsh : ∀ j, (nodeAt (updateAt (updateAt ns l
        (fun m => { m with reference_count := m.reference_count - 1 })) r
        (fun m => { m with reference_count := m.reference_count - 1 })) j).shape =
        ((nodeAt ns j).predicate_atoms, (nodeAt ns j).literal, (nodeAt ns j).plan_node,
          (nodeAt ns j).left_predicate_id, (nodeAt ns j).right_predicate_id,
          (nodeAt ns j).reference_count - (if j = l then 1 else 0) -
            (if j = r then 1 else 0)) := fun j => decrement_twice ns l r j hlN hrN
    have hlen1 : (updateAt (updateAt ns l
        (fun m => { m with reference_count := m.reference_count - 1 })) r
        (fun m => { m with reference_count := m.reference_count - 1 })).length = ns.length := by
      rw [updateAt_length, updateAt_length]
    generalize updateAt (updateAt ns l
        (fun m => { m with reference_count := m.reference_count - 1 })) r
        (fun m => { m with reference_count := m.reference_count - 1 }) = ns1 at hsh hlen1
    have hf : ∀ j, (nodeAt ns1 j).predicate_atoms = (nodeAt ns j).predicate_atoms ∧
        (nodeAt ns1 j).literal = (nodeAt ns j).literal ∧
        (nodeAt ns1 j).plan_node = (nodeAt ns j).plan_node ∧
        (nodeAt ns1 j).left_predicate_id = (nodeAt ns j).left_predicate_id ∧
        (nodeAt ns1 j).right_predicate_id = (nodeAt ns j).right_predicate_id ∧
        (nodeAt ns1 j).reference_count = (nodeAt ns j).reference_count -
          (if j = l then 1 else 0) - (if j = r then 1 else 0) := by
      intro j
      have := hsh j
      simp only [PredicateInfo.shape, Prod.mk.injEq] at this
      exact this
    refine ⟨by rw [hlen1, hs.len], ?_, ?_⟩
    · intro j
      obtain ⟨f1, f2, f3, f4, f5, _⟩ := hf j
      obtain ⟨g1, g2, g3, g4, g5⟩ := hs.same j
      exact ⟨f1.trans g1, f2.trans g2, f3.trans g3, f4.trans g4, f5.trans g5⟩
    · intro i hi
      rw [(hf i).2.2.2.2.2, hs.count i hi]
      unfold referenceSum
      rw [hlen1]
      have hk2 : k < ns.length := by rw [hs.len]; exact hkN
      have hcongr : Finset.sum (Finset.range ns.length)
          (fun p => if (decide (p < k) || keptNode ns1 p) = true then childCount ns1 p i else 0) =
          Finset.sum (Finset.range ns.length)
          (fun p => if (decide (p < k) || keptNode ns1 p) = true then childCount ns p i else 0) := by
        apply Finset.sum_congr rfl
        intro p _
        rw [childCount_congr ns1 ns p i (hf p).2.2.2.1 (hf p).2.2.2.2.1]
      rw [hcongr]
      rw [sum_flag_change ns.length k hk2 (fun p => decide (p < k + 1) || keptNode ns p)
        (fun p => decide (p < k) || keptNode ns1 p) (fun p => childCount ns p i)]
      · rw [hcc i]
        omega
      · intro p hp
        by_cases hpk : p < k
        · have hpk1 : p < k + 1 := by omega
          simp [hpk, hpk1]
        · have hpk1 : ¬ p < k + 1 := by omega
          have e1 : ¬ p = l := by omega
          have e2 : ¬ p = r := by omega
          simp only [hpk, hpk1, decide_False, Bool.false_or]
          unfold keptNode
          rw [(hf p).2.1, (hf p).2.2.2.2.2]
          simp [e1, e2]
      · simp
      · have e1 : ¬ k = l := by omega
        have e2 : ¬ k = r := by omega
        simp only [lt_self_iff_false, decide_False, Bool.false_or]
        unfold keptNode
        rw [(hf k).2.1, (hf k).2.2.2.2.2, hdrop.1, hdrop.2]
        simp [e1, e2]
  · rename_i hkeep
    refine ⟨hs.len, hs.same, ?_⟩
    intro i hi
    rw [hs.count i hi]
    unfold referenceSum
    apply Finset.sum_congr rfl
    intro p _
    by_cases hpk : p = k
    · subst hpk
      have hk : keptNode ns p = true := by
        unfold keptNode
        cases hlit : (nodeAt ns p).literal with
        | some v => rfl
        | none =>
          rw [hlit] at hkeep
          simpa using hkeep
      simp [hk]
    · have : (p < k + 1) ↔ (p < k) := by omega
      simp only [this]
theorem sweep_fold (A : Nat) (st : PlanState) (h : PlanInv A st) :
    ∀ (m : Nat) (ns : List PredicateInfo), A + m ≤ st.predicate_tree_nodes.length →
    SweepInv st.predicate_tree_nodes (A + m) ns →
    SweepInv st.predicate_tree_nodes A
      (((List.range m).reverse.map (fun i => i + A)).foldl
        (fun ns node_id =>
          let n := ns.getD node_id default
          if n.literal.isNone && decide (n.reference_count = 0) then
            updateAt (updateAt ns n.left_predicate_id.toNat
                (fun m => { m with reference_count := m.reference_count - 1 }))
              n.right_predicate_id.toNat
              (fun m => { m with reference_count := m.reference_count - 1 })
          else ns) ns) := by
  intro m
  induction m with
  | zero =>
    intro ns _ hs
    exact hs
  | succ m ih =>
    intro ns hm hs
    rw [List.range_succ, List.reverse_append, List.reverse_singleton, List.singleton_append,
      List.map_cons, List.foldl_cons]
    apply ih _ (by omega)
    have := sweepStep_inv A st h (m + A) (by omega) (by omega) ns
      (by rw [show m + A + 1 = A + (m + 1) by omega]; exact hs)
    rw [show A + m = m + A by omega]
    exact this

theorem sweepReferences_inv (A : Nat) (st : PlanState) (h : PlanInv A st) :
    SweepInv st.predicate_tree_nodes A (sweepReferences A st.predicate_tree_nodes) := by
  unfold sweepReferences
  apply sweep_fold A st h
  · have := h.len
    omega
  · refine ⟨rfl, fun j => ⟨rfl, rfl, rfl, rfl, rfl⟩, ?_⟩
    intro i hi
    rw [h.refs i hi]
    unfold referenceSum
    apply Finset.sum_congr rfl
    intro p hp
    rw [Finset.mem_range] at hp
    have : p < A + (st.predicate_tree_nodes.length - A) := by
      have := h.len
      omega
    simp [this]

theorem childCount_nonneg (nodes : List PredicateInfo) (p n : Nat) :
    0 ≤ childCount nodes p n := by
  unfold childCount
  split <;> split <;> omega

theorem childCount_ne_zero (nodes : List PredicateInfo) (p n : Nat)
    (h : childCount nodes p n ≠ 0) :
    (nodeAt nodes p).left_predicate_id = (n : Int) ∨
    (nodeAt nodes p).right_predicate_id = (n : Int) := by
  unfold childCount at h
  by_contra hne
  rw [not_or] at hne
  rw [if_neg hne.1, if_neg hne.2] at h
  exact h rfl

theorem childCount_pos (nodes : List PredicateInfo) (p n : Nat)
    (h : (nodeAt nodes p).left_predicate_id = (n : Int) ∨
      (nodeAt nodes p).right_predicate_id = (n : Int)) :
    1 ≤ childCount nodes p n := by
  unfold childCount
  rcases h with h | h
  · rw [if_pos h]
    split <;> omega
  · rw [if_pos h]
    split <;> omega

/-- After the sweep, a child of a kept conjunction has a reference count that is not 0. -/
theorem sweep_child (A : Nat) (st : PlanState) (ns : List PredicateInfo)
    (hs : SweepInv st.predicate_tree_nodes A ns) (p c : Nat)
    (hp : p < st.predicate_tree_nodes.length) (hk : keptNode ns p = true)
    (hc : (nodeAt ns p).left_predicate_id = (c : Int) ∨
      (nodeAt ns p).right_predicate_id = (c : Int))
    (hcN : c < st.predicate_tree_nodes.length) :
    (nodeAt ns c).reference_count ≠ 0 := by
  rw [hs.count c hcN]
  unfold referenceSum
  dsimp only
  have hle := Finset.single_le_sum
    (f := fun q => if (decide (q < A) || keptNode ns q) = true then childCount ns q c else 0)
    (s := Finset.range ns.length)
    (fun q _ => by
      dsimp only
      split
      · exact childCount_nonneg ns q c
      · exact le_refl _)
    (Finset.mem_range.mpr (by rw [hs.len]; exact hp))
  have hterm : (if (decide (p < A) || keptNode ns p) = true then childCount ns p c else 0) =
      childCount ns p c := by
    rw [hk]
    simp
  dsimp only at hle
  rw [hterm] at hle
  have := childCount_pos ns p c hc
  omega

/-- After the sweep, a node with a reference count that is not 0 is a child of a kept
conjunction with a larger id. -/
theorem sweep_parent (A : Nat) (st : PlanState) (h : PlanInv A st) (ns : List PredicateInfo)
    (hs : SweepInv st.predicate_tree_nodes A ns) (n : Nat)
    (hn : n < st.predicate_tree_nodes.length) (hrc : (nodeAt ns n).reference_count ≠ 0) :
    ∃ p, A ≤ p ∧ p < st.predicate_tree_nodes.length ∧ n < p ∧ keptNode ns p = true ∧
      ((nodeAt ns p).left_predicate_id = (n : Int) ∨
       (nodeAt ns p).right_predicate_id = (n : Int)) := by
  rw [hs.count n hn] at hrc
  unfold referenceSum at hrc
  obtain ⟨p, hp, hne⟩ := Finset.exists_ne_zero_of_sum_ne_zero hrc
  rw [Finset.mem_range, hs.len] at hp
  dsimp only at hne
  split at hne
  swap
  · exact absurd rfl hne
  rename_i hflag
  have hchild := childCount_ne_zero ns p n hne
  obtain ⟨_, _, _, s4, s5⟩ := hs.same p
  by_cases hpA : p < A
  · obtain ⟨_, _, a3, a4⟩ := h.atom p hpA
    rw [s4, s5, a3, a4] at hchild
    omega
  · have hk : keptNode ns p = true := by
      simpa [hpA] using hflag
    obtain ⟨c1, c2, c3, c4, _⟩ := h.conj p (by omega) hp
    refine ⟨p, by omega, hp, ?_, hk, hchild⟩
    rw [s4, s5] at hchild
    omega
/-- The plan node of a node that is an atom or a kept conjunction already visited. -/
theorem emit_plan_node (A : Nat) (st : PlanState)
    (ns : List PredicateInfo) (hs : SweepInv st.predicate_tree_nodes A ns)
    (orig : List PredicateTreeNode) (k : Nat) (s : PlanState) (he : EmitInv A orig ns k s)
    (p c : Nat) (hp : p < st.predicate_tree_nodes.length) (hk : keptNode ns p = true)
    (hc : (nodeAt ns p).left_predicate_id = (c : Int) ∨
      (nodeAt ns p).right_predicate_id = (c : Int)) (hck : c < k)
    (hcN : c < st.predicate_tree_nodes.length) :
    ∃ j, (nodeAt s.predicate_tree_nodes c).plan_node = some j ∧ j < s.tree_nodes.length := by
  by_cases hcA : c < A
  · exact ⟨c, he.atom_plan c hcA, lt_of_lt_of_le hcA he.tree_len⟩
  · have hrc := sweep_child A st ns hs p c hp hk hc hcN
    have hkc : keptNode ns c = true := by
      unfold keptNode
      simp [hrc]
    obtain ⟨j, _, _, h1, _, h3, _⟩ := he.emitted c (by omega) hck hkc
    exact ⟨j, h1, h3⟩

theorem emitStep_inv (A : Nat) (st : PlanState) (h : PlanInv A st)
    (ns : List PredicateInfo) (hs : SweepInv st.predicate_tree_nodes A ns)
    (orig : List PredicateTreeNode) (k : Nat) (hkA : A ≤ k)
    (hkN : k < st.predicate_tree_nodes.length) (s : PlanState) (he : EmitInv A orig ns k s) :
    EmitInv A orig ns (k + 1)
      (if (s.predicate_tree_nodes.getD k default).literal.isSome ||
          decide ((s.predicate_tree_nodes.getD k default).reference_count ≠ 0) then
        { s with
          tree_nodes := s.tree_nodes ++
            [⟨(s.predicate_tree_nodes.getD k default).literal,
              some ((s.predicate_tree_nodes.getD
                  (s.predicate_tree_nodes.getD k default).left_predicate_id.toNat
                  default).plan_node,
                (s.predicate_tree_nodes.getD
                  (s.predicate_tree_nodes.getD k default).right_predicate_id.toNat
                  default).plan_node)⟩]
          predicate_tree_nodes := updateAt s.predicate_tree_nodes k
            (fun m => { m with plan_node := some s.tree_nodes.length }) }
      else s) := by
  have hcond : ((s.predicate_tree_nodes.getD k default).literal.isSome ||
      decide ((s.predicate_tree_nodes.getD k default).reference_count ≠ 0)) =
      keptNode ns k := by
    unfold keptNode
    have := he.same k
    unfold nodeAt at this
    rw [this.1, this.2.2.2]
    rfl
  rw [hcond]
  obtain ⟨e1, e2, e3, _⟩ := he.same k
  have hnk : s.predicate_tree_nodes.getD k default = nodeAt s.predicate_tree_nodes k := rfl
  rw [hnk, e1, e2, e3]
  obtain ⟨_, _, _, s4, s5⟩ := hs.same k
  obtain ⟨c1, c2, c3, c4, _⟩ := h.conj k hkA hkN
  rw [← s4] at c1 c2
  rw [← s5] at c3 c4
  generalize hl : (nodeAt ns k).left_predicate_id.toNat = l at c2
  generalize hr : (nodeAt ns k).right_predicate_id.toNat = r at c4
  have hleft : (nodeAt ns k).left_predicate_id = (l : Int) := by omega
  have hright : (nodeAt ns k).right_predicate_id = (r : Int) := by omega
  split
  · rename_i hkept
    obtain ⟨jl, hjl, hjl2⟩ := emit_plan_node A st ns hs orig k s he k l hkN hkept
      (Or.inl hleft) c2 (by omega)
    obtain ⟨jr, hjr, hjr2⟩ := emit_plan_node A st ns hs orig k s he k r hkN hkept
      (Or.inr hright) c4 (by omega)
    have hkS : k < s.predicate_tree_nodes.length := by rw [he.len, hs.len]; exact hkN
    have hne : ∀ j, j ≠ k →
        nodeAt (updateAt s.predicate_tree_nodes k
          (fun m => { m with plan_node := some s.tree_nodes.length })) j =
        nodeAt s.predicate_tree_nodes j := by
      intro j hj
      unfold nodeAt
      exact getD_updateAt_ne _ _ _ _ _ (Ne.symm hj)
    have hself : nodeAt (updateAt s.predicate_tree_nodes k
          (fun m => { m with plan_node := some s.tree_nodes.length })) k =
        { nodeAt s.predicate_tree_nodes k with plan_node := some s.tree_nodes.length } := by
      unfold nodeAt
      exact getD_updateAt_self _ _ _ _ hkS
    have hjlS : (s.predicate_tree_nodes.getD l default).plan_node = some jl := hjl
    have hjrS : (s.predicate_tree_nodes.getD r default).plan_node = some jr := hjr
    rw [hjlS, hjrS]
    constructor
    · show (updateAt s.predicate_tree_nodes k _).length = ns.length
      rw [updateAt_length]
      exact he.len
    · exact he.preds
    · intro j
      show (nodeAt (updateAt s.predicate_tree_nodes k _) j).literal = _ ∧ _
      by_cases hj : j = k
      · subst hj
        rw [hself]
        exact he.same j
      · rw [hne j hj]
        exact he.same j
    · intro j hj
      show (nodeAt (updateAt s.predicate_tree_nodes k _) j).plan_node = _
      rw [hne j (by omega)]
      exact he.atom_plan j hj
    · show A ≤ (s.tree_nodes ++ [_]).length
      have := he.tree_len
      simp only [List.length_append, List.length_singleton]
      omega
    · intro i hi
      show treeAt (s.tree_nodes ++ [_]) i = _
      rw [treeAt_append_left _ _ _ (lt_of_lt_of_le hi he.tree_len)]
      exact he.tree_atoms i hi
    · intro p hpA hpk hpkept
      dsimp only
      by_cases hp : p = k
      · subst hp
        refine ⟨s.tree_nodes.length, jl, jr, ?_, he.tree_len, ?_, ?_, ?_, ?_, hjl2, hjr2⟩
        · rw [hself]
        · simp
        · rw [treeAt_append_length]
        · rw [hl, hne l (by omega)]
          exact hjl
        · rw [hr, hne r (by omega)]
          exact hjr
      · have hpN : p < st.predicate_tree_nodes.length := by omega
        obtain ⟨j, jl1, jr1, g1, g2, g3, g4, g5, g6, g7, g8⟩ :=
          he.emitted p hpA (by omega) hpkept
        obtain ⟨_, _, _, t4, t5⟩ := hs.same p
        obtain ⟨d1, d2, d3, d4, _⟩ := h.conj p hpA hpN
        rw [← t4] at d2
        rw [← t5] at d4
        refine ⟨j, jl1, jr1, ?_, g2, ?_, ?_, ?_, ?_, g7, g8⟩
        · rw [hne p hp]
          exact g1
        · simp only [List.length_append, List.length_singleton]
          omega
        · rw [treeAt_append_left _ _ _ g3]
          exact g4
        · rw [hne _ (by omega)]
          exact g5
        · rw [hne _ (by omega)]
          exact g6
    · intro j hjA hj
      dsimp only
      dsimp only at hj
      simp only [List.length_append, List.length_singleton] at hj
      by_cases hjl3 : j < s.tree_nodes.length
      · obtain ⟨p, p1, p2, p3, p4⟩ := he.onto j hjA hjl3
        refine ⟨p, p1, by omega, p3, ?_⟩
        rw [hne p (by omega)]
        exact p4
      · refine ⟨k, hkA, by omega, hkept, ?_⟩
        rw [hself]
        have : j = s.tree_nodes.length := by omega
        rw [this]
  · rename_i hdrop
    refine ⟨he.len, he.preds, he.same, he.atom_plan, he.tree_len, he.tree_atoms, ?_, ?_⟩
    · intro p hpA hpk hpkept
      by_cases hp : p = k
      · subst hp
        exact absurd hpkept hdrop
      · exact he.emitted p hpA (by omega) hpkept
    · intro j hjA hj
      obtain ⟨p, p1, p2, p3, p4⟩ := he.onto j hjA hj
      exact ⟨p, p1, by omega, p3, p4⟩
theorem emit_fold (A : Nat) (st : PlanState) (h : PlanInv A st)
    (ns : List PredicateInfo) (hs : SweepInv st.predicate_tree_nodes A ns)
    (orig : List PredicateTreeNode) (s0 : PlanState) (h0 : EmitInv A orig ns A s0) :
    ∀ (m : Nat), A + m ≤ st.predicate_tree_nodes.length →
    EmitInv A orig ns (A + m)
      (((List.range m).map (fun i => i + A)).foldl
        (fun s node_id =>
          let n := s.predicate_tree_nodes.getD node_id default
          if n.literal.isSome || decide (n.reference_count ≠ 0) then
            { s with
              tree_nodes := s.tree_nodes ++
                [⟨n.literal,
                  some ((s.predicate_tree_nodes.getD n.left_predicate_id.toNat default).plan_node,
                    (s.predicate_tree_nodes.getD n.right_predicate_id.toNat default).plan_node)⟩]
              predicate_tree_nodes := updateAt s.predicate_tree_nodes node_id
                (fun m => { m with plan_node := some s.tree_nodes.length }) }
          else s) s0) := by
  intro m
  induction m with
  | zero =>
    intro _
    exact h0
  | succ m ih =>
    intro hm
    rw [List.range_succ, List.map_append, List.foldl_append, List.map_singleton,
      List.foldl_cons, List.foldl_nil]
    have := emitStep_inv A st h ns hs orig (m + A) (by omega) (by omega) _
      (by rw [show m + A = A + m by omega]; exact ih (by omega))
    rw [show A + (m + 1) = m + A + 1 by omega]
    exact this

/-- An atom of a kept conjunction is a child of a kept conjunction. -/
theorem atom_parent (A : Nat) (st : PlanState) (h : PlanInv A st)
    (ns : List PredicateInfo) (hs : SweepInv st.predicate_tree_nodes A ns) (x : Nat) :
    ∀ (n c : Nat), c < n → A ≤ c → c < st.predicate_tree_nodes.length →
    keptNode ns c = true → x ∈ (nodeAt st.predicate_tree_nodes c).predicate_atoms →
    ∃ q, A ≤ q ∧ q < st.predicate_tree_nodes.length ∧ keptNode ns q = true ∧
      ((nodeAt ns q).left_predicate_id = (x : Int) ∨
       (nodeAt ns q).right_predicate_id = (x : Int)) := by
  intro n
  induction n with
  | zero => intro c hc; omega
  | succ n ih =>
    intro c hcn hcA hcN hk hx
    obtain ⟨c1, c2, c3, c4, c5⟩ := h.conj c hcA hcN
    obtain ⟨_, _, _, s4, s5⟩ := hs.same c
    rw [← s4] at c1 c2 c5
    rw [← s5] at c3 c4 c5
    generalize hl : (nodeAt ns c).left_predicate_id.toNat = l at c2 c5
    generalize hr : (nodeAt ns c).right_predicate_id.toNat = r at c4 c5
    have hleft : (nodeAt ns c).left_predicate_id = (l : Int) := by omega
    have hright : (nodeAt ns c).right_predicate_id = (r : Int) := by omega
    rcases c5 x hx with hxl | hxr
    · by_cases hlA : l < A
      · rw [(h.atom l hlA).1, List.mem_singleton] at hxl
        subst hxl
        exact ⟨c, hcA, hcN, hk, Or.inl hleft⟩
      · have hrc := sweep_child A st ns hs c l hcN hk (Or.inl hleft) (by omega)
        have hkl : keptNode ns l = true := by
          unfold keptNode
          simp [hrc]
        exact ih l (by omega) (by omega) (by omega) hkl hxl
    · by_cases hrA : r < A
      · rw [(h.atom r hrA).1, List.mem_singleton] at hxr
        subst hxr
        exact ⟨c, hcA, hcN, hk, Or.inr hright⟩
      · have hrc := sweep_child A st ns hs c r hcN hk (Or.inr hright) (by omega)
        have hkr : keptNode ns r = true := by
          unfold keptNode
          simp [hrc]
        exact ih r (by omega) (by omega) (by omega) hkr hxr

theorem emitConjunctions_predicates (A : Nat) (st : PlanState) :
    (emitConjunctions A st).predicates = st.predicates := by
  unfold emitConjunctions
  generalize ((List.range (st.predicate_tree_nodes.length - A)).map (fun i => i + A)) = ids
  induction ids generalizing st with
  | nil => rfl
  | cons k ids ih =>
    rw [List.foldl_cons, ih]
    dsimp only
    split <;> rfl

/-- The structure of the plan returned by the plan builder: the atom nodes come first, one
for each filter predicate, a candidate attached to an atom node has the filter predicate
of that index as its only atom, each later node is a conjunction of two earlier nodes,
and every node has a candidate attached or is a child of a later conjunction. -/
theorem plan_structure (order : List Nat → List Nat) (fuel : Nat) (literals : List FoilLiteral)
    (preds : List (Nat × Int)) (plan : PredicateEvaluationPlan)
    (hg : GeneratePredicateEvaluationPlan order fuel literals =
      LoopResult.finished (preds, plan)) :
    plan.num_atom_tree_nodes = preds.length ∧
    plan.num_atom_tree_nodes ≤ plan.tree_nodes.length ∧
    (∀ i, i < plan.num_atom_tree_nodes → (treeAt plan.tree_nodes i).children = none) ∧
    (∀ i l, i < plan.num_atom_tree_nodes → (treeAt plan.tree_nodes i).literal = some l →
      ∃ L, literals[l]? = some L ∧
        candidateAtoms ((literals.head?.map FoilLiteral.join_key).getD none) L ≠ [] ∧
        ∀ a, a ∈ candidateAtoms ((literals.head?.map FoilLiteral.join_key).getD none) L →
          preds[i]? = some a) ∧
    (∀ i, plan.num_atom_tree_nodes ≤ i → i < plan.tree_nodes.length →
      ∃ l r, (treeAt plan.tree_nodes i).children = some (some l, some r) ∧ l < i ∧ r < i) ∧
    (∀ i, i < plan.tree_nodes.length →
      (treeAt plan.tree_nodes i).literal.isSome = true ∨
      ∃ k l r, i < k ∧ k < plan.tree_nodes.length ∧ plan.num_atom_tree_nodes ≤ k ∧
        (treeAt plan.tree_nodes k).children = some (some l, some r) ∧ (l = i ∨ r = i)) := by
  unfold GeneratePredicateEvaluationPlan at hg
  split at hg
  · simp at hg
  dsimp only at hg
  have hinit := planInit_planInv literals
  generalize (planInit literals).tree_nodes.length = A at hg hinit
  cases hloop : planLoop order fuel (planInit literals) with
  | out_of_fuel => rw [hloop] at hg; simp at hg
  | undefined_behaviour => rw [hloop] at hg; simp at hg
  | finished st1 =>
    rw [hloop] at hg
    simp only [LoopResult.finished.injEq, Prod.mk.injEq] at hg
    obtain ⟨h1, hrem⟩ := planLoop_inv order A fuel _ st1 hinit hloop
    obtain ⟨hft, hfp⟩ := planLoop_frame order fuel _ st1 hloop
    have hsem := planInit_sem literals
    have hs := sweepReferences_inv A st1 h1
    generalize sweepReferences A st1.predicate_tree_nodes = ns at hg hs
    have he0 : EmitInv A st1.tree_nodes ns A { st1 with predicate_tree_nodes := ns } := by
      refine ⟨rfl, h1.preds, fun j => ⟨rfl, rfl, rfl, rfl⟩, ?_, by rw [h1.trees],
        fun i _ => rfl, ?_, ?_⟩
      · intro j hj
        show (nodeAt ns j).plan_node = some j
        rw [(hs.same j).2.2.1]
        exact (h1.atom j hj).2.1
      · intro p hpA hp
        omega
      · intro j hjA hj
        change j < st1.tree_nodes.length at hj
        rw [h1.trees] at hj
        omega
    have he := emit_fold A st1 h1 ns hs st1.tree_nodes _ he0 (ns.length - A)
      (by rw [hs.len]; have := h1.len; omega)
    have hN : A + (ns.length - A) = st1.predicate_tree_nodes.length := by
      rw [hs.len]; have := h1.len; omega
    rw [hN] at he
    have hemit : emitConjunctions A { st1 with predicate_tree_nodes := ns } =
        ((List.range (ns.length - A)).map (fun i => i + A)).foldl
          (fun s node_id =>
            let n := s.predicate_tree_nodes.getD node_id default
            if n.literal.isSome || decide (n.reference_count ≠ 0) then
              { s with
                tree_nodes := s.tree_nodes ++
                  [⟨n.literal,
                    some ((s.predicate_tree_nodes.getD n.left_predicate_id.toNat default).plan_node,
                      (s.predicate_tree_nodes.getD n.right_predicate_id.toNat default).plan_node)⟩]
                predicate_tree_nodes := updateAt s.predicate_tree_nodes node_id
                  (fun m => { m with plan_node := some s.tree_nodes.length }) }
            else s) { st1 with predicate_tree_nodes := ns } := rfl
    rw [← hemit] at he
    have hep := emitConjunctions_predicates A { st1 with predicate_tree_nodes := ns }
    generalize emitConjunctions A { st1 with predicate_tree_nodes := ns } = st2 at hg he hep
    obtain ⟨hpreds, hplan⟩ := hg
    subst hplan
    subst hpreds
    dsimp only
    have hconj : ∀ j, A ≤ j → j < st2.tree_nodes.length →
        ∃ p jl jr, A ≤ p ∧ p < st1.predicate_tree_nodes.length ∧ keptNode ns p = true ∧
          (nodeAt st2.predicate_tree_nodes p).plan_node = some j ∧
          treeAt st2.tree_nodes j = ⟨(nodeAt ns p).literal, some (some jl, some jr)⟩ ∧
          jl < j ∧ jr < j := by
      intro j hjA hj
      obtain ⟨p, p1, p2, p3, p4⟩ := he.onto j hjA hj
      obtain ⟨j1, jl, jr, g1, _, _, g4, _, _, g7, g8⟩ := he.emitted p p1 p2 p3
      rw [p4] at g1
      have := Option.some.inj g1
      subst this
      exact ⟨p, jl, jr, p1, p2, p3, p4, g4, g7, g8⟩
    have hparent : ∀ (q c : Nat), A ≤ q → q < st1.predicate_tree_nodes.length →
        keptNode ns q = true →
        ((nodeAt ns q).left_predicate_id = (c : Int) ∨
         (nodeAt ns q).right_predicate_id = (c : Int)) →
        ∀ i, (nodeAt st2.predicate_tree_nodes c).plan_node = some i →
        ∃ k l r, i < k ∧ k < st2.tree_nodes.length ∧ A ≤ k ∧
          (treeAt st2.tree_nodes k).children = some (some l, some r) ∧ (l = i ∨ r = i) := by
      intro q c hqA hqN hqk hc i hi
      obtain ⟨j, jl, jr, _, g2, g3, g4, g5, g6, g7, g8⟩ := he.emitted q hqA hqN hqk
      refine ⟨j, jl, jr, ?_, g3, g2, by rw [g4], ?_⟩
      · rcases hc with hc | hc
        · rw [hc, Int.toNat_ofNat, hi] at g5
          have := Option.some.inj g5
          omega
        · rw [hc, Int.toNat_ofNat, hi] at g6
          have := Option.some.inj g6
          omega
      · rcases hc with hc | hc
        · rw [hc, Int.toNat_ofNat, hi] at g5
          exact Or.inl (Option.some.inj g5).symm
        · rw [hc, Int.toNat_ofNat, hi] at g6
          exact Or.inr (Option.some.inj g6).symm
    refine ⟨he.preds.symm, he.tree_len, ?_, ?_, ?_, ?_⟩
    · intro i hi
      rw [he.tree_atoms i hi]
      exact h1.tree i hi
    · intro i l hi hl
      rw [he.tree_atoms i hi] at hl
      rw [hep]
      dsimp only
      rw [hfp]
      exact hsem.attached i l (by rw [← hft, h1.trees]; exact hi) (by rw [← hft]; exact hl)
    · intro i hiA hi
      obtain ⟨p, jl, jr, _, _, _, _, g4, g7, g8⟩ := hconj i hiA hi
      exact ⟨jl, jr, by rw [g4], g7, g8⟩
    · intro i hi
      by_cases hiA : i < A
      · rcases h1.cover i hiA with hc | ⟨l, hl, _⟩ | ⟨c, hcA, hcN, hlit, hx⟩
        · left
          rw [he.tree_atoms i hiA]
          exact hc
        · rw [hrem] at hl
          simp at hl
        · right
          have hk : keptNode ns c = true := by
            unfold keptNode
            rw [(hs.same c).2.1, hlit]
            rfl
          obtain ⟨q, q1, q2, q3, q4⟩ := atom_parent A st1 h1 ns hs i (c + 1) c (by omega)
            hcA hcN hk hx
          exact hparent q i q1 q2 q3 q4 i (he.atom_plan i hiA)
      · obtain ⟨p, jl, jr, p1, p2, p3, p4, g4, _, _⟩ := hconj i (by omega) hi
        by_cases hlit : (nodeAt ns p).literal.isSome = true
        · left
          rw [g4]
          exact hlit
        · right
          have hrc : (nodeAt ns p).reference_count ≠ 0 := by
            unfold keptNode at p3
            simpa [hlit] using p3
          obtain ⟨q, q1, q2, _, q4, q5⟩ := sweep_parent A st1 h1 ns hs p p2 hrc
          exact hparent q p q1 q2 q4 q5 i p4
theorem clone_fold (rest : List PredicateTreeNode) :
    ∀ (done : List PredicateTreeNode),
    (∀ i node, rest[i]? = some node →
      node.children = none ∨
      ∃ l r, node.children = some (some l, some r) ∧ l < done.length + i ∧
        r < done.length + i) →
    rest.foldlM
      (fun clone node => (PredicateTreeNode.Clone clone node).map (fun n => clone ++ [n]))
      done = some (done ++ rest) := by
  induction rest with
  | nil =>
    intro done _
    simp
  | cons node rest ih =>
    intro done h
    have hnode : PredicateTreeNode.Clone done node = some node := by
      unfold PredicateTreeNode.Clone
      rcases h 0 node (by simp) with h0 | ⟨l, r, h0, hl, hr⟩
      · cases node with
        | mk lit children =>
          simp only at h0
          subst h0
          rfl
      · cases node with
        | mk lit children =>
          simp only at h0
          subst h0
          simp only
          rw [if_pos ⟨by omega, by omega⟩]
    rw [List.foldlM_cons, hnode]
    simp only [Option.map_some', Option.some_bind, Option.bind_eq_bind]
    rw [ih (done ++ [node])]
    · simp
    · intro i n hn
      have := h (i + 1) n (by simpa using hn)
      simp only [List.length_append, List.length_singleton]
      rcases this with h1 | ⟨l, r, h1, hl, hr⟩
      · exact Or.inl h1
      · exact Or.inr ⟨l, r, h1, by omega, by omega⟩

/-! ## The plan builder and the storage of `predicate_tree_nodes` -/

/-- An iteration of the loop on a vector that does not move its nodes is the iteration
`planStep`. -/
theorem fbVector_planStep (reallocates : Nat → Bool) (order : List Nat → List Nat)
    (st st1 : PlanState) (h : FbVector.planStep reallocates order st = some st1) :
    planStep order st = some st1 ∧ reallocates st.predicate_tree_nodes.length = false := by
  unfold FbVector.planStep at h
  unfold planStep
  dsimp only at h ⊢
  by_cases h0 : (findBestPair order st.predicate_tree_nodes).1 = 0
  · rw [if_pos h0] at h
    cases h
  · rw [if_neg h0] at h
    rw [if_neg h0]
    cases hr : reallocates st.predicate_tree_nodes.length with
    | true =>
      rw [hr] at h
      simp at h
    | false =>
      rw [hr] at h
      simp only [Bool.false_eq_true, if_false] at h
      exact ⟨h, rfl⟩

/-- An iteration of the loop whose `emplace_back` moves the nodes is undefined. -/
theorem fbVector_planStep_moves (reallocates : Nat → Bool) (order : List Nat → List Nat)
    (st : PlanState) (h : reallocates st.predicate_tree_nodes.length = true) :
    FbVector.planStep reallocates order st = none := by
  unfold FbVector.planStep
  dsimp only
  rw [h]
  simp

/-- A run of the loop that finishes on a vector with the moves `reallocates` is a run of
`planLoop`. -/
theorem fbVector_planLoop (reallocates : Nat → Bool) (order : List Nat → List Nat) :
    ∀ (fuel : Nat) (st st1 : PlanState),
      FbVector.planLoop reallocates order fuel st = LoopResult.finished st1 →
      planLoop order fuel st = LoopResult.finished st1 := by
  intro fuel
  induction fuel with
  | zero =>
    intro st st1 h
    unfold FbVector.planLoop at h
    unfold planLoop
    by_cases he : st.remaining_literal_ids.isEmpty = true
    · rw [if_pos he] at h
      rw [if_pos he]
      exact h
    · rw [if_neg he] at h
      cases h
  | succ n ih =>
    intro st st1 h
    unfold FbVector.planLoop at h
    unfold planLoop
    by_cases he : st.remaining_literal_ids.isEmpty = true
    · rw [if_pos he] at h
      rw [if_pos he]
      exact h
    · rw [if_neg he] at h
      rw [if_neg he]
      dsimp only at h ⊢
      cases hs : FbVector.planStep reallocates order st with
      | none =>
        rw [hs] at h
        cases h
      | some st2 =>
        rw [hs] at h
        rw [(fbVector_planStep reallocates order st st2 hs).1]
        exact ih st2 st1 h

/-- A plan returned on a vector with the moves `reallocates` is the plan that
`GeneratePredicateEvaluationPlan` returns. -/
theorem fbVector_generate (reallocates : Nat → Bool) (order : List Nat → List Nat)
    (fuel : Nat) (literals : List FoilLiteral) (preds : List (Nat × Int))
    (plan : PredicateEvaluationPlan)
    (h : FbVector.GeneratePredicateEvaluationPlan reallocates order fuel literals =
      LoopResult.finished (preds, plan)) :
    GeneratePredicateEvaluationPlan order fuel literals = LoopResult.finished (preds, plan) := by
  unfold FbVector.GeneratePredicateEvaluationPlan at h
  unfold GeneratePredicateEvaluationPlan
  by_cases he : literals.isEmpty = true
  · rw [if_pos he] at h
    cases h
  · rw [if_neg he] at h
    rw [if_neg he]
    dsimp only at h ⊢
    cases hloop : FbVector.planLoop reallocates order fuel (planInit literals) with
    | out_of_fuel => rw [hloop] at h; cases h
    | undefined_behaviour => rw [hloop] at h; cases h
    | finished st1 =>
      rw [hloop] at h
      rw [fbVector_planLoop reallocates order fuel _ st1 hloop]
      exact h

/-- On a vector that never moves its nodes the plan builder is
`GeneratePredicateEvaluationPlan`. -/
theorem fbVector_planLoop_reserved (order : List Nat → List Nat) :
    ∀ (fuel : Nat) (st : PlanState),
      FbVector.planLoop (fun _ => false) order fuel st = planLoop order fuel st := by
  intro fuel
  induction fuel with
  | zero =>
    intro st
    unfold FbVector.planLoop planLoop
    rfl
  | succ n ih =>
    intro st
    unfold FbVector.planLoop planLoop
    have hstep : FbVector.planStep (fun _ => false) order st = planStep order st := by
      unfold FbVector.planStep planStep
      simp
    rw [hstep]
    by_cases he : st.remaining_literal_ids.isEmpty = true
    · rw [if_pos he, if_pos he]
    · rw [if_neg he, if_neg he]
      dsimp only
      cases planStep order st with
      | none => rfl
      | some st1 => exact ih st1

/-- The group `planTestGroup` has four atoms: on a vector that doubles its capacity the
first `emplace_back` of the loop finds the vector full and moves the nodes, so the two
nodes are read from freed storage, whatever the iteration order of the sets. -/
theorem planTestGroup_moves (order : List Nat → List Nat) (fuel : Nat) :
    FbVector.GeneratePredicateEvaluationPlan doublingMoves order (fuel + 1) planTestGroup =
      LoopResult.undefined_behaviour := by
  have hrem : (planInit planTestGroup).remaining_literal_ids.isEmpty = false := by decide
  have hlen : doublingMoves (planInit planTestGroup).predicate_tree_nodes.length = true := by
    decide
  unfold FbVector.GeneratePredicateEvaluationPlan
  rw [if_neg (by decide)]
  dsimp only
  unfold FbVector.planLoop
  rw [hrem]
  simp only [Bool.false_eq_true, if_false]
  rw [fbVector_planStep_moves doublingMoves order _ hlen]

/-- On a vector that never moves its nodes the group `planTestGroup` gets the plan
`planTestPlan`, with four atom nodes and two conjunctions. -/
theorem planTestGroup_reserved :
    FbVector.GeneratePredicateEvaluationPlan (fun _ => false) id 10 planTestGroup =
      LoopResult.finished (planTestPredicates, planTestPlan) := by
  decide

theorem getElem?_treeAt (tree_nodes : List PredicateTreeNode) (i : Nat)
    (h : i < tree_nodes.length) : tree_nodes[i]? = some (treeAt tree_nodes i) := by
  unfold treeAt
  rw [List.getD_eq_getElem?_getD, List.getElem?_eq_getElem h]
  rfl

/-- C37: in every plan returned by `GeneratePredicateEvaluationPlan`, whatever the moves
`reallocates` of the vector `predicate_tree_nodes` (a run that reads the two nodes of a
conjunction through pointers to freed storage is undefined and returns no plan), the first
`num_atom_tree_nodes` entries of `tree_nodes` are the atom nodes, one for each filter
predicate of the group and in their order (a candidate attached to the atom node `i` has
the filter predicate `i` as its only atom), and every later entry is a conjunction node
whose two children are entries of `tree_nodes` at smaller indices: a forward pass over
`tree_nodes` meets the children of a node before the node, and so
`PredicateEvaluationPlan::Clone` finds the clones of the children of every node and
returns a plan with the same nodes in the same order. -/
theorem plan_nodes_ordered (reallocates : Nat → Bool) (order : List Nat → List Nat)
    (fuel : Nat) (literals : List FoilLiteral) (preds : List (Nat × Int))
    (plan : PredicateEvaluationPlan)
    (h : FbVector.GeneratePredicateEvaluationPlan reallocates order fuel literals =
      LoopResult.finished (preds, plan)) :
    plan.num_atom_tree_nodes = preds.length ∧
    plan.num_atom_tree_nodes ≤ plan.tree_nodes.length ∧
    (∀ i, i < plan.num_atom_tree_nodes →
      ∃ lit, plan.tree_nodes[i]? = some ⟨lit, none⟩ ∧
        ∀ l, lit = some l →
          ∃ L, literals[l]? = some L ∧
            candidateAtoms ((literals.head?.map FoilLiteral.join_key).getD none) L ≠ [] ∧
            ∀ a, a ∈ candidateAtoms ((literals.head?.map FoilLiteral.join_key).getD none) L →
              preds[i]? = some a) ∧
    (∀ i, plan.num_atom_tree_nodes ≤ i → i < plan.tree_nodes.length →
      ∃ lit l r, plan.tree_nodes[i]? = some ⟨lit, some (some l, some r)⟩ ∧ l < i ∧ r < i) ∧
    plan.Clone = some plan := by
  obtain ⟨h1, h2, h3, h4, h5, _⟩ := plan_structure order fuel literals preds plan
    (fbVector_generate reallocates order fuel literals preds plan h)
  refine ⟨h1, h2, ?_, ?_, ?_⟩
  · intro i hi
    refine ⟨(treeAt plan.tree_nodes i).literal, ?_, fun l hl => h4 i l hi hl⟩
    rw [getElem?_treeAt _ i (by omega)]
    have := h3 i hi
    cases hn : treeAt plan.tree_nodes i with
    | mk lit children =>
      rw [hn] at this
      simp only at this
      rw [this]
  · intro i hiA hi
    obtain ⟨l, r, hc, hl, hr⟩ := h5 i hiA hi
    refine ⟨(treeAt plan.tree_nodes i).literal, l, r, ?_, hl, hr⟩
    rw [getElem?_treeAt _ i hi]
    cases hn : treeAt plan.tree_nodes i with
    | mk lit children =>
      rw [hn] at hc
      simp only at hc
      rw [hc]
  · unfold PredicateEvaluationPlan.Clone
    rw [clone_fold plan.tree_nodes []]
    · simp
    · intro i node hnode
      have hi : i < plan.tree_nodes.length := (List.getElem?_eq_some_iff.mp hnode).1
      have hn : node = treeAt plan.tree_nodes i := by
        rw [getElem?_treeAt _ i hi] at hnode
        exact (Option.some.inj hnode).symm
      rw [hn]
      by_cases hiA : i < plan.num_atom_tree_nodes
      · exact Or.inl (h3 i hiA)
      · obtain ⟨l, r, hc, hl, hr⟩ := h5 i (by omega) hi
        exact Or.inr ⟨l, r, hc, by simpa using hl, by simpa using hr⟩

/-- The theorem `plan_nodes_ordered` on the group `planVectorGroup`, on a vector that
doubles its capacity and with sets iterated in insertion order: the two conjunctions are
added to the vector of five and of six nodes, whose capacity is eight. -/
theorem plan_nodes_ordered_witness :
    FbVector.GeneratePredicateEvaluationPlan doublingMoves id 10 planVectorGroup =
      LoopResult.finished (planVectorPredicates, planVectorPlan) ∧
    (planVectorPlan.num_atom_tree_nodes = planVectorPredicates.length ∧
    planVectorPlan.num_atom_tree_nodes ≤ planVectorPlan.tree_nodes.length ∧
    (∀ i, i < planVectorPlan.num_atom_tree_nodes →
      ∃ lit, planVectorPlan.tree_nodes[i]? = some ⟨lit, none⟩ ∧
        ∀ l, lit = some l →
          ∃ L, planVectorGroup[l]? = some L ∧
            candidateAtoms ((planVectorGroup.head?.map FoilLiteral.join_key).getD none) L ≠
              [] ∧
            ∀ a, a ∈ candidateAtoms
                ((planVectorGroup.head?.map FoilLiteral.join_key).getD none) L →
              planVectorPredicates[i]? = some a) ∧
    (∀ i, planVectorPlan.num_atom_tree_nodes ≤ i → i < planVectorPlan.tree_nodes.length →
      ∃ lit l r, planVectorPlan.tree_nodes[i]? = some ⟨lit, some (some l, some r)⟩ ∧
        l < i ∧ r < i) ∧
    planVectorPlan.Clone = some planVectorPlan) :=
  ⟨by decide, plan_nodes_ordered doublingMoves id 10 planVectorGroup planVectorPredicates
    planVectorPlan (by decide)⟩

/-- C33: in the plan returned by `GeneratePredicateEvaluationPlan`, whatever the moves
`reallocates` of the vector `predicate_tree_nodes` (a run that reads the two nodes of a
conjunction through pointers to freed storage is undefined and returns no plan), no node
exists without a candidate or a consumer: every entry of `tree_nodes`, atom node or
conjunction node, has a candidate literal attached or is a child of a conjunction node
that is a later entry of `tree_nodes`. -/
theorem plan_nodes_needed (reallocates : Nat → Bool) (order : List Nat → List Nat)
    (fuel : Nat) (literals : List FoilLiteral) (preds : List (Nat × Int))
    (plan : PredicateEvaluationPlan)
    (h : FbVector.GeneratePredicateEvaluationPlan reallocates order fuel literals =
      LoopResult.finished (preds, plan)) :
    ∀ i, i < plan.tree_nodes.length →
      ∃ node, plan.tree_nodes[i]? = some node ∧
        (node.literal.isSome = true ∨
         ∃ k lit l r, i < k ∧ plan.num_atom_tree_nodes ≤ k ∧
           plan.tree_nodes[k]? = some ⟨lit, some (some l, some r)⟩ ∧ (l = i ∨ r = i)) := by
  obtain ⟨_, _, _, _, _, h6⟩ := plan_structure order fuel literals preds plan
    (fbVector_generate reallocates order fuel literals preds plan h)
  intro i hi
  refine ⟨treeAt plan.tree_nodes i, getElem?_treeAt _ i hi, ?_⟩
  rcases h6 i hi with h7 | ⟨k, l, r, hk, hkN, hkA, hc, hlr⟩
  · exact Or.inl h7
  · refine Or.inr ⟨k, (treeAt plan.tree_nodes k).literal, l, r, hk, hkA, ?_, hlr⟩
    rw [getElem?_treeAt _ k hkN]
    cases hn : treeAt plan.tree_nodes k with
    | mk lit children =>
      rw [hn] at hc
      simp only at hc
      rw [hc]

/-- The theorem `plan_nodes_needed` on the group `planVectorGroup`, on a vector that
doubles its capacity and with sets iterated in the reverse of the insertion order: three
atom nodes have no candidate and are children of the two conjunctions. -/
theorem plan_nodes_needed_witness :
    FbVector.GeneratePredicateEvaluationPlan doublingMoves List.reverse 10 planVectorGroup =
      LoopResult.finished (planVectorPredicates, planVectorPlan) ∧
    (∀ i, i < planVectorPlan.tree_nodes.length →
      ∃ node, planVectorPlan.tree_nodes[i]? = some node ∧
        (node.literal.isSome = true ∨
         ∃ k lit l r, i < k ∧ planVectorPlan.num_atom_tree_nodes ≤ k ∧
           planVectorPlan.tree_nodes[k]? = some ⟨lit, some (some l, some r)⟩ ∧
           (l = i ∨ r = i))) :=
  ⟨by decide, plan_nodes_needed doublingMoves List.reverse 10 planVectorGroup
    planVectorPredicates planVectorPlan (by decide)⟩

/-! ## The aggregator on a pipeline without a joined tuple -/

theorem joinChunkOf_none (build_columns : List (List Int))
    (build_partitions : List (List PartitionTuple)) (pc : PartitionChunk)
    (h : ∀ probe, probe ∈ pc.partition →
      ∀ build, build ∈ build_partitions.getD pc.partition_id [] → build.value ≠ probe.value) :
    joinChunkOf build_columns build_partitions pc = none := by
  unfold joinChunkOf
  simp only
  rw [if_pos]
  rw [List.isEmpty_iff, List.eq_nil_iff_forall_not_mem]
  intro triple hmem
  rw [mem_joinTriples] at hmem
  obtain ⟨q, hq, position, hlt, hv, _⟩ := hmem
  exact h q hq _ (getD_mem_of_lt _ position ⟨0, 0⟩ hlt) hv

theorem run_null_chunk (hash : Int → Nat) (fuel c r : Nat)
    (step : CountAggregator → FilterChunk → Option CountAggregator)
    (aggregator : CountAggregator) (hash_join : HashJoin)
    (h : HashJoin.Next hash fuel c r fuel aggregator.hash_join = some (none, hash_join)) :
    CountAggregator.run hash fuel c r step aggregator = RunResult.null_chunk := by
  unfold CountAggregator.run CountAggregator.nextChunk
  rw [h]
  rfl
/-- C40 (the code departs from it): draining an empty pipeline is not safe.  When no probe
tuple of the fact tables has the value of a build tuple of its partition of the binding
table, the first call of `filter_->Next()` returns null (given enough fuel), and
`CountAggregator::Execute`, `ExecuteOnPositives` and `ExecuteOnNegatives` fail the `DCHECK`
on the first chunk and dereference the null chunk, whatever the plans and the counters.
So does `Evaluate` on a binding table none of whose rows joins with a fact row, and on
the split representation when only the negative rows join. -/
theorem execute_null_chunk (hash : Int → Nat) (c r : Nat) (tables : List PartitionedTable)
    (ids : List (List Nat)) (P : Nat) (build_columns : List (List Int))
    (build_partitions : List (List PartitionTuple)) (build_hash_tables : List FoilHashTable)
    (predicate_groups : List (List (List FoilFilterPredicate)))
    (score_plans : List (List PredicateEvaluationPlan)) (buffers : List (List PlanBuffers))
    (infos : List (List (List CandidateLiteralInfo)))
    (hc : 0 < c) (W : WellPartitioned tables ids P) (hlen : build_partitions.length = P)
    (hsize : ∀ p ∈ build_partitions, p.length ≤ 2 ^ 30)
    (hbuilt : BuildHashTableOnPartitions hash r build_partitions = some build_hash_tables)
    (hno : ∀ t, t < tables.length → ∀ g, g < (ids.getD t []).length → ∀ p, p < P →
      ∀ probe, probe ∈ partitionArray tables ids t g p →
      ∀ build, build ∈ build_partitions.getD p [] → build.value ≠ probe.value) :
    (∃ a0, PartitionAssigner.create tables ids = some a0 ∧
      ∃ fuel0, ∀ fuel, fuel0 ≤ fuel → ∀ num_positive,
        CountAggregator.Execute hash fuel c r num_positive
          ⟨⟨a0, build_columns, build_hash_tables, build_partitions⟩, predicate_groups,
            score_plans, buffers, infos⟩ = RunResult.null_chunk ∧
        CountAggregator.ExecuteOnPositives hash fuel c r
          ⟨⟨a0, build_columns, build_hash_tables, build_partitions⟩, predicate_groups,
            score_plans, buffers, infos⟩ = RunResult.null_chunk ∧
        CountAggregator.ExecuteOnNegatives hash fuel c r
          ⟨⟨a0, build_columns, build_hash_tables, build_partitions⟩, predicate_groups,
            score_plans, buffers, infos⟩ = RunResult.null_chunk) ∧
    Evaluate 8 (fun v => v.toNat) id 100 2 1 0 (BindingData.integral evalTestNoMatch 3)
      [evalTestGroup] = LoopResult.finished RunResult.null_chunk ∧
    Evaluate 8 (fun v => v.toNat) id 100 2 1 0
      (BindingData.split [[21, 22, 23], [7, 8, 0]] [[4, 5, 6], [10, 0, 12]])
      [evalTestGroup] = LoopResult.finished RunResult.null_chunk := by
  refine ⟨?_, by decide, by decide⟩
  have hno2 : ∀ pc, pc ∈ chunksInAssignerOrder c tables ids P →
      ∀ probe, probe ∈ pc.partition →
      ∀ build, build ∈ build_partitions.getD pc.partition_id [] →
        build.value ≠ probe.value := by
    intro pc hpc probe hprobe
    unfold chunksInAssignerOrder partitionChunks tableChunks groupChunks chunksOfPartition
      at hpc
    simp only [List.mem_flatMap, List.mem_map, List.mem_range] at hpc
    obtain ⟨p, hp, t, ht, g, hg, k, _, rfl⟩ := hpc
    exact hno t ht g hg p hp probe (List.mem_of_mem_drop (List.mem_of_mem_take hprobe))
  obtain ⟨hcreate, f, hf⟩ := assigner_drains_all c tables ids P hc W
  refine ⟨_, hcreate, f + (chunksInAssignerOrder c tables ids P).length + 1 + 2 ^ 31, ?_⟩
  intro fuel hfuel num_positive
  have hdrain := hashJoin_drain_spec hash fuel c r build_columns build_hash_tables
    build_partitions (joinChunkOf build_columns build_partitions) _ _ (le_refl _) f _ hf
    (by omega)
    (fun a1 pc hpc =>
      joinPartitionChunk_spec hash fuel r
        ⟨a1, build_columns, build_hash_tables, build_partitions⟩ pc hbuilt
        (fun p hp => ⟨lt_of_le_of_lt (hsize p hp) (by norm_num),
          by have := hsize p hp; omega⟩)
        (by
          rw [hlen]
          exact chunksInAssignerOrder_partition_id c tables ids P pc hpc))
    fuel (by omega)
  have hnil : (chunksInAssignerOrder c tables ids P).filterMap
      (joinChunkOf build_columns build_partitions) = [] := by
    rw [List.filterMap_eq_nil_iff]
    intro pc hpc
    exact joinChunkOf_none build_columns build_partitions pc (hno2 pc hpc)
  rw [hnil] at hdrain
  obtain ⟨k, rfl⟩ : ∃ k, fuel = k + 1 := ⟨fuel - 1, by omega⟩
  rw [HashJoin.drain] at hdrain
  have hnext : ∃ hash_join, HashJoin.Next hash (k + 1) c r (k + 1)
      ⟨assignerAt tables ids P 0 0 0 0, build_columns, build_hash_tables, build_partitions⟩ =
      some (none, hash_join) := by
    cases hnext : HashJoin.Next hash (k + 1) c r (k + 1)
        ⟨assignerAt tables ids P 0 0 0 0, build_columns, build_hash_tables,
          build_partitions⟩ with
    | none => rw [hnext] at hdrain; simp at hdrain
    | some res =>
      obtain ⟨chunk, hj⟩ := res
      cases chunk with
      | none => exact ⟨hj, rfl⟩
      | some ch =>
        rw [hnext] at hdrain
        simp only at hdrain
        cases hd : HashJoin.drain hash (k + 1) c r k hj with
        | none => rw [hd] at hdrain; simp at hdrain
        | some rest => rw [hd] at hdrain; simp at hdrain
  obtain ⟨hash_join, hnext⟩ := hnext
  exact ⟨run_null_chunk hash (k + 1) c r _ _ hash_join hnext,
    run_null_chunk hash (k + 1) c r _ _ hash_join hnext,
    run_null_chunk hash (k + 1) c r _ _ hash_join hnext⟩

/-- The theorem `execute_null_chunk` on the probe tables of the assigner test and a build
column none of whose values is a probe value. -/
theorem execute_null_chunk_witness :
    (0 < 2 ∧ noMatchPartitions.length = 2 ∧
     BuildHashTableOnPartitions (fun v => v.toNat) 1 noMatchPartitions =
       some [⟨6, [1, 0, 3, 0], [some 0, some 0, some 2]⟩, ⟨0, [1], [some 0]⟩]) ∧
    ((∃ a0, PartitionAssigner.create assignerTestTables [[0, 1], [0]] = some a0 ∧
      ∃ fuel0, ∀ fuel, fuel0 ≤ fuel → ∀ num_positive,
        CountAggregator.Execute (fun v => v.toNat) fuel 2 1 num_positive
          ⟨⟨a0, [[40, 60, 20, 31]],
              [⟨6, [1, 0, 3, 0], [some 0, some 0, some 2]⟩, ⟨0, [1], [some 0]⟩],
              noMatchPartitions⟩, [[[], []], [[]]], [[⟨some 0, [], 0⟩, ⟨some 0, [], 0⟩],
              [⟨some 0, [], 0⟩]], [], []⟩ = RunResult.null_chunk ∧
        CountAggregator.ExecuteOnPositives (fun v => v.toNat) fuel 2 1
          ⟨⟨a0, [[40, 60, 20, 31]],
              [⟨6, [1, 0, 3, 0], [some 0, some 0, some 2]⟩, ⟨0, [1], [some 0]⟩],
              noMatchPartitions⟩, [[[], []], [[]]], [[⟨some 0, [], 0⟩, ⟨some 0, [], 0⟩],
              [⟨some 0, [], 0⟩]], [], []⟩ = RunResult.null_chunk ∧
        CountAggregator.ExecuteOnNegatives (fun v => v.toNat) fuel 2 1
          ⟨⟨a0, [[40, 60, 20, 31]],
              [⟨6, [1, 0, 3, 0], [some 0, some 0, some 2]⟩, ⟨0, [1], [some 0]⟩],
              noMatchPartitions⟩, [[[], []], [[]]], [[⟨some 0, [], 0⟩, ⟨some 0, [], 0⟩],
              [⟨some 0, [], 0⟩]], [], []⟩ = RunResult.null_chunk) ∧
    Evaluate 8 (fun v => v.toNat) id 100 2 1 0 (BindingData.integral evalTestNoMatch 3)
      [evalTestGroup] = LoopResult.finished RunResult.null_chunk ∧
    Evaluate 8 (fun v => v.toNat) id 100 2 1 0
      (BindingData.split [[21, 22, 23], [7, 8, 0]] [[4, 5, 6], [10, 0, 12]])
      [evalTestGroup] = LoopResult.finished RunResult.null_chunk) :=
  ⟨⟨by decide, by decide, by decide⟩,
    execute_null_chunk (fun v => v.toNat) 2 1 assignerTestTables [[0, 1], [0]] 2
      [[40, 60, 20, 31]] noMatchPartitions
      [⟨6, [1, 0, 3, 0], [some 0, some 0, some 2]⟩, ⟨0, [1], [some 0]⟩]
      [[[], []], [[]]] [[⟨some 0, [], 0⟩, ⟨some 0, [], 0⟩], [⟨some 0, [], 0⟩]] [] []
      (by decide) assignerTest_wellPartitioned (by decide) (by decide) (by decide)
      (by decide)⟩
/-! ## Evaluate on the two representations of the bindings -/

/-- C39 (the code departs from it): the two binding representations do not always give the
same scores.  On bindings whose negative rows only join with fact rows, `Evaluate` on the
integral representation returns the counters of the candidates (no positive binding, three
and two negative ones), while on the split representation `ExecuteOnPositives` gets a null
first chunk, fails its `DCHECK` and dereferences the null chunk.  On the bindings
`evalTestBindings`, whose positive and negative rows both join, the two representations
return the same counters. -/
theorem evaluate_representations_differ :
    Evaluate 8 (fun v => v.toNat) id 100 2 1 0 (BindingData.integral evalTestNegativeOnly 3)
      [evalTestGroup] =
      LoopResult.finished (RunResult.returned
        [[[⟨⟨⟨1, -1, [0, 0]⟩, [⟨0, 0⟩, ⟨-1, 0⟩]⟩, 0, 3, 0, 3⟩,
           ⟨⟨⟨1, -1, [0, 0]⟩, [⟨0, 0⟩, ⟨1, 0⟩]⟩, 0, 2, 0, 2⟩]]]) ∧
    Evaluate 8 (fun v => v.toNat) id 100 2 1 0
      (BindingData.split [[21, 22, 23], [7, 8, 0]] [[4, 5, 6], [10, 0, 12]])
      [evalTestGroup] = LoopResult.finished RunResult.null_chunk ∧
    Evaluate 8 (fun v => v.toNat) id 100 2 1 0 (BindingData.integral evalTestBindings 3)
      [evalTestGroup] =
      Evaluate 8 (fun v => v.toNat) id 100 2 1 0
        (BindingData.split [[1, 2, 3], [7, 8, 0]] [[4, 5, 6], [10, 0, 12]]) [evalTestGroup] := by
  refine ⟨by decide, by decide, by decide⟩

/-! ## Evaluate on a candidate with three atoms -/

/-- C3 (the code departs from it): `Evaluate` does not return for every candidate group.
On the group of the single candidate `p_7(0, 1, 2, 3)`, whose join key is the join key 0
of the clause and which joins with the binding rows, the plan builder never ends, whatever
the iteration order of the sets, the chunk size and the bound on the iterations, so no
counter is ever computed.  On the bindings `evalTestBindings` (three positive and three
negative rows, each joining with one fact row) the four counters of the candidate
`p_1(0, -1)` are 3, and those of `p_1(0, 1)` count the two positive and two negative
rows whose variable 1 has the value of the second argument of the fact. -/
theorem evaluate_never_returns :
    (∀ (order : List Nat → List Nat), (∀ l, (order l).Perm l) →
      ∀ (fuel partition_chunck_size : Nat),
      Evaluate 8 (fun v => v.toNat) order fuel partition_chunck_size 1 0
        (BindingData.integral threeAtomTable 1) [⟨threeAtomTable, [threeAtomLiteral]⟩] =
        LoopResult.out_of_fuel) ∧
    Evaluate 8 (fun v => v.toNat) id 100 2 1 0 (BindingData.integral evalTestBindings 3)
      [evalTestGroup] =
      LoopResult.finished (RunResult.returned
        [[[⟨⟨⟨1, -1, [0, 0]⟩, [⟨0, 0⟩, ⟨-1, 0⟩]⟩, 3, 3, 3, 3⟩,
           ⟨⟨⟨1, -1, [0, 0]⟩, [⟨0, 0⟩, ⟨1, 0⟩]⟩, 2, 2, 2, 2⟩]]]) := by
  refine ⟨?_, by decide⟩
  intro order ho fuel c
  have hplan : GeneratePredicateEvaluationPlan order fuel [threeAtomLiteral] =
      LoopResult.out_of_fuel := by
    unfold GeneratePredicateEvaluationPlan
    simp only [List.isEmpty_cons, Bool.false_eq_true, if_false]
    rw [planLoop_stuck order ho fuel _ planInit_stuck]
  have hgroups : joinKeyGroups [threeAtomLiteral] = [(some 0, [threeAtomLiteral])] := by
    decide
  have hsome : (RadixPartition 8 (fun v => v.toNat) 1 0 threeAtomTable).isSome = true := by
    decide
  obtain ⟨partitions, hpart⟩ := Option.isSome_iff_exists.mp hsome
  have hgroup : planLiteralGroup 8 (fun v => v.toNat) 1 order fuel
      ⟨threeAtomTable, [threeAtomLiteral]⟩ = LoopResult.out_of_fuel := by
    unfold planLiteralGroup
    simp only [hgroups, List.foldl_cons, List.foldl_nil]
    unfold addJoinGroup
    have hget : (List.replicate threeAtomTable.length
        ([] : List (List PartitionTuple))).get? 0 = some [] := by decide
    simp only [hget, hpart, hplan]
  unfold Evaluate planLiteralGroups
  simp only [List.foldl_cons, List.foldl_nil, hgroup]

/-! ## The counters of the aggregator are bounded by the rows of the binding table -/

theorem countBits_set_true : ∀ (bits : BitVector) (pos : Nat) (old : Bool),
    bits.get? pos = some old →
    countBits (bits.set pos true) = countBits bits + (if old then 0 else 1) := by
  intro bits
  induction bits with
  | nil => intro pos old h; simp at h
  | cons b bits ih =>
    intro pos old h
    cases pos with
    | zero =>
      simp only [List.get?_cons_zero, Option.some.injEq] at h
      subst h
      unfold countBits
      cases b <;> simp
    | succ pos =>
      simp only [List.get?_cons_succ] at h
      have := ih pos old h
      unfold countBits at this ⊢
      simp only [List.set_cons_succ, List.count_cons, this]
      omega

theorem getD_set_true (bits : BitVector) (pos r : Nat)
    (h : (bits.set pos true).getD r false = true) : bits.getD r false = true ∨ r = pos := by
  by_cases hr : r = pos
  · exact Or.inr hr
  · left
    rw [List.getD_eq_getElem?_getD, List.getElem?_set_ne (Ne.symm hr)] at h
    rw [List.getD_eq_getElem?_getD]
    exact h

theorem testSetCount_spec (c : Int) (s : BitVector) (tid : Nat) (c1 : Int) (s1 : BitVector)
    (h : testSetCount (c, s) tid = some (c1, s1)) :
    s1.length = s.length ∧ c ≤ c1 ∧ c1 ≤ c + 1 ∧
    c1 + (countBits s : Int) = c + (countBits s1 : Int) ∧
    ∀ r, s1.getD r false = true → s.getD r false = true ∨ r = tid := by
  unfold testSetCount testSet at h
  simp only at h
  cases hg : s.get? tid with
  | none => rw [hg] at h; simp at h
  | some old =>
    rw [hg] at h
    simp only [Option.some.injEq, Prod.mk.injEq] at h
    obtain ⟨h1, h2⟩ := h
    subst h2
    have hcount := countBits_set_true s tid old hg
    refine ⟨by simp, ?_, ?_, ?_, fun r hr => getD_set_true s tid r hr⟩
    · cases old <;> simp at h1 <;> omega
    · cases old <;> simp at h1 <;> omega
    · rw [hcount]
      cases old <;> simp at h1 ⊢ <;> omega

theorem updateSemi_fold (rel : List Nat) (positions : List Nat) :
    ∀ (c : Int) (s : BitVector) (c1 : Int) (s1 : BitVector),
    positions.foldlM (fun (acc : Int × BitVector) (position : Nat) =>
      match rel.get? position with
      | none => none
      | some tid => testSetCount acc tid) (c, s) = some (c1, s1) →
    s1.length = s.length ∧ c ≤ c1 ∧ c1 - c ≤ (positions.length : Int) ∧
    c1 + (countBits s : Int) = c + (countBits s1 : Int) ∧
    ∀ r, s1.getD r false = true →
      s.getD r false = true ∨ ∃ t, t ∈ positions ∧ rel.getD t 0 = r := by
  induction positions with
  | nil =>
    intro c s c1 s1 h
    simp only [List.foldlM_nil, Option.pure_def, Option.some.injEq, Prod.mk.injEq] at h
    obtain ⟨rfl, rfl⟩ := h
    exact ⟨rfl, le_refl _, by simp, rfl, fun r hr => Or.inl hr⟩
  | cons p positions ih =>
    intro c s c1 s1 h
    rw [List.foldlM_cons] at h
    obtain ⟨mid, hmid, hrest⟩ := Option.bind_eq_some.mp h
    obtain ⟨c2, s2⟩ := mid
    cases hg : rel.get? p with
    | none => rw [hg] at hmid; cases hmid
    | some tid =>
      rw [hg] at hmid
      obtain ⟨a1, a2, a3, a4, a5⟩ := testSetCount_spec c s tid c2 s2 hmid
      obtain ⟨b1, b2, b3, b4, b5⟩ := ih c2 s2 c1 s1 hrest
      refine ⟨by rw [b1, a1], by omega, ?_, by omega, ?_⟩
      · simp only [List.length_cons, Nat.cast_add, Nat.cast_one]
        omega
      · intro r hr
        rcases b5 r hr with h1 | ⟨t, ht1, ht2⟩
        · rcases a5 r h1 with h2 | h2
          · exact Or.inl h2
          · right
            refine ⟨p, List.mem_cons_self _ _, ?_⟩
            rw [List.getD_eq_getElem?_getD, ← List.get?_eq_getElem?, hg]
            exact h2.symm
        · exact Or.inr ⟨t, List.mem_cons_of_mem _ ht1, ht2⟩

theorem updateSemiBitVector_spec (rel : List Nat) (join_bitvector : BitVector) (n : Nat)
    (c : Int) (s : BitVector) (c1 : Int) (s1 : BitVector)
    (h : UpdateSemiBitVector rel join_bitvector n c s = some (c1, s1)) :
    s1.length = s.length ∧ c ≤ c1 ∧ c1 - c ≤ (n : Int) ∧
    c1 + (countBits s : Int) = c + (countBits s1 : Int) ∧
    ∀ r, s1.getD r false = true →
      s.getD r false = true ∨
      ∃ t, t < join_bitvector.length ∧ join_bitvector.getD t false = true ∧
        rel.getD t 0 = r := by
  unfold UpdateSemiBitVector at h
  split at h
  · simp only [Option.some.injEq, Prod.mk.injEq] at h
    obtain ⟨rfl, rfl⟩ := h
    exact ⟨rfl, le_refl _, by omega, rfl, fun r hr => Or.inl hr⟩
  · split at h
    · simp at h
    · dsimp only at h
      split at h
      · simp at h
      · rename_i hlen
        obtain ⟨a1, a2, a3, a4, a5⟩ := updateSemi_fold rel _ c s c1 s1 h
        refine ⟨a1, a2, ?_, a4, ?_⟩
        · have : ((List.take n ((List.range join_bitvector.length).filter
              (fun i => join_bitvector.getD i false))).length : Int) ≤ n := by
            rw [List.length_take]
            omega
          omega
        · intro r hr
          rcases a5 r hr with h1 | ⟨t, ht1, ht2⟩
          · exact Or.inl h1
          · right
            have hmem := List.mem_of_mem_take ht1
            rw [List.mem_filter, List.mem_range] at hmem
            exact ⟨t, hmem.1, hmem.2, ht2⟩

theorem bitAnd_spec (a b c : BitVector) (h : bitAnd a b = some c) :
    c.length = a.length ∧ c.length = b.length ∧
    ∀ t, c.getD t false = true → a.getD t false = true ∧ b.getD t false = true := by
  unfold bitAnd at h
  split at h
  · rename_i hlen
    simp only [Option.some.injEq] at h
    subst h
    refine ⟨by simp [hlen], by simp [hlen], ?_⟩
    intro t ht
    rw [List.getD_eq_getElem?_getD, List.getElem?_zipWith] at ht
    cases ha : a[t]? with
    | none => simp [ha] at ht
    | some x =>
      cases hb : b[t]? with
      | none => simp [ha, hb] at ht
      | some y =>
        simp only [ha, hb, Option.getD_some, Bool.and_eq_true] at ht
        simp only [List.getD_eq_getElem?_getD, ha, hb, Option.getD_some]
        exact ht
  · simp at h

theorem labelBitVector_getD (num_positive : Nat) (build_tids : List Nat) (t : Nat)
    (h : (LabelBitVector num_positive build_tids).getD t false = true) :
    t < build_tids.length ∧ build_tids.getD t 0 < num_positive := by
  unfold LabelBitVector at h
  rw [List.getD_eq_getElem?_getD, List.getElem?_map] at h
  cases hg : build_tids[t]? with
  | none => simp [hg] at h
  | some tid =>
    simp only [hg, Option.map_some', Option.getD_some, decide_eq_true_eq] at h
    have ht : t < build_tids.length := (List.getElem?_eq_some_iff.mp hg).1
    refine ⟨ht, ?_⟩
    rw [List.getD_eq_getElem?_getD, hg]
    exact h

theorem labelBitVector_not_getD (num_positive : Nat) (build_tids : List Nat) (t : Nat)
    (h : ((LabelBitVector num_positive build_tids).map (fun b => !b)).getD t false = true) :
    t < build_tids.length ∧ ¬ build_tids.getD t 0 < num_positive := by
  unfold LabelBitVector at h
  rw [List.getD_eq_getElem?_getD, List.getElem?_map, List.getElem?_map] at h
  cases hg : build_tids[t]? with
  | none => simp [hg] at h
  | some tid =>
    simp only [hg, Option.map_some', Option.getD_some, Bool.not_eq_true',
      decide_eq_false_iff_not] at h
    have ht : t < build_tids.length := (List.getElem?_eq_some_iff.mp hg).1
    refine ⟨ht, ?_⟩
    rw [List.getD_eq_getElem?_getD, hg]
    exact h

theorem countLabelled_side (positive : Bool) (num_positive : Nat) (chunk : HashJoinChunk)
    (bits : BitVector) (info : CandidateLiteralInfo) (ps ns : BitVector)
    (r : CandidateLiteralInfo × BitVector × BitVector)
    (h : countLabelled chunk.build_relative_tids
      (LabelBitVector num_positive chunk.build_tids)
      ((LabelBitVector num_positive chunk.build_tids).map (fun b => !b))
      bits info ps ns = some r) :
    SideStep (sideLabel positive num_positive) chunk
      (sideCovered positive info, sideBinding positive info, sideSemi positive ps ns)
      (sideCovered positive r.1, sideBinding positive r.1, sideSemi positive r.2.1 r.2.2) := by
  unfold countLabelled at h
  cases hp : bitAnd bits (LabelBitVector num_positive chunk.build_tids) with
  | none => simp [hp] at h
  | some pbv =>
    cases hn : bitAnd bits ((LabelBitVector num_positive chunk.build_tids).map
        (fun b => !b)) with
    | none => simp [hp, hn] at h
    | some nbv =>
      simp only [hp, hn] at h
      cases hu1 : UpdateSemiBitVector chunk.build_relative_tids pbv (countBits pbv)
          info.num_covered_positive ps with
      | none => simp [hu1] at h
      | some r1 =>
        obtain ⟨c1, s1⟩ := r1
        simp only [hu1] at h
        cases hu2 : UpdateSemiBitVector chunk.build_relative_tids nbv (countBits nbv)
            info.num_covered_negative ns with
        | none => simp [hu2] at h
        | some r2 =>
          obtain ⟨c2, s2⟩ := r2
          simp only [hu2, Option.some.injEq] at h
          subst h
          obtain ⟨a1, a2, a3, a4, a5⟩ := updateSemiBitVector_spec _ _ _ _ _ _ _ hu1
          obtain ⟨b1, b2, b3, b4, b5⟩ := updateSemiBitVector_spec _ _ _ _ _ _ _ hu2
          obtain ⟨p1, p2, p3⟩ := bitAnd_spec _ _ _ hp
          obtain ⟨n1, n2, n3⟩ := bitAnd_spec _ _ _ hn
          cases positive with
          | true =>
            refine ⟨a1, a2, ?_, a4, ?_⟩
            · simp only [sideCovered, sideBinding, if_true]
              omega
            · intro r hr
              rcases a5 r hr with h1 | ⟨t, _, ht2, ht3⟩
              · exact Or.inl h1
              · right
                obtain ⟨ht4, ht5⟩ := labelBitVector_getD _ _ t (p3 t ht2).2
                refine ⟨t, ht4, ?_, ht3⟩
                unfold sideLabel
                simp only [if_true]
                exact decide_eq_true ht5
          | false =>
            refine ⟨b1, b2, ?_, b4, ?_⟩
            · simp only [sideCovered, sideBinding, Bool.false_eq_true, if_false]
              omega
            · intro r hr
              rcases b5 r hr with h1 | ⟨t, _, ht2, ht3⟩
              · exact Or.inl h1
              · right
                obtain ⟨ht4, ht5⟩ := labelBitVector_not_getD _ _ t (n3 t ht2).2
                refine ⟨t, ht4, ?_, ht3⟩
                unfold sideLabel
                simp only [Bool.false_eq_true, if_false]
                rw [decide_eq_false ht5]
                rfl

theorem countRootTuple_side (positive : Bool) (num_positive : Nat)
    (acc : CandidateLiteralInfo × BitVector × BitVector) (e : Nat × Nat)
    (r : CandidateLiteralInfo × BitVector × BitVector)
    (h : countRootTuple num_positive acc e = some r) :
    (sideSemi positive r.2.1 r.2.2).length = (sideSemi positive acc.2.1 acc.2.2).length ∧
    sideCovered positive acc.1 ≤ sideCovered positive r.1 ∧
    sideCovered positive r.1 - sideCovered positive acc.1 ≤
      sideBinding positive r.1 - sideBinding positive acc.1 ∧
    sideCovered positive r.1 + (countBits (sideSemi positive acc.2.1 acc.2.2) : Int) =
      sideCovered positive acc.1 + (countBits (sideSemi positive r.2.1 r.2.2) : Int) ∧
    ∀ p, (sideSemi positive r.2.1 r.2.2).getD p false = true →
      (sideSemi positive acc.2.1 acc.2.2).getD p false = true ∨
      (sideLabel positive num_positive e.1 = true ∧ e.2 = p) := by
  unfold countRootTuple at h
  split at h
  · rename_i hlt
    cases ht : testSet acc.2.1 e.2 with
    | none => simp [ht] at h
    | some res =>
      obtain ⟨old, semi⟩ := res
      simp only [ht, Option.some.injEq] at h
      subst h
      have hts : testSetCount (acc.1.num_covered_positive, acc.2.1) e.2 =
          some (if old then acc.1.num_covered_positive else acc.1.num_covered_positive + 1,
            semi) := by
        unfold testSetCount
        simp only [ht]
      obtain ⟨a1, a2, a3, a4, a5⟩ := testSetCount_spec _ _ _ _ _ hts
      cases positive with
      | true =>
        refine ⟨a1, a2, ?_, a4, ?_⟩
        · simp only [sideCovered, sideBinding, if_true]
          omega
        · intro p hp
          rcases a5 p hp with h1 | h1
          · exact Or.inl h1
          · exact Or.inr ⟨by simp [sideLabel, hlt], h1.symm⟩
      | false =>
        refine ⟨rfl, le_refl _, ?_, rfl, fun p hp => Or.inl hp⟩
        simp [sideCovered, sideBinding]
  · rename_i hlt
    cases ht : testSet acc.2.2 e.2 with
    | none => simp [ht] at h
    | some res =>
      obtain ⟨old, semi⟩ := res
      simp only [ht, Option.some.injEq] at h
      subst h
      have hts : testSetCount (acc.1.num_covered_negative, acc.2.2) e.2 =
          some (if old then acc.1.num_covered_negative else acc.1.num_covered_negative + 1,
            semi) := by
        unfold testSetCount
        simp only [ht]
      obtain ⟨a1, a2, a3, a4, a5⟩ := testSetCount_spec _ _ _ _ _ hts
      cases positive with
      | false =>
        refine ⟨a1, a2, ?_, a4, ?_⟩
        · simp only [sideCovered, sideBinding, Bool.false_eq_true, if_false]
          omega
        · intro p hp
          rcases a5 p hp with h1 | h1
          · exact Or.inl h1
          · exact Or.inr ⟨by simp [sideLabel, hlt], h1.symm⟩
      | true =>
        refine ⟨rfl, le_refl _, ?_, rfl, fun p hp => Or.inl hp⟩
        simp [sideCovered, sideBinding]

theorem countRootTuple_fold (positive : Bool) (num_positive : Nat) (es : List (Nat × Nat)) :
    ∀ (acc r : CandidateLiteralInfo × BitVector × BitVector),
    es.foldlM (countRootTuple num_positive) acc = some r →
    (sideSemi positive r.2.1 r.2.2).length = (sideSemi positive acc.2.1 acc.2.2).length ∧
    sideCovered positive acc.1 ≤ sideCovered positive r.1 ∧
    sideCovered positive r.1 - sideCovered positive acc.1 ≤
      sideBinding positive r.1 - sideBinding positive acc.1 ∧
    sideCovered positive r.1 + (countBits (sideSemi positive acc.2.1 acc.2.2) : Int) =
      sideCovered positive acc.1 + (countBits (sideSemi positive r.2.1 r.2.2) : Int) ∧
    ∀ p, (sideSemi positive r.2.1 r.2.2).getD p false = true →
      (sideSemi positive acc.2.1 acc.2.2).getD p false = true ∨
      ∃ e, e ∈ es ∧ sideLabel positive num_positive e.1 = true ∧ e.2 = p := by
  induction es with
  | nil =>
    intro acc r h
    simp only [List.foldlM_nil, Option.pure_def, Option.some.injEq] at h
    subst h
    exact ⟨rfl, le_refl _, by omega, rfl, fun p hp => Or.inl hp⟩
  | cons e es ih =>
    intro acc r h
    rw [List.foldlM_cons] at h
    obtain ⟨mid, hmid, hrest⟩ := Option.bind_eq_some.mp h
    obtain ⟨a1, a2, a3, a4, a5⟩ := countRootTuple_side positive num_positive acc e mid hmid
    obtain ⟨b1, b2, b3, b4, b5⟩ := ih mid r hrest
    refine ⟨by rw [b1, a1], by omega, by omega, by omega, ?_⟩
    intro p hp
    rcases b5 p hp with h1 | ⟨e1, he1, he2⟩
    · rcases a5 p h1 with h2 | h2
      · exact Or.inl h2
      · exact Or.inr ⟨e, List.mem_cons_self _ _, h2⟩
    · exact Or.inr ⟨e1, List.mem_cons_of_mem _ he1, he2⟩

theorem mem_zip_index (as bs : List Nat) (e : Nat × Nat) (h : e ∈ as.zip bs) :
    ∃ t, t < as.length ∧ as.getD t 0 = e.1 ∧ bs.getD t 0 = e.2 := by
  obtain ⟨t, ht, hget⟩ := List.mem_iff_getElem.mp h
  have ht2 : t < as.length ∧ t < bs.length := by
    rw [List.length_zip] at ht
    omega
  refine ⟨t, ht2.1, ?_, ?_⟩
  · rw [List.getD_eq_getElem _ _ ht2.1]
    rw [List.getElem_zip] at hget
    rw [← hget]
  · rw [List.getD_eq_getElem _ _ ht2.2]
    rw [List.getElem_zip] at hget
    rw [← hget]

theorem countRoot_side (positive : Bool) (num_positive : Nat) (plan : PredicateEvaluationPlan)
    (chunk : HashJoinChunk) (info : CandidateLiteralInfo) (ps ns : BitVector)
    (r : CandidateLiteralInfo × BitVector × BitVector)
    (h : countRoot num_positive plan chunk info ps ns = some r) :
    SideStep (sideLabel positive num_positive) chunk
      (sideCovered positive info, sideBinding positive info, sideSemi positive ps ns)
      (sideCovered positive r.1, sideBinding positive r.1, sideSemi positive r.2.1 r.2.2) := by
  unfold countRoot at h
  split at h
  · split at h
    · simp at h
    · obtain ⟨a1, a2, a3, a4, a5⟩ := countRootTuple_fold positive num_positive _ _ _ h
      refine ⟨a1, a2, a3, a4, ?_⟩
      intro p hp
      rcases a5 p hp with h1 | ⟨e, he, hl, he2⟩
      · exact Or.inl h1
      · obtain ⟨t, ht, ht1, ht2⟩ := mem_zip_index _ _ e he
        exact Or.inr ⟨t, ht, by rw [ht1]; exact hl, by rw [ht2]; exact he2⟩
  · dsimp only at h
    cases hu1 : UpdateSemiBitVector chunk.build_relative_tids
        (LabelBitVector num_positive chunk.build_tids)
        (countBits (LabelBitVector num_positive chunk.build_tids))
        info.num_covered_positive ps with
    | none => simp [hu1] at h
    | some r1 =>
      obtain ⟨c1, s1⟩ := r1
      simp only [hu1] at h
      cases hu2 : UpdateSemiBitVector chunk.build_relative_tids
          ((LabelBitVector num_positive chunk.build_tids).map (fun b => !b))
          (chunk.build_tids.length - countBits (LabelBitVector num_positive chunk.build_tids))
          info.num_covered_negative ns with
      | none => simp [hu2] at h
      | some r2 =>
        obtain ⟨c2, s2⟩ := r2
        simp only [hu2, Option.some.injEq] at h
        subst h
        obtain ⟨a1, a2, a3, a4, a5⟩ := updateSemiBitVector_spec _ _ _ _ _ _ _ hu1
        obtain ⟨b1, b2, b3, b4, b5⟩ := updateSemiBitVector_spec _ _ _ _ _ _ _ hu2
        cases positive with
        | true =>
          refine ⟨a1, a2, ?_, a4, ?_⟩
          · simp only [sideCovered, sideBinding, if_true]
            omega
          · intro r hr
            rcases a5 r hr with h1 | ⟨t, _, ht2, ht3⟩
            · exact Or.inl h1
            · right
              obtain ⟨ht4, ht5⟩ := labelBitVector_getD _ _ t ht2
              refine ⟨t, ht4, ?_, ht3⟩
              unfold sideLabel
              simp only [if_true]
              exact decide_eq_true ht5
        | false =>
          refine ⟨b1, b2, ?_, b4, ?_⟩
          · simp only [sideCovered, sideBinding, Bool.false_eq_true, if_false]
            omega
          · intro r hr
            rcases b5 r hr with h1 | ⟨t, _, ht2, ht3⟩
            · exact Or.inl h1
            · right
              obtain ⟨ht4, ht5⟩ := labelBitVector_not_getD _ _ t ht2
              refine ⟨t, ht4, ?_, ht3⟩
              unfold sideLabel
              simp only [Bool.false_eq_true, if_false]
              rw [decide_eq_false ht5]
              rfl

theorem countBits_le_filter (label : PartitionTuple → Bool) :
    ∀ (tuples : List PartitionTuple) (semi : BitVector), semi.length = tuples.length →
    (∀ r, semi.getD r false = true → label (tuples.getD r ⟨0, 0⟩) = true) →
    countBits semi ≤ (tuples.filter label).length := by
  intro tuples
  induction tuples with
  | nil =>
    intro semi hlen _
    have : semi = [] := List.length_eq_zero.mp hlen
    subst this
    simp [countBits]
  | cons x tuples ih =>
    intro semi hlen hbits
    cases semi with
    | nil => simp at hlen
    | cons b semi =>
      simp only [List.length_cons, Nat.add_right_cancel_iff] at hlen
      have hrest := ih semi hlen (fun r hr => hbits (r + 1) (by simpa using hr))
      unfold countBits at hrest ⊢
      cases b with
      | false =>
        simp only [List.count_cons, Bool.false_eq_true, beq_iff_eq, if_false, Nat.add_zero]
        rw [List.filter_cons]
        split
        · simp only [List.length_cons]
          omega
        · exact hrest
      | true =>
        have hx : label x = true := hbits 0 (by simp)
        simp only [List.count_cons, beq_self_eq_true, if_true]
        rw [List.filter_cons, if_pos hx]
        simp only [List.length_cons]
        omega

theorem labelledBefore_succ (label : Nat → Bool) (build_partitions : List (List PartitionTuple))
    (q : Nat) :
    labelledBefore label build_partitions (q + 1) =
      labelledBefore label build_partitions q +
        ((build_partitions.getD q []).filter (fun tuple => label tuple.tuple_id)).length := by
  unfold labelledBefore
  by_cases hq : q < build_partitions.length
  · rw [List.take_succ, List.getD_eq_getElem?_getD]
    cases hg : build_partitions[q]? with
    | none =>
      rw [List.getElem?_eq_none_iff] at hg
      omega
    | some part =>
      simp only [Option.toList_some, List.flatten_append, List.flatten_cons, List.flatten_nil,
        List.append_nil, List.filter_append, List.length_append, Option.getD_some]
  · rw [List.take_of_length_le (by omega), List.take_of_length_le (by omega),
      List.getD_eq_default _ _ (by omega)]
    simp

theorem labelledBefore_mono (label : Nat → Bool) (build_partitions : List (List PartitionTuple))
    (q q1 : Nat) (h : q ≤ q1) :
    labelledBefore label build_partitions q ≤ labelledBefore label build_partitions q1 := by
  induction q1 with
  | zero =>
    have : q = 0 := by omega
    subst this
    exact le_refl _
  | succ n ih =>
    by_cases hq : q = n + 1
    · subst hq
      exact le_refl _
    · have := ih (by omega)
      rw [labelledBefore_succ]
      omega

theorem labelledBefore_le_total (label : Nat → Bool)
    (build_partitions : List (List PartitionTuple)) (q : Nat) :
    labelledBefore label build_partitions q ≤
      ((build_partitions.flatten).filter (fun tuple => label tuple.tuple_id)).length := by
  have h1 := labelledBefore_mono label build_partitions q (max q build_partitions.length)
    (le_max_left _ _)
  have h2 : labelledBefore label build_partitions (max q build_partitions.length) =
      ((build_partitions.flatten).filter (fun tuple => label tuple.tuple_id)).length := by
    unfold labelledBefore
    rw [List.take_of_length_le (le_max_right _ _)]
  omega

/-- A covered counter bounded through a semi bit vector is at most the number of the
tuples with the label in the partitions up to the saved one. -/
theorem slotBound_le (label : Nat → Bool) (build_partitions : List (List PartitionTuple))
    (q : Nat) (semi : BitVector) (covered : Int)
    (h : SlotBound label build_partitions (some q) semi covered) :
    covered ≤ (labelledBefore label build_partitions (q + 1) : Int) := by
  obtain ⟨h1, h2, h3⟩ := h
  have := countBits_le_filter (fun tuple => label tuple.tuple_id)
    (build_partitions.getD q []) semi h1 h2
  rw [labelledBefore_succ]
  push_cast
  omega

theorem slotBound_reset (label : Nat → Bool) (build_partitions : List (List PartitionTuple))
    (saved : Option Nat) (q : Nat) (semi : BitVector) (covered : Int)
    (h : SlotBound label build_partitions saved semi covered)
    (hq : ∀ q0, saved = some q0 → q0 < q) :
    SlotBound label build_partitions (some q)
      (List.replicate (build_partitions.getD q []).length false) covered := by
  refine ⟨by simp, ?_, ?_⟩
  · intro r hr
    rw [List.getD_eq_getElem?_getD, List.getElem?_replicate] at hr
    split at hr <;> simp at hr
  · cases saved with
    | none =>
      have h0 : covered = 0 := h
      rw [h0]
      have : (0 : Int) ≤ (countBits (List.replicate (build_partitions.getD q []).length false) : Int) :=
        Int.natCast_nonneg _
      have : (0 : Int) ≤ (labelledBefore label build_partitions q : Int) := Int.natCast_nonneg _
      omega
    | some q0 =>
      have h1 := slotBound_le label build_partitions q0 semi covered h
      have h2 := labelledBefore_mono label build_partitions (q0 + 1) q (hq q0 rfl)
      have : (0 : Int) ≤ (countBits (List.replicate (build_partitions.getD q []).length false) : Int) :=
        Int.natCast_nonneg _
      omega

theorem slotBound_step (label : Nat → Bool) (build_partitions : List (List PartitionTuple))
    (chunk : HashJoinChunk) (hc : ChunkOfPartitions build_partitions chunk)
    (before after : Int × Int × BitVector) (hs : SideStep label chunk before after)
    (h : SlotBound label build_partitions (some chunk.partition_id) before.2.2 before.1) :
    SlotBound label build_partitions (some chunk.partition_id) after.2.2 after.1 := by
  obtain ⟨h1, h2, h3⟩ := h
  refine ⟨by rw [hs.length_eq, h1], ?_, ?_⟩
  · intro r hr
    rcases hs.bits r hr with h4 | ⟨t, ht, hl, hrel⟩
    · exact h2 r h4
    · obtain ⟨_, hp2⟩ := hc.position t ht
      rw [← hrel, hp2]
      exact hl
  · have := hs.covered_eq
    omega

theorem getElem?_set_cases {α : Type} (xs : List α) (i j : Nat) (a b : α)
    (h : (xs.set i a)[j]? = some b) :
    (j = i ∧ b = a ∧ i < xs.length) ∨ (j ≠ i ∧ xs[j]? = some b) := by
  by_cases hji : j = i
  · subst hji
    left
    have hlt : j < (xs.set j a).length := by
      by_contra hn
      rw [List.getElem?_eq_none_iff.mpr (by omega)] at h
      cases h
    rw [List.getElem?_eq_getElem hlt, List.getElem_set_self] at h
    rw [List.length_set] at hlt
    exact ⟨rfl, (Option.some.inj h).symm, hlt⟩
  · right
    refine ⟨hji, ?_⟩
    rw [List.getElem?_set_ne (fun hh => hji hh.symm)] at h
    exact h

theorem filterMap_nodup_index {α β : Type} (f : α → Option β) :
    ∀ (xs : List α), (xs.filterMap f).Nodup → ∀ (i j : Nat) (a b : α) (y : β),
      xs[i]? = some a → xs[j]? = some b → f a = some y → f b = some y → i = j := by
  intro xs
  induction xs with
  | nil =>
    intro _ i j a b y hi
    simp at hi
  | cons x xs ih =>
    intro hnd i j a b y hi hj hfa hfb
    have hmem : ∀ (k : Nat) (c : α), xs[k]? = some c → f c = some y → y ∈ xs.filterMap f := by
      intro k c hk hfc
      exact List.mem_filterMap.mpr ⟨c, List.getElem?_mem hk, hfc⟩
    cases hfx : f x with
    | none =>
      rw [List.filterMap_cons, hfx] at hnd
      cases i with
      | zero =>
        simp only [List.getElem?_cons_zero, Option.some.injEq] at hi
        rw [hi, hfa] at hfx
        cases hfx
      | succ i =>
        cases j with
        | zero =>
          simp only [List.getElem?_cons_zero, Option.some.injEq] at hj
          rw [hj, hfb] at hfx
          cases hfx
        | succ j =>
          simp only [List.getElem?_cons_succ] at hi hj
          rw [ih hnd i j a b y hi hj hfa hfb]
    | some z =>
      rw [List.filterMap_cons, hfx] at hnd
      obtain ⟨hz, hnd1⟩ := List.nodup_cons.mp hnd
      cases i with
      | zero =>
        cases j with
        | zero => rfl
        | succ j =>
          simp only [List.getElem?_cons_zero, Option.some.injEq] at hi
          simp only [List.getElem?_cons_succ] at hj
          rw [hi, hfa] at hfx
          cases hfx
          exact absurd (hmem j b hj hfb) hz
      | succ i =>
        cases j with
        | zero =>
          simp only [List.getElem?_cons_zero, Option.some.injEq] at hj
          simp only [List.getElem?_cons_succ] at hi
          rw [hj, hfb] at hfx
          cases hfx
          exact absurd (hmem i a hi hfa) hz
        | succ j =>
          simp only [List.getElem?_cons_succ] at hi hj
          rw [ih hnd1 i j a b y hi hj hfa hfb]

theorem attached_node_index (plan : PredicateEvaluationPlan)
    (hnd : (attachedLiterals plan).Nodup) (i j : Nat) (a b : PredicateTreeNode) (l : Nat)
    (hi : plan.tree_nodes[i]? = some a) (hj : plan.tree_nodes[j]? = some b)
    (ha : a.literal = some l) (hb : b.literal = some l) : i = j := by
  unfold attachedLiterals at hnd
  exact filterMap_nodup_index (fun node => node.literal) plan.tree_nodes
    (List.Nodup.of_append_right hnd) i j a b l hi hj ha hb

theorem attached_root_node (plan : PredicateEvaluationPlan)
    (hnd : (attachedLiterals plan).Nodup) (i : Nat) (a : PredicateTreeNode) (l : Nat)
    (hroot : plan.literal = some l) (hi : plan.tree_nodes[i]? = some a) :
    a.literal ≠ some l := by
  intro ha
  unfold attachedLiterals at hnd
  rw [hroot] at hnd
  simp only [Option.toList_some, List.singleton_append, List.nodup_cons] at hnd
  exact hnd.1 (List.mem_filterMap.mpr ⟨a, List.getElem?_mem hi, ha⟩)

theorem mem_attached_node (plan : PredicateEvaluationPlan) (i : Nat) (a : PredicateTreeNode)
    (l : Nat) (hi : plan.tree_nodes[i]? = some a) (ha : a.literal = some l) :
    l ∈ attachedLiterals plan := by
  unfold attachedLiterals
  exact List.mem_append_right _ (List.mem_filterMap.mpr ⟨a, List.getElem?_mem hi, ha⟩)

theorem sideSemis_set (positive : Bool) (ps ns : List BitVector) (i : Nat) (p n : BitVector) :
    sideSemis positive (ps.set i p) (ns.set i n) =
      (sideSemis positive ps ns).set i (sideSemi positive p n) := by
  cases positive <;> rfl

theorem sideSemis_getElem? (positive : Bool) (ps ns : List BitVector) (i : Nat)
    (p n : BitVector) (hp : ps[i]? = some p) (hn : ns[i]? = some n) :
    (sideSemis positive ps ns)[i]? = some (sideSemi positive p n) := by
  cases positive
  · exact hn
  · exact hp

/-- The counting of a node keeps the state of the plan for a label. -/
theorem countNode_inv (positive : Bool) (label : Nat → Bool)
    (build_partitions : List (List PartitionTuple)) (plan : PredicateEvaluationPlan)
    (chunk : HashJoinChunk) (hc : ChunkOfPartitions build_partitions chunk)
    (count : BitVector → CandidateLiteralInfo → BitVector → BitVector →
      Option (CandidateLiteralInfo × BitVector × BitVector))
    (hcount : ∀ bits info ps ns r, count bits info ps ns = some r →
      SideStep label chunk
        (sideCovered positive info, sideBinding positive info, sideSemi positive ps ns)
        (sideCovered positive r.1, sideBinding positive r.1, sideSemi positive r.2.1 r.2.2))
    (hnd : (attachedLiterals plan).Nodup) (root_semi : BitVector) (i : Nat)
    (node : PredicateTreeNode) (bits : BitVector) (hnode : plan.tree_nodes[i]? = some node)
    (st st1 : ChunkState)
    (h : countNode count st i node bits = some st1)
    (hinv : PlanSideInv positive label build_partitions plan (some chunk.partition_id) root_semi
      (sideSemis positive st.node_positive_semi_bitvectors st.node_negative_semi_bitvectors)
      st.infos) :
    PlanSideInv positive label build_partitions plan (some chunk.partition_id) root_semi
      (sideSemis positive st1.node_positive_semi_bitvectors st1.node_negative_semi_bitvectors)
      st1.infos := by
  unfold countNode at h
  cases hl : node.literal with
  | none =>
    rw [hl] at h
    simp only [Option.some.injEq] at h
    subst h
    exact hinv
  | some l0 =>
    rw [hl] at h
    dsimp only at h
    cases hi : st.infos.get? l0 with
    | none => rw [hi] at h; cases h
    | some info0 =>
      cases hp : st.node_positive_semi_bitvectors.get? i with
      | none => rw [hi, hp] at h; cases h
      | some ps =>
        cases hn : st.node_negative_semi_bitvectors.get? i with
        | none => rw [hi, hp, hn] at h; cases h
        | some ns =>
          rw [hi, hp, hn] at h
          dsimp only at h
          cases hr : count bits info0 ps ns with
          | none => rw [hr] at h; cases h
          | some r =>
            rw [hr] at h
            simp only [Option.some.injEq] at h
            subst h
            dsimp only
            rw [sideSemis_set]
            rw [List.get?_eq_getElem?] at hi hp hn
            have hS := sideSemis_getElem? positive _ _ i ps ns hp hn
            have hstep := hcount bits info0 ps ns r hr
            have hold := hinv.node i node l0 info0 _ hnode hl hi hS
            have hnew := slotBound_step label build_partitions chunk hc _ _ hstep hold
            have hle0 := hinv.le_binding l0 info0 hi
            have hb := hstep.binding_le
            dsimp only at hb hnew
            refine ⟨by rw [List.length_set]; exact hinv.semis_length, ?_, ?_, ?_, ?_⟩
            · intro l info hinfo
              rcases getElem?_set_cases _ _ _ _ _ hinfo with ⟨_, h2, _⟩ | ⟨_, h2⟩
              · rw [h2]
                omega
              · exact hinv.le_binding l info h2
            · intro l info hinfo hnot
              rcases getElem?_set_cases _ _ _ _ _ hinfo with ⟨h1, _, _⟩ | ⟨_, h2⟩
              · exact absurd (h1 ▸ mem_attached_node plan i node l0 hnode hl) hnot
              · exact hinv.unattached l info h2 hnot
            · intro l info hroot hinfo
              rcases getElem?_set_cases _ _ _ _ _ hinfo with ⟨h1, _, _⟩ | ⟨_, h2⟩
              · exact absurd (h1 ▸ hl) (attached_root_node plan hnd i node l hroot hnode)
              · exact hinv.root l info hroot h2
            · intro j node1 l info semi hnode1 hl1 hinfo hsemi
              rcases getElem?_set_cases _ _ _ _ _ hsemi with ⟨h1, h2, _⟩ | ⟨h1, h2⟩
              · subst h1
                rw [hnode] at hnode1
                cases hnode1
                rw [hl] at hl1
                cases hl1
                rcases getElem?_set_cases _ _ _ _ _ hinfo with ⟨_, h3, _⟩ | ⟨h3, _⟩
                · rw [h2, h3]
                  exact hnew
                · exact absurd rfl h3
              · rcases getElem?_set_cases _ _ _ _ _ hinfo with ⟨h3, _, _⟩ | ⟨_, h4⟩
                · subst h3
                  exact absurd (attached_node_index plan hnd j i node1 node l hnode1 hnode hl1 hl) h1
                · exact hinv.node j node1 l info semi hnode1 hl1 h4 h2

/-- The loops over the nodes of a plan keep the state of the plan for a label. -/
theorem countNodes_inv (positive : Bool) (label : Nat → Bool)
    (build_partitions : List (List PartitionTuple)) (plan : PredicateEvaluationPlan)
    (chunk : HashJoinChunk) (hc : ChunkOfPartitions build_partitions chunk)
    (count : BitVector → CandidateLiteralInfo → BitVector → BitVector →
      Option (CandidateLiteralInfo × BitVector × BitVector))
    (hcount : ∀ bits info ps ns r, count bits info ps ns = some r →
      SideStep label chunk
        (sideCovered positive info, sideBinding positive info, sideSemi positive ps ns)
        (sideCovered positive r.1, sideBinding positive r.1, sideSemi positive r.2.1 r.2.2))
    (hnd : (attachedLiterals plan).Nodup) (root_semi : BitVector)
    (filter_bit_vectors : List BitVector) (st st1 : ChunkState)
    (h : countNodes count plan filter_bit_vectors st = some st1)
    (hinv : PlanSideInv positive label build_partitions plan (some chunk.partition_id) root_semi
      (sideSemis positive st.node_positive_semi_bitvectors st.node_negative_semi_bitvectors)
      st.infos) :
    PlanSideInv positive label build_partitions plan (some chunk.partition_id) root_semi
      (sideSemis positive st1.node_positive_semi_bitvectors st1.node_negative_semi_bitvectors)
      st1.infos := by
  unfold countNodes at h
  split at h
  · cases h
  · cases hatoms : (List.range plan.num_atom_tree_nodes).foldlM
        (countAtom count plan filter_bit_vectors) st with
    | none => rw [hatoms] at h; cases h
    | some st2 =>
      rw [hatoms] at h
      dsimp only at h
      have h2 := option_foldlM_invariant (countAtom count plan filter_bit_vectors)
        (fun s => PlanSideInv positive label build_partitions plan (some chunk.partition_id)
          root_semi
          (sideSemis positive s.node_positive_semi_bitvectors s.node_negative_semi_bitvectors)
          s.infos)
        (by
          intro s i s2 hs hi
          unfold countAtom at hs
          cases hn : plan.tree_nodes.get? i with
          | none => rw [hn] at hs; cases hs
          | some node =>
            cases hb : filter_bit_vectors.get? i with
            | none => rw [hn, hb] at hs; cases hs
            | some bit_vector =>
              rw [hn, hb] at hs
              rw [List.get?_eq_getElem?] at hn
              exact countNode_inv positive label build_partitions plan chunk hc count hcount
                hnd root_semi i node bit_vector hn s s2 hs hi)
        _ st st2 hatoms hinv
      exact option_foldlM_invariant (countConjunction count plan)
        (fun s => PlanSideInv positive label build_partitions plan (some chunk.partition_id)
          root_semi
          (sideSemis positive s.node_positive_semi_bitvectors s.node_negative_semi_bitvectors)
          s.infos)
        (by
          intro s i s2 hs hi
          unfold countConjunction at hs
          cases hn : plan.tree_nodes.get? i with
          | none => rw [hn] at hs; cases hs
          | some node =>
            rw [hn] at hs
            dsimp only at hs
            rw [List.get?_eq_getElem?] at hn
            split at hs
            · split at hs
              · split at hs
                · exact countNode_inv positive label build_partitions plan chunk hc count
                    hcount hnd root_semi i node _ hn s s2 hs hi
                · cases hs
              · cases hs
            · cases hs)
        _ st2 st1 h h2

theorem reset_sideSemi (positive : Bool) (n : Nat) (plan : PredicateEvaluationPlan)
    (buffers : PlanBuffers) :
    sideSemi positive (ResetSemiVectors true true n plan buffers).positive_semi_bitvector
        (ResetSemiVectors true true n plan buffers).negative_semi_bitvector =
      if plan.literal.isSome then List.replicate n false
      else sideSemi positive buffers.positive_semi_bitvector buffers.negative_semi_bitvector := by
  cases positive <;> simp [ResetSemiVectors, sideSemi]

theorem reset_sideSemis (positive : Bool) (n : Nat) (plan : PredicateEvaluationPlan)
    (buffers : PlanBuffers) :
    sideSemis positive (ResetSemiVectors true true n plan buffers).node_positive_semi_bitvectors
        (ResetSemiVectors true true n plan buffers).node_negative_semi_bitvectors =
      List.zipWith (fun (node : PredicateTreeNode) (bits : BitVector) =>
        if node.literal.isSome then List.replicate n false else bits) plan.tree_nodes
        (sideSemis positive buffers.node_positive_semi_bitvectors
          buffers.node_negative_semi_bitvectors) := by
  cases positive <;> simp [ResetSemiVectors, sideSemis]

theorem getElem?_zipWith_some {α β γ : Type} (f : α → β → γ) :
    ∀ (as : List α) (bs : List β) (i : Nat) (c : γ), (List.zipWith f as bs)[i]? = some c →
      ∃ a b, as[i]? = some a ∧ bs[i]? = some b ∧ c = f a b := by
  intro as
  induction as with
  | nil =>
    intro bs i c h
    simp at h
  | cons a as ih =>
    intro bs i c h
    cases bs with
    | nil => simp at h
    | cons b bs =>
      cases i with
      | zero =>
        simp only [List.zipWith_cons_cons, List.getElem?_cons_zero, Option.some.injEq] at h
        exact ⟨a, b, by simp, by simp, h.symm⟩
      | succ i =>
        simp only [List.zipWith_cons_cons, List.getElem?_cons_succ] at h
        obtain ⟨a1, b1, h1, h2, h3⟩ := ih bs i c h
        exact ⟨a1, b1, by simpa using h1, by simpa using h2, h3⟩

/-- The reset of the semi bit vectors for a later partition keeps the state of the plan
for a label. -/
theorem reset_inv (positive : Bool) (label : Nat → Bool)
    (build_partitions : List (List PartitionTuple)) (plan : PredicateEvaluationPlan)
    (buffers : PlanBuffers) (infos : List CandidateLiteralInfo) (q : Nat)
    (hq : ∀ q0, buffers.saved_partition_id = some q0 → q0 < q)
    (hinv : PlanSideInv positive label build_partitions plan buffers.saved_partition_id
      (sideSemi positive buffers.positive_semi_bitvector buffers.negative_semi_bitvector)
      (sideSemis positive buffers.node_positive_semi_bitvectors
        buffers.node_negative_semi_bitvectors) infos) :
    PlanSideInv positive label build_partitions plan (some q)
      (sideSemi positive
        (ResetSemiVectors true true (build_partitions.getD q []).length plan
          buffers).positive_semi_bitvector
        (ResetSemiVectors true true (build_partitions.getD q []).length plan
          buffers).negative_semi_bitvector)
      (sideSemis positive
        (ResetSemiVectors true true (build_partitions.getD q []).length plan
          buffers).node_positive_semi_bitvectors
        (ResetSemiVectors true true (build_partitions.getD q []).length plan
          buffers).node_negative_semi_bitvectors) infos := by
  rw [reset_sideSemi, reset_sideSemis]
  refine ⟨?_, hinv.le_binding, hinv.unattached, ?_, ?_⟩
  · rw [List.length_zipWith, hinv.semis_length, Nat.min_self]
  · intro l info hroot hinfo
    rw [hroot]
    simp only [Option.isSome_some, if_true]
    exact slotBound_reset label build_partitions _ q _ _ (hinv.root l info hroot hinfo) hq
  · intro i node l info semi hnode hl hinfo hsemi
    obtain ⟨a, b, ha, hb, hsemi1⟩ := getElem?_zipWith_some _ _ _ _ _ hsemi
    rw [hnode] at ha
    cases ha
    rw [hsemi1, hl]
    simp only [Option.isSome_some, if_true]
    exact slotBound_reset label build_partitions _ q _ _
      (hinv.node i node l info b hnode hl hinfo hb) hq

/-- The counting of the candidate of the plan keeps the state of the plan for a label. -/
theorem rootStep_inv (positive : Bool) (label : Nat → Bool)
    (build_partitions : List (List PartitionTuple)) (plan : PredicateEvaluationPlan)
    (chunk : HashJoinChunk) (hc : ChunkOfPartitions build_partitions chunk)
    (hnd : (attachedLiterals plan).Nodup) (root_semi root_semi1 : BitVector)
    (semis : List BitVector) (infos : List CandidateLiteralInfo) (l0 : Nat)
    (info0 info1 : CandidateLiteralInfo) (hroot0 : plan.literal = some l0)
    (hinfo0 : infos[l0]? = some info0)
    (hstep : SideStep label chunk
      (sideCovered positive info0, sideBinding positive info0, root_semi)
      (sideCovered positive info1, sideBinding positive info1, root_semi1))
    (hinv : PlanSideInv positive label build_partitions plan (some chunk.partition_id) root_semi
      semis infos) :
    PlanSideInv positive label build_partitions plan (some chunk.partition_id) root_semi1
      semis (infos.set l0 info1) := by
  have hold := hinv.root l0 info0 hroot0 hinfo0
  have hnew := slotBound_step label build_partitions chunk hc _ _ hstep hold
  have hle0 := hinv.le_binding l0 info0 hinfo0
  have hb := hstep.binding_le
  dsimp only at hb hnew
  have hmem : l0 ∈ attachedLiterals plan := by
    unfold attachedLiterals
    rw [hroot0]
    simp
  refine ⟨hinv.semis_length, ?_, ?_, ?_, ?_⟩
  · intro l info hinfo
    rcases getElem?_set_cases _ _ _ _ _ hinfo with ⟨_, h2, _⟩ | ⟨_, h2⟩
    · rw [h2]
      omega
    · exact hinv.le_binding l info h2
  · intro l info hinfo hnot
    rcases getElem?_set_cases _ _ _ _ _ hinfo with ⟨h1, _, _⟩ | ⟨_, h2⟩
    · exact absurd (h1 ▸ hmem) hnot
    · exact hinv.unattached l info h2 hnot
  · intro l info hroot hinfo
    rw [hroot0] at hroot
    cases hroot
    rcases getElem?_set_cases _ _ _ _ _ hinfo with ⟨_, h2, _⟩ | ⟨h1, _⟩
    · rw [h2]
      exact hnew
    · exact absurd rfl h1
  · intro j node l info semi hnode hl hinfo hsemi
    rcases getElem?_set_cases _ _ _ _ _ hinfo with ⟨h1, _, _⟩ | ⟨_, h2⟩
    · subst h1
      exact absurd hl (attached_root_node plan hnd j node l hroot0 hnode)
    · exact hinv.node j node l info semi hnode hl h2 hsemi

/-- The counting of a chunk on a plan keeps the state of the plan for a label, when the
partition saved in the plan is not after the partition of the chunk. -/
theorem countPlan_inv (positive : Bool) (label : Nat → Bool)
    (build_partitions : List (List PartitionTuple)) (plan : PredicateEvaluationPlan)
    (filter_chunk : FilterChunk)
    (hc : ChunkOfPartitions build_partitions filter_chunk.hash_join_chunk)
    (root : PredicateEvaluationPlan → HashJoinChunk → CandidateLiteralInfo → BitVector →
      BitVector → Option (CandidateLiteralInfo × BitVector × BitVector))
    (count : HashJoinChunk → BitVector → CandidateLiteralInfo → BitVector → BitVector →
      Option (CandidateLiteralInfo × BitVector × BitVector))
    (hroot : ∀ info ps ns r, root plan filter_chunk.hash_join_chunk info ps ns = some r →
      SideStep label filter_chunk.hash_join_chunk
        (sideCovered positive info, sideBinding positive info, sideSemi positive ps ns)
        (sideCovered positive r.1, sideBinding positive r.1, sideSemi positive r.2.1 r.2.2))
    (hcount : ∀ bits info ps ns r,
      count filter_chunk.hash_join_chunk bits info ps ns = some r →
      SideStep label filter_chunk.hash_join_chunk
        (sideCovered positive info, sideBinding positive info, sideSemi positive ps ns)
        (sideCovered positive r.1, sideBinding positive r.1, sideSemi positive r.2.1 r.2.2))
    (hnd : (attachedLiterals plan).Nodup) (buffers : PlanBuffers)
    (infos : List CandidateLiteralInfo) (r : PlanBuffers × List CandidateLiteralInfo)
    (hq : ∀ q0, buffers.saved_partition_id = some q0 →
      q0 ≤ filter_chunk.hash_join_chunk.partition_id)
    (hinv : PlanSideInv positive label build_partitions plan buffers.saved_partition_id
      (sideSemi positive buffers.positive_semi_bitvector buffers.negative_semi_bitvector)
      (sideSemis positive buffers.node_positive_semi_bitvectors
        buffers.node_negative_semi_bitvectors) infos)
    (h : countPlan true true root count plan filter_chunk buffers infos = some r) :
    r.1.saved_partition_id = some filter_chunk.hash_join_chunk.partition_id ∧
    PlanSideInv positive label build_partitions plan
      (some filter_chunk.hash_join_chunk.partition_id)
      (sideSemi positive r.1.positive_semi_bitvector r.1.negative_semi_bitvector)
      (sideSemis positive r.1.node_positive_semi_bitvectors
        r.1.node_negative_semi_bitvectors) r.2 := by
  have hb1 : ∃ b1 : PlanBuffers,
      (if buffers.saved_partition_id ≠ some filter_chunk.hash_join_chunk.partition_id then
        { ResetSemiVectors true true filter_chunk.hash_join_chunk.binding_partition_size plan
            buffers with
          saved_partition_id := some filter_chunk.hash_join_chunk.partition_id }
       else buffers) = b1 ∧
      b1.saved_partition_id = some filter_chunk.hash_join_chunk.partition_id ∧
      PlanSideInv positive label build_partitions plan
        (some filter_chunk.hash_join_chunk.partition_id)
        (sideSemi positive b1.positive_semi_bitvector b1.negative_semi_bitvector)
        (sideSemis positive b1.node_positive_semi_bitvectors
          b1.node_negative_semi_bitvectors) infos := by
    by_cases hs : buffers.saved_partition_id = some filter_chunk.hash_join_chunk.partition_id
    · refine ⟨buffers, if_neg (not_not.mpr hs), hs, ?_⟩
      rw [← hs]
      exact hinv
    · refine ⟨_, if_pos hs, rfl, ?_⟩
      rw [hc.size_eq]
      exact reset_inv positive label build_partitions plan buffers infos _
        (fun q0 h0 => lt_of_le_of_ne (hq q0 h0) (fun he => hs (by rw [h0, he]))) hinv
  obtain ⟨b1, hb1e, hb1s, hb1i⟩ := hb1
  unfold countPlan at h
  dsimp only at h
  rw [hb1e] at h
  have hcounted : ∀ (b2 : PlanBuffers) (infos2 : List CandidateLiteralInfo),
      (match plan.literal with
        | none => if plan.num_atom_tree_nodes = 0 then none else some (b1, infos)
        | some literal =>
          match infos.get? literal with
          | none => none
          | some info =>
            match root plan filter_chunk.hash_join_chunk info b1.positive_semi_bitvector
                b1.negative_semi_bitvector with
            | none => none
            | some r =>
              some ({ b1 with positive_semi_bitvector := r.2.1
                              negative_semi_bitvector := r.2.2 },
                    infos.set literal r.1)) = some (b2, infos2) →
      b2.saved_partition_id = some filter_chunk.hash_join_chunk.partition_id ∧
      PlanSideInv positive label build_partitions plan
        (some filter_chunk.hash_join_chunk.partition_id)
        (sideSemi positive b2.positive_semi_bitvector b2.negative_semi_bitvector)
        (sideSemis positive b2.node_positive_semi_bitvectors
          b2.node_negative_semi_bitvectors) infos2 := by
    intro b2 infos2 h2
    cases hl : plan.literal with
    | none =>
      rw [hl] at h2
      dsimp only at h2
      split at h2
      · cases h2
      · simp only [Option.some.injEq, Prod.mk.injEq] at h2
        rw [← h2.1, ← h2.2]
        exact ⟨hb1s, hb1i⟩
    | some l0 =>
      rw [hl] at h2
      dsimp only at h2
      cases hi : infos.get? l0 with
      | none => rw [hi] at h2; cases h2
      | some info0 =>
        rw [hi] at h2
        dsimp only at h2
        cases hr : root plan filter_chunk.hash_join_chunk info0 b1.positive_semi_bitvector
            b1.negative_semi_bitvector with
        | none => rw [hr] at h2; cases h2
        | some r0 =>
          rw [hr] at h2
          simp only [Option.some.injEq, Prod.mk.injEq] at h2
          rw [← h2.1, ← h2.2]
          rw [List.get?_eq_getElem?] at hi
          exact ⟨hb1s, rootStep_inv positive label build_partitions plan _ hc hnd _ _ _ _ l0
            info0 r0.1 hl hi (hroot info0 _ _ r0 hr) hb1i⟩
  split at h
  · cases h
  · rename_i b2 infos2 hcnt
    obtain ⟨h2s, h2i⟩ := hcounted b2 infos2 hcnt
    split at h
    · simp only [Option.some.injEq] at h
      rw [← h]
      exact ⟨h2s, h2i⟩
    · split at h
      · cases h
      · rename_i st hst
        simp only [Option.some.injEq] at h
        rw [← h]
        exact ⟨h2s, countNodes_inv positive label build_partitions plan _ hc _ hcount hnd _ _
          _ st hst h2i⟩

theorem groupEntry_update_self {α : Type} (rows : List (List α)) (t g : Nat) (a b : α)
    (h : groupEntry rows t g = some b) :
    groupEntry (updateAt rows t (fun row => row.set g a)) t g = some a := by
  unfold groupEntry at h ⊢
  obtain ⟨row, hrow, hg⟩ := Option.bind_eq_some.mp h
  unfold updateAt
  rw [hrow]
  dsimp only
  rw [List.get?_eq_getElem?] at hrow hg ⊢
  have ht : t < rows.length := by
    by_contra hn
    rw [List.getElem?_eq_none_iff.mpr (by omega)] at hrow
    cases hrow
  have hgl : g < row.length := by
    by_contra hn
    rw [List.getElem?_eq_none_iff.mpr (by omega)] at hg
    cases hg
  rw [List.getElem?_eq_getElem (by rw [List.length_set]; exact ht), List.getElem_set_self]
  simp only [Option.some_bind]
  rw [List.get?_eq_getElem?, List.getElem?_eq_getElem (by rw [List.length_set]; exact hgl),
    List.getElem_set_self]

theorem groupEntry_update_ne {α : Type} (rows : List (List α)) (t g t1 g1 : Nat) (a : α)
    (h : ¬ (t1 = t ∧ g1 = g)) :
    groupEntry (updateAt rows t (fun row => row.set g a)) t1 g1 = groupEntry rows t1 g1 := by
  unfold groupEntry updateAt
  cases hrow : rows.get? t with
  | none => rfl
  | some row =>
    dsimp only
    rw [List.get?_eq_getElem?] at hrow
    rw [List.get?_eq_getElem?, List.get?_eq_getElem?]
    by_cases ht : t1 = t
    · subst ht
      have hg : g1 ≠ g := fun hg => h ⟨rfl, hg⟩
      have hlt : t1 < rows.length := by
        by_contra hn
        rw [List.getElem?_eq_none_iff.mpr (by omega)] at hrow
        cases hrow
      rw [List.getElem?_eq_getElem (by rw [List.length_set]; exact hlt), List.getElem_set_self,
        hrow]
      simp only [Option.some_bind]
      rw [List.get?_eq_getElem?, List.get?_eq_getElem?,
        List.getElem?_set_ne (fun hh => hg hh.symm)]
    · rw [List.getElem?_set_ne (fun hh => ht hh.symm)]

/-- The body of the loop of `Execute` keeps the state of the aggregator for a label, for a
chunk of a partition that is not before the partitions counted so far. -/
theorem executeChunk_inv (positive : Bool) (num_positive : Nat)
    (build_partitions : Nat → Nat → List (List PartitionTuple)) (bound : Nat)
    (aggregator aggregator1 : CountAggregator) (filter_chunk : FilterChunk)
    (hc : ChunkOfPartitions
      (build_partitions filter_chunk.hash_join_chunk.table_id
        filter_chunk.hash_join_chunk.join_group_id) filter_chunk.hash_join_chunk)
    (hbound : bound ≤ filter_chunk.hash_join_chunk.partition_id)
    (hnd : ∀ t g plan, groupEntry aggregator.score_plans t g = some plan →
      (attachedLiterals plan).Nodup)
    (hinv : AggregatorSideInv positive (sideLabel positive num_positive) build_partitions bound
      aggregator)
    (h : CountAggregator.executeChunk num_positive aggregator filter_chunk = some aggregator1) :
    aggregator1.score_plans = aggregator.score_plans ∧
    AggregatorSideInv positive (sideLabel positive num_positive) build_partitions
      filter_chunk.hash_join_chunk.partition_id aggregator1 := by
  unfold CountAggregator.executeChunk CountAggregator.countChunk at h
  dsimp only at h
  cases hplan : (aggregator.score_plans.get? filter_chunk.hash_join_chunk.table_id).bind
      (fun plans => plans.get? filter_chunk.hash_join_chunk.join_group_id) with
  | none => rw [hplan] at h; cases h
  | some plan =>
    cases hbuf : (aggregator.buffers.get? filter_chunk.hash_join_chunk.table_id).bind
        (fun row => row.get? filter_chunk.hash_join_chunk.join_group_id) with
    | none => rw [hplan, hbuf] at h; cases h
    | some buffers =>
      cases hinfos : (aggregator.infos.get? filter_chunk.hash_join_chunk.table_id).bind
          (fun row => row.get? filter_chunk.hash_join_chunk.join_group_id) with
      | none => rw [hplan, hbuf, hinfos] at h; cases h
      | some infos =>
        rw [hplan, hbuf, hinfos] at h
        dsimp only at h
        split at h
        · cases h
        · rename_i r hr
          simp only [Option.some.injEq] at h
          subst h
          refine ⟨rfl, ⟨?_⟩⟩
          intro t g plan1 infos1 hp1 hi1
          dsimp only at hp1 hi1 ⊢
          by_cases htg : t = filter_chunk.hash_join_chunk.table_id ∧
              g = filter_chunk.hash_join_chunk.join_group_id
          · obtain ⟨ht, hg⟩ := htg
            subst ht
            subst hg
            have hpe : plan1 = plan := by
              have : groupEntry aggregator.score_plans filter_chunk.hash_join_chunk.table_id
                  filter_chunk.hash_join_chunk.join_group_id = some plan := hplan
              rw [this] at hp1
              exact (Option.some.inj hp1).symm
            subst hpe
            rw [groupEntry_update_self _ _ _ _ infos hinfos] at hi1
            cases hi1
            obtain ⟨b0, hb0, hq0, hinv0⟩ := hinv.plans _ _ plan1 infos hplan hinfos
            have hbe : b0 = buffers := by
              have : groupEntry aggregator.buffers filter_chunk.hash_join_chunk.table_id
                  filter_chunk.hash_join_chunk.join_group_id = some buffers := hbuf
              rw [this] at hb0
              exact (Option.some.inj hb0).symm
            subst hbe
            have hres := countPlan_inv positive (sideLabel positive num_positive)
              (build_partitions filter_chunk.hash_join_chunk.table_id
                filter_chunk.hash_join_chunk.join_group_id) plan1 filter_chunk hc _ _
              (fun info ps ns r0 h0 => countRoot_side positive num_positive plan1 _ info ps ns
                r0 h0)
              (fun bits info ps ns r0 h0 => countLabelled_side positive num_positive _ bits
                info ps ns r0 h0)
              (hnd _ _ plan1 hplan) b0 infos r
              (fun q0 h0 => le_trans (hq0 q0 h0) hbound) hinv0 hr
            refine ⟨r.1, groupEntry_update_self _ _ _ _ b0 hbuf, ?_, ?_⟩
            · intro q0 h0
              rw [hres.1] at h0
              cases h0
              exact le_refl _
            · rw [hres.1]
              exact hres.2
          · rw [groupEntry_update_ne _ _ _ _ _ _ htg] at hi1 ⊢
            obtain ⟨b0, hb0, hq0, hinv0⟩ := hinv.plans t g plan1 infos1 hp1 hi1
            exact ⟨b0, hb0, fun q0 h0 => le_trans (hq0 q0 h0) hbound, hinv0⟩

theorem executeChunk_unplanned (num_positive : Nat) (aggregator aggregator1 : CountAggregator)
    (filter_chunk : FilterChunk)
    (h : CountAggregator.executeChunk num_positive aggregator filter_chunk = some aggregator1)
    (t g : Nat) (hnone : groupEntry aggregator.score_plans t g = none) :
    groupEntry aggregator1.infos t g = groupEntry aggregator.infos t g := by
  unfold CountAggregator.executeChunk CountAggregator.countChunk at h
  dsimp only at h
  cases hplan : (aggregator.score_plans.get? filter_chunk.hash_join_chunk.table_id).bind
      (fun plans => plans.get? filter_chunk.hash_join_chunk.join_group_id) with
  | none => rw [hplan] at h; cases h
  | some plan =>
    rw [hplan] at h
    split at h
    · split at h
      · cases h
      · simp only [Option.some.injEq] at h
        subst h
        dsimp only
        apply groupEntry_update_ne
        rintro ⟨ht, hg⟩
        subst ht
        subst hg
        have : groupEntry aggregator.score_plans filter_chunk.hash_join_chunk.table_id
            filter_chunk.hash_join_chunk.join_group_id = some plan := hplan
        rw [this] at hnone
        cases hnone
    · cases h

/-- The state of the aggregator for a label is kept over a stream of chunks ordered by
partition. -/
theorem executeChunks_inv (positive : Bool) (num_positive : Nat)
    (build_partitions : Nat → Nat → List (List PartitionTuple)) :
    ∀ (chunks : List FilterChunk) (bound : Nat) (aggregator aggregator1 : CountAggregator),
    (∀ filter_chunk ∈ chunks, ChunkOfPartitions
      (build_partitions filter_chunk.hash_join_chunk.table_id
        filter_chunk.hash_join_chunk.join_group_id) filter_chunk.hash_join_chunk) →
    (∀ filter_chunk ∈ chunks, bound ≤ filter_chunk.hash_join_chunk.partition_id) →
    chunks.Pairwise (fun a b =>
      a.hash_join_chunk.partition_id ≤ b.hash_join_chunk.partition_id) →
    (∀ t g plan, groupEntry aggregator.score_plans t g = some plan →
      (attachedLiterals plan).Nodup) →
    AggregatorSideInv positive (sideLabel positive num_positive) build_partitions bound
      aggregator →
    chunks.foldlM (CountAggregator.executeChunk num_positive) aggregator = some aggregator1 →
    aggregator1.score_plans = aggregator.score_plans ∧
    (∀ t g, groupEntry aggregator.score_plans t g = none →
      groupEntry aggregator1.infos t g = groupEntry aggregator.infos t g) ∧
    ∃ bound1, AggregatorSideInv positive (sideLabel positive num_positive) build_partitions
      bound1 aggregator1 := by
  intro chunks
  induction chunks with
  | nil =>
    intro bound aggregator aggregator1 _ _ _ _ hinv h
    simp only [List.foldlM_nil, Option.pure_def, Option.some.injEq] at h
    subst h
    exact ⟨rfl, fun _ _ _ => rfl, bound, hinv⟩
  | cons c rest ih =>
    intro bound aggregator aggregator1 hc hb hp hnd hinv h
    rw [List.foldlM_cons] at h
    obtain ⟨agg2, hstep, hrest⟩ := Option.bind_eq_some.mp h
    obtain ⟨hsp, hinv2⟩ := executeChunk_inv positive num_positive build_partitions bound
      aggregator agg2 c (hc c (List.mem_cons_self _ _)) (hb c (List.mem_cons_self _ _)) hnd hinv
      hstep
    obtain ⟨hp1, hp2⟩ := List.pairwise_cons.mp hp
    obtain ⟨h1, h2, h3⟩ := ih c.hash_join_chunk.partition_id agg2 aggregator1
      (fun x hx => hc x (List.mem_cons_of_mem _ hx)) (fun x hx => hp1 x hx) hp2
      (by rw [hsp]; exact hnd) hinv2 hrest
    refine ⟨by rw [h1, hsp], ?_, h3⟩
    intro t g hnone
    rw [h2 t g (by rw [hsp]; exact hnone)]
    exact executeChunk_unplanned num_positive aggregator agg2 c hstep t g hnone

theorem groupEntry_map {α β : Type} (f : α → β) (rows : List (List α)) (t g : Nat) :
    groupEntry (rows.map (fun row => row.map f)) t g = (groupEntry rows t g).map f := by
  unfold groupEntry
  rw [List.get?_eq_getElem?, List.get?_eq_getElem?, List.getElem?_map]
  cases rows[t]? with
  | none => rfl
  | some row =>
    simp only [Option.map_some', Option.some_bind]
    rw [List.get?_eq_getElem?, List.get?_eq_getElem?, List.getElem?_map]

theorem groupEntry_mem {α : Type} (rows : List (List α)) (t g : Nat) (a : α)
    (h : groupEntry rows t g = some a) : ∃ row ∈ rows, a ∈ row := by
  unfold groupEntry at h
  obtain ⟨row, hrow, hg⟩ := Option.bind_eq_some.mp h
  rw [List.get?_eq_getElem?] at hrow hg
  exact ⟨row, List.getElem?_mem hrow, List.getElem?_mem hg⟩

/-- The aggregator that has not run is in the state `AggregatorSideInv`. -/
theorem create_inv (positive : Bool) (label : Nat → Bool)
    (build_partitions : Nat → Nat → List (List PartitionTuple)) (aggregator : CountAggregator)
    (hbuffers : aggregator.buffers =
      aggregator.score_plans.map (fun plans => plans.map PlanBuffers.create))
    (hzero : ∀ row ∈ aggregator.infos, ∀ infos ∈ row, ∀ info ∈ infos,
      sideCovered positive info = 0 ∧ sideBinding positive info = 0) :
    AggregatorSideInv positive label build_partitions 0 aggregator := by
  refine ⟨?_⟩
  intro t g plan infos hplan hinfos
  obtain ⟨row, hrow, hmem⟩ := groupEntry_mem _ _ _ _ hinfos
  have hz : ∀ (l : Nat) (info : CandidateLiteralInfo), infos[l]? = some info →
      sideCovered positive info = 0 ∧ sideBinding positive info = 0 :=
    fun l info hl => hzero row hrow infos hmem info (List.getElem?_mem hl)
  refine ⟨PlanBuffers.create plan, ?_, ?_, ?_⟩
  · rw [hbuffers, groupEntry_map, hplan]
    rfl
  · intro q0 h0
    cases h0
  · refine ⟨?_, ?_, ?_, ?_, ?_⟩
    · cases positive <;> simp [sideSemis, PlanBuffers.create]
    · intro l info hl
      rw [(hz l info hl).1, (hz l info hl).2]
    · intro l info hl _
      exact (hz l info hl).1
    · intro l info _ hl
      exact (hz l info hl).1
    · intro i node l info semi _ _ hl _
      exact (hz l info hl).1

theorem labelled_length_le (p : Nat → Bool) (s : Finset Nat) (tuples : List PartitionTuple)
    (hnd : (tuples.map (fun tuple => tuple.tuple_id)).Nodup)
    (hs : ∀ tuple ∈ tuples, p tuple.tuple_id = true → tuple.tuple_id ∈ s) :
    (tuples.filter (fun tuple => p tuple.tuple_id)).length ≤ s.card := by
  have hnd1 : ((tuples.filter (fun tuple => p tuple.tuple_id)).map
      (fun tuple => tuple.tuple_id)).Nodup :=
    List.Nodup.sublist (List.Sublist.map _ (List.filter_sublist _)) hnd
  have hcard := List.toFinset_card_of_nodup hnd1
  rw [List.length_map] at hcard
  rw [← hcard]
  apply Finset.card_le_card
  intro x hx
  rw [List.mem_toFinset, List.mem_map] at hx
  obtain ⟨tuple, ht, hx⟩ := hx
  rw [List.mem_filter] at ht
  rw [← hx]
  exact hs tuple ht.1 ht.2

/-- The tuples with a label among tuples with different ids below `num_rows` are at most
`num_positive` for the positive label and `num_rows - num_positive` for the negative. -/
theorem labelled_side_le (positive : Bool) (num_positive num_rows : Nat)
    (tuples : List PartitionTuple)
    (hnd : (tuples.map (fun tuple => tuple.tuple_id)).Nodup)
    (hlt : ∀ tuple ∈ tuples, tuple.tuple_id < num_rows) :
    (tuples.filter (fun tuple => sideLabel positive num_positive tuple.tuple_id)).length ≤
      if positive then num_positive else num_rows - num_positive := by
  cases positive with
  | true =>
    have h := labelled_length_le (sideLabel true num_positive) (Finset.range num_positive)
      tuples hnd (by
        intro tuple _ hp
        unfold sideLabel at hp
        simp only [if_true, decide_eq_true_eq] at hp
        exact Finset.mem_range.mpr hp)
    rw [Finset.card_range] at h
    exact h
  | false =>
    have h := labelled_length_le (sideLabel false num_positive)
      (Finset.Ico num_positive num_rows) tuples hnd (by
        intro tuple ht hp
        unfold sideLabel at hp
        simp only [Bool.false_eq_true, if_false, Bool.not_eq_true', decide_eq_false_iff_not,
          not_lt] at hp
        exact Finset.mem_Ico.mpr ⟨hp, hlt tuple ht⟩)
    rw [Nat.card_Ico] at h
    exact h

/-- In the state `PlanSideInv`, a covered counter is at most the number of the build tuples
with the label. -/
theorem planSideInv_covered_le (positive : Bool) (label : Nat → Bool)
    (build_partitions : List (List PartitionTuple)) (plan : PredicateEvaluationPlan)
    (saved_partition_id : Option Nat) (root_semi : BitVector) (node_semis : List BitVector)
    (infos : List CandidateLiteralInfo)
    (hinv : PlanSideInv positive label build_partitions plan saved_partition_id root_semi
      node_semis infos)
    (l : Nat) (info : CandidateLiteralInfo) (hl : infos[l]? = some info) :
    sideCovered positive info ≤
      (((build_partitions.flatten).filter (fun tuple => label tuple.tuple_id)).length : Int) := by
  have hslot : ∀ semi, SlotBound label build_partitions saved_partition_id semi
      (sideCovered positive info) →
      sideCovered positive info ≤
        (((build_partitions.flatten).filter (fun tuple => label tuple.tuple_id)).length : Int) := by
    intro semi hs
    cases hsaved : saved_partition_id with
    | none =>
      rw [hsaved] at hs
      have h0 : sideCovered positive info = 0 := hs
      rw [h0]
      exact Int.natCast_nonneg _
    | some q =>
      rw [hsaved] at hs
      have h1 := slotBound_le label build_partitions q semi _ hs
      have h2 := labelledBefore_le_total label build_partitions (q + 1)
      omega
  by_cases hmem : l ∈ attachedLiterals plan
  · unfold attachedLiterals at hmem
    rcases List.mem_append.mp hmem with h1 | h1
    · have hroot : plan.literal = some l := by
        cases hp : plan.literal with
        | none => rw [hp] at h1; simp at h1
        | some l1 =>
          rw [hp] at h1
          simp only [Option.toList_some, List.mem_singleton] at h1
          rw [h1]
      exact hslot root_semi (hinv.root l info hroot hl)
    · obtain ⟨node, hnode, hlit⟩ := List.mem_filterMap.mp h1
      obtain ⟨i, hi, hget⟩ := List.getElem_of_mem hnode
      have hi2 : i < node_semis.length := by rw [hinv.semis_length]; exact hi
      exact hslot (node_semis[i]) (hinv.node i node l info _
        (by rw [List.getElem?_eq_getElem hi, hget]) hlit hl (List.getElem?_eq_getElem hi2))
  · rw [hinv.unattached l info hl hmem]
    exact Int.natCast_nonneg _

theorem groupEntry_of_mem {α : Type} (rows : List (List α)) (row : List α) (a : α)
    (hrow : row ∈ rows) (ha : a ∈ row) : ∃ t g, groupEntry rows t g = some a := by
  obtain ⟨t, ht, hget⟩ := List.getElem_of_mem hrow
  obtain ⟨g, hg, hget2⟩ := List.getElem_of_mem ha
  refine ⟨t, g, ?_⟩
  unfold groupEntry
  rw [List.get?_eq_getElem?, List.getElem?_eq_getElem ht, hget]
  simp only [Option.some_bind]
  rw [List.get?_eq_getElem?, List.getElem?_eq_getElem hg, hget2]

/-- The step of the loop of `CountAggregator::Execute` is `CountAggregator.executeChunk`. -/
theorem execute_eq_run (hash : Int → Nat) (fuel partition_chunck_size num_radix_bits : Nat)
    (num_positive : Nat) (aggregator : CountAggregator) :
    aggregator.Execute hash fuel partition_chunck_size num_radix_bits num_positive =
      CountAggregator.run hash fuel partition_chunck_size num_radix_bits
        (CountAggregator.executeChunk num_positive) aggregator := rfl

/-- C18: when the loop body of `CountAggregator::Execute` has run on a stream of filter
chunks ordered by partition (the order of the `PartitionAssigner`), each a join chunk
against the build partitions of the hash join, from an aggregator that has not run (fresh
buffers, counters 0) whose plans attach every candidate once, and the build partitions
hold different binding rows with ids below `num_rows`, then every candidate has
`num_covered_positive ≤ num_binding_positive`, `num_covered_negative ≤
num_binding_negative`, `num_covered_positive ≤ num_positive` and `num_covered_negative ≤
num_rows - num_positive`. -/
theorem execute_covered_bounds (num_positive num_rows : Nat) (chunks : List FilterChunk)
    (aggregator aggregator1 : CountAggregator)
    (hids : ((aggregator.hash_join.build_partitions.flatten).map
      (fun tuple => tuple.tuple_id)).Nodup)
    (hrows : ∀ tuple ∈ aggregator.hash_join.build_partitions.flatten,
      tuple.tuple_id < num_rows)
    (hchunks : ∀ filter_chunk ∈ chunks,
      ChunkOfPartitions aggregator.hash_join.build_partitions filter_chunk.hash_join_chunk)
    (horder : chunks.Pairwise (fun a b =>
      a.hash_join_chunk.partition_id ≤ b.hash_join_chunk.partition_id))
    (hplans : ∀ plans ∈ aggregator.score_plans, ∀ plan ∈ plans, (attachedLiterals plan).Nodup)
    (hbuffers : aggregator.buffers =
      aggregator.score_plans.map (fun plans => plans.map PlanBuffers.create))
    (hzero : ∀ row ∈ aggregator.infos, ∀ infos ∈ row, ∀ info ∈ infos,
      info.num_covered_positive = 0 ∧ info.num_covered_negative = 0 ∧
      info.num_binding_positive = 0 ∧ info.num_binding_negative = 0)
    (h : chunks.foldlM (CountAggregator.executeChunk num_positive) aggregator =
      some aggregator1) :
    ∀ row ∈ aggregator1.infos, ∀ infos ∈ row, ∀ info ∈ infos,
      info.num_covered_positive ≤ info.num_binding_positive ∧
      info.num_covered_negative ≤ info.num_binding_negative ∧
      info.num_covered_positive ≤ (num_positive : Int) ∧
      info.num_covered_negative ≤ ((num_rows - num_positive : Nat) : Int) := by
  have hnd : ∀ t g plan, groupEntry aggregator.score_plans t g = some plan →
      (attachedLiterals plan).Nodup := by
    intro t g plan hp
    obtain ⟨plans, h1, h2⟩ := groupEntry_mem _ _ _ _ hp
    exact hplans plans h1 plan h2
  have hside : ∀ positive : Bool,
      ∀ row ∈ aggregator1.infos, ∀ infos ∈ row, ∀ info ∈ infos,
      sideCovered positive info ≤ sideBinding positive info ∧
      sideCovered positive info ≤
        ((if positive then num_positive else num_rows - num_positive : Nat) : Int) := by
    intro positive row hrow infos hinfos info hinfo
    have hz : ∀ row ∈ aggregator.infos, ∀ infos ∈ row, ∀ info ∈ infos,
        sideCovered positive info = 0 ∧ sideBinding positive info = 0 := by
      intro r hr i hi x hx
      obtain ⟨h1, h2, h3, h4⟩ := hzero r hr i hi x hx
      cases positive
      · exact ⟨h2, h4⟩
      · exact ⟨h1, h3⟩
    obtain ⟨hsp, hun, bound1, hinv⟩ := executeChunks_inv positive num_positive
      (fun _ _ => aggregator.hash_join.build_partitions) chunks 0 aggregator aggregator1
      hchunks (fun _ _ => Nat.zero_le _) horder hnd
      (create_inv positive _ _ aggregator hbuffers hz) h
    obtain ⟨t, g, hentry⟩ := groupEntry_of_mem _ row infos hrow hinfos
    obtain ⟨l, hl, hget⟩ := List.getElem_of_mem hinfo
    have hl2 : infos[l]? = some info := by rw [List.getElem?_eq_getElem hl, hget]
    cases hplan : groupEntry aggregator.score_plans t g with
    | none =>
      rw [hun t g hplan] at hentry
      obtain ⟨row0, h1, h2⟩ := groupEntry_mem _ _ _ _ hentry
      obtain ⟨h3, h4⟩ := hz row0 h1 infos h2 info hinfo
      rw [h3, h4]
      exact ⟨le_refl _, Int.natCast_nonneg _⟩
    | some plan =>
      obtain ⟨buffers, _, _, hP⟩ := hinv.plans t g plan infos (by rw [hsp]; exact hplan) hentry
      refine ⟨hP.le_binding l info hl2, ?_⟩
      have h1 := planSideInv_covered_le positive _ _ plan _ _ _ infos hP l info hl2
      have h2 := labelled_side_le positive num_positive num_rows
        aggregator.hash_join.build_partitions.flatten hids hrows
      omega
  intro row hrow infos hinfos info hinfo
  have hp := hside true row hrow infos hinfos info hinfo
  have hn := hside false row hrow infos hinfos info hinfo
  exact ⟨hp.1, hn.1, hp.2, hn.2⟩

/-- The bounds of `execute_covered_bounds` on the stream `countTestChunks`, which the
aggregator drains with the counters of `countTestResult`. -/
theorem execute_covered_bounds_witness :
    countTestChunks.foldlM (CountAggregator.executeChunk 2) countTestAggregator =
      some countTestResult ∧
    ∀ row ∈ countTestResult.infos, ∀ infos ∈ row, ∀ info ∈ infos,
      info.num_covered_positive ≤ info.num_binding_positive ∧
      info.num_covered_negative ≤ info.num_binding_negative ∧
      info.num_covered_positive ≤ ((2 : Nat) : Int) ∧
      info.num_covered_negative ≤ ((4 - 2 : Nat) : Int) :=
  ⟨by decide,
   execute_covered_bounds 2 4 countTestChunks countTestAggregator countTestResult
    (by decide) (by decide)
    (by
      intro filter_chunk hmem
      simp only [countTestChunks, List.mem_cons, List.mem_singleton, List.not_mem_nil,
        or_false] at hmem
      rcases hmem with rfl | rfl | rfl <;> exact ⟨by decide, by decide, by decide⟩)
    (by decide) (by decide) (by decide) (by decide) (by decide)⟩

/-! ## The replaceable-duplicate check and the joins as relations -/

theorem enumFrom_map_zip {α β : Type} (d : α) :
    ∀ (p : List β) (vars : List α) (n : Nat), n + p.length ≤ vars.length →
      (p.enumFrom n).map (fun e => (vars.getD e.1 d, e.2)) = (vars.drop n).zip p := by
  intro p
  induction p with
  | nil =>
    intro vars n _
    simp
  | cons x p ih =>
    intro vars n h
    simp only [List.length_cons] at h
    have hn : n < vars.length := by omega
    rw [List.enumFrom_cons, List.map_cons, List.drop_eq_getElem_cons hn, List.zip_cons_cons,
      ih vars (n + 1) (by omega)]
    simp only [List.getD_eq_getElem?_getD, List.getElem?_eq_getElem hn, Option.getD_some]

theorem enum_map_zip {α β : Type} (d : α) (p : List β) (vars : List α)
    (h : p.length ≤ vars.length) :
    p.enum.map (fun e => (vars.getD e.1 d, e.2)) = vars.zip p := by
  have := enumFrom_map_zip d p vars 0 (by omega)
  simpa [List.enum] using this

theorem rowGet_eq_getD (row : List Int) (id : Int) (h0 : 0 ≤ id)
    (h1 : id < (row.length : Int)) : rowGet row id = some (row.getD id.toNat (-1)) := by
  unfold rowGet
  have hlt : id.toNat < row.length := by omega
  have : ¬ id < 0 := by omega
  simp only [this, if_false, List.get?_eq_getElem?, List.getElem?_eq_getElem hlt,
    List.getD_eq_getElem?_getD, Option.getD_some]

theorem rowSet_eq_set (row : List Int) (id x : Int) (h0 : 0 ≤ id)
    (h1 : id < (row.length : Int)) : rowSet row id x = some (row.set id.toNat x) := by
  unfold rowSet
  have hlt : id.toNat < row.length := by omega
  have : ¬ id < 0 := by omega
  simp only [this, if_false, hlt, if_true]

/-- The comparison loop of `NestedLoopsJoin` decides whether the rows agree. -/
theorem rowMatches_list (cb : Bool) (lit : FoilLiteral) (jrow : List Int)
    (hv : ∀ v ∈ lit.vars, (cb = true ∧ v.IsBound = false) ∨
      (0 ≤ v.variable_id ∧ v.variable_id < (jrow.length : Int)))
    (d : FoilVariable) (l : List (Nat × Int)) (hl : ∀ e ∈ l, e.1 < lit.vars.length) :
    rowMatches cb lit jrow l =
      some ((l.map (fun e => (lit.vars.getD e.1 d, e.2))).all (argumentAgrees cb jrow)) := by
  induction l with
  | nil => rfl
  | cons e rest ih =>
    obtain ⟨i, x⟩ := e
    have hi : i < lit.vars.length := hl (i, x) (List.mem_cons_self _ _)
    have ih2 := ih (fun e he => hl e (List.mem_cons_of_mem _ he))
    unfold rowMatches
    simp only [List.get?_eq_getElem?, List.getElem?_eq_getElem hi, List.map_cons, List.all_cons,
      List.getD_eq_getElem?_getD, Option.getD_some]
    rcases hv _ (List.getElem_mem hi) with ⟨hcb, hub⟩ | ⟨h0, h1⟩
    · simp only [hcb, hub, Bool.not_false, Bool.and_self, if_true]
      rw [hcb] at ih2
      rw [ih2]
      simp [argumentAgrees, hub, List.getD_eq_getElem?_getD]
    · have hbd : (lit.vars[i]).IsBound = true := by simp [FoilVariable.IsBound, h0]
      rw [rowGet_eq_getD jrow _ h0 h1]
      simp only [hbd, Bool.not_true, Bool.and_false, Bool.false_eq_true, if_false]
      by_cases hc : jrow.getD (lit.vars[i]).variable_id.toNat (-1) ≠ -1 ∧
          jrow.getD (lit.vars[i]).variable_id.toNat (-1) ≠ x
      · rw [if_pos hc]
        have hfalse : argumentAgrees cb jrow (lit.vars[i], x) = false := by
          unfold argumentAgrees
          dsimp only
          rw [hbd, decide_eq_false hc.1, decide_eq_false hc.2]
          simp
        rw [hfalse, Bool.false_and]
      · rw [if_neg hc, ih2]
        have htrue : argumentAgrees cb jrow (lit.vars[i], x) = true := by
          unfold argumentAgrees
          simp only [Bool.or_eq_true, decide_eq_true_eq]
          right
          by_contra hcon
          exact hc ⟨fun h => hcon (Or.inl h), fun h => hcon (Or.inr h)⟩
        rw [htrue, Bool.true_and]
        simp only [List.getD_eq_getElem?_getD]

theorem rowMatches_spec (cb : Bool) (lit : FoilLiteral) (jrow prow : List Int)
    (hv : ∀ v ∈ lit.vars, (cb = true ∧ v.IsBound = false) ∨
      (0 ≤ v.variable_id ∧ v.variable_id < (jrow.length : Int)))
    (hp : prow.length ≤ lit.vars.length) :
    rowMatches cb lit jrow prow.enum = some (rowAgrees cb lit jrow prow) := by
  rw [rowMatches_list cb lit jrow hv ⟨0, 0⟩ prow.enum
    (fun e he => Nat.lt_of_lt_of_le (enum_fst_lt prow e he) hp),
    enum_map_zip ⟨0, 0⟩ prow lit.vars hp]
  rfl

theorem fillArgument_length (row : List Int) (e : FoilVariable × Int) :
    (fillArgument row e).length = row.length := by
  unfold fillArgument
  split
  · rw [List.length_set]
  · rfl

theorem foldl_fillArgument_length (l : List (FoilVariable × Int)) (row : List Int) :
    (l.foldl fillArgument row).length = row.length := by
  induction l generalizing row with
  | nil => rfl
  | cons e rest ih => rw [List.foldl_cons, ih, fillArgument_length]

theorem fillRow_length (lit : FoilLiteral) (jrow prow : List Int) :
    (fillRow lit jrow prow).length = jrow.length :=
  foldl_fillArgument_length _ _

/-- The loop of `NestedLoopsJoin` that fills the new row gives the filled row. -/
theorem extendRow_list (lit : FoilLiteral) (n : Nat)
    (hv : ∀ v ∈ lit.vars, 0 ≤ v.variable_id ∧ v.variable_id < (n : Int))
    (d : FoilVariable) (l : List (Nat × Int)) (hl : ∀ e ∈ l, e.1 < lit.vars.length)
    (new_row : List Int) (hn : new_row.length = n) :
    extendRow lit new_row l =
      some ((l.map (fun e => (lit.vars.getD e.1 d, e.2))).foldl fillArgument new_row) := by
  induction l generalizing new_row with
  | nil => rfl
  | cons e rest ih =>
    obtain ⟨i, x⟩ := e
    have hi : i < lit.vars.length := hl (i, x) (List.mem_cons_self _ _)
    have ih2 := ih (fun e he => hl e (List.mem_cons_of_mem _ he))
    obtain ⟨h0, h1⟩ := hv _ (List.getElem_mem hi)
    rw [← hn] at h1
    unfold extendRow
    simp only [List.get?_eq_getElem?, List.getElem?_eq_getElem hi, List.map_cons,
      List.foldl_cons, List.getD_eq_getElem?_getD, Option.getD_some]
    rw [rowGet_eq_getD new_row _ h0 h1]
    dsimp only
    by_cases hy : new_row.getD (lit.vars[i]).variable_id.toNat (-1) = -1
    · rw [if_pos hy, rowSet_eq_set new_row _ x h0 h1]
      dsimp only
      rw [ih2 _ (by rw [List.length_set]; exact hn)]
      unfold fillArgument
      simp only [List.getD_eq_getElem?_getD] at hy ⊢
      rw [if_pos hy]
    · rw [if_neg hy, ih2 _ hn]
      unfold fillArgument
      simp only [List.getD_eq_getElem?_getD] at hy ⊢
      rw [if_neg hy]

theorem extendRow_spec (lit : FoilLiteral) (jrow prow : List Int)
    (hv : ∀ v ∈ lit.vars, 0 ≤ v.variable_id ∧ v.variable_id < (jrow.length : Int))
    (hp : prow.length ≤ lit.vars.length) :
    extendRow lit jrow prow.enum = some (fillRow lit jrow prow) := by
  rw [extendRow_list lit jrow.length hv ⟨0, 0⟩ prow.enum
    (fun e he => Nat.lt_of_lt_of_le (enum_fst_lt prow e he) hp) jrow rfl,
    enum_map_zip ⟨0, 0⟩ prow lit.vars hp]
  rfl

/-- The nested loops without early return append the filled row of every pair of rows that
agree. -/
theorem nestedLoops_join (lit : FoilLiteral) (n : Nat)
    (hv : ∀ v ∈ lit.vars, 0 ≤ v.variable_id ∧ v.variable_id < (n : Int))
    (joined : List (List Int)) (pairs : List (List Int × List Int))
    (hp : ∀ e ∈ pairs, e.1.length ≤ lit.vars.length ∧ e.2.length = n)
    (acc : List (List Int)) :
    nestedLoops false false lit joined acc pairs =
      some (!(acc ++ (pairs.filter (fun e => rowAgrees false lit e.2 e.1)).map
              (fun e => fillRow lit e.2 e.1)).isEmpty,
            acc ++ (pairs.filter (fun e => rowAgrees false lit e.2 e.1)).map
              (fun e => fillRow lit e.2 e.1)) := by
  induction pairs generalizing acc with
  | nil =>
    unfold nestedLoops
    simp
  | cons e rest ih =>
    obtain ⟨prow, jrow⟩ := e
    obtain ⟨hpl, hjl⟩ := hp (prow, jrow) (List.mem_cons_self _ _)
    have ih2 := ih (fun e he => hp e (List.mem_cons_of_mem _ he))
    have hv2 : ∀ v ∈ lit.vars, 0 ≤ v.variable_id ∧ v.variable_id < (jrow.length : Int) := by
      rw [hjl]
      exact hv
    unfold nestedLoops
    rw [rowMatches_spec false lit jrow prow (fun v hvm => Or.inr (hv2 v hvm)) hpl]
    cases hag : rowAgrees false lit jrow prow with
    | false =>
      dsimp only
      rw [ih2 acc, List.filter_cons]
      simp only [hag, Bool.false_eq_true, if_false]
    | true =>
      dsimp only
      simp only [Bool.false_eq_true, if_false]
      rw [extendRow_spec lit jrow prow hv2 hpl]
      dsimp only
      rw [ih2 (acc ++ [fillRow lit jrow prow]), List.filter_cons]
      simp only [hag, if_true, List.map_cons, List.append_assoc, List.singleton_append]

/-- The nested loops with early return tell whether some pair of rows agrees. -/
theorem nestedLoops_any (cb : Bool) (lit : FoilLiteral) (n : Nat)
    (hv : ∀ v ∈ lit.vars, (cb = true ∧ v.IsBound = false) ∨
      (0 ≤ v.variable_id ∧ v.variable_id < (n : Int)))
    (joined : List (List Int)) (pairs : List (List Int × List Int))
    (hp : ∀ e ∈ pairs, e.1.length ≤ lit.vars.length ∧ e.2.length = n) :
    (nestedLoops cb true lit joined [] pairs).map Prod.fst =
      some (pairs.any (fun e => rowAgrees cb lit e.2 e.1)) := by
  induction pairs with
  | nil =>
    unfold nestedLoops
    simp
  | cons e rest ih =>
    obtain ⟨prow, jrow⟩ := e
    obtain ⟨hpl, hjl⟩ := hp (prow, jrow) (List.mem_cons_self _ _)
    have ih2 := ih (fun e he => hp e (List.mem_cons_of_mem _ he))
    unfold nestedLoops
    rw [rowMatches_spec cb lit jrow prow (fun v hvm => by rw [hjl]; exact hv v hvm) hpl]
    cases hag : rowAgrees cb lit jrow prow with
    | false =>
      dsimp only
      rw [ih2, List.any_cons]
      simp only [hag, Bool.false_or]
    | true =>
      dsimp only
      simp only [if_true, Option.map_some', List.any_cons, hag, Bool.true_or]

theorem mem_rowPairs (rel joined : List (List Int)) (e : List Int × List Int)
    (h : e ∈ rowPairs rel joined) : e.1 ∈ rel ∧ e.2 ∈ joined := by
  unfold rowPairs at h
  simp only [List.mem_flatMap, List.mem_map] at h
  obtain ⟨p, hp, j, hj, rfl⟩ := h
  exact ⟨hp, hj⟩

/-- The template `NestedLoopsJoin<false, false>` leaves the natural join in
`canonical_joined_rel`. -/
theorem nestedLoopsJoin_join (lit : FoilLiteral) (n : Nat)
    (hv : ∀ v ∈ lit.vars, 0 ≤ v.variable_id ∧ v.variable_id < (n : Int))
    (rel : List (List Int)) (hrel : ∀ r ∈ rel, r.length ≤ lit.vars.length)
    (joined : List (List Int)) (hj : ∀ r ∈ joined, r.length = n) :
    (NestedLoopsJoin false false lit rel joined).map Prod.snd =
      some (naturalJoin lit rel joined) := by
  unfold NestedLoopsJoin
  have h := nestedLoops_join lit n hv joined (rowPairs rel joined)
    (fun e he => ⟨hrel _ (mem_rowPairs rel joined e he).1, hj _ (mem_rowPairs rel joined e he).2⟩)
    []
  unfold rowPairs at h
  rw [h]
  simp only [Option.map_some', List.nil_append]
  rfl

/-- The template `NestedLoopsJoin<_, true>` returns whether some pair of rows agrees. -/
theorem nestedLoopsJoin_any (cb : Bool) (lit : FoilLiteral) (n : Nat)
    (hv : ∀ v ∈ lit.vars, (cb = true ∧ v.IsBound = false) ∨
      (0 ≤ v.variable_id ∧ v.variable_id < (n : Int)))
    (rel : List (List Int)) (hrel : ∀ r ∈ rel, r.length ≤ lit.vars.length)
    (joined : List (List Int)) (hj : ∀ r ∈ joined, r.length = n) :
    (NestedLoopsJoin cb true lit rel joined).map Prod.fst =
      some ((rowPairs rel joined).any (fun e => rowAgrees cb lit e.2 e.1)) := by
  unfold NestedLoopsJoin
  exact nestedLoops_any cb lit n hv joined (rowPairs rel joined)
    (fun e he => ⟨hrel _ (mem_rowPairs rel joined e he).1, hj _ (mem_rowPairs rel joined e he).2⟩)

theorem naturalJoin_length (lit : FoilLiteral) (n : Nat) (rel joined : List (List Int))
    (hj : ∀ r ∈ joined, r.length = n) : ∀ r ∈ naturalJoin lit rel joined, r.length = n := by
  intro r hr
  unfold naturalJoin at hr
  simp only [List.mem_map, List.mem_filter] at hr
  obtain ⟨e, ⟨he, _⟩, rfl⟩ := hr
  rw [fillRow_length]
  exact hj _ (mem_rowPairs rel joined e he).2

theorem naturalJoinAll_length (n : Nat) (rel : List (List Int)) (lits : List FoilLiteral) :
    ∀ (joined : List (List Int)), (∀ r ∈ joined, r.length = n) →
      ∀ r ∈ naturalJoinAll lits rel joined, r.length = n := by
  induction lits with
  | nil =>
    intro joined hj
    exact hj
  | cons l rest ih =>
    intro joined hj
    exact ih _ (naturalJoin_length l n rel joined hj)

/-- The successive calls of `NestedLoopsJoin<false, false>` leave the natural join through
the literals. -/
theorem joinAll_join (n : Nat) (lits : List FoilLiteral)
    (hv : ∀ l ∈ lits, ∀ v ∈ l.vars, 0 ≤ v.variable_id ∧ v.variable_id < (n : Int))
    (rel : List (List Int)) (hrel : ∀ l ∈ lits, ∀ r ∈ rel, r.length ≤ l.vars.length)
    (joined : List (List Int)) (hj : ∀ r ∈ joined, r.length = n) :
    joinAll lits rel joined = some (naturalJoinAll lits rel joined) := by
  unfold joinAll
  induction lits generalizing joined with
  | nil => rfl
  | cons l rest ih =>
    rw [List.foldlM_cons, nestedLoopsJoin_join l n (hv l (List.mem_cons_self _ _)) rel
      (hrel l (List.mem_cons_self _ _)) joined hj]
    simp only [Option.bind_eq_bind, Option.some_bind]
    exact ih (fun l2 hl2 => hv l2 (List.mem_cons_of_mem _ hl2))
      (fun l2 hl2 => hrel l2 (List.mem_cons_of_mem _ hl2)) _
      (naturalJoin_length l n rel joined hj)

theorem filter_map_isEmpty {α β : Type} (f : α → Bool) (g : α → β) (l : List α) :
    (!((l.filter f).map g).isEmpty) = l.any f := by
  induction l with
  | nil => rfl
  | cons x rest ih =>
    rw [List.filter_cons, List.any_cons]
    cases hf : f x with
    | false =>
      simp only [Bool.false_eq_true, if_false, Bool.false_or]
      exact ih
    | true => simp

theorem naturalJoinAll_append (lits : List FoilLiteral) (last : FoilLiteral)
    (rel joined : List (List Int)) :
    naturalJoinAll (lits ++ [last]) rel joined =
      naturalJoin last rel (naturalJoinAll lits rel joined) := by
  unfold naturalJoinAll
  rw [List.foldl_append]
  rfl

/-- One iteration of the loop of `CheckReplaceableDuplicate` computes the two tests. -/
theorem checkReplaces_spec (c : FoilClause) (L : FoilLiteral) (db : List (List Int))
    (hdb : ∀ r ∈ db, r.length = c.num_variables)
    (existing : List FoilLiteral) (hne : existing ≠ [])
    (hex : ∀ l ∈ existing, (∀ v ∈ l.vars, 0 ≤ v.variable_id ∧
      v.variable_id < (c.num_variables : Int)) ∧ l.vars.length = L.vars.length)
    (hL : ∀ v ∈ L.vars, v.IsBound = false ∨
      (0 ≤ v.variable_id ∧ v.variable_id < (c.num_variables : Int)))
    (k : Nat) :
    checkReplaces c L db existing k =
      some (candidateMatchesExisting L db existing k &&
        replacedJoinNonEmpty c L db existing k) := by
  have hrw : ∀ r ∈ existing.map existingLiteralRow, r.length = L.vars.length := by
    intro r hr
    obtain ⟨l, hl, rfl⟩ := List.mem_map.mp hr
    simp only [existingLiteralRow, List.length_map]
    exact (hex l hl).2
  have hj := joinAll_join c.num_variables (existing.eraseIdx k)
    (fun l hl => (hex l (List.mem_of_mem_eraseIdx hl)).1) (existing.map existingLiteralRow)
    (fun l hl r hr => by
      rw [hrw r hr, (hex l (List.mem_of_mem_eraseIdx hl)).2]) db hdb
  have hjl := naturalJoinAll_length c.num_variables (existing.map existingLiteralRow)
    (existing.eraseIdx k) db hdb
  have hn := nestedLoopsJoin_any true L c.num_variables
    (fun v hv => by
      rcases hL v hv with h | h
      · exact Or.inl ⟨rfl, h⟩
      · exact Or.inr h) (existing.map existingLiteralRow)
    (fun r hr => le_of_eq (hrw r hr)) _ hjl
  unfold checkReplaces
  dsimp only
  rw [hj]
  dsimp only
  cases hN : NestedLoopsJoin true true L (existing.map existingLiteralRow)
      (naturalJoinAll (existing.eraseIdx k) (existing.map existingLiteralRow) db) with
  | none => rw [hN] at hn; cases hn
  | some res =>
    obtain ⟨b, rows⟩ := res
    rw [hN] at hn
    simp only [Option.map_some', Option.some.injEq] at hn
    have hb : candidateMatchesExisting L db existing k = b := hn.symm
    rw [hb]
    cases b with
    | false => rfl
    | true =>
      dsimp only
      have hrwith : ∀ r ∈ (existing.map existingLiteralRow).eraseIdx k ++
          [newLiteralRow L.vars c.num_variables], r.length = L.vars.length := by
        intro r hr
        rcases List.mem_append.mp hr with h | h
        · exact hrw r (List.mem_of_mem_eraseIdx h)
        · rw [List.mem_singleton.mp h]
          exact newLiteralRow_length _ _
      have hj2 := joinAll_join c.num_variables existing.dropLast
        (fun l hl => (hex l (List.mem_of_mem_dropLast hl)).1) _
        (fun l hl r hr => by
          rw [hrwith r hr, (hex l (List.mem_of_mem_dropLast hl)).2]) db hdb
      have hjl2 := naturalJoinAll_length c.num_variables
        ((existing.map existingLiteralRow).eraseIdx k ++
          [newLiteralRow L.vars c.num_variables]) existing.dropLast db hdb
      rw [hj2]
      dsimp only
      cases hlast : existing.getLast? with
      | none => exact absurd (List.getLast?_eq_none_iff.mp hlast) hne
      | some last =>
        have hlm : last ∈ existing := List.mem_of_getLast?_eq_some hlast
        have hsplit : existing = existing.dropLast ++ [last] := by
          have h1 := List.dropLast_append_getLast? last hlast
          exact h1.symm
        dsimp only
        rw [nestedLoopsJoin_any false last c.num_variables
          (fun v hv => Or.inr ((hex last hlm).1 v hv)) _
          (fun r hr => by rw [hrwith r hr, (hex last hlm).2]) _ hjl2]
        rw [Bool.true_and]
        have haux : ∀ rel, naturalJoinAll existing rel db =
            naturalJoin last rel (naturalJoinAll existing.dropLast rel db) := by
          intro rel
          conv_lhs => rw [hsplit]
          exact naturalJoinAll_append _ _ _ _
        unfold replacedJoinNonEmpty replacedRelation
        rw [haux]
        unfold naturalJoin
        rw [filter_map_isEmpty]

/-- The loop of `CheckReplaceableDuplicate` returns whether the two tests hold at some
index. -/
theorem checkReplacesAny_spec (c : FoilClause) (L : FoilLiteral) (db : List (List Int))
    (hdb : ∀ r ∈ db, r.length = c.num_variables)
    (existing : List FoilLiteral) (hne : existing ≠ [])
    (hex : ∀ l ∈ existing, (∀ v ∈ l.vars, 0 ≤ v.variable_id ∧
      v.variable_id < (c.num_variables : Int)) ∧ l.vars.length = L.vars.length)
    (hL : ∀ v ∈ L.vars, v.IsBound = false ∨
      (0 ≤ v.variable_id ∧ v.variable_id < (c.num_variables : Int)))
    (ks : List Nat) :
    checkReplacesAny c L db existing ks =
      some (ks.any (fun k => candidateMatchesExisting L db existing k &&
        replacedJoinNonEmpty c L db existing k)) := by
  induction ks with
  | nil => rfl
  | cons k rest ih =>
    unfold checkReplacesAny
    rw [checkReplaces_spec c L db hdb existing hne hex hL k, List.any_cons]
    cases candidateMatchesExisting L db existing k &&
        replacedJoinNonEmpty c L db existing k with
    | true => rfl
    | false =>
      dsimp only
      rw [ih, Bool.false_or]

theorem find_map_append (id k : Int) (b : FoilLiteral) (m : List (Int × List FoilLiteral)) :
    ((m.map (fun e => if e.1 = k then (e.1, e.2 ++ [b]) else e)).find?
        (fun e => decide (e.1 = id))).map Prod.snd =
      ((m.find? (fun e => decide (e.1 = id))).map Prod.snd).map
        (fun ls => if id = k then ls ++ [b] else ls) := by
  induction m with
  | nil => rfl
  | cons e rest ih =>
    obtain ⟨key, ls⟩ := e
    rw [List.map_cons, List.find?_cons, List.find?_cons]
    by_cases hk : key = k
    · by_cases hid : key = id
      · subst hk
        subst hid
        simp
      · have hid2 : ¬ k = id := by rw [← hk]; exact hid
        subst hk
        simp only [if_true, hid2, decide_False]
        exact ih
    · by_cases hid : key = id
      · subst hid
        simp [hk]
      · simp only [hk, if_false, hid, decide_False]
        exact ih

theorem find_append_entry (id k : Int) (b : FoilLiteral) (m : List (Int × List FoilLiteral))
    (hany : m.any (fun e => decide (e.1 = k)) = false) :
    ((m ++ [(k, [b])]).find? (fun e => decide (e.1 = id))).map Prod.snd =
      match (m.find? (fun e => decide (e.1 = id))).map Prod.snd with
      | some ls => some ls
      | none => if id = k then some [b] else none := by
  induction m with
  | nil =>
    by_cases h : k = id
    · subst h
      simp
    · have h2 : ¬ id = k := fun hh => h hh.symm
      simp [h, h2]
  | cons e rest ih =>
    obtain ⟨key, ls⟩ := e
    simp only [List.any_cons, Bool.or_eq_false_iff, decide_eq_false_iff_not] at hany
    rw [List.cons_append, List.find?_cons, List.find?_cons]
    by_cases hid : key = id
    · simp [hid]
    · simp only [hid, decide_False]
      exact ih hany.2

/-- The entry of a predicate in `predicate_to_body_literals_map` holds the body literals on
the predicate, in the order of the body. -/
theorem p2b_fold_find (id : Int) (body : List FoilLiteral) :
    ∀ (m0 : List (Int × List FoilLiteral)),
      ((body.foldl (fun m l =>
        if m.any (fun e => decide (e.1 = l.predicate.id)) then
          m.map (fun e => if e.1 = l.predicate.id then (e.1, e.2 ++ [l]) else e)
        else m ++ [(l.predicate.id, [l])]) m0).find?
          (fun e => decide (e.1 = id))).map Prod.snd =
      match (m0.find? (fun e => decide (e.1 = id))).map Prod.snd with
      | some ls => some (ls ++ body.filter (fun l => decide (l.predicate.id = id)))
      | none =>
        if body.filter (fun l => decide (l.predicate.id = id)) = [] then none
        else some (body.filter (fun l => decide (l.predicate.id = id))) := by
  induction body with
  | nil =>
    intro m0
    cases hm : (m0.find? (fun e => decide (e.1 = id))).map Prod.snd with
    | none =>
      simp only [List.filter_nil, if_true, List.foldl_nil]
      exact hm
    | some ls =>
      simp only [List.filter_nil, List.append_nil, List.foldl_nil]
      exact hm
  | cons b rest ih =>
    intro m0
    rw [List.foldl_cons, ih]
    by_cases hany : m0.any (fun e => decide (e.1 = b.predicate.id)) = true
    · rw [if_pos hany, find_map_append]
      cases hfind : (m0.find? (fun e => decide (e.1 = id))).map Prod.snd with
      | none => 
        have hne : ¬ b.predicate.id = id := by
          intro hb
          rw [List.any_eq_true] at hany
          obtain ⟨e, he, hk⟩ := hany
          have hk2 : e.1 = id := by
            rw [← hb]
            simpa using hk
          have hsome : (m0.find? (fun e => decide (e.1 = id))).isSome = true := by
            rw [List.find?_isSome]
            exact ⟨e, he, by simpa using hk2⟩
          cases hf : m0.find? (fun e => decide (e.1 = id)) with
          | none => rw [hf] at hsome; cases hsome
          | some x => rw [hf] at hfind; cases hfind
        simp only [Option.map_none', List.filter_cons, hne, decide_False, Bool.false_eq_true,
          if_false]
      | some ls =>
        simp only [Option.map_some']
        by_cases hb : b.predicate.id = id
        · simp [hb, List.filter_cons]
        · have hb2 : ¬ id = b.predicate.id := fun hh => hb hh.symm
          simp [hb, hb2, List.filter_cons]
    · have hany2 : m0.any (fun e => decide (e.1 = b.predicate.id)) = false :=
        Bool.eq_false_iff.mpr hany
      rw [if_neg hany, find_append_entry id b.predicate.id b m0 hany2]
      cases hfind : (m0.find? (fun e => decide (e.1 = id))).map Prod.snd with
      | none =>
        by_cases hb : b.predicate.id = id
        · simp [hb, List.filter_cons]
        · have hb2 : ¬ id = b.predicate.id := fun hh => hb hh.symm
          simp [hb, hb2, List.filter_cons]
      | some ls =>
        have hne : ¬ b.predicate.id = id := by
          intro hb
          cases hf : m0.find? (fun e => decide (e.1 = id)) with
          | none => rw [hf] at hfind; cases hfind
          | some x =>
            have hx := List.find?_some hf
            have hxm := List.mem_of_find?_eq_some hf
            rw [List.any_eq_false] at hany2
            have := hany2 x hxm
            simp only [decide_eq_true_eq] at hx this
            exact this (by rw [hx, hb])
        simp only [List.filter_cons, hne, decide_False, Bool.false_eq_true, if_false]

theorem p2b_find (body : List FoilLiteral) (id : Int)
    (hne : body.filter (fun l => decide (l.predicate.id = id)) ≠ []) :
    ∃ key, (predicate_to_body_literals_map body).find? (fun e => decide (e.1 = id)) =
      some (key, body.filter (fun l => decide (l.predicate.id = id))) := by
  have h := p2b_fold_find id body []
  simp only [List.find?_nil, Option.map_none', hne, if_false] at h
  unfold predicate_to_body_literals_map
  cases hf : (body.foldl (fun m l =>
        if m.any (fun e => decide (e.1 = l.predicate.id)) then
          m.map (fun e => if e.1 = l.predicate.id then (e.1, e.2 ++ [l]) else e)
        else m ++ [(l.predicate.id, [l])]) []).find? (fun e => decide (e.1 = id)) with
  | none => rw [hf] at h; cases h
  | some x =>
    rw [hf] at h
    simp only [Option.map_some', Option.some.injEq] at h
    exact ⟨x.1, by rw [← h]⟩

/-- C32 (counterexample): on the clause `p_5(0,1) :- p_5(0,2), p_5(2,1), p_5(0,3)` of the
enumerator test and the candidate `p_5(1,2)`, the canonical database without `p_5` is the
row `[0, 1, -1, -1]` of the head, and its join with the relation made of `p_5(0,2)`,
`p_5(2,1)` and the candidate in place of `p_5(0,3)`, through the body literals on `p_5`,
is the row `[0, 1, 2, 2]`, so it is not empty (the join through the literals of the
replaced clause, `p_5(0,2)`, `p_5(2,1)` and the candidate, is the row `[0, 1, 2, -1]`); yet
`CheckReplaceableDuplicate` returns false. -/
theorem checkReplaceableDuplicate_join_counterexample :
    FoilClause.CreateClause (FoilClause.CreateLiteral testPredicate5 [0, 1]) testBody5 =
      some replaceTestClause ∧
    replaceTestClause.body_literals.filter
      (fun l => decide (l.predicate.id = replaceTestLiteral.predicate.id)) = testBody5 ∧
    CreateCanonicalDatabase replaceTestClause replaceTestLiteral.predicate
      (predicate_to_body_literals_map replaceTestClause.body_literals) =
      some [[0, 1, -1, -1]] ∧
    naturalJoinAll testBody5
      (replacedRelation replaceTestClause replaceTestLiteral testBody5 2) [[0, 1, -1, -1]] =
      [[0, 1, 2, 2]] ∧
    replacedJoinNonEmpty replaceTestClause replaceTestLiteral [[0, 1, -1, -1]] testBody5 2 =
      true ∧
    naturalJoinAll (testBody5.eraseIdx 2 ++ [replaceTestLiteral])
      (replacedRelation replaceTestClause replaceTestLiteral testBody5 2) [[0, 1, -1, -1]] =
      [[0, 1, 2, -1]] ∧
    CheckReplaceableDuplicate replaceTestClause replaceTestLiteral
      (predicate_to_body_literals_map replaceTestClause.body_literals) = some false := by
  refine ⟨?_, ?_, ?_, ?_, ?_, ?_, ?_⟩ <;> decide

/-- C32 (amended): for a clause and a candidate literal with variable ids below
`num_variables` and the arities of their predicates, the candidate on a predicate of the
body, `CreateCanonicalDatabase` gives a database `db` and `CheckReplaceableDuplicate`
returns, and it returns true exactly when for some index `k` of a body literal on the
predicate both tests hold: some row of the join of `db` through the other body literals on
the predicate agrees with a row of their relation on the bound arguments of the candidate
(`candidateMatchesExisting`), and the join of `db` with the relation holding the candidate
in place of the literal `k`, through all the body literals on the predicate, is not empty
(`replacedJoinNonEmpty`). -/
theorem checkReplaceableDuplicate_two_joins (c : FoilClause) (ar : Int → Nat)
    (hha : c.head_literal.vars.length = ar c.head_literal.predicate.id)
    (hhv : ∀ v ∈ c.head_literal.vars, 0 ≤ v.variable_id ∧
      v.variable_id < (c.num_variables : Int))
    (hbody : ∀ l ∈ c.body_literals, (∀ v ∈ l.vars, 0 ≤ v.variable_id ∧
      v.variable_id < (c.num_variables : Int)) ∧ l.vars.length = ar l.predicate.id)
    (L : FoilLiteral) (hLa : L.vars.length = ar L.predicate.id)
    (hL : ∀ v ∈ L.vars, v.IsBound = false ∨
      (0 ≤ v.variable_id ∧ v.variable_id < (c.num_variables : Int)))
    (hP : c.body_literals.filter (fun l => decide (l.predicate.id = L.predicate.id)) ≠ []) :
    ∃ db d,
      CreateCanonicalDatabase c L.predicate (predicate_to_body_literals_map c.body_literals) =
        some db ∧
      CheckReplaceableDuplicate c L (predicate_to_body_literals_map c.body_literals) =
        some d ∧
      (d = true ↔ ∃ k,
        k < (c.body_literals.filter
          (fun l => decide (l.predicate.id = L.predicate.id))).length ∧
        candidateMatchesExisting L db
          (c.body_literals.filter (fun l => decide (l.predicate.id = L.predicate.id))) k =
          true ∧
        replacedJoinNonEmpty c L db
          (c.body_literals.filter (fun l => decide (l.predicate.id = L.predicate.id))) k =
          true) := by
  have hp : ∀ e ∈ predicate_to_body_literals_map c.body_literals,
      e.2 ≠ [] ∧ ∀ l ∈ e.2, (∀ v ∈ l.vars, 0 ≤ v.variable_id ∧
        v.variable_id < (c.num_variables : Int)) ∧ l.vars.length = ar e.1 := by
    intro e he
    obtain ⟨h1, h2⟩ := p2b_facts c.body_literals e he
    refine ⟨h1, fun l hl => ?_⟩
    obtain ⟨hlb, hlid⟩ := h2 l hl
    exact ⟨(hbody l hlb).1, by rw [(hbody l hlb).2, hlid]⟩
  obtain ⟨key, hfind⟩ := p2b_find c.body_literals L.predicate.id hP
  obtain ⟨db, hdb, hdbl⟩ := createCanonicalDatabase_total c ar L.predicate hha hhv _ hp
  have hex : ∀ l ∈ c.body_literals.filter (fun l => decide (l.predicate.id = L.predicate.id)),
      (∀ v ∈ l.vars, 0 ≤ v.variable_id ∧ v.variable_id < (c.num_variables : Int)) ∧
      l.vars.length = L.vars.length := by
    intro l hl
    rw [List.mem_filter] at hl
    have hid : l.predicate.id = L.predicate.id := by simpa using hl.2
    exact ⟨(hbody l hl.1).1, by rw [(hbody l hl.1).2, hid, hLa]⟩
  refine ⟨db, (List.range (c.body_literals.filter
      (fun l => decide (l.predicate.id = L.predicate.id))).length).any
      (fun k => candidateMatchesExisting L db
          (c.body_literals.filter (fun l => decide (l.predicate.id = L.predicate.id))) k &&
        replacedJoinNonEmpty c L db
          (c.body_literals.filter (fun l => decide (l.predicate.id = L.predicate.id))) k),
    hdb, ?_, ?_⟩
  · unfold CheckReplaceableDuplicate
    rw [hfind]
    dsimp only
    have hie : (c.body_literals.filter
        (fun l => decide (l.predicate.id = L.predicate.id))).isEmpty = false := by
      cases hfl : c.body_literals.filter
          (fun l => decide (l.predicate.id = L.predicate.id)) with
      | nil => exact absurd hfl hP
      | cons _ _ => rfl
    rw [hie, hdb]
    simp only [Bool.false_eq_true, if_false]
    exact checkReplacesAny_spec c L db hdbl _ hP hex hL _
  · rw [List.any_eq_true]
    constructor
    · rintro ⟨k, hk, hand⟩
      rw [Bool.and_eq_true] at hand
      exact ⟨k, List.mem_range.mp hk, hand.1, hand.2⟩
    · rintro ⟨k, hk, h1, h2⟩
      exact ⟨k, List.mem_range.mpr hk, by rw [h1, h2]; rfl⟩

/-- The statement of `checkReplaceableDuplicate_two_joins` on the clause
`p_5(0,1) :- p_5(0,2), p_5(2,1), p_5(0,3)` and the candidate `p_5(1,2)`. -/
theorem checkReplaceableDuplicate_two_joins_witness :
    ∃ db d,
      CreateCanonicalDatabase replaceTestClause replaceTestLiteral.predicate
        (predicate_to_body_literals_map replaceTestClause.body_literals) = some db ∧
      CheckReplaceableDuplicate replaceTestClause replaceTestLiteral
        (predicate_to_body_literals_map replaceTestClause.body_literals) = some d ∧
      (d = true ↔ ∃ k,
        k < (replaceTestClause.body_literals.filter
          (fun l => decide (l.predicate.id = replaceTestLiteral.predicate.id))).length ∧
        candidateMatchesExisting replaceTestLiteral db
          (replaceTestClause.body_literals.filter
            (fun l => decide (l.predicate.id = replaceTestLiteral.predicate.id))) k = true ∧
        replacedJoinNonEmpty replaceTestClause replaceTestLiteral db
          (replaceTestClause.body_literals.filter
            (fun l => decide (l.predicate.id = replaceTestLiteral.predicate.id))) k = true) :=
  checkReplaceableDuplicate_two_joins replaceTestClause (fun _ => 2) (by decide) (by decide)
    (by decide) replaceTestLiteral (by decide) (by decide) (by decide)

/-! ## The radix partitioning -/

theorem partitionOf_append (hash : Int → Nat) (mask : Nat) (pre rest : List Int) (p : Nat) :
    partitionOf hash mask (pre ++ rest) p =
      partitionOf hash mask pre p ++
        ((rest.enumFrom pre.length).filter (fun e => decide (hash e.2 &&& mask = p))).map
          (fun e => ⟨e.2, e.1⟩) := by
  unfold partitionOf
  rw [List.enum_append, List.filter_append, List.map_append]

theorem partitionOf_snoc (hash : Int → Nat) (mask : Nat) (pre : List Int) (v : Int) (p : Nat) :
    partitionOf hash mask (pre ++ [v]) p =
      partitionOf hash mask pre p ++
        (if hash v &&& mask = p then [⟨v, pre.length⟩] else []) := by
  rw [partitionOf_append]
  congr 1
  by_cases h : hash v &&& mask = p
  · rw [if_pos h]
    simp [List.enumFrom, h]
  · rw [if_neg h]
    simp [List.enumFrom, h]

theorem partitionOf_length_le (hash : Int → Nat) (mask : Nat) (pre rest : List Int) (p : Nat) :
    (partitionOf hash mask pre p).length ≤ (partitionOf hash mask (pre ++ rest) p).length := by
  rw [partitionOf_append, List.length_append]
  omega

theorem partitionOf_length (hash : Int → Nat) (mask : Nat) (values : List Int) (p : Nat) :
    (partitionOf hash mask values p).length =
      (values.filter (fun v => decide (hash v &&& mask = p))).length := by
  unfold partitionOf
  rw [List.length_map]
  have h : (values.enum.filter (fun e => decide (hash e.2 &&& mask = p))).map Prod.snd =
      (values.enum.map Prod.snd).filter (fun v => decide (hash v &&& mask = p)) := by
    rw [List.filter_map]
    rfl
  rw [List.enum_map_snd] at h
  rw [← h, List.length_map]

theorem buildHistogram_fold (hash : Int → Nat) (mask : Nat) (values : List Int) :
    ∀ (histogram : Nat → Nat) (p : Nat),
      values.foldl (fun histogram v =>
        Function.update histogram (hash v &&& mask) (histogram (hash v &&& mask) + 1))
        histogram p =
      histogram p + (values.filter (fun v => decide (hash v &&& mask = p))).length := by
  induction values with
  | nil =>
    intro histogram p
    rfl
  | cons v rest ih =>
    intro histogram p
    rw [List.foldl_cons, ih, List.filter_cons]
    by_cases h : hash v &&& mask = p
    · subst h
      simp only [Function.update_same, decide_True, if_true, List.length_cons]
      omega
    · rw [Function.update_noteq (fun hh => h hh.symm)]
      simp only [h, decide_False, Bool.false_eq_true, if_false]

/-- The histogram counts the tuples of every partition. -/
theorem buildHistogram_eq (hash : Int → Nat) (mask : Nat) (values : List Int) (p : Nat) :
    buildHistogram hash mask values p = (partitionOf hash mask values p).length := by
  unfold buildHistogram
  rw [buildHistogram_fold, partitionOf_length]
  omega

theorem partitionOffset_mono (histogram : Nat → Nat) (p : Nat) :
    ∀ d, partitionOffset histogram p ≤ partitionOffset histogram (p + d) := by
  intro d
  induction d with
  | zero => exact le_refl _
  | succ d ih =>
    show _ ≤ partitionOffset histogram (p + d) + histogram (p + d)
    omega

theorem partitionOffset_le (histogram : Nat → Nat) (p q : Nat) (h : p ≤ q) :
    partitionOffset histogram p ≤ partitionOffset histogram q := by
  have := partitionOffset_mono histogram p (q - p)
  rw [Nat.add_sub_cancel' h] at this
  exact this

theorem partitionOffset_succ_le (histogram : Nat → Nat) (p q : Nat) (h : p < q) :
    partitionOffset histogram p + histogram p ≤ partitionOffset histogram q :=
  partitionOffset_le histogram (p + 1) q h

theorem filter_key_succ (key : Int → Nat) (values : List Int) (p : Nat) :
    (values.filter (fun v => decide (key v < p + 1))).length =
      (values.filter (fun v => decide (key v < p))).length +
        (values.filter (fun v => decide (key v = p))).length := by
  induction values with
  | nil => rfl
  | cons v rest ih =>
    rw [List.filter_cons, List.filter_cons, List.filter_cons]
    by_cases h1 : key v < p
    · have h2 : key v < p + 1 := by omega
      have h3 : ¬ key v = p := by omega
      rw [decide_eq_true h1, decide_eq_true h2, decide_eq_false h3]
      simp only [if_true, Bool.false_eq_true, if_false, List.length_cons]
      omega
    · by_cases h3 : key v = p
      · have h2 : key v < p + 1 := by omega
        rw [decide_eq_false h1, decide_eq_true h2, decide_eq_true h3]
        simp only [if_true, Bool.false_eq_true, if_false, List.length_cons]
        omega
      · have h2 : ¬ key v < p + 1 := by omega
        rw [decide_eq_false h1, decide_eq_false h2, decide_eq_false h3]
        simp only [Bool.false_eq_true, if_false]
        exact ih

/-- The offset of a partition is the number of the tuples of the partitions before. -/
theorem partitionOffset_eq (hash : Int → Nat) (mask : Nat) (values : List Int) (p : Nat) :
    partitionOffset (buildHistogram hash mask values) p =
      (values.filter (fun v => decide (hash v &&& mask < p))).length := by
  induction p with
  | zero => simp [partitionOffset]
  | succ p ih =>
    show partitionOffset _ p + buildHistogram hash mask values p = _
    rw [ih, buildHistogram_eq, partitionOf_length,
      filter_key_succ (fun v => hash v &&& mask) values p]

theorem partitionOffset_fit (hash : Int → Nat) (mask : Nat) (values : List Int) (p : Nat) :
    partitionOffset (buildHistogram hash mask values) p + buildHistogram hash mask values p ≤
      values.length := by
  have h : partitionOffset (buildHistogram hash mask values) (p + 1) ≤ values.length := by
    rw [partitionOffset_eq]
    exact List.length_filter_le _ _
  exact h

theorem memcpyCells_spec (output : List TupleCell) (pos : Nat) (cells : List TupleCell)
    (h : pos + cells.length ≤ output.length) :
    ∃ out, memcpyCells output pos cells = some out ∧ out.length = output.length ∧
      (∀ (a : Nat), a < pos ∨ pos + cells.length ≤ a → out[a]? = output[a]?) ∧
      (∀ (j : Nat), j < cells.length → out[pos + j]? = cells[j]?) := by
  unfold memcpyCells
  by_cases he : cells.isEmpty = true
  · rw [if_pos he]
    refine ⟨output, rfl, rfl, fun _ _ => rfl, ?_⟩
    intro j hj
    have : cells = [] := List.isEmpty_iff.mp he
    rw [this] at hj
    cases hj
  · rw [if_neg he, if_pos h]
    refine ⟨_, rfl, ?_, ?_, ?_⟩
    · simp only [List.length_append, List.length_take, List.length_drop]
      omega
    · intro a ha
      rcases ha with ha | ha
      · rw [List.append_assoc, List.getElem?_append_left (by
          rw [List.length_take]; omega), List.getElem?_take_of_lt ha]
      · rw [List.getElem?_append_right (by
          simp only [List.length_append, List.length_take]; omega)]
        simp only [List.length_append, List.length_take, List.getElem?_drop]
        congr 1
        omega
    · intro j hj
      rw [List.append_assoc,
        List.getElem?_append_right (by rw [List.length_take]; omega)]
      rw [List.length_take, Nat.min_eq_left (by omega), Nat.add_sub_cancel_left,
        List.getElem?_append_left hj]

theorem partitionOf_snoc_ne (hash : Int → Nat) (mask : Nat) (pre : List Int) (v : Int) (p : Nat)
    (h : ¬ hash v &&& mask = p) :
    partitionOf hash mask (pre ++ [v]) p = partitionOf hash mask pre p := by
  rw [partitionOf_snoc, if_neg h, List.append_nil]

theorem partitionOf_snoc_self (hash : Int → Nat) (mask : Nat) (pre : List Int) (v : Int) :
    partitionOf hash mask (pre ++ [v]) (hash v &&& mask) =
      partitionOf hash mask pre (hash v &&& mask) ++ [⟨v, pre.length⟩] := by
  rw [partitionOf_snoc, if_pos rfl]

theorem lines_fit (cap size ts x : Nat) (hsize : cap ∣ size) (hlt : ts * cap + x < size) :
    ts * cap + cap ≤ size := by
  obtain ⟨m, hm⟩ := hsize
  have h1 : ts < m := by
    by_contra hn
    have h2 : m ≤ ts := by omega
    have h3 := Nat.mul_le_mul_right cap h2
    rw [Nat.mul_comm m cap] at h3
    omega
  have h4 := Nat.mul_le_mul_right cap (Nat.succ_le_of_lt h1)
  rw [Nat.succ_mul, Nat.mul_comm m cap] at h4
  omega

theorem next_line_le (cap a b : Nat) (h : a * cap < b * cap) : a * cap + cap ≤ b * cap := by
  have h1 : a < b := Nat.lt_of_mul_lt_mul_right h
  have h2 := Nat.mul_le_mul_right cap (Nat.succ_le_of_lt h1)
  rw [Nat.succ_mul] at h2
  exact h2

/-- The body of the loop over the tuples keeps the state `PartitionProgress`. -/
theorem partitionTuple_progress (cap : Nat) (hash : Int → Nat) (mask : Nat)
    (histogram : Nat → Nat) (size : Nat) (pre : List Int) (v : Int) (st : PartitionerState)
    (hcap : 0 < cap) (hsize : cap ∣ size)
    (hfit : ∀ p, partitionOffset histogram p + histogram p ≤ size)
    (hcount : ∀ p, (partitionOf hash mask (pre ++ [v]) p).length ≤ histogram p)
    (hinv : PartitionProgress cap hash mask histogram size pre st) :
    ∃ st1, partitionTuple cap hash mask st (pre.length, v) = some st1 ∧
      PartitionProgress cap hash mask histogram size (pre ++ [v]) st1 := by
  have hslot := hinv.slots (hash v &&& mask)
  have hlt := hinv.slot_lt (hash v &&& mask)
  have hlen := hinv.line_length (hash v &&& mask)
  have hc0 := hcount (hash v &&& mask)
  rw [partitionOf_snoc_self, List.length_append, List.length_singleton] at hc0
  have hf0 := hfit (hash v &&& mask)
  have hother : ∀ p, ¬ hash v &&& mask = p →
      (partitionOf hash mask pre p).length ≤ histogram p := by
    intro p hp
    have := hcount p
    rw [partitionOf_snoc_ne hash mask pre v p hp] at this
    exact this
  unfold partitionTuple
  dsimp only
  by_cases hbs : (st.write_buffer (hash v &&& mask)).buffer_slot = cap - 1
  · rw [if_pos hbs]
    obtain ⟨out, hout, holen, hkeep, hcopy⟩ := memcpyCells_spec st.output
      ((st.write_buffer (hash v &&& mask)).tuple_slot * cap)
      ((st.write_buffer (hash v &&& mask)).tuples.set
        (st.write_buffer (hash v &&& mask)).buffer_slot (some ⟨v, pre.length⟩))
      (by
        rw [List.length_set, hlen, hinv.size_eq]
        exact lines_fit cap size _ (st.write_buffer (hash v &&& mask)).buffer_slot hsize
          (by omega))
    rw [hout]
    refine ⟨_, rfl, ?_⟩
    rw [List.length_set, hlen] at hcopy hkeep
    refine ⟨holen.trans hinv.size_eq, ?_, ?_, ?_, ?_, ?_⟩
    · intro p
      dsimp only
      by_cases hp : hash v &&& mask = p
      · subst hp
        rw [Function.update_same, partitionOf_snoc_self, List.length_append,
          List.length_singleton]
        dsimp only
        rw [Nat.succ_mul]
        omega
      · rw [Function.update_noteq (fun hh => hp hh.symm), partitionOf_snoc_ne _ _ _ _ _ hp]
        exact hinv.slots p
    · intro p
      dsimp only
      by_cases hp : hash v &&& mask = p
      · subst hp
        rw [Function.update_same]
        exact hcap
      · rw [Function.update_noteq (fun hh => hp hh.symm)]
        exact hinv.slot_lt p
    · intro p
      dsimp only
      by_cases hp : hash v &&& mask = p
      · subst hp
        rw [Function.update_same]
        dsimp only
        rw [List.length_set, List.length_set]
        exact hlen
      · rw [Function.update_noteq (fun hh => hp hh.symm)]
        exact hinv.line_length p
    · intro p j hj hoff
      dsimp only at hj hoff ⊢
      by_cases hp : hash v &&& mask = p
      · subst hp
        rw [Function.update_same] at hj
        cases hj
      · rw [Function.update_noteq (fun hh => hp hh.symm)] at hj hoff ⊢
        rw [partitionOf_snoc_ne _ _ _ _ _ hp]
        exact hinv.pending p j hj hoff
    · intro p a hoff ha
      dsimp only at ha ⊢
      by_cases hp : hash v &&& mask = p
      · subst hp
        rw [Function.update_same] at ha
        dsimp only at ha
        rw [Nat.succ_mul] at ha
        rw [partitionOf_snoc_self]
        by_cases hal : a < (st.write_buffer (hash v &&& mask)).tuple_slot * cap
        · rw [hkeep a (Or.inl hal), hinv.written _ a hoff hal,
            List.getElem?_append_left (by omega)]
        · obtain ⟨j, rfl⟩ : ∃ j, a = (st.write_buffer (hash v &&& mask)).tuple_slot * cap + j :=
            ⟨a - (st.write_buffer (hash v &&& mask)).tuple_slot * cap, by omega⟩
          have hj : j < cap := by omega
          rw [hcopy j hj]
          by_cases hjb : j = (st.write_buffer (hash v &&& mask)).buffer_slot
          · subst hjb
            rw [List.getElem?_set_self (by rw [hlen]; exact hj),
              List.getElem?_append_right (by omega)]
            have : (st.write_buffer (hash v &&& mask)).tuple_slot * cap +
                (st.write_buffer (hash v &&& mask)).buffer_slot -
                partitionOffset histogram (hash v &&& mask) -
                (partitionOf hash mask pre (hash v &&& mask)).length = 0 := by omega
            rw [this]
            rfl
          · rw [List.getElem?_set_ne (fun hh => hjb hh.symm),
              hinv.pending _ j (by omega) hoff, List.getElem?_append_left (by omega)]
      · rw [Function.update_noteq (fun hh => hp hh.symm)] at ha
        rw [partitionOf_snoc_ne _ _ _ _ _ hp]
        have hsp := hinv.slots p
        have hcp := hother p hp
        rw [hkeep a (by
          by_contra hcon
          have h1 : (st.write_buffer (hash v &&& mask)).tuple_slot * cap ≤ a := by omega
          have h2 : a < (st.write_buffer (hash v &&& mask)).tuple_slot * cap + cap := by omega
          rcases Nat.lt_or_gt_of_ne hp with hlt2 | hgt2
          · have h3 := partitionOffset_succ_le histogram _ _ hlt2
            omega
          · have h3 := partitionOffset_succ_le histogram _ _ hgt2
            have h4 := next_line_le cap _ _ (lt_of_le_of_lt h1 ha)
            omega)]
        exact hinv.written p a hoff ha
  · rw [if_neg hbs, if_pos (by omega)]
    refine ⟨_, rfl, ?_⟩
    refine ⟨hinv.size_eq, ?_, ?_, ?_, ?_, ?_⟩
    · intro p
      dsimp only
      by_cases hp : hash v &&& mask = p
      · subst hp
        rw [Function.update_same, partitionOf_snoc_self, List.length_append,
          List.length_singleton]
        dsimp only
        omega
      · rw [Function.update_noteq (fun hh => hp hh.symm), partitionOf_snoc_ne _ _ _ _ _ hp]
        exact hinv.slots p
    · intro p
      dsimp only
      by_cases hp : hash v &&& mask = p
      · subst hp
        rw [Function.update_same]
        dsimp only
        omega
      · rw [Function.update_noteq (fun hh => hp hh.symm)]
        exact hinv.slot_lt p
    · intro p
      dsimp only
      by_cases hp : hash v &&& mask = p
      · subst hp
        rw [Function.update_same]
        dsimp only
        rw [List.length_set]
        exact hlen
      · rw [Function.update_noteq (fun hh => hp hh.symm)]
        exact hinv.line_length p
    · intro p j hj hoff
      dsimp only at hj hoff ⊢
      by_cases hp : hash v &&& mask = p
      · subst hp
        rw [Function.update_same] at hj hoff ⊢
        dsimp only at hj hoff ⊢
        rw [partitionOf_snoc_self]
        by_cases hjb : j = (st.write_buffer (hash v &&& mask)).buffer_slot
        · subst hjb
          rw [List.getElem?_set_self (by rw [hlen]; omega),
            List.getElem?_append_right (by omega)]
          have : (st.write_buffer (hash v &&& mask)).tuple_slot * cap +
              (st.write_buffer (hash v &&& mask)).buffer_slot -
              partitionOffset histogram (hash v &&& mask) -
              (partitionOf hash mask pre (hash v &&& mask)).length = 0 := by omega
          rw [this]
          rfl
        · rw [List.getElem?_set_ne (fun hh => hjb hh.symm),
            hinv.pending _ j (by omega) hoff, List.getElem?_append_left (by omega)]
      · rw [Function.update_noteq (fun hh => hp hh.symm)] at hj hoff ⊢
        rw [partitionOf_snoc_ne _ _ _ _ _ hp]
        exact hinv.pending p j hj hoff
    · intro p a hoff ha
      dsimp only at ha ⊢
      by_cases hp : hash v &&& mask = p
      · subst hp
        rw [Function.update_same] at ha
        dsimp only at ha
        rw [partitionOf_snoc_self, hinv.written _ a hoff ha,
          List.getElem?_append_left (by omega)]
      · rw [Function.update_noteq (fun hh => hp hh.symm)] at ha
        rw [partitionOf_snoc_ne _ _ _ _ _ hp]
        exact hinv.written p a hoff ha

/-- The state before the loop over the tuples is `PartitionProgress` for no value. -/
theorem partition_start (cap : Nat) (hash : Int → Nat) (mask : Nat) (histogram : Nat → Nat)
    (lines : Nat) (hcap : 0 < cap) :
    PartitionProgress cap hash mask histogram (lines * cap) []
      ⟨fun i => ⟨List.replicate cap none, partitionOffset histogram i / cap,
          partitionOffset histogram i % cap⟩,
        List.replicate (lines * cap) none⟩ := by
  refine ⟨by simp, ?_, ?_, ?_, ?_, ?_⟩
  · intro p
    dsimp only
    have := Nat.div_add_mod' (partitionOffset histogram p) cap
    simp only [partitionOf, List.enum_nil, List.filter_nil, List.map_nil, List.length_nil]
    omega
  · intro p
    exact Nat.mod_lt _ hcap
  · intro p
    simp
  · intro p j hj hoff
    dsimp only at hj hoff
    have := Nat.div_add_mod' (partitionOffset histogram p) cap
    omega
  · intro p a hoff ha
    dsimp only at ha
    have := Nat.div_add_mod' (partitionOffset histogram p) cap
    omega

/-- The loop over the tuples reaches the state `PartitionProgress` for all the values. -/
theorem partitionTuples_progress (cap : Nat) (hash : Int → Nat) (mask : Nat)
    (histogram : Nat → Nat) (size : Nat) (values : List Int)
    (hcap : 0 < cap) (hsize : cap ∣ size)
    (hfit : ∀ p, partitionOffset histogram p + histogram p ≤ size)
    (hhist : ∀ p, histogram p = (partitionOf hash mask values p).length) :
    ∀ (rest pre : List Int) (st : PartitionerState), pre ++ rest = values →
      PartitionProgress cap hash mask histogram size pre st →
      ∃ st1, (rest.enumFrom pre.length).foldlM (partitionTuple cap hash mask) st = some st1 ∧
        PartitionProgress cap hash mask histogram size values st1 := by
  intro rest
  induction rest with
  | nil =>
    intro pre st hv hinv
    rw [List.append_nil] at hv
    subst hv
    exact ⟨st, rfl, hinv⟩
  | cons v rest ih =>
    intro pre st hv hinv
    have hv2 : (pre ++ [v]) ++ rest = values := by
      rw [List.append_assoc]
      exact hv
    obtain ⟨st1, hstep, hinv1⟩ := partitionTuple_progress cap hash mask histogram size pre v st
      hcap hsize hfit (by
        intro p
        rw [hhist p, ← hv2]
        exact partitionOf_length_le hash mask (pre ++ [v]) rest p) hinv
    obtain ⟨st2, hfold, hinv2⟩ := ih (pre ++ [v]) st1 hv2 hinv1
    refine ⟨st2, ?_, hinv2⟩
    rw [List.enumFrom_cons, List.foldlM_cons, hstep]
    rw [List.length_append, List.length_singleton] at hfold
    exact hfold

theorem tuple_slot_ge (cap off ts bs cnt : Nat) (hcap : 0 < cap) (hbs : bs < cap)
    (h : ts * cap + bs = off + cnt) : off / cap ≤ ts := by
  by_contra hn
  have h1 : ts + 1 ≤ off / cap := by omega
  have h2 := (Nat.le_div_iff_mul_le hcap).mp h1
  rw [Nat.succ_mul] at h2
  omega

theorem tuple_slot_gt (cap off ts : Nat) (hcap : 0 < cap) (h : off / cap < ts) :
    off < ts * cap :=
  (Nat.div_lt_iff_lt_mul hcap).mp h

/-- The body of the loop that writes what is left in the buffers keeps the state
`FlushProgress`. -/
theorem flushPartition_progress (cap : Nat) (hash : Int → Nat) (mask : Nat)
    (histogram : Nat → Nat) (size : Nat) (values : List Int) (st : PartitionerState)
    (k : Nat) (output : List TupleCell) (hcap : 0 < cap)
    (hfit : ∀ p, partitionOffset histogram p + histogram p ≤ size)
    (hhist : ∀ p, histogram p = (partitionOf hash mask values p).length)
    (hprog : PartitionProgress cap hash mask histogram size values st)
    (hinv : FlushProgress cap hash mask histogram size values st.write_buffer k output) :
    ∃ out, flushPartition cap histogram st.write_buffer output k = some out ∧
      FlushProgress cap hash mask histogram size values st.write_buffer (k + 1) out := by
  have hslot := hprog.slots k
  rw [← hhist k] at hslot
  have hlt := hprog.slot_lt k
  have hlen := hprog.line_length k
  have hf := hfit k
  have hge := tuple_slot_ge cap _ _ _ _ hcap hlt hslot
  have hdm := Nat.div_add_mod' (partitionOffset histogram k) cap
  have hbelow : ∀ p, p < k → (st.write_buffer p).tuple_slot * cap ≤
      partitionOffset histogram k ∧
      partitionOffset histogram p + histogram p ≤ partitionOffset histogram k := by
    intro p hp
    have h1 := hprog.slots p
    rw [← hhist p] at h1
    have h2 := partitionOffset_succ_le histogram p k hp
    omega
  have habove : ∀ p, k < p →
      partitionOffset histogram k + histogram k ≤ partitionOffset histogram p :=
    fun p hp => partitionOffset_succ_le histogram k p hp
  unfold flushPartition
  dsimp only
  by_cases hts : partitionOffset histogram k / cap ≠ (st.write_buffer k).tuple_slot
  · rw [if_pos hts]
    have hoff : partitionOffset histogram k < (st.write_buffer k).tuple_slot * cap :=
      tuple_slot_gt cap _ _ hcap (by omega)
    have hclen : ((st.write_buffer k).tuples.take (st.write_buffer k).buffer_slot).length =
        (st.write_buffer k).buffer_slot := by
      rw [List.length_take, hlen]
      omega
    obtain ⟨out, hout, holen, hkeep, hcopy⟩ := memcpyCells_spec output
      ((st.write_buffer k).tuple_slot * cap)
      ((st.write_buffer k).tuples.take (st.write_buffer k).buffer_slot)
      (by rw [hclen, hinv.size_eq]; omega)
    rw [hclen] at hkeep hcopy
    refine ⟨out, hout, holen.trans hinv.size_eq, ?_, ?_⟩
    · intro p a hp hoffp ha
      by_cases hpk : p = k
      · subst hpk
        by_cases hal : a < (st.write_buffer p).tuple_slot * cap
        · rw [hkeep a (Or.inl hal)]
          exact hinv.written p a hoffp hal
        · obtain ⟨j, rfl⟩ : ∃ j, a = (st.write_buffer p).tuple_slot * cap + j :=
            ⟨a - (st.write_buffer p).tuple_slot * cap, by omega⟩
          have hj : j < (st.write_buffer p).buffer_slot := by omega
          rw [hcopy j hj, List.getElem?_take_of_lt hj]
          exact hprog.pending p j hj hoffp
      · have hp2 : p < k := by omega
        rw [hkeep a (Or.inl (by have := hbelow p hp2; omega))]
        exact hinv.flushed p a hp2 hoffp ha
    · intro p a hoffp ha
      rw [hkeep a (by
        rcases Nat.lt_trichotomy p k with h | h | h
        · have := hbelow p h
          left
          omega
        · subst h
          left
          exact ha
        · have := habove p h
          right
          omega)]
      exact hinv.written p a hoffp ha
  · rw [if_neg hts]
    have hts2 : partitionOffset histogram k / cap = (st.write_buffer k).tuple_slot := by
      by_contra hcon
      exact hts hcon
    rw [← hts2] at hslot
    rw [if_neg (by omega)]
    have hclen : (((st.write_buffer k).tuples.drop (partitionOffset histogram k % cap)).take
        ((st.write_buffer k).buffer_slot - partitionOffset histogram k % cap)).length =
        histogram k := by
      rw [List.length_take, List.length_drop, hlen]
      omega
    obtain ⟨out, hout, holen, hkeep, hcopy⟩ := memcpyCells_spec output
      ((st.write_buffer k).tuple_slot * cap + partitionOffset histogram k % cap)
      (((st.write_buffer k).tuples.drop (partitionOffset histogram k % cap)).take
        ((st.write_buffer k).buffer_slot - partitionOffset histogram k % cap))
      (by rw [hclen, hinv.size_eq, ← hts2]; omega)
    rw [hclen, ← hts2] at hkeep hcopy
    refine ⟨out, hout, holen.trans hinv.size_eq, ?_, ?_⟩
    · intro p a hp hoffp ha
      by_cases hpk : p = k
      · subst hpk
        obtain ⟨j, rfl⟩ : ∃ j, a = partitionOffset histogram p / cap * cap +
            partitionOffset histogram p % cap + j :=
          ⟨a - partitionOffset histogram p, by omega⟩
        have hj : j < histogram p := by omega
        rw [hcopy j hj, List.getElem?_take_of_lt (by omega), List.getElem?_drop]
        have hpend := hprog.pending p (partitionOffset histogram p % cap + j) (by omega)
          (by rw [← hts2]; omega)
        rw [hpend, ← hts2]
        congr 2
        omega
      · have hp2 : p < k := by omega
        rw [hkeep a (Or.inl (by have := hbelow p hp2; omega))]
        exact hinv.flushed p a hp2 hoffp ha
    · intro p a hoffp ha
      rw [hkeep a (by
        rcases Nat.lt_trichotomy p k with h | h | h
        · have := hbelow p h
          left
          omega
        · subst h
          left
          rw [← hts2] at ha
          omega
        · have := habove p h
          right
          omega)]
      exact hinv.written p a hoffp ha

/-- The loop that writes what is left in the buffers reaches the state `FlushProgress` for
all the partitions. -/
theorem flushPartitions_progress (cap : Nat) (hash : Int → Nat) (mask : Nat)
    (histogram : Nat → Nat) (size : Nat) (values : List Int) (st : PartitionerState)
    (hcap : 0 < cap)
    (hfit : ∀ p, partitionOffset histogram p + histogram p ≤ size)
    (hhist : ∀ p, histogram p = (partitionOf hash mask values p).length)
    (hprog : PartitionProgress cap hash mask histogram size values st) :
    ∀ n, ∃ out, (List.range n).foldlM (flushPartition cap histogram st.write_buffer)
        st.output = some out ∧
      FlushProgress cap hash mask histogram size values st.write_buffer n out := by
  intro n
  induction n with
  | zero =>
    refine ⟨st.output, rfl, hprog.size_eq, ?_, hprog.written⟩
    intro p a hp
    cases hp
  | succ n ih =>
    obtain ⟨out, hfold, hinv⟩ := ih
    obtain ⟨out1, hstep, hinv1⟩ := flushPartition_progress cap hash mask histogram size values
      st n out hcap hfit hhist hprog hinv
    refine ⟨out1, ?_, hinv1⟩
    rw [List.range_succ, List.foldlM_append, hfold]
    simp only [Option.bind_eq_bind, Option.some_bind, List.foldlM_cons, List.foldlM_nil, hstep]
    rfl

theorem lines_cover (cap n : Nat) (hcap : 0 < cap) : n ≤ (n + cap - 1) / cap * cap := by
  have h := Nat.div_add_mod' (n + cap - 1) cap
  have h2 := Nat.mod_lt (n + cap - 1) hcap
  omega

/-- The function `RadixPartitioner::Partition` gives, for every partition, the tuples of
the partition in the order of the column. -/
theorem partition_spec (cap : Nat) (hash : Int → Nat) (r : Nat) (values : List Int)
    (hcap : 0 < cap) (hr : r < 31) (hn : values.length < 2 ^ 31) :
    Partition cap hash r values =
      some ((List.range (2 ^ r)).map
        (fun p => (partitionOf hash (2 ^ r - 1) values p).map some)) := by
  have hhist : ∀ p, buildHistogram hash (2 ^ r - 1) values p =
      (partitionOf hash (2 ^ r - 1) values p).length := buildHistogram_eq hash _ values
  have hfit : ∀ p, partitionOffset (buildHistogram hash (2 ^ r - 1) values) p +
      buildHistogram hash (2 ^ r - 1) values p ≤ (values.length + cap - 1) / cap * cap :=
    fun p => le_trans (partitionOffset_fit hash _ values p) (lines_cover cap _ hcap)
  obtain ⟨st, hfold, hprog⟩ := partitionTuples_progress cap hash (2 ^ r - 1)
    (buildHistogram hash (2 ^ r - 1) values) ((values.length + cap - 1) / cap * cap) values
    hcap (Dvd.intro_left _ rfl) hfit hhist values [] _ (List.nil_append _)
    (partition_start cap hash (2 ^ r - 1) (buildHistogram hash (2 ^ r - 1) values)
      ((values.length + cap - 1) / cap) hcap)
  obtain ⟨out, hflush, hinv⟩ := flushPartitions_progress cap hash (2 ^ r - 1)
    (buildHistogram hash (2 ^ r - 1) values) ((values.length + cap - 1) / cap * cap) values
    st hcap hfit hhist hprog (2 ^ r)
  unfold Partition
  rw [if_neg (by omega)]
  dsimp only
  rw [List.length_nil] at hfold
  unfold List.enum
  rw [hfold]
  dsimp only
  rw [hflush]
  dsimp only
  congr 1
  apply List.map_congr_left
  intro p hp
  have hp2 : p < 2 ^ r := List.mem_range.mp hp
  apply List.ext_getElem?
  intro j
  rw [List.getElem?_take, List.getElem?_drop, List.getElem?_map]
  by_cases hj : j < buildHistogram hash (2 ^ r - 1) values p
  · rw [if_pos hj, hinv.flushed p _ hp2 (by omega) (by omega)]
    congr 2
    omega
  · rw [if_neg hj, List.getElem?_eq_none_iff.mpr (by rw [← hhist p]; omega)]
    rfl

theorem filter_key_succ_perm {α : Type} (key : α → Nat) (l : List α) (p : Nat) :
    (l.filter (fun e => decide (key e < p)) ++ l.filter (fun e => decide (key e = p))).Perm
      (l.filter (fun e => decide (key e < p + 1))) := by
  induction l with
  | nil => exact List.Perm.refl _
  | cons x rest ih =>
    rw [List.filter_cons, List.filter_cons, List.filter_cons]
    by_cases h1 : key x < p
    · have h2 : key x < p + 1 := by omega
      have h3 : ¬ key x = p := by omega
      rw [decide_eq_true h1, decide_eq_true h2, decide_eq_false h3]
      simp only [if_true, Bool.false_eq_true, if_false, List.cons_append]
      exact List.Perm.cons x ih
    · by_cases h3 : key x = p
      · have h2 : key x < p + 1 := by omega
        rw [decide_eq_false h1, decide_eq_true h2, decide_eq_true h3]
        simp only [if_true, Bool.false_eq_true, if_false]
        exact List.perm_middle.trans (List.Perm.cons x ih)
      · have h2 : ¬ key x < p + 1 := by omega
        rw [decide_eq_false h1, decide_eq_false h2, decide_eq_false h3]
        simp only [Bool.false_eq_true, if_false]
        exact ih

theorem flatMap_filter_key_perm {α : Type} (key : α → Nat) (l : List α) (n : Nat) :
    ((List.range n).flatMap (fun p => l.filter (fun e => decide (key e = p)))).Perm
      (l.filter (fun e => decide (key e < n))) := by
  induction n with
  | zero => simp
  | succ n ih =>
    rw [List.range_succ, List.flatMap_append, List.flatMap_singleton]
    exact (List.Perm.append_right _ ih).trans (filter_key_succ_perm key l n)

theorem and_mask_lt (h r : Nat) : h &&& (2 ^ r - 1) < 2 ^ r := by
  have h1 : h &&& (2 ^ r - 1) ≤ 2 ^ r - 1 := Nat.and_le_right
  have h2 : 0 < 2 ^ r := Nat.two_pow_pos r
  omega

/-- The tuple ids of the partitions of a column are the positions of the column, each
once. -/
theorem partitionOf_perm (hash : Int → Nat) (r : Nat) (values : List Int) :
    ((((List.range (2 ^ r)).map (partitionOf hash (2 ^ r - 1) values)).flatten).map
      (fun tuple => tuple.tuple_id)).Perm (List.range values.length) := by
  have h1 := flatMap_filter_key_perm (fun e : Nat × Int => hash e.2 &&& (2 ^ r - 1))
    values.enum (2 ^ r)
  rw [List.filter_eq_self.mpr (fun e _ => decide_eq_true (and_mask_lt (hash e.2) r))] at h1
  have h2 := List.Perm.map Prod.fst h1
  rw [List.enum_map_fst, List.map_flatMap] at h2
  rw [← List.flatMap_def, List.map_flatMap]
  have h3 : (fun p => (partitionOf hash (2 ^ r - 1) values p).map (fun tuple => tuple.tuple_id)) =
      (fun p => (values.enum.filter
        (fun e => decide (hash e.2 &&& (2 ^ r - 1) = p))).map Prod.fst) := by
    funext p
    unfold partitionOf
    rw [List.map_map]
    rfl
  rw [h3]
  exact h2

theorem mem_partitionOf (hash : Int → Nat) (mask : Nat) (values : List Int) (p : Nat)
    (tuple : PartitionTuple) (h : tuple ∈ partitionOf hash mask values p) :
    values.get? tuple.tuple_id = some tuple.value ∧ hash tuple.value &&& mask = p := by
  unfold partitionOf at h
  obtain ⟨e, he, rfl⟩ := List.mem_map.mp h
  obtain ⟨he1, he2⟩ := List.mem_filter.mp he
  obtain ⟨i, v⟩ := e
  have hget := List.mk_mem_enum_iff_getElem?.mp he1
  exact ⟨by rw [List.get?_eq_getElem?]; exact hget, by simpa using he2⟩

/-- A column whose values are all `v` has all its tuples in the partition of `v`. -/
theorem partitionOf_constant (hash : Int → Nat) (mask : Nat) (values : List Int) (v : Int)
    (hv : ∀ x ∈ values, x = v) (p : Nat) :
    partitionOf hash mask values p =
      if p = hash v &&& mask then (List.range values.length).map (fun i => ⟨v, i⟩)
      else [] := by
  unfold partitionOf
  have hmem : ∀ e ∈ values.enum, e.2 = v := by
    intro e he
    obtain ⟨i, x⟩ := e
    have hget := List.mk_mem_enum_iff_getElem?.mp he
    exact hv x (List.getElem?_mem hget)
  by_cases hp : p = hash v &&& mask
  · rw [if_pos hp, List.filter_eq_self.mpr (fun e he => by
      rw [hmem e he, hp]
      exact decide_eq_true rfl)]
    rw [← List.enum_map_fst values, List.map_map]
    apply List.map_congr_left
    intro e he
    rw [hmem e he]
    rfl
  · rw [if_neg hp, List.filter_eq_nil_iff.mpr (fun e he => by
      rw [hmem e he]
      simp only [decide_eq_true_eq]
      exact fun hh => hp hh.symm)]
    rfl

theorem getD_range_map {β : Type} (f : Nat → List β) (n p : Nat) :
    ((List.range n).map f).getD p [] = if p < n then f p else [] := by
  rw [List.getD_eq_getElem?_getD, List.getElem?_map]
  by_cases hp : p < n
  · rw [if_pos hp, List.getElem?_range hp]
    rfl
  · rw [if_neg hp, List.getElem?_eq_none_iff.mpr (by rw [List.length_range]; omega)]
    rfl

theorem mapM_cell_some {α : Type} (l : List α) :
    (l.map some).mapM (fun cell => cell) = some l := by
  induction l with
  | nil => rfl
  | cons x rest ih =>
    rw [List.map_cons, List.mapM_cons, ih]
    rfl

theorem mapM_cells_some {α : Type} (ls : List (List α)) :
    (ls.map (fun cells => cells.map some)).mapM
      (fun cells => cells.mapM (fun cell => cell)) = some ls := by
  induction ls with
  | nil => rfl
  | cons l rest ih =>
    rw [List.map_cons, List.mapM_cons, mapM_cell_some, ih]
    rfl

/-- C1: for a column of fewer than `2^31` values and `1 ≤ num_radix_bits ≤ 30` radix bits
(and cache lines of at least one tuple), `RadixPartition` returns `2^num_radix_bits`
partition arrays of pairs (value, tuple id): partition `p` holds the tuples whose value has
`hash(value) & (2^num_radix_bits - 1) = p`, in the order of the column; the tuple ids of all
the partitions are the positions `0 .. N-1` of the column, each once; every pair has
`value = C[tuple_id]` and lies in the partition `hash(value) & mask`; and a column whose
values are all `v` has its `N` tuples in the partition `hash(v) & mask` and every other
partition empty. -/
theorem radixPartition_partitions (block_capacity : Nat) (hash : Int → Nat)
    (num_radix_bits column_id : Nat) (columns : List (List Int)) (values : List Int)
    (hcap : 0 < block_capacity) (hr : 0 < num_radix_bits) (hr2 : num_radix_bits < 31)
    (hcol : columns.get? column_id = some values) (hn : values.length < 2 ^ 31) :
    ∃ partitions,
      RadixPartition block_capacity hash num_radix_bits column_id columns = some partitions ∧
      partitions = (List.range (2 ^ num_radix_bits)).map
        (partitionOf hash (2 ^ num_radix_bits - 1) values) ∧
      partitions.length = 2 ^ num_radix_bits ∧
      ((partitions.flatten).map (fun tuple => tuple.tuple_id)).Perm
        (List.range values.length) ∧
      (∀ p tuple, tuple ∈ partitions.getD p [] →
        values.get? tuple.tuple_id = some tuple.value ∧
        hash tuple.value &&& (2 ^ num_radix_bits - 1) = p) ∧
      (∀ v, (∀ x ∈ values, x = v) → ∀ p, p < 2 ^ num_radix_bits →
        partitions.getD p [] =
          if p = hash v &&& (2 ^ num_radix_bits - 1) then
            (List.range values.length).map (fun i => ⟨v, i⟩)
          else []) := by
  refine ⟨_, ?_, rfl, by simp, partitionOf_perm hash num_radix_bits values, ?_, ?_⟩
  · unfold RadixPartition
    rw [if_neg (by omega), hcol]
    dsimp only
    rw [partition_spec block_capacity hash num_radix_bits values hcap hr2 hn]
    dsimp only
    have hmap : (List.range (2 ^ num_radix_bits)).map
        (fun p => (partitionOf hash (2 ^ num_radix_bits - 1) values p).map some) =
        ((List.range (2 ^ num_radix_bits)).map
          (partitionOf hash (2 ^ num_radix_bits - 1) values)).map
          (fun cells => cells.map some) := by
      rw [List.map_map]
      rfl
    rw [hmap]
    exact mapM_cells_some _
  · intro p tuple ht
    rw [getD_range_map] at ht
    by_cases hp : p < 2 ^ num_radix_bits
    · rw [if_pos hp] at ht
      exact mem_partitionOf hash _ values p tuple ht
    · rw [if_neg hp] at ht
      cases ht
  · intro v hv p hp
    rw [getD_range_map, if_pos hp]
    exact partitionOf_constant hash _ values v hv p

/-- The statement of `radixPartition_partitions` on a column of five values with one
radix bit, and the two partitions that `RadixPartition` returns. -/
theorem radixPartition_partitions_witness :
    RadixPartition 8 (fun v => v.toNat) 1 0 [[4, 1, 2, 6, 8]] =
      some [[⟨4, 0⟩, ⟨2, 2⟩, ⟨6, 3⟩, ⟨8, 4⟩], [⟨1, 1⟩]] ∧
    ∃ partitions,
      RadixPartition 8 (fun v => v.toNat) 1 0 [[4, 1, 2, 6, 8]] = some partitions ∧
      partitions = (List.range (2 ^ 1)).map
        (partitionOf (fun v => v.toNat) (2 ^ 1 - 1) [4, 1, 2, 6, 8]) ∧
      partitions.length = 2 ^ 1 ∧
      ((partitions.flatten).map (fun tuple => tuple.tuple_id)).Perm
        (List.range [(4 : Int), 1, 2, 6, 8].length) ∧
      (∀ p tuple, tuple ∈ partitions.getD p [] →
        [(4 : Int), 1, 2, 6, 8].get? tuple.tuple_id = some tuple.value ∧
        (fun v => v.toNat) tuple.value &&& (2 ^ 1 - 1) = p) ∧
      (∀ v, (∀ x ∈ [(4 : Int), 1, 2, 6, 8], x = v) → ∀ p, p < 2 ^ 1 →
        partitions.getD p [] =
          if p = (fun v => v.toNat) v &&& (2 ^ 1 - 1) then
            (List.range [(4 : Int), 1, 2, 6, 8].length).map (fun i => ⟨v, i⟩)
          else []) :=
  ⟨by decide,
   radixPartition_partitions 8 (fun v => v.toNat) 1 0 [[4, 1, 2, 6, 8]] [4, 1, 2, 6, 8]
    (by decide) (by decide) (by decide) rfl (by decide)⟩

end QuickFoil
